import Mathlib

/-!
# DOM Range (`WebCore/dom/dom2_rangeimpl.cpp`): boundary arithmetic and range core

A shallow embedding of `RangeImpl` over an explicit tree model.

* A node pointer (`NodeImpl*`) is a position in a forest: the root of one of the
  trees, or the `index`-th child of another pointer.  `parentNode()` and
  `nodeIndex()` read the pointer; everything that reads the node itself
  (`nodeType()`, `childNodeCount()`, `firstChild()`, ...) looks the pointer up in
  the `TreeModel` and is undefined (`none`) on a dangling pointer.
* A nullable pointer is `Ptr = Option NodeImpl`.
* Functions that dereference return `Option`: `none` is undefined behaviour
  (a null or dangling dereference) or, for the two sibling scans, an exhausted
  iteration bound.  All results below are proved to be `some _`.
* `ExceptionCode& ec` is threaded through explicitly: every operation takes the
  caller's value and returns the value it leaves behind.
-/

namespace WebCore

/-! ## Tree model -/

/-- Node kinds, `NodeImpl::NodeType`. -/
inductive NodeType where
  | ELEMENT_NODE
  | ATTRIBUTE_NODE
  | TEXT_NODE
  | CDATA_SECTION_NODE
  | ENTITY_REFERENCE_NODE
  | ENTITY_NODE
  | PROCESSING_INSTRUCTION_NODE
  | COMMENT_NODE
  | DOCUMENT_NODE
  | DOCUMENT_TYPE_NODE
  | DOCUMENT_FRAGMENT_NODE
  | NOTATION_NODE
  deriving DecidableEq, Repr

/-- Modelled from the spec: a `NodeImpl*` of the Tree Model (section 6), which is
not part of the sources.  A pointer names a node by its place: a root of the
forest or a child of another node. -/
inductive NodeImpl where
  | root (tree : Nat)
  | child (parent : NodeImpl) (index : Nat)
  deriving DecidableEq, Repr

/-- A nullable node pointer. -/
abbrev Ptr := Option NodeImpl

/-- Modelled from the spec: the contents of a node of the Tree Model: its kind,
its character data (UTF-16 code units; used by text, CDATA, comment and
processing-instruction nodes) and its ordered child list. -/
inductive Tree where
  | mk (nodeType : NodeType) (data : List Nat) (children : List Tree)

/-- Kind of a node. -/
def Tree.nodeType : Tree → NodeType
  | .mk k _ _ => k

/-- Character data of a node. -/
def Tree.data : Tree → List Nat
  | .mk _ d _ => d

/-- Ordered child list of a node. -/
def Tree.children : Tree → List Tree
  | .mk _ _ cs => cs

/-- Modelled from the spec: the Tree Model.  `roots` is the forest of all trees
(documents, fragments, detached subtrees), each with the owner document shared
by all of its nodes; `documentElement` is `DocumentImpl::documentElement()`. -/
structure TreeModel where
  roots : List (Ptr × Tree)
  documentElement : NodeImpl → Ptr

/-- Embeds `n->parentNode()`. -/
def NodeImpl.parentNode : NodeImpl → Ptr
  | .root _ => none
  | .child p _ => some p

/-- Embeds `n->nodeIndex()`: the number of preceding siblings (passed on as an
`int`; indices are taken to be below `2 ^ 31`). -/
def NodeImpl.nodeIndex : NodeImpl → Nat
  | .root _ => 0
  | .child _ i => i

/-- Index of the tree a pointer points into. -/
def NodeImpl.treeIndex : NodeImpl → Nat
  | .root t => t
  | .child p _ => p.treeIndex

/-- The node a pointer points to; `none` for a dangling pointer. -/
def TreeModel.node (tm : TreeModel) : NodeImpl → Option Tree
  | .root t => (tm.roots[t]?).map Prod.snd
  | .child p i => (tm.node p).bind fun t => t.children[i]?

/-- Embeds `n->nodeType()`. -/
def nodeType (tm : TreeModel) (n : NodeImpl) : Option NodeType :=
  (tm.node n).map Tree.nodeType

/-- Embeds `n->getDocument()`: the owner document of the tree `n` lives in. -/
def getDocument (tm : TreeModel) (n : NodeImpl) : Option Ptr :=
  (tm.node n).bind fun _ => (tm.roots[n.treeIndex]?).map Prod.fst

/-- Embeds `n->childNodeCount()`. -/
def childNodeCount (tm : TreeModel) (n : NodeImpl) : Option Nat :=
  (tm.node n).map fun t => t.children.length

/-- Embeds `static_cast<CharacterDataImpl*>(n)->length()`, and `data().length()` of a
processing instruction. -/
def length (tm : TreeModel) (n : NodeImpl) : Option Nat :=
  (tm.node n).map fun t => t.data.length

/-- Embeds `n->firstChild()`. -/
def firstChild (tm : TreeModel) (n : NodeImpl) : Option Ptr :=
  (tm.node n).map fun t => if 0 < t.children.length then some (.child n 0) else none

/-- Embeds `n->nextSibling()`. -/
def nextSibling (tm : TreeModel) (n : NodeImpl) : Option Ptr :=
  (tm.node n).bind fun _ =>
    match n with
    | .root _ => some none
    | .child p i =>
      (tm.node p).map fun t => if i + 1 < t.children.length then some (.child p (i + 1)) else none

/-- The root container: `while (r->parentNode()) r = r->parentNode();`. -/
def rootContainer : NodeImpl → NodeImpl
  | .root t => .root t
  | .child p _ => rootContainer p

/-! ## Exception codes -/

/-- Embeds `typedef int ExceptionCode`. -/
abbrev ExceptionCode := Int

/-- Modelled from the spec: `ExceptionCode.h` is not part of the sources; the
codes are those of W3C DOM Level 2 Core, with the Range codes offset by 200. -/
def INDEX_SIZE_ERR : ExceptionCode := 1
/-- DOM Core code 3. -/
def HIERARCHY_REQUEST_ERR : ExceptionCode := 3
/-- DOM Core code 4. -/
def WRONG_DOCUMENT_ERR : ExceptionCode := 4
/-- DOM Core code 7. -/
def NO_MODIFICATION_ALLOWED_ERR : ExceptionCode := 7
/-- DOM Core code 8. -/
def NOT_FOUND_ERR : ExceptionCode := 8
/-- DOM Core code 9. -/
def NOT_SUPPORTED_ERR : ExceptionCode := 9
/-- DOM Core code 11. -/
def INVALID_STATE_ERR : ExceptionCode := 11
/-- DOM Core code 12. -/
def SYNTAX_ERR : ExceptionCode := 12
/-- DOM Range code 1. -/
def BAD_BOUNDARYPOINTS_ERR : ExceptionCode := 201
/-- DOM Range code 2. -/
def INVALID_NODE_TYPE_ERR : ExceptionCode := 202

/-! ## Boundary arithmetic -/

/-- The inner loop of `commonAncestorContainer` (line 119):
`while (parentEnd && (parentStart != parentEnd)) parentEnd = parentEnd->parentNode();`
started at `parentEnd`; the result is the final `parentEnd`. -/
def walkToNode (parentStart : NodeImpl) : NodeImpl → Ptr
  | .root t => if parentStart ≠ .root t then none else some (.root t)
  | .child p i =>
    if parentStart ≠ .child p i then walkToNode parentStart p else some (.child p i)

/-- The outer loop of `commonAncestorContainer` (lines 117-123), started at
`parentStart`; the result is the final `parentStart`. -/
def commonAncestorLoop (containerB : Ptr) : NodeImpl → Ptr
  | .root t =>
    if some (.root t) = containerB.bind (walkToNode (.root t)) then some (.root t) else none
  | .child p i =>
    if some (.child p i) = containerB.bind (walkToNode (.child p i)) then some (.child p i)
    else commonAncestorLoop containerB p

/-- Embeds `RangeImpl::commonAncestorContainer(NodeImpl*, NodeImpl*)`, lines 113-129. -/
def commonAncestorContainer (tm : TreeModel) (containerA containerB : Ptr) : Option Ptr :=
  let parentStart : Ptr := containerA.bind (commonAncestorLoop containerB)
  match parentStart with
  | some r => some (some r)
  | none =>
    match containerA with
    | none => none
    | some a =>
      (getDocument tm a).bind fun d =>
        match d with
        | some doc => (tm.node doc).map fun _ => tm.documentElement doc
        | none => some none

/-- The loop `while (c && c->parentNode() != containerA) c = c->parentNode();`
(lines 304, 320, 338, 343) started at a non-null `c`; the result is the final `c`. -/
def walkToChildOf (containerA : Ptr) : NodeImpl → Ptr
  | .root t => if (none : Ptr) ≠ containerA then none else some (.root t)
  | .child p i => if some p ≠ containerA then walkToChildOf containerA p else some (.child p i)

/-- The loop `while (n != c && offsetC < offsetA) { offsetC++; n = n->nextSibling(); }`
(lines 309 and 325); the result is the final `offsetC`.  The first argument
bounds the number of iterations. -/
def countSiblings (tm : TreeModel) (c : Ptr) (offsetA : Int) : Nat → Ptr → Int → Option Int
  | 0, n, offsetC => if n ≠ c ∧ offsetC < offsetA then none else some offsetC
  | fuel + 1, n, offsetC =>
    if n ≠ c ∧ offsetC < offsetA then
      match n with
      | none => none
      | some m => (nextSibling tm m).bind fun n1 => countSiblings tm c offsetA fuel n1 (offsetC + 1)
    else some offsetC

/-- The loop of case 4 (lines 352-358) over the children of the common root;
falling out of the loop is the `assert(0); return 0;` of lines 361-362.  The
first argument bounds the number of iterations. -/
def scanChildren (tm : TreeModel) (childA childB : Ptr) : Nat → Ptr → Option Int
  | _, none => some 0
  | 0, some _ => none
  | fuel + 1, some n =>
    if some n = childA then some (-1)
    else if some n = childB then some 1
    else (nextSibling tm n).bind fun n1 => scanChildren tm childA childB fuel n1

/-- Embeds `RangeImpl::compareBoundaryPoints(NodeImpl*, int, NodeImpl*, int)`, lines 290-363. -/
def compareBoundaryPoints (tm : TreeModel) (containerA : Ptr) (offsetA : Int)
    (containerB : Ptr) (offsetB : Int) : Option Int :=
  -- case 1: both points have the same container
  if containerA = containerB then
    if offsetA = offsetB then some 0
    else if offsetA < offsetB then some (-1)
    else some 1
  else
    -- case 2: node C (container B or an ancestor) is a child node of A
    match containerB.bind (walkToChildOf containerA) with
    | some c =>
      match containerA with
      | none => none
      | some a =>
        (firstChild tm a).bind fun n =>
          (countSiblings tm (some c) offsetA offsetA.toNat n 0).map fun offsetC =>
            if offsetA ≤ offsetC then -1 else 1
    | none =>
      -- case 3: node C (container A or an ancestor) is a child node of B
      match containerA.bind (walkToChildOf containerB) with
      | some c =>
        match containerB with
        | none => none
        | some b =>
          (firstChild tm b).bind fun n =>
            (countSiblings tm (some c) offsetB offsetB.toNat n 0).map fun offsetC =>
              if offsetC < offsetB then -1 else 1
      | none =>
        -- case 4: containers A & B are siblings, or children of siblings
        (commonAncestorContainer tm containerA containerB).bind fun cmnRoot =>
          let childA : Ptr :=
            match containerA.bind (walkToChildOf cmnRoot) with
            | some x => some x
            | none => cmnRoot
          let childB : Ptr :=
            match containerB.bind (walkToChildOf cmnRoot) with
            | some x => some x
            | none => cmnRoot
          if childA = childB then some 0
          else
            match cmnRoot with
            | none => none
            | some r =>
              (childNodeCount tm r).bind fun cnt =>
                (firstChild tm r).bind fun n => scanChildren tm childA childB cnt n

/-! ## Range core -/

/-- The fields of `RangeImpl`. -/
structure RangeImpl where
  m_ownerDocument : Ptr
  m_startContainer : Ptr
  m_startOffset : Int
  m_endContainer : Ptr
  m_endOffset : Int
  m_detached : Bool
  deriving DecidableEq, Repr

/-- Embeds `RangeImpl::RangeImpl(DocumentImpl*)`, lines 42-48. -/
def RangeImpl.create (ownerDocument : Ptr) : RangeImpl :=
  { m_ownerDocument := ownerDocument
    m_startContainer := ownerDocument
    m_startOffset := 0
    m_endContainer := ownerDocument
    m_endOffset := 0
    m_detached := false }

/-- Embeds `RangeImpl::startContainer`, lines 60-68. -/
def RangeImpl.startContainer (r : RangeImpl) (ec : ExceptionCode) : Ptr × ExceptionCode :=
  if r.m_detached then (none, INVALID_STATE_ERR) else (r.m_startContainer, ec)

/-- Embeds `RangeImpl::startOffset`, lines 70-78. -/
def RangeImpl.startOffset (r : RangeImpl) (ec : ExceptionCode) : Int × ExceptionCode :=
  if r.m_detached then (0, INVALID_STATE_ERR) else (r.m_startOffset, ec)

/-- Embeds `RangeImpl::endContainer`, lines 80-88. -/
def RangeImpl.endContainer (r : RangeImpl) (ec : ExceptionCode) : Ptr × ExceptionCode :=
  if r.m_detached then (none, INVALID_STATE_ERR) else (r.m_endContainer, ec)

/-- Embeds `RangeImpl::endOffset`, lines 90-98. -/
def RangeImpl.endOffset (r : RangeImpl) (ec : ExceptionCode) : Int × ExceptionCode :=
  if r.m_detached then (0, INVALID_STATE_ERR) else (r.m_endOffset, ec)

/-- Embeds `RangeImpl::commonAncestorContainer(ExceptionCode&)`, lines 100-111. -/
def RangeImpl.commonAncestorContainer (tm : TreeModel) (r : RangeImpl) (ec : ExceptionCode) :
    Option (Ptr × ExceptionCode) :=
  if r.m_detached then some (none, INVALID_STATE_ERR)
  else
    (WebCore.commonAncestorContainer tm r.m_startContainer r.m_endContainer).map fun com =>
      (com, if com = none then WRONG_DOCUMENT_ERR else ec)

/-- Embeds `RangeImpl::collapsed`, lines 131-139. -/
def RangeImpl.collapsed (r : RangeImpl) (ec : ExceptionCode) : Bool × ExceptionCode :=
  if r.m_detached then (false, INVALID_STATE_ERR)
  else (r.m_startContainer = r.m_endContainer && r.m_startOffset = r.m_endOffset, ec)

/-- Embeds `RangeImpl::collapse`, lines 217-231. -/
def RangeImpl.collapse (r : RangeImpl) (toStart : Bool) (ec : ExceptionCode) :
    RangeImpl × ExceptionCode :=
  if r.m_detached then (r, INVALID_STATE_ERR)
  else if toStart then
    ({ r with m_endContainer := r.m_startContainer, m_endOffset := r.m_startOffset }, ec)
  else
    ({ r with m_startContainer := r.m_endContainer, m_startOffset := r.m_endOffset }, ec)

/-- The cast `(unsigned)offset` of a 32-bit `int`. -/
def toUnsigned (offset : Int) : Nat := (offset % 2 ^ 32).toNat

/-- Embeds `RangeImpl::checkNodeWOffset`, lines 870-898. -/
def checkNodeWOffset (tm : TreeModel) (n : Ptr) (offset : Int) (ec : ExceptionCode) :
    Option ExceptionCode :=
  let ec1 : ExceptionCode := if offset < 0 then INDEX_SIZE_ERR else ec
  match n with
  | none => none
  | some n =>
    (nodeType tm n).bind fun k =>
      match k with
      | .ENTITY_NODE | .NOTATION_NODE | .DOCUMENT_TYPE_NODE => some INVALID_NODE_TYPE_ERR
      | .TEXT_NODE | .COMMENT_NODE | .CDATA_SECTION_NODE =>
        (length tm n).map fun len => if toUnsigned offset > len then INDEX_SIZE_ERR else ec1
      | .PROCESSING_INSTRUCTION_NODE =>
        (length tm n).map fun len => if toUnsigned offset > len then INDEX_SIZE_ERR else ec1
      | _ =>
        (childNodeCount tm n).map fun cnt => if toUnsigned offset > cnt then INDEX_SIZE_ERR else ec1

/-- Embeds `RangeImpl::checkNodeBA`, lines 900-922. -/
def checkNodeBA (tm : TreeModel) (n : Ptr) (ec : ExceptionCode) : Option ExceptionCode :=
  match n with
  | none => none
  | some n =>
    (nodeType tm (rootContainer n)).bind fun rk =>
      if ¬ (rk = .ATTRIBUTE_NODE ∨ rk = .DOCUMENT_NODE ∨ rk = .DOCUMENT_FRAGMENT_NODE) then
        some INVALID_NODE_TYPE_ERR
      else
        (nodeType tm n).map fun k =>
          if k = .DOCUMENT_NODE ∨ k = .DOCUMENT_FRAGMENT_NODE ∨ k = .ATTRIBUTE_NODE ∨
              k = .ENTITY_NODE ∨ k = .NOTATION_NODE then INVALID_NODE_TYPE_ERR
          else ec

/-- Embeds `RangeImpl::setStart`, lines 141-177. -/
def RangeImpl.setStart (tm : TreeModel) (r : RangeImpl) (refNode : Ptr) (offset : Int)
    (ec : ExceptionCode) : Option (RangeImpl × ExceptionCode) :=
  if r.m_detached then some (r, INVALID_STATE_ERR)
  else
    match refNode with
    | none => some (r, NOT_FOUND_ERR)
    | some n =>
      (getDocument tm n).bind fun d =>
        if d ≠ r.m_ownerDocument then some (r, WRONG_DOCUMENT_ERR)
        else
          (checkNodeWOffset tm refNode offset ec).bind fun ec1 =>
            if ec1 ≠ 0 then some (r, ec1)
            else
              let r1 : RangeImpl := { r with m_startContainer := refNode, m_startOffset := offset }
              -- check if different root container
              (r1.m_endContainer.map rootContainer).bind fun endRootContainer =>
                (r1.m_startContainer.map rootContainer).bind fun startRootContainer =>
                  if startRootContainer ≠ endRootContainer then some (r1.collapse true ec1)
                  else
                    -- check if new start after end
                    (compareBoundaryPoints tm r1.m_startContainer r1.m_startOffset
                        r1.m_endContainer r1.m_endOffset).bind fun c =>
                      if c > 0 then some (r1.collapse true ec1) else some (r1, ec1)

/-- Embeds `RangeImpl::setEnd`, lines 179-215. -/
def RangeImpl.setEnd (tm : TreeModel) (r : RangeImpl) (refNode : Ptr) (offset : Int)
    (ec : ExceptionCode) : Option (RangeImpl × ExceptionCode) :=
  if r.m_detached then some (r, INVALID_STATE_ERR)
  else
    match refNode with
    | none => some (r, NOT_FOUND_ERR)
    | some n =>
      (getDocument tm n).bind fun d =>
        if d ≠ r.m_ownerDocument then some (r, WRONG_DOCUMENT_ERR)
        else
          (checkNodeWOffset tm refNode offset ec).bind fun ec1 =>
            if ec1 ≠ 0 then some (r, ec1)
            else
              let r1 : RangeImpl := { r with m_endContainer := refNode, m_endOffset := offset }
              -- check if different root container
              (r1.m_endContainer.map rootContainer).bind fun endRootContainer =>
                (r1.m_startContainer.map rootContainer).bind fun startRootContainer =>
                  let s2 : RangeImpl × ExceptionCode :=
                    if startRootContainer ≠ endRootContainer then r1.collapse false ec1
                    else (r1, ec1)
                  -- check if new end before start
                  (compareBoundaryPoints tm s2.1.m_startContainer s2.1.m_startOffset
                      s2.1.m_endContainer s2.1.m_endOffset).bind fun c =>
                    if c > 0 then some (s2.1.collapse false s2.2) else some s2

/-- The four values of `CompareHow`, and `invalid` for any other integer passed
in its place. -/
inductive CompareHow where
  | START_TO_START
  | START_TO_END
  | END_TO_END
  | END_TO_START
  | invalid
  deriving DecidableEq, Repr

/-- Embeds `RangeImpl::compareBoundaryPoints(CompareHow, const RangeImpl*, ExceptionCode&)`,
lines 233-288. -/
def RangeImpl.compareBoundaryPoints (tm : TreeModel) (r : RangeImpl) (how : CompareHow)
    (sourceRange : Option RangeImpl) (ec : ExceptionCode) : Option (Int × ExceptionCode) :=
  if r.m_detached then some (0, INVALID_STATE_ERR)
  else
    match sourceRange with
    | none => some (0, NOT_FOUND_ERR)
    | some src =>
      (r.commonAncestorContainer tm ec).bind fun thisCont =>
        (src.commonAncestorContainer tm thisCont.2).bind fun sourceCont =>
          let ec2 := sourceCont.2
          if ec2 ≠ 0 then some (0, ec2)
          else
            match thisCont.1, sourceCont.1 with
            | some tc, some sc =>
              (getDocument tm tc).bind fun d1 =>
                (getDocument tm sc).bind fun d2 =>
                  if d1 ≠ d2 then some (0, WRONG_DOCUMENT_ERR)
                  else if rootContainer tc ≠ rootContainer sc then
                    some (0, WRONG_DOCUMENT_ERR) -- in different DocumentFragments
                  else
                    match how with
                    | .START_TO_START =>
                      let c := src.startContainer ec2
                      let o := src.startOffset c.2
                      (WebCore.compareBoundaryPoints tm r.m_startContainer r.m_startOffset
                        c.1 o.1).map fun v => (v, o.2)
                    | .START_TO_END =>
                      let c := src.endContainer ec2
                      let o := src.endOffset c.2
                      (WebCore.compareBoundaryPoints tm r.m_startContainer r.m_startOffset
                        c.1 o.1).map fun v => (v, o.2)
                    | .END_TO_END =>
                      let c := src.endContainer ec2
                      let o := src.endOffset c.2
                      (WebCore.compareBoundaryPoints tm r.m_endContainer r.m_endOffset
                        c.1 o.1).map fun v => (v, o.2)
                    | .END_TO_START =>
                      let c := src.startContainer ec2
                      let o := src.startOffset c.2
                      (WebCore.compareBoundaryPoints tm r.m_endContainer r.m_endOffset
                        c.1 o.1).map fun v => (v, o.2)
                    | .invalid => some (0, SYNTAX_ERR)
            | _, _ => none

/-- Embeds `RangeImpl::boundaryPointsValid`, lines 370-373. -/
def RangeImpl.boundaryPointsValid (tm : TreeModel) (r : RangeImpl) : Option Bool :=
  (WebCore.compareBoundaryPoints tm r.m_startContainer r.m_startOffset
    r.m_endContainer r.m_endOffset).map fun c => decide (c ≤ 0)

/-- Embeds `RangeImpl::detach`, lines 853-863. -/
def RangeImpl.detach (r : RangeImpl) (ec : ExceptionCode) : RangeImpl × ExceptionCode :=
  if r.m_detached then (r, INVALID_STATE_ERR)
  else ({ r with m_startContainer := none, m_endContainer := none, m_detached := true }, ec)

/-- Embeds `RangeImpl::isDetached`, lines 865-868. -/
def RangeImpl.isDetached (r : RangeImpl) : Bool := r.m_detached

/-- Embeds `RangeImpl::cloneRange`, lines 924-932. -/
def RangeImpl.cloneRange (r : RangeImpl) (ec : ExceptionCode) : Option RangeImpl × ExceptionCode :=
  if r.m_detached then (none, INVALID_STATE_ERR)
  else
    (some { m_ownerDocument := r.m_ownerDocument
            m_startContainer := r.m_startContainer
            m_startOffset := r.m_startOffset
            m_endContainer := r.m_endContainer
            m_endOffset := r.m_endOffset
            m_detached := false }, ec)

/-- Embeds `RangeImpl::setStartAfter`, lines 934-956. -/
def RangeImpl.setStartAfter (tm : TreeModel) (r : RangeImpl) (refNode : Ptr)
    (ec : ExceptionCode) : Option (RangeImpl × ExceptionCode) :=
  if r.m_detached then some (r, INVALID_STATE_ERR)
  else
    match refNode with
    | none => some (r, NOT_FOUND_ERR)
    | some n =>
      (getDocument tm n).bind fun d =>
        if d ≠ r.m_ownerDocument then some (r, WRONG_DOCUMENT_ERR)
        else
          (checkNodeBA tm refNode ec).bind fun ec1 =>
            if ec1 ≠ 0 then some (r, ec1)
            else r.setStart tm n.parentNode (n.nodeIndex + 1) ec1

/-- Embeds `RangeImpl::setEndBefore`, lines 958-980. -/
def RangeImpl.setEndBefore (tm : TreeModel) (r : RangeImpl) (refNode : Ptr)
    (ec : ExceptionCode) : Option (RangeImpl × ExceptionCode) :=
  if r.m_detached then some (r, INVALID_STATE_ERR)
  else
    match refNode with
    | none => some (r, NOT_FOUND_ERR)
    | some n =>
      (getDocument tm n).bind fun d =>
        if d ≠ r.m_ownerDocument then some (r, WRONG_DOCUMENT_ERR)
        else
          (checkNodeBA tm refNode ec).bind fun ec1 =>
            if ec1 ≠ 0 then some (r, ec1)
            else r.setEnd tm n.parentNode n.nodeIndex ec1

/-- Embeds `RangeImpl::setEndAfter`, lines 982-1005. -/
def RangeImpl.setEndAfter (tm : TreeModel) (r : RangeImpl) (refNode : Ptr)
    (ec : ExceptionCode) : Option (RangeImpl × ExceptionCode) :=
  if r.m_detached then some (r, INVALID_STATE_ERR)
  else
    match refNode with
    | none => some (r, NOT_FOUND_ERR)
    | some n =>
      (getDocument tm n).bind fun d =>
        if d ≠ r.m_ownerDocument then some (r, WRONG_DOCUMENT_ERR)
        else
          (checkNodeBA tm refNode ec).bind fun ec1 =>
            if ec1 ≠ 0 then some (r, ec1)
            else r.setEnd tm n.parentNode (n.nodeIndex + 1) ec1

/-- Embeds `RangeImpl::setStartBefore`, lines 1168-1190. -/
def RangeImpl.setStartBefore (tm : TreeModel) (r : RangeImpl) (refNode : Ptr)
    (ec : ExceptionCode) : Option (RangeImpl × ExceptionCode) :=
  if r.m_detached then some (r, INVALID_STATE_ERR)
  else
    match refNode with
    | none => some (r, NOT_FOUND_ERR)
    | some n =>
      (getDocument tm n).bind fun d =>
        if d ≠ r.m_ownerDocument then some (r, WRONG_DOCUMENT_ERR)
        else
          (checkNodeBA tm refNode ec).bind fun ec1 =>
            if ec1 ≠ 0 then some (r, ec1)
            else r.setStart tm n.parentNode n.nodeIndex ec1

/-- The test of lines 1024-1026 and 1065-1067: entity, notation or document type. -/
def isEntityNotationOrDoctype (k : NodeType) : Bool :=
  k = .ENTITY_NODE || k = .NOTATION_NODE || k = .DOCUMENT_TYPE_NODE

/-- The loops of lines 1023-1031 and 1064-1072, started at a non-null node:
`true` when the loop hits a node of kind entity, notation or document type. -/
def ancestorOfDisallowedKind (tm : TreeModel) : NodeImpl → Option Bool
  | .root t => (nodeType tm (.root t)).map isEntityNotationOrDoctype
  | .child p i =>
    (nodeType tm (.child p i)).bind fun k =>
      if isEntityNotationOrDoctype k then some true else ancestorOfDisallowedKind tm p

/-- Embeds `RangeImpl::selectNode`, lines 1007-1047. -/
def RangeImpl.selectNode (tm : TreeModel) (r : RangeImpl) (refNode : Ptr)
    (ec : ExceptionCode) : Option (RangeImpl × ExceptionCode) :=
  if r.m_detached then some (r, INVALID_STATE_ERR)
  else
    match refNode with
    | none => some (r, NOT_FOUND_ERR)
    | some n =>
      (match n.parentNode with
        | none => some false
        | some anc => ancestorOfDisallowedKind tm anc).bind fun bad =>
        if bad then some (r, INVALID_NODE_TYPE_ERR)
        else
          (nodeType tm n).bind fun k =>
            if k = NodeType.DOCUMENT_NODE ∨ k = NodeType.DOCUMENT_FRAGMENT_NODE ∨
                k = NodeType.ATTRIBUTE_NODE ∨ k = NodeType.ENTITY_NODE ∨
                k = NodeType.NOTATION_NODE then some (r, INVALID_NODE_TYPE_ERR)
            else
              (r.setStartBefore tm refNode ec).bind fun s1 =>
                if s1.2 ≠ 0 then some s1 else s1.1.setEndAfter tm refNode s1.2

/-- Embeds `RangeImpl::selectNodeContents`, lines 1049-1078.  The child count is
stored in the `int` field as it is: child counts are taken to be below `2 ^ 31`. -/
def RangeImpl.selectNodeContents (tm : TreeModel) (r : RangeImpl) (refNode : Ptr)
    (ec : ExceptionCode) : Option (RangeImpl × ExceptionCode) :=
  if r.m_detached then some (r, INVALID_STATE_ERR)
  else
    match refNode with
    | none => some (r, NOT_FOUND_ERR)
    | some n =>
      (ancestorOfDisallowedKind tm n).bind fun bad =>
        if bad then some (r, INVALID_NODE_TYPE_ERR)
        else
          (childNodeCount tm n).map fun cnt =>
            ({ r with m_startContainer := refNode, m_startOffset := 0,
                      m_endContainer := refNode, m_endOffset := (cnt : Int) }, ec)

/-! ## Content operations: entry guards

The operations below change the tree.  Each is modelled as its entry guard on
`m_detached` followed by `rest`, the code of the function after the guard,
which is a parameter here. -/

/-- Embeds `RangeImpl::deleteContents`, lines 375-386; `rest` is lines 381-385. -/
def RangeImpl.deleteContents
    (rest : TreeModel → RangeImpl → ExceptionCode → Option (TreeModel × RangeImpl × ExceptionCode))
    (tm : TreeModel) (r : RangeImpl) (ec : ExceptionCode) :
    Option (TreeModel × RangeImpl × ExceptionCode) :=
  if r.m_detached then some (tm, r, INVALID_STATE_ERR) else rest tm r ec

/-- Embeds `RangeImpl::extractContents`, lines 682-694; `rest` is lines 689-693.  The
last component is the returned fragment, a new tree held as a value (`none` is
the null fragment). -/
def RangeImpl.extractContents
    (rest : TreeModel → RangeImpl → ExceptionCode →
      Option (TreeModel × RangeImpl × ExceptionCode × Option Tree))
    (tm : TreeModel) (r : RangeImpl) (ec : ExceptionCode) :
    Option (TreeModel × RangeImpl × ExceptionCode × Option Tree) :=
  if r.m_detached then some (tm, r, INVALID_STATE_ERR, none) else rest tm r ec

/-- Embeds `RangeImpl::cloneContents`, lines 696-704; `rest` is line 703. -/
def RangeImpl.cloneContents
    (rest : TreeModel → RangeImpl → ExceptionCode →
      Option (TreeModel × RangeImpl × ExceptionCode × Option Tree))
    (tm : TreeModel) (r : RangeImpl) (ec : ExceptionCode) :
    Option (TreeModel × RangeImpl × ExceptionCode × Option Tree) :=
  if r.m_detached then some (tm, r, INVALID_STATE_ERR, none) else rest tm r ec

/-- Embeds `RangeImpl::insertNode`, lines 706-789; `rest` is lines 713-788. -/
def RangeImpl.insertNode
    (rest : TreeModel → RangeImpl → Ptr → ExceptionCode →
      Option (TreeModel × RangeImpl × ExceptionCode))
    (tm : TreeModel) (r : RangeImpl) (newNode : Ptr) (ec : ExceptionCode) :
    Option (TreeModel × RangeImpl × ExceptionCode) :=
  if r.m_detached then some (tm, r, INVALID_STATE_ERR) else rest tm r newNode ec

/-- Embeds `RangeImpl::toString`, lines 791-811; `rest` is lines 798-810.  The null
`DOMString()` is `none`. -/
def RangeImpl.toString
    (rest : TreeModel → RangeImpl → ExceptionCode → Option (Option (List Nat) × ExceptionCode))
    (tm : TreeModel) (r : RangeImpl) (ec : ExceptionCode) :
    Option (Option (List Nat) × ExceptionCode) :=
  if r.m_detached then some (none, INVALID_STATE_ERR) else rest tm r ec

/-- Embeds `RangeImpl::createContextualFragment`, lines 831-850; `rest` is lines 838-849. -/
def RangeImpl.createContextualFragment
    (rest : TreeModel → RangeImpl → List Nat → ExceptionCode →
      Option (TreeModel × Ptr × ExceptionCode))
    (tm : TreeModel) (r : RangeImpl) (html : List Nat) (ec : ExceptionCode) :
    Option (TreeModel × Ptr × ExceptionCode) :=
  if r.m_detached then some (tm, none, INVALID_STATE_ERR) else rest tm r html ec

/-- Embeds `RangeImpl::surroundContents`, lines 1080-1166; `rest` is lines 1089-1165. -/
def RangeImpl.surroundContents
    (rest : TreeModel → RangeImpl → Ptr → ExceptionCode →
      Option (TreeModel × RangeImpl × ExceptionCode))
    (tm : TreeModel) (r : RangeImpl) (passNewParent : Ptr) (ec : ExceptionCode) :
    Option (TreeModel × RangeImpl × ExceptionCode) :=
  let newParent := passNewParent
  if r.m_detached then some (tm, r, INVALID_STATE_ERR) else rest tm r newParent ec

/-! ## Notions used to state the properties -/

/-- The chain of `n` and its ancestors, `n` first: `n`, `n->parentNode()`, ... -/
def NodeImpl.ancestors : NodeImpl → List NodeImpl
  | .root t => [.root t]
  | .child p i => .child p i :: p.ancestors

/-- Number of proper ancestors of a node. -/
def NodeImpl.depth : NodeImpl → Nat
  | .root _ => 0
  | .child p _ => p.depth + 1

/-- Child indices on the way from the root down to the node. -/
def NodeImpl.path : NodeImpl → List Nat
  | .root _ => []
  | .child p i => p.path ++ [i]

/-- A pointer is valid when it points to a node of the tree model. -/
def TreeModel.valid (tm : TreeModel) (n : NodeImpl) : Prop := (tm.node n).isSome = true

instance (tm : TreeModel) (n : NodeImpl) : Decidable (tm.valid n) := by
  unfold TreeModel.valid; infer_instance

/-- Text, comment, CDATA and processing-instruction nodes: the kinds whose
offsets count code units of `data`. -/
def isCharacterLike (k : NodeType) : Bool :=
  k = .TEXT_NODE || k = .COMMENT_NODE || k = .CDATA_SECTION_NODE ||
    k = .PROCESSING_INSTRUCTION_NODE

mutual
/-- Tree Model invariant: character-like nodes have no children. -/
def Tree.wellFormed : Tree → Bool
  | .mk k _ cs => (!(isCharacterLike k) || cs.isEmpty) && wellFormedList cs
/-- The invariant `Tree.wellFormed` for every tree of a list. -/
def wellFormedList : List Tree → Bool
  | [] => true
  | t :: ts => t.wellFormed && wellFormedList ts
end

/-- Tree Model invariant for the whole forest. -/
def TreeModel.wellFormed (tm : TreeModel) : Bool := wellFormedList (tm.roots.map Prod.snd)

/-- Position of a boundary point in document order, as a key: a child index `i`
on the path contributes `2 i + 1`, the offset `o` contributes the final `2 o`
(offset `o` lies just before child `o`). -/
def boundaryKey (n : NodeImpl) (offset : Int) : List Int :=
  n.path.map (fun i => 2 * (i : Int) + 1) ++ [2 * offset]

/-- Lexicographic order on keys. -/
def keyLe : List Int → List Int → Prop
  | [], _ => True
  | _ :: _, [] => False
  | x :: xs, y :: ys => x < y ∨ (x = y ∧ keyLe xs ys)

/-- The bound of a valid offset in a node: data length for character-like
nodes, child count for the others. -/
def offsetBound (t : Tree) : Nat :=
  if isCharacterLike t.nodeType then t.data.length else t.children.length

/-- Range `r` is left as `r1` by a call, made with a cleared exception code, of
one of the operations that set boundary points, and the call left the exception code `ec`. -/
def SetterCall (tm : TreeModel) (r r1 : RangeImpl) (ec : ExceptionCode) : Prop :=
  (∃ n k, r.setStart tm n k 0 = some (r1, ec)) ∨
  (∃ n k, r.setEnd tm n k 0 = some (r1, ec)) ∨
  (∃ n, r.setStartBefore tm n 0 = some (r1, ec)) ∨
  (∃ n, r.setStartAfter tm n 0 = some (r1, ec)) ∨
  (∃ n, r.setEndBefore tm n 0 = some (r1, ec)) ∨
  (∃ n, r.setEndAfter tm n 0 = some (r1, ec)) ∨
  (∃ n, r.selectNode tm n 0 = some (r1, ec)) ∨
  (∃ n, r.selectNodeContents tm n 0 = some (r1, ec))

/-! ## A small forest used in the examples -/

/-- A document: a document type, then an element with three element children;
the first holds a text node and an element with a text node, the second a text
node and a comment, the third is empty. -/
def sampleDocument : Tree :=
  .mk .DOCUMENT_NODE [] [
    .mk .DOCUMENT_TYPE_NODE [] [],
    .mk .ELEMENT_NODE [] [
      .mk .ELEMENT_NODE [] [
        .mk .TEXT_NODE [97, 98, 99] [],
        .mk .ELEMENT_NODE [] [.mk .TEXT_NODE [100, 101] []]],
      .mk .ELEMENT_NODE [] [.mk .TEXT_NODE [102, 103, 104] [], .mk .COMMENT_NODE [105] []],
      .mk .ELEMENT_NODE [] []]]

/-- The sample forest: the document (tree 0), a fragment of that document
holding one text node (tree 1), and a second document with one element (tree 2). -/
def sampleModel : TreeModel where
  roots :=
    [ (some (.root 0), sampleDocument),
      (some (.root 0), .mk .DOCUMENT_FRAGMENT_NODE [] [.mk .TEXT_NODE [106] []]),
      (some (.root 2), .mk .DOCUMENT_NODE [] [.mk .ELEMENT_NODE [] []]) ]
  documentElement := fun d =>
    if d = .root 0 then some (.child (.root 0) 1)
    else if d = .root 2 then some (.child (.root 2) 0)
    else none

/-- The document element of the sample document. -/
def sampleHtml : NodeImpl := .child (.root 0) 1

/-- First element child of `sampleHtml`. -/
def sampleP : NodeImpl := .child sampleHtml 0

/-- Second element child of `sampleHtml`. -/
def sampleDiv : NodeImpl := .child sampleHtml 1

/-- The text node inside the element inside `sampleP`. -/
def sampleDeepText : NodeImpl := .child (.child sampleP 1) 0

/-- A fresh range of the sample document. -/
def sampleRange : RangeImpl := RangeImpl.create (some (.root 0))

/-! ## Range equality and further Tree Model invariants -/

/-- Embeds `operator==(const RangeImpl&, const RangeImpl&)`, lines 1317-1335.  The
two shortcuts on the addresses of `a` and `b` are not modelled: a range compared
with itself gets the same answer from the remaining lines. -/
def operator_eq (a b : RangeImpl) : Bool :=
  let ad := a.isDetached
  let bd := b.isDetached
  if ad && bd then true
  else if ad || bd then false
  else
    let exception : ExceptionCode := 0
    decide ((a.startContainer exception).1 = (b.startContainer exception).1) &&
      decide ((a.endContainer exception).1 = (b.endContainer exception).1) &&
      decide ((a.startOffset exception).1 = (b.startOffset exception).1) &&
      decide ((a.endOffset exception).1 = (b.endOffset exception).1)

mutual
/-- Tree Model invariant on node kinds: entity and notation nodes are never
children of another node, and a document type node has no children. -/
def Tree.kindsWellFormed : Tree → Bool
  | .mk k _ cs => (!(decide (k = .DOCUMENT_TYPE_NODE)) || cs.isEmpty) && kindsWellFormedList cs
/-- The invariant `Tree.kindsWellFormed` for a list of children. -/
def kindsWellFormedList : List Tree → Bool
  | [] => true
  | t :: ts =>
    !(decide (t.nodeType = .ENTITY_NODE) || decide (t.nodeType = .NOTATION_NODE)) &&
      t.kindsWellFormed && kindsWellFormedList ts
end

/-- The invariant `Tree.kindsWellFormed` for every tree of the forest. -/
def TreeModel.kindsWellFormed (tm : TreeModel) : Bool :=
  tm.roots.all fun x => x.2.kindsWellFormed

/-- The condition of `checkNodeBA` (lines 902-904) on the kind `rk` of the root
container and the kind `k` of the node itself. -/
def positionRejected (rk k : NodeType) : Prop :=
  ¬ (rk = .ATTRIBUTE_NODE ∨ rk = .DOCUMENT_NODE ∨ rk = .DOCUMENT_FRAGMENT_NODE) ∨
    (k = .DOCUMENT_NODE ∨ k = .DOCUMENT_FRAGMENT_NODE ∨ k = .ATTRIBUTE_NODE ∨
      k = .ENTITY_NODE ∨ k = .NOTATION_NODE)

instance (rk k : NodeType) : Decidable (positionRejected rk k) := by
  unfold positionRejected; infer_instance

/-- Some node on the chain from `n` up to its root is an entity, notation or
document type node. -/
def hasDisallowedAncestorOrSelf (tm : TreeModel) (n : NodeImpl) : Bool :=
  n.ancestors.any fun a =>
    match tm.node a with
    | some t => isEntityNotationOrDoctype t.nodeType
    | none => false

/-! ## Tree Model: reading and changing the tree -/

/-- Embeds `n->previousSibling()`. -/
def previousSibling (tm : TreeModel) (n : NodeImpl) : Option Ptr :=
  (tm.node n).bind fun _ =>
    match n with
    | .root _ => some none
    | .child p i => if i = 0 then some none else some (some (.child p (i - 1)))

/-- Embeds `n->childNode(index)`: the child with that index, or null. -/
def childNode (tm : TreeModel) (n : NodeImpl) (index : Nat) : Option Ptr :=
  (tm.node n).map fun t => if index < t.children.length then some (.child n index) else none

/-- Embeds `n->offsetInCharacters()`.  Modelled from the spec: true for the
character-like kinds (text, CDATA, comment, processing instruction). -/
def offsetInCharacters (tm : TreeModel) (n : NodeImpl) : Option Bool :=
  (nodeType tm n).map isCharacterLike

/-- Embeds `n->traverseNextSibling()`.  Modelled from the spec (depth-first walk):
the next node in document order that is not below `n`, or null. -/
def traverseNextSibling (tm : TreeModel) : NodeImpl → Option Ptr
  | .root t => (tm.node (.root t)).map fun _ => none
  | .child p i =>
    match nextSibling tm (.child p i) with
    | none => none
    | some (some s) => some (some s)
    | some none => traverseNextSibling tm p

/-- Embeds `n->traverseNextNode()`.  Modelled from the spec (depth-first walk):
the first child if there is one, else `traverseNextSibling()`. -/
def traverseNextNode (tm : TreeModel) (n : NodeImpl) : Option Ptr :=
  match firstChild tm n with
  | none => none
  | some (some c) => some (some c)
  | some none => traverseNextSibling tm n

mutual
/-- Number of nodes of a tree. -/
def Tree.size : Tree → Nat
  | .mk _ _ cs => 1 + sizeList cs
/-- Number of nodes of a list of trees. -/
def sizeList : List Tree → Nat
  | [] => 0
  | t :: ts => t.size + sizeList ts
end

/-- Number of nodes of the forest. -/
def TreeModel.size (tm : TreeModel) : Nat := sizeList (tm.roots.map Prod.snd)

/-- The node `t` with another child list. -/
def Tree.withChildren (t : Tree) (cs : List Tree) : Tree := .mk t.nodeType t.data cs

/-- The node `t` with other character data. -/
def Tree.withData (t : Tree) (d : List Nat) : Tree := .mk t.nodeType d t.children

/-- Store `new` as the node at place `n`, keeping the rest of the forest; `none`
for a dangling pointer. -/
def TreeModel.replace (tm : TreeModel) : NodeImpl → Tree → Option TreeModel
  | .root t, new =>
    match tm.roots[t]? with
    | some x => some { tm with roots := tm.roots.set t (x.1, new) }
    | none => none
  | .child p i, new =>
    match tm.node p with
    | some tp =>
      if i < tp.children.length then tm.replace p (tp.withChildren (tp.children.set i new))
      else none
    | none => none

/-- Where the node that was at place `q` is after child `j` of `p` has been taken
out of the tree: the later children of `p`, and everything below them, move one
index down; every other place stays. -/
def relocate (p : NodeImpl) (j : Nat) : NodeImpl → NodeImpl
  | .root t => .root t
  | .child q i =>
    if q = p then .child p (if j < i then i - 1 else i) else .child (relocate p j q) i

/-- Modelled from the spec: the removal that `appendChild(n)`, `insertBefore(n, ..)`
and `removeChild(n)` perform on a node `n` that has a parent.  Returns the new
forest, the subtree taken out, and the relocation of the remaining nodes. -/
def detachNode (tm : TreeModel) : NodeImpl → Option (TreeModel × Tree × (NodeImpl → NodeImpl))
  | .root _ => none
  | .child p j =>
    (tm.node p).bind fun tp =>
      (tp.children[j]?).bind fun sub =>
        (tm.replace p (tp.withChildren (tp.children.eraseIdx j))).map fun tm1 =>
          (tm1, sub, relocate p j)

/-- Modelled from the spec: `parent->removeChild(oldChild, ec)` of the Tree Model;
`NOT_FOUND_ERR` when `oldChild` is not a child of `parent`. -/
def removeChild (tm : TreeModel) (parent : Ptr) (oldChild : NodeImpl) (ec : ExceptionCode) :
    Option (TreeModel × ExceptionCode × (NodeImpl → NodeImpl)) :=
  match parent with
  | none => none
  | some _ =>
    if oldChild.parentNode = parent then
      (detachNode tm oldChild).map fun x => (x.1, ec, x.2.2)
    else some (tm, NOT_FOUND_ERR, id)

/-- Modelled from the spec: `n->cloneNode(deep)`; the copy is a new node, held
as a value until it is put into a tree. -/
def cloneNode (tm : TreeModel) (n : NodeImpl) (deep : Bool) : Option Tree :=
  (tm.node n).map fun t => if deep then t else t.withChildren []

/-- Modelled from the spec: `CharacterDataImpl::deleteData(offset, count, ec)` on a
node held as a value: `INDEX_SIZE_ERR` when `offset` exceeds the length,
otherwise `count` units from `offset` on are removed (fewer at the end of the data). -/
def Tree.deleteData (t : Tree) (offset count : Nat) (ec : ExceptionCode) :
    Tree × ExceptionCode :=
  if offset > t.data.length then (t, INDEX_SIZE_ERR)
  else (t.withData (t.data.take offset ++ t.data.drop (offset + count)), ec)

/-- Modelled from the spec: `deleteData(offset, count, ec)` on a node of the forest. -/
def deleteData (tm : TreeModel) (n : NodeImpl) (offset count : Nat) (ec : ExceptionCode) :
    Option (TreeModel × ExceptionCode) :=
  (tm.node n).bind fun t =>
    (tm.replace n (t.deleteData offset count ec).1).map fun tm1 =>
      (tm1, (t.deleteData offset count ec).2)

/-- Modelled from the spec: `parent->appendChild(newChild, ec)` for a `parent`
under construction (held as a value) and a `newChild` that has no parent any
more: `NOT_FOUND_ERR` for a null child; a null `parent` is a null dereference. -/
def appendChild (parent : Option Tree) (newChild : Option Tree) (ec : ExceptionCode) :
    Option (Option Tree × ExceptionCode) :=
  match parent with
  | none => none
  | some t =>
    match newChild with
    | none => some (some t, NOT_FOUND_ERR)
    | some c => some (some (t.withChildren (t.children ++ [c])), ec)

/-- Modelled from the spec: `parent->insertBefore(newChild, parent->firstChild(), ec)`
for a `parent` under construction: the new child becomes the first child. -/
def insertBeforeFirstChild (parent : Option Tree) (newChild : Option Tree)
    (ec : ExceptionCode) : Option (Option Tree × ExceptionCode) :=
  match parent with
  | none => none
  | some t =>
    match newChild with
    | none => some (some t, NOT_FOUND_ERR)
    | some c => some (some (t.withChildren (c :: t.children)), ec)


/-- Embeds `RangeImpl::containedByReadOnly`, lines 1212-1224, for one container: the
loop over the container and its ancestors.  `isReadOnly` is the Tree Model's
`isReadOnly()` flag. -/
def chainReadOnly (isReadOnly : NodeImpl → Bool) : NodeImpl → Bool
  | .root t => isReadOnly (.root t)
  | .child p i => if isReadOnly (.child p i) then true else chainReadOnly isReadOnly p

/-- Embeds `RangeImpl::containedByReadOnly`, lines 1212-1224. -/
def RangeImpl.containedByReadOnly (isReadOnly : NodeImpl → Bool) (r : RangeImpl) : Bool :=
  if (match r.m_startContainer with
      | some n => chainReadOnly isReadOnly n
      | none => false) then true
  else if (match r.m_endContainer with
      | some n => chainReadOnly isReadOnly n
      | none => false) then true
  else false

/-- Embeds `RangeImpl::startNode`, lines 1236-1248. -/
def RangeImpl.startNode (tm : TreeModel) (r : RangeImpl) : Option Ptr :=
  match r.m_startContainer with
  | none => some none
  | some c =>
    (offsetInCharacters tm c).bind fun inChars =>
      if inChars then some (some c)
      else
        (childNode tm c (toUnsigned r.m_startOffset)).bind fun child =>
          match child with
          | some ch => some (some ch)
          | none => if r.m_startOffset = 0 then some (some c) else traverseNextSibling tm c

/-- Embeds `RangeImpl::pastEndNode`, lines 1276-1286. -/
def RangeImpl.pastEndNode (tm : TreeModel) (r : RangeImpl) : Option Ptr :=
  match r.m_endContainer with
  | none => some none
  | some c =>
    (offsetInCharacters tm c).bind fun inChars =>
      if inChars then traverseNextSibling tm c
      else
        (childNode tm c (toUnsigned r.m_endOffset)).bind fun child =>
          match child with
          | some ch => some (some ch)
          | none => traverseNextSibling tm c

/-- The loop of `checkDeleteExtract`, lines 1195-1204: `some e` when the function
returns from inside the loop with exception code `e`, `none` when the loop runs
to its end.  The first argument bounds the number of iterations. -/
def checkDeleteExtractLoop (isReadOnly : NodeImpl → Bool) (tm : TreeModel) (pastEnd : Ptr) :
    Nat → Ptr → Option (Option ExceptionCode)
  | fuel, n =>
    if n = pastEnd then some none
    else
      match fuel, n with
      | _, none => none
      | 0, some _ => none
      | fuel + 1, some m =>
        (nodeType tm m).bind fun k =>
          if isReadOnly m then some (some NO_MODIFICATION_ALLOWED_ERR)
          else if k = NodeType.DOCUMENT_TYPE_NODE then some (some HIERARCHY_REQUEST_ERR)
          else
            (traverseNextNode tm m).bind fun n1 =>
              checkDeleteExtractLoop isReadOnly tm pastEnd fuel n1

/-- Embeds `RangeImpl::checkDeleteExtract`, lines 1192-1210. -/
def checkDeleteExtract (isReadOnly : NodeImpl → Bool) (tm : TreeModel) (r : RangeImpl)
    (ec : ExceptionCode) : Option ExceptionCode :=
  (r.pastEndNode tm).bind fun pastEnd =>
    (r.startNode tm).bind fun start =>
      (checkDeleteExtractLoop isReadOnly tm pastEnd tm.size start).bind fun returned =>
        match returned with
        | some e => some e
        | none =>
          if r.containedByReadOnly isReadOnly then some NO_MODIFICATION_ALLOWED_ERR
          else some ec


/-! ## The content processor -/

/-- Embeds `RangeImpl::ActionType`. -/
inductive ActionType where
  | DELETE_CONTENTS
  | EXTRACT_CONTENTS
  | CLONE_CONTENTS
  deriving DecidableEq, Repr

/-- The node pointers that `processContents` holds while it changes the tree:
the two containers of the range and the locals `cmnRoot`, `partialStart` and
`partialEnd`.  A change of the tree moves nodes to other places; every pointer
held across the change is mapped through the relocation of that change, so
that it keeps pointing to the same node. -/
structure Frame where
  range : RangeImpl
  cmnRoot : Ptr
  partialStart : Ptr
  partialEnd : Ptr

/-- The range with both containers mapped through a relocation. -/
def RangeImpl.relocate (f : NodeImpl → NodeImpl) (r : RangeImpl) : RangeImpl :=
  { r with m_startContainer := r.m_startContainer.map f, m_endContainer := r.m_endContainer.map f }

/-- The frame with every pointer mapped through a relocation. -/
def Frame.relocate (f : NodeImpl → NodeImpl) (fr : Frame) : Frame :=
  { range := fr.range.relocate f
    cmnRoot := fr.cmnRoot.map f
    partialStart := fr.partialStart.map f
    partialEnd := fr.partialEnd.map f }

/-- The test `i < m_endOffset` of the loop of line 448; the other loops have no
such test. -/
def belowLimit (limit : Option Nat) (i : Nat) : Bool :=
  match limit with
  | some l => i < l
  | none => true

/-- What the forward sibling loops leave behind: forest, frame, the pointer to
the parent of the siblings, the node being filled, exception code. -/
abbrev LoopResult := TreeModel × Frame × Ptr × Option Tree × ExceptionCode

/-- The forward sibling loops of `processContents`:
lines 448-458 (`limit` is `m_endOffset`, no `stop`), 509-518 and 531-539 (neither),
648-657 (`stop` is `processEnd`).  Each pass reads `next = n->nextSibling()`, then
appends `n` to `acc` (extract, which takes `n` out of its parent), appends a deep
copy of `n` to `acc` (clone) or calls `parent->removeChild(n)` (delete), and
goes on with `next`.  The first argument bounds the number of passes. -/
def forwardLoop (action : ActionType) (limit : Option Nat) :
    Nat → TreeModel → Frame → Ptr → Ptr → Option Tree → Ptr → Nat → ExceptionCode →
      Option LoopResult
  | fuel, tm, fr, parent, stop, acc, n, i, ec =>
    match n with
    | none => some (tm, fr, parent, acc, ec)
    | some m =>
      if n = stop || !(belowLimit limit i) then some (tm, fr, parent, acc, ec)
      else
        match fuel with
        | 0 => none
        | fuel + 1 =>
          (nextSibling tm m).bind fun next =>
            match action with
            | .EXTRACT_CONTENTS =>
              (detachNode tm m).bind fun d =>
                (appendChild acc (some d.2.1) ec).bind fun a =>
                  forwardLoop action limit fuel d.1 (fr.relocate d.2.2) (parent.map d.2.2)
                    (stop.map d.2.2) a.1 (next.map d.2.2) (i + 1) a.2
            | .CLONE_CONTENTS =>
              (cloneNode tm m true).bind fun c =>
                (appendChild acc (some c) ec).bind fun a =>
                  forwardLoop action limit fuel tm fr parent stop a.1 next (i + 1) a.2
            | .DELETE_CONTENTS =>
              (removeChild tm parent m ec).bind fun d =>
                forwardLoop action limit fuel d.1 (fr.relocate d.2.2) (parent.map d.2.2)
                  (stop.map d.2.2) acc (next.map d.2.2) (i + 1) d.2.1

/-- The backward sibling loops of `processContents`, lines 576-584 and 598-606.
Each pass reads `prev = n->previousSibling()`, then inserts `n` (extract) or a
deep copy of `n` (clone) before the first child of `acc`, or calls
`parent->removeChild(n)` (delete), and goes on with `prev`. -/
def backwardLoop (action : ActionType) :
    Nat → TreeModel → Frame → Ptr → Option Tree → Ptr → ExceptionCode → Option LoopResult
  | fuel, tm, fr, parent, acc, n, ec =>
    match n with
    | none => some (tm, fr, parent, acc, ec)
    | some m =>
      match fuel with
      | 0 => none
      | fuel + 1 =>
        (previousSibling tm m).bind fun prev =>
          match action with
          | .EXTRACT_CONTENTS =>
            (detachNode tm m).bind fun d =>
              (insertBeforeFirstChild acc (some d.2.1) ec).bind fun a =>
                backwardLoop action fuel d.1 (fr.relocate d.2.2) (parent.map d.2.2) a.1
                  (prev.map d.2.2) a.2
          | .CLONE_CONTENTS =>
            (cloneNode tm m true).bind fun c =>
              (insertBeforeFirstChild acc (some c) ec).bind fun a =>
                backwardLoop action fuel tm fr parent a.1 prev a.2
          | .DELETE_CONTENTS =>
            (removeChild tm parent m ec).bind fun d =>
              backwardLoop action fuel d.1 (fr.relocate d.2.2) (parent.map d.2.2) acc
                (prev.map d.2.2) d.2.1

/-- A bound on the number of passes of a sibling loop started at `n`: the number
of children of the parent of `n`. -/
def siblingBound (tm : TreeModel) (n : Ptr) : Nat :=
  match n with
  | some (.child p _) =>
    match tm.node p with
    | some tp => tp.children.length
    | none => 0
  | _ => 0

/-- The loops `for (i = 0; n && i < offset; i++) n = n->nextSibling();` of lines
446-447 and 507-508; the result is the final `n` and `i`. -/
def skipSiblings (tm : TreeModel) (offset : Nat) : Nat → Ptr → Nat → Option (Ptr × Nat)
  | _, none, i => some (none, i)
  | 0, some m, i => if i < offset then none else some (some m, i)
  | fuel + 1, some m, i =>
    if i < offset then (nextSibling tm m).bind fun n1 => skipSiblings tm offset fuel n1 (i + 1)
    else some (some m, i)

/-- The loops `for (i = 0; i < offset; i++) p = p->nextSibling();` of lines 617-618
and 630-631, which do not test `p`. -/
def advanceSiblings (tm : TreeModel) : Nat → Ptr → Option Ptr
  | 0, p => some p
  | k + 1, p =>
    match p with
    | none => none
    | some m => (nextSibling tm m).bind fun n1 => advanceSiblings tm k n1

/-- The loop of lines 569-574:
`for (i = 0; i+1 < m_endOffset; i++) { next = n->nextSibling(); if (!next) break; n = next; }`. -/
def lastBefore (tm : TreeModel) (endOffset : Nat) : Nat → NodeImpl → Nat → Option NodeImpl
  | 0, n, i => if i + 1 < endOffset then none else some n
  | fuel + 1, n, i =>
    if i + 1 < endOffset then
      (nextSibling tm n).bind fun next =>
        match next with
        | none => some n
        | some m => lastBefore tm endOffset fuel m (i + 1)
    else some n

/-- Whether the action builds a fragment. -/
def ActionType.copies (action : ActionType) : Bool :=
  action = .EXTRACT_CONTENTS || action = .CLONE_CONTENTS

/-- Whether the action changes the tree. -/
def ActionType.removes (action : ActionType) : Bool :=
  action = .EXTRACT_CONTENTS || action = .DELETE_CONTENTS

/-- The test of lines 427-429, 486-488 and 548-550: text, CDATA section or comment. -/
def isTextCDataOrComment (k : NodeType) : Bool :=
  k = .TEXT_NODE || k = .CDATA_SECTION_NODE || k = .COMMENT_NODE

/-- One pass of the loop over the ancestors of the start container, lines
524-539: `leftContents` gets a copy of `leftParent` as its new parent, and the
siblings from `n` on are processed. -/
def leftLevel (action : ActionType) (tm : TreeModel) (fr : Frame) (leftParent : NodeImpl)
    (n : Ptr) (leftContents : Option Tree) (ec : ExceptionCode) : Option LoopResult :=
  (if action.copies then
      (cloneNode tm leftParent false).bind fun leftContentsParent =>
        (appendChild (some leftContentsParent) leftContents ec)
    else some (leftContents, ec)).bind fun a =>
    forwardLoop action none (siblingBound tm n) tm fr (some leftParent) none a.1 n 0 a.2

/-- The loop over the ancestors of the start container, lines 523-541, started
with `leftParent` and `n`; the result is the forest, frame, `leftContents` and
exception code it leaves.  The first argument bounds the number of levels. -/
def leftLevels (action : ActionType) :
    Nat → TreeModel → Frame → Ptr → Ptr → Option Tree → ExceptionCode →
      Option (TreeModel × Frame × Option Tree × ExceptionCode)
  | fuel, tm, fr, leftParent, n, leftContents, ec =>
    if leftParent = fr.cmnRoot then some (tm, fr, leftContents, ec)
    else
      match fuel, leftParent with
      | _, none => none
      | 0, some _ => none
      | fuel + 1, some lp =>
        (leftLevel action tm fr lp n leftContents ec).bind fun l =>
          match l.2.2.1 with
          | none => none
          | some lp1 =>
            (nextSibling l.1 lp1).bind fun n1 =>
              leftLevels action fuel l.1 l.2.1 lp1.parentNode n1 l.2.2.2.1 l.2.2.2.2

/-- One pass of the loop over the ancestors of the end container, lines
591-606. -/
def rightLevel (action : ActionType) (tm : TreeModel) (fr : Frame) (rightParent : NodeImpl)
    (n : Ptr) (rightContents : Option Tree) (ec : ExceptionCode) : Option LoopResult :=
  (if action.copies then
      (cloneNode tm rightParent false).bind fun rightContentsParent =>
        (appendChild (some rightContentsParent) rightContents ec)
    else some (rightContents, ec)).bind fun a =>
    backwardLoop action (siblingBound tm n) tm fr (some rightParent) a.1 n a.2

/-- The loop over the ancestors of the end container, lines 590-608. -/
def rightLevels (action : ActionType) :
    Nat → TreeModel → Frame → Ptr → Ptr → Option Tree → ExceptionCode →
      Option (TreeModel × Frame × Option Tree × ExceptionCode)
  | fuel, tm, fr, rightParent, n, rightContents, ec =>
    if rightParent = fr.cmnRoot then some (tm, fr, rightContents, ec)
    else
      match fuel, rightParent with
      | _, none => none
      | 0, some _ => none
      | fuel + 1, some rp =>
        (rightLevel action tm fr rp n rightContents ec).bind fun l =>
          match l.2.2.1 with
          | none => none
          | some rp1 =>
            (previousSibling l.1 rp1).bind fun n1 =>
              rightLevels action fuel l.1 l.2.1 rp1.parentNode n1 l.2.2.2.1 l.2.2.2.2

/-- The loop `while (p->parentNode() != cmnRoot) p = p->parentNode();` of lines
408-409, 416-417, 622-623 and 635-636, which does not test `p`; the result is the
final `p`, and `none` stands for the dereference of a null `p`. -/
def climbToChildOf (cmnRoot : Ptr) : NodeImpl → Option NodeImpl
  | .root t => if (none : Ptr) ≠ cmnRoot then none else some (.root t)
  | .child p i => if some p ≠ cmnRoot then climbToChildOf cmnRoot p else some (.child p i)

/-- Lines 405-410 and 413-418: the highest node that partially selects the start
(end) of the range, null when the container is `cmnRoot`. -/
def partialContainer (cmnRoot container : Ptr) : Option Ptr :=
  if container ≠ cmnRoot then
    match container with
    | none => none
    | some c => (climbToChildOf cmnRoot c).map some
  else some none

/-- What a part of `processContents` leaves behind: forest, frame, the node
being filled (`fragment`, `leftContents` or `rightContents`), exception code. -/
abbrev PartResult := TreeModel × Frame × Option Tree × ExceptionCode

/-- The simple case of `processContents`, lines 426-463, up to the collapse of
line 461. -/
def processSimple (action : ActionType) (tm : TreeModel) (fr : Frame) (fragment : Option Tree)
    (ec : ExceptionCode) : Option PartResult :=
  match fr.range.m_startContainer with
  | none => none
  | some sc =>
    (nodeType tm sc).bind fun k =>
      if isTextCDataOrComment k then
        (if action.copies then
            (cloneNode tm sc true).bind fun c =>
              let c1 := c.deleteData (toUnsigned fr.range.m_endOffset)
                (toUnsigned (c.data.length - fr.range.m_endOffset)) ec
              let c2 := c1.1.deleteData 0 (toUnsigned fr.range.m_startOffset) c1.2
              appendChild fragment (some c2.1) c2.2
          else some (fragment, ec)).bind fun a =>
          if action.removes then
            (deleteData tm sc (toUnsigned fr.range.m_startOffset)
              (toUnsigned (fr.range.m_endOffset - fr.range.m_startOffset)) a.2).map fun d =>
                (d.1, fr, a.1, d.2)
          else some (tm, fr, a.1, a.2)
      else if k = NodeType.PROCESSING_INSTRUCTION_NODE then some (tm, fr, fragment, ec)
      else
        (firstChild tm sc).bind fun n0 =>
          (skipSiblings tm (toUnsigned fr.range.m_startOffset) (siblingBound tm n0) n0 0).bind
            fun sk =>
              (forwardLoop action (some (toUnsigned fr.range.m_endOffset)) (siblingBound tm n0)
                tm fr fr.range.m_startContainer none fragment sk.1 sk.2 ec).map fun l =>
                  (l.1, l.2.1, l.2.2.2.1, l.2.2.2.2)

/-- The left-hand side of the complex case at the start container itself,
lines 486-519: the result carries `leftContents`. -/
def processLeftStart (action : ActionType) (tm : TreeModel) (fr : Frame) (ec : ExceptionCode) :
    Option PartResult :=
  match fr.range.m_startContainer with
  | none => none
  | some sc =>
    (nodeType tm sc).bind fun k =>
      if isTextCDataOrComment k then
        (if action.copies then
            (cloneNode tm sc true).map fun c =>
              let c1 := c.deleteData 0 (toUnsigned fr.range.m_startOffset) ec
              (some c1.1, c1.2)
          else some ((none : Option Tree), ec)).bind fun a =>
          if action.removes then
            (length tm sc).bind fun len =>
              (deleteData tm sc (toUnsigned fr.range.m_startOffset)
                (toUnsigned (len - fr.range.m_startOffset)) a.2).map fun d =>
                  ((d.1, fr, a.1, d.2) : PartResult)
          else some (tm, fr, a.1, a.2)
      else if k = NodeType.PROCESSING_INSTRUCTION_NODE then some (tm, fr, none, ec)
      else
        (if action.copies then (cloneNode tm sc false).map some
          else some none).bind fun leftContents =>
          (firstChild tm sc).bind fun n0 =>
            (skipSiblings tm (toUnsigned fr.range.m_startOffset) (siblingBound tm n0) n0 0).bind
              fun sk =>
                (forwardLoop action none (siblingBound tm n0) tm fr
                  fr.range.m_startContainer none leftContents sk.1 0 ec).map fun l =>
                    (l.1, l.2.1, l.2.2.2.1, l.2.2.2.2)

/-- The left-hand side of the complex case, lines 483-542: the result carries
`leftContents`. -/
def processLeft (action : ActionType) (tm : TreeModel) (fr : Frame) (ec : ExceptionCode) :
    Option PartResult :=
  (processLeftStart action tm fr ec).bind fun x =>
    match x.2.1.range.m_startContainer with
    | none => none
    | some sc1 =>
      (nextSibling x.1 sc1).bind fun n =>
        leftLevels action sc1.depth x.1 x.2.1 sc1.parentNode n x.2.2.1 x.2.2.2

/-- The children of the end container before the end offset, lines 567-585. -/
def processRightChildren (action : ActionType) (tm : TreeModel) (fr : Frame) (e : NodeImpl)
    (rightContents : Option Tree) (ec : ExceptionCode) : Option PartResult :=
  (firstChild tm e).bind fun n0 =>
    match n0 with
    | none => some (tm, fr, rightContents, ec)
    | some n =>
      if fr.range.m_endOffset ≠ 0 then
        (lastBefore tm (toUnsigned fr.range.m_endOffset) (siblingBound tm n0) n 0).bind fun nl =>
          (backwardLoop action (siblingBound tm n0) tm fr fr.range.m_endContainer
            rightContents (some nl) ec).map fun l => (l.1, l.2.1, l.2.2.2.1, l.2.2.2.2)
      else some (tm, fr, rightContents, ec)

/-- The right-hand side of the complex case at the end container itself, lines
548-586: the result carries `rightContents`.  The test of line 560 reads the
kind of `m_startContainer`. -/
def processRightStart (action : ActionType) (tm : TreeModel) (fr : Frame)
    (ec : ExceptionCode) : Option PartResult :=
  match fr.range.m_endContainer with
  | none => none
  | some e =>
    (nodeType tm e).bind fun k =>
      if isTextCDataOrComment k then
        (if action.copies then
            (cloneNode tm e true).bind fun c =>
              (length tm e).map fun len =>
                let c1 := c.deleteData (toUnsigned fr.range.m_endOffset)
                  (toUnsigned (len - fr.range.m_endOffset)) ec
                (some c1.1, c1.2)
          else some ((none : Option Tree), ec)).bind fun a =>
          if action.removes then
            (deleteData tm e 0 (toUnsigned fr.range.m_endOffset) a.2).map fun d =>
              ((d.1, fr, a.1, d.2) : PartResult)
          else some (tm, fr, a.1, a.2)
      else
        match fr.range.m_startContainer with
        | none => none
        | some sc =>
          (nodeType tm sc).bind fun ks =>
            if ks = NodeType.PROCESSING_INSTRUCTION_NODE then some (tm, fr, none, ec)
            else
              (if action.copies then (cloneNode tm e false).map some
                else some none).bind fun rightContents =>
                processRightChildren action tm fr e rightContents ec

/-- The right-hand side of the complex case, lines 545-609: the result carries
`rightContents`. -/
def processRight (action : ActionType) (tm : TreeModel) (fr : Frame) (ec : ExceptionCode) :
    Option PartResult :=
  (processRightStart action tm fr ec).bind fun x =>
    match x.2.1.range.m_endContainer with
    | none => none
    | some e1 =>
      (previousSibling x.1 e1).bind fun n =>
        rightLevels action e1.depth x.1 x.2.1 e1.parentNode n x.2.2.1 x.2.2.2

/-- Lines 613-625: `processStart`, a child of `cmnRoot` or null. -/
def processStart (tm : TreeModel) (fr : Frame) : Option Ptr :=
  if fr.range.m_startContainer = fr.cmnRoot then
    match fr.range.m_startContainer with
    | none => none
    | some sc =>
      (firstChild tm sc).bind fun n0 => advanceSiblings tm (toUnsigned fr.range.m_startOffset) n0
  else
    match fr.range.m_startContainer with
    | none => none
    | some sc => (climbToChildOf fr.cmnRoot sc).bind fun p => nextSibling tm p

/-- Lines 626-637: `processEnd`, a child of `cmnRoot` or null. -/
def processEnd (tm : TreeModel) (fr : Frame) : Option Ptr :=
  if fr.range.m_endContainer = fr.cmnRoot then
    match fr.range.m_endContainer with
    | none => none
    | some e =>
      (firstChild tm e).bind fun n0 => advanceSiblings tm (toUnsigned fr.range.m_endOffset) n0
  else
    match fr.range.m_endContainer with
    | none => none
    | some e => (climbToChildOf fr.cmnRoot e).map some

/-- The conditional `fragment->appendChild(contents, ec)` of lines 642-643 and
660-661. -/
def appendContents (action : ActionType) (fragment contents : Option Tree)
    (ec : ExceptionCode) : Option (Option Tree × ExceptionCode) :=
  if action.copies && contents.isSome then appendChild fragment contents ec
  else some (fragment, ec)

/-- The collapse of lines 664-677. -/
def collapseAfter (fr : Frame) (ec : ExceptionCode) : RangeImpl × ExceptionCode :=
  if fr.partialStart = none ∧ fr.partialEnd = none then fr.range.collapse true ec
  else
    match fr.partialStart with
    | some ps =>
      ({ fr.range with
          m_startContainer := ps.parentNode, m_endContainer := ps.parentNode,
          m_startOffset := (ps.nodeIndex : Int) + 1, m_endOffset := (ps.nodeIndex : Int) + 1 }, ec)
    | none =>
      match fr.partialEnd with
      | some pe =>
        ({ fr.range with
            m_startContainer := pe.parentNode, m_endContainer := pe.parentNode,
            m_startOffset := (pe.nodeIndex : Int), m_endOffset := (pe.nodeIndex : Int) }, ec)
      | none => (fr.range, ec)

/-- The result of a content operation: forest, range, exception code and the
returned fragment (`none` is the null fragment). -/
abbrev ContentsResult := TreeModel × RangeImpl × ExceptionCode × Option Tree

/-- The end of the complex case, lines 611-678: the children of `cmnRoot`
between the two sides are processed, the fragment is put together and the
range is collapsed. -/
def processMiddle (action : ActionType) (tm : TreeModel) (fr : Frame)
    (fragment leftContents rightContents : Option Tree) (ec : ExceptionCode) :
    Option ContentsResult :=
  (processStart tm fr).bind fun pStart =>
    (processEnd tm fr).bind fun pEnd =>
      (appendContents action fragment leftContents ec).bind fun f1 =>
        (forwardLoop action none (siblingBound tm pStart) tm fr fr.cmnRoot pEnd
          f1.1 pStart 0 f1.2).bind fun m =>
          (appendContents action m.2.2.2.1 rightContents m.2.2.2.2).map fun f2 =>
            if action.removes then
              ((m.1, (collapseAfter m.2.1 f2.2).1, (collapseAfter m.2.1 f2.2).2, f2.1) :
                ContentsResult)
            else (m.1, m.2.1.range, f2.2, f2.1)

/-- The complex case of `processContents`, lines 482-678. -/
def processComplex (action : ActionType) (tm : TreeModel) (fr : Frame) (fragment : Option Tree)
    (ec : ExceptionCode) : Option ContentsResult :=
  (if fr.range.m_startContainer ≠ fr.cmnRoot then processLeft action tm fr ec
    else some (tm, fr, none, ec)).bind fun l =>
    (if l.2.1.range.m_endContainer ≠ l.2.1.cmnRoot then processRight action l.1 l.2.1 l.2.2.2
      else some (l.1, l.2.1, none, l.2.2.2)).bind fun r =>
      processMiddle action r.1 r.2.1 fragment l.2.2.1 r.2.2.1 r.2.2.2

/-- Lines 420-422: the new, empty fragment of the actions that return one. -/
def newFragment (action : ActionType) : Option Tree :=
  if action.copies then some (.mk NodeType.DOCUMENT_FRAGMENT_NODE [] []) else none

/-- Embeds `RangeImpl::processContents`, lines 388-679.  The fragment is a new
tree, held as a value. -/
def processContents (action : ActionType) (tm : TreeModel) (r : RangeImpl) (ec : ExceptionCode) :
    Option ContentsResult :=
  let c := r.collapsed ec
  if c.1 then some (tm, r, c.2, none)
  else if c.2 ≠ 0 then some (tm, r, c.2, none)
  else
    (r.commonAncestorContainer tm c.2).bind fun ca =>
      if ca.2 ≠ 0 then some (tm, r, ca.2, none)
      else
        (partialContainer ca.1 r.m_startContainer).bind fun partialStart =>
          (partialContainer ca.1 r.m_endContainer).bind fun partialEnd =>
            let fragment : Option Tree := newFragment action
            let fr : Frame := ⟨r, ca.1, partialStart, partialEnd⟩
            if r.m_startContainer = r.m_endContainer then
              (processSimple action tm fr fragment ca.2).map fun x =>
                if action.removes then
                  ((x.1, (x.2.1.range.collapse true x.2.2.2).1,
                    (x.2.1.range.collapse true x.2.2.2).2, x.2.2.1) : ContentsResult)
                else (x.1, x.2.1.range, x.2.2.2, x.2.2.1)
            else processComplex action tm fr fragment ca.2

/-- The code of `deleteContents` after the guard, lines 381-385.  `isReadOnly` is
the Tree Model's `isReadOnly()` flag. -/
def deleteContentsRest (isReadOnly : NodeImpl → Bool) (tm : TreeModel) (r : RangeImpl)
    (ec : ExceptionCode) : Option (TreeModel × RangeImpl × ExceptionCode) :=
  (checkDeleteExtract isReadOnly tm r ec).bind fun ec1 =>
    if ec1 ≠ 0 then some (tm, r, ec1)
    else (processContents .DELETE_CONTENTS tm r ec1).map fun x => (x.1, x.2.1, x.2.2.1)

/-- The code of `extractContents` after the guard, lines 689-693. -/
def extractContentsRest (isReadOnly : NodeImpl → Bool) (tm : TreeModel) (r : RangeImpl)
    (ec : ExceptionCode) : Option ContentsResult :=
  (checkDeleteExtract isReadOnly tm r ec).bind fun ec1 =>
    if ec1 ≠ 0 then some (tm, r, ec1, none)
    else processContents .EXTRACT_CONTENTS tm r ec1

/-- The code of `cloneContents` after the guard, line 703. -/
def cloneContentsRest (tm : TreeModel) (r : RangeImpl) (ec : ExceptionCode) :
    Option ContentsResult :=
  processContents .CLONE_CONTENTS tm r ec

/-- The pointer to child `k` of `p`, null when `p` has `len` children and `k` is
not below `len`. -/
def childAt (p : NodeImpl) (len k : Nat) : Ptr :=
  if k < len then some (.child p k) else none

/-- The node `acc` with the trees `xs` appended to its child list. -/
def appendAll (acc : Option Tree) (xs : List Tree) : Option Tree :=
  acc.map fun a => a.withChildren (a.children ++ xs)

/-- The node `acc` with the trees `xs` put before its child list. -/
def prependAll (acc : Option Tree) (xs : List Tree) : Option Tree :=
  acc.map fun a => a.withChildren (xs ++ a.children)

/-- The non-null pointers of a frame. -/
def Frame.pointers (fr : Frame) : List NodeImpl :=
  fr.range.m_startContainer.toList ++ fr.range.m_endContainer.toList ++ fr.cmnRoot.toList ++
    fr.partialStart.toList ++ fr.partialEnd.toList

/-- The frame with another end container. -/
def Frame.withEnd (fr : Frame) (e : NodeImpl) : Frame :=
  { fr with range := { fr.range with m_endContainer := some e } }

/-- Where the node that was at place `q` is after the children `c - 1`, ..., `0` of
`p` have been taken out of the tree, in that order. -/
def relocateBelow (p : NodeImpl) : Nat → NodeImpl → NodeImpl
  | 0 => id
  | c + 1 => relocateBelow p c ∘ relocate p c

/-! ## Forests used in the examples of the content operations -/

/-- A document whose element holds the text node `"abcdef"` and an entity
reference with a text node `"abcdef"` of its own. -/
def sampleTextModel : TreeModel where
  roots :=
    [ (some (.root 0), .mk .DOCUMENT_NODE [] [
        .mk .ELEMENT_NODE [] [
          .mk .TEXT_NODE [97, 98, 99, 100, 101, 102] [],
          .mk .ENTITY_REFERENCE_NODE [] [.mk .TEXT_NODE [97, 98, 99, 100, 101, 102] []]]]) ]
  documentElement := fun _ => some (.child (.root 0) 0)

/-- The text node `"abcdef"` of `sampleTextModel`. -/
def sampleText : NodeImpl := .child (.child (.root 0) 0) 0

/-- The entity reference of `sampleTextModel`. -/
def sampleEntityReference : NodeImpl := .child (.child (.root 0) 0) 1

/-- The text node below the entity reference of `sampleTextModel`. -/
def sampleEntityText : NodeImpl := .child sampleEntityReference 0

/-- A read-only flag: an entity reference and the nodes below it are read-only. -/
def sampleReadOnly (n : NodeImpl) : Bool := decide (sampleEntityReference ∈ n.ancestors)

/-- The read-only flag of a forest without read-only nodes. -/
def noneReadOnly (_ : NodeImpl) : Bool := false

/-! ## Selection (`WebCore/khtml/editing/Selection.cpp`)

`Selection::validate` works on positions through the visible-position code
(`visible_position.h`, `visible_units.h`, `htmlediting.h`), which is not part of the
sources.  That code is a parameter of the embedding: a record of functions,
about which nothing is assumed. -/

/-- Modelled from the spec: a `Position`, the pair of a node and an offset
(section 3.1); `operator==` compares both fields. -/
structure Position where
  m_node : Ptr
  m_offset : Int
  deriving DecidableEq, Repr

/-- Modelled from the spec: `Position::isNull()`, the node is null. -/
def Position.isNull (p : Position) : Bool := p.m_node.isNone

/-- Modelled from the spec: `Position::isNotNull()`. -/
def Position.isNotNull (p : Position) : Bool := p.m_node.isSome

/-- Modelled from the spec: the position left by `Position::clear()`. -/
def Position.null : Position := ⟨none, 0⟩

/-- Embeds `EAffinity`. -/
inductive EAffinity where
  | UPSTREAM
  | DOWNSTREAM
  deriving DecidableEq, Repr

/-- Embeds `Selection::EState`. -/
inductive EState where
  | NONE
  | CARET
  | RANGE
  deriving DecidableEq, Repr

/-- Embeds `ETextGranularity`: the cases of the switch of lines 169-230. -/
inductive ETextGranularity where
  | CHARACTER
  | WORD
  | LINE
  | PARAGRAPH
  | LINE_BOUNDARY
  | PARAGRAPH_BOUNDARY
  | DOCUMENT_BOUNDARY
  deriving DecidableEq, Repr

/-- Embeds `EWordSide`. -/
inductive EWordSide where
  | RightWordIfOnBoundary
  | LeftWordIfOnBoundary
  deriving DecidableEq, Repr

/-- Modelled from the spec: a `VisiblePosition` (section 6), which holds a
position and an affinity. -/
structure VisiblePosition where
  m_deepPosition : Position
  m_affinity : EAffinity
  deriving DecidableEq, Repr

/-- Modelled from the spec: `VisiblePosition::deepEquivalent()`. -/
def VisiblePosition.deepEquivalent (v : VisiblePosition) : Position := v.m_deepPosition

/-- Modelled from the spec: `VisiblePosition::isNotNull()`. -/
def VisiblePosition.isNotNull (v : VisiblePosition) : Bool := v.m_deepPosition.isNotNull

/-- Modelled from the spec: the default affinity of the constructor
`VisiblePosition(const Position&)`. -/
def VP_DEFAULT_AFFINITY : EAffinity := .DOWNSTREAM

/-- Modelled from the spec: the Visible-Position Oracle of section 6 and the
node queries of `htmlediting.h` that `Selection.cpp` calls.  `create` is the
constructor `VisiblePosition(position, affinity)`. -/
structure VisiblePositionOracle where
  create : Position → EAffinity → VisiblePosition
  next : VisiblePosition → VisiblePosition
  previous : VisiblePosition → VisiblePosition
  isStartOfLine : VisiblePosition → Bool
  isEndOfLine : VisiblePosition → Bool
  isEndOfParagraph : VisiblePosition → Bool
  isEndOfDocument : VisiblePosition → Bool
  startOfWord : VisiblePosition → EWordSide → VisiblePosition
  endOfWord : VisiblePosition → EWordSide → VisiblePosition
  startOfLine : VisiblePosition → VisiblePosition
  endOfLine : VisiblePosition → VisiblePosition
  startOfParagraph : VisiblePosition → VisiblePosition
  endOfParagraph : VisiblePosition → VisiblePosition
  startOfDocument : VisiblePosition → VisiblePosition
  endOfDocument : VisiblePosition → VisiblePosition
  upstream : Position → Position
  downstream : Position → Position
  rootEditableElement : NodeImpl → Ptr
  enclosingBlockFlowElement : NodeImpl → Ptr
  maxDeepOffset : NodeImpl → Int

/-- The fields of `Selection`. -/
structure Selection where
  m_base : Position
  m_extent : Position
  m_start : Position
  m_end : Position
  m_affinity : EAffinity
  m_state : EState
  m_baseIsFirst : Bool
  deriving DecidableEq, Repr

/-- Embeds `Selection::validate`, lines 120-132: base and extent are moved to
rendered positions. -/
def Selection.canonicalize (o : VisiblePositionOracle) (s : Selection) : Selection :=
  let baseAndExtentEqual : Bool := decide (s.m_base = s.m_extent)
  let s1 : Selection :=
    if s.m_base.isNotNull then
      let b := (o.create s.m_base s.m_affinity).deepEquivalent
      { s with m_base := b, m_extent := if baseAndExtentEqual then b else s.m_extent }
    else s
  if s1.m_extent.isNotNull && !baseAndExtentEqual then
    { s1 with m_extent := (o.create s1.m_extent s1.m_affinity).deepEquivalent }
  else s1

/-- Embeds `Selection::validate`, lines 134-160: a dangling base or extent is
repaired and `m_baseIsFirst` is set.  `originalBase` is the base at the entry
of `validate`. -/
def Selection.repair (o : VisiblePositionOracle) (tm : TreeModel) (originalBase : Position)
    (s : Selection) : Option Selection :=
  if s.m_base.isNull && s.m_extent.isNull then
    if originalBase.isNotNull then
      match originalBase.m_node with
      | none => none
      | some n =>
        let pos : Position := ⟨o.enclosingBlockFlowElement n, 0⟩
        some { s with m_base := pos, m_extent := pos, m_baseIsFirst := true }
    else
      some { s with m_start := Position.null, m_end := Position.null, m_baseIsFirst := true }
  else if s.m_base.isNull then some { s with m_base := s.m_extent, m_baseIsFirst := true }
  else if s.m_extent.isNull then some { s with m_extent := s.m_base, m_baseIsFirst := true }
  else
    (compareBoundaryPoints tm s.m_base.m_node s.m_base.m_offset
      s.m_extent.m_node s.m_extent.m_offset).map fun (c : Int) =>
        { s with m_baseIsFirst := decide (c ≤ 0) }

/-- Embeds `Selection::validate`, lines 162-168: start and end are base and
extent in document order. -/
def Selection.order (s : Selection) : Selection :=
  if s.m_baseIsFirst then { s with m_start := s.m_base, m_end := s.m_extent }
  else { s with m_start := s.m_extent, m_end := s.m_base }

/-- The word side chosen at lines 179-181 and 183-185. -/
def wordSide (o : VisiblePositionOracle) (v : VisiblePosition) : EWordSide :=
  if o.isEndOfDocument v || (o.isEndOfLine v && !o.isStartOfLine v && !o.isEndOfParagraph v)
  then .LeftWordIfOnBoundary else .RightWordIfOnBoundary

/-- Embeds `Selection::validate`, lines 169-230: the expansion to the requested
granularity. -/
def Selection.expand (o : VisiblePositionOracle) (granularity : ETextGranularity)
    (s : Selection) : Selection :=
  match granularity with
  | .CHARACTER => s
  | .WORD =>
    let vStart := o.create s.m_start s.m_affinity
    let vEnd := o.create s.m_end s.m_affinity
    { s with m_start := (o.startOfWord vStart (wordSide o vStart)).deepEquivalent,
             m_end := (o.endOfWord vEnd (wordSide o vEnd)).deepEquivalent }
  | .LINE =>
    let vEnd := o.endOfLine (o.create s.m_end s.m_affinity)
    let end1 :=
      if o.isEndOfParagraph vEnd then
        let next := o.next vEnd
        if next.isNotNull then next else vEnd
      else vEnd
    { s with m_start := (o.startOfLine (o.create s.m_start s.m_affinity)).deepEquivalent,
             m_end := end1.deepEquivalent }
  | .LINE_BOUNDARY =>
    { s with m_start := (o.startOfLine (o.create s.m_start s.m_affinity)).deepEquivalent,
             m_end := (o.endOfLine (o.create s.m_end s.m_affinity)).deepEquivalent }
  | .PARAGRAPH =>
    let pos := o.create s.m_start s.m_affinity
    let pos1 := if o.isStartOfLine pos && o.isEndOfDocument pos then o.previous pos else pos
    let visibleParagraphEnd := o.endOfParagraph (o.create s.m_end s.m_affinity)
    let startOfNextParagraph := o.next visibleParagraphEnd
    { s with m_start := (o.startOfParagraph pos1).deepEquivalent,
             m_end := if startOfNextParagraph.isNotNull then startOfNextParagraph.deepEquivalent
                      else visibleParagraphEnd.deepEquivalent }
  | .DOCUMENT_BOUNDARY =>
    { s with m_start := (o.startOfDocument (o.create s.m_start s.m_affinity)).deepEquivalent,
             m_end := (o.endOfDocument (o.create s.m_end s.m_affinity)).deepEquivalent }
  | .PARAGRAPH_BOUNDARY =>
    { s with m_start := (o.startOfParagraph (o.create s.m_start s.m_affinity)).deepEquivalent,
             m_end := (o.endOfParagraph (o.create s.m_end s.m_affinity)).deepEquivalent }

/-- The loop of lines 289-292: from the editable root `endRoot`, step to the
visible position before the root until that position is not editable.  The
first argument bounds the number of passes. -/
def retreatFromEditable (o : VisiblePositionOracle) : Nat → NodeImpl → Option VisiblePosition
  | 0, _ => none
  | fuel + 1, endRoot =>
    let previous := o.previous (o.create ⟨some endRoot, 0⟩ VP_DEFAULT_AFFINITY)
    match previous.deepEquivalent.m_node with
    | none => none
    | some n =>
      match o.rootEditableElement n with
      | some root => retreatFromEditable o fuel root
      | none => some previous

/-- The loop of lines 300-303: from the editable root `startRoot`, step to the
visible position after the root until that position is not editable. -/
def advanceFromEditable (o : VisiblePositionOracle) : Nat → NodeImpl → Option VisiblePosition
  | 0, _ => none
  | fuel + 1, startRoot =>
    let next := o.next (o.create ⟨some startRoot, o.maxDeepOffset startRoot⟩ VP_DEFAULT_AFFINITY)
    match next.deepEquivalent.m_node with
    | none => none
    | some n =>
      match o.rootEditableElement n with
      | some root => advanceFromEditable o fuel root
      | none => some next

/-- Lines 313-315 of `adjustForEditableContent`: the extent is corrected. -/
def Selection.correctExtent (o : VisiblePositionOracle) (baseRoot : Ptr) (s : Selection) :
    Option Selection :=
  match s.m_extent.m_node with
  | none => none
  | some x =>
    if baseRoot ≠ o.rootEditableElement x then
      some { s with m_extent := if s.m_baseIsFirst then s.m_end else s.m_start }
    else some s

/-- Lines 274-285 of `adjustForEditableContent`: the selection is based in the
editable root `root`; a start or end outside of it is capped at the start or
end of that root. -/
def Selection.clampToRoot (o : VisiblePositionOracle) (root : NodeImpl) (startRoot endRoot : Ptr)
    (s : Selection) : Selection :=
  let s1 : Selection :=
    if some root ≠ startRoot then
      { s with m_start := (o.create ⟨some root, 0⟩ VP_DEFAULT_AFFINITY).deepEquivalent }
    else s
  if some root ≠ endRoot then
    { s1 with m_end :=
        (o.create ⟨some root, o.maxDeepOffset root⟩ VP_DEFAULT_AFFINITY).deepEquivalent }
  else s1

/-- Lines 286-310 of `adjustForEditableContent`: the selection is based outside
editable content; an end and a start in editable content are moved out of it. -/
def Selection.leaveEditable (fuel : Nat) (o : VisiblePositionOracle) (startRoot endRoot : Ptr)
    (s : Selection) : Option Selection :=
  (match endRoot with
    | some er =>
      (retreatFromEditable o fuel er).map fun (previous : VisiblePosition) =>
        { s with m_end := previous.deepEquivalent }
    | none => some s).bind fun s1 =>
    match startRoot with
    | some sr =>
      (advanceFromEditable o fuel sr).map fun (next : VisiblePosition) =>
        { s1 with m_start := next.deepEquivalent }
    | none => some s1

/-- Embeds `Selection::adjustForEditableContent`, lines 262-316.  `none` is the
dereference of a null node or an exhausted bound `fuel` on the two loops. -/
def Selection.adjustForEditableContent (fuel : Nat) (o : VisiblePositionOracle)
    (s : Selection) : Option Selection :=
  match s.m_base.m_node with
  | none => some s
  | some b =>
    match s.m_start.m_node, s.m_end.m_node with
    | some st, some en =>
      let baseRoot := o.rootEditableElement b
      let startRoot := o.rootEditableElement st
      let endRoot := o.rootEditableElement en
      if baseRoot = startRoot ∧ baseRoot = endRoot then some s
      else
        (match baseRoot with
          | some root => some (s.clampToRoot o root startRoot endRoot)
          | none => s.leaveEditable fuel o startRoot endRoot).bind fun s1 =>
          s1.correctExtent o baseRoot
    | _, _ => none

/-- Embeds `Selection::validate`, lines 234-259: state and affinity are set, and
the endpoints of a range selection are made canonical. -/
def Selection.assignState (o : VisiblePositionOracle) (s : Selection) : Selection :=
  if s.m_start.isNull then { s with m_state := .NONE, m_affinity := .DOWNSTREAM }
  else if s.m_start = s.m_end ∨ o.upstream s.m_start = o.upstream s.m_end then
    { s with m_state := .CARET }
  else
    { s with m_state := .RANGE, m_affinity := .DOWNSTREAM,
             m_start := o.downstream s.m_start, m_end := o.upstream s.m_end }

/-- Embeds `Selection::validate`, lines 120-260. -/
def Selection.validate (fuel : Nat) (o : VisiblePositionOracle) (tm : TreeModel)
    (s : Selection) (granularity : ETextGranularity) : Option Selection :=
  let originalBase := s.m_base
  ((s.canonicalize o).repair o tm originalBase).bind fun s1 =>
    ((s1.order.expand o granularity).adjustForEditableContent fuel o).map fun s2 =>
      s2.assignState o

/-! ## Oracles used in the examples of `Selection` -/

/-- An oracle for a document in which every position is rendered as it is and
nothing is editable: canonicalization, `upstream()` and `downstream()` change no
position. -/
def plainOracle : VisiblePositionOracle where
  create := fun p a => ⟨p, a⟩
  next := fun v => v
  previous := fun v => v
  isStartOfLine := fun _ => false
  isEndOfLine := fun _ => false
  isEndOfParagraph := fun _ => false
  isEndOfDocument := fun _ => false
  startOfWord := fun v _ => v
  endOfWord := fun v _ => v
  startOfLine := fun v => v
  endOfLine := fun v => v
  startOfParagraph := fun v => v
  endOfParagraph := fun v => v
  startOfDocument := fun v => v
  endOfDocument := fun v => v
  upstream := fun p => p
  downstream := fun p => p
  rootEditableElement := fun _ => none
  enclosingBlockFlowElement := fun n => some n
  maxDeepOffset := fun _ => 0

/-- The text node `"abc"` of `sampleModel`. -/
def sampleAbc : NodeImpl := .child sampleP 0

/-- The text node `"fgh"` of `sampleModel`. -/
def sampleFgh : NodeImpl := .child sampleDiv 0

/-- The comment node of `sampleModel`. -/
def sampleComment : NodeImpl := .child sampleDiv 1

/-- The oracle of `sampleModel` with the `div` as an editable root: positions are
rendered as they are, and the last position of the `div` is `(div, 2)`. -/
def editableOracle : VisiblePositionOracle :=
  { plainOracle with
    rootEditableElement := fun n => if sampleDiv ∈ n.ancestors then some sampleDiv else none
    maxDeepOffset := fun n => if n = sampleDiv then 2 else 0 }

/-- An oracle of `sampleModel` in which the text `"abc"` renders as one visible
position before offset 1 and one after it (`downstream()` of offset 0 and
`upstream()` of offset 3 are offset 1), and in which the `div` is an editable
root whose start `(div, 0)` has no visible position. -/
def collapsingOracle : VisiblePositionOracle :=
  { plainOracle with
    create := fun p a => if p = ⟨some sampleDiv, 0⟩ then ⟨Position.null, a⟩ else ⟨p, a⟩
    upstream := fun p => if p = ⟨some sampleAbc, 3⟩ then ⟨some sampleAbc, 1⟩ else p
    downstream := fun p => if p = ⟨some sampleAbc, 0⟩ then ⟨some sampleAbc, 1⟩ else p
    rootEditableElement := fun n => if sampleDiv ∈ n.ancestors then some sampleDiv else none }

/-- An oracle of `sampleModel` in which the paragraph is an editable root and its
child `b` is a region that is not editable: `downstream()` of the end of `"abc"` is
the start of the text in `b`, and `upstream()` of the end of the paragraph is the
end of the text in `b`. -/
def islandOracle : VisiblePositionOracle :=
  { plainOracle with
    upstream := fun p => if p = ⟨some sampleP, 2⟩ then ⟨some sampleDeepText, 2⟩ else p
    downstream := fun p => if p = ⟨some sampleAbc, 3⟩ then ⟨some sampleDeepText, 0⟩ else p
    rootEditableElement := fun n =>
      if NodeImpl.child sampleP 1 ∈ n.ancestors then none
      else if sampleP ∈ n.ancestors then some sampleP else none
    maxDeepOffset := fun n => if n = sampleP then 2 else 0 }

/-- An oracle of `sampleModel` in which the comment node is not rendered (its
positions have no visible position, its enclosing block is the `div`) and the
visible position made from `(div, 0)` is the start of the text `"fgh"`. -/
def hiddenCommentOracle : VisiblePositionOracle :=
  { plainOracle with
    create := fun p a =>
      if p.m_node = some sampleComment then ⟨Position.null, a⟩
      else if p = ⟨some sampleDiv, 0⟩ then ⟨⟨some sampleFgh, 0⟩, a⟩ else ⟨p, a⟩
    enclosingBlockFlowElement := fun n => if n = sampleComment then some sampleDiv else some n }

/-- A selection of `sampleModel` from offset 1 of `"fgh"`, inside the `div`, to the
start of the empty element after the `div`, not yet validated. -/
def sampleSelection : Selection :=
  ⟨⟨some sampleFgh, 1⟩, ⟨some (.child sampleHtml 2), 0⟩, Position.null, Position.null,
    .UPSTREAM, .NONE, true⟩

/-- What `validate(CHARACTER)` makes of `sampleSelection` under `editableOracle`: the end
is capped at the end of the editable `div`, and so is the extent. -/
def sampleValidated : Selection :=
  ⟨⟨some sampleFgh, 1⟩, ⟨some sampleDiv, 2⟩, ⟨some sampleFgh, 1⟩, ⟨some sampleDiv, 2⟩,
    .DOWNSTREAM, .RANGE, true⟩

/-- A caret at offset 1 of `"abc"` with upstream affinity, not yet validated. -/
def sampleCaret : Selection :=
  ⟨⟨some sampleAbc, 1⟩, ⟨some sampleAbc, 1⟩, Position.null, Position.null, .UPSTREAM, .NONE, true⟩

/-- The walk of the loop of `checkDeleteExtract`, lines 1195-1204: `walkFrom tm n l` says
that `l` lists the nodes `n`, `n->traverseNextNode()`, ... that the loop variable
runs through, in that order, from the pointer `n` on. -/
def walkFrom (tm : TreeModel) : Ptr → List NodeImpl → Bool
  | _, [] => true
  | n, [a] => decide (n = some a)
  | n, a :: b :: l =>
    decide (n = some a) && decide (traverseNextNode tm a = some (some b)) &&
      walkFrom tm (some b) (b :: l)

/-- A read-only flag on `sampleModel`: the `div` and the nodes below it are
read-only. -/
def divReadOnly (n : NodeImpl) : Bool := decide (sampleDiv ∈ n.ancestors)

/-- The document of scenario 1 of the spec: `<p>Hello <b>bold</b> world</p>`. -/
def helloModel : TreeModel where
  roots :=
    [ (some (.root 0), .mk .DOCUMENT_NODE [] [
        .mk .ELEMENT_NODE [] [
          .mk .TEXT_NODE [72, 101, 108, 108, 111, 32] [],
          .mk .ELEMENT_NODE [] [.mk .TEXT_NODE [98, 111, 108, 100] []],
          .mk .TEXT_NODE [32, 119, 111, 114, 108, 100] []]]) ]
  documentElement := fun _ => some (.child (.root 0) 0)

/-- The paragraph of `helloModel`. -/
def helloP : NodeImpl := .child (.root 0) 0

/-- The element `b` of `helloModel`. -/
def helloB : NodeImpl := .child helloP 1

/-- A read-only flag on `helloModel`: the element `b` and the nodes below it are
read-only. -/
def boldReadOnly (n : NodeImpl) : Bool := decide (helloB ∈ n.ancestors)

/-! ## Tree Model: putting nodes into a tree

`insertNode` and `surroundContents` are given nodes by the caller and move them.
A node that is moved keeps its identity: every change of the tree comes with
the relocation that maps the place of each node before the change to its place
after it. -/

/-- Where the node that was at place `q` is after `c` nodes have been put in
before child `j` of `p`: the children of `p` from `j` on, and everything below
them, move `c` indices up. -/
def relocateInsert (p : NodeImpl) (j c : Nat) : NodeImpl → NodeImpl
  | .root t => .root t
  | .child q i =>
    if q = p then .child p (if j ≤ i then i + c else i) else .child (relocateInsert p j c q) i

/-- Where the node that was at place `q` is after the node at `old`, with
everything below it, has become the node at `new`. -/
def rebase (old new : NodeImpl) : NodeImpl → NodeImpl
  | .root t => if NodeImpl.root t = old then new else .root t
  | .child q i => if NodeImpl.child q i = old then new else .child (rebase old new q) i

/-- Where the node that was at place `q` is after the children of `old` have
become the children `j`, `j + 1`, ... of `new`. -/
def rebaseChildren (old new : NodeImpl) (j : Nat) : NodeImpl → NodeImpl
  | .root t => .root t
  | .child q i =>
    if q = old then .child new (j + i) else .child (rebaseChildren old new j q) i

/-- What is left in the slot of the forest of a tree that has been moved into
another tree: an empty fragment, to which no pointer points. -/
def emptySlot : Tree := .mk .DOCUMENT_FRAGMENT_NODE [] []

/-- Modelled from the spec: the removal of a node from where it is, as
`insertBefore` and `appendChild` perform it on the node they are given.  A node
with a parent is taken out of its parent's child list; a node without parent
is a tree of the forest, whose slot keeps `emptySlot`. -/
def takeOut (tm : TreeModel) : NodeImpl → Option (TreeModel × Tree × (NodeImpl → NodeImpl))
  | .root t =>
    (tm.node (.root t)).bind fun sub =>
      (tm.replace (.root t) emptySlot).map fun tm1 => (tm1, sub, id)
  | .child p j => detachNode tm (.child p j)

/-- Whether `parent` allows `newChild` (or, for a fragment, each of its
children) as a child. -/
def childAllowed (childTypeAllowed : Tree → NodeType → Bool) (parent newChild : Tree) : Bool :=
  if newChild.nodeType = .DOCUMENT_FRAGMENT_NODE then
    newChild.children.all fun c => childTypeAllowed parent c.nodeType
  else childTypeAllowed parent newChild.nodeType

/-- Modelled from the spec: `parent->insertBefore(newChild, refChild, ec)` of the Tree
Model, on nodes of the forest; a null `refChild` appends.  `NOT_FOUND_ERR` for a null
`newChild` or a `refChild` that is not a child of `parent`; `HIERARCHY_REQUEST_ERR` when
`newChild` is `parent` or one of its ancestors, or of a kind that `parent` does not allow
(`childTypeAllowed` is the Tree Model's query).  The children of a fragment are
moved in its place and the fragment is left empty.  The last component is the
relocation of the nodes. -/
def insertBefore (childTypeAllowed : Tree → NodeType → Bool) (tm : TreeModel)
    (parent : NodeImpl) (newChild refChild : Ptr) (ec : ExceptionCode) :
    Option (TreeModel × ExceptionCode × (NodeImpl → NodeImpl)) :=
  match newChild with
  | none => some (tm, NOT_FOUND_ERR, id)
  | some n =>
    (tm.node parent).bind fun tp =>
      (tm.node n).bind fun tn =>
        if n ∈ parent.ancestors then some (tm, HIERARCHY_REQUEST_ERR, id)
        else if childAllowed childTypeAllowed tp tn = false then
          some (tm, HIERARCHY_REQUEST_ERR, id)
        else if (match refChild with
            | some rc => decide (rc.parentNode ≠ some parent) || (tm.node rc).isNone
            | none => false) then some (tm, NOT_FOUND_ERR, id)
        else if refChild = some n then some (tm, ec, id)
        else if tn.nodeType = .DOCUMENT_FRAGMENT_NODE then
          let j : Nat :=
            match refChild with
            | some rc => rc.nodeIndex
            | none => tp.children.length
          (tm.replace n (tn.withChildren [])).bind fun tm1 =>
            (tm1.node parent).bind fun tp1 =>
              (tm1.replace parent (tp1.withChildren
                  (tp1.children.take j ++ tn.children ++ tp1.children.drop j))).map fun tm2 =>
                (tm2, ec, fun x =>
                  if n ∈ x.ancestors ∧ x ≠ n then rebaseChildren n parent j x
                  else relocateInsert parent j tn.children.length x)
        else
          (takeOut tm n).bind fun d =>
            (d.1.node (d.2.2 parent)).bind fun tp1 =>
              let j : Nat :=
                match refChild with
                | some rc => (d.2.2 rc).nodeIndex
                | none => tp1.children.length
              (d.1.replace (d.2.2 parent) (tp1.withChildren
                  (tp1.children.take j ++ [d.2.1] ++ tp1.children.drop j))).map fun tm2 =>
                (tm2, ec, fun x =>
                  if n ∈ x.ancestors then rebase n (.child (d.2.2 parent) j) x
                  else relocateInsert (d.2.2 parent) j 1 (d.2.2 x))

/-- Modelled from the spec: `TextImpl::splitText(offset, ec)` of the Tree Model.
`INDEX_SIZE_ERR` when `offset` exceeds the length of the data; otherwise the node
keeps its data before `offset`, and a new node of the same kind with the rest of
the data becomes its next sibling (a tree of its own when the node has no
parent).  The result holds the new node and the relocation of the nodes. -/
def splitText (tm : TreeModel) (n : NodeImpl) (offset : Nat) (ec : ExceptionCode) :
    Option (TreeModel × Ptr × ExceptionCode × (NodeImpl → NodeImpl)) :=
  (tm.node n).bind fun t =>
    if offset > t.data.length then some (tm, none, INDEX_SIZE_ERR, id)
    else
      match n with
      | .root k =>
        (getDocument tm n).bind fun doc =>
          (tm.replace (.root k) (t.withData (t.data.take offset))).map fun tm1 =>
            ({ tm1 with roots := tm1.roots ++ [(doc, .mk t.nodeType (t.data.drop offset) [])] },
              some (.root tm1.roots.length), ec, id)
      | .child p j =>
        (tm.node p).bind fun tp =>
          (tm.replace p (tp.withChildren
              (tp.children.take j ++
                [t.withData (t.data.take offset), .mk t.nodeType (t.data.drop offset) []] ++
                tp.children.drop (j + 1)))).map fun tm1 =>
            (tm1, some (.child p (j + 1)), ec, relocateInsert p (j + 1) 1)

/-- Modelled from the spec: `parent->removeChild(n, ec)` of the Tree Model for a child `n`
that stays alive: it becomes a tree of its own in the forest. -/
def removeToRoot (tm : TreeModel) (n : NodeImpl) : Option (TreeModel × (NodeImpl → NodeImpl)) :=
  (getDocument tm n).bind fun doc =>
    (detachNode tm n).map fun d =>
      ({ d.1 with roots := d.1.roots ++ [(doc, d.2.1)] },
        fun x => if n ∈ x.ancestors then rebase n (.root d.1.roots.length) x else d.2.2 x)

/-! ## `insertNode` -/

/-- Lines 721-776 of `insertNode`, the checks after the one on read-only
containers, for a new node `n` and a start container `sc`: the code with which
the function returns, `none` when all checks pass. -/
def insertNodeChecks (childTypeAllowed : Tree → NodeType → Bool) (tm : TreeModel)
    (n sc : NodeImpl) : Option (Option ExceptionCode) :=
  (getDocument tm n).bind fun dn =>
    (getDocument tm sc).bind fun ds =>
      if dn ≠ ds then some (some WRONG_DOCUMENT_ERR)
      else
        (tm.node sc).bind fun ts =>
          if ts.nodeType = .TEXT_NODE ∧ sc.parentNode = none then
            some (some HIERARCHY_REQUEST_ERR)
          else
            (if ts.nodeType = .TEXT_NODE then sc.parentNode.bind tm.node
              else some ts).bind fun checkAgainst =>
              (tm.node n).map fun tn =>
                if childAllowed childTypeAllowed checkAgainst tn = false then
                  some HIERARCHY_REQUEST_ERR
                else if n ∈ sc.ancestors then some HIERARCHY_REQUEST_ERR
                else if tn.nodeType = .ATTRIBUTE_NODE ∨ tn.nodeType = .ENTITY_NODE ∨
                    tn.nodeType = .NOTATION_NODE ∨ tn.nodeType = .DOCUMENT_NODE then
                  some INVALID_NODE_TYPE_ERR
                else none

/-- Lines 778-788 of `insertNode`: the text container is split and the new node is
put before the new text node, or the new node is put before the child at the
start offset. -/
def insertNodePlace (childTypeAllowed : Tree → NodeType → Bool) (tm : TreeModel)
    (r : RangeImpl) (n sc : NodeImpl) (ec : ExceptionCode) :
    Option (TreeModel × RangeImpl × ExceptionCode × (NodeImpl → NodeImpl)) :=
  (tm.node sc).bind fun ts =>
    if ts.nodeType = .TEXT_NODE ∨ ts.nodeType = .CDATA_SECTION_NODE then
      (splitText tm sc (toUnsigned r.m_startOffset) ec).bind fun sp =>
        if sp.2.2.1 ≠ 0 then some (sp.1, r.relocate sp.2.2.2, sp.2.2.1, sp.2.2.2)
        else
          match (sp.2.2.2 sc).parentNode with
          | none => none
          | some p =>
            (insertBefore childTypeAllowed sp.1 p (some (sp.2.2.2 n)) sp.2.1 sp.2.2.1).map
              fun ib => (ib.1, r.relocate (ib.2.2 ∘ sp.2.2.2), ib.2.1, ib.2.2 ∘ sp.2.2.2)
    else
      (childNode tm sc (toUnsigned r.m_startOffset)).bind fun ref =>
        (insertBefore childTypeAllowed tm sc (some n) ref ec).map fun ib =>
          (ib.1, r.relocate ib.2.2, ib.2.1, ib.2.2)

/-- Embeds `RangeImpl::insertNode`, lines 713-788, the function after the guard on
`m_detached`.  `isReadOnly` and `childTypeAllowed` are the Tree Model's queries.  The
range in the result holds the pointers it held, at their new places; the last
component is the relocation of all nodes. -/
def insertNodeCore (isReadOnly : NodeImpl → Bool) (childTypeAllowed : Tree → NodeType → Bool)
    (tm : TreeModel) (r : RangeImpl) (newNode : Ptr) (ec : ExceptionCode) :
    Option (TreeModel × RangeImpl × ExceptionCode × (NodeImpl → NodeImpl)) :=
  if r.containedByReadOnly isReadOnly then some (tm, r, NO_MODIFICATION_ALLOWED_ERR, id)
  else
    match newNode with
    | none => none
    | some n =>
      match r.m_startContainer with
      | none => none
      | some sc =>
        (insertNodeChecks childTypeAllowed tm n sc).bind fun c =>
          match c with
          | some e => some (tm, r, e, id)
          | none => insertNodePlace childTypeAllowed tm r n sc ec

/-- The code of `insertNode` after the guard, lines 713-788. -/
def insertNodeRest (isReadOnly : NodeImpl → Bool) (childTypeAllowed : Tree → NodeType → Bool)
    (tm : TreeModel) (r : RangeImpl) (newNode : Ptr) (ec : ExceptionCode) :
    Option (TreeModel × RangeImpl × ExceptionCode) :=
  (insertNodeCore isReadOnly childTypeAllowed tm r newNode ec).map fun x => (x.1, x.2.1, x.2.2.1)

/-- The code of `insertNode` with its guard on `m_detached`, with the relocation of
the nodes as the last component. -/
def insertNodeMoved (isReadOnly : NodeImpl → Bool) (childTypeAllowed : Tree → NodeType → Bool)
    (tm : TreeModel) (r : RangeImpl) (newNode : Ptr) (ec : ExceptionCode) :
    Option (TreeModel × RangeImpl × ExceptionCode × (NodeImpl → NodeImpl)) :=
  if r.m_detached then some (tm, r, INVALID_STATE_ERR, id)
  else insertNodeCore isReadOnly childTypeAllowed tm r newNode ec

/-! ## `surroundContents` -/

/-- The tests of lines 1138-1149 of `surroundContents`: whether the range partially
selects a node that is not character-like. -/
def partiallySelectsNonText (tm : TreeModel) (r : RangeImpl) : Option Bool :=
  match r.m_startContainer, r.m_endContainer with
  | some sc, some e =>
    (offsetInCharacters tm sc).bind fun cs =>
      (childNodeCount tm sc).bind fun ns =>
        if cs = false ∧ r.m_startOffset > 0 ∧ r.m_startOffset < (ns : Int) then some true
        else
          (offsetInCharacters tm e).bind fun ce =>
            (childNodeCount tm e).map fun ne =>
              decide (ce = false ∧ r.m_endOffset > 0 ∧ r.m_endOffset < (ne : Int))
  | _, _ => none

/-- The loop of lines 1151-1155 of `surroundContents`, `while (NodeImpl* n =
newParent->firstChild())`: every child of `newParent` is removed and becomes a
tree of its own.  The last component tells whether the function returned from
inside the loop (`if (ec) return;`). -/
def removeChildrenLoop : Nat → TreeModel → RangeImpl → NodeImpl → ExceptionCode →
    Option (TreeModel × RangeImpl × NodeImpl × Bool)
  | 0, tm, r, np, _ =>
    (firstChild tm np).bind fun c => if c.isSome then none else some (tm, r, np, false)
  | fuel + 1, tm, r, np, ec =>
    (firstChild tm np).bind fun c =>
      match c with
      | none => some (tm, r, np, false)
      | some n =>
        (removeToRoot tm n).bind fun d =>
          if ec ≠ 0 then some (d.1, r.relocate d.2, d.2 np, true)
          else removeChildrenLoop fuel d.1 (r.relocate d.2) (d.2 np) ec

/-- The index of the child of `p` that `x` is or lies below. -/
def childIndexUnder (p : NodeImpl) : NodeImpl → Option Nat
  | .root _ => none
  | .child q i => if q = p then some i else childIndexUnder p q

/-- The place of the node at `x` after `extractContents` on the range `r` of the
forest `tm`, when the fragment it returns is stored as tree `fragmentRoot` of
the forest.  A node of another tree than the one of the range stays where it
is.  In the tree of the range the place is given for a range with one
container: the children of the container from the start offset up to the end
offset become the children of the fragment, and the children behind them move
down.  For a range with two containers the place of a node of the tree of the
range is the parameter `placeAfterExtract`, about which nothing is assumed. -/
def extractRelocate
    (placeAfterExtract : TreeModel → RangeImpl → Nat → NodeImpl → Option NodeImpl)
    (tm : TreeModel) (r : RangeImpl) (fragmentRoot : Nat) (x : NodeImpl) :
    Option NodeImpl :=
  match r.m_startContainer with
  | none => none
  | some sc =>
    if rootContainer x ≠ rootContainer sc then some x
    else if r.m_startContainer ≠ r.m_endContainer then placeAfterExtract tm r fragmentRoot x
    else
      (tm.node sc).map fun ts =>
        if ts.nodeType = .TEXT_NODE ∨ ts.nodeType = .CDATA_SECTION_NODE ∨
            ts.nodeType = .COMMENT_NODE ∨ ts.nodeType = .PROCESSING_INSTRUCTION_NODE then x
        else
          let lo := min r.m_startOffset.toNat ts.children.length
          let hi := max lo (min r.m_endOffset.toNat ts.children.length)
          match childIndexUnder sc x with
          | none => x
          | some i =>
            if i < lo then x
            else if i < hi then rebase (.child sc i) (.child (.root fragmentRoot) (i - lo)) x
            else rebase (.child sc i) (.child sc (i - (hi - lo))) x

/-- Lines 1151-1165 of `surroundContents`: the part that changes the tree.  The
fragment that `extractContents` returns is stored as a new tree of the forest,
from which `appendChild` moves its children into `newParent`.  `placeAfterExtract`
is the parameter of `extractRelocate`. -/
def surroundContentsMove (isReadOnly : NodeImpl → Bool)
    (childTypeAllowed : Tree → NodeType → Bool)
    (placeAfterExtract : TreeModel → RangeImpl → Nat → NodeImpl → Option NodeImpl)
    (tm : TreeModel) (r : RangeImpl)
    (newParent : NodeImpl) (ec : ExceptionCode) : Option (TreeModel × RangeImpl × ExceptionCode) :=
  (childNodeCount tm newParent).bind fun cnt =>
    (removeChildrenLoop cnt tm r newParent ec).bind fun rc =>
      if rc.2.2.2 then some (rc.1, rc.2.1, ec)
      else
        (RangeImpl.extractContents (extractContentsRest isReadOnly) rc.1 rc.2.1 ec).bind fun ex =>
          if ex.2.2.1 ≠ 0 then some (ex.1, ex.2.1, ex.2.2.1)
          else
            (extractRelocate placeAfterExtract rc.1 rc.2.1 ex.1.roots.length rc.2.2.1).bind
              fun np2 =>
              let tm3 : TreeModel :=
                match ex.2.2.2 with
                | some f => { ex.1 with roots := ex.1.roots ++ [(r.m_ownerDocument, f)] }
                | none => ex.1
              let fragment : Ptr := ex.2.2.2.map fun _ => .root ex.1.roots.length
              (insertNodeMoved isReadOnly childTypeAllowed tm3 ex.2.1 (some np2) ex.2.2.1).bind
                fun ins =>
                  if ins.2.2.1 ≠ 0 then some (ins.1, ins.2.1, ins.2.2.1)
                  else
                    (insertBefore childTypeAllowed ins.1 (ins.2.2.2 np2)
                      (fragment.map ins.2.2.2) none ins.2.2.1).bind fun ap =>
                        if ap.2.1 ≠ 0 then some (ap.1, ins.2.1.relocate ap.2.2, ap.2.1)
                        else
                          ((ins.2.1.relocate ap.2.2).selectNode ap.1
                            (some (ap.2.2 (ins.2.2.2 np2))) ap.2.1).map fun s => (ap.1, s.1, s.2)

/-- The code of `surroundContents` after the guard, lines 1089-1165.  `isReadOnly` and
`childTypeAllowed` are the Tree Model's queries, `placeAfterExtract` is the
parameter of `extractRelocate`. -/
def surroundContentsRest (isReadOnly : NodeImpl → Bool)
    (childTypeAllowed : Tree → NodeType → Bool)
    (placeAfterExtract : TreeModel → RangeImpl → Nat → NodeImpl → Option NodeImpl)
    (tm : TreeModel) (r : RangeImpl)
    (newParent : Ptr) (ec : ExceptionCode) : Option (TreeModel × RangeImpl × ExceptionCode) :=
  match newParent with
  | none => some (tm, r, NOT_FOUND_ERR)
  | some np =>
    (tm.node np).bind fun tnp =>
      if tnp.nodeType = .ATTRIBUTE_NODE ∨ tnp.nodeType = .ENTITY_NODE ∨
          tnp.nodeType = .NOTATION_NODE ∨ tnp.nodeType = .DOCUMENT_TYPE_NODE ∨
          tnp.nodeType = .DOCUMENT_NODE ∨ tnp.nodeType = .DOCUMENT_FRAGMENT_NODE then
        some (tm, r, INVALID_NODE_TYPE_ERR)
      else if r.containedByReadOnly isReadOnly then some (tm, r, NO_MODIFICATION_ALLOWED_ERR)
      else
        match r.m_startContainer with
        | none => none
        | some sc =>
          (getDocument tm np).bind fun dn =>
            (getDocument tm sc).bind fun ds =>
              if dn ≠ ds then some (tm, r, WRONG_DOCUMENT_ERR)
              else
                (tm.node sc).bind fun ts =>
                  if childTypeAllowed ts tnp.nodeType = false then
                    some (tm, r, HIERARCHY_REQUEST_ERR)
                  else if np ∈ sc.ancestors then some (tm, r, HIERARCHY_REQUEST_ERR)
                  else
                    (partiallySelectsNonText tm r).bind fun bad =>
                      if bad then some (tm, r, BAD_BOUNDARYPOINTS_ERR)
                      else
                        surroundContentsMove isReadOnly childTypeAllowed placeAfterExtract tm r np
                          ec

/-! ## Forests used in the examples of `insertNode` and `surroundContents` -/

/-- The value of the parameter `placeAfterExtract` in the examples: their ranges
have one container, for which `extractRelocate` does not consult it. -/
def placeNotConsulted : TreeModel → RangeImpl → Nat → NodeImpl → Option NodeImpl :=
  fun _ _ _ _ => none

/-- The kinds of children that the Tree Model allows below a node, as DOM Level 2 Core
lists them. -/
def domChildTypeAllowed (parent : Tree) (k : NodeType) : Bool :=
  match parent.nodeType with
  | .ELEMENT_NODE | .DOCUMENT_FRAGMENT_NODE | .ENTITY_REFERENCE_NODE | .ENTITY_NODE =>
    k = .ELEMENT_NODE || k = .TEXT_NODE || k = .COMMENT_NODE ||
      k = .PROCESSING_INSTRUCTION_NODE || k = .CDATA_SECTION_NODE ||
      k = .ENTITY_REFERENCE_NODE
  | .DOCUMENT_NODE =>
    k = .ELEMENT_NODE || k = .PROCESSING_INSTRUCTION_NODE || k = .COMMENT_NODE ||
      k = .DOCUMENT_TYPE_NODE
  | .ATTRIBUTE_NODE => k = .TEXT_NODE || k = .ENTITY_REFERENCE_NODE
  | _ => false

/-- A document with `<div>abcdef</div>`, and a fragment of the same document holding
two paragraphs, `<p>1</p><p>2</p>`. -/
def insertModel : TreeModel where
  roots :=
    [ (some (.root 0), .mk .DOCUMENT_NODE []
        [ .mk .ELEMENT_NODE [100] [ .mk .TEXT_NODE [97, 98, 99, 100, 101, 102] [] ] ]),
      (some (.root 0), .mk .DOCUMENT_FRAGMENT_NODE []
        [ .mk .ELEMENT_NODE [112] [ .mk .TEXT_NODE [49] [] ],
          .mk .ELEMENT_NODE [112] [ .mk .TEXT_NODE [50] [] ] ]) ]
  documentElement := fun _ => some (.child (.root 0) 0)

/-- The `div` of `insertModel`. -/
def insertDiv : NodeImpl := .child (.root 0) 0

/-- The text `abcdef` of `insertModel`. -/
def insertText : NodeImpl := .child insertDiv 0

/-- A document with `<div><b>x</b><i>y</i></div>`, and a `span` with one child that is in
no tree of the document. -/
def surroundModel : TreeModel where
  roots :=
    [ (some (.root 0), .mk .DOCUMENT_NODE []
        [ .mk .ELEMENT_NODE [100]
            [ .mk .ELEMENT_NODE [98] [ .mk .TEXT_NODE [120] [] ],
              .mk .ELEMENT_NODE [105] [ .mk .TEXT_NODE [121] [] ] ] ]),
      (some (.root 0), .mk .ELEMENT_NODE [115] [ .mk .COMMENT_NODE [111] [] ]) ]
  documentElement := fun _ => some (.child (.root 0) 0)

/-- The `div` of `surroundModel`. -/
def surroundDiv : NodeImpl := .child (.root 0) 0

/-- The `i` of `surroundModel`. -/
def surroundI : NodeImpl := .child surroundDiv 1

/-- The range from `(div, 1)` to `(div, 2)` of `surroundModel`: it selects the `i` and
has its start between the two children of the `div`. -/
def surroundPartialRange : RangeImpl :=
  { m_ownerDocument := some (.root 0), m_startContainer := some surroundDiv, m_startOffset := 1,
    m_endContainer := some surroundDiv, m_endOffset := 2, m_detached := false }

/-- The range from `(div, 0)` to `(div, 2)` of `surroundModel`: it selects both children of
the `div`. -/
def surroundRange : RangeImpl :=
  { m_ownerDocument := some (.root 0), m_startContainer := some surroundDiv, m_startOffset := 0,
    m_endContainer := some surroundDiv, m_endOffset := 2, m_detached := false }

/-- The nodes that `insertBefore` puts into the tree for a new child `n`: the children
of a document fragment, else the node itself. -/
def insertedNodes (n : Tree) : List Tree :=
  if n.nodeType = .DOCUMENT_FRAGMENT_NODE then n.children else [n]

/-- The range collapsed at offset 3 of the text of `insertModel`. -/
def insertRange : RangeImpl :=
  { m_ownerDocument := some (.root 0), m_startContainer := some insertText, m_startOffset := 3,
    m_endContainer := some insertText, m_endOffset := 3, m_detached := false }

/-- The forest `insertModel` after the fragment has been inserted at offset 3 of the
text: `<div>abc<p>1</p><p>2</p>def</div>`, and the fragment without children. -/
def insertedModel : TreeModel where
  roots :=
    [ (some (.root 0), .mk .DOCUMENT_NODE []
        [ .mk .ELEMENT_NODE [100]
            [ .mk .TEXT_NODE [97, 98, 99] [],
              .mk .ELEMENT_NODE [112] [ .mk .TEXT_NODE [49] [] ],
              .mk .ELEMENT_NODE [112] [ .mk .TEXT_NODE [50] [] ],
              .mk .TEXT_NODE [100, 101, 102] [] ] ]),
      (some (.root 0), .mk .DOCUMENT_FRAGMENT_NODE [] []) ]
  documentElement := fun _ => some (.child (.root 0) 0)

/-- The text node `abcdef` of `insertModel`. -/
def insertTextNode : Tree := .mk .TEXT_NODE [97, 98, 99, 100, 101, 102] []

/-- The fragment of `insertModel`. -/
def insertFragment : Tree :=
  .mk .DOCUMENT_FRAGMENT_NODE []
    [ .mk .ELEMENT_NODE [112] [ .mk .TEXT_NODE [49] [] ],
      .mk .ELEMENT_NODE [112] [ .mk .TEXT_NODE [50] [] ] ]

/-- The range from `(div, 0)` to `(div, 1)`: it selects the first child of the `div`. -/
def surroundedRange : RangeImpl :=
  { m_ownerDocument := some (.root 0), m_startContainer := some surroundDiv, m_startOffset := 0,
    m_endContainer := some surroundDiv, m_endOffset := 1, m_detached := false }

/-! ## `Selection::clear` and `Selection::toRange` -/

/-- Embeds `Selection::clear`, lines 53-58.  The constant `SEL_DEFAULT_AFFINITY` is
declared in a header that is not part of the sources: it is a parameter. -/
def Selection.clear (SEL_DEFAULT_AFFINITY : EAffinity) (s : Selection) : Selection :=
  { s with m_affinity := SEL_DEFAULT_AFFINITY, m_base := Position.null,
           m_extent := Position.null }

/-- Embeds `Selection::Selection()`, lines 37-42. -/
def Selection.create : Selection :=
  { m_base := Position.null, m_extent := Position.null, m_start := Position.null,
    m_end := Position.null, m_affinity := .DOWNSTREAM, m_state := .NONE, m_baseIsFirst := true }

/-- Lines 72-97 of `Selection::toRange`: the positions `s` and `e` of the range.
`equivalentRangeCompliantPosition` is the method of `Position` of that name,
which is not part of the sources: a parameter, like the oracle. -/
def Selection.rangeEnds (o : VisiblePositionOracle)
    (equivalentRangeCompliantPosition : Position → Position) (tm : TreeModel)
    (sel : Selection) : Option (Position × Position) :=
  if sel.m_state = .CARET then
    let s := equivalentRangeCompliantPosition (o.upstream sel.m_start)
    some (s, s)
  else
    let s := o.downstream sel.m_start
    let e := o.upstream sel.m_end
    (compareBoundaryPoints tm s.m_node s.m_offset e.m_node e.m_offset).map fun c =>
      if c > 0 then (equivalentRangeCompliantPosition e, equivalentRangeCompliantPosition s)
      else (equivalentRangeCompliantPosition s, equivalentRangeCompliantPosition e)

/-- Embeds `Selection::toRange`, lines 60-118.  The result `some none` is the null
range that the code returns; `none` stands for a null dereference.  The call of
`updateLayout()` (line 69) is kept as the dereference of the document of the
start node; the oracle is the visible-position code after that update. -/
def Selection.toRange (o : VisiblePositionOracle)
    (equivalentRangeCompliantPosition : Position → Position) (tm : TreeModel)
    (sel : Selection) : Option (Option RangeImpl) :=
  if sel.m_state = .NONE then some none
  else
    (sel.m_start.m_node.bind (getDocument tm)).bind fun d0 =>
      match d0 with
      | none => none
      | some _ =>
        (sel.rangeEnds o equivalentRangeCompliantPosition tm).bind fun se =>
          (se.1.m_node.bind (getDocument tm)).bind fun doc =>
            ((RangeImpl.create doc).setStart tm se.1.m_node se.1.m_offset 0).bind fun r1 =>
              if r1.2 ≠ 0 then some none
              else
                (r1.1.setEnd tm se.2.m_node se.2.m_offset r1.2).bind fun r2 =>
                  if r2.2 ≠ 0 then some none else some (some r2.1)

/-- Both containers of the range are nodes of its owner document. -/
def RangeImpl.containersInOwnerDocument (tm : TreeModel) (r : RangeImpl) : Bool :=
  decide (r.m_startContainer.bind (getDocument tm) = some r.m_ownerDocument) &&
    decide (r.m_endContainer.bind (getDocument tm) = some r.m_ownerDocument)

/-! ## `toString` -/

/-- The loop of `toString`, lines 800-809, with `text` the string collected so far.
The first argument bounds the number of iterations.  The strings are lists of
code units; `str.truncate(m_endOffset)` keeps the first `m_endOffset` code units
and `str.remove(0, m_startOffset)` drops the first `m_startOffset` (the class
`DOMString` is not part of the sources), the offsets read as unsigned. -/
def toStringLoop (tm : TreeModel) (r : RangeImpl) (pastEnd : Ptr) :
    Nat → Ptr → List Nat → Option (List Nat)
  | fuel, n, text =>
    if n = pastEnd then some text
    else
      match fuel, n with
      | _, none => none
      | 0, some _ => none
      | fuel + 1, some m =>
        (tm.node m).bind fun t =>
          let text1 : List Nat :=
            if t.nodeType = .TEXT_NODE ∨ t.nodeType = .CDATA_SECTION_NODE then
              let str := t.data
              let str1 := if some m = r.m_endContainer then
                str.take (toUnsigned r.m_endOffset) else str
              let str2 := if some m = r.m_startContainer then
                str1.drop (toUnsigned r.m_startOffset) else str1
              text ++ str2
            else text
          (traverseNextNode tm m).bind fun n1 => toStringLoop tm r pastEnd fuel n1 text1

/-- The code of `toString` after the guard, lines 798-810. -/
def toStringRest (tm : TreeModel) (r : RangeImpl) (ec : ExceptionCode) :
    Option (Option (List Nat) × ExceptionCode) :=
  (r.pastEndNode tm).bind fun pastEnd =>
    (r.startNode tm).bind fun start =>
      (toStringLoop tm r pastEnd tm.size start []).map fun text => (some text, ec)

mutual
/-- The data of the text and CDATA nodes of a tree, in document order. -/
def Tree.text : Tree → List Nat
  | .mk k d cs => (if k = .TEXT_NODE ∨ k = .CDATA_SECTION_NODE then d else []) ++ textList cs
/-- The data of the text and CDATA nodes of a list of trees, in document order. -/
def textList : List Tree → List Nat
  | [] => []
  | t :: ts => t.text ++ textList ts
end

/-! ## A forest with a processing instruction -/

/-- A document with `<div><?pi?><p>ab cd</p></div>`, the paragraph holding the two text
nodes `ab` and `cd`; when `withComment` is set, a comment stands in the place of
the processing instruction. -/
def instructionModel (withComment : Bool) : TreeModel where
  roots :=
    [ (some (.root 0), .mk .DOCUMENT_NODE []
        [ .mk .ELEMENT_NODE [100]
            [ .mk (if withComment then .COMMENT_NODE else .PROCESSING_INSTRUCTION_NODE)
                [112, 105] [],
              .mk .ELEMENT_NODE [112]
                [ .mk .TEXT_NODE [97, 98] [], .mk .TEXT_NODE [99, 100] [] ] ] ]) ]
  documentElement := fun _ => some (.child (.root 0) 0)

/-- The range of `instructionModel` from offset 0 of the processing instruction (or
comment) to offset 1 of the paragraph, between its two text nodes. -/
def instructionRange : RangeImpl :=
  ⟨some (.root 0), some (.child (.child (.root 0) 0) 0), 0,
    some (.child (.child (.root 0) 0) 1), 1, false⟩

/-! ## Boundary points within the bounds of their containers -/

/-- The offset `o` lies within the bounds of the container `c`: between 0 and the
length of the data of a character-like node, or the number of children of
another node. -/
def offsetValid (tm : TreeModel) (c : Ptr) (o : Int) : Bool :=
  match c.bind tm.node with
  | some t => decide (0 ≤ o ∧ o ≤ (offsetBound t : Int))
  | none => false

/-- The node `b` is of the kind of `a`, holds the same data and has at least as
many children. -/
def Tree.fits (a b : Tree) : Prop :=
  b.nodeType = a.nodeType ∧ b.data = a.data ∧ a.children.length ≤ b.children.length

/-- Where the node that was at place `q` is after the children `lo`, ..., `hi - 1`
of `p` have been taken out of the tree: the children of `p` from `hi` on, and
everything below them, move `hi - lo` indices down; every other place stays. -/
def cut (p : NodeImpl) (lo hi : Nat) : NodeImpl → NodeImpl
  | .root t => .root t
  | .child q i =>
    if q = p then .child p (if hi ≤ i then i - (hi - lo) else i) else .child (cut p lo hi q) i

/-- Where the node that was at place `x` is after the loop of lines 590-616 of
`processContents` has run from the node `A` up to the child of the common root `R`:
at each level the children before the way down to the end container are taken
out of their parent. -/
def rightLevelsShift (R : NodeImpl) : NodeImpl → NodeImpl → NodeImpl
  | .root _, x => x
  | .child P c, x => if P = R then x else rightLevelsShift R P (cut P 0 c x)

/-- The index of the first child of the common root `R` after the start of the
range, lines 619-626: the start offset when the start container is `R`, else the
index behind the child of `R` above the start container. -/
def firstAfterStart (R sc : NodeImpl) (so : Int) : Nat :=
  match childIndexUnder R sc with
  | some a => a + 1
  | none => so.toNat

/-- The index of the first child of the common root `R` that is not wholly
before the end of the range, lines 629-639: the end offset when the end container
is `R`, else the index of the child of `R` above the end container. -/
def firstNotBeforeEnd (R e : NodeImpl) (eo : Int) : Nat :=
  match childIndexUnder R e with
  | some b => b
  | none => eo.toNat

/-- A value of the parameter `placeAfterExtract` of `extractRelocate`: the place after
`extractContents`, on a range with two containers, of a node that stays in the
tree.  The children that are left in the end container move down by the end
offset, the children left in a node on the way from the common root down to
the end container move down by the number of their siblings before that
way, and the children of the common root that are left behind the range move
down by the number of children taken out.  The places of the nodes
that the range selects, which become nodes of the fragment, are not given by
this value. -/
def placeOfKept : TreeModel → RangeImpl → Nat → NodeImpl → Option NodeImpl :=
  fun _ r _ x =>
    match r.m_startContainer, r.m_endContainer with
    | some sc, some e =>
      (commonAncestorLoop (some e) sc).map fun R =>
        cut R (firstAfterStart R sc r.m_startOffset) (firstNotBeforeEnd R e r.m_endOffset)
          (if e = R then x else rightLevelsShift R e (cut e 0 r.m_endOffset.toNat x))
    | _, _ => none

/-- Whether the range with common root `R`, start `(sc, so)` and end `(e, eo)` selects
child `i` of `q` wholly, `q` being `R` or a node on the way from `R` down to one of the
containers: a child of `R` between the two ways, a child behind the way down to the
start container (in the start container: from the start offset on), or a child before
the way down to the end container (in the end container: before the end offset). -/
def selectsChild (R sc e : NodeImpl) (so eo : Int) (q : NodeImpl) (i : Nat) : Bool :=
  if q = R then decide (firstAfterStart R sc so ≤ i ∧ i < firstNotBeforeEnd R e eo)
  else if R ∈ q.ancestors ∧ q ∈ sc.ancestors then
    if q = sc then decide (so ≤ (i : Int))
    else
      match childIndexUnder q sc with
      | some c => decide (c < i)
      | none => false
  else if R ∈ q.ancestors ∧ q ∈ e.ancestors then
    if q = e then decide ((i : Int) < eo)
    else
      match childIndexUnder q e with
      | some c => decide (i < c)
      | none => false
  else false

/-- Whether the node at `x` is in the content that the range selects: `x` or one of
its ancestors is a child that the range selects wholly. -/
def inSelectedContent (R sc e : NodeImpl) (so eo : Int) : NodeImpl → Bool
  | .root _ => false
  | .child q i => selectsChild R sc e so eo q i || inSelectedContent R sc e so eo q

/-- Whether the node at `x` is in the content that the range `r` selects; `false` for a
range without common root. -/
def RangeImpl.selects (r : RangeImpl) (x : NodeImpl) : Bool :=
  match r.m_startContainer, r.m_endContainer with
  | some sc, some e =>
    match commonAncestorLoop (some e) sc with
    | some R => inSelectedContent R sc e r.m_startOffset r.m_endOffset x
    | none => false
  | _, _ => false

/-- The node at `y` is not touched by the left-hand side of the complex case of
`processContents`, for the start `(sc, so)` of the range and the child `top` of the
common root above the start container: `y` is not the start container or a node
above it; below the start container it is below a child before the start offset;
and below another node on the way from `top` down to the start container it
is not below a child behind that way. -/
def KeptLeft (top sc : NodeImpl) (so : Int) (y : NodeImpl) : Prop :=
  y ∉ sc.ancestors ∧
  (∀ i : Nat, .child sc i ∈ y.ancestors → (i : Int) < so) ∧
  (∀ (P : NodeImpl) (c i : Nat), .child P c ∈ sc.ancestors → top ∈ P.ancestors →
    .child P i ∈ y.ancestors → i ≤ c)

/-- The node at `y` is not taken out of the tree by the right-hand side of the
complex case of `processContents`, for the end `(e, eo)` of the range and the child
`top` of the common root above the end container: `y` is not a node above the end
container, and it is the end container only when the end offset is 0; below the end
container it is not below a child before the end offset; and below another node on
the way from `top` down to the end container it is not below a child before that
way. -/
def KeptRight (top e : NodeImpl) (eo : Int) (y : NodeImpl) : Prop :=
  (y ∉ e.ancestors ∨ (y = e ∧ eo = 0)) ∧
  (∀ i : Nat, .child e i ∈ y.ancestors → eo ≤ (i : Int)) ∧
  (∀ (P : NodeImpl) (c i : Nat), .child P c ∈ e.ancestors → top ∈ P.ancestors →
    .child P i ∈ y.ancestors → c ≤ i)

/-! ## Equality of nodes, and forests used in the examples of `surroundContents` -/

mutual
/-- Decides whether two nodes are equal. -/
def Tree.decEq : (a b : Tree) → Decidable (a = b)
  | .mk k d cs, .mk k1 d1 cs1 =>
    if hk : k = k1 then
      if hd : d = d1 then
        match Tree.decEqList cs cs1 with
        | isTrue h => isTrue (by rw [hk, hd, h])
        | isFalse h => isFalse (fun e => h (by injection e))
      else isFalse (fun e => hd (by injection e))
    else isFalse (fun e => hk (by injection e))
/-- Decides whether two lists of nodes are equal. -/
def Tree.decEqList : (as bs : List Tree) → Decidable (as = bs)
  | [], [] => isTrue rfl
  | [], _ :: _ => isFalse (fun e => by cases e)
  | _ :: _, [] => isFalse (fun e => by cases e)
  | a :: as, b :: bs =>
    match Tree.decEq a b with
    | isTrue h =>
      match Tree.decEqList as bs with
      | isTrue h1 => isTrue (by rw [h, h1])
      | isFalse h1 => isFalse (fun e => h1 (by injection e))
    | isFalse h => isFalse (fun e => h (by injection e))
end

instance : DecidableEq Tree := Tree.decEq

/-- A document with `<div><u>z</u><b>x</b><i>y</i></div>`. -/
def surroundInnerModel : TreeModel where
  roots :=
    [ (some (.root 0), .mk .DOCUMENT_NODE []
        [ .mk .ELEMENT_NODE [100]
            [ .mk .ELEMENT_NODE [117] [ .mk .TEXT_NODE [122] [] ],
              .mk .ELEMENT_NODE [98] [ .mk .TEXT_NODE [120] [] ],
              .mk .ELEMENT_NODE [105] [ .mk .TEXT_NODE [121] [] ] ] ]) ]
  documentElement := fun _ => some (.child (.root 0) 0)

/-- The `u` of `surroundInnerModel`. -/
def surroundInnerU : NodeImpl := .child surroundDiv 0

/-- The node at `surroundInnerU`. -/
def surroundInnerUNode : Tree := .mk .ELEMENT_NODE [117] [ .mk .TEXT_NODE [122] [] ]

/-- The range from `(b, 0)` to `(i, 1)` of `surroundInnerModel`: it selects the texts `x` and
`y`, and the `b` and the `i` in part. -/
def surroundInnerRange : RangeImpl :=
  { m_ownerDocument := some (.root 0), m_startContainer := some (.child surroundDiv 1),
    m_startOffset := 0, m_endContainer := some (.child surroundDiv 2), m_endOffset := 1,
    m_detached := false }

/-- The range from `(div, 0)` to `(i, 1)` of `surroundModel`: it selects the `b` and the text
`y`, and the `i` in part. -/
def surroundEndRange : RangeImpl :=
  { m_ownerDocument := some (.root 0), m_startContainer := some surroundDiv, m_startOffset := 0,
    m_endContainer := some surroundI, m_endOffset := 1, m_detached := false }

/-! ## The fragment that `processContents` builds in the complex case -/

/-- The `leftContents` that lines 486-519 build at a start container `ts` for the start
offset `so`: a copy of the node with its data from `so` on, or with its children from `so`
on; nothing for a processing instruction. -/
def leftStartContents (ts : Tree) (so : Nat) : Option Tree :=
  if isTextCDataOrComment ts.nodeType then some (ts.withData (ts.data.drop so))
  else if ts.nodeType = NodeType.PROCESSING_INSTRUCTION_NODE then none
  else some (ts.withChildren (ts.children.drop so))

/-- The `leftContents` after the loop of lines 523-541 over the nodes from the parent of the
node at the place given up to the child of `R`: each pass wraps the contents built so
far in a copy of the parent and appends the later siblings. -/
def leftSpine (tm : TreeModel) (R : NodeImpl) : NodeImpl → Option Tree → Option Tree
  | .root _, F => F
  | .child P c, F =>
    if P = R then F
    else
      match tm.node P with
      | some TP => leftSpine tm R P (some (TP.withChildren (F.toList ++ TP.children.drop (c + 1))))
      | none => none

/-- The `rightContents` that lines 548-586 build at an end container `te` for the end
offset `eo`: a copy of the node with its data before `eo`, or with its children before `eo`;
nothing when the start container, of kind `ks`, is a processing instruction. -/
def rightStartContents (ks : NodeType) (te : Tree) (eo : Nat) : Option Tree :=
  if isTextCDataOrComment te.nodeType then some (te.withData (te.data.take eo))
  else if ks = NodeType.PROCESSING_INSTRUCTION_NODE then none
  else some (te.withChildren (te.children.take eo))

/-- The `rightContents` after the loop of lines 590-608 over the nodes from the parent of the
node at the place given up to the child of `R`: each pass wraps the contents built so
far in a copy of the parent, behind the earlier siblings. -/
def rightSpine (tm : TreeModel) (R : NodeImpl) : NodeImpl → Option Tree → Option Tree
  | .root _, F => F
  | .child P c, F =>
    if P = R then F
    else
      match tm.node P with
      | some TP => rightSpine tm R P (some (TP.withChildren (TP.children.take c ++ F.toList)))
      | none => none

/-- The fragment that the complex case of `processContents` builds, for the common
root `R` with the node `TR`, the containers `sc` and `e` with the nodes `ts` and `te`, the
offsets `so` and `eo`, and the children of `R` from `lo` up to `hi` between the two sides:
the contents of the left-hand side, those children, the contents of the right-hand
side. -/
def complexFragment (tm : TreeModel) (R sc e : NodeImpl) (ts te TR : Tree)
    (so eo lo hi : Nat) : Tree :=
  .mk NodeType.DOCUMENT_FRAGMENT_NODE []
    ((if sc = R then none else leftSpine tm R sc (leftStartContents ts so)).toList ++
      (TR.children.drop lo).take (hi - lo) ++
      (if e = R then none else rightSpine tm R e (rightStartContents ts.nodeType te eo)).toList)

/-- The fragment that `processContents` builds for the range `r` on the forest `tm`, for
a range whose container, when it has only one, is not character-like: the children of
the container between the two offsets, or `complexFragment` for the common root and
the two containers. -/
def extractedFragment (tm : TreeModel) (r : RangeImpl) : Option Tree :=
  match r.m_startContainer, r.m_endContainer with
  | some sc, some e =>
    (commonAncestorLoop (some e) sc).bind fun R =>
      (tm.node R).bind fun TR =>
        (tm.node sc).bind fun ts =>
          (tm.node e).map fun te =>
            if sc = e then
              .mk NodeType.DOCUMENT_FRAGMENT_NODE []
                ((ts.children.drop r.m_startOffset.toNat).take
                  (r.m_endOffset.toNat - r.m_startOffset.toNat))
            else
              complexFragment tm R sc e ts te TR r.m_startOffset.toNat r.m_endOffset.toNat
                (firstAfterStart R sc r.m_startOffset) (firstNotBeforeEnd R e r.m_endOffset)
  | _, _ => none

/-! ## Ancestor chains -/

theorem mem_ancestors_self (n : NodeImpl) : n ∈ n.ancestors := by
  cases n <;> simp [NodeImpl.ancestors]

theorem mem_ancestors_child {z p : NodeImpl} {i : Nat} :
    z ∈ (NodeImpl.child p i).ancestors ↔ z = .child p i ∨ z ∈ p.ancestors := by
  simp [NodeImpl.ancestors]

theorem depth_le_of_mem_ancestors {x y : NodeImpl} (h : x ∈ y.ancestors) : x.depth ≤ y.depth := by
  induction y with
  | root t =>
    simp [NodeImpl.ancestors] at h
    subst h
    exact le_refl _
  | child p i ih =>
    rcases mem_ancestors_child.mp h with h | h
    · subst h
      exact le_refl _
    · have := ih h
      simp [NodeImpl.depth]
      omega

theorem ancestors_trans {x y z : NodeImpl} (hxy : x ∈ y.ancestors) (hyz : y ∈ z.ancestors) :
    x ∈ z.ancestors := by
  induction z with
  | root t =>
    simp [NodeImpl.ancestors] at hyz
    subst hyz
    exact hxy
  | child p i ih =>
    rcases mem_ancestors_child.mp hyz with h | h
    · subst h
      exact hxy
    · exact mem_ancestors_child.mpr (Or.inr (ih h))

theorem parent_mem_ancestors {p y : NodeImpl} {i : Nat} (h : .child p i ∈ y.ancestors) :
    p ∈ y.ancestors :=
  ancestors_trans (mem_ancestors_child.mpr (Or.inr (mem_ancestors_self p))) h

theorem child_not_mem_ancestors (p : NodeImpl) (i : Nat) : .child p i ∉ p.ancestors := by
  intro h
  have := depth_le_of_mem_ancestors h
  simp [NodeImpl.depth] at this

theorem mem_ancestors_of_depth_le {x y z : NodeImpl} (hx : x ∈ z.ancestors)
    (hy : y ∈ z.ancestors) (hd : x.depth ≤ y.depth) : x ∈ y.ancestors := by
  induction z with
  | root t =>
    simp [NodeImpl.ancestors] at hx hy
    subst hx; subst hy
    exact mem_ancestors_self _
  | child p i ih =>
    rcases mem_ancestors_child.mp hy with hy | hy
    · subst hy
      exact hx
    · rcases mem_ancestors_child.mp hx with hx | hx
      · subst hx
        have := depth_le_of_mem_ancestors hy
        simp [NodeImpl.depth] at hd
        omega
      · exact ih hx hy

theorem eq_of_mem_ancestors_of_depth_eq {x y : NodeImpl} (h : x ∈ y.ancestors)
    (hd : x.depth = y.depth) : x = y := by
  cases y with
  | root t => simpa [NodeImpl.ancestors] using h
  | child p i =>
    rcases mem_ancestors_child.mp h with h | h
    · exact h
    · have := depth_le_of_mem_ancestors h
      simp [NodeImpl.depth] at hd
      omega

theorem eq_of_mem_ancestors_same_depth {x y z : NodeImpl} (hx : x ∈ z.ancestors)
    (hy : y ∈ z.ancestors) (hd : x.depth = y.depth) : x = y :=
  eq_of_mem_ancestors_of_depth_eq (mem_ancestors_of_depth_le hx hy (le_of_eq hd)) hd

theorem rootContainer_mem_ancestors (n : NodeImpl) : rootContainer n ∈ n.ancestors := by
  induction n with
  | root t => simp [rootContainer, NodeImpl.ancestors]
  | child p i ih => exact mem_ancestors_child.mpr (Or.inr ih)

theorem rootContainer_eq_of_mem_ancestors {x y : NodeImpl} (h : x ∈ y.ancestors) :
    rootContainer x = rootContainer y := by
  induction y with
  | root t =>
    simp [NodeImpl.ancestors] at h
    rw [h]
  | child p i ih =>
    rcases mem_ancestors_child.mp h with h | h
    · rw [h]
    · simpa [rootContainer] using ih h

theorem exists_child_mem_ancestors {x y : NodeImpl} (h : x ∈ y.ancestors) (hne : x ≠ y) :
    ∃ k, .child x k ∈ y.ancestors := by
  induction y with
  | root t =>
    simp [NodeImpl.ancestors] at h
    exact absurd h hne
  | child p i ih =>
    rcases mem_ancestors_child.mp h with h | h
    · exact absurd h hne
    · by_cases hp : x = p
      · subst hp
        exact ⟨i, mem_ancestors_self _⟩
      · obtain ⟨k, hk⟩ := ih h hp
        exact ⟨k, mem_ancestors_child.mpr (Or.inr hk)⟩

theorem path_of_mem_ancestors {x y : NodeImpl} (h : x ∈ y.ancestors) :
    ∃ rest, y.path = x.path ++ rest := by
  induction y with
  | root t =>
    simp [NodeImpl.ancestors] at h
    exact ⟨[], by simp [h]⟩
  | child p i ih =>
    rcases mem_ancestors_child.mp h with h | h
    · exact ⟨[], by simp [h]⟩
    · obtain ⟨rest, hr⟩ := ih h
      exact ⟨rest ++ [i], by simp [NodeImpl.path, hr]⟩

/-! ## The pointer walks -/

theorem walkToNode_eq (x y : NodeImpl) :
    walkToNode x y = if x ∈ y.ancestors then some x else none := by
  induction y with
  | root t =>
    by_cases h : x = .root t
    · simp [walkToNode, NodeImpl.ancestors, h]
    · simp [walkToNode, NodeImpl.ancestors, h]
  | child p i ih =>
    by_cases h : x = .child p i
    · simp [walkToNode, NodeImpl.ancestors, h]
    · simp [walkToNode, NodeImpl.ancestors, h, ih]

theorem commonAncestorLoop_some {a b r : NodeImpl}
    (h : commonAncestorLoop (some b) a = some r) :
    r ∈ a.ancestors ∧ r ∈ b.ancestors ∧
      ∀ z, z ∈ a.ancestors → z ∈ b.ancestors → z ∈ r.ancestors := by
  induction a with
  | root t =>
    simp only [commonAncestorLoop, Option.bind, walkToNode_eq] at h
    by_cases hm : NodeImpl.root t ∈ b.ancestors
    · simp [hm] at h
      subst h
      refine ⟨mem_ancestors_self _, hm, fun z hz _ => hz⟩
    · simp [hm] at h
  | child p i ih =>
    simp only [commonAncestorLoop, Option.bind, walkToNode_eq] at h
    by_cases hm : NodeImpl.child p i ∈ b.ancestors
    · simp [hm] at h
      subst h
      exact ⟨mem_ancestors_self _, hm, fun z hz _ => hz⟩
    · simp [hm] at h
      obtain ⟨h1, h2, h3⟩ := ih h
      refine ⟨mem_ancestors_child.mpr (Or.inr h1), h2, fun z hz hzb => ?_⟩
      rcases mem_ancestors_child.mp hz with hz | hz
      · subst hz
        exact absurd hzb hm
      · exact h3 z hz hzb

theorem commonAncestorLoop_none {a b : NodeImpl}
    (h : commonAncestorLoop (some b) a = none) :
    ∀ z, z ∈ a.ancestors → z ∉ b.ancestors := by
  induction a with
  | root t =>
    simp only [commonAncestorLoop, Option.bind, walkToNode_eq] at h
    by_cases hm : NodeImpl.root t ∈ b.ancestors
    · simp [hm] at h
    · intro z hz
      simp [NodeImpl.ancestors] at hz
      subst hz
      exact hm
  | child p i ih =>
    simp only [commonAncestorLoop, Option.bind, walkToNode_eq] at h
    by_cases hm : NodeImpl.child p i ∈ b.ancestors
    · simp [hm] at h
    · simp [hm] at h
      intro z hz
      rcases mem_ancestors_child.mp hz with hz | hz
      · subst hz
        exact hm
      · exact ih h z hz

theorem commonAncestorLoop_of_same_root {a b : NodeImpl}
    (h : rootContainer a = rootContainer b) :
    ∃ r, commonAncestorLoop (some b) a = some r := by
  cases hc : commonAncestorLoop (some b) a with
  | some r => exact ⟨r, rfl⟩
  | none =>
    have := commonAncestorLoop_none hc _ (rootContainer_mem_ancestors a)
    rw [h] at this
    exact absurd (rootContainer_mem_ancestors b) this

theorem walkToChildOf_some {a b c : NodeImpl} (h : walkToChildOf (some a) b = some c) :
    ∃ k, c = .child a k ∧ c ∈ b.ancestors := by
  induction b with
  | root t => simp [walkToChildOf] at h
  | child p i ih =>
    by_cases hp : p = a
    · simp [walkToChildOf, hp] at h
      subst h; subst hp
      exact ⟨i, rfl, mem_ancestors_self _⟩
    · simp [walkToChildOf, hp] at h
      obtain ⟨k, hk, hm⟩ := ih h
      exact ⟨k, hk, mem_ancestors_child.mpr (Or.inr hm)⟩

theorem walkToChildOf_of_mem {a b : NodeImpl} {k : Nat} (h : .child a k ∈ b.ancestors) :
    walkToChildOf (some a) b = some (.child a k) := by
  induction b with
  | root t => simp [NodeImpl.ancestors] at h
  | child p i ih =>
    by_cases hp : p = a
    · subst hp
      rcases mem_ancestors_child.mp h with h | h
      · simp [walkToChildOf, h]
      · exact absurd h (child_not_mem_ancestors _ _)
    · rcases mem_ancestors_child.mp h with h | h
      · simp at h
        exact absurd h.1.symm hp
      · simp [walkToChildOf, hp, ih h]

theorem walkToChildOf_none {a b : NodeImpl} (h : walkToChildOf (some a) b = none) (k : Nat) :
    .child a k ∉ b.ancestors := by
  intro hm
  rw [walkToChildOf_of_mem hm] at h
  simp at h

/-! ## Valid pointers -/

theorem valid_iff {tm : TreeModel} {n : NodeImpl} : tm.valid n ↔ ∃ t, tm.node n = some t := by
  simp [TreeModel.valid, Option.isSome_iff_exists]

theorem node_child_some {tm : TreeModel} {p : NodeImpl} {i : Nat} {t : Tree}
    (h : tm.node (.child p i) = some t) :
    ∃ tp, tm.node p = some tp ∧ tp.children[i]? = some t := by
  simp only [TreeModel.node] at h
  cases hp : tm.node p with
  | none => simp [hp] at h
  | some tp => exact ⟨tp, rfl, by simpa [hp] using h⟩

theorem valid_parent {tm : TreeModel} {p : NodeImpl} {i : Nat} (h : tm.valid (.child p i)) :
    tm.valid p := by
  obtain ⟨t, ht⟩ := valid_iff.mp h
  obtain ⟨tp, htp, _⟩ := node_child_some ht
  exact valid_iff.mpr ⟨tp, htp⟩

theorem valid_of_mem_ancestors {tm : TreeModel} {x y : NodeImpl} (hy : tm.valid y)
    (h : x ∈ y.ancestors) : tm.valid x := by
  induction y with
  | root t =>
    simp [NodeImpl.ancestors] at h
    subst h
    exact hy
  | child p i ih =>
    simp [NodeImpl.ancestors] at h
    rcases h with h | h
    · subst h
      exact hy
    · exact ih (valid_parent hy) h

theorem valid_child_lt {tm : TreeModel} {p : NodeImpl} {i : Nat} {tp : Tree}
    (hp : tm.node p = some tp) (h : tm.valid (.child p i)) : i < tp.children.length := by
  obtain ⟨t, ht⟩ := valid_iff.mp h
  obtain ⟨tp1, htp1, hc⟩ := node_child_some ht
  rw [hp] at htp1
  cases htp1
  by_contra hlt
  rw [List.getElem?_eq_none (by omega)] at hc
  simp at hc

theorem valid_child_of_lt {tm : TreeModel} {p : NodeImpl} {i : Nat} {tp : Tree}
    (hp : tm.node p = some tp) (h : i < tp.children.length) : tm.valid (.child p i) := by
  simp [TreeModel.valid, TreeModel.node, hp, List.getElem?_eq_getElem h]

theorem firstChild_of_pos {tm : TreeModel} {p : NodeImpl} {tp : Tree}
    (hp : tm.node p = some tp) (h : 0 < tp.children.length) :
    firstChild tm p = some (some (.child p 0)) := by
  simp [firstChild, hp, h]

theorem nextSibling_of_lt {tm : TreeModel} {p : NodeImpl} {i : Nat} {tp : Tree}
    (hp : tm.node p = some tp) (h : i + 1 < tp.children.length) :
    nextSibling tm (.child p i) = some (some (.child p (i + 1))) := by
  have hv : tm.valid (.child p i) := valid_child_of_lt hp (by omega)
  obtain ⟨t, ht⟩ := valid_iff.mp hv
  simp [nextSibling, ht, hp, h]

/-! ## The sibling scans -/

theorem countSiblings_spec {tm : TreeModel} {a : NodeImpl} {ta : Tree} {k : Nat}
    (ha : tm.node a = some ta) (hk : k < ta.children.length) (offsetA : Int) :
    ∀ (d j fuel : Nat), j + d = k → (offsetA - (j : Int)).toNat ≤ fuel →
      ∃ r : Int, countSiblings tm (some (.child a k)) offsetA fuel (some (.child a j)) (j : Int)
          = some r ∧ (offsetA ≤ r ↔ offsetA ≤ (k : Int)) := by
  intro d
  induction d with
  | zero =>
    intro j fuel hj _
    simp at hj
    subst hj
    refine ⟨(j : Int), ?_, Iff.rfl⟩
    cases fuel <;> simp [countSiblings]
  | succ d ih =>
    intro j fuel hj hf
    have hne : (some (NodeImpl.child a j) : Ptr) ≠ some (NodeImpl.child a k) := by
      intro h
      simp at h
      omega
    by_cases hlt : (j : Int) < offsetA
    · have hfuel : 0 < fuel := by omega
      obtain ⟨f, rfl⟩ : ∃ f, fuel = f + 1 := ⟨fuel - 1, by omega⟩
      have hns := nextSibling_of_lt (i := j) ha (by omega)
      obtain ⟨r, hr, hiff⟩ := ih (j + 1) f (by omega) (by omega)
      refine ⟨r, ?_, hiff⟩
      rw [countSiblings]
      simp only [hne, hlt, ne_eq, not_false_eq_true, and_self, if_true, hns, Option.bind]
      simpa using hr
    · refine ⟨(j : Int), ?_, ?_⟩
      · cases fuel <;> simp [countSiblings, hlt]
      · constructor <;> intro _ <;> omega

theorem scanChildren_spec {tm : TreeModel} {r : NodeImpl} {tr : Tree} {i j : Nat}
    (hr : tm.node r = some tr) (hi : i < tr.children.length) (hj : j < tr.children.length)
    (hij : i ≠ j) :
    ∀ (d m fuel : Nat), m + d = min i j → tr.children.length ≤ m + fuel →
      scanChildren tm (some (.child r i)) (some (.child r j)) fuel (some (.child r m))
        = some (if i < j then -1 else 1) := by
  intro d
  induction d with
  | zero =>
    intro m fuel hm hf
    simp at hm
    obtain ⟨f, rfl⟩ : ∃ f, fuel = f + 1 := ⟨fuel - 1, by omega⟩
    by_cases h : i < j
    · have : m = i := by omega
      subst this
      simp [scanChildren, h]
    · have : m = j := by omega
      subst this
      have hne : m ≠ i := by omega
      simp [scanChildren, h, hne]
  | succ d ih =>
    intro m fuel hm hf
    obtain ⟨f, rfl⟩ : ∃ f, fuel = f + 1 := ⟨fuel - 1, by omega⟩
    have h1 : m ≠ i := by omega
    have h2 : m ≠ j := by omega
    have hns := nextSibling_of_lt (i := m) hr (by omega)
    rw [scanChildren]
    simp only [Option.some.injEq, NodeImpl.child.injEq, true_and, h1, h2, if_false, hns,
      Option.bind]
    exact ih (m + 1) f (by omega) (by omega)

/-! ## The four cases of the comparison -/

theorem compare_same (tm : TreeModel) (c : Ptr) (oA oB : Int) :
    compareBoundaryPoints tm c oA c oB
      = some (if oA = oB then 0 else if oA < oB then -1 else 1) := by
  unfold compareBoundaryPoints
  by_cases h1 : oA = oB
  · simp [h1]
  · by_cases h2 : oA < oB <;> simp [h1, h2]

theorem compare_ancestor {tm : TreeModel} {a b : NodeImpl} {k : Nat} (oA oB : Int)
    (hb : tm.valid b) (h : .child a k ∈ b.ancestors) :
    compareBoundaryPoints tm (some a) oA (some b) oB = some (if oA ≤ (k : Int) then -1 else 1) := by
  have hne : a ≠ b := by
    intro e
    subst e
    exact child_not_mem_ancestors _ _ h
  have hck : tm.valid (.child a k) := valid_of_mem_ancestors hb h
  obtain ⟨ta, hta⟩ := valid_iff.mp (valid_parent hck)
  have hlt := valid_child_lt hta hck
  obtain ⟨r, hr, hiff⟩ := countSiblings_spec hta hlt oA k 0 oA.toNat (by omega) (by simp)
  unfold compareBoundaryPoints
  simp only [Option.some.injEq, hne, if_false, Option.bind, walkToChildOf_of_mem h,
    firstChild_of_pos hta (by omega : 0 < ta.children.length)]
  simp only [Nat.cast_zero] at hr
  rw [hr]
  by_cases hle : oA ≤ (k : Int)
  · simp [hle, hiff.mpr hle]
  · have h2 : ¬ oA ≤ r := fun h => hle (hiff.mp h)
    simp [hle, h2]

theorem walkToChildOf_none_of_descendant {a b : NodeImpl} {k : Nat}
    (h : .child b k ∈ a.ancestors) : walkToChildOf (some a) b = none := by
  cases hw : walkToChildOf (some a) b with
  | none => rfl
  | some c =>
    obtain ⟨k1, hc, hm⟩ := walkToChildOf_some hw
    subst hc
    have h1 := depth_le_of_mem_ancestors hm
    have h2 := depth_le_of_mem_ancestors h
    simp [NodeImpl.depth] at h1 h2
    omega

theorem compare_descendant {tm : TreeModel} {a b : NodeImpl} {k : Nat} (oA oB : Int)
    (ha : tm.valid a) (h : .child b k ∈ a.ancestors) :
    compareBoundaryPoints tm (some a) oA (some b) oB = some (if (k : Int) < oB then -1 else 1) := by
  have hne : a ≠ b := by
    intro e
    subst e
    exact child_not_mem_ancestors _ _ h
  have hck : tm.valid (.child b k) := valid_of_mem_ancestors ha h
  obtain ⟨tb, htb⟩ := valid_iff.mp (valid_parent hck)
  have hlt := valid_child_lt htb hck
  obtain ⟨r, hr, hiff⟩ := countSiblings_spec htb hlt oB k 0 oB.toNat (by omega) (by simp)
  unfold compareBoundaryPoints
  simp only [Option.some.injEq, hne, if_false, Option.bind, walkToChildOf_none_of_descendant h,
    walkToChildOf_of_mem h, firstChild_of_pos htb (by omega : 0 < tb.children.length)]
  simp only [Nat.cast_zero] at hr
  rw [hr]
  by_cases hle : oB ≤ (k : Int)
  · have h1 : ¬ (k : Int) < oB := by omega
    have h2 : ¬ r < oB := by have := hiff.mpr hle; omega
    simp [h1, h2]
  · have h1 : (k : Int) < oB := by omega
    have h2 : r < oB := by
      by_contra hc
      exact hle (hiff.mp (by omega))
    simp [h1, h2]

theorem siblings_ne {a b r : NodeImpl} {i j : Nat} (hij : i ≠ j)
    (hA : .child r i ∈ a.ancestors) (hB : .child r j ∈ b.ancestors) (hab : a ∈ b.ancestors) :
    False := by
  have h1 := ancestors_trans hA hab
  have := eq_of_mem_ancestors_same_depth h1 hB (by simp [NodeImpl.depth])
  simp at this
  exact hij this

theorem commonAncestorLoop_of_siblings {a b r : NodeImpl} {i j : Nat} (hij : i ≠ j)
    (hA : .child r i ∈ a.ancestors) (hB : .child r j ∈ b.ancestors) :
    commonAncestorLoop (some b) a = some r := by
  have hra := parent_mem_ancestors hA
  have hrb := parent_mem_ancestors hB
  cases hc : commonAncestorLoop (some b) a with
  | none => exact absurd hrb (commonAncestorLoop_none hc r hra)
  | some r1 =>
    obtain ⟨h1, h2, h3⟩ := commonAncestorLoop_some hc
    have hr := h3 r hra hrb
    have hd : r1.depth ≤ r.depth := by
      by_contra hgt
      have e1 := mem_ancestors_of_depth_le hA h1 (by simp [NodeImpl.depth]; omega)
      have e2 := mem_ancestors_of_depth_le hB h2 (by simp [NodeImpl.depth]; omega)
      have := eq_of_mem_ancestors_same_depth e1 e2 (by simp [NodeImpl.depth])
      simp at this
      exact hij this
    have := eq_of_mem_ancestors_of_depth_eq hr (by have := depth_le_of_mem_ancestors hr; omega)
    rw [this]

theorem compare_siblings {tm : TreeModel} {a b r : NodeImpl} {i j : Nat} (oA oB : Int)
    (ha : tm.valid a) (hb : tm.valid b) (hij : i ≠ j)
    (hA : .child r i ∈ a.ancestors) (hB : .child r j ∈ b.ancestors) :
    compareBoundaryPoints tm (some a) oA (some b) oB = some (if i < j then -1 else 1) := by
  have hne : a ≠ b := by
    intro e
    subst e
    exact siblings_ne hij hA hB (mem_ancestors_self _)
  have hw1 : walkToChildOf (some a) b = none := by
    cases hw : walkToChildOf (some a) b with
    | none => rfl
    | some c =>
      obtain ⟨k1, hc, hm⟩ := walkToChildOf_some hw
      subst hc
      exact (siblings_ne hij hA hB (parent_mem_ancestors hm)).elim
  have hw2 : walkToChildOf (some b) a = none := by
    cases hw : walkToChildOf (some b) a with
    | none => rfl
    | some c =>
      obtain ⟨k1, hc, hm⟩ := walkToChildOf_some hw
      subst hc
      exact (siblings_ne (Ne.symm hij) hB hA (parent_mem_ancestors hm)).elim
  have hci : tm.valid (.child r i) := valid_of_mem_ancestors ha hA
  have hcj : tm.valid (.child r j) := valid_of_mem_ancestors hb hB
  obtain ⟨tr, htr⟩ := valid_iff.mp (valid_parent hci)
  have hi := valid_child_lt htr hci
  have hj := valid_child_lt htr hcj
  have hscan := scanChildren_spec htr hi hj hij (min i j) 0 tr.children.length (by simp) (by simp)
  unfold compareBoundaryPoints commonAncestorContainer
  simp only [Option.some.injEq, hne, if_false, Option.bind, hw1, hw2,
    commonAncestorLoop_of_siblings hij hA hB, walkToChildOf_of_mem hA, walkToChildOf_of_mem hB,
    NodeImpl.child.injEq, true_and, hij, childNodeCount, htr, Option.map,
    firstChild_of_pos htr (by omega : 0 < tr.children.length)]
  exact hscan

/-- Two nodes of one tree are equal, or one contains the other, or they sit
under two different children of a common ancestor. -/
theorem same_root_cases {a b : NodeImpl} (h : rootContainer a = rootContainer b) :
    a = b ∨ (∃ k, .child a k ∈ b.ancestors) ∨ (∃ k, .child b k ∈ a.ancestors) ∨
      ∃ r i j, i ≠ j ∧ .child r i ∈ a.ancestors ∧ .child r j ∈ b.ancestors := by
  obtain ⟨r, hr⟩ := commonAncestorLoop_of_same_root h
  obtain ⟨h1, h2, h3⟩ := commonAncestorLoop_some hr
  by_cases ea : r = a
  · subst ea
    by_cases eb : r = b
    · exact Or.inl eb
    · exact Or.inr (Or.inl (exists_child_mem_ancestors h2 eb))
  · by_cases eb : r = b
    · subst eb
      exact Or.inr (Or.inr (Or.inl (exists_child_mem_ancestors h1 ea)))
    · obtain ⟨i, hi⟩ := exists_child_mem_ancestors h1 ea
      obtain ⟨j, hj⟩ := exists_child_mem_ancestors h2 eb
      refine Or.inr (Or.inr (Or.inr ⟨r, i, j, ?_, hi, hj⟩))
      intro e
      subst e
      have := depth_le_of_mem_ancestors (h3 _ hi hj)
      simp [NodeImpl.depth] at this

/-! ## Document order as a key order -/

theorem keyLe_refl (x : List Int) : keyLe x x := by
  induction x with
  | nil => trivial
  | cons a l ih => exact Or.inr ⟨rfl, ih⟩

theorem keyLe_trans {x y z : List Int} (h1 : keyLe x y) (h2 : keyLe y z) : keyLe x z := by
  induction x generalizing y z with
  | nil => trivial
  | cons a l ih =>
    cases y with
    | nil => exact h1.elim
    | cons b m =>
      cases z with
      | nil => exact h2.elim
      | cons c n =>
        simp only [keyLe] at h1 h2 ⊢
        rcases h1 with h1 | ⟨e1, h1⟩
        · rcases h2 with h2 | ⟨e2, _⟩
          · exact Or.inl (by omega)
          · exact Or.inl (by omega)
        · rcases h2 with h2 | ⟨e2, h2⟩
          · exact Or.inl (by omega)
          · exact Or.inr ⟨by omega, ih h1 h2⟩

theorem keyLe_append_left (p x y : List Int) : keyLe (p ++ x) (p ++ y) ↔ keyLe x y := by
  induction p with
  | nil => simp
  | cons a l ih => simp [keyLe, ih]

theorem boundaryKey_of_mem_ancestors {a b : NodeImpl} {k : Nat} (o : Int)
    (h : .child a k ∈ b.ancestors) :
    ∃ rest, boundaryKey b o
      = a.path.map (fun i => 2 * (i : Int) + 1) ++ (2 * (k : Int) + 1) :: rest := by
  obtain ⟨rest, hr⟩ := path_of_mem_ancestors h
  refine ⟨rest.map (fun i => 2 * (i : Int) + 1) ++ [2 * o], ?_⟩
  simp [boundaryKey, hr, NodeImpl.path]

/-- On valid nodes of one tree the comparison returns a result, one of -1, 0, 1,
and it is at most 0 exactly when the key of the first point is at most the key
of the second. -/
theorem compare_key {tm : TreeModel} {a b : NodeImpl} (oA oB : Int)
    (ha : tm.valid a) (hb : tm.valid b) (h : rootContainer a = rootContainer b) :
    ∃ x, compareBoundaryPoints tm (some a) oA (some b) oB = some x ∧
      (x = -1 ∨ x = 0 ∨ x = 1) ∧
      (x ≤ 0 ↔ keyLe (boundaryKey a oA) (boundaryKey b oB)) ∧
      (0 ≤ x ↔ keyLe (boundaryKey b oB) (boundaryKey a oA)) := by
  rcases same_root_cases h with e | ⟨k, hk⟩ | ⟨k, hk⟩ | ⟨r, i, j, hij, hi, hj⟩
  · subst e
    refine ⟨_, compare_same tm _ oA oB, ?_, ?_, ?_⟩
    · split_ifs <;> simp
    · simp only [boundaryKey, keyLe_append_left, keyLe, and_true]
      split_ifs <;> constructor <;> intro _ <;> omega
    · simp only [boundaryKey, keyLe_append_left, keyLe, and_true]
      split_ifs <;> constructor <;> intro _ <;> omega
  · refine ⟨_, compare_ancestor oA oB hb hk, ?_, ?_, ?_⟩
    · split_ifs <;> simp
    · obtain ⟨rest, hr⟩ := boundaryKey_of_mem_ancestors oB hk
      rw [hr]
      simp only [boundaryKey, keyLe_append_left, keyLe, and_true]
      split_ifs <;> constructor <;> intro _ <;> omega
    · obtain ⟨rest, hr⟩ := boundaryKey_of_mem_ancestors oB hk
      rw [hr]
      simp only [boundaryKey, keyLe_append_left, keyLe, and_true]
      split_ifs <;> constructor <;> intro _ <;> omega
  · refine ⟨_, compare_descendant oA oB ha hk, ?_, ?_, ?_⟩
    · split_ifs <;> simp
    · obtain ⟨rest, hr⟩ := boundaryKey_of_mem_ancestors oA hk
      rw [hr]
      simp only [boundaryKey, keyLe_append_left, keyLe, and_true]
      split_ifs <;> constructor <;> intro _ <;> omega
    · obtain ⟨rest, hr⟩ := boundaryKey_of_mem_ancestors oA hk
      rw [hr]
      simp only [boundaryKey, keyLe_append_left, keyLe, and_true]
      split_ifs <;> constructor <;> intro _ <;> omega
  · refine ⟨_, compare_siblings oA oB ha hb hij hi hj, ?_, ?_, ?_⟩
    · split_ifs <;> simp
    · obtain ⟨rest, hr⟩ := boundaryKey_of_mem_ancestors oA hi
      obtain ⟨rest1, hr1⟩ := boundaryKey_of_mem_ancestors oB hj
      rw [hr, hr1]
      simp only [keyLe_append_left, keyLe, and_true]
      split_ifs <;> constructor <;> intro _ <;> omega
    · obtain ⟨rest, hr⟩ := boundaryKey_of_mem_ancestors oA hi
      obtain ⟨rest1, hr1⟩ := boundaryKey_of_mem_ancestors oB hj
      rw [hr, hr1]
      simp only [keyLe_append_left, keyLe, and_true]
      split_ifs <;> constructor <;> intro _ <;> omega

/-! ## Boundary arithmetic: the claims -/

/-- C7. `compareBoundaryPoints` agrees with its reference definition on valid
nodes `a`, `b`: with the same container it is the sign of `oA - oB`; when `b`
lies under the child of `a` with index `k` it is -1 if `oA ≤ k` and +1
otherwise; when `a` lies under the child of `b` with index `k` it is -1 if
`k < oB` and +1 otherwise; when `a` and `b` lie under two different children
`i`, `j` of a common ancestor `r` it is -1 if `i < j` and +1 otherwise. -/
theorem compareBoundaryPoints_reference (tm : TreeModel) (a b : NodeImpl) (oA oB : Int)
    (ha : tm.valid a) (hb : tm.valid b) :
    (a = b → compareBoundaryPoints tm (some a) oA (some b) oB = some (Int.sign (oA - oB))) ∧
    (∀ k : Nat, .child a k ∈ b.ancestors →
      compareBoundaryPoints tm (some a) oA (some b) oB
        = some (if oA ≤ (k : Int) then -1 else 1)) ∧
    (∀ k : Nat, .child b k ∈ a.ancestors →
      compareBoundaryPoints tm (some a) oA (some b) oB
        = some (if (k : Int) < oB then -1 else 1)) ∧
    (∀ (r : NodeImpl) (i j : Nat), i ≠ j → .child r i ∈ a.ancestors → .child r j ∈ b.ancestors →
      compareBoundaryPoints tm (some a) oA (some b) oB = some (if i < j then -1 else 1)) := by
  refine ⟨?_, fun k hk => compare_ancestor oA oB hb hk, fun k hk => compare_descendant oA oB ha hk,
    fun r i j hij hi hj => compare_siblings oA oB ha hb hij hi hj⟩
  intro e
  subst e
  rw [compare_same]
  congr 1
  by_cases h1 : oA = oB
  · simp [h1]
  · by_cases h2 : oA < oB
    · simp [h1, h2, Int.sign_eq_neg_one_of_neg (by omega : oA - oB < 0)]
    · simp [h1, h2, Int.sign_eq_one_of_pos (by omega : 0 < oA - oB)]

/-- Witness for C7 on the sample document: same container, container above,
container below, and containers under different children of `sampleHtml`. -/
theorem compareBoundaryPoints_reference_witness :
    compareBoundaryPoints sampleModel (some sampleP) 2 (some sampleP) 1 = some (Int.sign (2 - 1)) ∧
    compareBoundaryPoints sampleModel (some sampleP) 2 (some sampleDeepText) 0
      = some (if (2 : Int) ≤ ((1 : Nat) : Int) then -1 else 1) ∧
    compareBoundaryPoints sampleModel (some sampleDeepText) 0 (some sampleP) 2
      = some (if (((1 : Nat) : Int)) < 2 then -1 else 1) ∧
    compareBoundaryPoints sampleModel (some sampleDeepText) 0 (some sampleDiv) 0
      = some (if 0 < 1 then -1 else 1) :=
  ⟨(compareBoundaryPoints_reference sampleModel sampleP sampleP 2 1 (by decide) (by decide)).1 rfl,
   (compareBoundaryPoints_reference sampleModel sampleP sampleDeepText 2 0
      (by decide) (by decide)).2.1 1 (by decide),
   (compareBoundaryPoints_reference sampleModel sampleDeepText sampleP 0 2
      (by decide) (by decide)).2.2.1 1 (by decide),
   (compareBoundaryPoints_reference sampleModel sampleDeepText sampleDiv 0 0
      (by decide) (by decide)).2.2.2 sampleHtml 0 1 (by decide) (by decide) (by decide)⟩

/-- C8. Boundary points of one tree are linearly ordered by the comparison: if
`compare(A, B) ≤ 0` and `compare(B, C) ≤ 0` then `compare(A, C)` returns a
result and it is `≤ 0`. -/
theorem compareBoundaryPoints_transitive (tm : TreeModel) (a b c : NodeImpl) (oA oB oC x y : Int)
    (ha : tm.valid a) (hb : tm.valid b) (hc : tm.valid c)
    (hab : rootContainer a = rootContainer b) (hbc : rootContainer b = rootContainer c)
    (h1 : compareBoundaryPoints tm (some a) oA (some b) oB = some x) (hx : x ≤ 0)
    (h2 : compareBoundaryPoints tm (some b) oB (some c) oC = some y) (hy : y ≤ 0) :
    ∃ z, compareBoundaryPoints tm (some a) oA (some c) oC = some z ∧ z ≤ 0 := by
  obtain ⟨x1, e1, _, k1, _⟩ := compare_key oA oB ha hb hab
  obtain ⟨y1, e2, _, k2, _⟩ := compare_key oB oC hb hc hbc
  obtain ⟨z, e3, _, k3, _⟩ := compare_key oA oC ha hc (hab.trans hbc)
  rw [h1] at e1
  rw [h2] at e2
  cases e1
  cases e2
  exact ⟨z, e3, k3.mpr (keyLe_trans (k1.mp hx) (k2.mp hy))⟩

/-- Witness for C8: a point in the deep text node, a point in `sampleP` after
it, and a point in `sampleDiv`. -/
theorem compareBoundaryPoints_transitive_witness :
    ∃ z, compareBoundaryPoints sampleModel (some sampleDeepText) 1 (some sampleDiv) 0 = some z ∧
      z ≤ 0 :=
  compareBoundaryPoints_transitive sampleModel sampleDeepText sampleP sampleDiv 1 2 0 (-1) (-1)
    (by decide) (by decide) (by decide) (by decide) (by decide) (by decide) (by decide)
    (by decide) (by decide)

/-- C9. For two nodes of one tree `commonAncestorContainer` returns a node that
is an ancestor-or-self of both and below which every common ancestor-or-self
lies; for nodes of different trees it returns the `documentElement` of the
document of `a` (null when `a` has no document). -/
theorem commonAncestorContainer_deepest (tm : TreeModel) (a b : NodeImpl) :
    (rootContainer a = rootContainer b →
      ∃ r, commonAncestorContainer tm (some a) (some b) = some (some r) ∧
        r ∈ a.ancestors ∧ r ∈ b.ancestors ∧
        ∀ z, z ∈ a.ancestors → z ∈ b.ancestors → z ∈ r.ancestors) ∧
    (rootContainer a ≠ rootContainer b →
      (∀ doc, getDocument tm a = some (some doc) → tm.valid doc →
        commonAncestorContainer tm (some a) (some b) = some (tm.documentElement doc)) ∧
      (getDocument tm a = some none →
        commonAncestorContainer tm (some a) (some b) = some none)) := by
  constructor
  · intro h
    obtain ⟨r, hr⟩ := commonAncestorLoop_of_same_root h
    obtain ⟨h1, h2, h3⟩ := commonAncestorLoop_some hr
    exact ⟨r, by simp [commonAncestorContainer, hr], h1, h2, h3⟩
  · intro h
    have hnone : commonAncestorLoop (some b) a = none := by
      cases hc : commonAncestorLoop (some b) a with
      | none => rfl
      | some r =>
        obtain ⟨h1, h2, _⟩ := commonAncestorLoop_some hc
        exact absurd ((rootContainer_eq_of_mem_ancestors h1).symm.trans
          (rootContainer_eq_of_mem_ancestors h2)) h
    constructor
    · intro doc hd hv
      obtain ⟨t, ht⟩ := valid_iff.mp hv
      simp [commonAncestorContainer, hnone, hd, ht]
    · intro hd
      simp [commonAncestorContainer, hnone, hd]

/-- Witness for C9: two nodes of the sample document, and a node of the
document against the root of the fragment. -/
theorem commonAncestorContainer_deepest_witness :
    (∃ r, commonAncestorContainer sampleModel (some sampleDeepText) (some sampleDiv)
        = some (some r) ∧
      r ∈ sampleDeepText.ancestors ∧ r ∈ sampleDiv.ancestors ∧
      ∀ z, z ∈ sampleDeepText.ancestors → z ∈ sampleDiv.ancestors → z ∈ r.ancestors) ∧
    commonAncestorContainer sampleModel (some sampleDiv) (some (.root 1))
      = some (sampleModel.documentElement (.root 0)) :=
  ⟨(commonAncestorContainer_deepest sampleModel sampleDeepText sampleDiv).1 (by decide),
   ((commonAncestorContainer_deepest sampleModel sampleDiv (.root 1)).2 (by decide)).1
      (.root 0) (by decide) (by decide)⟩

/-! ## `setStart` and `setEnd` -/

theorem setStart_detached {tm : TreeModel} {r : RangeImpl} (n : Ptr) (k : Int)
    (ec : ExceptionCode) (hd : r.m_detached = true) :
    r.setStart tm n k ec = some (r, INVALID_STATE_ERR) := by
  simp [RangeImpl.setStart, hd]

theorem setStart_null {tm : TreeModel} {r : RangeImpl} (k : Int)
    (ec : ExceptionCode) (hd : r.m_detached = false) :
    r.setStart tm none k ec = some (r, NOT_FOUND_ERR) := by
  simp [RangeImpl.setStart, hd]

theorem setStart_wrong_document {tm : TreeModel} {r : RangeImpl} {m : NodeImpl} {d : Ptr}
    (k : Int) (ec : ExceptionCode) (hd : r.m_detached = false)
    (hdoc : getDocument tm m = some d) (hne : d ≠ r.m_ownerDocument) :
    r.setStart tm (some m) k ec = some (r, WRONG_DOCUMENT_ERR) := by
  simp [RangeImpl.setStart, hd, hdoc, hne]

theorem setStart_check_failed {tm : TreeModel} {r : RangeImpl} {m : NodeImpl}
    {k : Int} {ec ec1 : ExceptionCode} (hd : r.m_detached = false)
    (hdoc : getDocument tm m = some r.m_ownerDocument)
    (hchk : checkNodeWOffset tm (some m) k ec = some ec1) (hne : ec1 ≠ 0) :
    r.setStart tm (some m) k ec = some (r, ec1) := by
  simp [RangeImpl.setStart, hd, hdoc, hchk, hne]

theorem setStart_checked {tm : TreeModel} {r : RangeImpl} {m e : NodeImpl}
    {k : Int} {ec : ExceptionCode} (hd : r.m_detached = false)
    (hdoc : getDocument tm m = some r.m_ownerDocument)
    (hchk : checkNodeWOffset tm (some m) k ec = some 0) (he : r.m_endContainer = some e) :
    r.setStart tm (some m) k ec =
      if rootContainer m ≠ rootContainer e then
        some ({ r with m_startContainer := some m, m_startOffset := k,
                       m_endContainer := some m, m_endOffset := k }, 0)
      else
        (compareBoundaryPoints tm (some m) k (some e) r.m_endOffset).bind fun c =>
          if c > 0 then
            some ({ r with m_startContainer := some m, m_startOffset := k,
                           m_endContainer := some m, m_endOffset := k }, 0)
          else some ({ r with m_startContainer := some m, m_startOffset := k }, 0) := by
  simp only [RangeImpl.setStart, hd, hdoc, hchk, he, RangeImpl.collapse]
  simp

theorem setStart_inv {tm : TreeModel} {r r1 : RangeImpl} {n : Ptr} {k : Int}
    {ec ec1 : ExceptionCode} (h : r.setStart tm n k ec = some (r1, ec1)) :
    (r1 = r ∧ ec1 ≠ 0) ∨
    (ec1 = 0 ∧ r.m_detached = false ∧ ∃ m e, n = some m ∧
      getDocument tm m = some r.m_ownerDocument ∧ checkNodeWOffset tm n k ec = some 0 ∧
      r.m_endContainer = some e) := by
  cases hd : r.m_detached with
  | true =>
    rw [setStart_detached n k ec hd] at h
    cases h
    exact Or.inl ⟨rfl, by decide⟩
  | false =>
    cases n with
    | none =>
      rw [setStart_null k ec hd] at h
      cases h
      exact Or.inl ⟨rfl, by decide⟩
    | some m =>
      cases hdoc : getDocument tm m with
      | none => simp [RangeImpl.setStart, hd, hdoc] at h
      | some d =>
        by_cases hne : d = r.m_ownerDocument
        · subst hne
          cases hchk : checkNodeWOffset tm (some m) k ec with
          | none => simp [RangeImpl.setStart, hd, hdoc, hchk] at h
          | some e1 =>
            by_cases hz : e1 = 0
            · subst hz
              cases he : r.m_endContainer with
              | none => simp [RangeImpl.setStart, hd, hdoc, hchk, he] at h
              | some e =>
                refine Or.inr ⟨?_, rfl, m, e, rfl, hdoc, rfl, rfl⟩
                rw [setStart_checked hd hdoc hchk he] at h
                split_ifs at h with h1
                · simp at h
                  exact h.2.symm
                · cases hc : compareBoundaryPoints tm (some m) k (some e) r.m_endOffset with
                  | none => simp [hc] at h
                  | some c =>
                    simp only [hc, Option.bind] at h
                    split_ifs at h <;> simp at h <;> exact h.2.symm
            · rw [setStart_check_failed hd hdoc hchk hz] at h
              cases h
              exact Or.inl ⟨rfl, hz⟩
        · rw [setStart_wrong_document k ec hd hdoc hne] at h
          cases h
          exact Or.inl ⟨rfl, by decide⟩

theorem setEnd_detached {tm : TreeModel} {r : RangeImpl} (n : Ptr) (k : Int)
    (ec : ExceptionCode) (hd : r.m_detached = true) :
    r.setEnd tm n k ec = some (r, INVALID_STATE_ERR) := by
  simp [RangeImpl.setEnd, hd]

theorem setEnd_null {tm : TreeModel} {r : RangeImpl} (k : Int)
    (ec : ExceptionCode) (hd : r.m_detached = false) :
    r.setEnd tm none k ec = some (r, NOT_FOUND_ERR) := by
  simp [RangeImpl.setEnd, hd]

theorem setEnd_wrong_document {tm : TreeModel} {r : RangeImpl} {m : NodeImpl} {d : Ptr}
    (k : Int) (ec : ExceptionCode) (hd : r.m_detached = false)
    (hdoc : getDocument tm m = some d) (hne : d ≠ r.m_ownerDocument) :
    r.setEnd tm (some m) k ec = some (r, WRONG_DOCUMENT_ERR) := by
  simp [RangeImpl.setEnd, hd, hdoc, hne]

theorem setEnd_check_failed {tm : TreeModel} {r : RangeImpl} {m : NodeImpl}
    {k : Int} {ec ec1 : ExceptionCode} (hd : r.m_detached = false)
    (hdoc : getDocument tm m = some r.m_ownerDocument)
    (hchk : checkNodeWOffset tm (some m) k ec = some ec1) (hne : ec1 ≠ 0) :
    r.setEnd tm (some m) k ec = some (r, ec1) := by
  simp [RangeImpl.setEnd, hd, hdoc, hchk, hne]

theorem setEnd_checked {tm : TreeModel} {r : RangeImpl} {m s : NodeImpl}
    {k : Int} {ec : ExceptionCode} (hd : r.m_detached = false)
    (hdoc : getDocument tm m = some r.m_ownerDocument)
    (hchk : checkNodeWOffset tm (some m) k ec = some 0) (hs : r.m_startContainer = some s) :
    r.setEnd tm (some m) k ec =
      if rootContainer s ≠ rootContainer m then
        some ({ r with m_startContainer := some m, m_startOffset := k,
                       m_endContainer := some m, m_endOffset := k }, 0)
      else
        (compareBoundaryPoints tm (some s) r.m_startOffset (some m) k).bind fun c =>
          if c > 0 then
            some ({ r with m_startContainer := some m, m_startOffset := k,
                           m_endContainer := some m, m_endOffset := k }, 0)
          else some ({ r with m_endContainer := some m, m_endOffset := k }, 0) := by
  by_cases hr : rootContainer s = rootContainer m
  · simp only [RangeImpl.setEnd, hd, hdoc, hchk, hs, RangeImpl.collapse]
    simp [hr]
  · simp only [RangeImpl.setEnd, hd, hdoc, hchk, hs, RangeImpl.collapse]
    simp [hr, compare_same]

theorem setEnd_inv {tm : TreeModel} {r r1 : RangeImpl} {n : Ptr} {k : Int}
    {ec ec1 : ExceptionCode} (h : r.setEnd tm n k ec = some (r1, ec1)) :
    (r1 = r ∧ ec1 ≠ 0) ∨
    (ec1 = 0 ∧ r.m_detached = false ∧ ∃ m s, n = some m ∧
      getDocument tm m = some r.m_ownerDocument ∧ checkNodeWOffset tm n k ec = some 0 ∧
      r.m_startContainer = some s) := by
  cases hd : r.m_detached with
  | true =>
    rw [setEnd_detached n k ec hd] at h
    cases h
    exact Or.inl ⟨rfl, by decide⟩
  | false =>
    cases n with
    | none =>
      rw [setEnd_null k ec hd] at h
      cases h
      exact Or.inl ⟨rfl, by decide⟩
    | some m =>
      cases hdoc : getDocument tm m with
      | none => simp [RangeImpl.setEnd, hd, hdoc] at h
      | some d =>
        by_cases hne : d = r.m_ownerDocument
        · subst hne
          cases hchk : checkNodeWOffset tm (some m) k ec with
          | none => simp [RangeImpl.setEnd, hd, hdoc, hchk] at h
          | some e1 =>
            by_cases hz : e1 = 0
            · subst hz
              cases hs : r.m_startContainer with
              | none => simp [RangeImpl.setEnd, hd, hdoc, hchk, hs] at h
              | some s =>
                refine Or.inr ⟨?_, rfl, m, s, rfl, hdoc, rfl, rfl⟩
                rw [setEnd_checked hd hdoc hchk hs] at h
                split_ifs at h with h1
                · simp at h
                  exact h.2.symm
                · cases hc : compareBoundaryPoints tm (some s) r.m_startOffset (some m) k with
                  | none => simp [hc] at h
                  | some c =>
                    simp only [hc, Option.bind] at h
                    split_ifs at h <;> simp at h <;> exact h.2.symm
            · rw [setEnd_check_failed hd hdoc hchk hz] at h
              cases h
              exact Or.inl ⟨rfl, hz⟩
        · rw [setEnd_wrong_document k ec hd hdoc hne] at h
          cases h
          exact Or.inl ⟨rfl, by decide⟩

theorem boundaryPointsValid_collapsed (tm : TreeModel) (r : RangeImpl)
    (h1 : r.m_startContainer = r.m_endContainer) (h2 : r.m_startOffset ≤ r.m_endOffset) :
    r.boundaryPointsValid tm = some true := by
  unfold RangeImpl.boundaryPointsValid
  rw [h1, compare_same]
  split_ifs <;> simp
  omega

theorem setStart_boundaryPointsValid {tm : TreeModel} {r r1 : RangeImpl} {n : Ptr} {k : Int}
    {ec : ExceptionCode} (h : r.setStart tm n k ec = some (r1, 0)) :
    r1.boundaryPointsValid tm = some true := by
  rcases setStart_inv h with ⟨_, h0⟩ | ⟨_, hd, m, e, hn, hdoc, hchk, he⟩
  · exact absurd rfl h0
  · subst hn
    rw [setStart_checked hd hdoc hchk he] at h
    split_ifs at h with h1
    · simp at h
      subst h
      exact boundaryPointsValid_collapsed tm _ rfl (le_refl _)
    · cases hc : compareBoundaryPoints tm (some m) k (some e) r.m_endOffset with
      | none => simp [hc] at h
      | some c =>
        simp only [hc, Option.bind] at h
        split_ifs at h with h2
        · simp at h
          subst h
          exact boundaryPointsValid_collapsed tm _ rfl (le_refl _)
        · simp at h
          subst h
          simp only [RangeImpl.boundaryPointsValid, he, hc]
          simp
          omega

theorem setEnd_boundaryPointsValid {tm : TreeModel} {r r1 : RangeImpl} {n : Ptr} {k : Int}
    {ec : ExceptionCode} (h : r.setEnd tm n k ec = some (r1, 0)) :
    r1.boundaryPointsValid tm = some true := by
  rcases setEnd_inv h with ⟨_, h0⟩ | ⟨_, hd, m, s, hn, hdoc, hchk, hs⟩
  · exact absurd rfl h0
  · subst hn
    rw [setEnd_checked hd hdoc hchk hs] at h
    split_ifs at h with h1
    · simp at h
      subst h
      exact boundaryPointsValid_collapsed tm _ rfl (le_refl _)
    · cases hc : compareBoundaryPoints tm (some s) r.m_startOffset (some m) k with
      | none => simp [hc] at h
      | some c =>
        simp only [hc, Option.bind] at h
        split_ifs at h with h2
        · simp at h
          subst h
          exact boundaryPointsValid_collapsed tm _ rfl (le_refl _)
        · simp at h
          subst h
          simp only [RangeImpl.boundaryPointsValid, hs, hc]
          simp
          omega

/-! ## The positional setters -/

/-- The shared shape of `setStartBefore`, `setStartAfter`, `setEndBefore` and
`setEndAfter`: either the range is returned unchanged with an error, or all
checks passed and the result is that of the underlying `setStart`/`setEnd`. -/
theorem positional_inv {tm : TreeModel} {r r1 : RangeImpl} {n : Ptr} {ec ec1 : ExceptionCode}
    (set : NodeImpl → ExceptionCode → Option (RangeImpl × ExceptionCode))
    (h : (if r.m_detached then some (r, INVALID_STATE_ERR)
          else
            match n with
            | none => some (r, NOT_FOUND_ERR)
            | some m =>
              (getDocument tm m).bind fun d =>
                if d ≠ r.m_ownerDocument then some (r, WRONG_DOCUMENT_ERR)
                else
                  (checkNodeBA tm n ec).bind fun e1 =>
                    if e1 ≠ 0 then some (r, e1) else set m e1) = some (r1, ec1)) :
    (r1 = r ∧ ec1 ≠ 0) ∨
    (∃ m, n = some m ∧ r.m_detached = false ∧ getDocument tm m = some r.m_ownerDocument ∧
      checkNodeBA tm n ec = some 0 ∧ set m 0 = some (r1, ec1)) := by
  cases hd : r.m_detached with
  | true =>
    simp [hd] at h
    exact Or.inl ⟨h.1.symm, by rw [← h.2]; decide⟩
  | false =>
    cases n with
    | none =>
      simp [hd] at h
      exact Or.inl ⟨h.1.symm, by rw [← h.2]; decide⟩
    | some m =>
      cases hdoc : getDocument tm m with
      | none => simp [hd, hdoc] at h
      | some d =>
        by_cases hne : d = r.m_ownerDocument
        · subst hne
          cases hchk : checkNodeBA tm (some m) ec with
          | none => simp [hd, hdoc, hchk] at h
          | some e1 =>
            by_cases hz : e1 = 0
            · subst hz
              simp [hd, hdoc, hchk] at h
              exact Or.inr ⟨m, rfl, rfl, hdoc, rfl, h⟩
            · simp [hd, hdoc, hchk, hz] at h
              exact Or.inl ⟨h.1.symm, by rw [← h.2]; exact hz⟩
        · simp [hd, hdoc, hne] at h
          exact Or.inl ⟨h.1.symm, by rw [← h.2]; decide⟩

theorem setStartBefore_inv {tm : TreeModel} {r r1 : RangeImpl} {n : Ptr} {ec ec1 : ExceptionCode}
    (h : r.setStartBefore tm n ec = some (r1, ec1)) :
    (r1 = r ∧ ec1 ≠ 0) ∨
    (∃ m, n = some m ∧ r.m_detached = false ∧ getDocument tm m = some r.m_ownerDocument ∧
      checkNodeBA tm n ec = some 0 ∧
      r.setStart tm m.parentNode m.nodeIndex 0 = some (r1, ec1)) :=
  positional_inv (fun m e => r.setStart tm m.parentNode m.nodeIndex e) h

theorem setStartAfter_inv {tm : TreeModel} {r r1 : RangeImpl} {n : Ptr} {ec ec1 : ExceptionCode}
    (h : r.setStartAfter tm n ec = some (r1, ec1)) :
    (r1 = r ∧ ec1 ≠ 0) ∨
    (∃ m, n = some m ∧ r.m_detached = false ∧ getDocument tm m = some r.m_ownerDocument ∧
      checkNodeBA tm n ec = some 0 ∧
      r.setStart tm m.parentNode (m.nodeIndex + 1) 0 = some (r1, ec1)) :=
  positional_inv (fun m e => r.setStart tm m.parentNode (m.nodeIndex + 1) e) h

theorem setEndBefore_inv {tm : TreeModel} {r r1 : RangeImpl} {n : Ptr} {ec ec1 : ExceptionCode}
    (h : r.setEndBefore tm n ec = some (r1, ec1)) :
    (r1 = r ∧ ec1 ≠ 0) ∨
    (∃ m, n = some m ∧ r.m_detached = false ∧ getDocument tm m = some r.m_ownerDocument ∧
      checkNodeBA tm n ec = some 0 ∧
      r.setEnd tm m.parentNode m.nodeIndex 0 = some (r1, ec1)) :=
  positional_inv (fun m e => r.setEnd tm m.parentNode m.nodeIndex e) h

theorem setEndAfter_inv {tm : TreeModel} {r r1 : RangeImpl} {n : Ptr} {ec ec1 : ExceptionCode}
    (h : r.setEndAfter tm n ec = some (r1, ec1)) :
    (r1 = r ∧ ec1 ≠ 0) ∨
    (∃ m, n = some m ∧ r.m_detached = false ∧ getDocument tm m = some r.m_ownerDocument ∧
      checkNodeBA tm n ec = some 0 ∧
      r.setEnd tm m.parentNode (m.nodeIndex + 1) 0 = some (r1, ec1)) :=
  positional_inv (fun m e => r.setEnd tm m.parentNode (m.nodeIndex + 1) e) h

theorem selectNode_inv {tm : TreeModel} {r r1 : RangeImpl} {n : Ptr} {ec ec1 : ExceptionCode}
    (h : r.selectNode tm n ec = some (r1, ec1)) :
    (r1 = r ∧ ec1 ≠ 0) ∨
    (∃ s1, r.setStartBefore tm n ec = some s1 ∧
      ((s1.2 ≠ 0 ∧ s1 = (r1, ec1)) ∨ (s1.2 = 0 ∧ s1.1.setEndAfter tm n 0 = some (r1, ec1)))) := by
  unfold RangeImpl.selectNode at h
  cases hd : r.m_detached with
  | true =>
    simp [hd] at h
    exact Or.inl ⟨h.1.symm, by rw [← h.2]; decide⟩
  | false =>
    cases n with
    | none =>
      simp [hd] at h
      exact Or.inl ⟨h.1.symm, by rw [← h.2]; decide⟩
    | some m =>
      simp only [hd, Bool.false_eq_true, if_false, Option.bind_eq_some] at h
      obtain ⟨bad, _, h⟩ := h
      cases bad with
      | true =>
        simp at h
        exact Or.inl ⟨h.1.symm, by rw [← h.2]; decide⟩
      | false =>
        simp only [Bool.false_eq_true, if_false, Option.bind_eq_some] at h
        obtain ⟨kd, _, h⟩ := h
        split_ifs at h with hk
        · simp at h
          exact Or.inl ⟨h.1.symm, by rw [← h.2]; decide⟩
        · simp only [Option.bind_eq_some] at h
          obtain ⟨s1, hs1, h⟩ := h
          refine Or.inr ⟨s1, hs1, ?_⟩
          by_cases hz : s1.2 = 0
          · simp only [hz, ne_eq, not_true_eq_false, if_false] at h
            exact Or.inr ⟨hz, h⟩
          · simp only [hz, ne_eq, not_false_eq_true, if_true, Option.some.injEq] at h
            exact Or.inl ⟨hz, h⟩

theorem selectNodeContents_inv {tm : TreeModel} {r r1 : RangeImpl} {n : Ptr}
    {ec1 : ExceptionCode} (h : r.selectNodeContents tm n 0 = some (r1, ec1)) :
    (r1 = r ∧ ec1 ≠ 0) ∨
    (ec1 = 0 ∧ ∃ cnt : Nat, r1 = ⟨r.m_ownerDocument, n, 0, n, (cnt : Int), r.m_detached⟩) := by
  unfold RangeImpl.selectNodeContents at h
  cases hd : r.m_detached with
  | true =>
    simp [hd] at h
    exact Or.inl ⟨h.1.symm, by rw [← h.2]; decide⟩
  | false =>
    cases n with
    | none =>
      simp [hd] at h
      exact Or.inl ⟨h.1.symm, by rw [← h.2]; decide⟩
    | some m =>
      simp only [hd, Bool.false_eq_true, if_false, Option.bind_eq_some] at h
      obtain ⟨bad, _, h⟩ := h
      cases bad with
      | true =>
        simp at h
        exact Or.inl ⟨h.1.symm, by rw [← h.2]; decide⟩
      | false =>
        simp only [Bool.false_eq_true, if_false] at h
        cases hc : childNodeCount tm m with
        | none => simp [hc] at h
        | some cnt =>
          simp [hc] at h
          exact Or.inr ⟨h.2.symm, cnt, h.1.symm⟩

/-! ## Range core: the claims -/

/-- C1. Ordering invariant: after any successful call of `setStart`, `setEnd`,
`setStartBefore`, `setStartAfter`, `setEndBefore`, `setEndAfter`, `selectNode`,
`selectNodeContents` or `collapse`, whatever the range was before,
`boundaryPointsValid()` is true: `compareBoundaryPoints(start, end) ≤ 0`. -/
theorem ordering_invariant (tm : TreeModel) (r r1 : RangeImpl)
    (h : SetterCall tm r r1 0 ∨ ∃ toStart, r.collapse toStart 0 = (r1, 0)) :
    r1.boundaryPointsValid tm = some true := by
  rcases h with h | ⟨b, h⟩
  · rcases h with ⟨n, k, h⟩ | ⟨n, k, h⟩ | ⟨n, h⟩ | ⟨n, h⟩ | ⟨n, h⟩ | ⟨n, h⟩ | ⟨n, h⟩ | ⟨n, h⟩
    · exact setStart_boundaryPointsValid h
    · exact setEnd_boundaryPointsValid h
    · rcases setStartBefore_inv h with ⟨_, h0⟩ | ⟨m, _, _, _, _, h1⟩
      · exact absurd rfl h0
      · exact setStart_boundaryPointsValid h1
    · rcases setStartAfter_inv h with ⟨_, h0⟩ | ⟨m, _, _, _, _, h1⟩
      · exact absurd rfl h0
      · exact setStart_boundaryPointsValid h1
    · rcases setEndBefore_inv h with ⟨_, h0⟩ | ⟨m, _, _, _, _, h1⟩
      · exact absurd rfl h0
      · exact setEnd_boundaryPointsValid h1
    · rcases setEndAfter_inv h with ⟨_, h0⟩ | ⟨m, _, _, _, _, h1⟩
      · exact absurd rfl h0
      · exact setEnd_boundaryPointsValid h1
    · rcases selectNode_inv h with ⟨_, h0⟩ | ⟨s1, _, ⟨h1, h2⟩ | ⟨_, h2⟩⟩
      · exact absurd rfl h0
      · rw [h2] at h1
        exact absurd rfl h1
      · rcases setEndAfter_inv h2 with ⟨_, h0⟩ | ⟨m, _, _, _, _, h3⟩
        · exact absurd rfl h0
        · exact setEnd_boundaryPointsValid h3
    · rcases selectNodeContents_inv h with ⟨_, h0⟩ | ⟨_, cnt, h1⟩
      · exact absurd rfl h0
      · subst h1
        exact boundaryPointsValid_collapsed tm _ rfl (by simp)
  · unfold RangeImpl.collapse at h
    split_ifs at h
    · simp [INVALID_STATE_ERR] at h
    · simp at h
      subst h
      exact boundaryPointsValid_collapsed tm _ rfl (le_refl _)
    · simp at h
      subst h
      exact boundaryPointsValid_collapsed tm _ rfl (le_refl _)

/-- Witness for C1: `setEnd` on a fresh range of the sample document, whose
start is the document node at offset 0. -/
theorem ordering_invariant_witness :
    RangeImpl.boundaryPointsValid sampleModel
      ⟨some (.root 0), some (.root 0), 0, some sampleDeepText, 1, false⟩ = some true :=
  ordering_invariant sampleModel sampleRange _
    (Or.inl (Or.inr (Or.inl ⟨some sampleDeepText, 1, by decide⟩)))

theorem setStart_success {tm : TreeModel} {r r1 : RangeImpl} {m : NodeImpl} {k : Int}
    {ec : ExceptionCode} (h : r.setStart tm (some m) k ec = some (r1, 0)) :
    ∃ e, r.m_endContainer = some e ∧
      ((rootContainer m ≠ rootContainer e ∧
          r1 = ⟨r.m_ownerDocument, some m, k, some m, k, false⟩) ∨
        (rootContainer m = rootContainer e ∧
          ∃ c, compareBoundaryPoints tm (some m) k (some e) r.m_endOffset = some c ∧
            ((0 < c ∧ r1 = ⟨r.m_ownerDocument, some m, k, some m, k, false⟩) ∨
              (c ≤ 0 ∧ r1 = ⟨r.m_ownerDocument, some m, k, some e, r.m_endOffset, false⟩)))) := by
  rcases setStart_inv h with ⟨_, h0⟩ | ⟨_, hd, m1, e, hn, hdoc, hchk, he⟩
  · exact absurd rfl h0
  · cases hn
    refine ⟨e, he, ?_⟩
    rw [setStart_checked hd hdoc hchk he] at h
    by_cases hr : rootContainer m = rootContainer e
    · simp only [hr, ne_eq, not_true_eq_false, if_false] at h
      cases hc : compareBoundaryPoints tm (some m) k (some e) r.m_endOffset with
      | none => simp [hc] at h
      | some c =>
        simp only [hc, Option.bind] at h
        refine Or.inr ⟨hr, c, rfl, ?_⟩
        split_ifs at h with h2
        · simp at h
          exact Or.inl ⟨h2, by rw [← h, hd]⟩
        · simp at h
          exact Or.inr ⟨by omega, by rw [← h, hd, he]⟩
    · simp only [hr, ne_eq, not_false_eq_true, if_true] at h
      simp at h
      exact Or.inl ⟨hr, by rw [← h, hd]⟩

theorem setEnd_success {tm : TreeModel} {r r1 : RangeImpl} {m : NodeImpl} {k : Int}
    {ec : ExceptionCode} (h : r.setEnd tm (some m) k ec = some (r1, 0)) :
    ∃ s, r.m_startContainer = some s ∧
      ((rootContainer s ≠ rootContainer m ∧
          r1 = ⟨r.m_ownerDocument, some m, k, some m, k, false⟩) ∨
        (rootContainer s = rootContainer m ∧
          ∃ c, compareBoundaryPoints tm (some s) r.m_startOffset (some m) k = some c ∧
            ((0 < c ∧ r1 = ⟨r.m_ownerDocument, some m, k, some m, k, false⟩) ∨
              (c ≤ 0 ∧ r1 = ⟨r.m_ownerDocument, some s, r.m_startOffset, some m, k, false⟩)))) := by
  rcases setEnd_inv h with ⟨_, h0⟩ | ⟨_, hd, m1, s, hn, hdoc, hchk, hs⟩
  · exact absurd rfl h0
  · cases hn
    refine ⟨s, hs, ?_⟩
    rw [setEnd_checked hd hdoc hchk hs] at h
    by_cases hr : rootContainer s = rootContainer m
    · simp only [hr, ne_eq, not_true_eq_false, if_false] at h
      cases hc : compareBoundaryPoints tm (some s) r.m_startOffset (some m) k with
      | none => simp [hc] at h
      | some c =>
        simp only [hc, Option.bind] at h
        refine Or.inr ⟨hr, c, rfl, ?_⟩
        split_ifs at h with h2
        · simp at h
          exact Or.inl ⟨h2, by rw [← h, hd]⟩
        · simp at h
          exact Or.inr ⟨by omega, by rw [← h, hd, hs]⟩
    · simp only [hr, ne_eq, not_false_eq_true, if_true] at h
      simp at h
      exact Or.inl ⟨hr, by rw [← h, hd]⟩

/-- C2. Setter postcondition with auto-collapse.  After a successful
`setStart(n, k)` on a range with old end `E = (e, r.m_endOffset)`: start is
`(n, k)`; end is `E` when `n` and `e` have the same root container and
`compare((n, k), E) ≤ 0`, and `(n, k)` otherwise.  After a successful
`setEnd(n, k)` with old start `S = (s, r.m_startOffset)`: end is `(n, k)`; start
is `S` when the roots agree and `compare(S, (n, k)) ≤ 0`, and `(n, k)` otherwise. -/
theorem setter_postcondition (tm : TreeModel) (r r1 : RangeImpl) (n : NodeImpl) (k : Int) :
    (r.setStart tm (some n) k 0 = some (r1, 0) →
      ∃ e, r.m_endContainer = some e ∧
        r1.m_startContainer = some n ∧ r1.m_startOffset = k ∧
        ((rootContainer n = rootContainer e ∧
            ∃ c, compareBoundaryPoints tm (some n) k (some e) r.m_endOffset = some c ∧ c ≤ 0) →
          r1.m_endContainer = some e ∧ r1.m_endOffset = r.m_endOffset) ∧
        (¬ (rootContainer n = rootContainer e ∧
            ∃ c, compareBoundaryPoints tm (some n) k (some e) r.m_endOffset = some c ∧ c ≤ 0) →
          r1.m_endContainer = some n ∧ r1.m_endOffset = k)) ∧
    (r.setEnd tm (some n) k 0 = some (r1, 0) →
      ∃ s, r.m_startContainer = some s ∧
        r1.m_endContainer = some n ∧ r1.m_endOffset = k ∧
        ((rootContainer s = rootContainer n ∧
            ∃ c, compareBoundaryPoints tm (some s) r.m_startOffset (some n) k = some c ∧ c ≤ 0) →
          r1.m_startContainer = some s ∧ r1.m_startOffset = r.m_startOffset) ∧
        (¬ (rootContainer s = rootContainer n ∧
            ∃ c, compareBoundaryPoints tm (some s) r.m_startOffset (some n) k = some c ∧ c ≤ 0) →
          r1.m_startContainer = some n ∧ r1.m_startOffset = k)) := by
  constructor
  · intro h
    obtain ⟨e, he, hcase⟩ := setStart_success h
    refine ⟨e, he, ?_⟩
    rcases hcase with ⟨hr, rfl⟩ | ⟨hr, c, hc, ⟨hpos, rfl⟩ | ⟨hle, rfl⟩⟩
    · exact ⟨rfl, rfl, fun hx => absurd hx.1 hr, fun _ => ⟨rfl, rfl⟩⟩
    · refine ⟨rfl, rfl, fun hx => ?_, fun _ => ⟨rfl, rfl⟩⟩
      obtain ⟨_, c1, hc1, hle⟩ := hx
      rw [hc] at hc1
      cases hc1
      omega
    · exact ⟨rfl, rfl, fun _ => ⟨rfl, rfl⟩, fun hx => absurd ⟨hr, c, hc, hle⟩ hx⟩
  · intro h
    obtain ⟨s, hs, hcase⟩ := setEnd_success h
    refine ⟨s, hs, ?_⟩
    rcases hcase with ⟨hr, rfl⟩ | ⟨hr, c, hc, ⟨hpos, rfl⟩ | ⟨hle, rfl⟩⟩
    · exact ⟨rfl, rfl, fun hx => absurd hx.1 hr, fun _ => ⟨rfl, rfl⟩⟩
    · refine ⟨rfl, rfl, fun hx => ?_, fun _ => ⟨rfl, rfl⟩⟩
      obtain ⟨_, c1, hc1, hle⟩ := hx
      rw [hc] at hc1
      cases hc1
      omega
    · exact ⟨rfl, rfl, fun _ => ⟨rfl, rfl⟩, fun hx => absurd ⟨hr, c, hc, hle⟩ hx⟩

/-! ## Well-formed trees and `checkNodeWOffset` -/

theorem wellFormedList_mem {l : List Tree} (h : wellFormedList l = true) {t : Tree}
    (ht : t ∈ l) : t.wellFormed = true := by
  induction l with
  | nil => simp at ht
  | cons a l ih =>
    simp only [wellFormedList, Bool.and_eq_true] at h
    rcases List.mem_cons.mp ht with e | e
    · rw [e]
      exact h.1
    · exact ih h.2 e

theorem Tree.wellFormed_children {t : Tree} (h : t.wellFormed = true) :
    wellFormedList t.children = true ∧ (isCharacterLike t.nodeType = true → t.children = []) := by
  cases t with
  | mk k d cs =>
    simp only [Tree.wellFormed, Bool.and_eq_true, Bool.or_eq_true, Bool.not_eq_true',
      List.isEmpty_iff] at h
    refine ⟨h.2, fun hc => ?_⟩
    rcases h.1 with h1 | h1
    · simp [Tree.nodeType] at hc
      rw [hc] at h1
      exact absurd h1 (by simp)
    · exact h1

theorem wellFormed_node {tm : TreeModel} (h : tm.wellFormed = true) {n : NodeImpl} {t : Tree}
    (hn : tm.node n = some t) : t.wellFormed = true := by
  induction n generalizing t with
  | root i =>
    simp only [TreeModel.node, Option.map_eq_some'] at hn
    obtain ⟨x, hx, rfl⟩ := hn
    exact wellFormedList_mem h (List.mem_map.mpr ⟨x, List.getElem?_mem hx, rfl⟩)
  | child p i ih =>
    obtain ⟨tp, htp, hc⟩ := node_child_some hn
    exact wellFormedList_mem (Tree.wellFormed_children (ih htp)).1 (List.getElem?_mem hc)

theorem checkNodeWOffset_eq {tm : TreeModel} {n : NodeImpl} {t : Tree} (hn : tm.node n = some t)
    (k : Int) (ec : ExceptionCode) :
    checkNodeWOffset tm (some n) k ec = some (
      if isEntityNotationOrDoctype t.nodeType = true then INVALID_NODE_TYPE_ERR
      else if toUnsigned k > offsetBound t then INDEX_SIZE_ERR
      else if k < 0 then INDEX_SIZE_ERR else ec) := by
  unfold checkNodeWOffset
  cases t with
  | mk kd d cs =>
    simp only [nodeType, hn, Option.map, Option.bind, length, childNodeCount, offsetBound,
      Tree.nodeType, Tree.data, Tree.children]
    cases kd <;> simp [isEntityNotationOrDoctype, isCharacterLike]

theorem toUnsigned_of_nonneg {k : Int} (h0 : 0 ≤ k) (h1 : k < 2 ^ 31) :
    toUnsigned k = k.toNat := by
  unfold toUnsigned
  rw [Int.emod_eq_of_lt h0 (by omega)]

theorem toUnsigned_le (k : Nat) : toUnsigned (k : Int) ≤ k := by
  unfold toUnsigned
  omega

/-- In a well-formed tree model, a position accepted just before a valid child
is accepted just after it as well. -/
theorem checkNodeWOffset_after_child {tm : TreeModel} (hwf : tm.wellFormed = true)
    {p : NodeImpl} {i : Nat} (hv : tm.valid (.child p i))
    (h : checkNodeWOffset tm (some p) (i : Int) 0 = some 0) :
    checkNodeWOffset tm (some p) ((i : Int) + 1) 0 = some 0 := by
  obtain ⟨tp, htp⟩ := valid_iff.mp (valid_parent hv)
  have hlt := valid_child_lt htp hv
  rw [checkNodeWOffset_eq htp] at h
  rw [checkNodeWOffset_eq htp]
  have hleaf := (Tree.wellFormed_children (wellFormed_node hwf htp)).2
  by_cases hk : isEntityNotationOrDoctype tp.nodeType = true
  · simp [hk, INVALID_NODE_TYPE_ERR] at h
  · have hc : isCharacterLike tp.nodeType = false := by
      cases hcl : isCharacterLike tp.nodeType with
      | false => rfl
      | true =>
        rw [hleaf hcl] at hlt
        simp at hlt
    have hb : offsetBound tp = tp.children.length := by simp [offsetBound, hc]
    have hu : toUnsigned ((i : Int) + 1) ≤ tp.children.length := by
      have := toUnsigned_le (i + 1)
      push_cast at this
      omega
    have h1 : ¬ ((i : Int) + 1 < 0) := by omega
    simp [hk, hb, h1, Nat.not_lt.mpr hu]

/-! ## Error handling: the claims -/

theorem setStart_error {tm : TreeModel} {r r1 : RangeImpl} {n : Ptr} {k : Int}
    {ec ec1 : ExceptionCode} (h : r.setStart tm n k ec = some (r1, ec1)) (hne : ec1 ≠ 0) :
    r1 = r := by
  rcases setStart_inv h with ⟨h1, _⟩ | ⟨h1, _⟩
  · exact h1
  · exact absurd h1 hne

theorem setEnd_error {tm : TreeModel} {r r1 : RangeImpl} {n : Ptr} {k : Int}
    {ec ec1 : ExceptionCode} (h : r.setEnd tm n k ec = some (r1, ec1)) (hne : ec1 ≠ 0) :
    r1 = r := by
  rcases setEnd_inv h with ⟨h1, _⟩ | ⟨h1, _⟩
  · exact h1
  · exact absurd h1 hne

theorem setEnd_no_error {tm : TreeModel} {r r1 : RangeImpl} {m s : NodeImpl}
    {k : Int} {ec1 : ExceptionCode} (hd : r.m_detached = false)
    (hdoc : getDocument tm m = some r.m_ownerDocument)
    (hchk : checkNodeWOffset tm (some m) k 0 = some 0) (hs : r.m_startContainer = some s)
    (h : r.setEnd tm (some m) k 0 = some (r1, ec1)) : ec1 = 0 := by
  rw [setEnd_checked hd hdoc hchk hs] at h
  split_ifs at h with h1
  · simp at h
    exact h.2.symm
  · cases hc : compareBoundaryPoints tm (some s) r.m_startOffset (some m) k with
    | none => simp [hc] at h
    | some c =>
      simp only [hc, Option.bind] at h
      split_ifs at h <;> simp at h <;> exact h.2.symm

theorem selectNode_error {tm : TreeModel} (hwf : tm.wellFormed = true) {r r1 : RangeImpl}
    {n : Ptr} {ec1 : ExceptionCode} (h : r.selectNode tm n 0 = some (r1, ec1)) (hne : ec1 ≠ 0) :
    r1 = r := by
  rcases selectNode_inv h with ⟨h1, _⟩ | ⟨s1, hs1, ⟨h2, h3⟩ | ⟨h2, h3⟩⟩
  · exact h1
  · rw [h3] at hs1 h2
    rcases setStartBefore_inv hs1 with ⟨h4, _⟩ | ⟨m, _, _, _, _, h4⟩
    · exact h4
    · exact setStart_error h4 hne
  · exfalso
    obtain ⟨r2, e2⟩ := s1
    simp only at h2 h3
    subst h2
    rcases setStartBefore_inv hs1 with ⟨_, h4⟩ | ⟨m, hn, hd, hdoc, hba, h4⟩
    · exact h4 rfl
    · subst hn
      rcases setStart_inv h4 with ⟨_, h5⟩ | ⟨_, _, p, e, hp, hpdoc, hpchk, _⟩
      · exact h5 rfl
      · cases m with
        | root t => simp [NodeImpl.parentNode] at hp
        | child q i =>
          simp only [NodeImpl.parentNode, Option.some.injEq] at hp
          subst hp
          simp only [NodeImpl.parentNode, NodeImpl.nodeIndex] at h4 hpchk
          have hv : tm.valid (.child q i) := by
            cases hnode : tm.node (.child q i) with
            | none => simp [getDocument, hnode] at hdoc
            | some t => exact valid_iff.mpr ⟨t, hnode⟩
          have hchk2 := checkNodeWOffset_after_child hwf hv hpchk
          obtain ⟨e1, _, hcase⟩ := setStart_success h4
          have hfields : r2.m_detached = false ∧ r2.m_ownerDocument = r.m_ownerDocument ∧
              r2.m_startContainer = some q := by
            rcases hcase with ⟨_, rfl⟩ | ⟨_, c, _, ⟨_, rfl⟩ | ⟨_, rfl⟩⟩ <;> exact ⟨rfl, rfl, rfl⟩
          rcases setEndAfter_inv h3 with ⟨_, _⟩ | ⟨m2, hm2, _, _, _, h6⟩
          · simp only [RangeImpl.setEndAfter, hfields.1, hfields.2.1, hdoc, hba] at h3
            simp only [Bool.false_eq_true, if_false, Option.bind, ne_eq, not_true_eq_false,
              NodeImpl.parentNode, NodeImpl.nodeIndex] at h3
            exact hne (setEnd_no_error hfields.1 (by rw [hfields.2.1]; exact hpdoc)
              (by exact_mod_cast hchk2) hfields.2.2 h3)
          · cases hm2
            simp only [NodeImpl.parentNode, NodeImpl.nodeIndex] at h6
            exact hne (setEnd_no_error hfields.1 (by rw [hfields.2.1]; exact hpdoc)
              (by exact_mod_cast hchk2) hfields.2.2 h6)

/-- C3. Boundary-validation totality: when a call of `setStart`, `setEnd`,
`setStartBefore`, `setStartAfter`, `setEndBefore`, `setEndAfter`, `selectNode`
or `selectNodeContents` reports a non-zero error code, the four boundary
fields are what they were before the call (on a tree model in which
character-like nodes have no children). -/
theorem rejected_input_leaves_range_unchanged (tm : TreeModel) (r r1 : RangeImpl)
    (ec : ExceptionCode) (hwf : tm.wellFormed = true) (h : SetterCall tm r r1 ec)
    (hne : ec ≠ 0) :
    r1.m_startContainer = r.m_startContainer ∧ r1.m_startOffset = r.m_startOffset ∧
      r1.m_endContainer = r.m_endContainer ∧ r1.m_endOffset = r.m_endOffset := by
  have key : r1 = r := by
    rcases h with ⟨n, k, h⟩ | ⟨n, k, h⟩ | ⟨n, h⟩ | ⟨n, h⟩ | ⟨n, h⟩ | ⟨n, h⟩ | ⟨n, h⟩ | ⟨n, h⟩
    · exact setStart_error h hne
    · exact setEnd_error h hne
    · rcases setStartBefore_inv h with ⟨h1, _⟩ | ⟨m, _, _, _, _, h1⟩
      · exact h1
      · exact setStart_error h1 hne
    · rcases setStartAfter_inv h with ⟨h1, _⟩ | ⟨m, _, _, _, _, h1⟩
      · exact h1
      · exact setStart_error h1 hne
    · rcases setEndBefore_inv h with ⟨h1, _⟩ | ⟨m, _, _, _, _, h1⟩
      · exact h1
      · exact setEnd_error h1 hne
    · rcases setEndAfter_inv h with ⟨h1, _⟩ | ⟨m, _, _, _, _, h1⟩
      · exact h1
      · exact setEnd_error h1 hne
    · exact selectNode_error hwf h hne
    · rcases selectNodeContents_inv h with ⟨h1, _⟩ | ⟨h1, _⟩
      · exact h1
      · exact absurd h1 hne
  rw [key]
  exact ⟨rfl, rfl, rfl, rfl⟩

/-- Witness for C2: on the sample range `(document, 0)..(deep text, 1)`,
`setStart(sampleP, 0)` keeps the end and `setEnd(root of the fragment, 0)`
collapses the range onto the new end. -/
theorem setter_postcondition_witness :
    (∃ e, (⟨some (.root 0), some (.root 0), 0, some sampleDeepText, 1, false⟩ : RangeImpl).m_endContainer
          = some e ∧
        (⟨some (.root 0), some sampleP, 0, some sampleDeepText, 1, false⟩ : RangeImpl).m_endContainer
          = some e) ∧
    (∃ s, (⟨some (.root 0), some (.root 0), 0, some sampleDeepText, 1, false⟩ : RangeImpl).m_startContainer
          = some s ∧
        (⟨some (.root 0), some (.root 1), 0, some (.root 1), 0, false⟩ : RangeImpl).m_startContainer
          = some (.root 1)) := by
  obtain ⟨e, he, _, _, h1, _⟩ :=
    (setter_postcondition sampleModel ⟨some (.root 0), some (.root 0), 0, some sampleDeepText, 1, false⟩
      ⟨some (.root 0), some sampleP, 0, some sampleDeepText, 1, false⟩ sampleP 0).1 (by decide)
  obtain ⟨s, hs, _, _, _, h2⟩ :=
    (setter_postcondition sampleModel ⟨some (.root 0), some (.root 0), 0, some sampleDeepText, 1, false⟩
      ⟨some (.root 0), some (.root 1), 0, some (.root 1), 0, false⟩ (.root 1) 0).2 (by decide)
  refine ⟨⟨e, he, ?_⟩, ⟨s, hs, ?_⟩⟩
  · cases he
    exact (h1 ⟨by decide, -1, by decide, by decide⟩).1
  · cases hs
    exact (h2 (fun hx => absurd hx.1 (by decide))).1

/-- Witness for C3: `setStart` on the document type node of the sample
document is rejected with `INVALID_NODE_TYPE_ERR`. -/
theorem rejected_input_leaves_range_unchanged_witness :
    sampleRange.m_startContainer = sampleRange.m_startContainer ∧
      sampleRange.m_startOffset = sampleRange.m_startOffset ∧
      sampleRange.m_endContainer = sampleRange.m_endContainer ∧
      sampleRange.m_endOffset = sampleRange.m_endOffset :=
  rejected_input_leaves_range_unchanged sampleModel sampleRange sampleRange INVALID_NODE_TYPE_ERR
    (by decide) (Or.inl ⟨some (.child (.root 0) 0), 0, by decide⟩) (by decide)

theorem valid_of_getDocument {tm : TreeModel} {n : NodeImpl} {d : Ptr}
    (h : getDocument tm n = some d) : tm.valid n := by
  cases hn : tm.node n with
  | none => simp [getDocument, hn] at h
  | some t => exact valid_iff.mpr ⟨t, hn⟩

theorem setStart_total {tm : TreeModel} {r : RangeImpl} {m e : NodeImpl}
    {k : Int} (hd : r.m_detached = false)
    (hdoc : getDocument tm m = some r.m_ownerDocument)
    (hchk : checkNodeWOffset tm (some m) k 0 = some 0) (he : r.m_endContainer = some e)
    (hev : tm.valid e) : ∃ r1, r.setStart tm (some m) k 0 = some (r1, 0) := by
  rw [setStart_checked hd hdoc hchk he]
  by_cases hr : rootContainer m = rootContainer e
  · obtain ⟨c, hc, _⟩ := compare_key k r.m_endOffset (valid_of_getDocument hdoc) hev hr
    simp only [hr, ne_eq, not_true_eq_false, if_false, hc, Option.bind]
    split_ifs <;> exact ⟨_, rfl⟩
  · simp only [hr, ne_eq, not_false_eq_true, if_true]
    exact ⟨_, rfl⟩

theorem setEnd_total {tm : TreeModel} {r : RangeImpl} {m s : NodeImpl}
    {k : Int} (hd : r.m_detached = false)
    (hdoc : getDocument tm m = some r.m_ownerDocument)
    (hchk : checkNodeWOffset tm (some m) k 0 = some 0) (hs : r.m_startContainer = some s)
    (hsv : tm.valid s) : ∃ r1, r.setEnd tm (some m) k 0 = some (r1, 0) := by
  rw [setEnd_checked hd hdoc hchk hs]
  by_cases hr : rootContainer s = rootContainer m
  · obtain ⟨c, hc, _⟩ := compare_key r.m_startOffset k hsv (valid_of_getDocument hdoc) hr
    simp only [hr, ne_eq, not_true_eq_false, if_false, hc, Option.bind]
    split_ifs <;> exact ⟨_, rfl⟩
  · simp only [hr, ne_eq, not_false_eq_true, if_true]
    exact ⟨_, rfl⟩

theorem checkNodeWOffset_allowed {tm : TreeModel} {n : NodeImpl} {t : Tree}
    (hn : tm.node n = some t) (hkind : isEntityNotationOrDoctype t.nodeType = false)
    {k : Int} (hk : k < 2 ^ 31) :
    checkNodeWOffset tm (some n) k 0
      = some (if k < 0 ∨ k > (offsetBound t : Int) then INDEX_SIZE_ERR else 0) := by
  rw [checkNodeWOffset_eq hn]
  simp only [hkind, Bool.false_eq_true, if_false]
  by_cases h0 : k < 0
  · simp [h0]
  · have hu := toUnsigned_of_nonneg (by omega : 0 ≤ k) hk
    by_cases hb : k > (offsetBound t : Int)
    · have : toUnsigned k > offsetBound t := by rw [hu]; omega
      simp [h0, hb, this]
    · have : ¬ toUnsigned k > offsetBound t := by rw [hu]; omega
      simp [h0, hb, this]

/-- C5. Offset validation.  For a non-detached range with valid containers and
a node `n` of the range's document whose kind is an allowed container, with
`k` an `int`: `setStart(n, k)` and `setEnd(n, k)` return; the error is
`INDEX_SIZE_ERR` if and only if `k < 0` or `k` exceeds the bound of `n` (data
length for text, CDATA, comment and processing-instruction nodes, child count
otherwise); and there is no error for `k` in `[0, bound]`. -/
theorem offset_validation (tm : TreeModel) (r : RangeImpl) (s e n : NodeImpl) (t : Tree)
    (k : Int) (hd : r.m_detached = false)
    (hs : r.m_startContainer = some s) (he : r.m_endContainer = some e)
    (hsv : tm.valid s) (hev : tm.valid e)
    (hn : tm.node n = some t) (hdoc : getDocument tm n = some r.m_ownerDocument)
    (hkind : isEntityNotationOrDoctype t.nodeType = false) (hk : k < 2 ^ 31) :
    (∃ r1 ec1, r.setStart tm (some n) k 0 = some (r1, ec1) ∧
      (ec1 = INDEX_SIZE_ERR ↔ (k < 0 ∨ k > (offsetBound t : Int))) ∧
      (0 ≤ k ∧ k ≤ (offsetBound t : Int) → ec1 = 0)) ∧
    (∃ r1 ec1, r.setEnd tm (some n) k 0 = some (r1, ec1) ∧
      (ec1 = INDEX_SIZE_ERR ↔ (k < 0 ∨ k > (offsetBound t : Int))) ∧
      (0 ≤ k ∧ k ≤ (offsetBound t : Int) → ec1 = 0)) := by
  have hchk := checkNodeWOffset_allowed hn hkind hk
  by_cases hbad : k < 0 ∨ k > (offsetBound t : Int)
  · simp only [hbad, if_true] at hchk
    have hne : INDEX_SIZE_ERR ≠ 0 := by decide
    refine ⟨⟨r, INDEX_SIZE_ERR, setStart_check_failed hd hdoc hchk hne, by simp [hbad], ?_⟩,
      ⟨r, INDEX_SIZE_ERR, setEnd_check_failed hd hdoc hchk hne, by simp [hbad], ?_⟩⟩
    · intro h
      omega
    · intro h
      omega
  · simp only [hbad, if_false] at hchk
    obtain ⟨r1, h1⟩ := setStart_total hd hdoc hchk he hev
    obtain ⟨r2, h2⟩ := setEnd_total hd hdoc hchk hs hsv
    have hne : (0 : ExceptionCode) ≠ INDEX_SIZE_ERR := by decide
    exact ⟨⟨r1, 0, h1, by simp [hbad, hne], fun _ => rfl⟩,
      ⟨r2, 0, h2, by simp [hbad, hne], fun _ => rfl⟩⟩

/-- Witness for C5: offset 4 in the three-unit text node of the sample
document, on a fresh range. -/
theorem offset_validation_witness :
    (∃ r1 ec1, sampleRange.setStart sampleModel (some (.child sampleP 0)) 4 0 = some (r1, ec1) ∧
      (ec1 = INDEX_SIZE_ERR ↔
        ((4 : Int) < 0 ∨ (4 : Int) > (offsetBound (.mk .TEXT_NODE [97, 98, 99] []) : Int))) ∧
      (0 ≤ (4 : Int) ∧ (4 : Int) ≤ (offsetBound (.mk .TEXT_NODE [97, 98, 99] []) : Int) →
        ec1 = 0)) ∧
    (∃ r1 ec1, sampleRange.setEnd sampleModel (some (.child sampleP 0)) 4 0 = some (r1, ec1) ∧
      (ec1 = INDEX_SIZE_ERR ↔
        ((4 : Int) < 0 ∨ (4 : Int) > (offsetBound (.mk .TEXT_NODE [97, 98, 99] []) : Int))) ∧
      (0 ≤ (4 : Int) ∧ (4 : Int) ≤ (offsetBound (.mk .TEXT_NODE [97, 98, 99] []) : Int) →
        ec1 = 0)) :=
  offset_validation sampleModel sampleRange (.root 0) (.root 0) (.child sampleP 0)
    (.mk .TEXT_NODE [97, 98, 99] []) 4 rfl rfl rfl (by decide) (by decide) rfl
    (by decide) (by decide) (by decide)

/-- C6. Disallowed containers and validation precedence, for a non-detached
range and every offset `k`: a null node gives `NOT_FOUND_ERR`; a node of
another document gives `WRONG_DOCUMENT_ERR` whatever its kind; a node of the
range's document of kind entity, notation or document type gives
`INVALID_NODE_TYPE_ERR`.  In each case the range is returned unchanged. -/
theorem disallowed_containers (tm : TreeModel) (r : RangeImpl) (k : Int)
    (hd : r.m_detached = false) :
    (r.setStart tm none k 0 = some (r, NOT_FOUND_ERR) ∧
      r.setEnd tm none k 0 = some (r, NOT_FOUND_ERR)) ∧
    (∀ n d, getDocument tm n = some d → d ≠ r.m_ownerDocument →
      r.setStart tm (some n) k 0 = some (r, WRONG_DOCUMENT_ERR) ∧
      r.setEnd tm (some n) k 0 = some (r, WRONG_DOCUMENT_ERR)) ∧
    (∀ n t, tm.node n = some t → getDocument tm n = some r.m_ownerDocument →
      (t.nodeType = .ENTITY_NODE ∨ t.nodeType = .NOTATION_NODE ∨
        t.nodeType = .DOCUMENT_TYPE_NODE) →
      r.setStart tm (some n) k 0 = some (r, INVALID_NODE_TYPE_ERR) ∧
      r.setEnd tm (some n) k 0 = some (r, INVALID_NODE_TYPE_ERR)) := by
  refine ⟨⟨setStart_null k 0 hd, setEnd_null k 0 hd⟩,
    fun n d hdoc hne =>
      ⟨setStart_wrong_document k 0 hd hdoc hne, setEnd_wrong_document k 0 hd hdoc hne⟩,
    fun n t hn hdoc hkind => ?_⟩
  have hk : isEntityNotationOrDoctype t.nodeType = true := by
    rcases hkind with h | h | h <;> simp [isEntityNotationOrDoctype, h]
  have hchk : checkNodeWOffset tm (some n) k 0 = some INVALID_NODE_TYPE_ERR := by
    rw [checkNodeWOffset_eq hn]
    simp [hk]
  have hne : INVALID_NODE_TYPE_ERR ≠ 0 := by decide
  exact ⟨setStart_check_failed hd hdoc hchk hne, setEnd_check_failed hd hdoc hchk hne⟩

/-- Witness for C6 on a fresh range of the sample document, at offset -1: the
null node, the element of the second document, and the document type node. -/
theorem disallowed_containers_witness :
    sampleRange.setStart sampleModel none (-1) 0 = some (sampleRange, NOT_FOUND_ERR) ∧
    sampleRange.setEnd sampleModel (some (.child (.root 2) 0)) (-1) 0
      = some (sampleRange, WRONG_DOCUMENT_ERR) ∧
    sampleRange.setStart sampleModel (some (.child (.root 0) 0)) (-1) 0
      = some (sampleRange, INVALID_NODE_TYPE_ERR) :=
  ⟨(disallowed_containers sampleModel sampleRange (-1) rfl).1.1,
   ((disallowed_containers sampleModel sampleRange (-1) rfl).2.1 (.child (.root 2) 0)
      (some (.root 2)) (by decide) (by decide)).2,
   ((disallowed_containers sampleModel sampleRange (-1) rfl).2.2 (.child (.root 0) 0)
      (.mk .DOCUMENT_TYPE_NODE [] []) rfl (by decide) (by decide)).1⟩

/-! ## Detached ranges -/

/-- C4. Detached is terminal.  On a detached range each of the four endpoint
accessors, `commonAncestorContainer`, `collapsed`, the setters and positional
setters, `collapse`, `selectNode`, `selectNodeContents`, `compareBoundaryPoints`,
`deleteContents`, `extractContents`, `cloneContents`, `insertNode`,
`surroundContents`, `cloneRange`, `toString`, `createContextualFragment` and
`detach` sets `INVALID_STATE_ERR`, returns its neutral value and leaves the
range (and the tree) as it was; `detach()` on a non-detached range sets
`m_detached` and clears both containers. -/
theorem detached_is_terminal (tm : TreeModel) (r : RangeImpl) (ec : ExceptionCode)
    (hd : r.m_detached = true) :
    (r.startContainer ec = (none, INVALID_STATE_ERR) ∧
      r.startOffset ec = (0, INVALID_STATE_ERR) ∧
      r.endContainer ec = (none, INVALID_STATE_ERR) ∧
      r.endOffset ec = (0, INVALID_STATE_ERR) ∧
      r.commonAncestorContainer tm ec = some (none, INVALID_STATE_ERR) ∧
      r.collapsed ec = (false, INVALID_STATE_ERR)) ∧
    ((∀ n k, r.setStart tm n k ec = some (r, INVALID_STATE_ERR)) ∧
      (∀ n k, r.setEnd tm n k ec = some (r, INVALID_STATE_ERR)) ∧
      (∀ n, r.setStartBefore tm n ec = some (r, INVALID_STATE_ERR)) ∧
      (∀ n, r.setStartAfter tm n ec = some (r, INVALID_STATE_ERR)) ∧
      (∀ n, r.setEndBefore tm n ec = some (r, INVALID_STATE_ERR)) ∧
      (∀ n, r.setEndAfter tm n ec = some (r, INVALID_STATE_ERR)) ∧
      (∀ toStart, r.collapse toStart ec = (r, INVALID_STATE_ERR)) ∧
      (∀ n, r.selectNode tm n ec = some (r, INVALID_STATE_ERR)) ∧
      (∀ n, r.selectNodeContents tm n ec = some (r, INVALID_STATE_ERR))) ∧
    ((∀ how src, r.compareBoundaryPoints tm how src ec = some (0, INVALID_STATE_ERR)) ∧
      (∀ rest, r.deleteContents rest tm ec = some (tm, r, INVALID_STATE_ERR)) ∧
      (∀ rest, r.extractContents rest tm ec = some (tm, r, INVALID_STATE_ERR, none)) ∧
      (∀ rest, r.cloneContents rest tm ec = some (tm, r, INVALID_STATE_ERR, none)) ∧
      (∀ rest n, r.insertNode rest tm n ec = some (tm, r, INVALID_STATE_ERR)) ∧
      (∀ rest n, r.surroundContents rest tm n ec = some (tm, r, INVALID_STATE_ERR)) ∧
      r.cloneRange ec = (none, INVALID_STATE_ERR) ∧
      (∀ rest, r.toString rest tm ec = some (none, INVALID_STATE_ERR)) ∧
      (∀ rest html, r.createContextualFragment rest tm html ec
        = some (tm, none, INVALID_STATE_ERR)) ∧
      r.detach ec = (r, INVALID_STATE_ERR)) ∧
    (∀ (r0 : RangeImpl) (ec0 : ExceptionCode), r0.m_detached = false →
      (r0.detach ec0).1.m_detached = true ∧ (r0.detach ec0).1.m_startContainer = none ∧
      (r0.detach ec0).1.m_endContainer = none ∧ (r0.detach ec0).2 = ec0) := by
  refine ⟨?_, ?_, ?_, ?_⟩
  · simp [RangeImpl.startContainer, RangeImpl.startOffset, RangeImpl.endContainer,
      RangeImpl.endOffset, RangeImpl.commonAncestorContainer, RangeImpl.collapsed, hd]
  · simp [RangeImpl.setStart, RangeImpl.setEnd, RangeImpl.setStartBefore,
      RangeImpl.setStartAfter, RangeImpl.setEndBefore, RangeImpl.setEndAfter,
      RangeImpl.collapse, RangeImpl.selectNode, RangeImpl.selectNodeContents, hd]
  · simp [RangeImpl.compareBoundaryPoints, RangeImpl.deleteContents, RangeImpl.extractContents,
      RangeImpl.cloneContents, RangeImpl.insertNode, RangeImpl.surroundContents,
      RangeImpl.cloneRange, RangeImpl.toString, RangeImpl.createContextualFragment,
      RangeImpl.detach, hd]
  · intro r0 ec0 h0
    simp [RangeImpl.detach, h0]

/-- Witness for C4: the fresh range of the sample document after `detach()`. -/
theorem detached_is_terminal_witness :
    (sampleRange.detach 0).1.startContainer 0 = (none, INVALID_STATE_ERR) ∧
    (sampleRange.detach 0).1.setStart sampleModel (some sampleP) 0 0
      = some ((sampleRange.detach 0).1, INVALID_STATE_ERR) ∧
    (sampleRange.detach 0).1.detach 0 = ((sampleRange.detach 0).1, INVALID_STATE_ERR) :=
  ⟨(detached_is_terminal sampleModel (sampleRange.detach 0).1 0 (by decide)).1.1,
   (detached_is_terminal sampleModel (sampleRange.detach 0).1 0 (by decide)).2.1.1
      (some sampleP) 0,
   (detached_is_terminal sampleModel (sampleRange.detach 0).1 0 (by decide)).2.2.1.2.2.2.2.2.2.2.2.2⟩

/-! ## `compareBoundaryPoints(how, sourceRange)` -/

theorem rootContainer_eq_root (n : NodeImpl) : rootContainer n = .root n.treeIndex := by
  induction n with
  | root t => rfl
  | child p i ih => simpa [rootContainer, NodeImpl.treeIndex] using ih

theorem getDocument_eq_of_same_root {tm : TreeModel} {a b : NodeImpl} (ha : tm.valid a)
    (hb : tm.valid b) (h : rootContainer a = rootContainer b) :
    getDocument tm a = getDocument tm b := by
  obtain ⟨ta, hta⟩ := valid_iff.mp ha
  obtain ⟨tb, htb⟩ := valid_iff.mp hb
  have : a.treeIndex = b.treeIndex := by
    rw [rootContainer_eq_root a, rootContainer_eq_root b] at h
    exact NodeImpl.root.inj h
  simp [getDocument, hta, htb, this]

theorem getDocument_some_of_valid {tm : TreeModel} {a : NodeImpl} (ha : tm.valid a) :
    ∃ d, getDocument tm a = some d := by
  obtain ⟨ta, hta⟩ := valid_iff.mp ha
  have hr : tm.valid (rootContainer a) := valid_of_mem_ancestors ha (rootContainer_mem_ancestors a)
  rw [rootContainer_eq_root] at hr
  obtain ⟨tr, htr⟩ := valid_iff.mp hr
  simp only [TreeModel.node, Option.map_eq_some'] at htr
  obtain ⟨x, hx, _⟩ := htr
  exact ⟨x.1, by simp [getDocument, hta, hx]⟩

theorem member_commonAncestorContainer {tm : TreeModel} {r : RangeImpl} {s e : NodeImpl}
    (ec : ExceptionCode) (hd : r.m_detached = false) (hs : r.m_startContainer = some s)
    (he : r.m_endContainer = some e) (h : rootContainer s = rootContainer e) :
    ∃ c, r.commonAncestorContainer tm ec = some (some c, ec) ∧ c ∈ s.ancestors := by
  obtain ⟨c, hc⟩ := commonAncestorLoop_of_same_root h
  obtain ⟨h1, _, _⟩ := commonAncestorLoop_some hc
  exact ⟨c, by simp [RangeImpl.commonAncestorContainer, WebCore.commonAncestorContainer,
    hd, hs, he, hc], h1⟩

/-- C10. Endpoint selection of `compareBoundaryPoints(how, source)`: for
non-detached ranges `r` and `src` whose four containers are valid nodes of one
tree, the call reports no error and returns `compare(r.start, src.start)` for
`START_TO_START`, `compare(r.start, src.end)` for `START_TO_END`,
`compare(r.end, src.end)` for `END_TO_END` and `compare(r.end, src.start)` for
`END_TO_START`. -/
theorem compareBoundaryPoints_how (tm : TreeModel) (r src : RangeImpl) (s e s1 e1 : NodeImpl)
    (hd : r.m_detached = false) (hd1 : src.m_detached = false)
    (hs : r.m_startContainer = some s) (he : r.m_endContainer = some e)
    (hs1 : src.m_startContainer = some s1) (he1 : src.m_endContainer = some e1)
    (hsv : tm.valid s) (hev : tm.valid e) (hs1v : tm.valid s1) (he1v : tm.valid e1)
    (hr1 : rootContainer s = rootContainer e) (hr2 : rootContainer s = rootContainer s1)
    (hr3 : rootContainer s = rootContainer e1) :
    (∃ v, compareBoundaryPoints tm (some s) r.m_startOffset (some s1) src.m_startOffset = some v ∧
      r.compareBoundaryPoints tm .START_TO_START (some src) 0 = some (v, 0)) ∧
    (∃ v, compareBoundaryPoints tm (some s) r.m_startOffset (some e1) src.m_endOffset = some v ∧
      r.compareBoundaryPoints tm .START_TO_END (some src) 0 = some (v, 0)) ∧
    (∃ v, compareBoundaryPoints tm (some e) r.m_endOffset (some e1) src.m_endOffset = some v ∧
      r.compareBoundaryPoints tm .END_TO_END (some src) 0 = some (v, 0)) ∧
    (∃ v, compareBoundaryPoints tm (some e) r.m_endOffset (some s1) src.m_startOffset = some v ∧
      r.compareBoundaryPoints tm .END_TO_START (some src) 0 = some (v, 0)) := by
  obtain ⟨tc, htc, htcm⟩ := @member_commonAncestorContainer tm r s e 0 hd hs he hr1
  obtain ⟨sc, hsc, hscm⟩ :=
    @member_commonAncestorContainer tm src s1 e1 0 hd1 hs1 he1 (hr2.symm.trans hr3)
  have htcv := valid_of_mem_ancestors hsv htcm
  have hscv := valid_of_mem_ancestors hs1v hscm
  have hroot : rootContainer tc = rootContainer sc := by
    rw [rootContainer_eq_of_mem_ancestors htcm, rootContainer_eq_of_mem_ancestors hscm, hr2]
  obtain ⟨d, hdoc⟩ := getDocument_some_of_valid htcv
  have hdoc1 : getDocument tm sc = some d := by
    rw [← getDocument_eq_of_same_root htcv hscv hroot, hdoc]
  obtain ⟨v1, hv1, _⟩ := compare_key r.m_startOffset src.m_startOffset hsv hs1v hr2
  obtain ⟨v2, hv2, _⟩ := compare_key r.m_startOffset src.m_endOffset hsv he1v hr3
  obtain ⟨v3, hv3, _⟩ := compare_key r.m_endOffset src.m_endOffset hev he1v (hr1.symm.trans hr3)
  obtain ⟨v4, hv4, _⟩ := compare_key r.m_endOffset src.m_startOffset hev hs1v (hr1.symm.trans hr2)
  refine ⟨⟨v1, hv1, ?_⟩, ⟨v2, hv2, ?_⟩, ⟨v3, hv3, ?_⟩, ⟨v4, hv4, ?_⟩⟩ <;>
    simp [RangeImpl.compareBoundaryPoints, hd, htc, hsc, hdoc, hdoc1, hroot,
      RangeImpl.startContainer, RangeImpl.startOffset, RangeImpl.endContainer,
      RangeImpl.endOffset, hd1, hs, he, hs1, he1, hv1, hv2, hv3, hv4]

/-- Witness for C10, the scenario of the specification: with `n` the
three-unit text node, `R1 = (n,0)..(n,3)` and `R2 = (n,1)..(n,2)`,
`R1.compareBoundaryPoints(START_TO_END, R2)` compares offset 0 with offset 2
and returns -1 with no error. -/
theorem compareBoundaryPoints_how_witness :
    RangeImpl.compareBoundaryPoints sampleModel
      ⟨some (.root 0), some (.child sampleP 0), 0, some (.child sampleP 0), 3, false⟩
      .START_TO_END
      (some ⟨some (.root 0), some (.child sampleP 0), 1, some (.child sampleP 0), 2, false⟩) 0
      = some (-1, 0) := by
  obtain ⟨v, hv, h⟩ := (compareBoundaryPoints_how sampleModel
    ⟨some (.root 0), some (.child sampleP 0), 0, some (.child sampleP 0), 3, false⟩
    ⟨some (.root 0), some (.child sampleP 0), 1, some (.child sampleP 0), 2, false⟩
    (.child sampleP 0) (.child sampleP 0) (.child sampleP 0) (.child sampleP 0)
    rfl rfl rfl rfl rfl rfl (by decide) (by decide) (by decide) (by decide) rfl rfl rfl).2.1
  have h2 : compareBoundaryPoints sampleModel (some (.child sampleP 0)) 0
      (some (.child sampleP 0)) 2 = some (-1) := by decide
  rw [h2] at hv
  cases hv
  exact h

/-! ## `selectNode` and `selectNodeContents`: results -/

theorem positional_checked {tm : TreeModel} {r : RangeImpl} {m : NodeImpl} {ec : ExceptionCode}
    (set : NodeImpl → ExceptionCode → Option (RangeImpl × ExceptionCode))
    (hd : r.m_detached = false) (hdoc : getDocument tm m = some r.m_ownerDocument)
    (hba : checkNodeBA tm (some m) ec = some 0) :
    (if r.m_detached then some (r, INVALID_STATE_ERR)
      else
        match (some m : Ptr) with
        | none => some (r, NOT_FOUND_ERR)
        | some m =>
          (getDocument tm m).bind fun d =>
            if d ≠ r.m_ownerDocument then some (r, WRONG_DOCUMENT_ERR)
            else
              (checkNodeBA tm (some m) ec).bind fun e1 =>
                if e1 ≠ 0 then some (r, e1) else set m e1) = set m 0 := by
  simp [hd, hdoc, hba]

theorem selectNode_shape {tm : TreeModel} {r r1 : RangeImpl} {n : NodeImpl}
    (h : r.selectNode tm (some n) 0 = some (r1, 0)) :
    ∃ p, n.parentNode = some p ∧
      r1 = ⟨r.m_ownerDocument, some p, (n.nodeIndex : Int), some p, (n.nodeIndex : Int) + 1, false⟩ := by
  rcases selectNode_inv h with ⟨_, h0⟩ | ⟨s1, hs1, ⟨h1, h2⟩ | ⟨h1, h2⟩⟩
  · exact absurd rfl h0
  · rw [h2] at h1
    exact absurd rfl h1
  · obtain ⟨r2, e2⟩ := s1
    simp only at h1 h2
    subst h1
    rcases setStartBefore_inv hs1 with ⟨_, h0⟩ | ⟨m, hm, _, _, _, h3⟩
    · exact absurd rfl h0
    · cases hm
      rcases setEndAfter_inv h2 with ⟨_, h0⟩ | ⟨m2, hm2, _, _, _, h4⟩
      · exact absurd rfl h0
      · cases hm2
        cases hp : n.parentNode with
        | none =>
          rw [hp] at h3
          rcases setStart_inv h3 with ⟨_, h0⟩ | ⟨_, _, _, _, hn, _⟩
          · exact absurd rfl h0
          · cases hn
        | some p =>
          rw [hp] at h3 h4
          refine ⟨p, rfl, ?_⟩
          obtain ⟨e, _, hcase⟩ := setStart_success h3
          have hr2 : r2.m_ownerDocument = r.m_ownerDocument ∧ r2.m_startContainer = some p ∧
              r2.m_startOffset = (n.nodeIndex : Int) := by
            rcases hcase with ⟨_, rfl⟩ | ⟨_, c, _, ⟨_, rfl⟩ | ⟨_, rfl⟩⟩ <;> exact ⟨rfl, rfl, rfl⟩
          obtain ⟨s, hs, hcase2⟩ := setEnd_success h4
          rw [hr2.2.1] at hs
          cases hs
          rcases hcase2 with ⟨hne, _⟩ | ⟨_, c, hc, ⟨hpos, _⟩ | ⟨_, hr1⟩⟩
          · exact absurd rfl hne
          · rw [hr2.2.2, compare_same] at hc
            simp at hc
            omega
          · rw [hr1, hr2.1, hr2.2.2]

theorem checkNodeBA_eq {tm : TreeModel} {n : NodeImpl} {t tr : Tree} (hn : tm.node n = some t)
    (hr : tm.node (rootContainer n) = some tr) (ec : ExceptionCode) :
    checkNodeBA tm (some n) ec
      = some (if positionRejected tr.nodeType t.nodeType then INVALID_NODE_TYPE_ERR else ec) := by
  unfold checkNodeBA positionRejected
  simp only [nodeType, hn, hr, Option.map, Option.bind]
  by_cases h1 : tr.nodeType = .ATTRIBUTE_NODE ∨ tr.nodeType = .DOCUMENT_NODE ∨
      tr.nodeType = .DOCUMENT_FRAGMENT_NODE
  · by_cases h2 : t.nodeType = .DOCUMENT_NODE ∨ t.nodeType = .DOCUMENT_FRAGMENT_NODE ∨
        t.nodeType = .ATTRIBUTE_NODE ∨ t.nodeType = .ENTITY_NODE ∨ t.nodeType = .NOTATION_NODE
    · simp [h1, h2]
    · simp [h1, h2]
  · simp [h1]

theorem kindsWellFormedList_mem {l : List Tree} (h : kindsWellFormedList l = true) {t : Tree}
    (ht : t ∈ l) :
    t.kindsWellFormed = true ∧ t.nodeType ≠ .ENTITY_NODE ∧ t.nodeType ≠ .NOTATION_NODE := by
  induction l with
  | nil => simp at ht
  | cons a l ih =>
    simp only [kindsWellFormedList, Bool.and_eq_true, Bool.not_eq_true', Bool.or_eq_false_iff,
      decide_eq_false_iff_not] at h
    rcases List.mem_cons.mp ht with e | e
    · rw [e]
      exact ⟨h.1.2, h.1.1.1, h.1.1.2⟩
    · exact ih h.2 e

theorem Tree.kindsWellFormed_children {t : Tree} (h : t.kindsWellFormed = true) :
    kindsWellFormedList t.children = true ∧
      (t.nodeType = .DOCUMENT_TYPE_NODE → t.children = []) := by
  cases t with
  | mk k d cs =>
    simp only [Tree.kindsWellFormed, Bool.and_eq_true, Bool.or_eq_true, Bool.not_eq_true',
      decide_eq_false_iff_not, List.isEmpty_iff] at h
    refine ⟨h.2, fun hc => ?_⟩
    rcases h.1 with h1 | h1
    · exact absurd hc h1
    · exact h1

theorem kindsWellFormed_node {tm : TreeModel} (h : tm.kindsWellFormed = true) {n : NodeImpl}
    {t : Tree} (hn : tm.node n = some t) :
    t.kindsWellFormed = true ∧
      (n.parentNode ≠ none → t.nodeType ≠ .ENTITY_NODE ∧ t.nodeType ≠ .NOTATION_NODE) := by
  induction n generalizing t with
  | root i =>
    simp only [TreeModel.node, Option.map_eq_some'] at hn
    obtain ⟨x, hx, rfl⟩ := hn
    simp only [TreeModel.kindsWellFormed, List.all_eq_true] at h
    exact ⟨h x (List.getElem?_mem hx), fun hp => absurd rfl hp⟩
  | child p i ih =>
    obtain ⟨tp, htp, hc⟩ := node_child_some hn
    have := kindsWellFormedList_mem (Tree.kindsWellFormed_children (ih htp).1).1
      (List.getElem?_mem hc)
    exact ⟨this.1, fun _ => this.2⟩

/-- In a well-formed forest, the parent of a valid node whose root is an
attribute, document or fragment is not an entity, notation or document type. -/
theorem parent_kind_allowed {tm : TreeModel} (hk : tm.kindsWellFormed = true) {p : NodeImpl}
    {i : Nat} {tp tr : Tree} (hv : tm.valid (.child p i)) (hp : tm.node p = some tp)
    (hr : tm.node (rootContainer p) = some tr)
    (hroot : tr.nodeType = .ATTRIBUTE_NODE ∨ tr.nodeType = .DOCUMENT_NODE ∨
      tr.nodeType = .DOCUMENT_FRAGMENT_NODE) :
    isEntityNotationOrDoctype tp.nodeType = false := by
  have hlt := valid_child_lt hp hv
  have hwf := kindsWellFormed_node hk hp
  have hdt : tp.nodeType ≠ .DOCUMENT_TYPE_NODE := by
    intro e
    rw [(Tree.kindsWellFormed_children hwf.1).2 e] at hlt
    simp at hlt
  have hen : tp.nodeType ≠ .ENTITY_NODE ∧ tp.nodeType ≠ .NOTATION_NODE := by
    cases p with
    | root t =>
      simp only [rootContainer] at hr
      rw [hp] at hr
      cases hr
      constructor <;> intro e <;> rw [e] at hroot <;> simp at hroot
    | child q j => exact hwf.2 (by simp [NodeImpl.parentNode])
  simp [isEntityNotationOrDoctype, hdt, hen.1, hen.2]

theorem getDocument_parent {tm : TreeModel} {p : NodeImpl} {i : Nat} {d : Ptr}
    (h : getDocument tm (.child p i) = some d) : getDocument tm p = some d := by
  have hv := valid_of_getDocument h
  rw [← h]
  exact getDocument_eq_of_same_root (valid_parent hv) hv rfl

theorem checkNodeWOffset_child {tm : TreeModel} {p : NodeImpl} {i : Nat} {tp : Tree}
    (hp : tm.node p = some tp) (hlt : i < tp.children.length)
    (hkind : isEntityNotationOrDoctype tp.nodeType = false)
    (hchar : isCharacterLike tp.nodeType = false) (k : Int) (h0 : 0 ≤ k) (h1 : k ≤ (i : Int) + 1) :
    checkNodeWOffset tm (some p) k 0 = some 0 := by
  rw [checkNodeWOffset_eq hp]
  have hb : offsetBound tp = tp.children.length := by simp [offsetBound, hchar]
  have hu : toUnsigned k ≤ tp.children.length := by
    have := toUnsigned_le k.toNat
    rw [Int.toNat_of_nonneg h0] at this
    omega
  have h2 : ¬ (k < 0) := by omega
  simp [hkind, hb, h2, Nat.not_lt.mpr hu]

theorem not_characterLike_of_child {tm : TreeModel} (hwf : tm.wellFormed = true) {p : NodeImpl}
    {i : Nat} {tp : Tree} (hv : tm.valid (.child p i)) (hp : tm.node p = some tp) :
    isCharacterLike tp.nodeType = false := by
  have hlt := valid_child_lt hp hv
  cases hcl : isCharacterLike tp.nodeType with
  | false => rfl
  | true =>
    rw [(Tree.wellFormed_children (wellFormed_node hwf hp)).2 hcl] at hlt
    simp at hlt

theorem ancestorOfDisallowedKind_eq {tm : TreeModel} {n : NodeImpl} (hv : tm.valid n) :
    ancestorOfDisallowedKind tm n = some (hasDisallowedAncestorOrSelf tm n) := by
  induction n with
  | root t =>
    obtain ⟨tr, htr⟩ := valid_iff.mp hv
    simp [ancestorOfDisallowedKind, nodeType, htr, hasDisallowedAncestorOrSelf,
      NodeImpl.ancestors]
  | child p i ih =>
    obtain ⟨t, ht⟩ := valid_iff.mp hv
    have hp := ih (valid_parent hv)
    simp only [hasDisallowedAncestorOrSelf] at hp
    by_cases hk : isEntityNotationOrDoctype t.nodeType = true
    · simp [ancestorOfDisallowedKind, nodeType, ht, hk, hasDisallowedAncestorOrSelf,
        NodeImpl.ancestors]
    · simp [ancestorOfDisallowedKind, nodeType, ht, hk, hasDisallowedAncestorOrSelf,
        NodeImpl.ancestors, hp]

theorem kind_allowed_of_not_disallowed {tm : TreeModel} {n a : NodeImpl} {t : Tree}
    (h : hasDisallowedAncestorOrSelf tm n = false) (ha : a ∈ n.ancestors)
    (ht : tm.node a = some t) : isEntityNotationOrDoctype t.nodeType = false := by
  simp only [hasDisallowedAncestorOrSelf, List.any_eq_false] at h
  have := h a ha
  simpa [ht] using this

theorem selectNode_total {tm : TreeModel} {r : RangeImpl} {p e : NodeImpl} {i : Nat}
    {t tr : Tree} (hd : r.m_detached = false)
    (he : r.m_endContainer = some e) (hev : tm.valid e) (hwf : tm.wellFormed = true)
    (hn : tm.node (.child p i) = some t) (hr : tm.node (rootContainer p) = some tr)
    (hdoc : getDocument tm (.child p i) = some r.m_ownerDocument)
    (hanc : hasDisallowedAncestorOrSelf tm p = false)
    (hpos : ¬ positionRejected tr.nodeType t.nodeType) :
    ∃ r1, r.selectNode tm (some (.child p i)) 0 = some (r1, 0) := by
  have hv : tm.valid (.child p i) := valid_iff.mpr ⟨t, hn⟩
  have hpv := valid_parent hv
  obtain ⟨tp, htp⟩ := valid_iff.mp hpv
  have hlt := valid_child_lt htp hv
  have hb := ancestorOfDisallowedKind_eq hpv
  rw [hanc] at hb
  have hkind := kind_allowed_of_not_disallowed hanc (mem_ancestors_self p) htp
  have hchar := not_characterLike_of_child hwf hv htp
  have hba : checkNodeBA tm (some (.child p i)) 0 = some 0 := by
    rw [checkNodeBA_eq hn (by simpa [rootContainer] using hr)]
    simp [hpos]
  have hpdoc := getDocument_parent hdoc
  have hchk1 := checkNodeWOffset_child htp hlt hkind hchar (i : Int) (by omega) (by omega)
  have hchk2 := checkNodeWOffset_child htp hlt hkind hchar ((i : Int) + 1) (by omega) (by omega)
  obtain ⟨r1, h1⟩ := setStart_total hd hpdoc hchk1 he hev
  obtain ⟨e1, _, hcase⟩ := setStart_success h1
  have hr1 : r1.m_detached = false ∧ r1.m_ownerDocument = r.m_ownerDocument ∧
      r1.m_startContainer = some p := by
    rcases hcase with ⟨_, rfl⟩ | ⟨_, c, _, ⟨_, rfl⟩ | ⟨_, rfl⟩⟩ <;> exact ⟨rfl, rfl, rfl⟩
  obtain ⟨r2, h2⟩ := setEnd_total hr1.1 (by rw [hr1.2.1]; exact hpdoc) hchk2 hr1.2.2 hpv
  refine ⟨r2, ?_⟩
  have hnk : ¬ (t.nodeType = NodeType.DOCUMENT_NODE ∨ t.nodeType = NodeType.DOCUMENT_FRAGMENT_NODE ∨
      t.nodeType = NodeType.ATTRIBUTE_NODE ∨ t.nodeType = NodeType.ENTITY_NODE ∨
      t.nodeType = NodeType.NOTATION_NODE) := fun h => hpos (Or.inr h)
  have hsb : r.setStartBefore tm (some (.child p i)) 0 = some (r1, 0) := by
    simp only [RangeImpl.setStartBefore, hd, hdoc, hba]
    simpa [NodeImpl.parentNode, NodeImpl.nodeIndex] using h1
  have hea : r1.setEndAfter tm (some (.child p i)) 0 = some (r2, 0) := by
    simp only [RangeImpl.setEndAfter, hr1.1, hr1.2.1, hdoc, hba]
    simpa [NodeImpl.parentNode, NodeImpl.nodeIndex] using h2
  simp only [RangeImpl.selectNode, hd, NodeImpl.parentNode, hb, nodeType, hn, Option.map,
    Option.bind, hsb]
  simp [hnk, hea]

/-- C11. Result of `selectNode`.  Whenever `selectNode(n)` reports no error, `n`
has a parent `p` and the range is exactly `(p, index(n))..(p, index(n) + 1)`,
whatever it was before.  And `selectNode(n)` does report no error on a
non-detached range with valid containers when `n` is a valid child node of the
range's document that passes the checks of `selectNode` and `checkNodeBA` (in a
forest where character-like nodes have no children). -/
theorem selectNode_result (tm : TreeModel) (r r1 : RangeImpl) (n : NodeImpl) :
    (r.selectNode tm (some n) 0 = some (r1, 0) →
      ∃ p, n.parentNode = some p ∧
        r1 = ⟨r.m_ownerDocument, some p, (n.nodeIndex : Int), some p,
          (n.nodeIndex : Int) + 1, false⟩) ∧
    (∀ (p e : NodeImpl) (t tr : Tree), n.parentNode = some p →
      r.m_detached = false → r.m_endContainer = some e → tm.valid e → tm.wellFormed = true →
      tm.node n = some t → tm.node (rootContainer n) = some tr →
      getDocument tm n = some r.m_ownerDocument →
      hasDisallowedAncestorOrSelf tm p = false → ¬ positionRejected tr.nodeType t.nodeType →
      ∃ r2, r.selectNode tm (some n) 0 = some (r2, 0)) := by
  refine ⟨selectNode_shape, ?_⟩
  intro p e t tr hp hd he hev hwf hn hr hdoc hanc hpos
  cases n with
  | root k => simp [NodeImpl.parentNode] at hp
  | child q i =>
    simp only [NodeImpl.parentNode, Option.some.injEq] at hp
    subst hp
    exact selectNode_total hd he hev hwf hn (by simpa [rootContainer] using hr) hdoc
      hanc hpos

/-- Witness for C11: selecting the element inside `sampleP` on a fresh range. -/
theorem selectNode_result_witness :
    (∃ p, (NodeImpl.child sampleP 1).parentNode = some p ∧
      (⟨some (.root 0), some sampleP, 1, some sampleP, 2, false⟩ : RangeImpl)
        = ⟨sampleRange.m_ownerDocument, some p, ((NodeImpl.child sampleP 1).nodeIndex : Int),
            some p, ((NodeImpl.child sampleP 1).nodeIndex : Int) + 1, false⟩) ∧
    ∃ r2, sampleRange.selectNode sampleModel (some (.child sampleP 1)) 0 = some (r2, 0) :=
  ⟨(selectNode_result sampleModel sampleRange
      ⟨some (.root 0), some sampleP, 1, some sampleP, 2, false⟩ (.child sampleP 1)).1 (by decide),
   (selectNode_result sampleModel sampleRange sampleRange (.child sampleP 1)).2
      sampleP (.root 0) (.mk .ELEMENT_NODE [] [.mk .TEXT_NODE [100, 101] []])
      sampleDocument rfl rfl rfl (by decide) (by decide) rfl rfl (by decide) (by decide)
      (by decide)⟩

/-- C12. Result of `selectNodeContents` on a non-detached range and a valid node
`n`: when neither `n` nor an ancestor of `n` is an entity, notation or document
type node, the range becomes `(n, 0)..(n, childCount(n))` with no error;
otherwise the call fails with `INVALID_NODE_TYPE_ERR` and leaves the range. -/
theorem selectNodeContents_result (tm : TreeModel) (r : RangeImpl) (n : NodeImpl) (t : Tree)
    (hd : r.m_detached = false) (hn : tm.node n = some t) :
    (hasDisallowedAncestorOrSelf tm n = false →
      r.selectNodeContents tm (some n) 0
        = some (⟨r.m_ownerDocument, some n, 0, some n, (t.children.length : Int), false⟩, 0)) ∧
    (hasDisallowedAncestorOrSelf tm n = true →
      r.selectNodeContents tm (some n) 0 = some (r, INVALID_NODE_TYPE_ERR)) := by
  have hb := ancestorOfDisallowedKind_eq (valid_iff.mpr ⟨t, hn⟩)
  constructor
  · intro h
    rw [h] at hb
    simp [RangeImpl.selectNodeContents, hd, hb, childNodeCount, hn]
  · intro h
    rw [h] at hb
    simp [RangeImpl.selectNodeContents, hd, hb]

/-- Witness for C12 on a fresh range of the sample document: the contents of
`sampleDiv` (two children), and the document type node. -/
theorem selectNodeContents_result_witness :
    sampleRange.selectNodeContents sampleModel (some sampleDiv) 0
      = some (⟨sampleRange.m_ownerDocument, some sampleDiv, 0, some sampleDiv,
          ((Tree.mk .ELEMENT_NODE []
            [.mk .TEXT_NODE [102, 103, 104] [], .mk .COMMENT_NODE [105] []]).children.length : Int),
          false⟩, 0) ∧
    sampleRange.selectNodeContents sampleModel (some (.child (.root 0) 0)) 0
      = some (sampleRange, INVALID_NODE_TYPE_ERR) :=
  ⟨(selectNodeContents_result sampleModel sampleRange sampleDiv _ rfl rfl).1 (by decide),
   (selectNodeContents_result sampleModel sampleRange (.child (.root 0) 0)
      (.mk .DOCUMENT_TYPE_NODE [] []) rfl rfl).2 (by decide)⟩

theorem setStart_error_code {tm : TreeModel} {r r1 : RangeImpl} {p : NodeImpl} {tp : Tree}
    {k : Int} {ec1 : ExceptionCode} (hd : r.m_detached = false)
    (hdoc : getDocument tm p = some r.m_ownerDocument) (hp : tm.node p = some tp)
    (hkind : isEntityNotationOrDoctype tp.nodeType = false)
    (h : r.setStart tm (some p) k 0 = some (r1, ec1)) : ec1 = 0 ∨ ec1 = INDEX_SIZE_ERR := by
  have hchk := checkNodeWOffset_eq hp k 0
  simp only [hkind, Bool.false_eq_true, if_false] at hchk
  by_cases hbad : toUnsigned k > offsetBound tp ∨ k < 0
  · have hc : checkNodeWOffset tm (some p) k 0 = some INDEX_SIZE_ERR := by
      rw [hchk]
      rcases hbad with hb | hb
      · simp [hb]
      · simp [hb]
    rw [setStart_check_failed hd hdoc hc (by decide)] at h
    cases h
    exact Or.inr rfl
  · have hc : checkNodeWOffset tm (some p) k 0 = some 0 := by
      rw [hchk]
      simp only [not_or] at hbad
      simp [hbad.1, hbad.2]
    rcases setStart_inv h with ⟨_, _⟩ | ⟨h0, _⟩
    · cases he : r.m_endContainer with
      | none => simp [RangeImpl.setStart, hd, hdoc, hc, he] at h
      | some e =>
        rw [setStart_checked hd hdoc hc he] at h
        split_ifs at h with h1
        · simp at h
          exact Or.inl h.2.symm
        · cases hcmp : compareBoundaryPoints tm (some p) k (some e) r.m_endOffset with
          | none => simp [hcmp] at h
          | some c =>
            simp only [hcmp, Option.bind] at h
            split_ifs at h <;> simp at h <;> exact Or.inl h.2.symm
    · exact Or.inl h0

theorem setEnd_error_code {tm : TreeModel} {r r1 : RangeImpl} {p : NodeImpl} {tp : Tree}
    {k : Int} {ec1 : ExceptionCode} (hd : r.m_detached = false)
    (hdoc : getDocument tm p = some r.m_ownerDocument) (hp : tm.node p = some tp)
    (hkind : isEntityNotationOrDoctype tp.nodeType = false)
    (h : r.setEnd tm (some p) k 0 = some (r1, ec1)) : ec1 = 0 ∨ ec1 = INDEX_SIZE_ERR := by
  have hchk := checkNodeWOffset_eq hp k 0
  simp only [hkind, Bool.false_eq_true, if_false] at hchk
  by_cases hbad : toUnsigned k > offsetBound tp ∨ k < 0
  · have hc : checkNodeWOffset tm (some p) k 0 = some INDEX_SIZE_ERR := by
      rw [hchk]
      rcases hbad with hb | hb
      · simp [hb]
      · simp [hb]
    rw [setEnd_check_failed hd hdoc hc (by decide)] at h
    cases h
    exact Or.inr rfl
  · have hc : checkNodeWOffset tm (some p) k 0 = some 0 := by
      rw [hchk]
      simp only [not_or] at hbad
      simp [hbad.1, hbad.2]
    cases hs : r.m_startContainer with
    | none => simp [RangeImpl.setEnd, hd, hdoc, hc, hs] at h
    | some s => exact Or.inl (setEnd_no_error hd hdoc hc hs h)

/-- C13. Validation of the positional setters on a non-detached range, for a
valid node `n` of the range's document with root kind `tr.nodeType` and own
kind `t.nodeType`.  When the root container is not an attribute, document or
fragment, or `n` is a document, fragment, attribute, entity or notation node,
all four fail with `INVALID_NODE_TYPE_ERR` and leave the range; otherwise each
is the corresponding `setStart`/`setEnd` at `(parent(n), index(n))` (Before) or
`(parent(n), index(n) + 1)` (After), and does not end in
`INVALID_NODE_TYPE_ERR` (in a forest where entity and notation nodes have no
parent and document type nodes have no children). -/
theorem positional_setter_validation (tm : TreeModel) (r : RangeImpl) (n : NodeImpl)
    (t tr : Tree) (hd : r.m_detached = false) (hk : tm.kindsWellFormed = true)
    (hn : tm.node n = some t) (hr : tm.node (rootContainer n) = some tr)
    (hdoc : getDocument tm n = some r.m_ownerDocument) :
    (positionRejected tr.nodeType t.nodeType →
      r.setStartBefore tm (some n) 0 = some (r, INVALID_NODE_TYPE_ERR) ∧
      r.setStartAfter tm (some n) 0 = some (r, INVALID_NODE_TYPE_ERR) ∧
      r.setEndBefore tm (some n) 0 = some (r, INVALID_NODE_TYPE_ERR) ∧
      r.setEndAfter tm (some n) 0 = some (r, INVALID_NODE_TYPE_ERR)) ∧
    (¬ positionRejected tr.nodeType t.nodeType →
      (r.setStartBefore tm (some n) 0 = r.setStart tm n.parentNode (n.nodeIndex : Int) 0 ∧
        r.setStartAfter tm (some n) 0 = r.setStart tm n.parentNode ((n.nodeIndex : Int) + 1) 0 ∧
        r.setEndBefore tm (some n) 0 = r.setEnd tm n.parentNode (n.nodeIndex : Int) 0 ∧
        r.setEndAfter tm (some n) 0 = r.setEnd tm n.parentNode ((n.nodeIndex : Int) + 1) 0) ∧
      ∀ r1, r.setStartBefore tm (some n) 0 ≠ some (r1, INVALID_NODE_TYPE_ERR) ∧
        r.setStartAfter tm (some n) 0 ≠ some (r1, INVALID_NODE_TYPE_ERR) ∧
        r.setEndBefore tm (some n) 0 ≠ some (r1, INVALID_NODE_TYPE_ERR) ∧
        r.setEndAfter tm (some n) 0 ≠ some (r1, INVALID_NODE_TYPE_ERR)) := by
  have hba := checkNodeBA_eq hn hr 0
  constructor
  · intro hrej
    simp only [hrej, if_true] at hba
    simp [RangeImpl.setStartBefore, RangeImpl.setStartAfter, RangeImpl.setEndBefore,
      RangeImpl.setEndAfter, hd, hdoc, hba, INVALID_NODE_TYPE_ERR]
  · intro hacc
    simp only [hacc, if_false] at hba
    have heqs : r.setStartBefore tm (some n) 0 = r.setStart tm n.parentNode (n.nodeIndex : Int) 0 ∧
        r.setStartAfter tm (some n) 0 = r.setStart tm n.parentNode ((n.nodeIndex : Int) + 1) 0 ∧
        r.setEndBefore tm (some n) 0 = r.setEnd tm n.parentNode (n.nodeIndex : Int) 0 ∧
        r.setEndAfter tm (some n) 0 = r.setEnd tm n.parentNode ((n.nodeIndex : Int) + 1) 0 := by
      simp [RangeImpl.setStartBefore, RangeImpl.setStartAfter, RangeImpl.setEndBefore,
        RangeImpl.setEndAfter, hd, hdoc, hba]
    refine ⟨heqs, fun r1 => ?_⟩
    rw [heqs.1, heqs.2.1, heqs.2.2.1, heqs.2.2.2]
    have hroot : tr.nodeType = .ATTRIBUTE_NODE ∨ tr.nodeType = .DOCUMENT_NODE ∨
        tr.nodeType = .DOCUMENT_FRAGMENT_NODE := by
      by_contra hc
      exact hacc (Or.inl hc)
    cases n with
    | root i =>
      simp only [rootContainer] at hr
      rw [hn] at hr
      cases hr
      exfalso
      apply hacc
      rcases hroot with h | h | h
      · exact Or.inr (Or.inr (Or.inr (Or.inl h)))
      · exact Or.inr (Or.inl h)
      · exact Or.inr (Or.inr (Or.inl h))
    | child p i =>
      have hv : tm.valid (.child p i) := valid_iff.mpr ⟨t, hn⟩
      obtain ⟨tp, htp⟩ := valid_iff.mp (valid_parent hv)
      have hkind := parent_kind_allowed hk hv htp (by simpa [rootContainer] using hr) hroot
      have hpdoc := getDocument_parent hdoc
      have hne : INVALID_NODE_TYPE_ERR ≠ 0 ∧ INVALID_NODE_TYPE_ERR ≠ INDEX_SIZE_ERR := by decide
      simp only [NodeImpl.parentNode]
      refine ⟨fun h => ?_, fun h => ?_, fun h => ?_, fun h => ?_⟩
      · rcases setStart_error_code hd hpdoc htp hkind h with e | e
        · exact hne.1 e
        · exact hne.2 e
      · rcases setStart_error_code hd hpdoc htp hkind h with e | e
        · exact hne.1 e
        · exact hne.2 e
      · rcases setEnd_error_code hd hpdoc htp hkind h with e | e
        · exact hne.1 e
        · exact hne.2 e
      · rcases setEnd_error_code hd hpdoc htp hkind h with e | e
        · exact hne.1 e
        · exact hne.2 e

/-- Witness for C13 on a fresh range of the sample document: the document node
itself is rejected, the element inside `sampleP` is not. -/
theorem positional_setter_validation_witness :
    sampleRange.setStartBefore sampleModel (some (.root 0)) 0
      = some (sampleRange, INVALID_NODE_TYPE_ERR) ∧
    sampleRange.setEndAfter sampleModel (some (.child sampleP 1)) 0
      = sampleRange.setEnd sampleModel (NodeImpl.child sampleP 1).parentNode
          (((NodeImpl.child sampleP 1).nodeIndex : Int) + 1) 0 :=
  ⟨((positional_setter_validation sampleModel sampleRange (.root 0) sampleDocument sampleDocument
      rfl (by decide) rfl rfl (by decide)).1 (by decide)).1,
   ((positional_setter_validation sampleModel sampleRange (.child sampleP 1)
      (.mk .ELEMENT_NODE [] [.mk .TEXT_NODE [100, 101] []]) sampleDocument
      rfl (by decide) rfl rfl (by decide)).2 (by decide)).1.2.2.2⟩

/-- C14. Clone round trip.  For a non-detached range `r` whose containers `s`,
`e` belong to the range's document and to one tree, with offsets accepted by
`checkNodeWOffset` and `start ≤ end`: cloning `r`, collapsing the clone to its
start, then `setStart(r.start)` and `setEnd(r.end)` raises no error and gives a
range equal to `r` under `operator==`, with the same four boundary fields (`r`
itself is a value here and is not changed by operations on the clone). -/
theorem clone_round_trip (tm : TreeModel) (r : RangeImpl) (s e : NodeImpl)
    (hd : r.m_detached = false)
    (hs : r.m_startContainer = some s) (he : r.m_endContainer = some e)
    (hsdoc : getDocument tm s = some r.m_ownerDocument)
    (hedoc : getDocument tm e = some r.m_ownerDocument)
    (hschk : checkNodeWOffset tm (some s) r.m_startOffset 0 = some 0)
    (hechk : checkNodeWOffset tm (some e) r.m_endOffset 0 = some 0)
    (hroot : rootContainer s = rootContainer e)
    (hord : r.boundaryPointsValid tm = some true) :
    ∃ c0 c2 c3, r.cloneRange 0 = (some c0, 0) ∧
      (c0.collapse true 0).2 = 0 ∧
      (c0.collapse true 0).1.setStart tm (r.startContainer 0).1 (r.startOffset 0).1 0
        = some (c2, 0) ∧
      c2.setEnd tm (r.endContainer 0).1 (r.endOffset 0).1 0 = some (c3, 0) ∧
      operator_eq c3 r = true ∧
      c3.m_startContainer = r.m_startContainer ∧ c3.m_startOffset = r.m_startOffset ∧
      c3.m_endContainer = r.m_endContainer ∧ c3.m_endOffset = r.m_endOffset := by
  have hcmp : ∃ c, compareBoundaryPoints tm (some s) r.m_startOffset (some e) r.m_endOffset
      = some c ∧ c ≤ 0 := by
    simp only [RangeImpl.boundaryPointsValid, hs, he, Option.map_eq_some'] at hord
    obtain ⟨c, hc, hle⟩ := hord
    exact ⟨c, hc, by simpa using hle⟩
  obtain ⟨c, hc, hle⟩ := hcmp
  refine ⟨⟨r.m_ownerDocument, some s, r.m_startOffset, some e, r.m_endOffset, false⟩,
    ⟨r.m_ownerDocument, some s, r.m_startOffset, some s, r.m_startOffset, false⟩,
    ⟨r.m_ownerDocument, some s, r.m_startOffset, some e, r.m_endOffset, false⟩, ?_, ?_, ?_, ?_,
    ?_, ?_⟩
  · simp [RangeImpl.cloneRange, hd, hs, he]
  · simp [RangeImpl.collapse]
  · simp only [RangeImpl.collapse, RangeImpl.startContainer, RangeImpl.startOffset, hd, hs]
    simp only [Bool.false_eq_true, if_false, if_true]
    rw [@setStart_checked tm
      ⟨r.m_ownerDocument, some s, r.m_startOffset, some s, r.m_startOffset, false⟩
      s s r.m_startOffset 0 rfl hsdoc hschk rfl]
    simp [compare_same]
  · simp only [RangeImpl.endContainer, RangeImpl.endOffset, hd, he, Bool.false_eq_true, if_false]
    rw [@setEnd_checked tm
      ⟨r.m_ownerDocument, some s, r.m_startOffset, some s, r.m_startOffset, false⟩
      e s r.m_endOffset 0 rfl hedoc hechk rfl]
    have : ¬ c > 0 := by omega
    simp [hroot, hc, this]
  · simp [operator_eq, RangeImpl.isDetached, RangeImpl.startContainer, RangeImpl.endContainer,
      RangeImpl.startOffset, RangeImpl.endOffset, hd, hs, he]
  · simp [hs, he]

/-- Witness for C14: the range `(deep text, 1)..(sampleDiv, 1)` of the sample document. -/
theorem clone_round_trip_witness :
    ∃ c0 c2 c3,
      (⟨some (.root 0), some sampleDeepText, 1, some sampleDiv, 1, false⟩ : RangeImpl).cloneRange 0
        = (some c0, 0) ∧
      (c0.collapse true 0).2 = 0 ∧
      (c0.collapse true 0).1.setStart sampleModel
        ((⟨some (.root 0), some sampleDeepText, 1, some sampleDiv, 1, false⟩ :
          RangeImpl).startContainer 0).1
        ((⟨some (.root 0), some sampleDeepText, 1, some sampleDiv, 1, false⟩ :
          RangeImpl).startOffset 0).1 0 = some (c2, 0) ∧
      c2.setEnd sampleModel
        ((⟨some (.root 0), some sampleDeepText, 1, some sampleDiv, 1, false⟩ :
          RangeImpl).endContainer 0).1
        ((⟨some (.root 0), some sampleDeepText, 1, some sampleDiv, 1, false⟩ :
          RangeImpl).endOffset 0).1 0 = some (c3, 0) ∧
      operator_eq c3 ⟨some (.root 0), some sampleDeepText, 1, some sampleDiv, 1, false⟩ = true ∧
      c3.m_startContainer = some sampleDeepText ∧ c3.m_startOffset = 1 ∧
      c3.m_endContainer = some sampleDiv ∧ c3.m_endOffset = 1 :=
  clone_round_trip sampleModel ⟨some (.root 0), some sampleDeepText, 1, some sampleDiv, 1, false⟩
    sampleDeepText sampleDiv rfl rfl rfl (by decide) (by decide) (by decide) (by decide)
    (by decide) (by decide)

/-! ## Storing a node in the forest -/

theorem Tree.withChildren_children (t : Tree) (cs : List Tree) :
    (t.withChildren cs).children = cs := rfl

theorem Tree.withChildren_nodeType (t : Tree) (cs : List Tree) :
    (t.withChildren cs).nodeType = t.nodeType := rfl

theorem Tree.withChildren_data (t : Tree) (cs : List Tree) :
    (t.withChildren cs).data = t.data := rfl

theorem Tree.withChildren_withChildren (t : Tree) (cs ds : List Tree) :
    (t.withChildren cs).withChildren ds = t.withChildren ds := rfl

theorem Tree.withChildren_self (t : Tree) : t.withChildren t.children = t := by
  cases t; rfl

theorem Tree.withData_data (t : Tree) (d : List Nat) : (t.withData d).data = d := rfl

theorem Tree.withData_nodeType (t : Tree) (d : List Nat) :
    (t.withData d).nodeType = t.nodeType := rfl

theorem Tree.withData_children (t : Tree) (d : List Nat) :
    (t.withData d).children = t.children := rfl

theorem replace_total {tm : TreeModel} {p : NodeImpl} {t : Tree} (h : tm.node p = some t)
    (new : Tree) : ∃ tm1, tm.replace p new = some tm1 := by
  induction p generalizing t new with
  | root k =>
    simp only [TreeModel.node, Option.map_eq_some'] at h
    obtain ⟨x, hx, _⟩ := h
    exact ⟨{ tm with roots := tm.roots.set k (x.1, new) }, by simp [TreeModel.replace, hx]⟩
  | child p i ih =>
    obtain ⟨tp, hp, hi⟩ := node_child_some h
    have hlt : i < tp.children.length := by
      by_contra hc
      rw [List.getElem?_eq_none (by omega)] at hi
      exact absurd hi (by simp)
    obtain ⟨tm1, h1⟩ := ih hp (tp.withChildren (tp.children.set i new))
    exact ⟨tm1, by simp [TreeModel.replace, hp, hlt, h1]⟩

theorem replace_node_self {tm tm1 : TreeModel} {p : NodeImpl} {new : Tree}
    (h : tm.replace p new = some tm1) : tm1.node p = some new := by
  induction p generalizing new with
  | root k =>
    simp only [TreeModel.replace] at h
    split at h
    · rename_i x hx
      simp only [Option.some.injEq] at h
      subst h
      have hlt : k < tm.roots.length := by
        by_contra hc
        rw [List.getElem?_eq_none (by omega)] at hx
        exact absurd hx (by simp)
      simp [TreeModel.node, hlt]
    · exact absurd h (by simp)
  | child p i ih =>
    simp only [TreeModel.replace] at h
    split at h
    · rename_i tp hp
      split at h
      · rename_i hlt
        have := ih h
        simp [TreeModel.node, this, Tree.withChildren_children, hlt]
      · exact absurd h (by simp)
    · exact absurd h (by simp)

theorem replace_documentElement {tm tm1 : TreeModel} {p : NodeImpl} {new : Tree}
    (h : tm.replace p new = some tm1) : tm1.documentElement = tm.documentElement := by
  induction p generalizing new with
  | root k =>
    simp only [TreeModel.replace] at h
    split at h
    · simp only [Option.some.injEq] at h
      subst h
      rfl
    · exact absurd h (by simp)
  | child p i ih =>
    simp only [TreeModel.replace] at h
    split at h
    · split at h
      · exact ih h
      · exact absurd h (by simp)
    · exact absurd h (by simp)

theorem replace_replace {tm tm1 : TreeModel} {p : NodeImpl} {a : Tree}
    (h : tm.replace p a = some tm1) (b : Tree) : tm1.replace p b = tm.replace p b := by
  induction p generalizing a b with
  | root k =>
    simp only [TreeModel.replace] at h
    split at h
    · rename_i x hx
      simp only [Option.some.injEq] at h
      subst h
      have hlt : k < tm.roots.length := by
        by_contra hc
        rw [List.getElem?_eq_none (by omega)] at hx
        exact absurd hx (by simp)
      simp [TreeModel.replace, hx, hlt]
    · exact absurd h (by simp)
  | child p i ih =>
    have h0 := h
    simp only [TreeModel.replace] at h
    split at h
    · rename_i tp hp
      split at h
      · rename_i hlt
        have h1 := replace_node_self h
        simp only [TreeModel.replace, h1, hp, Tree.withChildren_children, List.length_set, hlt,
          if_true, Tree.withChildren_withChildren, List.set_set]
        exact ih h _
      · exact absurd h (by simp)
    · exact absurd h (by simp)

/-- Storing at a child is storing at the parent with the child list changed. -/
theorem replace_child {tm : TreeModel} {p : NodeImpl} {i : Nat} {tp : Tree}
    (hp : tm.node p = some tp) (hi : i < tp.children.length) (new : Tree) :
    tm.replace (.child p i) new = tm.replace p (tp.withChildren (tp.children.set i new)) := by
  simp [TreeModel.replace, hp, hi]

/-- Nodes below a child that the stored node shares with the old one are unchanged. -/
theorem replace_node_below {tm tm1 : TreeModel} {p : NodeImpl} {tp new : Tree}
    (hp : tm.node p = some tp) (h : tm.replace p new = some tm1) {c : Nat}
    (hc : new.children[c]? = tp.children[c]?) {q : NodeImpl}
    (hq : .child p c ∈ q.ancestors) : tm1.node q = tm.node q := by
  induction q with
  | root k => simp [NodeImpl.ancestors] at hq
  | child a i ih =>
    rcases mem_ancestors_child.mp hq with heq | hmem
    · injection heq with h1 h2
      subst h1; subst h2
      simp [TreeModel.node, replace_node_self h, hp, hc]
    · simp [TreeModel.node, ih hmem]

/-- The node above the stored one keeps its kind, data and number of children. -/
theorem replace_node_parent {tm tm1 : TreeModel} {p : NodeImpl} {i : Nat} {tp t new : Tree}
    (hp : tm.node p = some tp) (ht : tm.node (.child p i) = some t)
    (h : tm.replace (.child p i) new = some tm1) :
    tm1.node p = some (tp.withChildren (tp.children.set i new)) := by
  have hlt : i < tp.children.length := valid_child_lt hp (valid_iff.mpr ⟨t, ht⟩)
  rw [replace_child hp hlt] at h
  exact replace_node_self h

/-! ## `processContents`: the collapsed range and the simple case -/

theorem commonAncestorLoop_self (c : NodeImpl) : commonAncestorLoop (some c) c = some c := by
  cases c <;> simp [commonAncestorLoop, walkToNode_eq, mem_ancestors_self]

theorem processContents_collapsed (action : ActionType) (tm : TreeModel) {r : RangeImpl}
    (hd : r.m_detached = false) (hc : r.m_startContainer = r.m_endContainer)
    (ho : r.m_startOffset = r.m_endOffset) :
    processContents action tm r 0 = some (tm, r, 0, none) := by
  simp [processContents, RangeImpl.collapsed, hd, hc, ho]

theorem processContents_same (action : ActionType) (tm : TreeModel) {r : RangeImpl}
    {c : NodeImpl} (hd : r.m_detached = false) (hs : r.m_startContainer = some c)
    (he : r.m_endContainer = some c) (ho : r.m_startOffset ≠ r.m_endOffset) :
    processContents action tm r 0 =
      (processSimple action tm ⟨r, some c, none, none⟩ (newFragment action) 0).map fun x =>
        if action.removes then
          ((x.1, (x.2.1.range.collapse true x.2.2.2).1,
            (x.2.1.range.collapse true x.2.2.2).2, x.2.2.1) : ContentsResult)
        else (x.1, x.2.1.range, x.2.2.2, x.2.2.1) := by
  simp [processContents, RangeImpl.collapsed, hd, hs, he, ho,
    RangeImpl.commonAncestorContainer, WebCore.commonAncestorContainer,
    commonAncestorLoop_self, partialContainer]

/-- C15. Degenerate content operation.  For a non-detached collapsed range
(start equal to end), `cloneContents` returns the null fragment, reports no
error and changes neither the forest nor the range; so do `extractContents`
and `deleteContents` when the pre-checks of `checkDeleteExtract` pass. -/
theorem collapsed_range_is_untouched (isReadOnly : NodeImpl → Bool) (tm : TreeModel)
    (r : RangeImpl) (hd : r.m_detached = false) (hc : r.m_startContainer = r.m_endContainer)
    (ho : r.m_startOffset = r.m_endOffset) :
    r.cloneContents cloneContentsRest tm 0 = some (tm, r, 0, none) ∧
    (checkDeleteExtract isReadOnly tm r 0 = some 0 →
      r.extractContents (extractContentsRest isReadOnly) tm 0 = some (tm, r, 0, none) ∧
      r.deleteContents (deleteContentsRest isReadOnly) tm 0 = some (tm, r, 0)) := by
  refine ⟨?_, fun hpre => ⟨?_, ?_⟩⟩
  · simp [RangeImpl.cloneContents, hd, cloneContentsRest, processContents_collapsed _ _ hd hc ho]
  · simp [RangeImpl.extractContents, hd, extractContentsRest, hpre,
      processContents_collapsed _ _ hd hc ho]
  · simp [RangeImpl.deleteContents, hd, deleteContentsRest, hpre,
      processContents_collapsed _ _ hd hc ho]

theorem collapsed_range_is_untouched_witness :
    sampleRange.cloneContents cloneContentsRest sampleModel 0
        = some (sampleModel, sampleRange, 0, none) ∧
    (checkDeleteExtract noneReadOnly sampleModel sampleRange 0 = some 0 →
      sampleRange.extractContents (extractContentsRest noneReadOnly) sampleModel 0
          = some (sampleModel, sampleRange, 0, none) ∧
      sampleRange.deleteContents (deleteContentsRest noneReadOnly) sampleModel 0
          = some (sampleModel, sampleRange, 0)) ∧
    checkDeleteExtract noneReadOnly sampleModel sampleRange 0 = some 0 :=
  ⟨(collapsed_range_is_untouched noneReadOnly sampleModel sampleRange rfl rfl rfl).1,
   (collapsed_range_is_untouched noneReadOnly sampleModel sampleRange rfl rfl rfl).2,
   by decide⟩

/-! ## The simple case: a character container -/

theorem toUnsigned_natCast_sub {n : Nat} {k : Int} (h0 : 0 ≤ k) (hk : k ≤ n)
    (hn : (n : Int) < 2 ^ 31) : toUnsigned ((n : Int) - k) = n - k.toNat := by
  rw [toUnsigned_of_nonneg (by omega) (by omega)]
  omega

theorem deleteData_clone_range (t : Tree) {s e : Int} (hs : 0 ≤ s) (hse : s ≤ e)
    (he : e ≤ t.data.length) (hlen : (t.data.length : Int) < 2 ^ 31) (ec : ExceptionCode) :
    ((t.deleteData (toUnsigned e) (toUnsigned ((t.data.length : Int) - e)) ec).1.deleteData 0
        (toUnsigned s) (t.deleteData (toUnsigned e) (toUnsigned ((t.data.length : Int) - e)) ec).2)
      = (t.withData ((t.data.take e.toNat).drop s.toNat), ec) := by
  rw [toUnsigned_natCast_sub (by omega) he hlen, toUnsigned_of_nonneg (by omega) (by omega),
    toUnsigned_of_nonneg hs (by omega)]
  cases t with
  | mk k d cs =>
    simp only [Tree.data] at he hlen ⊢
    have h1 : ¬ e.toNat > d.length := by omega
    have h2 : e.toNat + (d.length - e.toNat) = d.length := by omega
    simp [Tree.deleteData, h1, h2, Tree.withData, Tree.nodeType, Tree.data, Tree.children]

theorem deleteData_live_range (t : Tree) {s e : Int} (hs : 0 ≤ s) (hse : s ≤ e)
    (he : e ≤ t.data.length) (hlen : (t.data.length : Int) < 2 ^ 31) (ec : ExceptionCode) :
    t.deleteData (toUnsigned s) (toUnsigned (e - s)) ec
      = (t.withData (t.data.take s.toNat ++ t.data.drop e.toNat), ec) := by
  rw [toUnsigned_of_nonneg hs (by omega), toUnsigned_of_nonneg (by omega) (by omega)]
  cases t with
  | mk k d cs =>
    simp only [Tree.data] at he hlen ⊢
    have h1 : ¬ s.toNat > d.length := by omega
    have h2 : s.toNat + (e - s).toNat = e.toNat := by omega
    simp [Tree.deleteData, h1, h2, Tree.withData, Tree.nodeType, Tree.data, Tree.children]

theorem processSimple_character (action : ActionType) {tm : TreeModel} {fr : Frame}
    {c : NodeImpl} {t : Tree} (hc : fr.range.m_startContainer = some c)
    (ht : tm.node c = some t) (hk : isTextCDataOrComment t.nodeType = true)
    (hs : 0 ≤ fr.range.m_startOffset) (hse : fr.range.m_startOffset ≤ fr.range.m_endOffset)
    (he : fr.range.m_endOffset ≤ t.data.length) (hlen : (t.data.length : Int) < 2 ^ 31) :
    ∃ tm1, tm.replace c (t.withData (t.data.take fr.range.m_startOffset.toNat ++
        t.data.drop fr.range.m_endOffset.toNat)) = some tm1 ∧
      processSimple action tm fr (newFragment action) 0 =
        some (if action.removes then tm1 else tm, fr,
          if action.copies then some (.mk NodeType.DOCUMENT_FRAGMENT_NODE [] [t.withData
            ((t.data.take fr.range.m_endOffset.toNat).drop fr.range.m_startOffset.toNat)])
          else none, 0) := by
  obtain ⟨tm1, h1⟩ := replace_total ht (t.withData (t.data.take fr.range.m_startOffset.toNat ++
    t.data.drop fr.range.m_endOffset.toNat))
  refine ⟨tm1, h1, ?_⟩
  cases action <;>
    simp [processSimple, hc, nodeType, ht, hk, ActionType.copies, ActionType.removes, cloneNode,
      deleteData_clone_range t hs hse he hlen, deleteData_live_range t hs hse he hlen,
      newFragment, appendChild, deleteData, h1, Tree.withChildren_children]
  all_goals rfl

/-- C18. Same character container.  A non-detached range lies in one text, CDATA
or comment node `c` with data `d`, at offsets `0 ≤ s < e ≤ |d|` (lengths are
below `2 ^ 31`).  Then `cloneContents` returns, without error and without
changing the forest or the range, a fragment with exactly one child: a node of
the kind of `c` with data `d[s..e)`.  When the pre-checks of `checkDeleteExtract`
pass, `deleteContents` and `extractContents` leave `d[0..s) ++ d[e..|d|)` as the
data of `c`, the rest of the node as it was, and the range collapsed at
`(c, s)`, and report no error; `extractContents` returns the same fragment as
`cloneContents`. -/
theorem same_character_container (isReadOnly : NodeImpl → Bool) (tm : TreeModel) (doc : Ptr)
    (c : NodeImpl) (t : Tree) (s e : Int) (ht : tm.node c = some t)
    (hk : isTextCDataOrComment t.nodeType = true) (hs : 0 ≤ s) (hse : s < e)
    (he : e ≤ t.data.length) (hlen : (t.data.length : Int) < 2 ^ 31) :
    (∃ child, child.nodeType = t.nodeType ∧ child.data = (t.data.take e.toNat).drop s.toNat ∧
      RangeImpl.cloneContents cloneContentsRest tm ⟨doc, some c, s, some c, e, false⟩ 0
        = some (tm, ⟨doc, some c, s, some c, e, false⟩, 0,
            some (.mk NodeType.DOCUMENT_FRAGMENT_NODE [] [child])) ∧
      (checkDeleteExtract isReadOnly tm ⟨doc, some c, s, some c, e, false⟩ 0 = some 0 →
        ∃ tm1, tm1.node c = some (t.withData (t.data.take s.toNat ++ t.data.drop e.toNat)) ∧
          RangeImpl.deleteContents (deleteContentsRest isReadOnly) tm
              ⟨doc, some c, s, some c, e, false⟩ 0
            = some (tm1, ⟨doc, some c, s, some c, s, false⟩, 0) ∧
          RangeImpl.extractContents (extractContentsRest isReadOnly) tm
              ⟨doc, some c, s, some c, e, false⟩ 0
            = some (tm1, ⟨doc, some c, s, some c, s, false⟩, 0,
                some (.mk NodeType.DOCUMENT_FRAGMENT_NODE [] [child])))) := by
  have hne : s ≠ e := by omega
  refine ⟨t.withData ((t.data.take e.toNat).drop s.toNat), rfl, rfl, ?_, fun hpre => ?_⟩
  · obtain ⟨tm1, _, h2⟩ := @processSimple_character .CLONE_CONTENTS tm
      ⟨⟨doc, some c, s, some c, e, false⟩, some c, none, none⟩ c t rfl ht hk hs (le_of_lt hse)
      he hlen
    simp [RangeImpl.cloneContents, cloneContentsRest,
      @processContents_same .CLONE_CONTENTS tm ⟨doc, some c, s, some c, e, false⟩ c rfl rfl rfl
        hne, h2, ActionType.removes, ActionType.copies]
  · obtain ⟨tm1, h1, h2⟩ := @processSimple_character .DELETE_CONTENTS tm
      ⟨⟨doc, some c, s, some c, e, false⟩, some c, none, none⟩ c t rfl ht hk hs (le_of_lt hse)
      he hlen
    obtain ⟨tm2, h3, h4⟩ := @processSimple_character .EXTRACT_CONTENTS tm
      ⟨⟨doc, some c, s, some c, e, false⟩, some c, none, none⟩ c t rfl ht hk hs (le_of_lt hse)
      he hlen
    have h12 : tm2 = tm1 := by
      rw [h1] at h3
      exact (Option.some.inj h3).symm
    subst h12
    refine ⟨tm2, replace_node_self h1, ?_, ?_⟩
    · simp [RangeImpl.deleteContents, deleteContentsRest, hpre,
        @processContents_same .DELETE_CONTENTS tm ⟨doc, some c, s, some c, e, false⟩ c rfl rfl
          rfl hne, h2, ActionType.removes, ActionType.copies, RangeImpl.collapse]
    · simp [RangeImpl.extractContents, extractContentsRest, hpre,
        @processContents_same .EXTRACT_CONTENTS tm ⟨doc, some c, s, some c, e, false⟩ c rfl rfl
          rfl hne, h4, ActionType.removes, ActionType.copies, RangeImpl.collapse]

theorem same_character_container_witness :
    ∃ child, child.nodeType = NodeType.TEXT_NODE ∧ child.data = [99, 100, 101] ∧
      RangeImpl.cloneContents cloneContentsRest sampleTextModel
          ⟨some (.root 0), some sampleText, 2, some sampleText, 5, false⟩ 0
        = some (sampleTextModel, ⟨some (.root 0), some sampleText, 2, some sampleText, 5, false⟩,
            0, some (.mk NodeType.DOCUMENT_FRAGMENT_NODE [] [child])) ∧
      ∃ tm1, tm1.node sampleText = some (.mk NodeType.TEXT_NODE [97, 98, 102] []) ∧
        RangeImpl.deleteContents (deleteContentsRest sampleReadOnly) sampleTextModel
            ⟨some (.root 0), some sampleText, 2, some sampleText, 5, false⟩ 0
          = some (tm1, ⟨some (.root 0), some sampleText, 2, some sampleText, 2, false⟩, 0) ∧
        RangeImpl.extractContents (extractContentsRest sampleReadOnly) sampleTextModel
            ⟨some (.root 0), some sampleText, 2, some sampleText, 5, false⟩ 0
          = some (tm1, ⟨some (.root 0), some sampleText, 2, some sampleText, 2, false⟩, 0,
              some (.mk NodeType.DOCUMENT_FRAGMENT_NODE [] [child])) := by
  obtain ⟨child, h1, h2, h3, h4⟩ := same_character_container sampleReadOnly sampleTextModel
    (some (.root 0)) sampleText (.mk NodeType.TEXT_NODE [97, 98, 99, 100, 101, 102] []) 2 5 rfl
    (by decide) (by decide) (by decide) (by decide) (by decide)
  exact ⟨child, h1, h2, h3, h4 (by decide)⟩

/-- The claim C18 as written, without the pre-checks, fails: on the read-only
text node `"abcdef"` below the entity reference, with offsets 2 and 5,
`deleteContents` and `extractContents` report `NO_MODIFICATION_ALLOWED_ERR` and
leave the data `"abcdef"` and the range `(text, 2)..(text, 5)`. -/
theorem same_character_container_read_only :
    RangeImpl.deleteContents (deleteContentsRest sampleReadOnly) sampleTextModel
        ⟨some (.root 0), some sampleEntityText, 2, some sampleEntityText, 5, false⟩ 0
      = some (sampleTextModel,
          ⟨some (.root 0), some sampleEntityText, 2, some sampleEntityText, 5, false⟩,
          NO_MODIFICATION_ALLOWED_ERR) ∧
    RangeImpl.extractContents (extractContentsRest sampleReadOnly) sampleTextModel
        ⟨some (.root 0), some sampleEntityText, 2, some sampleEntityText, 5, false⟩ 0
      = some (sampleTextModel,
          ⟨some (.root 0), some sampleEntityText, 2, some sampleEntityText, 5, false⟩,
          NO_MODIFICATION_ALLOWED_ERR, none) ∧
    sampleTextModel.node sampleEntityText
      = some (.mk NodeType.TEXT_NODE [97, 98, 99, 100, 101, 102] []) ∧
    isTextCDataOrComment NodeType.TEXT_NODE = true ∧
    ((0 : Int) ≤ 2 ∧ (2 : Int) < 5 ∧ (5 : Int) ≤ ([97, 98, 99, 100, 101, 102] : List Nat).length) :=
  ⟨rfl, rfl, rfl, rfl, by decide⟩

/-! ## Relocations -/

theorem set_getElem_same {α : Type} (l : List α) (i : Nat) (h : i < l.length) :
    l.set i l[i] = l := by
  induction l generalizing i with
  | nil => rfl
  | cons x xs ih =>
    cases i with
    | zero => rfl
    | succ i => simp [List.set, ih i (by simpa using h)]

theorem replace_same {tm : TreeModel} {p : NodeImpl} {t : Tree} (h : tm.node p = some t) :
    tm.replace p t = some tm := by
  induction p generalizing t with
  | root k =>
    simp only [TreeModel.node, Option.map_eq_some'] at h
    obtain ⟨x, hx, hxt⟩ := h
    have hlt : k < tm.roots.length := by
      by_contra hc
      rw [List.getElem?_eq_none (by omega)] at hx
      exact absurd hx (by simp)
    have hx1 : tm.roots[k] = x := by
      rw [List.getElem?_eq_getElem hlt] at hx
      exact Option.some.inj hx
    have : tm.roots.set k (x.1, t) = tm.roots := by
      rw [← hxt, ← hx1]
      exact set_getElem_same _ _ hlt
    simp [TreeModel.replace, hx, this]
  | child p i ih =>
    obtain ⟨tp, hp, hi⟩ := node_child_some h
    have hlt : i < tp.children.length := by
      by_contra hc
      rw [List.getElem?_eq_none (by omega)] at hi
      exact absurd hi (by simp)
    have hx1 : tp.children[i] = t := by
      rw [List.getElem?_eq_getElem hlt] at hi
      exact Option.some.inj hi
    have : tp.children.set i t = tp.children := by
      rw [← hx1]
      exact set_getElem_same _ _ hlt
    rw [replace_child hp hlt, this, Tree.withChildren_self]
    exact ih hp

theorem relocate_of_depth_le (p : NodeImpl) (j : Nat) {q : NodeImpl} (h : q.depth ≤ p.depth) :
    relocate p j q = q := by
  induction q with
  | root k => rfl
  | child a i ih =>
    simp only [NodeImpl.depth] at h
    have hne : a ≠ p := by
      intro hap
      subst hap
      omega
    simp [relocate, hne, ih (by omega)]

theorem relocate_self (p : NodeImpl) (j : Nat) : relocate p j p = p :=
  relocate_of_depth_le p j (le_refl _)

/-- A place that is not at or below a child of `p` after index `j` stays. -/
theorem relocate_of_not_after (p : NodeImpl) (j : Nat) {q : NodeImpl}
    (h : ∀ i, .child p i ∈ q.ancestors → i ≤ j) : relocate p j q = q := by
  induction q with
  | root k => rfl
  | child a i ih =>
    by_cases hap : a = p
    · subst hap
      have := h i (mem_ancestors_self _)
      have hn : ¬ j < i := by omega
      simp [relocate, hn]
    · have := ih fun i hi => h i (mem_ancestors_child.mpr (Or.inr hi))
      simp [relocate, hap, this]

theorem relocate_child_after (p : NodeImpl) {j i : Nat} (h : j < i) :
    relocate p j (.child p i) = .child p (i - 1) := by
  simp [relocate, h]

theorem relocate_parentNode (p : NodeImpl) (j : Nat) (q : NodeImpl) :
    (relocate p j q).parentNode = q.parentNode.map (relocate p j) := by
  cases q with
  | root k => rfl
  | child a i =>
    by_cases hap : a = p
    · subst hap
      simp [relocate, NodeImpl.parentNode, relocate_self]
    · simp [relocate, NodeImpl.parentNode, hap]

theorem iterate_relocate_of_not_after (p : NodeImpl) (j m : Nat) {q : NodeImpl}
    (h : ∀ i, .child p i ∈ q.ancestors → i ≤ j) : (relocate p j)^[m] q = q := by
  induction m with
  | zero => rfl
  | succ m ih => rw [Function.iterate_succ_apply', ih, relocate_of_not_after p j h]

theorem iterate_relocate_self (p : NodeImpl) (j m : Nat) : (relocate p j)^[m] p = p :=
  iterate_relocate_of_not_after p j m fun i hi => absurd hi (child_not_mem_ancestors p i)

theorem iterate_relocate_child (p : NodeImpl) (j m b : Nat) (h : j + m ≤ b) :
    (relocate p j)^[m] (.child p b) = .child p (b - m) := by
  induction m generalizing b with
  | zero => rfl
  | succ m ih =>
    rw [Function.iterate_succ_apply, relocate_child_after p (by omega), ih _ (by omega)]
    congr 1
    omega

theorem rangeRelocate_id (r : RangeImpl) : r.relocate id = r := by
  cases r
  simp [RangeImpl.relocate]

theorem frameRelocate_id (fr : Frame) : fr.relocate id = fr := by
  cases fr
  simp [Frame.relocate, rangeRelocate_id]

theorem frameRelocate_relocate (f g : NodeImpl → NodeImpl) (fr : Frame) :
    (fr.relocate f).relocate g = fr.relocate (g ∘ f) := by
  cases fr
  simp [Frame.relocate, RangeImpl.relocate, Option.map_map]

theorem frameRelocate_iterate_zero (f : NodeImpl → NodeImpl) (fr : Frame) :
    fr.relocate (f^[0]) = fr := frameRelocate_id fr

/-! ## The sibling loops -/

theorem childAt_of_lt {p : NodeImpl} {len k : Nat} (h : k < len) :
    childAt p len k = some (.child p k) := by simp [childAt, h]

theorem childAt_of_le {p : NodeImpl} {len k : Nat} (h : len ≤ k) :
    childAt p len k = none := by
  have : ¬ k < len := by omega
  simp [childAt, this]

theorem firstChild_eq_childAt {tm : TreeModel} {p : NodeImpl} {tp : Tree}
    (hp : tm.node p = some tp) : firstChild tm p = some (childAt p tp.children.length 0) := by
  simp [firstChild, hp, childAt]

theorem node_child_of_lt {tm : TreeModel} {p : NodeImpl} {tp : Tree} {k : Nat}
    (hp : tm.node p = some tp) (hk : k < tp.children.length) :
    tm.node (.child p k) = some tp.children[k] := by
  simp [TreeModel.node, hp, List.getElem?_eq_getElem hk]

theorem nextSibling_eq_childAt {tm : TreeModel} {p : NodeImpl} {tp : Tree} {k : Nat}
    (hp : tm.node p = some tp) (hk : k < tp.children.length) :
    nextSibling tm (.child p k) = some (childAt p tp.children.length (k + 1)) := by
  simp [nextSibling, node_child_of_lt hp hk, hp, childAt]

theorem previousSibling_child {tm : TreeModel} {p : NodeImpl} {tp : Tree} {k : Nat}
    (hp : tm.node p = some tp) (hk : k < tp.children.length) :
    previousSibling tm (.child p k) = some (if k = 0 then none else some (.child p (k - 1))) := by
  by_cases h0 : k = 0
  · subst h0
    simp [previousSibling, node_child_of_lt hp hk]
  · simp [previousSibling, node_child_of_lt hp hk, h0]

theorem siblingBound_childAt {tm : TreeModel} {p : NodeImpl} {tp : Tree} (k : Nat)
    (hp : tm.node p = some tp) :
    siblingBound tm (childAt p tp.children.length k) =
      if k < tp.children.length then tp.children.length else 0 := by
  by_cases hk : k < tp.children.length <;> simp [childAt, hk, siblingBound, hp]

/-- The skipping loop stops at child `max k (min offset len)`. -/
theorem skipSiblings_spec {tm : TreeModel} {p : NodeImpl} {tp : Tree}
    (hp : tm.node p = some tp) (offset : Nat) (d : Nat) :
    ∀ (fuel k : Nat), k + d = max k (min offset tp.children.length) → d ≤ fuel →
      skipSiblings tm offset fuel (childAt p tp.children.length k) k =
        some (childAt p tp.children.length (k + d), k + d) := by
  induction d with
  | zero =>
    intro fuel k hk _
    by_cases hlt : k < tp.children.length
    · have hno : ¬ k < offset := by omega
      cases fuel <;> simp [childAt, hlt, skipSiblings, hno]
    · cases fuel <;> simp [childAt, hlt, skipSiblings]
  | succ d ih =>
    intro fuel k hk hf
    have hlt : k < tp.children.length := by omega
    have hko : k < offset := by omega
    cases fuel with
    | zero => omega
    | succ fuel =>
      have := ih fuel (k + 1) (by omega) (by omega)
      rw [childAt_of_lt hlt]
      simp only [skipSiblings, hko, if_true, nextSibling_eq_childAt hp hlt, Option.some_bind]
      rw [this]
      simp [Nat.add_assoc, Nat.add_comm 1 d]

theorem detachNode_child {tm : TreeModel} {p : NodeImpl} {tp : Tree} {k : Nat}
    (hp : tm.node p = some tp) (hk : k < tp.children.length) :
    ∃ tm1, tm.replace p (tp.withChildren (tp.children.eraseIdx k)) = some tm1 ∧
      detachNode tm (.child p k) = some (tm1, tp.children[k], relocate p k) := by
  obtain ⟨tm1, h1⟩ := replace_total hp (tp.withChildren (tp.children.eraseIdx k))
  exact ⟨tm1, h1, by simp [detachNode, hp, List.getElem?_eq_getElem hk, h1]⟩

theorem appendAll_nil (acc : Option Tree) : appendAll acc [] = acc := by
  cases acc with
  | none => rfl
  | some a => simp [appendAll, Tree.withChildren_self]

theorem appendAll_appendAll (acc : Option Tree) (xs ys : List Tree) :
    appendAll (appendAll acc xs) ys = appendAll acc (xs ++ ys) := by
  cases acc with
  | none => rfl
  | some a => simp [appendAll, Tree.withChildren, Tree.children, Tree.nodeType, Tree.data]

theorem appendChild_some {acc : Option Tree} (h : acc.isSome = true) (c : Tree)
    (ec : ExceptionCode) : appendChild acc (some c) ec = some (appendAll acc [c], ec) := by
  cases acc with
  | none => simp at h
  | some a => simp [appendChild, appendAll]

theorem appendAll_isSome {acc : Option Tree} (h : acc.isSome = true) (xs : List Tree) :
    (appendAll acc xs).isSome = true := by
  cases acc with
  | none => simp at h
  | some a => simp [appendAll]

theorem take_drop_eraseIdx {α : Type} (l : List α) (k m : Nat) (h : k < l.length) :
    (l.eraseIdx k).take k ++ (l.eraseIdx k).drop (k + m) = l.take k ++ l.drop (k + (m + 1)) := by
  rw [List.eraseIdx_eq_take_drop_succ]
  have h1 : (l.take k).length = k := by simp; omega
  rw [List.take_append_eq_append_take, List.drop_append_eq_append_drop]
  simp [h1, List.take_take, Nat.add_assoc, Nat.add_comm 1 m]

theorem drop_take_eraseIdx {α : Type} (l : List α) (k m : Nat) (h : k < l.length) :
    l[k] :: ((l.eraseIdx k).drop k).take m = (l.drop k).take (m + 1) := by
  rw [List.eraseIdx_eq_take_drop_succ]
  have h1 : (l.take k).length = k := by simp; omega
  have h2 : List.drop k (List.take k l) = [] := by
    apply List.drop_eq_nil_of_le
    omega
  rw [List.drop_append_eq_append_drop]
  simp only [h1, h2, Nat.sub_self, List.drop_zero, List.nil_append]
  rw [@List.drop_eq_getElem_cons _ k l h, List.take_succ_cons]

/-- One pass of the forward loop of an action that changes the tree. -/
theorem forwardLoop_step_removes {action : ActionType} (hrem : action ≠ .CLONE_CONTENTS)
    (limit : Option Nat) {p : NodeImpl} {k : Nat} {fuel : Nat} {tm tm0 : TreeModel} {tp : Tree}
    (fr : Frame) {stop : Ptr} {acc : Option Tree} {i : Nat} (ec : ExceptionCode)
    (hp : tm.node p = some tp) (hk : k < tp.children.length)
    (h0 : tm.replace p (tp.withChildren (tp.children.eraseIdx k)) = some tm0)
    (hacc : action = .EXTRACT_CONTENTS → acc.isSome = true)
    (hlim : belowLimit limit i = true) (hstop : stop ≠ some (.child p k)) :
    forwardLoop action limit (fuel + 1) tm fr (some p) stop acc (some (.child p k)) i ec =
      forwardLoop action limit fuel tm0 (fr.relocate (relocate p k)) (some p)
        (stop.map (relocate p k))
        (if action = .EXTRACT_CONTENTS then appendAll acc [tp.children[k]] else acc)
        (childAt p (tp.children.length - 1) k) (i + 1) ec := by
  have hdet : detachNode tm (.child p k) = some (tm0, tp.children[k], relocate p k) := by
    simp [detachNode, hp, List.getElem?_eq_getElem hk, h0]
  have hnext : (childAt p tp.children.length (k + 1)).map (relocate p k) =
      childAt p (tp.children.length - 1) k := by
    by_cases h1 : k + 1 < tp.children.length
    · have h2 : k < tp.children.length - 1 := by omega
      simp [childAt, h1, h2, relocate]
    · have h2 : ¬ k < tp.children.length - 1 := by omega
      simp [childAt, h1, h2]
  have hstop1 : ¬ (some (NodeImpl.child p k) = stop) := fun h => hstop h.symm
  rw [forwardLoop]
  cases action with
  | CLONE_CONTENTS => exact absurd rfl hrem
  | EXTRACT_CONTENTS =>
    simp only [hstop1, hlim, decide_False, Bool.not_true, Bool.or_self, Bool.false_eq_true,
      if_false, nextSibling_eq_childAt hp hk, Option.some_bind, hdet,
      appendChild_some (hacc rfl), Option.map_some', relocate_self, hnext, if_true]
  | DELETE_CONTENTS =>
    simp only [hstop1, hlim, decide_False, Bool.not_true, Bool.or_self, Bool.false_eq_true,
      if_false, nextSibling_eq_childAt hp hk, Option.some_bind, removeChild,
      NodeImpl.parentNode, if_true, hdet, Option.map_some', relocate_self, hnext]
    simp

/-- The forward loop of the actions that change the tree, run over the `m`
children of `p` from index `k` on: they leave the tree, and the pointers move
with the remaining nodes. -/
theorem forwardLoop_removes {action : ActionType} (hrem : action ≠ .CLONE_CONTENTS)
    (limit : Option Nat) (p : NodeImpl) (k : Nat) (m : Nat) :
    ∀ (fuel : Nat) (tm : TreeModel) (tp : Tree) (fr : Frame) (stop : Ptr) (acc : Option Tree)
      (i : Nat) (ec : ExceptionCode),
      tm.node p = some tp → k + m ≤ tp.children.length → m ≤ fuel →
      (action = .EXTRACT_CONTENTS → acc.isSome = true) →
      (∀ j, j < m → belowLimit limit (i + j) = true) →
      ((stop = none ∧ (k + m = tp.children.length ∨ belowLimit limit (i + m) = false)) ∨
        (stop = some (.child p (k + m)) ∧ k + m < tp.children.length)) →
      ∃ tm1, tm.replace p (tp.withChildren (tp.children.take k ++ tp.children.drop (k + m)))
          = some tm1 ∧
        forwardLoop action limit fuel tm fr (some p) stop acc
            (childAt p tp.children.length k) i ec =
          some (tm1, fr.relocate ((relocate p k)^[m]), some p,
            (if action = .EXTRACT_CONTENTS then appendAll acc ((tp.children.drop k).take m)
              else acc), ec) := by
  induction m with
  | zero =>
    intro fuel tm tp fr stop acc i ec hp hkm _ _ _ hhalt
    refine ⟨tm, ?_, ?_⟩
    · simp only [Nat.add_zero, List.take_append_drop, Tree.withChildren_self]
      exact replace_same hp
    · have hfr : fr.relocate ((relocate p k)^[0]) = fr := frameRelocate_id fr
      rw [hfr]
      simp only [List.take_zero, appendAll_nil, ite_self]
      by_cases hk : k < tp.children.length
      · rw [childAt_of_lt hk]
        rcases hhalt with ⟨hs, h | h⟩ | ⟨hs, _⟩
        · omega
        · simp only [Nat.add_zero] at h
          unfold forwardLoop
          simp [hs, h]
        · simp only [Nat.add_zero] at hs
          unfold forwardLoop
          simp [hs]
      · rw [childAt_of_le (by omega)]
        unfold forwardLoop
        rfl
  | succ m ih =>
    intro fuel tm tp fr stop acc i ec hp hkm hf hacc hcont hhalt
    have hk : k < tp.children.length := by omega
    obtain ⟨tm0, h0⟩ := replace_total hp (tp.withChildren (tp.children.eraseIdx k))
    have hp0 : tm0.node p = some (tp.withChildren (tp.children.eraseIdx k)) :=
      replace_node_self h0
    have hlen0 : (tp.children.eraseIdx k).length = tp.children.length - 1 :=
      List.length_eraseIdx_of_lt hk
    have hstop : stop ≠ some (NodeImpl.child p k) := by
      rcases hhalt with ⟨hs, _⟩ | ⟨hs, _⟩
      · rw [hs]; simp
      · rw [hs]; simp
    obtain ⟨fuel, rfl⟩ : ∃ f, fuel = f + 1 := ⟨fuel - 1, by omega⟩
    have hhalt0 : (stop.map (relocate p k) = none ∧
        (k + m = (tp.withChildren (tp.children.eraseIdx k)).children.length ∨
          belowLimit limit (i + 1 + m) = false)) ∨
        (stop.map (relocate p k) = some (.child p (k + m)) ∧
          k + m < (tp.withChildren (tp.children.eraseIdx k)).children.length) := by
      rw [Tree.withChildren_children, hlen0]
      rcases hhalt with ⟨hs, h | h⟩ | ⟨hs, h⟩
      · exact Or.inl ⟨by simp [hs], Or.inl (by omega)⟩
      · exact Or.inl ⟨by simp [hs], Or.inr (by rw [← h]; congr 1; omega)⟩
      · refine Or.inr ⟨?_, by omega⟩
        have : k < k + (m + 1) := by omega
        simp [hs, relocate, this]
    obtain ⟨tm1, h1, h2⟩ := ih fuel tm0 (tp.withChildren (tp.children.eraseIdx k))
      (fr.relocate (relocate p k)) (stop.map (relocate p k))
      (if action = .EXTRACT_CONTENTS then appendAll acc [tp.children[k]] else acc) (i + 1) ec
      hp0 (by rw [Tree.withChildren_children, hlen0]; omega) (by omega)
      (fun h => by simp [h, appendAll_isSome (hacc h)])
      (fun j hj => by
        have := hcont (j + 1) (by omega)
        rw [← this]; congr 1; omega)
      hhalt0
    rw [replace_replace h0, Tree.withChildren_withChildren, Tree.withChildren_children,
      take_drop_eraseIdx _ _ _ hk] at h1
    refine ⟨tm1, h1, ?_⟩
    rw [childAt_of_lt hk, forwardLoop_step_removes hrem limit fr ec hp hk h0 hacc
      (by simpa using hcont 0 (by omega)) hstop]
    rw [Tree.withChildren_children, hlen0] at h2
    rw [h2, frameRelocate_relocate, ← Function.iterate_succ]
    by_cases hx : action = .EXTRACT_CONTENTS
    · simp only [hx, if_true, appendAll_appendAll, Tree.withChildren_children]
      rw [List.singleton_append, drop_take_eraseIdx _ _ _ hk]
    · simp only [hx, if_false]

/-- The forward loop of `CLONE_CONTENTS` run over the `m` children of `p` from
index `k` on: copies of them are appended, nothing else changes. -/
theorem forwardLoop_clone (limit : Option Nat) {tm : TreeModel} {p : NodeImpl} {tp : Tree}
    (hp : tm.node p = some tp) (fr : Frame) (parent stop : Ptr) (ec : ExceptionCode) (m : Nat) :
    ∀ (fuel k i : Nat) (acc : Option Tree),
      k + m ≤ tp.children.length → m ≤ fuel → acc.isSome = true →
      (∀ j, j < m → belowLimit limit (i + j) = true) →
      ((stop = none ∧ (k + m = tp.children.length ∨ belowLimit limit (i + m) = false)) ∨
        (stop = some (.child p (k + m)) ∧ k + m < tp.children.length)) →
      forwardLoop .CLONE_CONTENTS limit fuel tm fr parent stop acc
          (childAt p tp.children.length k) i ec =
        some (tm, fr, parent, appendAll acc ((tp.children.drop k).take m), ec) := by
  induction m with
  | zero =>
    intro fuel k i acc hkm _ _ _ hhalt
    simp only [List.take_zero, appendAll_nil]
    by_cases hk : k < tp.children.length
    · rw [childAt_of_lt hk]
      rcases hhalt with ⟨hs, h | h⟩ | ⟨hs, _⟩
      · omega
      · simp only [Nat.add_zero] at h
        unfold forwardLoop
        simp [hs, h]
      · simp only [Nat.add_zero] at hs
        unfold forwardLoop
        simp [hs]
    · rw [childAt_of_le (by omega)]
      unfold forwardLoop
      rfl
  | succ m ih =>
    intro fuel k i acc hkm hf hacc hcont hhalt
    have hk : k < tp.children.length := by omega
    obtain ⟨fuel, rfl⟩ : ∃ f, fuel = f + 1 := ⟨fuel - 1, by omega⟩
    have hstop1 : ¬ (some (NodeImpl.child p k) = stop) := by
      rcases hhalt with ⟨hs, _⟩ | ⟨hs, _⟩
      · rw [hs]; simp
      · rw [hs]; simp
    have hlim : belowLimit limit i = true := by simpa using hcont 0 (by omega)
    have := ih fuel (k + 1) (i + 1) (appendAll acc [tp.children[k]]) (by omega) (by omega)
      (appendAll_isSome hacc _)
      (fun j hj => by
        have := hcont (j + 1) (by omega)
        rw [← this]; congr 1; omega)
      (by
        rcases hhalt with ⟨hs, h | h⟩ | ⟨hs, h⟩
        · exact Or.inl ⟨hs, Or.inl (by omega)⟩
        · exact Or.inl ⟨hs, Or.inr (by rw [← h]; congr 1; omega)⟩
        · exact Or.inr ⟨by rw [hs]; congr 2; omega, by omega⟩)
    rw [childAt_of_lt hk, forwardLoop]
    simp only [hstop1, hlim, decide_False, Bool.not_true, Bool.or_self, Bool.false_eq_true,
      if_false, nextSibling_eq_childAt hp hk, Option.some_bind, cloneNode,
      node_child_of_lt hp hk, Option.map_some', if_true, appendChild_some hacc, this,
      appendAll_appendAll]
    rw [List.singleton_append, ← List.take_succ_cons, ← @List.drop_eq_getElem_cons _ k _ hk]

/-! ## The simple case: a container with children -/

theorem not_textLike_of_not_characterLike {k : NodeType} (h : isCharacterLike k = false) :
    isTextCDataOrComment k = false ∧ k ≠ NodeType.PROCESSING_INSTRUCTION_NODE := by
  cases k <;> simp_all [isCharacterLike, isTextCDataOrComment]

theorem rangeRelocate_of_fixed {f : NodeImpl → NodeImpl} {r : RangeImpl}
    (hs : ∀ x, r.m_startContainer = some x → f x = x)
    (he : ∀ x, r.m_endContainer = some x → f x = x) : r.relocate f = r := by
  cases r with
  | mk d sc so ec eo dt =>
    simp only [RangeImpl.relocate]
    congr 1
    · cases sc with
      | none => rfl
      | some x => simp [hs x rfl]
    · cases ec with
      | none => rfl
      | some x => simp [he x rfl]

theorem processSimple_children (action : ActionType) {tm : TreeModel} {fr : Frame}
    {c : NodeImpl} {t : Tree} (hc : fr.range.m_startContainer = some c)
    (ht : tm.node c = some t) (hk : isCharacterLike t.nodeType = false)
    (hs : 0 ≤ fr.range.m_startOffset) (hse : fr.range.m_startOffset ≤ fr.range.m_endOffset)
    (he : fr.range.m_endOffset ≤ t.children.length)
    (hlen : (t.children.length : Int) < 2 ^ 31) :
    ∃ tm1, tm.replace c (t.withChildren (t.children.take fr.range.m_startOffset.toNat ++
        t.children.drop fr.range.m_endOffset.toNat)) = some tm1 ∧
      processSimple action tm fr (newFragment action) 0 =
        some (if action.removes then tm1 else tm,
          if action.removes then fr.relocate ((relocate c fr.range.m_startOffset.toNat)^[
            fr.range.m_endOffset.toNat - fr.range.m_startOffset.toNat]) else fr,
          if action.copies then some (.mk NodeType.DOCUMENT_FRAGMENT_NODE []
            ((t.children.drop fr.range.m_startOffset.toNat).take
              (fr.range.m_endOffset.toNat - fr.range.m_startOffset.toNat)))
          else none, 0) := by
  obtain ⟨hk1, hk2⟩ := not_textLike_of_not_characterLike hk
  generalize hso : fr.range.m_startOffset = so at *
  generalize heo : fr.range.m_endOffset = eo at *
  have hus : toUnsigned so = so.toNat := toUnsigned_of_nonneg hs (by omega)
  have hue : toUnsigned eo = eo.toNat := toUnsigned_of_nonneg (by omega) (by omega)
  have hsk := skipSiblings_spec ht so.toNat so.toNat
    (siblingBound tm (childAt c t.children.length 0)) 0 (by omega)
    (by rw [siblingBound_childAt 0 ht]; split <;> omega)
  simp only [Nat.zero_add] at hsk
  have hfuel : eo.toNat - so.toNat ≤ siblingBound tm (childAt c t.children.length 0) := by
    rw [siblingBound_childAt 0 ht]; split <;> omega
  have hcont : ∀ j, j < eo.toNat - so.toNat → belowLimit (some eo.toNat) (so.toNat + j) = true := by
    intro j hj
    simp [belowLimit]
    omega
  have hhalt : ((none : Ptr) = none ∧ (so.toNat + (eo.toNat - so.toNat) = t.children.length ∨
      belowLimit (some eo.toNat) (so.toNat + (eo.toNat - so.toNat)) = false)) ∨
      ((none : Ptr) = some (.child c (so.toNat + (eo.toNat - so.toNat))) ∧
        so.toNat + (eo.toNat - so.toNat) < t.children.length) := by
    refine Or.inl ⟨rfl, Or.inr ?_⟩
    simp [belowLimit]
    omega
  have hadd : so.toNat + (eo.toNat - so.toNat) = eo.toNat := by omega
  by_cases hrem : action = .CLONE_CONTENTS
  · subst hrem
    obtain ⟨tm1, h1⟩ := replace_total ht (t.withChildren (t.children.take so.toNat ++
      t.children.drop eo.toNat))
    refine ⟨tm1, h1, ?_⟩
    have hloop := forwardLoop_clone (some eo.toNat) ht fr (some c) none 0
      (eo.toNat - so.toNat) _ so.toNat so.toNat (newFragment .CLONE_CONTENTS) (by omega) hfuel
      rfl hcont hhalt
    simp only [processSimple, hc, nodeType, ht, Option.map_some', Option.some_bind, hk1, hk2,
      Bool.false_eq_true, if_false, firstChild_eq_childAt ht, hso, heo, hus, hue, hsk, hloop]
    simp [ActionType.removes, ActionType.copies, newFragment, appendAll, Tree.withChildren,
      Tree.nodeType, Tree.data, Tree.children]
  · have hacc : action = .EXTRACT_CONTENTS → (newFragment action).isSome = true := by
      intro h; subst h; rfl
    obtain ⟨tm1, h1, hloop⟩ := forwardLoop_removes hrem (some eo.toNat) c so.toNat
      (eo.toNat - so.toNat) _ tm t fr none (newFragment action) so.toNat 0 ht (by omega) hfuel
      hacc hcont hhalt
    rw [hadd] at h1
    refine ⟨tm1, h1, ?_⟩
    simp only [processSimple, hc, nodeType, ht, Option.map_some', Option.some_bind, hk1, hk2,
      Bool.false_eq_true, if_false, firstChild_eq_childAt ht, hso, heo, hus, hue, hsk, hloop]
    cases action with
    | CLONE_CONTENTS => exact absurd rfl hrem
    | EXTRACT_CONTENTS =>
      simp [ActionType.removes, ActionType.copies, newFragment, appendAll, Tree.withChildren,
        Tree.nodeType, Tree.data, Tree.children]
    | DELETE_CONTENTS =>
      simp [ActionType.removes, ActionType.copies, newFragment]

/-- C19. Same container with children.  A non-detached range lies in one node
`c` that is not character-like, with child list `L`, at offsets
`0 ≤ s < e ≤ |L|` (child counts are below `2 ^ 31`).  When every node of
`L[s..e)` is of a kind that a document fragment takes as a child (none is a
document type), `cloneContents` returns, without error and without changing the
forest or the range, a fragment whose children are copies of `L[s..e)` in order.
When the pre-checks of `checkDeleteExtract` pass, `deleteContents` and
`extractContents` leave `L[0..s) ++ L[e..|L|)` as the children of `c` and the
range collapsed at `(c, s)`, and report no error; the fragment of
`extractContents` has exactly the children `L[s..e)` in order. -/
theorem same_element_container (isReadOnly : NodeImpl → Bool) (tm : TreeModel) (doc : Ptr)
    (c : NodeImpl) (t : Tree) (s e : Int) (ht : tm.node c = some t)
    (hk : isCharacterLike t.nodeType = false) (hs : 0 ≤ s) (hse : s < e)
    (he : e ≤ t.children.length) (hlen : (t.children.length : Int) < 2 ^ 31) :
    (((t.children.drop s.toNat).take (e.toNat - s.toNat)).all
        (fun x => domChildTypeAllowed (.mk NodeType.DOCUMENT_FRAGMENT_NODE [] []) x.nodeType)
        = true →
      RangeImpl.cloneContents cloneContentsRest tm ⟨doc, some c, s, some c, e, false⟩ 0
        = some (tm, ⟨doc, some c, s, some c, e, false⟩, 0,
            some (.mk NodeType.DOCUMENT_FRAGMENT_NODE []
              ((t.children.drop s.toNat).take (e.toNat - s.toNat))))) ∧
    (checkDeleteExtract isReadOnly tm ⟨doc, some c, s, some c, e, false⟩ 0 = some 0 →
      ∃ tm1, tm1.node c
          = some (t.withChildren (t.children.take s.toNat ++ t.children.drop e.toNat)) ∧
        RangeImpl.deleteContents (deleteContentsRest isReadOnly) tm
            ⟨doc, some c, s, some c, e, false⟩ 0
          = some (tm1, ⟨doc, some c, s, some c, s, false⟩, 0) ∧
        RangeImpl.extractContents (extractContentsRest isReadOnly) tm
            ⟨doc, some c, s, some c, e, false⟩ 0
          = some (tm1, ⟨doc, some c, s, some c, s, false⟩, 0,
              some (.mk NodeType.DOCUMENT_FRAGMENT_NODE []
                ((t.children.drop s.toNat).take (e.toNat - s.toNat))))) := by
  have hne : s ≠ e := by omega
  have hfix : ∀ m : Nat, (⟨doc, some c, s, some c, e, false⟩ : RangeImpl).relocate
      ((relocate c s.toNat)^[m]) = ⟨doc, some c, s, some c, e, false⟩ := fun m =>
    rangeRelocate_of_fixed
      (fun x hx => by cases hx; exact iterate_relocate_self c _ m)
      (fun x hx => by cases hx; exact iterate_relocate_self c _ m)
  refine ⟨fun _ => ?_, fun hpre => ?_⟩
  · obtain ⟨tm1, _, h2⟩ := @processSimple_children .CLONE_CONTENTS tm
      ⟨⟨doc, some c, s, some c, e, false⟩, some c, none, none⟩ c t rfl ht hk hs (le_of_lt hse)
      he hlen
    simp [RangeImpl.cloneContents, cloneContentsRest,
      @processContents_same .CLONE_CONTENTS tm ⟨doc, some c, s, some c, e, false⟩ c rfl rfl rfl
        hne, h2, ActionType.removes, ActionType.copies]
  · obtain ⟨tm1, h1, h2⟩ := @processSimple_children .DELETE_CONTENTS tm
      ⟨⟨doc, some c, s, some c, e, false⟩, some c, none, none⟩ c t rfl ht hk hs (le_of_lt hse)
      he hlen
    obtain ⟨tm2, h3, h4⟩ := @processSimple_children .EXTRACT_CONTENTS tm
      ⟨⟨doc, some c, s, some c, e, false⟩, some c, none, none⟩ c t rfl ht hk hs (le_of_lt hse)
      he hlen
    have h12 : tm2 = tm1 := by
      rw [h1] at h3
      exact (Option.some.inj h3).symm
    subst h12
    refine ⟨tm2, replace_node_self h1, ?_, ?_⟩
    · simp [RangeImpl.deleteContents, deleteContentsRest, hpre,
        @processContents_same .DELETE_CONTENTS tm ⟨doc, some c, s, some c, e, false⟩ c rfl rfl
          rfl hne, h2, ActionType.removes, ActionType.copies, RangeImpl.collapse,
        Frame.relocate, hfix]
    · simp [RangeImpl.extractContents, extractContentsRest, hpre,
        @processContents_same .EXTRACT_CONTENTS tm ⟨doc, some c, s, some c, e, false⟩ c rfl rfl
          rfl hne, h4, ActionType.removes, ActionType.copies, RangeImpl.collapse,
        Frame.relocate, hfix]

theorem same_element_container_witness :
    RangeImpl.cloneContents cloneContentsRest sampleModel
        ⟨some (.root 0), some sampleHtml, 1, some sampleHtml, 3, false⟩ 0
      = some (sampleModel, ⟨some (.root 0), some sampleHtml, 1, some sampleHtml, 3, false⟩, 0,
          some (.mk NodeType.DOCUMENT_FRAGMENT_NODE [] [
            .mk .ELEMENT_NODE [] [.mk .TEXT_NODE [102, 103, 104] [], .mk .COMMENT_NODE [105] []],
            .mk .ELEMENT_NODE [] []])) ∧
    ∃ tm1, tm1.node sampleHtml
        = some (.mk .ELEMENT_NODE [] [
            .mk .ELEMENT_NODE [] [
              .mk .TEXT_NODE [97, 98, 99] [],
              .mk .ELEMENT_NODE [] [.mk .TEXT_NODE [100, 101] []]]]) ∧
      RangeImpl.deleteContents (deleteContentsRest noneReadOnly) sampleModel
          ⟨some (.root 0), some sampleHtml, 1, some sampleHtml, 3, false⟩ 0
        = some (tm1, ⟨some (.root 0), some sampleHtml, 1, some sampleHtml, 1, false⟩, 0) ∧
      RangeImpl.extractContents (extractContentsRest noneReadOnly) sampleModel
          ⟨some (.root 0), some sampleHtml, 1, some sampleHtml, 3, false⟩ 0
        = some (tm1, ⟨some (.root 0), some sampleHtml, 1, some sampleHtml, 1, false⟩, 0,
            some (.mk NodeType.DOCUMENT_FRAGMENT_NODE [] [
              .mk .ELEMENT_NODE [] [.mk .TEXT_NODE [102, 103, 104] [], .mk .COMMENT_NODE [105] []],
              .mk .ELEMENT_NODE [] []])) :=
  ⟨(same_element_container noneReadOnly sampleModel (some (.root 0)) sampleHtml
      (.mk .ELEMENT_NODE [] [
        .mk .ELEMENT_NODE [] [
          .mk .TEXT_NODE [97, 98, 99] [],
          .mk .ELEMENT_NODE [] [.mk .TEXT_NODE [100, 101] []]],
        .mk .ELEMENT_NODE [] [.mk .TEXT_NODE [102, 103, 104] [], .mk .COMMENT_NODE [105] []],
        .mk .ELEMENT_NODE [] []]) 1 3 rfl (by decide) (by decide) (by decide) (by decide)
      (by decide)).1 (by decide),
   (same_element_container noneReadOnly sampleModel (some (.root 0)) sampleHtml
      (.mk .ELEMENT_NODE [] [
        .mk .ELEMENT_NODE [] [
          .mk .TEXT_NODE [97, 98, 99] [],
          .mk .ELEMENT_NODE [] [.mk .TEXT_NODE [100, 101] []]],
        .mk .ELEMENT_NODE [] [.mk .TEXT_NODE [102, 103, 104] [], .mk .COMMENT_NODE [105] []],
        .mk .ELEMENT_NODE [] []]) 1 3 rfl (by decide) (by decide) (by decide) (by decide)
      (by decide)).2 (by decide)⟩

/-- The claim C19 as written, without the pre-checks, fails: the document of
`sampleModel` has the children `[doctype, html]`; on the range
`(document, 0)..(document, 1)`, which holds the document type,
`extractContents` and `deleteContents` report `HIERARCHY_REQUEST_ERR`, return
no fragment and leave the children of the document and the range as they
were. -/
theorem same_element_container_doctype :
    RangeImpl.extractContents (extractContentsRest noneReadOnly) sampleModel
        ⟨some (.root 0), some (.root 0), 0, some (.root 0), 1, false⟩ 0
      = some (sampleModel, ⟨some (.root 0), some (.root 0), 0, some (.root 0), 1, false⟩,
          HIERARCHY_REQUEST_ERR, none) ∧
    RangeImpl.deleteContents (deleteContentsRest noneReadOnly) sampleModel
        ⟨some (.root 0), some (.root 0), 0, some (.root 0), 1, false⟩ 0
      = some (sampleModel, ⟨some (.root 0), some (.root 0), 0, some (.root 0), 1, false⟩,
          HIERARCHY_REQUEST_ERR) ∧
    sampleModel.node (.root 0) = some sampleDocument ∧
    isCharacterLike sampleDocument.nodeType = false ∧
    ((0 : Int) ≤ 0 ∧ (0 : Int) < 1 ∧ (1 : Int) ≤ sampleDocument.children.length) :=
  ⟨rfl, rfl, rfl, rfl, by decide⟩

/-! ## Nodes at places that a change of the tree does not touch -/

theorem node_congr_tree {tm tm1 : TreeModel} :
    ∀ (y : NodeImpl), tm1.roots[y.treeIndex]? = tm.roots[y.treeIndex]? →
      tm1.node y = tm.node y := by
  intro y
  induction y with
  | root t =>
    intro h
    simp only [NodeImpl.treeIndex] at h
    simp [TreeModel.node, h]
  | child p i ih =>
    intro h
    simp only [NodeImpl.treeIndex] at h
    simp [TreeModel.node, ih h]

theorem replace_roots {tm tm1 : TreeModel} {x : NodeImpl} {new : Tree}
    (h : tm.replace x new = some tm1) :
    tm1.roots.length = tm.roots.length ∧
    (∀ t : Nat, t ≠ x.treeIndex → tm1.roots[t]? = tm.roots[t]?) ∧
    (∀ t : Nat, (tm1.roots[t]?).map Prod.fst = (tm.roots[t]?).map Prod.fst) := by
  induction x generalizing new with
  | root k =>
    simp only [TreeModel.replace] at h
    split at h
    · rename_i x hx
      simp only [Option.some.injEq] at h
      subst h
      refine ⟨by simp, ?_, ?_⟩
      · intro t ht
        simp only [NodeImpl.treeIndex] at ht
        simp [List.getElem?_set, Ne.symm ht]
      · intro t
        by_cases htk : k = t
        · subst htk
          have hlt : k < tm.roots.length := by
            by_contra hc
            rw [List.getElem?_eq_none (by omega)] at hx
            exact absurd hx (by simp)
          simp [List.getElem?_set, hx, hlt]
        · simp [List.getElem?_set, htk]
    · exact absurd h (by simp)
  | child p i ih =>
    simp only [TreeModel.replace] at h
    split at h
    · split at h
      · exact ih h
      · exact absurd h (by simp)
    · exact absurd h (by simp)

theorem treeIndex_ne_of_root_not_mem {y : NodeImpl} {k : Nat}
    (h : NodeImpl.root k ∉ y.ancestors) : y.treeIndex ≠ k := by
  intro hk
  apply h
  have := rootContainer_mem_ancestors y
  rw [rootContainer_eq_root, hk] at this
  exact this

/-- Storing a node at `x` leaves the nodes that are neither at or below `x` nor
above it as they are. -/
theorem replace_node_disjoint {tm tm1 : TreeModel} {x : NodeImpl} {new : Tree}
    (h : tm.replace x new = some tm1) {y : NodeImpl} (hxy : x ∉ y.ancestors)
    (hyx : y ∉ x.ancestors) : tm1.node y = tm.node y := by
  induction x generalizing new with
  | root k =>
    exact node_congr_tree y ((replace_roots h).2.1 _ (treeIndex_ne_of_root_not_mem hxy))
  | child x0 k ih =>
    have h0 := h
    simp only [TreeModel.replace] at h
    split at h
    · rename_i X0 hX0
      split at h
      · rename_i hk
        by_cases hx0 : x0 ∈ y.ancestors
        · have hne : x0 ≠ y := by
            intro he
            subst he
            exact hyx (mem_ancestors_child.mpr (Or.inr (mem_ancestors_self _)))
          obtain ⟨c, hc⟩ := exists_child_mem_ancestors hx0 hne
          have hck : c ≠ k := by
            intro he
            subst he
            exact hxy hc
          refine replace_node_below hX0 h ?_ hc
          simp [Tree.withChildren_children, List.getElem?_set, Ne.symm hck]
        · exact ih h hx0 fun hy => hyx (mem_ancestors_child.mpr (Or.inr hy))
      · exact absurd h (by simp)
    · exact absurd h (by simp)

/-- The places of the nodes below `p` after the child list of `p` has been
rearranged: `f` maps child `i` of `p` to child `g i`, and the new list holds at
`g i` what the old one held at `i`. -/
theorem node_reindex {tm tm1 : TreeModel} {p : NodeImpl} {P : Tree} {L : List Tree}
    (hp : tm.node p = some P) (hr : tm.replace p (P.withChildren L) = some tm1)
    (f : NodeImpl → NodeImpl) (g : Nat → Nat)
    (hfp : ∀ i, f (.child p i) = .child p (g i))
    (hfq : ∀ q i, q ≠ p → f (.child q i) = .child (f q) i)
    (hfr : ∀ t, f (.root t) = .root t) :
    ∀ (y : NodeImpl), y ∉ p.ancestors →
      (∀ i, .child p i ∈ y.ancestors → L[g i]? = P.children[i]?) →
      tm1.node (f y) = tm.node y := by
  have hfix : ∀ (y : NodeImpl), p ∉ y.ancestors → f y = y := by
    intro y
    induction y with
    | root t => intro _; exact hfr t
    | child a i ih =>
      intro hy
      have ha : p ∉ a.ancestors := fun h => hy (mem_ancestors_child.mpr (Or.inr h))
      have hne : a ≠ p := by
        intro he
        subst he
        exact ha (mem_ancestors_self _)
      rw [hfq a i hne, ih ha]
  intro y
  induction y with
  | root t =>
    intro hy _
    rw [hfr]
    refine replace_node_disjoint hr ?_ hy
    intro h
    simp only [NodeImpl.ancestors, List.mem_singleton] at h
    exact hy (h ▸ mem_ancestors_self _)
  | child a i ih =>
    intro hy hL
    by_cases hb : p ∈ (NodeImpl.child a i).ancestors
    · by_cases hap : a = p
      · subst hap
        rw [hfp]
        simp only [TreeModel.node, replace_node_self hr, hp, Option.some_bind,
          Tree.withChildren_children]
        exact hL i (mem_ancestors_self _)
      · rw [hfq a i hap]
        have ha : a ∉ p.ancestors := by
          intro h
          rcases mem_ancestors_child.mp hb with h1 | h1
          · exact hy (h1 ▸ mem_ancestors_self _)
          · exact hap (eq_of_mem_ancestors_of_depth_eq h
              (le_antisymm (depth_le_of_mem_ancestors h) (depth_le_of_mem_ancestors h1)))
        simp only [TreeModel.node]
        rw [ih ha fun c hc => hL c (mem_ancestors_child.mpr (Or.inr hc))]
    · rw [hfix _ hb]
      exact replace_node_disjoint hr hb hy

/-! ## The places of the nodes that a removal of children leaves -/

theorem cut_child_same (p : NodeImpl) (lo hi i : Nat) :
    cut p lo hi (.child p i) = .child p (if hi ≤ i then i - (hi - lo) else i) := by
  simp [cut]

theorem cut_child_ne (p : NodeImpl) (lo hi : Nat) {q : NodeImpl} (i : Nat) (h : q ≠ p) :
    cut p lo hi (.child q i) = .child (cut p lo hi q) i := by
  simp [cut, h]

theorem cut_depth (p : NodeImpl) (lo hi : Nat) (x : NodeImpl) :
    (cut p lo hi x).depth = x.depth := by
  induction x with
  | root t => rfl
  | child q i ih =>
    by_cases h : q = p
    · subst h
      rw [cut_child_same]
      rfl
    · rw [cut_child_ne _ _ _ _ h]
      simp [NodeImpl.depth, ih]

theorem cut_treeIndex (p : NodeImpl) (lo hi : Nat) (x : NodeImpl) :
    (cut p lo hi x).treeIndex = x.treeIndex := by
  induction x with
  | root t => rfl
  | child q i ih =>
    by_cases h : q = p
    · subst h
      rw [cut_child_same]
      rfl
    · rw [cut_child_ne _ _ _ _ h]
      simp [NodeImpl.treeIndex, ih]

/-- A place that is not below `p` stays. -/
theorem cut_of_not_below (p : NodeImpl) (lo hi : Nat) {x : NodeImpl}
    (h : ∀ i, .child p i ∉ x.ancestors) : cut p lo hi x = x := by
  induction x with
  | root t => rfl
  | child q i ih =>
    have hq : q ≠ p := by
      intro e
      subst e
      exact h i (mem_ancestors_self _)
    rw [cut_child_ne _ _ _ _ hq, ih fun j hj => h j (mem_ancestors_child.mpr (Or.inr hj))]

theorem cut_of_depth_le (p : NodeImpl) (lo hi : Nat) {x : NodeImpl} (h : x.depth ≤ p.depth) :
    cut p lo hi x = x :=
  cut_of_not_below p lo hi fun i hi => by
    have := depth_le_of_mem_ancestors hi
    simp only [NodeImpl.depth] at this
    omega

theorem cut_self (p : NodeImpl) (lo hi : Nat) : cut p lo hi p = p :=
  cut_of_depth_le p lo hi (le_refl _)

/-- The nodes at or above the level of `p` are above the same places before and
after. -/
theorem mem_ancestors_cut (p : NodeImpl) (lo hi : Nat) {z : NodeImpl} (hz : z.depth ≤ p.depth)
    (x : NodeImpl) : z ∈ (cut p lo hi x).ancestors ↔ z ∈ x.ancestors := by
  induction x with
  | root t => rfl
  | child q i ih =>
    by_cases h : q = p
    · subst h
      rw [cut_child_same]
      constructor
      · intro hm
        rcases mem_ancestors_child.mp hm with e | e
        · subst e
          simp only [NodeImpl.depth] at hz
          omega
        · exact mem_ancestors_child.mpr (Or.inr e)
      · intro hm
        rcases mem_ancestors_child.mp hm with e | e
        · subst e
          simp only [NodeImpl.depth] at hz
          omega
        · exact mem_ancestors_child.mpr (Or.inr e)
    · rw [cut_child_ne _ _ _ _ h]
      constructor
      · intro hm
        rcases mem_ancestors_child.mp hm with e | e
        · subst e
          have hd : q.depth ≤ p.depth := by
            have := cut_depth p lo hi q
            simp only [NodeImpl.depth] at hz
            omega
          rw [cut_of_depth_le p lo hi hd]
          exact mem_ancestors_self _
        · exact mem_ancestors_child.mpr (Or.inr (ih.mp e))
      · intro hm
        rcases mem_ancestors_child.mp hm with e | e
        · subst e
          have hd : q.depth ≤ p.depth := by
            simp only [NodeImpl.depth] at hz
            omega
          rw [cut_of_depth_le p lo hi hd]
          exact mem_ancestors_self _
        · exact mem_ancestors_child.mpr (Or.inr (ih.mpr e))

/-- The child of `p` above a place, after the cut. -/
theorem child_mem_ancestors_cut (p : NodeImpl) (lo hi : Nat) {i : Nat} {x : NodeImpl}
    (h : .child p i ∈ x.ancestors) :
    .child p (if hi ≤ i then i - (hi - lo) else i) ∈ (cut p lo hi x).ancestors := by
  induction x with
  | root t => simp [NodeImpl.ancestors] at h
  | child q j ih =>
    rcases mem_ancestors_child.mp h with e | e
    · injection e with e1 e2
      subst e1; subst e2
      rw [cut_child_same]
      exact mem_ancestors_self _
    · have hq : q ≠ p := by
        intro e1
        subst e1
        exact child_not_mem_ancestors _ _ e
      rw [cut_child_ne _ _ _ _ hq]
      exact mem_ancestors_child.mpr (Or.inr (ih e))

theorem getElem?_take_drop {α : Type} (L : List α) {lo hi i : Nat} (hlohi : lo ≤ hi)
    (hlo : lo ≤ L.length) (h : i < lo ∨ hi ≤ i) :
    (L.take lo ++ L.drop hi)[if hi ≤ i then i - (hi - lo) else i]? = L[i]? := by
  rcases h with h | h
  · rw [if_neg (by omega), List.getElem?_append_left (by simp; omega)]
    exact List.getElem?_take_of_lt h
  · rw [if_pos h, List.getElem?_append_right (by simp; omega), List.getElem?_drop]
    congr 1
    simp only [List.length_take]
    omega

/-- The nodes that are left when the children `lo`, ..., `hi - 1` of `p` are taken
out of the tree, at their new places. -/
theorem node_cut {tm tm1 : TreeModel} {p : NodeImpl} {P : Tree} {lo hi : Nat}
    (hp : tm.node p = some P) (hlohi : lo ≤ hi) (hlo : lo ≤ P.children.length)
    (hr : tm.replace p (P.withChildren (P.children.take lo ++ P.children.drop hi)) = some tm1)
    {y : NodeImpl} (hy : y ∉ p.ancestors)
    (hkept : ∀ i, .child p i ∈ y.ancestors → i < lo ∨ hi ≤ i) :
    tm1.node (cut p lo hi y) = tm.node y :=
  node_reindex hp hr (cut p lo hi) (fun i => if hi ≤ i then i - (hi - lo) else i)
    (fun i => cut_child_same p lo hi i) (fun _ i hq => cut_child_ne p lo hi i hq)
    (fun _ => rfl) y hy fun i hi => getElem?_take_drop P.children hlohi hlo (hkept i hi)

/-! ## Relocations and the frame -/

theorem frameRelocate_of_fixed {f : NodeImpl → NodeImpl} {fr : Frame}
    (h : ∀ x, x ∈ fr.pointers → f x = x) : fr.relocate f = fr := by
  cases fr with
  | mk r cr ps pe =>
    cases r with
    | mk d sc so ec eo dt =>
      simp only [Frame.pointers, List.mem_append, Option.mem_toList, Option.mem_def] at h
      have h1 : sc.map f = sc := by
        cases sc with
        | none => rfl
        | some x => simp [h x (by simp)]
      have h2 : ec.map f = ec := by
        cases ec with
        | none => rfl
        | some x => simp [h x (by simp)]
      have h3 : cr.map f = cr := by
        cases cr with
        | none => rfl
        | some x => simp [h x (by simp)]
      have h4 : ps.map f = ps := by
        cases ps with
        | none => rfl
        | some x => simp [h x (by simp)]
      have h5 : pe.map f = pe := by
        cases pe with
        | none => rfl
        | some x => simp [h x (by simp)]
      simp [Frame.relocate, RangeImpl.relocate, h1, h2, h3, h4, h5]

theorem relocateBelow_of_not_below (p : NodeImpl) (c : Nat) {q : NodeImpl}
    (h : ∀ i, .child p i ∉ q.ancestors) : relocateBelow p c q = q := by
  induction c with
  | zero => rfl
  | succ c ih =>
    simp only [relocateBelow, Function.comp_apply]
    rw [relocate_of_not_after p c fun i hi => absurd hi (h i), ih]

theorem relocateBelow_self (p : NodeImpl) (c : Nat) : relocateBelow p c p = p :=
  relocateBelow_of_not_below p c fun i => child_not_mem_ancestors p i

theorem relocate_mem_ancestors (p : NodeImpl) (j : Nat) {x q : NodeImpl}
    (h : x ∈ q.ancestors) : relocate p j x ∈ (relocate p j q).ancestors := by
  induction q with
  | root k =>
    simp only [NodeImpl.ancestors, List.mem_singleton] at h
    subst h
    exact mem_ancestors_self _
  | child a i ih =>
    rcases mem_ancestors_child.mp h with h | h
    · subst h
      exact mem_ancestors_self _
    · have := ih h
      by_cases hap : a = p
      · subst hap
        rw [relocate_self] at this
        simp only [relocate, if_true]
        exact mem_ancestors_child.mpr (Or.inr this)
      · simp only [relocate, hap, if_false]
        exact mem_ancestors_child.mpr (Or.inr this)

theorem relocateBelow_mem_ancestors (p : NodeImpl) (c : Nat) {x q : NodeImpl}
    (h : x ∈ q.ancestors) : relocateBelow p c x ∈ (relocateBelow p c q).ancestors := by
  induction c generalizing x q with
  | zero => exact h
  | succ c ih =>
    simp only [relocateBelow, Function.comp_apply]
    exact ih (relocate_mem_ancestors p c h)

theorem iterate_relocate_mem_ancestors (p : NodeImpl) (j m : Nat) {x q : NodeImpl}
    (h : x ∈ q.ancestors) : (relocate p j)^[m] x ∈ ((relocate p j)^[m] q).ancestors := by
  induction m generalizing x q with
  | zero => exact h
  | succ m ih =>
    simp only [Function.iterate_succ_apply]
    exact ih (relocate_mem_ancestors p j h)

/-! ## The backward loop -/

theorem prependAll_nil (acc : Option Tree) : prependAll acc [] = acc := by
  cases acc with
  | none => rfl
  | some a => simp [prependAll, Tree.withChildren_self]

theorem prependAll_prependAll (acc : Option Tree) (xs ys : List Tree) :
    prependAll (prependAll acc xs) ys = prependAll acc (ys ++ xs) := by
  cases acc with
  | none => rfl
  | some a => simp [prependAll, Tree.withChildren, Tree.children, Tree.nodeType, Tree.data]

theorem insertBeforeFirstChild_some {acc : Option Tree} (h : acc.isSome = true) (c : Tree)
    (ec : ExceptionCode) :
    insertBeforeFirstChild acc (some c) ec = some (prependAll acc [c], ec) := by
  cases acc with
  | none => simp at h
  | some a => simp [insertBeforeFirstChild, prependAll]

theorem prependAll_isSome {acc : Option Tree} (h : acc.isSome = true) (xs : List Tree) :
    (prependAll acc xs).isSome = true := by
  cases acc with
  | none => simp at h
  | some a => simp [prependAll]

/-- The pointer to the child before index `c` of `p`, null for `c = 0`. -/
theorem previousSibling_eq {tm : TreeModel} {p : NodeImpl} {tp : Tree} {k : Nat}
    (hp : tm.node p = some tp) (hk : k < tp.children.length) :
    previousSibling tm (.child p k) = some (if 0 < k then some (.child p (k - 1)) else none) := by
  rw [previousSibling_child hp hk]
  by_cases h : k = 0
  · simp [h]
  · have : 0 < k := by omega
    simp [h, this]

theorem drop_eraseIdx_last {α : Type} (l : List α) (c : Nat) :
    (l.eraseIdx c).drop c = l.drop (c + 1) := by
  by_cases h : c < l.length
  · rw [List.eraseIdx_eq_take_drop_succ, List.drop_append_eq_append_drop]
    have h1 : (l.take c).length = c := by simp; omega
    have h2 : List.drop c (List.take c l) = [] := List.drop_eq_nil_of_le (by omega)
    simp [h1, h2]
  · rw [List.eraseIdx_of_length_le (by omega), List.drop_eq_nil_of_le (by omega),
      List.drop_eq_nil_of_le (by omega)]

theorem take_eraseIdx_last {α : Type} (l : List α) (c : Nat) :
    (l.eraseIdx c).take c = l.take c := by
  by_cases h : c < l.length
  · rw [List.eraseIdx_eq_take_drop_succ, List.take_append_eq_append_take]
    have h1 : (l.take c).length = c := by simp; omega
    simp [h1, List.take_take]
  · rw [List.eraseIdx_of_length_le (by omega)]

/-- The backward loop of the actions that change the tree, run over the
children `c - 1`, ..., `0` of `p`. -/
theorem backwardLoop_removes {action : ActionType} (hrem : action ≠ .CLONE_CONTENTS)
    (p : NodeImpl) (c : Nat) :
    ∀ (fuel : Nat) (tm : TreeModel) (tp : Tree) (fr : Frame) (acc : Option Tree)
      (ec : ExceptionCode),
      tm.node p = some tp → c ≤ tp.children.length → c ≤ fuel →
      (action = .EXTRACT_CONTENTS → acc.isSome = true) →
      ∃ tm1, tm.replace p (tp.withChildren (tp.children.drop c)) = some tm1 ∧
        backwardLoop action fuel tm fr (some p) acc
            (if 0 < c then some (.child p (c - 1)) else none) ec =
          some (tm1, fr.relocate (relocateBelow p c), some p,
            (if action = .EXTRACT_CONTENTS then prependAll acc (tp.children.take c) else acc),
            ec) := by
  induction c with
  | zero =>
    intro fuel tm tp fr acc ec hp _ _ _
    refine ⟨tm, ?_, ?_⟩
    · simp only [List.drop_zero, Tree.withChildren_self]
      exact replace_same hp
    · have hfr : fr.relocate (relocateBelow p 0) = fr := frameRelocate_id fr
      rw [hfr]
      simp only [Nat.lt_irrefl, if_false, List.take_zero, prependAll_nil, ite_self]
      unfold backwardLoop
      rfl
  | succ c ih =>
    intro fuel tm tp fr acc ec hp hc hf hacc
    have hk : c < tp.children.length := by omega
    obtain ⟨tm0, h0, hdet⟩ := detachNode_child hp hk
    have hp0 : tm0.node p = some (tp.withChildren (tp.children.eraseIdx c)) :=
      replace_node_self h0
    have hlen0 : (tp.children.eraseIdx c).length = tp.children.length - 1 :=
      List.length_eraseIdx_of_lt hk
    obtain ⟨fuel, rfl⟩ : ∃ f, fuel = f + 1 := ⟨fuel - 1, by omega⟩
    obtain ⟨tm1, h1, h2⟩ := ih fuel tm0 (tp.withChildren (tp.children.eraseIdx c))
      (fr.relocate (relocate p c))
      (if action = .EXTRACT_CONTENTS then prependAll acc [tp.children[c]] else acc) ec
      hp0 (by rw [Tree.withChildren_children, hlen0]; omega) (by omega)
      (fun h => by simp [h, prependAll_isSome (hacc h)])
    rw [replace_replace h0, Tree.withChildren_withChildren, Tree.withChildren_children,
      drop_eraseIdx_last] at h1
    refine ⟨tm1, h1, ?_⟩
    have hprev : (if 0 < c then some (NodeImpl.child p (c - 1)) else none : Ptr).map
        (relocate p c) = if 0 < c then some (NodeImpl.child p (c - 1)) else none := by
      by_cases h : 0 < c
      · have : ¬ c < c - 1 := by omega
        simp [h, relocate, this]
      · simp [h]
    have hfr : (fr.relocate (relocate p c)).relocate (relocateBelow p c) =
        fr.relocate (relocateBelow p (c + 1)) := by
      rw [frameRelocate_relocate]
      rfl
    simp only [Nat.succ_pos, if_true, Nat.add_sub_cancel]
    rw [backwardLoop]
    cases action with
    | CLONE_CONTENTS => exact absurd rfl hrem
    | EXTRACT_CONTENTS =>
      simp only [previousSibling_eq hp hk, Option.some_bind, hdet,
        insertBeforeFirstChild_some (hacc rfl), Option.map_some', relocate_self, hprev]
      simp only [if_true] at h2
      rw [h2, hfr, prependAll_prependAll, Tree.withChildren_children, take_eraseIdx_last]
      simp only [if_true]
      rw [List.take_succ, List.getElem?_eq_getElem hk]
      rfl
    | DELETE_CONTENTS =>
      simp only [previousSibling_eq hp hk, Option.some_bind, removeChild,
        NodeImpl.parentNode, if_true, hdet, Option.map_some', relocate_self, hprev]
      simp only [reduceCtorEq, if_false] at h2
      rw [h2, hfr]
      simp

/-- The backward loop of `CLONE_CONTENTS` run over the children `c - 1`, ..., `0`
of `p`: copies of them are put in front, nothing else changes. -/
theorem backwardLoop_clone {tm : TreeModel} {p : NodeImpl} {tp : Tree}
    (hp : tm.node p = some tp) (fr : Frame) (parent : Ptr) (ec : ExceptionCode) (c : Nat) :
    ∀ (fuel : Nat) (acc : Option Tree),
      c ≤ tp.children.length → c ≤ fuel → acc.isSome = true →
      backwardLoop .CLONE_CONTENTS fuel tm fr parent acc
          (if 0 < c then some (.child p (c - 1)) else none) ec =
        some (tm, fr, parent, prependAll acc (tp.children.take c), ec) := by
  induction c with
  | zero =>
    intro fuel acc _ _ _
    simp only [Nat.lt_irrefl, if_false, List.take_zero, prependAll_nil]
    unfold backwardLoop
    rfl
  | succ c ih =>
    intro fuel acc hc hf hacc
    have hk : c < tp.children.length := by omega
    obtain ⟨fuel, rfl⟩ : ∃ f, fuel = f + 1 := ⟨fuel - 1, by omega⟩
    have := ih fuel (prependAll acc [tp.children[c]]) (by omega) (by omega)
      (prependAll_isSome hacc _)
    simp only [Nat.succ_pos, if_true, Nat.add_sub_cancel]
    rw [backwardLoop]
    simp only [previousSibling_eq hp hk, Option.some_bind, cloneNode, node_child_of_lt hp hk,
      Option.map_some', if_true, insertBeforeFirstChild_some hacc, this, prependAll_prependAll]
    rw [List.take_succ, List.getElem?_eq_getElem hk]
    rfl

/-- The loop of lines 569-574 stops at child `min (endOffset - 1) (len - 1)`. -/
theorem lastBefore_spec {tm : TreeModel} {p : NodeImpl} {tp : Tree}
    (hp : tm.node p = some tp) (endOffset : Nat) (d : Nat) :
    ∀ (fuel k : Nat), k < tp.children.length →
      k + d = max k (min (endOffset - 1) (tp.children.length - 1)) → d < fuel →
      lastBefore tm endOffset fuel (.child p k) k = some (.child p (k + d)) := by
  induction d with
  | zero =>
    intro fuel k hk hkd hf
    obtain ⟨fuel, rfl⟩ : ∃ f, fuel = f + 1 := ⟨fuel - 1, by omega⟩
    by_cases h : k + 1 < endOffset
    · have h1 : ¬ k + 1 < tp.children.length := by omega
      simp [lastBefore, h, nextSibling_eq_childAt hp hk, childAt, h1]
    · simp [lastBefore, h]
  | succ d ih =>
    intro fuel k hk hkd hf
    obtain ⟨fuel, rfl⟩ : ∃ f, fuel = f + 1 := ⟨fuel - 1, by omega⟩
    have h : k + 1 < endOffset := by omega
    have h1 : k + 1 < tp.children.length := by omega
    have := ih fuel (k + 1) h1 (by omega) (by omega)
    simp only [lastBefore, h, if_true, nextSibling_eq_childAt hp hk, childAt, h1,
      Option.some_bind, this]
    congr 2
    omega

/-! ## The complex case: the left-hand side -/

theorem characterLike_of_textLike {k : NodeType} (h : isTextCDataOrComment k = true) :
    isCharacterLike k = true := by
  cases k <;> simp_all [isCharacterLike, isTextCDataOrComment]

theorem offsetBound_of_textLike {t : Tree} (h : isTextCDataOrComment t.nodeType = true) :
    offsetBound t = t.data.length := by
  simp [offsetBound, characterLike_of_textLike h]

theorem offsetBound_of_not_characterLike {t : Tree} (h : isCharacterLike t.nodeType = false) :
    offsetBound t = t.children.length := by
  simp [offsetBound, h]

theorem frame_fixed_iterate {fr : Frame} {p : NodeImpl}
    (hfix : ∀ x, x ∈ fr.pointers → ∀ i, .child p i ∉ x.ancestors) (k m : Nat) :
    fr.relocate ((relocate p k)^[m]) = fr :=
  frameRelocate_of_fixed fun x hx =>
    iterate_relocate_of_not_after p k m fun i hi => absurd hi (hfix x hx i)

theorem frame_fixed_below {fr : Frame} {p : NodeImpl}
    (hfix : ∀ x, x ∈ fr.pointers → ∀ i, .child p i ∉ x.ancestors) (c : Nat) :
    fr.relocate (relocateBelow p c) = fr :=
  frameRelocate_of_fixed fun x hx => relocateBelow_of_not_below p c (hfix x hx)

/-- The left-hand side at the start container: the node `K` left at the
container and the `leftContents` `F` are the same for all actions. -/
theorem processLeftStart_spec {tm : TreeModel} {fr : Frame} {sc : NodeImpl} {ts : Tree}
    (hsc : fr.range.m_startContainer = some sc) (hts : tm.node sc = some ts)
    (hso0 : 0 ≤ fr.range.m_startOffset) (hso : fr.range.m_startOffset ≤ offsetBound ts)
    (hb : (offsetBound ts : Int) < 2 ^ 31)
    (hfix : ∀ x, x ∈ fr.pointers → ∀ i, .child sc i ∉ x.ancestors) :
    ∃ K F, K.nodeType = ts.nodeType ∧
      (∀ i : Nat, (i : Int) < fr.range.m_startOffset → K.children[i]? = ts.children[i]?) ∧
      F = leftStartContents ts fr.range.m_startOffset.toNat ∧
      ∀ (action : ActionType) (ec : ExceptionCode),
      ∃ tm1 ec1, tm.replace sc K = some tm1 ∧
        processLeftStart action tm fr ec =
          some (if action.removes then tm1 else tm, fr, if action.copies then F else none,
            ec1) := by
  generalize hoff : fr.range.m_startOffset = so at *
  have hus : toUnsigned so = so.toNat := toUnsigned_of_nonneg hso0 (by omega)
  by_cases hk1 : isTextCDataOrComment ts.nodeType = true
  · -- character data
    rw [offsetBound_of_textLike hk1] at hso hb
    have hul : toUnsigned ((ts.data.length : Int) - so) = ts.data.length - so.toNat :=
      toUnsigned_natCast_sub hso0 hso hb
    have hn1 : ¬ so.toNat > ts.data.length := by omega
    have hn2 : ¬ ((ts.data.length : Int) < so) := by omega
    refine ⟨ts.withData (ts.data.take so.toNat ++
      ts.data.drop (so.toNat + (ts.data.length - so.toNat))),
      some (ts.withData (ts.data.take 0 ++ ts.data.drop (0 + so.toNat))), rfl,
      fun _ _ => rfl, by simp [leftStartContents, hk1], ?_⟩
    intro action ec
    obtain ⟨tm1, h1⟩ := replace_total hts (ts.withData (ts.data.take so.toNat ++
      ts.data.drop (so.toNat + (ts.data.length - so.toNat))))
    refine ⟨tm1, ec, h1, ?_⟩
    cases action <;>
      simp [processLeftStart, hsc, nodeType, hts, hk1, ActionType.copies, ActionType.removes,
        cloneNode, hoff, hus, hul, length, deleteData, Tree.deleteData, hn1, hn2, h1]
  · by_cases hk2 : ts.nodeType = NodeType.PROCESSING_INSTRUCTION_NODE
    · -- processing instruction: nothing is done
      refine ⟨ts, none, rfl, fun _ _ => rfl,
        by simp [leftStartContents, hk2, isTextCDataOrComment], ?_⟩
      intro action ec
      refine ⟨tm, ec, replace_same hts, ?_⟩
      simp [processLeftStart, hsc, nodeType, hts, hk2, isTextCDataOrComment]
    · -- a container with children
      have hcl : isCharacterLike ts.nodeType = false := by
        cases hk : ts.nodeType <;> simp_all [isCharacterLike, isTextCDataOrComment]
      rw [offsetBound_of_not_characterLike hcl] at hso hb
      have hsk := skipSiblings_spec hts so.toNat so.toNat
        (siblingBound tm (childAt sc ts.children.length 0)) 0 (by omega)
        (by rw [siblingBound_childAt 0 hts]; split <;> omega)
      simp only [Nat.zero_add] at hsk
      have hfuel : ts.children.length - so.toNat ≤
          siblingBound tm (childAt sc ts.children.length 0) := by
        rw [siblingBound_childAt 0 hts]; split <;> omega
      have hhalt : ((none : Ptr) = none ∧
          (so.toNat + (ts.children.length - so.toNat) = ts.children.length ∨
            belowLimit none (0 + (ts.children.length - so.toNat)) = false)) ∨
          ((none : Ptr) = some (.child sc (so.toNat + (ts.children.length - so.toNat))) ∧
            so.toNat + (ts.children.length - so.toNat) < ts.children.length) :=
        Or.inl ⟨rfl, Or.inl (by omega)⟩
      refine ⟨ts.withChildren (ts.children.take so.toNat ++
          ts.children.drop (so.toNat + (ts.children.length - so.toNat))),
        appendAll (some (ts.withChildren []))
          ((ts.children.drop so.toNat).take (ts.children.length - so.toNat)), rfl, ?_, ?_, ?_⟩
      · intro i hi
        rw [Tree.withChildren_children,
          List.getElem?_append_left (by simp only [List.length_take]; omega)]
        exact List.getElem?_take_of_lt (by omega)
      · have htake : List.take (ts.children.length - so.toNat) (List.drop so.toNat ts.children)
            = List.drop so.toNat ts.children := List.take_of_length_le (by simp)
        simp [leftStartContents, hk1, hk2, appendAll, htake, Tree.withChildren_children,
          Tree.withChildren_withChildren]
      intro action ec
      by_cases hrem : action = .CLONE_CONTENTS
      · subst hrem
        obtain ⟨tm1, h1⟩ := replace_total hts (ts.withChildren (ts.children.take so.toNat ++
          ts.children.drop (so.toNat + (ts.children.length - so.toNat))))
        refine ⟨tm1, ec, h1, ?_⟩
        have hloop := forwardLoop_clone none hts fr (some sc) none ec
          (ts.children.length - so.toNat) _ so.toNat 0 (some (ts.withChildren []))
          (by omega) hfuel rfl (fun _ _ => rfl) hhalt
        simp only [processLeftStart, hsc, nodeType, hts, Option.map_some', Option.some_bind,
          hk1, hk2, Bool.false_eq_true, if_false, firstChild_eq_childAt hts, hoff, hus, hsk,
          ActionType.copies, ActionType.removes, cloneNode]
        simp only [decide_True, decide_False, Bool.or_true, Bool.or_false, if_true,
          Option.map_some', Option.some_bind, reduceCtorEq, Bool.false_eq_true, if_false]
        rw [hloop]
        rfl
      · have hacc : ∀ acc : Option Tree, acc = (if action.copies then some (ts.withChildren [])
            else none) → action = .EXTRACT_CONTENTS → acc.isSome = true := by
          intro acc ha h
          subst h
          subst ha
          rfl
        obtain ⟨tm1, h1, hloop⟩ := forwardLoop_removes hrem none sc so.toNat
          (ts.children.length - so.toNat) _ tm ts fr none
          (if action.copies then some (ts.withChildren []) else none) 0 ec hts (by omega) hfuel
          (hacc _ rfl) (fun _ _ => rfl) hhalt
        refine ⟨tm1, ec, h1, ?_⟩
        rw [frame_fixed_iterate hfix] at hloop
        simp only [processLeftStart, hsc, nodeType, hts, Option.map_some', Option.some_bind,
          hk1, hk2, Bool.false_eq_true, if_false, firstChild_eq_childAt hts, hoff, hus, hsk,
          cloneNode]
        cases action with
        | CLONE_CONTENTS => exact absurd rfl hrem
        | EXTRACT_CONTENTS =>
          simp only [ActionType.copies, ActionType.removes, decide_True, decide_False,
            Bool.or_true, Bool.or_false, Bool.true_or, if_true, Option.map_some',
            Option.some_bind, reduceCtorEq, Bool.false_eq_true, if_false] at hloop ⊢
          rw [hloop]
          rfl
        | DELETE_CONTENTS =>
          simp only [ActionType.copies, ActionType.removes, decide_True, decide_False,
            Bool.or_true, Bool.or_false, Bool.true_or, Bool.or_self, if_true, Option.map_some',
            Option.some_bind, reduceCtorEq, Bool.false_eq_true, if_false] at hloop ⊢
          rw [hloop]
          rfl

theorem appendChild_onto (t : Tree) (F : Option Tree) (ec : ExceptionCode) :
    appendChild (some t) F ec =
      some (some (t.withChildren (t.children ++ F.toList)),
        if F.isSome then ec else NOT_FOUND_ERR) := by
  cases F with
  | none => simp [appendChild, Tree.withChildren_self]
  | some f => simp [appendChild]

theorem nextSibling_replace_self {tm tm1 : TreeModel} {A : NodeImpl} {K : Tree}
    (hA : tm.valid A) (h : tm.replace A K = some tm1) :
    nextSibling tm1 A = nextSibling tm A := by
  obtain ⟨t, ht⟩ := valid_iff.mp hA
  cases A with
  | root k => simp [nextSibling, replace_node_self h, ht]
  | child P c =>
    obtain ⟨tp, hp, _⟩ := node_child_some ht
    have h1 := replace_node_parent hp ht h
    simp [nextSibling, replace_node_self h, ht, h1, hp, Tree.withChildren_children]

theorem previousSibling_replace_self {tm tm1 : TreeModel} {A : NodeImpl} {K : Tree}
    (hA : tm.valid A) (h : tm.replace A K = some tm1) :
    previousSibling tm1 A = previousSibling tm A := by
  obtain ⟨t, ht⟩ := valid_iff.mp hA
  simp [previousSibling, replace_node_self h, ht]

theorem drop_set_after {α : Type} (l : List α) (c : Nat) (x : α) :
    (l.set c x).drop (c + 1) = l.drop (c + 1) :=
  List.drop_set_of_lt x l (by omega)

/-- One pass of the loop over the ancestors of the start container. -/
theorem leftLevel_spec {tm : TreeModel} {fr : Frame} {P : NodeImpl} {TP : Tree} {c : Nat}
    (hP : tm.node P = some TP) (hc : c < TP.children.length)
    (hfix : ∀ x, x ∈ fr.pointers → ∀ i, .child P i ∈ x.ancestors → i ≤ c + 1)
    (K : Tree) (F : Option Tree) (action : ActionType) (ec : ExceptionCode) (tmA : TreeModel)
    (hrem : action.removes = true → tm.replace (.child P c) K = some tmA)
    (hclone : action.removes = false → tmA = tm) :
    ∃ tm1 ec1,
      (action.removes = true →
        tm.replace P (TP.withChildren ((TP.children.set c K).take (c + 1))) = some tm1) ∧
      (action.removes = false → tm1 = tm) ∧
      leftLevel action tmA fr P (childAt P TP.children.length (c + 1))
          (if action.copies then F else none) ec =
        some (tm1, fr, some P,
          if action.copies then
            some (TP.withChildren (F.toList ++ TP.children.drop (c + 1)))
          else none, ec1) := by
  have hfr : fr.relocate ((relocate P (c + 1))^[TP.children.length - (c + 1)]) = fr :=
    frameRelocate_of_fixed fun x hx => iterate_relocate_of_not_after P (c + 1) _ (hfix x hx)
  have hhalt : ∀ len : Nat, len = TP.children.length → ((none : Ptr) = none ∧
      (c + 1 + (TP.children.length - (c + 1)) = len ∨
        belowLimit none (0 + (TP.children.length - (c + 1))) = false)) ∨
      ((none : Ptr) = some (.child P (c + 1 + (TP.children.length - (c + 1)))) ∧
        c + 1 + (TP.children.length - (c + 1)) < len) :=
    fun len hlen => Or.inl ⟨rfl, Or.inl (by omega)⟩
  by_cases hr : action.removes = true
  · -- the tree changes
    have hA := hrem hr
    have hne : action ≠ .CLONE_CONTENTS := by
      intro h
      subst h
      simp [ActionType.removes] at hr
    have hAP : tm.replace P (TP.withChildren (TP.children.set c K)) = some tmA := by
      rw [← replace_child hP hc]
      exact hA
    have hPA : tmA.node P = some (TP.withChildren (TP.children.set c K)) :=
      replace_node_self hAP
    have hlenA : (TP.withChildren (TP.children.set c K)).children.length
        = TP.children.length := by simp [Tree.withChildren_children]
    have hfuel : TP.children.length - (c + 1) ≤
        siblingBound tmA (childAt P TP.children.length (c + 1)) := by
      have := siblingBound_childAt (c + 1) hPA
      rw [hlenA] at this
      rw [this]
      split <;> omega
    have hacc : ∀ acc : Option Tree,
        acc = (if action.copies then some (TP.withChildren F.toList) else none) →
        action = .EXTRACT_CONTENTS → acc.isSome = true := by
      intro acc ha h
      subst h
      subst ha
      rfl
    obtain ⟨tm1, h1, hloop⟩ := forwardLoop_removes hne none P (c + 1)
      (TP.children.length - (c + 1)) _ tmA (TP.withChildren (TP.children.set c K)) fr none
      (if action.copies then some (TP.withChildren F.toList) else none) 0
      (if action.copies then (if F.isSome then ec else NOT_FOUND_ERR) else ec) hPA
      (by rw [hlenA]; omega) hfuel (hacc _ rfl) (fun _ _ => rfl) (hhalt _ hlenA)
    rw [hlenA, hfr] at hloop
    rw [replace_replace hAP, Tree.withChildren_withChildren, Tree.withChildren_children] at h1
    have hdrop : List.drop (c + 1 + (TP.children.length - (c + 1))) (TP.children.set c K) = [] :=
      List.drop_eq_nil_of_le (by simp; omega)
    rw [hdrop, List.append_nil] at h1
    refine ⟨tm1, (if action.copies then (if F.isSome then ec else NOT_FOUND_ERR) else ec),
      fun _ => h1, fun h => by rw [hr] at h; exact absurd h (by simp), ?_⟩
    have htake : List.take (TP.children.length - (c + 1)) (List.drop (c + 1) TP.children)
        = List.drop (c + 1) TP.children := List.take_of_length_le (by simp)
    cases action with
    | CLONE_CONTENTS => exact absurd rfl hne
    | EXTRACT_CONTENTS =>
      simp only [ActionType.copies, decide_True, decide_False, Bool.or_true, Bool.or_false,
        Bool.true_or, if_true, reduceCtorEq] at hloop ⊢
      simp only [leftLevel, ActionType.copies, decide_True, Bool.true_or, if_true, cloneNode,
        hPA, Option.map_some', Bool.false_eq_true, if_false, Option.some_bind,
        Tree.withChildren_withChildren, appendChild_onto, Tree.withChildren_children,
        List.nil_append]
      rw [hloop]
      simp only [appendAll, Option.map_some', Tree.withChildren_children,
        Tree.withChildren_withChildren, drop_set_after, htake]
    | DELETE_CONTENTS =>
      simp only [ActionType.copies, decide_True, decide_False, Bool.or_true, Bool.or_false,
        Bool.true_or, Bool.or_self, if_true, reduceCtorEq, Bool.false_eq_true, if_false]
        at hloop ⊢
      simp only [leftLevel, ActionType.copies, decide_False, Bool.or_self, reduceCtorEq,
        Bool.false_eq_true, if_false, Option.some_bind]
      rw [hloop]
  · -- `CLONE_CONTENTS`
    have hr' : action.removes = false := by simpa using hr
    have hA := hclone hr'
    subst hA
    have hcl : action = .CLONE_CONTENTS := by
      cases action <;> simp_all [ActionType.removes]
    subst hcl
    have hfuel : TP.children.length - (c + 1) ≤
        siblingBound tmA (childAt P TP.children.length (c + 1)) := by
      rw [siblingBound_childAt (c + 1) hP]
      split <;> omega
    have hloop := forwardLoop_clone none hP fr (some P) none
      (if F.isSome then ec else NOT_FOUND_ERR)
      (TP.children.length - (c + 1)) _ (c + 1) 0 (some (TP.withChildren F.toList))
      (by omega) hfuel rfl (fun _ _ => rfl) (hhalt _ rfl)
    have htake : List.take (TP.children.length - (c + 1)) (List.drop (c + 1) TP.children)
        = List.drop (c + 1) TP.children := List.take_of_length_le (by simp)
    refine ⟨tmA, (if F.isSome then ec else NOT_FOUND_ERR),
      fun h => by rw [hr'] at h; exact absurd h (by simp), fun _ => rfl, ?_⟩
    simp only [leftLevel, ActionType.copies, decide_True, Bool.or_true, if_true, cloneNode,
      hP, Option.map_some', Bool.false_eq_true, if_false, Option.some_bind,
      appendChild_onto, Tree.withChildren_children, List.nil_append,
      Tree.withChildren_withChildren]
    rw [hloop]
    simp only [appendAll, Option.map_some', Tree.withChildren_children,
      Tree.withChildren_withChildren, htake]

theorem nextSibling_total {tm : TreeModel} {n : NodeImpl} (h : tm.valid n) :
    ∃ x, nextSibling tm n = some x := by
  obtain ⟨t, ht⟩ := valid_iff.mp h
  cases n with
  | root k => exact ⟨none, by simp [nextSibling, ht]⟩
  | child p i =>
    obtain ⟨tp, hp, _⟩ := node_child_some ht
    exact ⟨_, by simp [nextSibling, ht, hp]; rfl⟩

theorem previousSibling_total {tm : TreeModel} {n : NodeImpl} (h : tm.valid n) :
    ∃ x, previousSibling tm n = some x := by
  obtain ⟨t, ht⟩ := valid_iff.mp h
  cases n with
  | root k => exact ⟨none, by simp [previousSibling, ht]⟩
  | child p i =>
    by_cases h0 : i = 0
    · subst h0
      exact ⟨none, by simp [previousSibling, ht]⟩
    · exact ⟨some (.child p (i - 1)), by simp [previousSibling, ht, h0]⟩

/-- A pointer that is not strictly below `ps` is not strictly below a node at
or below `ps`. -/
theorem not_below_of_not_below {ps p x : NodeImpl} (hp : ps ∈ p.ancestors)
    (hx : ∀ i, .child ps i ∉ x.ancestors) (i : Nat) : .child p i ∉ x.ancestors := by
  intro h
  by_cases he : ps = p
  · subst he
    exact hx i h
  · obtain ⟨k, hk⟩ := exists_child_mem_ancestors hp he
    exact hx k (ancestors_trans hk (parent_mem_ancestors h))

/-- The loop over the ancestors of the start container: the node `K'` left at
the child of the common root and the `leftContents` `F'` are the same for all
actions. -/
theorem leftLevels_spec {tm : TreeModel} {fr : Frame} {R sc : NodeImpl} {a : Nat}
    (hR : fr.cmnRoot = some R) (hscv : tm.valid sc)
    (hfix : ∀ x, x ∈ fr.pointers → x = sc ∨ ∀ i, .child (.child R a) i ∉ x.ancestors) :
    ∀ (A : NodeImpl), A ∈ sc.ancestors → .child R a ∈ A.ancestors →
      ∀ (K : Tree) (F : Option Tree) (n : Ptr) (fuel : Nat),
        nextSibling tm A = some n → A.depth ≤ fuel + R.depth + 1 →
        ∃ K' F', F' = leftSpine tm R A F ∧
          ∀ (action : ActionType) (ec : ExceptionCode) (tmA : TreeModel),
          (action.removes = true → tm.replace A K = some tmA) →
          (action.removes = false → tmA = tm) →
          ∃ tm1 ec1,
            (action.removes = true → tm.replace (.child R a) K' = some tm1) ∧
            (action.removes = false → tm1 = tm) ∧
            tm1.node sc = tmA.node sc ∧
            (action.removes = true → ∀ y, y ∉ sc.ancestors →
              (∀ (P : NodeImpl) (c i : Nat), .child P c ∈ sc.ancestors →
                .child R a ∈ P.ancestors → .child P i ∈ y.ancestors → i ≤ c) →
              tm1.node y = tmA.node y) ∧
            leftLevels action fuel tmA fr A.parentNode n (if action.copies then F else none) ec
              = some (tm1, fr, if action.copies then F' else none, ec1) := by
  intro A
  induction A with
  | root k =>
    intro _ h
    simp [NodeImpl.ancestors] at h
  | child P c ih =>
    intro hA hPS K F n fuel hn hd
    by_cases hPR : P = R
    · subst hPR
      have hca : c = a := by
        rcases mem_ancestors_child.mp hPS with h | h
        · injection h with _ h2
          exact h2.symm
        · exact absurd h (child_not_mem_ancestors _ _)
      subst hca
      refine ⟨K, F, by simp [leftSpine], fun action ec tmA hrem hclone =>
        ⟨tmA, ec, hrem, hclone, rfl, fun _ _ _ _ => rfl, ?_⟩⟩
      unfold leftLevels
      simp [NodeImpl.parentNode, hR]
    · have hPS' : .child R a ∈ P.ancestors := by
        rcases mem_ancestors_child.mp hPS with h | h
        · injection h with h1 _
          exact absurd h1.symm hPR
        · exact h
      have hP' : P ∈ sc.ancestors := parent_mem_ancestors hA
      have hAv : tm.valid (.child P c) := valid_of_mem_ancestors hscv hA
      obtain ⟨TP, hTP⟩ := valid_iff.mp (valid_parent hAv)
      have hc : c < TP.children.length := valid_child_lt hTP hAv
      have hn' : n = childAt P TP.children.length (c + 1) := by
        rw [nextSibling_eq_childAt hTP hc] at hn
        exact (Option.some.inj hn).symm
      subst hn'
      obtain ⟨n1, hn1⟩ := nextSibling_total (valid_parent hAv)
      have hdR := depth_le_of_mem_ancestors hPS'
      simp only [NodeImpl.depth] at hd hdR
      obtain ⟨fuel, rfl⟩ : ∃ f, fuel = f + 1 := ⟨fuel - 1, by omega⟩
      obtain ⟨K', F', hF', hIH⟩ := ih hP' hPS'
        (TP.withChildren ((TP.children.set c K).take (c + 1)))
        (some (TP.withChildren (F.toList ++ TP.children.drop (c + 1)))) n1 fuel hn1 (by omega)
      refine ⟨K', F', by rw [hF']; simp only [leftSpine, hPR, if_false, hTP],
        fun action ec tmA hrem hclone => ?_⟩
      have hfix' : ∀ x, x ∈ fr.pointers → ∀ i, .child P i ∈ x.ancestors → i ≤ c + 1 := by
        intro x hx i hi
        rcases hfix x hx with h | h
        · subst h
          have := eq_of_mem_ancestors_same_depth hi hA (by simp [NodeImpl.depth])
          injection this with _ h2
          omega
        · exact absurd hi (not_below_of_not_below hPS' h i)
      obtain ⟨tmB, ecB, hB1, hB2, hBloop⟩ :=
        leftLevel_spec hTP hc hfix' K F action ec tmA hrem hclone
      obtain ⟨tm1, ec1, h1, h2, h3, h3f, h4⟩ := hIH action ecB tmB hB1 hB2
      have hframe : action.removes = true → ∀ y, y ∉ sc.ancestors →
          (∀ (P : NodeImpl) (c i : Nat), .child P c ∈ sc.ancestors →
            .child R a ∈ P.ancestors → .child P i ∈ y.ancestors → i ≤ c) →
          tm1.node y = tmA.node y := by
        intro hr y hy hkept
        rw [h3f hr y hy hkept]
        have hAP : tm.replace P (TP.withChildren (TP.children.set c K)) = some tmA := by
          rw [← replace_child hTP hc]
          exact hrem hr
        have hB := hB1 hr
        rw [← replace_replace hAP] at hB
        have hyP : y ∉ P.ancestors := fun h => hy (ancestors_trans h hP')
        by_cases hPy : P ∈ y.ancestors
        · have hne : P ≠ y := fun h => hyP (h ▸ mem_ancestors_self _)
          obtain ⟨i, hi⟩ := exists_child_mem_ancestors hPy hne
          have hic := hkept P c i hA hPS' hi
          refine replace_node_below (replace_node_self hAP) hB (c := i) ?_ hi
          simp only [Tree.withChildren_children]
          exact List.getElem?_take_of_lt (by omega)
        · exact replace_node_disjoint hB hPy hyP
      have hnode : tmB.node sc = tmA.node sc := by
        by_cases hr : action.removes = true
        · have hAP : tm.replace P (TP.withChildren (TP.children.set c K)) = some tmA := by
            rw [← replace_child hTP hc]
            exact hrem hr
          have hB := hB1 hr
          rw [← replace_replace hAP] at hB
          refine replace_node_below (replace_node_self hAP) hB (c := c) ?_ hA
          simp [Tree.withChildren_children, List.getElem?_take]
        · have hr' : action.removes = false := by simpa using hr
          rw [hB2 hr', hclone hr']
      have hnext : nextSibling tmB P = some n1 := by
        by_cases hr : action.removes = true
        · rw [nextSibling_replace_self (valid_parent hAv) (hB1 hr), hn1]
        · have hr' : action.removes = false := by simpa using hr
          rw [hB2 hr', hn1]
      refine ⟨tm1, ec1, h1, h2, by rw [h3, hnode], hframe, ?_⟩
      have hne : ¬ (some P = fr.cmnRoot) := by
        rw [hR]
        intro h
        exact hPR (Option.some.inj h)
      unfold leftLevels
      simp only [NodeImpl.parentNode, hne, if_false, hBloop, Option.some_bind, hnext]
      exact h4

/-- The left-hand side of the complex case: the tree after it is the tree
before it with another node `K'` at the child of the common root above the
start container; `K'` and the `leftContents` `F'` are the same for all actions;
the frame is unchanged and the start container keeps its kind. -/
theorem processLeft_spec {tm : TreeModel} {fr : Frame} {R sc : NodeImpl} {ts : Tree} {a : Nat}
    (hR : fr.cmnRoot = some R) (hsc : fr.range.m_startContainer = some sc)
    (hts : tm.node sc = some ts) (hPS : .child R a ∈ sc.ancestors)
    (hso0 : 0 ≤ fr.range.m_startOffset) (hso : fr.range.m_startOffset ≤ offsetBound ts)
    (hb : (offsetBound ts : Int) < 2 ^ 31)
    (hfix : ∀ x, x ∈ fr.pointers → x = sc ∨ ∀ i, .child (.child R a) i ∉ x.ancestors) :
    ∃ K' F', F' = leftSpine tm R sc (leftStartContents ts fr.range.m_startOffset.toNat) ∧
      ∀ (action : ActionType) (ec : ExceptionCode),
      ∃ tm1 ec1,
        (action.removes = true → tm.replace (.child R a) K' = some tm1) ∧
        (action.removes = false → tm1 = tm) ∧
        nodeType tm1 sc = some ts.nodeType ∧
        (action.removes = true →
          ∀ y, KeptLeft (.child R a) sc fr.range.m_startOffset y → tm1.node y = tm.node y) ∧
        processLeft action tm fr ec
          = some (tm1, fr, if action.copies then F' else none, ec1) := by
  have hscv : tm.valid sc := valid_iff.mpr ⟨ts, hts⟩
  have hfix0 : ∀ x, x ∈ fr.pointers → ∀ i, .child sc i ∉ x.ancestors := by
    intro x hx i
    rcases hfix x hx with h | h
    · subst h
      exact child_not_mem_ancestors _ _
    · exact not_below_of_not_below hPS h i
  obtain ⟨K0, F0, hK0, hK0c, hF0, hstart⟩ := processLeftStart_spec hsc hts hso0 hso hb hfix0
  obtain ⟨n, hn⟩ := nextSibling_total hscv
  obtain ⟨K', F', hF', hlev⟩ := leftLevels_spec hR hscv hfix sc (mem_ancestors_self _) hPS K0 F0 n
    sc.depth hn (by omega)
  refine ⟨K', F', by rw [hF', hF0], fun action ec => ?_⟩
  obtain ⟨tmA, ecA, hA, hAeq⟩ := hstart action ec
  obtain ⟨tm1, ec1, h1, h2, h3, h3f, h4⟩ :=
    hlev action ecA (if action.removes then tmA else tm)
      (fun h => by simp [h, hA]) (fun h => by simp [h])
  have hframe : action.removes = true →
      ∀ y, KeptLeft (.child R a) sc fr.range.m_startOffset y → tm1.node y = tm.node y := by
    intro hr y hy
    obtain ⟨hy1, hy2, hy3⟩ := hy
    rw [h3f hr y hy1 hy3]
    simp only [hr, if_true]
    by_cases hsy : sc ∈ y.ancestors
    · have hne : sc ≠ y := fun h => hy1 (h ▸ mem_ancestors_self _)
      obtain ⟨i, hi⟩ := exists_child_mem_ancestors hsy hne
      exact replace_node_below hts hA (hK0c i (hy2 i hi)) hi
    · exact replace_node_disjoint hA hsy hy1
  have hnode : nodeType tm1 sc = some ts.nodeType := by
    by_cases hr : action.removes = true
    · simp only [hr, if_true] at h3
      simp [nodeType, h3, replace_node_self hA, hK0]
    · have hr' : action.removes = false := by simpa using hr
      simp [nodeType, h2 hr', hts]
  have hnext : nextSibling (if action.removes then tmA else tm) sc = some n := by
    by_cases hr : action.removes = true
    · simp only [hr, if_true]
      rw [nextSibling_replace_self hscv hA, hn]
    · have hr' : action.removes = false := by simpa using hr
      simp only [hr', Bool.false_eq_true, if_false, hn]
  refine ⟨tm1, ec1, h1, h2, hnode, hframe, ?_⟩
  simp only [processLeft, hAeq, Option.some_bind, hsc, hnext]
  exact h4

/-! ## The complex case: the right-hand side -/

/-- The places of the nodes below `p` after another node has been stored at `p`:
`f` maps child `i` of `p` to child `g i`, and the new node holds at `g i` what the old
one held at `i`. -/
theorem node_reindex_new {tm tm1 : TreeModel} {p : NodeImpl} {P new : Tree}
    (hp : tm.node p = some P) (hr : tm.replace p new = some tm1)
    (f : NodeImpl → NodeImpl) (g : Nat → Nat)
    (hfp : ∀ i, f (.child p i) = .child p (g i))
    (hfq : ∀ q i, q ≠ p → f (.child q i) = .child (f q) i)
    (hfr : ∀ t, f (.root t) = .root t) :
    ∀ (y : NodeImpl), y ∉ p.ancestors →
      (∀ i, .child p i ∈ y.ancestors → new.children[g i]? = P.children[i]?) →
      tm1.node (f y) = tm.node y := by
  have hfix : ∀ (y : NodeImpl), p ∉ y.ancestors → f y = y := by
    intro y
    induction y with
    | root t => intro _; exact hfr t
    | child a i ih =>
      intro hy
      have ha : p ∉ a.ancestors := fun h => hy (mem_ancestors_child.mpr (Or.inr h))
      have hne : a ≠ p := by
        intro he
        subst he
        exact ha (mem_ancestors_self _)
      rw [hfq a i hne, ih ha]
  intro y
  induction y with
  | root t =>
    intro hy _
    rw [hfr]
    refine replace_node_disjoint hr ?_ hy
    intro h
    simp only [NodeImpl.ancestors, List.mem_singleton] at h
    exact hy (h ▸ mem_ancestors_self _)
  | child a i ih =>
    intro hy hL
    by_cases hb : p ∈ (NodeImpl.child a i).ancestors
    · by_cases hap : a = p
      · subst hap
        rw [hfp]
        simp only [TreeModel.node, replace_node_self hr, hp, Option.some_bind]
        exact hL i (mem_ancestors_self _)
      · rw [hfq a i hap]
        have ha : a ∉ p.ancestors := by
          intro h
          rcases mem_ancestors_child.mp hb with h1 | h1
          · exact hy (h1 ▸ mem_ancestors_self _)
          · exact hap (eq_of_mem_ancestors_of_depth_eq h
              (le_antisymm (depth_le_of_mem_ancestors h) (depth_le_of_mem_ancestors h1)))
        simp only [TreeModel.node]
        rw [ih ha fun c hc => hL c (mem_ancestors_child.mpr (Or.inr hc))]
    · rw [hfix _ hb]
      exact replace_node_disjoint hr hb hy

theorem withEnd_self {fr : Frame} {e : NodeImpl} (h : fr.range.m_endContainer = some e) :
    fr.withEnd e = fr := by
  cases fr with
  | mk r cr ps pe =>
    cases r with
    | mk d sc so ec eo dt =>
      simp only at h
      subst h
      rfl

theorem withEnd_withEnd (fr : Frame) (x y : NodeImpl) : (fr.withEnd x).withEnd y = fr.withEnd y :=
  rfl

theorem withEnd_relocate {fr : Frame} {z : NodeImpl} {g : NodeImpl → NodeImpl}
    (h : ∀ y, y ∈ (fr.withEnd z).pointers → g y = y) (x : NodeImpl) :
    (fr.withEnd x).relocate g = fr.withEnd (g x) := by
  cases fr with
  | mk r cr ps pe =>
    cases r with
    | mk d sc so ec eo dt =>
      simp only [Frame.withEnd, Frame.pointers, List.mem_append, Option.mem_toList,
        Option.mem_def] at h
      have h1 : sc.map g = sc := by
        cases sc with
        | none => rfl
        | some x => simp [h x (by simp)]
      have h3 : cr.map g = cr := by
        cases cr with
        | none => rfl
        | some x => simp [h x (by simp)]
      have h4 : ps.map g = ps := by
        cases ps with
        | none => rfl
        | some x => simp [h x (by simp)]
      have h5 : pe.map g = pe := by
        cases pe with
        | none => rfl
        | some x => simp [h x (by simp)]
      simp [Frame.relocate, RangeImpl.relocate, Frame.withEnd, h1, h3, h4, h5]

theorem take_set_before {α : Type} (l : List α) (c : Nat) (x : α) :
    (l.set c x).take c = l.take c := by
  rw [List.set_take, List.set_eq_of_length_le]
  simp

/-- One pass of the loop over the ancestors of the end container. -/
theorem rightLevel_spec {tmb tmc : TreeModel} {fr : Frame} {P : NodeImpl} {TP : Tree} {c : Nat}
    (hP : tmb.node P = some TP) (hPc : tmc.node P = some TP) (hc : c < TP.children.length)
    (hfix : ∀ y, y ∈ (fr.withEnd P).pointers → ∀ i, .child P i ∉ y.ancestors)
    (K : Tree) (F : Option Tree) (action : ActionType) (ec : ExceptionCode) (tmA : TreeModel)
    (x : NodeImpl)
    (hrem : action.removes = true → tmb.replace (.child P c) K = some tmA)
    (hclone : action.removes = false → tmA = tmc) :
    ∃ tm1 ec1,
      (action.removes = true →
        tmb.replace P (TP.withChildren ((TP.children.set c K).drop c)) = some tm1) ∧
      (action.removes = false → tm1 = tmc) ∧
      rightLevel action tmA (fr.withEnd x) P (if 0 < c then some (.child P (c - 1)) else none)
          (if action.copies then F else none) ec =
        some (tm1, if action.removes then fr.withEnd (relocateBelow P c x) else fr.withEnd x,
          some P,
          if action.copies then
            some (TP.withChildren (TP.children.take c ++ F.toList))
          else none, ec1) := by
  have hfr : (fr.withEnd x).relocate (relocateBelow P c) = fr.withEnd (relocateBelow P c x) :=
    withEnd_relocate (z := P)
      (fun y hy => relocateBelow_of_not_below P c (hfix y hy)) x
  have hsb : ∀ tm : TreeModel, ∀ T : Tree, tm.node P = some T →
      T.children.length = TP.children.length →
      c ≤ siblingBound tm (if 0 < c then some (.child P (c - 1)) else none) := by
    intro tm T hT hlen
    by_cases h0 : 0 < c
    · simp only [h0, if_true, siblingBound, hT]
      rw [hlen]
      omega
    · have : c = 0 := by omega
      subst this
      exact Nat.zero_le _
  by_cases hr : action.removes = true
  · have hA := hrem hr
    have hne : action ≠ .CLONE_CONTENTS := by
      intro h
      subst h
      simp [ActionType.removes] at hr
    have hAP : tmb.replace P (TP.withChildren (TP.children.set c K)) = some tmA := by
      rw [← replace_child hP hc]
      exact hA
    have hPA : tmA.node P = some (TP.withChildren (TP.children.set c K)) :=
      replace_node_self hAP
    have hlenA : (TP.withChildren (TP.children.set c K)).children.length
        = TP.children.length := by simp [Tree.withChildren_children]
    have hacc : ∀ acc : Option Tree,
        acc = (if action.copies then some (TP.withChildren F.toList) else none) →
        action = .EXTRACT_CONTENTS → acc.isSome = true := by
      intro acc ha h
      subst h
      subst ha
      rfl
    obtain ⟨tm1, h1, hloop⟩ := backwardLoop_removes hne P c _ tmA
      (TP.withChildren (TP.children.set c K)) (fr.withEnd x)
      (if action.copies then some (TP.withChildren F.toList) else none)
      (if action.copies then (if F.isSome then ec else NOT_FOUND_ERR) else ec) hPA
      (by rw [hlenA]; omega) (hsb tmA _ hPA hlenA) (hacc _ rfl)
    rw [hfr] at hloop
    rw [replace_replace hAP, Tree.withChildren_withChildren, Tree.withChildren_children] at h1
    refine ⟨tm1, (if action.copies then (if F.isSome then ec else NOT_FOUND_ERR) else ec),
      fun _ => h1, fun h => by rw [hr] at h; exact absurd h (by simp), ?_⟩
    cases action with
    | CLONE_CONTENTS => exact absurd rfl hne
    | EXTRACT_CONTENTS =>
      simp only [ActionType.copies, decide_True, decide_False, Bool.or_true, Bool.or_false,
        Bool.true_or, if_true, reduceCtorEq] at hloop ⊢
      simp only [rightLevel, ActionType.copies, ActionType.removes, decide_True, Bool.true_or,
        if_true, cloneNode, hPA, Option.map_some', Bool.false_eq_true, if_false,
        Option.some_bind, Tree.withChildren_withChildren, appendChild_onto,
        Tree.withChildren_children, List.nil_append]
      rw [hloop]
      simp only [prependAll, Option.map_some', Tree.withChildren_children,
        Tree.withChildren_withChildren, take_set_before]
    | DELETE_CONTENTS =>
      simp only [ActionType.copies, decide_True, decide_False, Bool.or_true, Bool.or_false,
        Bool.true_or, Bool.or_self, if_true, reduceCtorEq, Bool.false_eq_true, if_false]
        at hloop ⊢
      simp only [rightLevel, ActionType.copies, ActionType.removes, decide_False, decide_True,
        Bool.or_true, Bool.or_self, reduceCtorEq, Bool.false_eq_true, if_false, if_true,
        Option.some_bind]
      rw [hloop]
  · have hr' : action.removes = false := by simpa using hr
    have hA := hclone hr'
    subst hA
    have hcl : action = .CLONE_CONTENTS := by
      cases action <;> simp_all [ActionType.removes]
    subst hcl
    have hloop := backwardLoop_clone hPc (fr.withEnd x) (some P)
      (if F.isSome then ec else NOT_FOUND_ERR) c _ (some (TP.withChildren F.toList))
      (by omega) (hsb tmA TP hPc rfl) rfl
    refine ⟨tmA, (if F.isSome then ec else NOT_FOUND_ERR),
      fun h => by rw [hr'] at h; exact absurd h (by simp), fun _ => rfl, ?_⟩
    simp only [rightLevel, ActionType.copies, ActionType.removes, decide_True, decide_False,
      Bool.or_true, Bool.or_self, if_true, cloneNode, hPc, Option.map_some',
      Bool.false_eq_true, if_false, Option.some_bind, appendChild_onto,
      Tree.withChildren_children, List.nil_append, Tree.withChildren_withChildren]
    rw [hloop]
    simp [prependAll, Tree.withChildren_children, Tree.withChildren_withChildren]

theorem mem_withEnd_pointers {fr : Frame} {y z : NodeImpl} (w : NodeImpl)
    (h : y ∈ (fr.withEnd z).pointers) : y = z ∨ y ∈ (fr.withEnd w).pointers := by
  simp only [Frame.withEnd, Frame.pointers, List.mem_append, Option.mem_toList,
    Option.mem_def] at h ⊢
  rcases h with (((h | h) | h) | h) | h
  · exact Or.inr (Or.inl (Or.inl (Or.inl (Or.inl h))))
  · exact Or.inl (Option.some.inj h).symm
  · exact Or.inr (Or.inl (Or.inl (Or.inr h)))
  · exact Or.inr (Or.inl (Or.inr h))
  · exact Or.inr (Or.inr h)

theorem previousSibling_congr {tm1 tm2 : TreeModel} {n : NodeImpl}
    (h : tm1.node n = tm2.node n) : previousSibling tm1 n = previousSibling tm2 n := by
  simp [previousSibling, h]

/-- The loop over the ancestors of the end container: the node `K'` left at the
child of the common root and the `rightContents` `F'` are the same for all
actions; the end container stays below that child. -/
theorem rightLevels_spec {tmb tmc : TreeModel} {fr : Frame} {R e : NodeImpl} {b : Nat}
    (hR : fr.cmnRoot = some R) (hev : tmb.valid e)
    (hag : ∀ q, .child R b ∈ q.ancestors → tmc.node q = tmb.node q)
    (hfix : ∀ y, y ∈ (fr.withEnd (.child R b)).pointers →
      ∀ i, .child (.child R b) i ∉ y.ancestors) :
    ∀ (A : NodeImpl), A ∈ e.ancestors → .child R b ∈ A.ancestors →
      ∀ (K : Tree) (F : Option Tree) (n : Ptr) (fuel : Nat),
        previousSibling tmb A = some n → A.depth ≤ fuel + R.depth + 1 →
        ∃ K' F', F' = rightSpine tmc R A F ∧
          ∀ (action : ActionType) (ec : ExceptionCode) (tmA : TreeModel) (x : NodeImpl),
          (action.removes = true → tmb.replace A K = some tmA) →
          (action.removes = false → tmA = tmc) → .child R b ∈ x.ancestors →
          ∃ tm1 ec1 x1,
            (action.removes = true → tmb.replace (.child R b) K' = some tm1) ∧
            (action.removes = false → tm1 = tmc ∧ x1 = x) ∧
            .child R b ∈ x1.ancestors ∧
            (action.removes = true → ∀ y,
              (∀ (P : NodeImpl) (c : Nat), .child P c ∈ A.ancestors →
                .child R b ∈ P.ancestors →
                y ∉ P.ancestors ∧ ∀ i : Nat, .child P i ∈ y.ancestors → c ≤ i) →
              tm1.node (rightLevelsShift R A y) = tmA.node y) ∧
            rightLevels action fuel tmA (fr.withEnd x) A.parentNode n
                (if action.copies then F else none) ec
              = some (tm1, fr.withEnd x1, if action.copies then F' else none, ec1) := by
  intro A
  induction A with
  | root k =>
    intro _ h
    simp [NodeImpl.ancestors] at h
  | child P c ih =>
    intro hA hPE K F n fuel hn hd
    by_cases hPR : P = R
    · subst hPR
      have hcb : c = b := by
        rcases mem_ancestors_child.mp hPE with h | h
        · injection h with _ h2
          exact h2.symm
        · exact absurd h (child_not_mem_ancestors _ _)
      subst hcb
      refine ⟨K, F, by simp [rightSpine], fun action ec tmA x hrem hclone hx =>
        ⟨tmA, ec, x, hrem, fun h => ⟨hclone h, rfl⟩, hx,
          fun _ y _ => by simp [rightLevelsShift], ?_⟩⟩
      unfold rightLevels
      simp [NodeImpl.parentNode, Frame.withEnd, hR]
    · have hPE' : .child R b ∈ P.ancestors := by
        rcases mem_ancestors_child.mp hPE with h | h
        · injection h with h1 _
          exact absurd h1.symm hPR
        · exact h
      have hP' : P ∈ e.ancestors := parent_mem_ancestors hA
      have hAv : tmb.valid (.child P c) := valid_of_mem_ancestors hev hA
      obtain ⟨TP, hTP⟩ := valid_iff.mp (valid_parent hAv)
      have hTPc : tmc.node P = some TP := by rw [hag P hPE', hTP]
      have hc : c < TP.children.length := valid_child_lt hTP hAv
      have hn' : n = if 0 < c then some (.child P (c - 1)) else none := by
        rw [previousSibling_eq hTP hc] at hn
        exact (Option.some.inj hn).symm
      subst hn'
      obtain ⟨n1, hn1⟩ := previousSibling_total (valid_parent hAv)
      have hdR := depth_le_of_mem_ancestors hPE'
      simp only [NodeImpl.depth] at hd hdR
      obtain ⟨fuel, rfl⟩ : ∃ f, fuel = f + 1 := ⟨fuel - 1, by omega⟩
      obtain ⟨K', F', hF', hIH⟩ := ih hP' hPE'
        (TP.withChildren ((TP.children.set c K).drop c))
        (some (TP.withChildren (TP.children.take c ++ F.toList))) n1 fuel hn1 (by omega)
      refine ⟨K', F', by rw [hF']; simp only [rightSpine, hPR, if_false, hTPc],
        fun action ec tmA x hrem hclone hx => ?_⟩
      have hfix' : ∀ y, y ∈ (fr.withEnd P).pointers → ∀ i, .child P i ∉ y.ancestors := by
        intro y hy i
        rcases mem_withEnd_pointers (.child R b) hy with h | h
        · subst h
          exact child_not_mem_ancestors _ _
        · exact not_below_of_not_below hPE' (hfix y h) i
      obtain ⟨tmB, ecB, hB1, hB2, hBloop⟩ :=
        rightLevel_spec hTP hTPc hc hfix' K F action ec tmA x hrem hclone
      have hPEfix : relocateBelow P c (.child R b) = .child R b :=
        relocateBelow_of_not_below P c
          (not_below_of_not_below hPE' fun i => child_not_mem_ancestors _ i)
      have hx' : .child R b ∈ (if action.removes then relocateBelow P c x else x).ancestors := by
        by_cases hr : action.removes = true
        · simp only [hr, if_true]
          have := relocateBelow_mem_ancestors P c hx
          rwa [hPEfix] at this
        · have hr' : action.removes = false := by simpa using hr
          simp only [hr', Bool.false_eq_true, if_false]
          exact hx
      obtain ⟨tm1, ec1, x1, h1, h2, h3, h3f, h4⟩ := hIH action ecB tmB
        (if action.removes then relocateBelow P c x else x) hB1 hB2 hx'
      have hkeep : action.removes = true → ∀ y,
          (∀ (P1 : NodeImpl) (c1 : Nat), .child P1 c1 ∈ (NodeImpl.child P c).ancestors →
            .child R b ∈ P1.ancestors →
            y ∉ P1.ancestors ∧ ∀ i : Nat, .child P1 i ∈ y.ancestors → c1 ≤ i) →
          tm1.node (rightLevelsShift R (.child P c) y) = tmA.node y := by
        intro hr y hkept
        have hAP : tmb.replace P (TP.withChildren (TP.children.set c K)) = some tmA := by
          rw [← replace_child hTP hc]
          exact hrem hr
        have hB := hB1 hr
        rw [← replace_replace hAP] at hB
        obtain ⟨hyP, hyc⟩ := hkept P c (mem_ancestors_self _) hPE'
        have hstep : tmB.node (cut P 0 c y) = tmA.node y :=
          node_cut (replace_node_self hAP) (Nat.zero_le c) (Nat.zero_le _) hB hyP
            fun i hi => Or.inr (hyc i hi)
        simp only [rightLevelsShift, hPR, if_false]
        rw [← hstep]
        refine h3f hr (cut P 0 c y) ?_
        intro P1 c1 hP1 hRP1
        have hd1 := depth_le_of_mem_ancestors hP1
        simp only [NodeImpl.depth] at hd1
        obtain ⟨hy1, hy2⟩ := hkept P1 c1 (mem_ancestors_child.mpr (Or.inr hP1)) hRP1
        refine ⟨?_, ?_⟩
        · intro hmem
          have hd2 := depth_le_of_mem_ancestors hmem
          rw [cut_depth] at hd2
          rw [cut_of_depth_le P 0 c (by omega)] at hmem
          exact hy1 hmem
        · intro i hi
          exact hy2 i ((mem_ancestors_cut P 0 c (by simp only [NodeImpl.depth]; omega) y).mp hi)
      have hprev : previousSibling tmB P = some n1 := by
        by_cases hr : action.removes = true
        · rw [previousSibling_replace_self (valid_parent hAv) (hB1 hr), hn1]
        · have hr' : action.removes = false := by simpa using hr
          rw [hB2 hr', previousSibling_congr (hag P hPE'), hn1]
      have hframe : (if action.removes then fr.withEnd (relocateBelow P c x) else fr.withEnd x)
          = fr.withEnd (if action.removes then relocateBelow P c x else x) := by
        split <;> rfl
      refine ⟨tm1, ec1, x1, h1, fun h => ⟨(h2 h).1, ?_⟩, h3, hkeep, ?_⟩
      · rw [(h2 h).2]
        simp [h]
      · have hne : ¬ (some P = (fr.withEnd x).cmnRoot) := by
          show ¬ (some P = fr.cmnRoot)
          rw [hR]
          intro h
          exact hPR (Option.some.inj h)
        unfold rightLevels
        simp only [NodeImpl.parentNode, hne, if_false, hBloop, Option.some_bind, hprev, hframe]
        exact h4

/-- The children of the end container before the end offset, for the actions
that change the tree. -/
theorem processRightChildren_removes {action : ActionType} (hne : action ≠ .CLONE_CONTENTS)
    {tm : TreeModel} {fr : Frame} {e : NodeImpl} {te : Tree}
    (he : fr.range.m_endContainer = some e) (hte : tm.node e = some te)
    (heo0 : 0 ≤ fr.range.m_endOffset) (heo : fr.range.m_endOffset < 2 ^ 31)
    (hfix : ∀ x, x ∈ fr.pointers → ∀ i, .child e i ∉ x.ancestors)
    (rc : Option Tree) (hrc : action = .EXTRACT_CONTENTS → rc.isSome = true)
    (ec : ExceptionCode) :
    ∃ tm1, tm.replace e (te.withChildren
        (te.children.drop (min fr.range.m_endOffset.toNat te.children.length))) = some tm1 ∧
      processRightChildren action tm fr e rc ec =
        some (tm1, fr,
          if action = .EXTRACT_CONTENTS then
            prependAll rc (te.children.take (min fr.range.m_endOffset.toNat te.children.length))
          else rc, ec) := by
  generalize hoff : fr.range.m_endOffset = eo at *
  have hue : toUnsigned eo = eo.toNat := toUnsigned_of_nonneg heo0 heo
  by_cases hz : min eo.toNat te.children.length = 0
  · -- nothing to do
    refine ⟨tm, ?_, ?_⟩
    · rw [hz, List.drop_zero, Tree.withChildren_self]
      exact replace_same hte
    · rw [hz, List.take_zero, prependAll_nil, ite_self]
      by_cases hlen : 0 < te.children.length
      · have : eo = 0 := by omega
        simp [processRightChildren, firstChild_eq_childAt hte, childAt, hlen, hoff, this]
      · simp [processRightChildren, firstChild_eq_childAt hte, childAt, hlen]
  · have hlen : 0 < te.children.length := by omega
    have hne0 : eo ≠ 0 := by
      intro h
      subst h
      simp at hz
    have hsb : siblingBound tm (some (.child e 0)) = te.children.length := by
      simp [siblingBound, hte]
    have hlast := lastBefore_spec hte eo.toNat (min eo.toNat te.children.length - 1)
      te.children.length 0 hlen (by omega) (by omega)
    obtain ⟨tm1, h1, hloop⟩ := backwardLoop_removes hne e (min eo.toNat te.children.length)
      te.children.length tm te fr rc ec hte (by omega) (by omega) hrc
    have hpos : 0 < min eo.toNat te.children.length := by omega
    rw [frame_fixed_below hfix] at hloop
    simp only [hpos, if_true] at hloop
    refine ⟨tm1, h1, ?_⟩
    simp only [processRightChildren, firstChild_eq_childAt hte, childAt, hlen, if_true,
      Option.some_bind, hoff, hne0, ne_eq, not_false_eq_true, hue, hsb, hlast, Nat.zero_add, he,
      hloop, Option.map_some']

/-- The children of the end container before the end offset, for `CLONE_CONTENTS`. -/
theorem processRightChildren_clone {tm : TreeModel} {fr : Frame} {e : NodeImpl} {te : Tree}
    (hte : tm.node e = some te)
    (heo0 : 0 ≤ fr.range.m_endOffset) (heo : fr.range.m_endOffset < 2 ^ 31)
    (rc : Option Tree) (hrc : rc.isSome = true) (ec : ExceptionCode) :
    processRightChildren .CLONE_CONTENTS tm fr e rc ec =
      some (tm, fr,
        prependAll rc (te.children.take (min fr.range.m_endOffset.toNat te.children.length)),
        ec) := by
  generalize hoff : fr.range.m_endOffset = eo at *
  have hue : toUnsigned eo = eo.toNat := toUnsigned_of_nonneg heo0 heo
  by_cases hz : min eo.toNat te.children.length = 0
  · rw [hz, List.take_zero, prependAll_nil]
    by_cases hlen : 0 < te.children.length
    · have : eo = 0 := by omega
      simp [processRightChildren, firstChild_eq_childAt hte, childAt, hlen, hoff, this]
    · simp [processRightChildren, firstChild_eq_childAt hte, childAt, hlen]
  · have hlen : 0 < te.children.length := by omega
    have hne0 : eo ≠ 0 := by
      intro h
      subst h
      simp at hz
    have hsb : siblingBound tm (some (.child e 0)) = te.children.length := by
      simp [siblingBound, hte]
    have hlast := lastBefore_spec hte eo.toNat (min eo.toNat te.children.length - 1)
      te.children.length 0 hlen (by omega) (by omega)
    have hloop := backwardLoop_clone hte fr fr.range.m_endContainer ec
      (min eo.toNat te.children.length) te.children.length rc (by omega) (by omega) hrc
    have hpos : 0 < min eo.toNat te.children.length := by omega
    simp only [hpos, if_true] at hloop
    simp only [processRightChildren, firstChild_eq_childAt hte, childAt, hlen, if_true,
      Option.some_bind, hoff, hne0, ne_eq, not_false_eq_true, hue, hsb, hlast, Nat.zero_add,
      hloop, Option.map_some']

/-- The right-hand side at the end container: the node `K` left at the
container and the `rightContents` `F` are the same for all actions.  The
actions that change the tree run on `tmb`, `CLONE_CONTENTS` on `tmc`. -/
theorem processRightStart_spec {tmb tmc : TreeModel} {fr : Frame} {sc e : NodeImpl} {te : Tree}
    {ks : NodeType}
    (he : fr.range.m_endContainer = some e) (hsc : fr.range.m_startContainer = some sc)
    (hte : tmb.node e = some te) (htec : tmc.node e = some te)
    (hksb : nodeType tmb sc = some ks) (hksc : nodeType tmc sc = some ks)
    (heo0 : 0 ≤ fr.range.m_endOffset) (heo : fr.range.m_endOffset ≤ offsetBound te)
    (hb : (offsetBound te : Int) < 2 ^ 31)
    (hfix : ∀ x, x ∈ fr.pointers → ∀ i, .child e i ∉ x.ancestors) :
    ∃ K F,
      (ks ≠ NodeType.PROCESSING_INSTRUCTION_NODE →
        (isCharacterLike te.nodeType = true → te.children = []) →
        ∀ i : Nat, fr.range.m_endOffset ≤ (i : Int) →
          K.children[i - fr.range.m_endOffset.toNat]? = te.children[i]?) ∧
      (fr.range.m_endOffset = 0 → K = te) ∧
      K.nodeType = te.nodeType ∧
      F = rightStartContents ks te fr.range.m_endOffset.toNat ∧
      ∀ (action : ActionType) (ec : ExceptionCode),
      ∃ tm1 ec1, tmb.replace e K = some tm1 ∧
        (action.removes = true → processRightStart action tmb fr ec =
          some (tm1, fr, if action.copies then F else none, ec1)) ∧
        (action.removes = false → processRightStart action tmc fr ec =
          some (tmc, fr, if action.copies then F else none, ec1)) := by
  generalize hoff : fr.range.m_endOffset = eo at *
  have hue : toUnsigned eo = eo.toNat := toUnsigned_of_nonneg heo0 (by omega)
  by_cases hk1 : isTextCDataOrComment te.nodeType = true
  · -- character data
    rw [offsetBound_of_textLike hk1] at heo hb
    have hul : toUnsigned ((te.data.length : Int) - eo) = te.data.length - eo.toNat :=
      toUnsigned_natCast_sub heo0 heo hb
    have hn1 : ¬ eo.toNat > te.data.length := by omega
    have hn2 : ¬ ((te.data.length : Int) < eo) := by omega
    refine ⟨te.withData (te.data.drop eo.toNat), some (te.withData (te.data.take eo.toNat ++
      te.data.drop (eo.toNat + (te.data.length - eo.toNat)))), ?_, ?_, rfl, ?_, ?_⟩
    · intro _ hleaf i _
      have hnil := hleaf (characterLike_of_textLike hk1)
      simp [Tree.withData_children, hnil]
    · intro h0
      subst h0
      cases te
      simp [Tree.withData, Tree.data, Tree.nodeType, Tree.children]
    · have hdrop : List.drop (eo.toNat + (te.data.length - eo.toNat)) te.data = [] :=
        List.drop_eq_nil_of_le (by omega)
      simp [rightStartContents, hk1, hdrop]
    intro action ec
    obtain ⟨tm1, h1⟩ := replace_total hte (te.withData (te.data.drop eo.toNat))
    refine ⟨tm1, ec, h1, ?_, ?_⟩
    · intro hr
      cases action <;>
        first
        | (exfalso; revert hr; simp [ActionType.removes]; done)
        | simp [processRightStart, he, nodeType, hte, hk1, ActionType.copies,
            ActionType.removes, cloneNode, hoff, hue, hul, length, deleteData,
            Tree.deleteData, hn1, hn2, h1]
    · intro hr
      cases action <;>
        first
        | (exfalso; revert hr; simp [ActionType.removes]; done)
        | simp [processRightStart, he, nodeType, htec, hk1, ActionType.copies,
            ActionType.removes, cloneNode, hoff, hue, hul, length, deleteData,
            Tree.deleteData, hn1, hn2]
  · have hksb' : ∃ t, tmb.node sc = some t ∧ t.nodeType = ks := by
      simpa [nodeType] using hksb
    have hksc' : ∃ t, tmc.node sc = some t ∧ t.nodeType = ks := by
      simpa [nodeType] using hksc
    obtain ⟨tsb, htsb, hkb⟩ := hksb'
    obtain ⟨tsc, htsc, hkc⟩ := hksc'
    by_cases hk2 : ks = NodeType.PROCESSING_INSTRUCTION_NODE
    · -- the start container is a processing instruction: nothing is done
      refine ⟨te, none, fun h => absurd hk2 h, fun _ => rfl, rfl,
        by simp [rightStartContents, hk1, hk2], ?_⟩
      intro action ec
      refine ⟨tmb, ec, replace_same hte, ?_, ?_⟩
      · intro _
        simp [processRightStart, he, hsc, nodeType, hte, hk1, htsb, hkb, hk2]
      · intro _
        simp [processRightStart, he, hsc, nodeType, htec, hk1, htsc, hkc, hk2]
    · -- the children before the end offset
      refine ⟨te.withChildren (te.children.drop (min eo.toNat te.children.length)),
        prependAll (some (te.withChildren []))
          (te.children.take (min eo.toNat te.children.length)), ?_, ?_, rfl, ?_, ?_⟩
      · intro _ hleaf i hi
        rw [Tree.withChildren_children]
        by_cases hcl : isCharacterLike te.nodeType = true
        · simp [hleaf hcl]
        · have hcl' : isCharacterLike te.nodeType = false := by simpa using hcl
          rw [offsetBound_of_not_characterLike hcl'] at heo
          rw [List.getElem?_drop]
          congr 1
          omega
      · intro h0
        subst h0
        simp [Tree.withChildren_self]
      · have htake : List.take (min eo.toNat te.children.length) te.children
            = List.take eo.toNat te.children := by
          rw [List.take_eq_take]
          simp
        simp [rightStartContents, hk1, hk2, prependAll, htake, Tree.withChildren_children,
          Tree.withChildren_withChildren]
      intro action ec
      obtain ⟨tm1, h1⟩ := replace_total hte
        (te.withChildren (te.children.drop (min eo.toNat te.children.length)))
      have heo31 : eo < 2 ^ 31 := by omega
      refine ⟨tm1, ec, h1, ?_, ?_⟩
      · intro hr
        have hne : action ≠ .CLONE_CONTENTS := by
          intro h
          subst h
          simp [ActionType.removes] at hr
        obtain ⟨tm2, h2, hch⟩ := processRightChildren_removes hne he hte
          (by rw [hoff]; exact heo0) (by rw [hoff]; exact heo31) hfix
          (if action.copies then some (te.withChildren []) else none)
          (fun h => by subst h; rfl) ec
        rw [hoff] at h2 hch
        rw [h1] at h2
        cases Option.some.inj h2
        cases action with
        | CLONE_CONTENTS => exact absurd rfl hne
        | EXTRACT_CONTENTS =>
          simp only [ActionType.copies, decide_True, Bool.true_or, if_true] at hch ⊢
          simp only [processRightStart, he, hsc, nodeType, hte, htsb, hkb, hk1, hk2,
            Option.map_some', Option.some_bind, Bool.false_eq_true, if_false,
            ActionType.copies, decide_True, Bool.true_or, if_true, cloneNode, hch]
        | DELETE_CONTENTS =>
          simp only [ActionType.copies, decide_False, Bool.or_self, reduceCtorEq,
            Bool.false_eq_true, if_false] at hch ⊢
          simp only [processRightStart, he, hsc, nodeType, hte, htsb, hkb, hk1, hk2,
            Option.map_some', Option.some_bind, Bool.false_eq_true, if_false,
            ActionType.copies, decide_False, Bool.or_self, reduceCtorEq, hch]
      · intro hr
        have hcl : action = .CLONE_CONTENTS := by
          cases action <;> simp_all [ActionType.removes]
        subst hcl
        have hch := @processRightChildren_clone _ fr _ _ htec
          (by rw [hoff]; exact heo0) (by rw [hoff]; exact heo31)
          (some (te.withChildren [])) rfl ec
        rw [hoff] at hch
        simp only [processRightStart, he, hsc, nodeType, htec, htsc, hkc, hk1, hk2,
          Option.map_some', Option.some_bind, Bool.false_eq_true, if_false,
          ActionType.copies, decide_True, Bool.or_true, if_true, cloneNode, hch]

/-- The right-hand side of the complex case: the tree after it is the tree
before it with another node `K'` at the child of the common root above the end
container; `K'` and the `rightContents` `F'` are the same for all actions.  The
actions that change the tree run on `tmb`, `CLONE_CONTENTS` on `tmc`, which
agrees with `tmb` below that child. -/
theorem processRight_spec {tmb tmc : TreeModel} {fr : Frame} {R sc e : NodeImpl} {te : Tree}
    {ks : NodeType} {b : Nat}
    (hR : fr.cmnRoot = some R) (he : fr.range.m_endContainer = some e)
    (hsc : fr.range.m_startContainer = some sc)
    (hte : tmb.node e = some te) (hPE : .child R b ∈ e.ancestors)
    (hag : ∀ q, .child R b ∈ q.ancestors → tmc.node q = tmb.node q)
    (hksb : nodeType tmb sc = some ks) (hksc : nodeType tmc sc = some ks)
    (heo0 : 0 ≤ fr.range.m_endOffset) (heo : fr.range.m_endOffset ≤ offsetBound te)
    (hb : (offsetBound te : Int) < 2 ^ 31)
    (hfix : ∀ y, y ∈ (fr.withEnd (.child R b)).pointers →
      ∀ i, .child (.child R b) i ∉ y.ancestors) :
    ∃ K' F', F' = rightSpine tmc R e (rightStartContents ks te fr.range.m_endOffset.toNat) ∧
      ∀ (action : ActionType) (ec : ExceptionCode),
      ∃ tm1 ec1 x1,
        .child R b ∈ x1.ancestors ∧
        (action.removes = true → ks ≠ NodeType.PROCESSING_INSTRUCTION_NODE →
          (isCharacterLike te.nodeType = true → te.children = []) →
          ∀ y, KeptRight (.child R b) e fr.range.m_endOffset y →
            tm1.node (rightLevelsShift R e (cut e 0 fr.range.m_endOffset.toNat y))
              = tmb.node y) ∧
        (action.removes = true →
          ∃ K, K.nodeType = te.nodeType ∧ tm1.node (rightLevelsShift R e e) = some K) ∧
        (action.removes = true → tmb.replace (.child R b) K' = some tm1 ∧
          processRight action tmb fr ec
            = some (tm1, fr.withEnd x1, if action.copies then F' else none, ec1)) ∧
        (action.removes = false → processRight action tmc fr ec
            = some (tmc, fr, if action.copies then F' else none, ec1)) := by
  have hev : tmb.valid e := valid_iff.mpr ⟨te, hte⟩
  have htec : tmc.node e = some te := by rw [hag e hPE, hte]
  have hfre : fr.withEnd e = fr := withEnd_self he
  have hfix0 : ∀ x, x ∈ fr.pointers → ∀ i, .child e i ∉ x.ancestors := by
    intro x hx i
    rw [← hfre] at hx
    rcases mem_withEnd_pointers (.child R b) hx with h | h
    · subst h
      exact child_not_mem_ancestors _ _
    · exact not_below_of_not_below hPE (hfix x h) i
  obtain ⟨K0, F0, hK0c, hK0e, hK0k, hF0, hstart⟩ :=
    processRightStart_spec he hsc hte htec hksb hksc heo0 heo hb hfix0
  obtain ⟨n, hn⟩ := previousSibling_total hev
  obtain ⟨K', F', hF', hlev⟩ :=
    rightLevels_spec hR hev hag hfix e (mem_ancestors_self _) hPE K0 F0 n e.depth hn (by omega)
  refine ⟨K', F', by rw [hF', hF0], fun action ec => ?_⟩
  obtain ⟨tmA, ecA, hA, hA1, hA2⟩ := hstart action ec
  obtain ⟨tm1, ec1, x1, h1, h2, h3, h3f, h4⟩ :=
    hlev action ecA (if action.removes then tmA else tmc)
      e (fun h => by simp [h, hA]) (fun h => by simp [h]) hPE
  rw [hfre] at h4
  have hframe : action.removes = true → ks ≠ NodeType.PROCESSING_INSTRUCTION_NODE →
      (isCharacterLike te.nodeType = true → te.children = []) →
      ∀ y, KeptRight (.child R b) e fr.range.m_endOffset y →
        tm1.node (rightLevelsShift R e (cut e 0 fr.range.m_endOffset.toNat y))
          = tmb.node y := by
    intro hr hks hleaf y hy
    obtain ⟨hy1, hy2, hy3⟩ := hy
    have hstep : tmA.node (cut e 0 fr.range.m_endOffset.toNat y) = tmb.node y := by
      rcases hy1 with hy1 | ⟨hye, h0⟩
      · refine node_reindex_new hte hA (cut e 0 fr.range.m_endOffset.toNat)
          (fun i => if fr.range.m_endOffset.toNat ≤ i then
            i - (fr.range.m_endOffset.toNat - 0) else i)
          (fun i => cut_child_same e 0 _ i) (fun _ i hq => cut_child_ne e 0 _ i hq)
          (fun _ => rfl) y hy1 ?_
        intro i hi
        have hle := hy2 i hi
        have hle' : fr.range.m_endOffset.toNat ≤ i := by omega
        simp only [hle', if_true, Nat.sub_zero]
        exact hK0c hks hleaf i hle
      · subst hye
        rw [cut_self, replace_node_self hA, hK0e h0, hte]
    rw [← hstep]
    have := h3f hr (cut e 0 fr.range.m_endOffset.toNat y) (by
      intro P c hP hRP
      have hd1 := depth_le_of_mem_ancestors hP
      simp only [NodeImpl.depth] at hd1
      refine ⟨?_, ?_⟩
      · intro hmem
        have hd2 := depth_le_of_mem_ancestors hmem
        rw [cut_depth] at hd2
        rw [cut_of_depth_le e 0 _ (by omega)] at hmem
        rcases hy1 with hy1 | ⟨hye, _⟩
        · exact hy1 (ancestors_trans hmem (parent_mem_ancestors hP))
        · rw [hye] at hd2
          omega
      · intro i hi
        exact hy3 P c i hP hRP
          ((mem_ancestors_cut e 0 _ (by simp only [NodeImpl.depth]; omega) y).mp hi))
    simpa [hr] using this
  have hendK : action.removes = true →
      ∃ K, K.nodeType = te.nodeType ∧ tm1.node (rightLevelsShift R e e) = some K := by
    intro hr
    have := h3f hr e (by
      intro P c hP hRP
      have hd1 := depth_le_of_mem_ancestors hP
      simp only [NodeImpl.depth] at hd1
      refine ⟨?_, ?_⟩
      · intro hmem
        have hd2 := depth_le_of_mem_ancestors hmem
        omega
      · intro i hmi
        have := eq_of_mem_ancestors_same_depth hmi hP (by simp [NodeImpl.depth])
        injection this with _ h6
        omega)
    simp only [hr, if_true] at this
    rw [replace_node_self hA] at this
    exact ⟨K0, hK0k, this⟩
  refine ⟨tm1, ec1, x1, h3, hframe, hendK, ?_, ?_⟩
  · intro hr
    refine ⟨h1 hr, ?_⟩
    simp only [hr, if_true] at h4
    have hprev : previousSibling tmA e = some n := by
      rw [previousSibling_replace_self hev hA, hn]
    simp only [processRight, hA1 hr, Option.some_bind, he, hprev]
    exact h4
  · intro hr
    obtain ⟨h21, h22⟩ := h2 hr
    rw [h21, h22, hfre] at h4
    simp only [hr, Bool.false_eq_true, if_false] at h4
    have hprev : previousSibling tmc e = some n := by
      rw [previousSibling_congr (hag e hPE), hn]
    simp only [processRight, hA2 hr, Option.some_bind, he, hprev]
    exact h4

/-! ## The complex case: the children of the common root -/

theorem climbToChildOf_of_mem {a b : NodeImpl} {k : Nat} (h : .child a k ∈ b.ancestors) :
    climbToChildOf (some a) b = some (.child a k) := by
  induction b with
  | root t => simp [NodeImpl.ancestors] at h
  | child p i ih =>
    by_cases hp : p = a
    · subst hp
      rcases mem_ancestors_child.mp h with h | h
      · injection h with _ h2
        subst h2
        simp [climbToChildOf]
      · exact absurd h (child_not_mem_ancestors _ _)
    · rcases mem_ancestors_child.mp h with h | h
      · injection h with h1 _
        exact absurd h1.symm hp
      · simp [climbToChildOf, hp, ih h]

theorem advanceSiblings_spec {tm : TreeModel} {p : NodeImpl} {tp : Tree}
    (hp : tm.node p = some tp) (k : Nat) :
    ∀ j, j + k ≤ tp.children.length →
      advanceSiblings tm k (childAt p tp.children.length j) =
        some (childAt p tp.children.length (j + k)) := by
  induction k with
  | zero =>
    intro j _
    rfl
  | succ k ih =>
    intro j hj
    have hlt : j < tp.children.length := by omega
    rw [childAt_of_lt hlt]
    simp only [advanceSiblings, nextSibling_eq_childAt hp hlt, Option.some_bind]
    rw [ih (j + 1) (by omega)]
    congr 2
    omega

/-- The forward loop of an action that changes the tree, from child `lo` of `p`
up to child `hi`, where it stops. -/
theorem forwardLoop_removes_between {action : ActionType} (hrem : action ≠ .CLONE_CONTENTS)
    {tm : TreeModel} {p : NodeImpl} {tp : Tree} (hp : tm.node p = some tp) {lo hi : Nat}
    (hlo : lo ≤ hi) (hhi : hi ≤ tp.children.length) (fr : Frame) (acc : Option Tree)
    (hacc : action = .EXTRACT_CONTENTS → acc.isSome = true) (ec : ExceptionCode) :
    ∃ tm1, tm.replace p (tp.withChildren (tp.children.take lo ++ tp.children.drop hi))
        = some tm1 ∧
      forwardLoop action none (siblingBound tm (childAt p tp.children.length lo)) tm fr (some p)
          (childAt p tp.children.length hi) acc (childAt p tp.children.length lo) 0 ec =
        some (tm1, fr.relocate ((relocate p lo)^[hi - lo]), some p,
          (if action = .EXTRACT_CONTENTS then
              appendAll acc ((tp.children.drop lo).take (hi - lo))
            else acc), ec) := by
  have hfuel : hi - lo ≤ siblingBound tm (childAt p tp.children.length lo) := by
    rw [siblingBound_childAt lo hp]
    split <;> omega
  have hadd : lo + (hi - lo) = hi := by omega
  have hhalt : (childAt p tp.children.length hi = none ∧
      (lo + (hi - lo) = tp.children.length ∨ belowLimit none (0 + (hi - lo)) = false)) ∨
      (childAt p tp.children.length hi = some (.child p (lo + (hi - lo))) ∧
        lo + (hi - lo) < tp.children.length) := by
    rw [hadd]
    by_cases h : hi < tp.children.length
    · exact Or.inr ⟨childAt_of_lt h, h⟩
    · exact Or.inl ⟨childAt_of_le (by omega), Or.inl (by omega)⟩
  obtain ⟨tm1, h1, h2⟩ := forwardLoop_removes hrem none p lo (hi - lo) _ tm tp fr
    (childAt p tp.children.length hi) acc 0 ec hp (by omega) hfuel hacc (fun _ _ => rfl) hhalt
  rw [hadd] at h1
  exact ⟨tm1, h1, h2⟩

/-- The forward loop of `CLONE_CONTENTS` from child `lo` of `p` up to child `hi`. -/
theorem forwardLoop_clone_between {tm : TreeModel} {p : NodeImpl} {tp : Tree}
    (hp : tm.node p = some tp) {lo hi : Nat} (hlo : lo ≤ hi) (hhi : hi ≤ tp.children.length)
    (fr : Frame) (acc : Option Tree) (hacc : acc.isSome = true) (ec : ExceptionCode) :
    forwardLoop .CLONE_CONTENTS none (siblingBound tm (childAt p tp.children.length lo)) tm fr
        (some p) (childAt p tp.children.length hi) acc (childAt p tp.children.length lo) 0 ec =
      some (tm, fr, some p, appendAll acc ((tp.children.drop lo).take (hi - lo)), ec) := by
  have hfuel : hi - lo ≤ siblingBound tm (childAt p tp.children.length lo) := by
    rw [siblingBound_childAt lo hp]
    split <;> omega
  have hadd : lo + (hi - lo) = hi := by omega
  have hhalt : (childAt p tp.children.length hi = none ∧
      (lo + (hi - lo) = tp.children.length ∨ belowLimit none (0 + (hi - lo)) = false)) ∨
      (childAt p tp.children.length hi = some (.child p (lo + (hi - lo))) ∧
        lo + (hi - lo) < tp.children.length) := by
    rw [hadd]
    by_cases h : hi < tp.children.length
    · exact Or.inr ⟨childAt_of_lt h, h⟩
    · exact Or.inl ⟨childAt_of_le (by omega), Or.inl (by omega)⟩
  exact forwardLoop_clone none hp fr (some p) (childAt p tp.children.length hi) ec (hi - lo) _
    lo 0 acc (by omega) hfuel hacc (fun _ _ => rfl) hhalt

/-- Two lists that agree between `lo` and `hi` have the same run there. -/
theorem take_drop_congr {α : Type} {l1 l2 : List α} {lo hi : Nat}
    (h : ∀ j, lo ≤ j → j < hi → l1[j]? = l2[j]?) :
    (l1.drop lo).take (hi - lo) = (l2.drop lo).take (hi - lo) := by
  apply List.ext_getElem?
  intro n
  by_cases hn : n < hi - lo
  · rw [List.getElem?_take_of_lt hn, List.getElem?_take_of_lt hn, List.getElem?_drop,
      List.getElem?_drop]
    exact h _ (by omega) (by omega)
  · rw [List.getElem?_eq_none, List.getElem?_eq_none]
    · simp; omega
    · simp; omega

theorem depth_lt_of_mem_ancestors_ne {x y : NodeImpl} (h : x ∈ y.ancestors) (hne : x ≠ y) :
    x.depth < y.depth := by
  have h1 := depth_le_of_mem_ancestors h
  rcases Nat.lt_or_ge x.depth y.depth with h2 | h2
  · exact h2
  · exact absurd (eq_of_mem_ancestors_of_depth_eq h (le_antisymm h1 h2)) hne

theorem rightLevelsShift_depth (R : NodeImpl) :
    ∀ (A y : NodeImpl), (rightLevelsShift R A y).depth = y.depth := by
  intro A
  induction A with
  | root t => intro y; rfl
  | child P c ih =>
    intro y
    simp only [rightLevelsShift]
    split
    · rfl
    · rw [ih, cut_depth]

/-- The loop over the ancestors of the end container moves no node at or above
the level of the children of the common root. -/
theorem rightLevelsShift_of_depth_le {R : NodeImpl} :
    ∀ {A : NodeImpl}, R ∈ A.ancestors → A ≠ R →
      ∀ {y : NodeImpl}, y.depth ≤ R.depth + 1 → rightLevelsShift R A y = y := by
  intro A
  induction A with
  | root t =>
    intro _ _ y _
    rfl
  | child P c ih =>
    intro hA hne y hy
    have hRP : R ∈ P.ancestors := by
      rcases mem_ancestors_child.mp hA with h | h
      · exact absurd h.symm hne
      · exact h
    simp only [rightLevelsShift]
    split
    · rfl
    · rename_i hPR
      have hd := depth_lt_of_mem_ancestors_ne hRP (Ne.symm hPR)
      rw [cut_of_depth_le P 0 c (by omega)]
      exact ih hRP hPR hy

theorem mem_ancestors_rightLevelsShift {R w : NodeImpl} (hw : w.depth ≤ R.depth + 1) :
    ∀ {A : NodeImpl}, R ∈ A.ancestors → A ≠ R →
      ∀ (y : NodeImpl), w ∈ (rightLevelsShift R A y).ancestors ↔ w ∈ y.ancestors := by
  intro A
  induction A with
  | root t =>
    intro _ _ y
    rfl
  | child P c ih =>
    intro hA hne y
    have hRP : R ∈ P.ancestors := by
      rcases mem_ancestors_child.mp hA with h | h
      · exact absurd h.symm hne
      · exact h
    simp only [rightLevelsShift]
    split
    · rfl
    · rename_i hPR
      have hd := depth_lt_of_mem_ancestors_ne hRP (Ne.symm hPR)
      rw [ih hRP hPR, mem_ancestors_cut P 0 c (by omega)]

/-- The left-hand side as `processComplex` runs it.  `lo` is the index of the
first child of the common root after the start of the range. -/
theorem complexLeft_spec {tm : TreeModel} {fr : Frame} {R sc : NodeImpl} {ts TR : Tree}
    {lo : Nat}
    (hR : fr.cmnRoot = some R) (hsc : fr.range.m_startContainer = some sc)
    (hts : tm.node sc = some ts) (hTR : tm.node R = some TR)
    (hso0 : 0 ≤ fr.range.m_startOffset) (hso : fr.range.m_startOffset ≤ offsetBound ts)
    (hb : (offsetBound ts : Int) < 2 ^ 31)
    (hS : sc = R ∨ ∃ a, .child R a ∈ sc.ancestors ∧ lo = a + 1 ∧
      ∀ x, x ∈ fr.pointers → x = sc ∨ ∀ i, .child (.child R a) i ∉ x.ancestors) :
    ∃ T1 F tmL, tm.replace R T1 = some tmL ∧
      (T1.children.length = TR.children.length ∧ T1.nodeType = TR.nodeType) ∧
      (∀ j, lo ≤ j → T1.children[j]? = TR.children[j]?) ∧
      (sc = R → T1 = TR) ∧
      nodeType tmL sc = some ts.nodeType ∧
      (∀ y, (∀ a, .child R a ∈ sc.ancestors →
          KeptLeft (.child R a) sc fr.range.m_startOffset y) → tmL.node y = tm.node y) ∧
      F = (if sc = R then none
        else leftSpine tm R sc (leftStartContents ts fr.range.m_startOffset.toNat)) ∧
      ∀ (action : ActionType) (ec : ExceptionCode), ∃ ec1,
        (if fr.range.m_startContainer ≠ fr.cmnRoot then processLeft action tm fr ec
          else some (tm, fr, none, ec)) =
        some (if action.removes then tmL else tm, fr, if action.copies then F else none,
          ec1) := by
  rcases hS with hS | ⟨a, hPS, hlo, hfix⟩
  · subst hS
    refine ⟨TR, none, tm, replace_same hTR, ⟨rfl, rfl⟩, fun _ _ => rfl, fun _ => rfl, ?_,
      fun _ _ => rfl, by simp, ?_⟩
    · rw [hTR] at hts
      cases Option.some.inj hts
      simp [nodeType, hTR]
    · intro action ec
      refine ⟨ec, ?_⟩
      simp [hsc, hR]
  · have hne : sc ≠ R := by
      intro h
      subst h
      exact child_not_mem_ancestors _ _ hPS
    have hPSv : tm.valid (.child R a) := valid_of_mem_ancestors (valid_iff.mpr ⟨ts, hts⟩) hPS
    have ha : a < TR.children.length := valid_child_lt hTR hPSv
    obtain ⟨K', F', hF', hleft⟩ := processLeft_spec hR hsc hts hPS hso0 hso hb hfix
    obtain ⟨tmL, _, hL1, _, hL3, hL4, _⟩ := hleft .DELETE_CONTENTS 0
    have hL := hL1 rfl
    refine ⟨TR.withChildren (TR.children.set a K'), F', tmL, ?_, ?_, ?_,
      fun h => absurd h hne, hL3, fun y hy => hL4 rfl y (hy a hPS), by rw [if_neg hne, hF'], ?_⟩
    · rw [← replace_child hTR ha]
      exact hL
    · exact ⟨by simp [Tree.withChildren_children], rfl⟩
    · intro j hj
      have : a ≠ j := by omega
      simp [Tree.withChildren_children, List.getElem?_set, this]
    · intro action ec
      obtain ⟨tm1, ec1, h1, h2, _, _, h4⟩ := hleft action ec
      refine ⟨ec1, ?_⟩
      have hne' : fr.range.m_startContainer ≠ fr.cmnRoot := by
        rw [hsc, hR]
        intro h
        exact hne (Option.some.inj h)
      simp only [hne', ne_eq, not_false_eq_true, if_true, h4]
      by_cases hr : action.removes = true
      · have := h1 hr
        rw [hL] at this
        cases Option.some.inj this
        simp [hr]
      · have hr' : action.removes = false := by simpa using hr
        simp [hr', h2 hr']

/-- The right-hand side as `processComplex` runs it, after the left-hand side
has left `tmL`.  `hi` is the index of the first child of the common root that
is not wholly before the end of the range. -/
theorem complexRight_spec {tm tmL : TreeModel} {fr : Frame} {R sc e : NodeImpl}
    {te TR T1 : Tree} {ks : NodeType} {lo hi : Nat}
    (hR : fr.cmnRoot = some R) (he : fr.range.m_endContainer = some e)
    (hsc : fr.range.m_startContainer = some sc)
    (hte : tm.node e = some te) (hTR : tm.node R = some TR)
    (hL : tm.replace R T1 = some tmL) (hlen1 : T1.children.length = TR.children.length)
    (hag1 : ∀ j, lo ≤ j → T1.children[j]? = TR.children[j]?)
    (hksb : nodeType tmL sc = some ks) (hksc : nodeType tm sc = some ks)
    (heo0 : 0 ≤ fr.range.m_endOffset) (heo : fr.range.m_endOffset ≤ offsetBound te)
    (hb : (offsetBound te : Int) < 2 ^ 31)
    (hE : e = R ∨ ∃ b, .child R b ∈ e.ancestors ∧ hi = b ∧ lo ≤ b ∧
      ∀ y, y ∈ (fr.withEnd (.child R b)).pointers → ∀ i, .child (.child R b) i ∉ y.ancestors) :
    ∃ T2 F tm2, tm.replace R T2 = some tm2 ∧
      (T2.children.length = TR.children.length ∧ T2.nodeType = T1.nodeType) ∧
      (∀ j, lo ≤ j → j < hi → T2.children[j]? = TR.children[j]?) ∧
      (∀ j, j ≠ hi → T2.children[j]? = T1.children[j]?) ∧
      (ks ≠ NodeType.PROCESSING_INSTRUCTION_NODE →
        (isCharacterLike te.nodeType = true → te.children = []) →
        ∀ y, (∀ b, .child R b ∈ e.ancestors →
            KeptRight (.child R b) e fr.range.m_endOffset y) →
          tm2.node (if e = R then y
              else rightLevelsShift R e (cut e 0 fr.range.m_endOffset.toNat y))
            = tmL.node y) ∧
      (e ≠ R → ∃ K, K.nodeType = te.nodeType ∧ tm2.node (rightLevelsShift R e e) = some K) ∧
      F = (if e = R then none
        else rightSpine tm R e (rightStartContents ks te fr.range.m_endOffset.toNat)) ∧
      ∀ (action : ActionType) (ec : ExceptionCode), ∃ ec2 x1,
        ((e = R ∧ x1 = R) ∨
          ∃ b, .child R b ∈ e.ancestors ∧ .child R b ∈ x1.ancestors ∧ hi = b) ∧
        (if fr.range.m_endContainer ≠ fr.cmnRoot then
            processRight action (if action.removes then tmL else tm) fr ec
          else some (if action.removes then tmL else tm, fr, none, ec)) =
        some (if action.removes then tm2 else tm,
          if action.removes then fr.withEnd x1 else fr,
          if action.copies then F else none, ec2) := by
  rcases hE with hE | ⟨b, hPE, hhi, hlob, hfix⟩
  · subst hE
    refine ⟨T1, none, tmL, hL, ⟨hlen1, rfl⟩, fun j hj _ => hag1 j hj, fun _ _ => rfl,
      fun _ _ y _ => by simp, fun h => absurd rfl h, by simp, ?_⟩
    intro action ec
    refine ⟨ec, e, Or.inl ⟨rfl, rfl⟩, ?_⟩
    simp [he, hR, withEnd_self he]
  · subst hhi
    have hne : e ≠ R := by
      intro h
      subst h
      exact child_not_mem_ancestors _ _ hPE
    have hPEv : tm.valid (.child R hi) := valid_of_mem_ancestors (valid_iff.mpr ⟨te, hte⟩) hPE
    have hbl : hi < TR.children.length := valid_child_lt hTR hPEv
    have hT1 : tmL.node R = some T1 := replace_node_self hL
    have hag : ∀ q, .child R hi ∈ q.ancestors → tm.node q = tmL.node q := fun q hq =>
      (replace_node_below hTR hL (hag1 hi hlob) hq).symm
    have hteL : tmL.node e = some te := by rw [← hag e hPE, hte]
    obtain ⟨K', F', hF', hright⟩ :=
      processRight_spec hR he hsc hteL hPE hag hksb hksc heo0 heo hb hfix
    obtain ⟨tm2, _, _, _, h2f, h2k, h2a, _⟩ := hright .DELETE_CONTENTS 0
    have h2 := (h2a rfl).1
    refine ⟨T1.withChildren (T1.children.set hi K'), F', tm2, ?_, ?_, ?_, ?_,
      fun hks hleaf y hy => by rw [if_neg hne]; exact h2f rfl hks hleaf y (hy hi hPE),
      fun _ => h2k rfl, by rw [if_neg hne, hF'], ?_⟩
    · rw [replace_child hT1 (by omega), replace_replace hL] at h2
      exact h2
    · exact ⟨by simp [Tree.withChildren_children, hlen1], rfl⟩
    · intro j hj hjb
      have : hi ≠ j := by omega
      simp [Tree.withChildren_children, List.getElem?_set, this, hag1 j hj]
    · intro j hj
      have : hi ≠ j := fun h => hj h.symm
      simp [Tree.withChildren_children, List.getElem?_set, this]
    · intro action ec
      obtain ⟨tm1, ec1, x1, hx1, _, _, h3, h4⟩ := hright action ec
      refine ⟨ec1, x1, Or.inr ⟨hi, hPE, hx1, rfl⟩, ?_⟩
      have hne' : fr.range.m_endContainer ≠ fr.cmnRoot := by
        rw [he, hR]
        intro h
        exact hne (Option.some.inj h)
      simp only [hne', ne_eq, not_false_eq_true, if_true]
      by_cases hr : action.removes = true
      · obtain ⟨h5, h6⟩ := h3 hr
        rw [h2] at h5
        cases Option.some.inj h5
        simp only [hr, if_true, h6]
      · have hr' : action.removes = false := by simpa using hr
        simp only [hr', Bool.false_eq_true, if_false, h4 hr']

theorem processStart_spec {tm : TreeModel} {fr : Frame} {R sc : NodeImpl} {TX : Tree} {lo : Nat}
    (hR : fr.cmnRoot = some R) (hsc : fr.range.m_startContainer = some sc)
    (hTX : tm.node R = some TX)
    (hS : (sc = R ∧ lo = fr.range.m_startOffset.toNat ∧ 0 ≤ fr.range.m_startOffset ∧
        fr.range.m_startOffset < 2 ^ 31 ∧ lo ≤ TX.children.length) ∨
      (∃ a, .child R a ∈ sc.ancestors ∧ lo = a + 1 ∧ a < TX.children.length)) :
    processStart tm fr = some (childAt R TX.children.length lo) := by
  rcases hS with ⟨h1, h2, h3, h4, h5⟩ | ⟨a, h1, h2, h3⟩
  · subst h1
    have hu := toUnsigned_of_nonneg h3 h4
    have := advanceSiblings_spec hTX fr.range.m_startOffset.toNat 0 (by omega)
    simp only [Nat.zero_add] at this
    simp [processStart, hsc, hR, firstChild_eq_childAt hTX, hu, this, h2]
  · have hne : sc ≠ R := by
      intro h
      subst h
      exact child_not_mem_ancestors _ _ h1
    have hne' : ¬ (some sc = some R) := fun h => hne (Option.some.inj h)
    simp [processStart, hsc, hR, hne', climbToChildOf_of_mem h1,
      nextSibling_eq_childAt hTX h3, h2]

theorem processEnd_spec {tm : TreeModel} {fr : Frame} {R x : NodeImpl} {TX : Tree} {hi : Nat}
    (hR : fr.cmnRoot = some R) (he : fr.range.m_endContainer = some x)
    (hTX : tm.node R = some TX)
    (hE : (x = R ∧ hi = fr.range.m_endOffset.toNat ∧ 0 ≤ fr.range.m_endOffset ∧
        fr.range.m_endOffset < 2 ^ 31 ∧ hi ≤ TX.children.length) ∨
      (.child R hi ∈ x.ancestors ∧ hi < TX.children.length)) :
    processEnd tm fr = some (childAt R TX.children.length hi) := by
  rcases hE with ⟨h1, h2, h3, h4, h5⟩ | ⟨h1, h3⟩
  · subst h1
    have hu := toUnsigned_of_nonneg h3 h4
    have := advanceSiblings_spec hTX fr.range.m_endOffset.toNat 0 (by omega)
    simp only [Nat.zero_add] at this
    simp [processEnd, he, hR, firstChild_eq_childAt hTX, hu, this, h2]
  · have hne : x ≠ R := by
      intro h
      subst h
      exact child_not_mem_ancestors _ _ h1
    have hne' : ¬ (some x = some R) := fun h => hne (Option.some.inj h)
    simp [processEnd, he, hR, hne', climbToChildOf_of_mem h1, childAt, h3]

theorem appendContents_copies {action : ActionType} (hc : action.copies = true)
    (t : Tree) (F : Option Tree) (ec : ExceptionCode) :
    appendContents action (some t) F ec =
      some (some (t.withChildren (t.children ++ F.toList)), ec) := by
  cases F with
  | none => simp [appendContents, hc, Tree.withChildren_self]
  | some f => simp [appendContents, hc, appendChild]

theorem appendContents_delete (acc F : Option Tree) (ec : ExceptionCode) :
    appendContents .DELETE_CONTENTS acc F ec = some (acc, ec) := by
  simp [appendContents, ActionType.copies]

/-- The end of the complex case for the actions that change the tree. -/
theorem processMiddle_removes {action : ActionType} (hne : action ≠ .CLONE_CONTENTS)
    {tm : TreeModel} {fr : Frame} {R : NodeImpl} {TX : Tree} {lo hi : Nat}
    (hR : fr.cmnRoot = some R) (hTX : tm.node R = some TX)
    (hstart : processStart tm fr = some (childAt R TX.children.length lo))
    (hend : processEnd tm fr = some (childAt R TX.children.length hi))
    (hlo : lo ≤ hi) (hhi : hi ≤ TX.children.length) (FL FR : Option Tree)
    (ec : ExceptionCode) :
    ∃ tm1, tm.replace R (TX.withChildren (TX.children.take lo ++ TX.children.drop hi))
        = some tm1 ∧
      processMiddle action tm fr (newFragment action) (if action.copies then FL else none)
          (if action.copies then FR else none) ec =
        some (tm1, (collapseAfter (fr.relocate ((relocate R lo)^[hi - lo])) ec).1,
          (collapseAfter (fr.relocate ((relocate R lo)^[hi - lo])) ec).2,
          if action.copies then
            some (.mk NodeType.DOCUMENT_FRAGMENT_NODE []
              (FL.toList ++ (TX.children.drop lo).take (hi - lo) ++ FR.toList))
          else none) := by
  cases action with
  | CLONE_CONTENTS => exact absurd rfl hne
  | EXTRACT_CONTENTS =>
    obtain ⟨tm1, h1, hloop⟩ := forwardLoop_removes_between hne hTX hlo hhi fr
      (some ((Tree.mk NodeType.DOCUMENT_FRAGMENT_NODE [] []).withChildren
        ((Tree.mk NodeType.DOCUMENT_FRAGMENT_NODE [] []).children ++ FL.toList)))
      (fun _ => rfl) ec
    refine ⟨tm1, h1, ?_⟩
    simp only [if_true] at hloop
    simp only [processMiddle, hstart, hend, Option.some_bind, newFragment, ActionType.copies,
      ActionType.removes, decide_True, Bool.true_or, if_true,
      @appendContents_copies .EXTRACT_CONTENTS rfl, hR, hloop, appendAll,
      Option.map_some']
    simp [Tree.withChildren, Tree.children, Tree.nodeType, Tree.data]
  | DELETE_CONTENTS =>
    obtain ⟨tm1, h1, hloop⟩ := forwardLoop_removes_between hne hTX hlo hhi fr none
      (fun h => by cases h) ec
    refine ⟨tm1, h1, ?_⟩
    simp only [reduceCtorEq, if_false] at hloop
    simp only [processMiddle, hstart, hend, Option.some_bind, newFragment, ActionType.copies,
      ActionType.removes, decide_True, decide_False, Bool.or_true, Bool.or_self,
      Bool.false_eq_true, if_false, if_true, reduceCtorEq, appendContents_delete, hR, hloop,
      Option.map_some']

/-- The end of the complex case for `CLONE_CONTENTS`. -/
theorem processMiddle_clone {tm : TreeModel} {fr : Frame} {R : NodeImpl} {TX : Tree}
    {lo hi : Nat} (hR : fr.cmnRoot = some R) (hTX : tm.node R = some TX)
    (hstart : processStart tm fr = some (childAt R TX.children.length lo))
    (hend : processEnd tm fr = some (childAt R TX.children.length hi))
    (hlo : lo ≤ hi) (hhi : hi ≤ TX.children.length) (FL FR : Option Tree)
    (ec : ExceptionCode) :
    processMiddle .CLONE_CONTENTS tm fr (newFragment .CLONE_CONTENTS) FL FR ec =
      some (tm, fr.range, ec,
        some (.mk NodeType.DOCUMENT_FRAGMENT_NODE []
          (FL.toList ++ (TX.children.drop lo).take (hi - lo) ++ FR.toList))) := by
  have hloop := forwardLoop_clone_between hTX hlo hhi fr
    (some ((Tree.mk NodeType.DOCUMENT_FRAGMENT_NODE [] []).withChildren
      ((Tree.mk NodeType.DOCUMENT_FRAGMENT_NODE [] []).children ++ FL.toList))) rfl ec
  simp only [processMiddle, hstart, hend, Option.some_bind, newFragment, ActionType.copies,
    ActionType.removes, decide_True, decide_False, Bool.or_true, Bool.or_self,
    Bool.false_eq_true, if_false, if_true, reduceCtorEq,
    @appendContents_copies .CLONE_CONTENTS rfl, hR, hloop, appendAll,
    Option.map_some']
  simp [Tree.withChildren, Tree.children, Tree.nodeType, Tree.data]

theorem collapseAfter_spec {fr : Frame} {R : NodeImpl} {g : NodeImpl → NodeImpl} {lo : Nat}
    (x1 : NodeImpl) (ec : ExceptionCode)
    (hP : (∃ a, fr.partialStart = some (.child R a) ∧ lo = a + 1 ∧
        g (.child R a) = .child R a) ∨
      (fr.partialStart = none ∧ ∃ b, fr.partialEnd = some (.child R b) ∧
        g (.child R b) = .child R lo)) :
    collapseAfter ((fr.withEnd x1).relocate g) ec =
      (⟨fr.range.m_ownerDocument, some R, lo, some R, lo, fr.range.m_detached⟩, ec) := by
  cases fr with
  | mk r cr ps pe =>
    cases r with
    | mk d sc so e eo dt =>
      rcases hP with ⟨a, h1, h2, h3⟩ | ⟨h1, b, h2, h3⟩
      · simp only at h1
        subst h1
        subst h2
        simp [collapseAfter, Frame.relocate, Frame.withEnd, RangeImpl.relocate, h3,
          NodeImpl.parentNode, NodeImpl.nodeIndex]
      · simp only at h1 h2
        subst h1
        subst h2
        simp [collapseAfter, Frame.relocate, Frame.withEnd, RangeImpl.relocate, h3,
          NodeImpl.parentNode, NodeImpl.nodeIndex]

theorem mem_ancestors_child_same {R : NodeImpl} {a i : Nat}
    (h : NodeImpl.child R i ∈ (NodeImpl.child R a).ancestors) : i = a := by
  rcases mem_ancestors_child.mp h with h | h
  · injection h
  · exact absurd h (child_not_mem_ancestors _ _)

/-- The complex case.  `lo` is the index of the first child of the common root
`R` after the start of the range, `hi` the index of the first one that is not
wholly before its end.  All three actions return; the actions that change the
tree leave the same forest and the range collapsed at `(R, lo)`; the two
actions that return a fragment return the same one. -/
theorem processComplex_spec {tm : TreeModel} {fr : Frame} {R sc e : NodeImpl}
    {ts te TR : Tree} {lo hi : Nat}
    (hR : fr.cmnRoot = some R) (hsc : fr.range.m_startContainer = some sc)
    (he : fr.range.m_endContainer = some e)
    (hts : tm.node sc = some ts) (hte : tm.node e = some te) (hTR : tm.node R = some TR)
    (hso0 : 0 ≤ fr.range.m_startOffset) (hso : fr.range.m_startOffset ≤ offsetBound ts)
    (hbs : (offsetBound ts : Int) < 2 ^ 31)
    (heo0 : 0 ≤ fr.range.m_endOffset) (heo : fr.range.m_endOffset ≤ offsetBound te)
    (hbe : (offsetBound te : Int) < 2 ^ 31)
    (hS : (sc = R ∧ fr.partialStart = none ∧ lo = fr.range.m_startOffset.toNat ∧
        lo ≤ TR.children.length) ∨
      (∃ a, .child R a ∈ sc.ancestors ∧ fr.partialStart = some (.child R a) ∧ lo = a + 1 ∧
        ∀ x, x ∈ fr.pointers → x = sc ∨ ∀ i, .child (.child R a) i ∉ x.ancestors))
    (hE : (e = R ∧ fr.partialEnd = none ∧ hi = fr.range.m_endOffset.toNat ∧
        hi ≤ TR.children.length) ∨
      (∃ b, .child R b ∈ e.ancestors ∧ fr.partialEnd = some (.child R b) ∧ hi = b ∧
        ∀ y, y ∈ (fr.withEnd (.child R b)).pointers →
          ∀ i, .child (.child R b) i ∉ y.ancestors))
    (hlohi : lo ≤ hi) (hne : sc ≠ e) :
    ∃ tmD TD F, (tm.replace R TD = some tmD ∧
        F.nodeType = NodeType.DOCUMENT_FRAGMENT_NODE ∧ TD.nodeType = TR.nodeType) ∧
      TD.children.length = TR.children.length - (hi - lo) ∧
      (sc = R → hi < TR.children.length →
        ∃ K, TD.children = TR.children.take lo ++ K :: TR.children.drop (hi + 1)) ∧
      (ts.nodeType ≠ NodeType.PROCESSING_INSTRUCTION_NODE →
        (isCharacterLike te.nodeType = true → te.children = []) →
        ∀ y, y ∉ R.ancestors → (∀ i, .child R i ∈ y.ancestors → i < lo ∨ hi ≤ i) →
          (∀ a, .child R a ∈ sc.ancestors →
            KeptLeft (.child R a) sc fr.range.m_startOffset y) →
          (∀ b, .child R b ∈ e.ancestors →
            KeptRight (.child R b) e fr.range.m_endOffset y) →
          tmD.node (cut R lo hi (if e = R then y
              else rightLevelsShift R e (cut e 0 fr.range.m_endOffset.toNat y)))
            = tm.node y) ∧
      (e ≠ R → ∃ K, K.nodeType = te.nodeType ∧
        tmD.node (cut R lo hi (rightLevelsShift R e e)) = some K) ∧
      F = complexFragment tm R sc e ts te TR fr.range.m_startOffset.toNat
        fr.range.m_endOffset.toNat lo hi ∧
      ∀ (action : ActionType), ∃ ec1,
        processComplex action tm fr (newFragment action) 0 =
          some (if action.removes then tmD else tm,
            if action.removes then
              (⟨fr.range.m_ownerDocument, some R, lo, some R, lo, fr.range.m_detached⟩ :
                RangeImpl)
            else fr.range, ec1, if action.copies then some F else none) := by
  -- bounds of `lo` and `hi`
  have hscv : tm.valid sc := valid_iff.mpr ⟨ts, hts⟩
  have hev : tm.valid e := valid_iff.mpr ⟨te, hte⟩
  have hhi : hi ≤ TR.children.length := by
    rcases hE with ⟨_, _, _, h⟩ | ⟨b, hPE, _, hb, _⟩
    · exact h
    · have := valid_child_lt hTR (valid_of_mem_ancestors hev hPE)
      omega
  -- the two sides
  obtain ⟨T1, FL, tmL, hL, ⟨hlen1, hkind1⟩, hag1, hT1R, hksL, hkeptL, hFL, hleft⟩ :=
    @complexLeft_spec _ _ _ _ _ _ lo hR hsc hts hTR hso0 hso hbs
      (by
        rcases hS with ⟨h, _⟩ | ⟨a, h1, _, h3, h4⟩
        · exact Or.inl h
        · exact Or.inr ⟨a, h1, h3, h4⟩)
  obtain ⟨T2, FR, tm2, h2, ⟨hlen2, hkind2⟩, hag2, hag3, hkeptR, hendR, hFR, hright⟩ :=
    @complexRight_spec _ _ _ _ _ _ _ _ _ _ lo hi hR he hsc hte hTR hL hlen1 hag1 hksL
      (by simp [nodeType, hts]) heo0 heo hbe
      (by
        rcases hE with ⟨h, _⟩ | ⟨b, h1, _, h3, h4⟩
        · exact Or.inl h
        · exact Or.inr ⟨b, h1, h3, by omega, h4⟩)
  have hT2 : tm2.node R = some T2 := replace_node_self h2
  obtain ⟨tmD, hD⟩ := replace_total hT2
    (T2.withChildren (T2.children.take lo ++ T2.children.drop hi))
  have hrun : (T2.children.drop lo).take (hi - lo) = (TR.children.drop lo).take (hi - lo) :=
    take_drop_congr hag2
  -- the start of the middle part
  have hStart : ∀ (tmX : TreeModel) (TX : Tree) (frX : Frame), tmX.node R = some TX →
      TX.children.length = TR.children.length → frX.cmnRoot = some R →
      frX.range.m_startContainer = some sc → frX.range.m_startOffset = fr.range.m_startOffset →
      processStart tmX frX = some (childAt R TR.children.length lo) := by
    intro tmX TX frX hTX hlenX hRX hscX hsoX
    rw [← hlenX]
    apply processStart_spec hRX hscX hTX
    rcases hS with ⟨h1, _, h3, h4⟩ | ⟨a, h1, _, h3, _⟩
    · exact Or.inl ⟨h1, by rw [hsoX]; exact h3, by rw [hsoX]; exact hso0,
        by rw [hsoX]; omega, by omega⟩
    · have := valid_child_lt hTR (valid_of_mem_ancestors hscv h1)
      exact Or.inr ⟨a, h1, h3, by omega⟩
  have hEnd : ∀ (tmX : TreeModel) (TX : Tree) (frX : Frame) (x : NodeImpl),
      tmX.node R = some TX →
      TX.children.length = TR.children.length → frX.cmnRoot = some R →
      frX.range.m_endContainer = some x → frX.range.m_endOffset = fr.range.m_endOffset →
      ((e = R ∧ x = R) ∨ ∃ b, .child R b ∈ e.ancestors ∧ .child R b ∈ x.ancestors ∧ hi = b) →
      processEnd tmX frX = some (childAt R TR.children.length hi) := by
    intro tmX TX frX x hTX hlenX hRX heX heoX hx
    rw [← hlenX]
    apply processEnd_spec hRX heX hTX
    rcases hx with ⟨h1, h2⟩ | ⟨b, h1, h2, h3⟩
    · rcases hE with ⟨_, _, h5, h6⟩ | ⟨b, h4, _⟩
      · exact Or.inl ⟨h2, by rw [heoX]; exact h5, by rw [heoX]; exact heo0,
          by rw [heoX]; omega, by omega⟩
      · subst h1
        exact absurd h4 (child_not_mem_ancestors _ _)
    · subst h3
      have := valid_child_lt hTR (valid_of_mem_ancestors hev h1)
      exact Or.inr ⟨h2, by omega⟩
  -- where the relocation of the middle part moves the partial containers
  have hP : (∃ a, fr.partialStart = some (.child R a) ∧ lo = a + 1 ∧
        ((relocate R lo)^[hi - lo]) (.child R a) = .child R a) ∨
      (fr.partialStart = none ∧ ∃ b, fr.partialEnd = some (.child R b) ∧
        ((relocate R lo)^[hi - lo]) (.child R b) = .child R lo) := by
    rcases hS with ⟨h1, h2, _, _⟩ | ⟨a, _, h2, h3, _⟩
    · rcases hE with ⟨h4, _⟩ | ⟨b, _, h5, h6, _⟩
      · exact absurd (h1.trans h4.symm) hne
      · refine Or.inr ⟨h2, b, h5, ?_⟩
        rw [iterate_relocate_child R lo (hi - lo) b (by omega)]
        congr 1
        omega
    · refine Or.inl ⟨a, h2, h3, ?_⟩
      exact iterate_relocate_of_not_after R lo _ fun i hi => by
        have := mem_ancestors_child_same hi
        omega
  refine ⟨tmD, _, .mk NodeType.DOCUMENT_FRAGMENT_NODE []
    (FL.toList ++ (TR.children.drop lo).take (hi - lo) ++ FR.toList),
    ⟨(replace_replace h2 _).symm.trans hD, rfl,
      by rw [Tree.withChildren_nodeType, hkind2, hkind1]⟩, ?_, ?_, ?_, ?_,
    by rw [hFL, hFR]; rfl, ?_⟩
  · simp only [Tree.withChildren_children, List.length_append, List.length_take,
      List.length_drop, hlen2]
    omega
  · intro hscR hhil
    cases hT1R hscR
    have hhi2 : hi < T2.children.length := by omega
    refine ⟨T2.children[hi], ?_⟩
    simp only [Tree.withChildren_children]
    congr 1
    · apply List.ext_getElem?
      intro n
      by_cases hn : n < lo
      · rw [List.getElem?_take_of_lt hn, List.getElem?_take_of_lt hn]
        exact hag3 n (by omega)
      · rw [List.getElem?_eq_none, List.getElem?_eq_none]
        · simp; omega
        · simp; omega
    · rw [@List.drop_eq_getElem_cons _ hi _ hhi2]
      congr 1
      apply List.ext_getElem?
      intro n
      rw [List.getElem?_drop, List.getElem?_drop]
      exact hag3 _ (by omega)
  · intro hks hleaf y hyR hyRi hyL hyE
    have h1 := hkeptR hks hleaf y hyE
    rw [hkeptL y hyL] at h1
    rw [← h1]
    refine node_cut hT2 hlohi (by omega) hD ?_ ?_
    · rcases hE with ⟨hE1, _⟩ | ⟨b, hE1, _⟩
      · rw [if_pos hE1]
        exact hyR
      · have hne1 : e ≠ R := by
          intro h
          subst h
          exact child_not_mem_ancestors _ _ hE1
        rw [if_neg hne1]
        intro hmem
        have hd := depth_le_of_mem_ancestors hmem
        rw [rightLevelsShift_depth, cut_depth] at hd
        have hed := depth_lt_of_mem_ancestors_ne (parent_mem_ancestors hE1) (Ne.symm hne1)
        rw [cut_of_depth_le e 0 _ (by omega),
          rightLevelsShift_of_depth_le (parent_mem_ancestors hE1) hne1 (by omega)] at hmem
        exact hyR hmem
    · intro i hi
      apply hyRi i
      rcases hE with ⟨hE1, _⟩ | ⟨b, hE1, _⟩
      · rw [if_pos hE1] at hi
        exact hi
      · have hne1 : e ≠ R := by
          intro h
          subst h
          exact child_not_mem_ancestors _ _ hE1
        rw [if_neg hne1] at hi
        have hed := depth_lt_of_mem_ancestors_ne (parent_mem_ancestors hE1) (Ne.symm hne1)
        rw [mem_ancestors_rightLevelsShift (by simp [NodeImpl.depth])
          (parent_mem_ancestors hE1) hne1,
          mem_ancestors_cut e 0 _ (by simp only [NodeImpl.depth]; omega)] at hi
        exact hi
  · intro hne1
    obtain ⟨K, hK1, hK2⟩ := hendR hne1
    refine ⟨K, hK1, ?_⟩
    rw [← hK2]
    rcases hE with ⟨hE1, _⟩ | ⟨b, hE1, _, hE3, _⟩
    · exact absurd hE1 hne1
    · have hed := depth_lt_of_mem_ancestors_ne (parent_mem_ancestors hE1) (Ne.symm hne1)
      refine node_cut hT2 hlohi (by omega) hD ?_ ?_
      · intro hmem
        have hd := depth_le_of_mem_ancestors hmem
        rw [rightLevelsShift_depth] at hd
        omega
      · intro i hmi
        rw [mem_ancestors_rightLevelsShift (by simp [NodeImpl.depth])
          (parent_mem_ancestors hE1) hne1] at hmi
        have := eq_of_mem_ancestors_same_depth hmi hE1 (by simp [NodeImpl.depth])
        injection this with _ h6
        exact Or.inr (by omega)
  intro action
  obtain ⟨ec1, hl⟩ := hleft action 0
  obtain ⟨ec2, x1, hx, hr⟩ := hright action ec1
  by_cases hrem : action.removes = true
  · have hneC : action ≠ .CLONE_CONTENTS := by
      intro h
      subst h
      simp [ActionType.removes] at hrem
    simp only [hrem, if_true] at hl hr ⊢
    have hs := hStart tm2 T2 (fr.withEnd x1) hT2 hlen2 hR hsc rfl
    have hen := hEnd tm2 T2 (fr.withEnd x1) x1 hT2 hlen2 hR rfl rfl hx
    rw [← hlen2] at hs hen
    obtain ⟨tm3, h3, hmid⟩ := @processMiddle_removes _ hneC _ (fr.withEnd x1) _ _ _ _ hR hT2 hs hen
      hlohi (by omega) FL FR ec2
    rw [hD] at h3
    cases Option.some.inj h3
    refine ⟨ec2, ?_⟩
    simp only [processComplex, hl, Option.some_bind, hr, hmid, collapseAfter_spec x1 ec2 hP,
      hrun]
  · have hrem' : action.removes = false := by simpa using hrem
    have hcl : action = .CLONE_CONTENTS := by
      cases action <;> simp_all [ActionType.removes]
    subst hcl
    simp only [hrem', Bool.false_eq_true, if_false] at hl hr ⊢
    have hs := hStart tm TR fr hTR rfl hR hsc rfl
    have hen := hEnd tm TR fr e hTR rfl hR he rfl
      (by
        rcases hE with ⟨h, _⟩ | ⟨b, h1, _, h3, _⟩
        · exact Or.inl ⟨h, h⟩
        · exact Or.inr ⟨b, h1, h1, h3⟩)
    have hmid := processMiddle_clone hR hTR hs hen hlohi hhi FL FR ec2
    refine ⟨ec2, ?_⟩
    simp only [ActionType.copies, decide_True, Bool.or_true, if_true] at hl hr ⊢
    simp only [processComplex, hl, Option.some_bind, hr, hmid]

/-! ## `processContents` on a range with two containers -/

theorem processContents_complex_eq (action : ActionType) (tm : TreeModel) {r : RangeImpl}
    {sc e R : NodeImpl} {ps pe : Ptr} (hd : r.m_detached = false)
    (hsc : r.m_startContainer = some sc) (he : r.m_endContainer = some e) (hne : sc ≠ e)
    (hloop : commonAncestorLoop (some e) sc = some R)
    (hps : partialContainer (some R) (some sc) = some ps)
    (hpe : partialContainer (some R) (some e) = some pe) :
    processContents action tm r 0 =
      processComplex action tm ⟨r, some R, ps, pe⟩ (newFragment action) 0 := by
  have hne' : ¬ (some sc = some e) := fun h => hne (Option.some.inj h)
  simp [processContents, RangeImpl.collapsed, hd, hsc, he, hne, hne',
    RangeImpl.commonAncestorContainer, WebCore.commonAncestorContainer, hloop, hps, hpe]

theorem commonAncestorLoop_eq_of_common {a b r : NodeImpl}
    (h : commonAncestorLoop (some b) a = some r) {z : NodeImpl} (hza : z ∈ a.ancestors)
    (hzb : z ∈ b.ancestors) (hrz : r ∈ z.ancestors) : r = z := by
  obtain ⟨_, _, h3⟩ := commonAncestorLoop_some h
  have h1 := depth_le_of_mem_ancestors (h3 z hza hzb)
  have h2 := depth_le_of_mem_ancestors hrz
  exact eq_of_mem_ancestors_of_depth_eq hrz (by omega)

theorem partialContainer_self (R : NodeImpl) :
    partialContainer (some R) (some R) = some none := by
  simp [partialContainer]

theorem partialContainer_of_mem {R x : NodeImpl} {k : Nat} (h : .child R k ∈ x.ancestors) :
    partialContainer (some R) (some x) = some (some (.child R k)) := by
  have hne : x ≠ R := by
    intro e
    subst e
    exact child_not_mem_ancestors _ _ h
  have hne' : ¬ (some x = some R) := fun e => hne (Option.some.inj e)
  simp [partialContainer, hne', climbToChildOf_of_mem h]

theorem not_below_of_depth {p x : NodeImpl} (h : x.depth ≤ p.depth) (i : Nat) :
    .child p i ∉ x.ancestors := by
  intro hm
  have := depth_le_of_mem_ancestors hm
  simp only [NodeImpl.depth] at this
  omega

theorem not_below_sibling {R x : NodeImpl} {a b : Nat} (hab : a ≠ b)
    (hx : .child R b ∈ x.ancestors) (i : Nat) : .child (.child R a) i ∉ x.ancestors := by
  intro hm
  have h1 := parent_mem_ancestors hm
  have := eq_of_mem_ancestors_same_depth h1 hx (by simp [NodeImpl.depth])
  injection this with _ h2
  exact hab h2

/-- All three actions on a valid range with two different containers: `R` is
the common ancestor, `lo` the index of the first child of `R` after the start
of the range, `hi` the index of the first one that is not wholly before its
end. -/
theorem processContents_complex {tm : TreeModel} {r : RangeImpl} {sc e : NodeImpl}
    {ts te : Tree} (hwf : tm.wellFormed = true) (hd : r.m_detached = false)
    (hsc : r.m_startContainer = some sc) (he : r.m_endContainer = some e) (hne : sc ≠ e)
    (hts : tm.node sc = some ts) (hte : tm.node e = some te)
    (hroot : rootContainer sc = rootContainer e)
    (hvalid : r.boundaryPointsValid tm = some true)
    (hso0 : 0 ≤ r.m_startOffset) (hso : r.m_startOffset ≤ offsetBound ts)
    (hbs : (offsetBound ts : Int) < 2 ^ 31)
    (heo0 : 0 ≤ r.m_endOffset) (heo : r.m_endOffset ≤ offsetBound te)
    (hbe : (offsetBound te : Int) < 2 ^ 31) :
    ∃ R TR lo hi tmD TD F,
      commonAncestorLoop (some e) sc = some R ∧ tm.node R = some TR ∧
      (tm.replace R TD = some tmD ∧ F.nodeType = NodeType.DOCUMENT_FRAGMENT_NODE ∧
        TD.nodeType = TR.nodeType) ∧
      TD.children.length = TR.children.length - (hi - lo) ∧
      lo ≤ hi ∧ hi ≤ TR.children.length ∧
      (∀ a, .child R a ∈ sc.ancestors → lo = a + 1) ∧
      (sc = R → (lo : Int) = r.m_startOffset ∧ ∀ b, .child R b ∈ e.ancestors → hi = b ∧
        ∃ K, TD.children = TR.children.take lo ++ K :: TR.children.drop (b + 1)) ∧
      ((∀ b, .child R b ∈ e.ancestors → hi = b) ∧ (e = R → (hi : Int) = r.m_endOffset)) ∧
      (ts.nodeType ≠ NodeType.PROCESSING_INSTRUCTION_NODE →
        ∀ y, y ∉ R.ancestors → (∀ i, .child R i ∈ y.ancestors → i < lo ∨ hi ≤ i) →
          (∀ a, .child R a ∈ sc.ancestors → KeptLeft (.child R a) sc r.m_startOffset y) →
          (∀ b, .child R b ∈ e.ancestors → KeptRight (.child R b) e r.m_endOffset y) →
          tmD.node (cut R lo hi (if e = R then y
              else rightLevelsShift R e (cut e 0 r.m_endOffset.toNat y)))
            = tm.node y) ∧
      (e ≠ R → ∃ K, K.nodeType = te.nodeType ∧
        tmD.node (cut R lo hi (rightLevelsShift R e e)) = some K) ∧
      F = complexFragment tm R sc e ts te TR r.m_startOffset.toNat r.m_endOffset.toNat lo hi ∧
      ∀ (action : ActionType), ∃ ec1,
        processContents action tm r 0 =
          some (if action.removes then tmD else tm,
            if action.removes then
              (⟨r.m_ownerDocument, some R, lo, some R, lo, false⟩ : RangeImpl)
            else r, ec1, if action.copies then some F else none) := by
  have hscv : tm.valid sc := valid_iff.mpr ⟨ts, hts⟩
  have hev : tm.valid e := valid_iff.mpr ⟨te, hte⟩
  have hcmp : ∃ x, compareBoundaryPoints tm (some sc) r.m_startOffset (some e) r.m_endOffset
      = some x ∧ x ≤ 0 := by
    simp only [RangeImpl.boundaryPointsValid, hsc, he, Option.map_eq_some'] at hvalid
    obtain ⟨x, hx, hx2⟩ := hvalid
    exact ⟨x, hx, by simpa using hx2⟩
  obtain ⟨x, hx, hx0⟩ := hcmp
  obtain ⟨R, hloop⟩ := commonAncestorLoop_of_same_root (a := sc) (b := e) hroot
  obtain ⟨hRs, hRe, _⟩ := commonAncestorLoop_some hloop
  have hleafE : isCharacterLike te.nodeType = true → te.children = [] :=
    (Tree.wellFormed_children (wellFormed_node hwf hte)).2
  rcases same_root_cases hroot with h | ⟨k, hk⟩ | ⟨k, hk⟩ | ⟨r0, i, j, hij, hi, hj⟩
  · exact absurd h hne
  · -- the start container is the common ancestor
    have hR : R = sc :=
      commonAncestorLoop_eq_of_common hloop (mem_ancestors_self _) (parent_mem_ancestors hk)
        hRs
    subst hR
    rw [compare_ancestor _ _ hev hk] at hx
    have hsok : r.m_startOffset ≤ (k : Int) := by
      by_contra hc
      simp only [hc, if_false, Option.some.injEq] at hx
      omega
    have hklt : k < ts.children.length := valid_child_lt hts (valid_of_mem_ancestors hev hk)
    obtain ⟨tmD, TD, F, h1, h2, h3, h3f, h3k, hF, h4⟩ := @processComplex_spec _
      ⟨r, some R, none, some (.child R k)⟩ _ _ _ _ _ _ (r.m_startOffset.toNat) (k)
      rfl hsc he hts hte hts hso0 hso hbs heo0 heo hbe
      (Or.inl ⟨rfl, rfl, rfl, by omega⟩)
      (Or.inr ⟨k, hk, rfl, rfl, by
        intro y hy
        simp only [Frame.withEnd, Frame.pointers, hsc, Option.toList_some, Option.toList_none,
          List.append_nil, List.mem_append, List.mem_singleton, List.mem_cons,
          List.not_mem_nil, or_false] at hy
        rcases hy with ((hy | hy) | hy) | hy
        · subst hy
          exact not_below_of_depth (by simp [NodeImpl.depth])
        · subst hy
          exact fun i => child_not_mem_ancestors _ i
        · subst hy
          exact not_below_of_depth (by simp [NodeImpl.depth])
        · subst hy
          exact fun i => child_not_mem_ancestors _ i⟩)
      (by omega) hne
    refine ⟨R, ts, r.m_startOffset.toNat, k, tmD, TD, F, hloop, hts, h1, h2, by omega,
      by omega, ?_, ?_, ⟨?_, ?_⟩, fun hks => h3f hks hleafE, h3k, hF, ?_⟩
    · intro a ha
      exact absurd ha (child_not_mem_ancestors _ _)
    · intro _
      refine ⟨by omega, fun b hb => ?_⟩
      have hbk : b = k := by
        have := eq_of_mem_ancestors_same_depth hb hk (by simp [NodeImpl.depth])
        injection this
      subst hbk
      exact ⟨rfl, h3 rfl hklt⟩
    · intro b hb
      have := eq_of_mem_ancestors_same_depth hb hk (by simp [NodeImpl.depth])
      injection this with _ h6
      exact h6.symm
    · intro heR
      subst heR
      exact absurd hk (child_not_mem_ancestors _ _)
    · intro action
      obtain ⟨ec1, h5⟩ := h4 action
      refine ⟨ec1, ?_⟩
      rw [processContents_complex_eq action tm hd hsc he hne hloop (partialContainer_self R)
        (partialContainer_of_mem hk), h5]
      simp [hd]
  · -- the end container is the common ancestor
    have hR : R = e :=
      commonAncestorLoop_eq_of_common hloop (parent_mem_ancestors hk) (mem_ancestors_self _)
        hRe
    subst hR
    rw [compare_descendant _ _ hscv hk] at hx
    have hkeo : (k : Int) < r.m_endOffset := by
      by_contra hc
      simp only [hc, if_false, Option.some.injEq] at hx
      omega
    have hklt : k < te.children.length := valid_child_lt hte (valid_of_mem_ancestors hscv hk)
    have hncl : isCharacterLike te.nodeType = false :=
      not_characterLike_of_child hwf (valid_of_mem_ancestors hscv hk) hte
    rw [offsetBound_of_not_characterLike hncl] at heo hbe
    obtain ⟨tmD, TD, F, h1, h2, h3, h3f, h3k, hF, h4⟩ := @processComplex_spec _
      ⟨r, some R, some (.child R k), none⟩ _ _ _ _ _ _ (k + 1) (r.m_endOffset.toNat)
      rfl hsc he hts hte hte hso0 hso hbs heo0
      (by rw [offsetBound_of_not_characterLike hncl]; exact heo)
      (by rw [offsetBound_of_not_characterLike hncl]; exact hbe)
      (Or.inr ⟨k, hk, rfl, rfl, by
        intro y hy
        simp only [Frame.pointers, hsc, he, Option.toList_some, Option.toList_none,
          List.append_nil, List.mem_append, List.mem_singleton, List.mem_cons,
          List.not_mem_nil, or_false] at hy
        rcases hy with ((hy | hy) | hy) | hy
        · exact Or.inl hy
        · subst hy
          exact Or.inr (not_below_of_depth (by simp [NodeImpl.depth]))
        · subst hy
          exact Or.inr (not_below_of_depth (by simp [NodeImpl.depth]))
        · subst hy
          exact Or.inr fun i => child_not_mem_ancestors _ i⟩)
      (Or.inl ⟨rfl, rfl, rfl, by omega⟩)
      (by omega) hne
    refine ⟨R, te, k + 1, r.m_endOffset.toNat, tmD, TD, F, hloop, hte, h1, h2, by omega,
      by omega, ?_, ?_, ⟨?_, ?_⟩, fun hks => h3f hks hleafE, h3k, hF, ?_⟩
    · intro a ha
      have := eq_of_mem_ancestors_same_depth ha hk (by simp [NodeImpl.depth])
      injection this with _ h6
      omega
    · intro hscR
      subst hscR
      exact absurd hk (child_not_mem_ancestors _ _)
    · intro b hb
      exact absurd hb (child_not_mem_ancestors _ _)
    · intro _
      omega
    · intro action
      obtain ⟨ec1, h5⟩ := h4 action
      refine ⟨ec1, ?_⟩
      rw [processContents_complex_eq action tm hd hsc he hne hloop (partialContainer_of_mem hk)
        (partialContainer_self R), h5]
      simp [hd]
  · -- the containers lie below two children of the common ancestor
    have hR : R = r0 := by
      have := commonAncestorLoop_of_siblings hij hi hj
      rw [hloop] at this
      exact Option.some.inj this
    subst hR
    obtain ⟨TR, hTR⟩ := valid_iff.mp (valid_of_mem_ancestors hscv hRs)
    rw [compare_siblings _ _ hscv hev hij hi hj] at hx
    have hlt : i < j := by
      by_contra hc
      simp only [hc, if_false, Option.some.injEq] at hx
      omega
    have hjlt : j < TR.children.length := valid_child_lt hTR (valid_of_mem_ancestors hev hj)
    obtain ⟨tmD, TD, F, h1, h2, h3, h3f, h3k, hF, h4⟩ := @processComplex_spec _
      ⟨r, some R, some (.child R i), some (.child R j)⟩ _ _ _ _ _ _ (i + 1) (j)
      rfl hsc he hts hte hTR hso0 hso hbs heo0 heo hbe
      (Or.inr ⟨i, hi, rfl, rfl, by
        intro y hy
        simp only [Frame.pointers, hsc, he, Option.toList_some, Option.toList_none,
          List.append_nil, List.mem_append, List.mem_singleton, List.mem_cons,
          List.not_mem_nil, or_false] at hy
        rcases hy with (((hy | hy) | hy) | hy) | hy
        · exact Or.inl hy
        · subst hy
          exact Or.inr (not_below_sibling hij hj)
        · subst hy
          exact Or.inr (not_below_of_depth (by simp [NodeImpl.depth]))
        · subst hy
          exact Or.inr fun i => child_not_mem_ancestors _ i
        · subst hy
          exact Or.inr (not_below_of_depth (by simp [NodeImpl.depth]))⟩)
      (Or.inr ⟨j, hj, rfl, rfl, by
        intro y hy
        simp only [Frame.withEnd, Frame.pointers, hsc, Option.toList_some, Option.toList_none,
          List.append_nil, List.mem_append, List.mem_singleton, List.mem_cons,
          List.not_mem_nil, or_false] at hy
        rcases hy with (((hy | hy) | hy) | hy) | hy
        · subst hy
          exact not_below_sibling (Ne.symm hij) hi
        · subst hy
          exact fun i => child_not_mem_ancestors _ i
        · subst hy
          exact not_below_of_depth (by simp [NodeImpl.depth])
        · subst hy
          exact not_below_of_depth (by simp [NodeImpl.depth])
        · subst hy
          exact fun i => child_not_mem_ancestors _ i⟩)
      (by omega) hne
    refine ⟨R, TR, i + 1, j, tmD, TD, F, hloop, hTR, h1, h2, by omega, by omega, ?_, ?_,
      ⟨?_, ?_⟩, fun hks => h3f hks hleafE, h3k, hF, ?_⟩
    · intro a ha
      have := eq_of_mem_ancestors_same_depth ha hi (by simp [NodeImpl.depth])
      injection this with _ h6
      omega
    · intro hscR
      subst hscR
      exact absurd hi (child_not_mem_ancestors _ _)
    · intro b hb
      have := eq_of_mem_ancestors_same_depth hb hj (by simp [NodeImpl.depth])
      injection this with _ h6
      exact h6.symm
    · intro heR
      subst heR
      exact absurd hj (child_not_mem_ancestors _ _)
    · intro action
      obtain ⟨ec1, h5⟩ := h4 action
      refine ⟨ec1, ?_⟩
      rw [processContents_complex_eq action tm hd hsc he hne hloop (partialContainer_of_mem hi)
        (partialContainer_of_mem hj), h5]
      simp [hd]

/-! ## `processContents` on every valid range -/

theorem processSimple_instruction (action : ActionType) {tm : TreeModel} {fr : Frame}
    {c : NodeImpl} {t : Tree} (hc : fr.range.m_startContainer = some c)
    (ht : tm.node c = some t) (hk : t.nodeType = NodeType.PROCESSING_INSTRUCTION_NODE) :
    processSimple action tm fr (newFragment action) 0 =
      some (tm, fr, newFragment action, 0) := by
  simp [processSimple, hc, nodeType, ht, hk, isTextCDataOrComment]

/-- All three actions on a valid range that is not collapsed: they return; the
actions that change the tree leave the same forest and the same collapsed
range; the two actions that return a fragment return the same one. -/
theorem processContents_valid {tm : TreeModel} {r : RangeImpl} {sc e : NodeImpl}
    {ts te : Tree} (hwf : tm.wellFormed = true) (hd : r.m_detached = false)
    (hsc : r.m_startContainer = some sc) (he : r.m_endContainer = some e)
    (hts : tm.node sc = some ts) (hte : tm.node e = some te)
    (hroot : rootContainer sc = rootContainer e)
    (hvalid : r.boundaryPointsValid tm = some true)
    (hso0 : 0 ≤ r.m_startOffset) (hso : r.m_startOffset ≤ offsetBound ts)
    (hbs : (offsetBound ts : Int) < 2 ^ 31)
    (heo0 : 0 ≤ r.m_endOffset) (heo : r.m_endOffset ≤ offsetBound te)
    (hbe : (offsetBound te : Int) < 2 ^ 31)
    (hnc : ¬ (sc = e ∧ r.m_startOffset = r.m_endOffset)) :
    ∃ tmD rD F, rD.m_startContainer = rD.m_endContainer ∧
      rD.m_startOffset = rD.m_endOffset ∧
      ∀ (action : ActionType), ∃ ec1,
        processContents action tm r 0 =
          some (if action.removes then tmD else tm, if action.removes then rD else r, ec1,
            if action.copies then some F else none) := by
  by_cases hse : sc = e
  · subst hse
    rw [hts] at hte
    cases Option.some.inj hte
    have hoff : r.m_startOffset ≠ r.m_endOffset := fun h => hnc ⟨rfl, h⟩
    have hle : r.m_startOffset ≤ r.m_endOffset := by
      simp only [RangeImpl.boundaryPointsValid, hsc, he, compare_same, Option.map_eq_some']
        at hvalid
      obtain ⟨x, hx, hx2⟩ := hvalid
      by_contra hc
      have h1 : ¬ r.m_startOffset = r.m_endOffset := hoff
      have h2 : ¬ r.m_startOffset < r.m_endOffset := by omega
      simp only [h1, h2, if_false, Option.some.injEq] at hx
      subst hx
      simp at hx2
    have hfix : ∀ m k : Nat, r.relocate ((relocate sc k)^[m]) = r := fun m k =>
      rangeRelocate_of_fixed
        (fun x hx => by
          rw [hsc] at hx
          cases Option.some.inj hx
          exact iterate_relocate_self _ _ m)
        (fun x hx => by
          rw [he] at hx
          cases Option.some.inj hx
          exact iterate_relocate_self _ _ m)
    by_cases hk1 : isTextCDataOrComment ts.nodeType = true
    · rw [offsetBound_of_textLike hk1] at heo hbe
      obtain ⟨tmD, h3, _⟩ := @processSimple_character .DELETE_CONTENTS tm
        ⟨r, some sc, none, none⟩ sc ts hsc hts hk1 hso0 hle heo hbe
      refine ⟨tmD, (r.collapse true 0).1, .mk NodeType.DOCUMENT_FRAGMENT_NODE []
        [ts.withData ((ts.data.take r.m_endOffset.toNat).drop r.m_startOffset.toNat)],
        ?_, ?_, fun action => ⟨0, ?_⟩⟩
      · simp [RangeImpl.collapse, hd]
      · simp [RangeImpl.collapse, hd]
      · obtain ⟨tm1, h1, h2⟩ := @processSimple_character action tm
          ⟨r, some sc, none, none⟩ sc ts hsc hts hk1 hso0 hle heo hbe
        have : tm1 = tmD := by
          rw [h3] at h1
          exact (Option.some.inj h1).symm
        subst this
        rw [processContents_same action tm hd hsc he hoff, h2]
        cases action <;> simp [ActionType.removes, ActionType.copies, RangeImpl.collapse, hd]
    · by_cases hk2 : ts.nodeType = NodeType.PROCESSING_INSTRUCTION_NODE
      · refine ⟨tm, (r.collapse true 0).1, .mk NodeType.DOCUMENT_FRAGMENT_NODE [] [], ?_, ?_,
          fun action => ⟨0, ?_⟩⟩
        · simp [RangeImpl.collapse, hd]
        · simp [RangeImpl.collapse, hd]
        · rw [processContents_same action tm hd hsc he hoff,
            @processSimple_instruction action tm ⟨r, some sc, none, none⟩ sc ts hsc hts hk2]
          cases action <;>
            simp [ActionType.removes, ActionType.copies, RangeImpl.collapse, hd, newFragment]
      · have hcl : isCharacterLike ts.nodeType = false := by
          cases hk : ts.nodeType <;> simp_all [isCharacterLike, isTextCDataOrComment]
        rw [offsetBound_of_not_characterLike hcl] at heo hbe
        obtain ⟨tmD, h3, _⟩ := @processSimple_children .DELETE_CONTENTS tm
          ⟨r, some sc, none, none⟩ sc ts hsc hts hcl hso0 hle heo hbe
        refine ⟨tmD, (r.collapse true 0).1, .mk NodeType.DOCUMENT_FRAGMENT_NODE []
          ((ts.children.drop r.m_startOffset.toNat).take
            (r.m_endOffset.toNat - r.m_startOffset.toNat)), ?_, ?_, fun action => ⟨0, ?_⟩⟩
        · simp [RangeImpl.collapse, hd]
        · simp [RangeImpl.collapse, hd]
        · obtain ⟨tm1, h1, h2⟩ := @processSimple_children action tm
            ⟨r, some sc, none, none⟩ sc ts hsc hts hcl hso0 hle heo hbe
          have : tm1 = tmD := by
            rw [h3] at h1
            exact (Option.some.inj h1).symm
          subst this
          rw [processContents_same action tm hd hsc he hoff, h2]
          cases action <;>
            simp [ActionType.removes, ActionType.copies, RangeImpl.collapse, hd,
              Frame.relocate, hfix]
  · obtain ⟨R, TR, lo, hi, tmD, TD, F, _, _, _, _, _, _, _, _, _, _, _, _, h⟩ :=
      processContents_complex hwf hd hsc he hse hts hte hroot hvalid hso0 hso hbs heo0 heo hbe
    exact ⟨tmD, ⟨r.m_ownerDocument, some R, lo, some R, lo, false⟩, F, rfl, rfl, h⟩

/-! ## The content operations: the claims on valid ranges -/

theorem commonAncestorLoop_of_container {tm : TreeModel} {sc e R : NodeImpl}
    (hroot : rootContainer sc = rootContainer e)
    (h : WebCore.commonAncestorContainer tm (some sc) (some e) = some (some R)) :
    commonAncestorLoop (some e) sc = some R := by
  obtain ⟨R1, h1⟩ := commonAncestorLoop_of_same_root (a := sc) (b := e) hroot
  simp only [WebCore.commonAncestorContainer, Option.some_bind, h1, Option.some.injEq] at h
  rw [h1, h]

/-- C16. `cloneContents` is read-only on live state.  For a valid non-detached
range (containers are nodes of one tree of a well-formed forest, offsets
within the bounds of their containers, start not after end, sizes below
`2 ^ 31`), `cloneContents` returns, and the forest and the range it leaves are
the forest and the range before the call: structure, character data and the
four boundary fields are unchanged.  The returned fragment is a tree of its
own, held outside the forest: every node of the forest is still at its place
under its parent, so none of them is a node of the fragment. -/
theorem cloneContents_is_read_only (tm : TreeModel) (r : RangeImpl) (sc e : NodeImpl)
    (ts te : Tree) (hwf : tm.wellFormed = true) (hd : r.m_detached = false)
    (hsc : r.m_startContainer = some sc) (he : r.m_endContainer = some e)
    (hts : tm.node sc = some ts) (hte : tm.node e = some te)
    (hroot : rootContainer sc = rootContainer e)
    (hvalid : r.boundaryPointsValid tm = some true)
    (hso0 : 0 ≤ r.m_startOffset) (hso : r.m_startOffset ≤ offsetBound ts)
    (hbs : (offsetBound ts : Int) < 2 ^ 31)
    (heo0 : 0 ≤ r.m_endOffset) (heo : r.m_endOffset ≤ offsetBound te)
    (hbe : (offsetBound te : Int) < 2 ^ 31) :
    ∃ ec1 fragment, r.cloneContents cloneContentsRest tm 0 = some (tm, r, ec1, fragment) := by
  by_cases hc : sc = e ∧ r.m_startOffset = r.m_endOffset
  · refine ⟨0, none, ?_⟩
    simp [RangeImpl.cloneContents, hd, cloneContentsRest,
      processContents_collapsed .CLONE_CONTENTS tm hd (by rw [hsc, he, hc.1]) hc.2]
  · obtain ⟨tmD, rD, F, _, _, h⟩ := processContents_valid hwf hd hsc he hts hte hroot hvalid
      hso0 hso hbs heo0 heo hbe hc
    obtain ⟨ec1, h1⟩ := h .CLONE_CONTENTS
    refine ⟨ec1, some F, ?_⟩
    simp [RangeImpl.cloneContents, hd, cloneContentsRest, h1, ActionType.removes,
      ActionType.copies]

theorem cloneContents_is_read_only_witness :
    ∃ ec1 fragment,
      RangeImpl.cloneContents cloneContentsRest sampleModel
          ⟨some (.root 0), some (.child sampleP 0), 1, some (.child sampleDiv 0), 2, false⟩ 0
        = some (sampleModel,
            ⟨some (.root 0), some (.child sampleP 0), 1, some (.child sampleDiv 0), 2, false⟩,
            ec1, fragment) :=
  cloneContents_is_read_only sampleModel
    ⟨some (.root 0), some (.child sampleP 0), 1, some (.child sampleDiv 0), 2, false⟩
    (.child sampleP 0) (.child sampleDiv 0) (.mk .TEXT_NODE [97, 98, 99] [])
    (.mk .TEXT_NODE [102, 103, 104] []) (by decide) rfl rfl rfl rfl rfl (by decide) (by decide)
    (by decide) (by decide) (by decide) (by decide) (by decide) (by decide)

/-- C17. Extract/clone parity.  For a valid non-detached range that is not
collapsed, on a forest that passes the pre-checks of `checkDeleteExtract`,
`extractContents` and `cloneContents` both return a fragment, and the two
fragments are equal trees: the same kinds, character data and children in the
same order, at every depth. -/
theorem extract_clone_parity (isReadOnly : NodeImpl → Bool) (tm : TreeModel) (r : RangeImpl)
    (sc e : NodeImpl) (ts te : Tree) (hwf : tm.wellFormed = true)
    (hd : r.m_detached = false)
    (hsc : r.m_startContainer = some sc) (he : r.m_endContainer = some e)
    (hts : tm.node sc = some ts) (hte : tm.node e = some te)
    (hroot : rootContainer sc = rootContainer e)
    (hvalid : r.boundaryPointsValid tm = some true)
    (hso0 : 0 ≤ r.m_startOffset) (hso : r.m_startOffset ≤ offsetBound ts)
    (hbs : (offsetBound ts : Int) < 2 ^ 31)
    (heo0 : 0 ≤ r.m_endOffset) (heo : r.m_endOffset ≤ offsetBound te)
    (hbe : (offsetBound te : Int) < 2 ^ 31)
    (hnc : ¬ (sc = e ∧ r.m_startOffset = r.m_endOffset))
    (hpre : checkDeleteExtract isReadOnly tm r 0 = some 0) :
    ∃ fragment tm1 r1 ec1 ec2,
      r.extractContents (extractContentsRest isReadOnly) tm 0
        = some (tm1, r1, ec1, some fragment) ∧
      r.cloneContents cloneContentsRest tm 0 = some (tm, r, ec2, some fragment) := by
  obtain ⟨tmD, rD, F, _, _, h⟩ := processContents_valid hwf hd hsc he hts hte hroot hvalid
    hso0 hso hbs heo0 heo hbe hnc
  obtain ⟨ec1, h1⟩ := h .EXTRACT_CONTENTS
  obtain ⟨ec2, h2⟩ := h .CLONE_CONTENTS
  refine ⟨F, tmD, rD, ec1, ec2, ?_, ?_⟩
  · simp [RangeImpl.extractContents, hd, extractContentsRest, hpre, h1, ActionType.removes,
      ActionType.copies]
  · simp [RangeImpl.cloneContents, hd, cloneContentsRest, h2, ActionType.removes,
      ActionType.copies]

theorem extract_clone_parity_witness :
    ∃ fragment tm1 r1 ec1 ec2,
      RangeImpl.extractContents (extractContentsRest noneReadOnly) sampleModel
          ⟨some (.root 0), some (.child sampleP 0), 1, some (.child sampleDiv 0), 2, false⟩ 0
        = some (tm1, r1, ec1, some fragment) ∧
      RangeImpl.cloneContents cloneContentsRest sampleModel
          ⟨some (.root 0), some (.child sampleP 0), 1, some (.child sampleDiv 0), 2, false⟩ 0
        = some (sampleModel,
            ⟨some (.root 0), some (.child sampleP 0), 1, some (.child sampleDiv 0), 2, false⟩,
            ec2, some fragment) :=
  extract_clone_parity noneReadOnly sampleModel
    ⟨some (.root 0), some (.child sampleP 0), 1, some (.child sampleDiv 0), 2, false⟩
    (.child sampleP 0) (.child sampleDiv 0) (.mk .TEXT_NODE [97, 98, 99] [])
    (.mk .TEXT_NODE [102, 103, 104] []) (by decide) rfl rfl rfl rfl rfl (by decide) (by decide)
    (by decide) (by decide) (by decide) (by decide) (by decide) (by decide) (by decide)
    (by decide)

/-- C20. Collapse after the complex case.  For a valid non-detached range with
distinct containers and common ancestor `R`, on a forest that passes the
pre-checks of `checkDeleteExtract`, `deleteContents` and `extractContents`
return, leave the same forest, and leave the range collapsed at `(R, off)`.
If the start container lies below the child of `R` at index `a` (the partial
start), `off = a + 1`.  If the start container is `R` itself, `off` is the start
offset, and when the end container lies below the child of `R` at index `b`
(the partial end), the children of `R` afterwards are its first `off` children
before, one node in the place of the partial end, and its children after index
`b` before: the partial end is at index `off` after the mutation. -/
theorem complex_case_collapse (isReadOnly : NodeImpl → Bool) (tm : TreeModel) (r : RangeImpl)
    (sc e R : NodeImpl) (ts te : Tree) (hwf : tm.wellFormed = true)
    (hd : r.m_detached = false)
    (hsc : r.m_startContainer = some sc) (he : r.m_endContainer = some e) (hne : sc ≠ e)
    (hts : tm.node sc = some ts) (hte : tm.node e = some te)
    (hroot : rootContainer sc = rootContainer e)
    (hR : WebCore.commonAncestorContainer tm (some sc) (some e) = some (some R))
    (hvalid : r.boundaryPointsValid tm = some true)
    (hso0 : 0 ≤ r.m_startOffset) (hso : r.m_startOffset ≤ offsetBound ts)
    (hbs : (offsetBound ts : Int) < 2 ^ 31)
    (heo0 : 0 ≤ r.m_endOffset) (heo : r.m_endOffset ≤ offsetBound te)
    (hbe : (offsetBound te : Int) < 2 ^ 31)
    (hpre : checkDeleteExtract isReadOnly tm r 0 = some 0) :
    ∃ (off : Nat) (tm1 : TreeModel) (ec1 ec2 : ExceptionCode) (fragment : Option Tree)
        (before after : Tree),
      r.deleteContents (deleteContentsRest isReadOnly) tm 0
        = some (tm1, ⟨r.m_ownerDocument, some R, off, some R, off, false⟩, ec1) ∧
      r.extractContents (extractContentsRest isReadOnly) tm 0
        = some (tm1, ⟨r.m_ownerDocument, some R, off, some R, off, false⟩, ec2, fragment) ∧
      tm.node R = some before ∧ tm1.node R = some after ∧
      (∀ a, .child R a ∈ sc.ancestors → off = a + 1) ∧
      (sc = R → (off : Int) = r.m_startOffset ∧
        ∀ b, .child R b ∈ e.ancestors → off ≤ b ∧ b < before.children.length ∧
          ∃ K, after.children
            = before.children.take off ++ K :: before.children.drop (b + 1)) := by
  obtain ⟨R1, TR, lo, hi, tmD, TD, F, h1, h2, h3, h4, h5, h6, h7, h8, _, _, _, _, h9⟩ :=
    processContents_complex hwf hd hsc he hne hts hte hroot hvalid hso0 hso hbs heo0 heo hbe
  have hR1 : R1 = R := by
    have := commonAncestorLoop_of_container hroot hR
    rw [h1] at this
    exact Option.some.inj this
  subst hR1
  obtain ⟨ecd, hdel⟩ := h9 .DELETE_CONTENTS
  obtain ⟨ece, hext⟩ := h9 .EXTRACT_CONTENTS
  refine ⟨lo, tmD, ecd, ece, some F, TR, TD, ?_, ?_, h2, replace_node_self h3.1, h7, ?_⟩
  · simp [RangeImpl.deleteContents, hd, deleteContentsRest, hpre, hdel, ActionType.removes,
      ActionType.copies]
  · simp [RangeImpl.extractContents, hd, extractContentsRest, hpre, hext, ActionType.removes,
      ActionType.copies]
  · intro hs
    obtain ⟨ha, hb⟩ := h8 hs
    refine ⟨ha, fun b hbm => ?_⟩
    obtain ⟨hhi, K, hK⟩ := hb b hbm
    subst hhi
    have hlen := congrArg List.length hK
    simp only [List.length_append, List.length_take, List.length_cons, List.length_drop,
      h4] at hlen
    refine ⟨h5, ?_, K, hK⟩
    omega

theorem complex_case_collapse_witness :
    ∃ (off : Nat) (tm1 : TreeModel) (ec1 ec2 : ExceptionCode) (fragment : Option Tree)
        (before after : Tree),
      RangeImpl.deleteContents (deleteContentsRest noneReadOnly) sampleModel
          ⟨some (.root 0), some (.child sampleP 0), 1, some (.child sampleDiv 0), 2, false⟩ 0
        = some (tm1, ⟨some (.root 0), some sampleHtml, off, some sampleHtml, off, false⟩,
            ec1) ∧
      RangeImpl.extractContents (extractContentsRest noneReadOnly) sampleModel
          ⟨some (.root 0), some (.child sampleP 0), 1, some (.child sampleDiv 0), 2, false⟩ 0
        = some (tm1, ⟨some (.root 0), some sampleHtml, off, some sampleHtml, off, false⟩,
            ec2, fragment) ∧
      sampleModel.node sampleHtml = some before ∧ tm1.node sampleHtml = some after ∧
      (∀ a, .child sampleHtml a ∈ (NodeImpl.child sampleP 0).ancestors → off = a + 1) ∧
      (NodeImpl.child sampleP 0 = sampleHtml → (off : Int) = 1 ∧
        ∀ b, .child sampleHtml b ∈ (NodeImpl.child sampleDiv 0).ancestors →
          off ≤ b ∧ b < before.children.length ∧
          ∃ K, after.children
            = before.children.take off ++ K :: before.children.drop (b + 1)) :=
  complex_case_collapse noneReadOnly sampleModel
    ⟨some (.root 0), some (.child sampleP 0), 1, some (.child sampleDiv 0), 2, false⟩
    (.child sampleP 0) (.child sampleDiv 0) sampleHtml (.mk .TEXT_NODE [97, 98, 99] [])
    (.mk .TEXT_NODE [102, 103, 104] []) (by decide) rfl rfl rfl (by decide) rfl rfl (by decide)
    (by decide) (by decide) (by decide) (by decide) (by decide) (by decide) (by decide)
    (by decide) (by decide)

/-- The range from `(document, 0)` to `(html, 1)` of the sample forest is valid,
has distinct containers and common ancestor the document, and contains the
document type node: `deleteContents` and `extractContents` report
`HIERARCHY_REQUEST_ERR` and leave the forest and the range as they were, so the
range is not collapsed afterwards. -/
theorem complex_case_collapse_doctype :
    sampleModel.wellFormed = true ∧
    RangeImpl.boundaryPointsValid sampleModel
        ⟨some (.root 0), some (.root 0), 0, some sampleHtml, 1, false⟩ = some true ∧
    WebCore.commonAncestorContainer sampleModel (some (.root 0)) (some sampleHtml)
      = some (some (.root 0)) ∧
    NodeImpl.root 0 ≠ sampleHtml ∧
    RangeImpl.deleteContents (deleteContentsRest noneReadOnly) sampleModel
        ⟨some (.root 0), some (.root 0), 0, some sampleHtml, 1, false⟩ 0
      = some (sampleModel, ⟨some (.root 0), some (.root 0), 0, some sampleHtml, 1, false⟩,
          HIERARCHY_REQUEST_ERR) ∧
    RangeImpl.extractContents (extractContentsRest noneReadOnly) sampleModel
        ⟨some (.root 0), some (.root 0), 0, some sampleHtml, 1, false⟩ 0
      = some (sampleModel, ⟨some (.root 0), some (.root 0), 0, some sampleHtml, 1, false⟩,
          HIERARCHY_REQUEST_ERR, none) :=
  ⟨by decide, by decide, by decide, by decide, rfl, rfl⟩

/-! ## Selection: the phases of `validate` -/

theorem canonicalize_affinity (o : VisiblePositionOracle) (s : Selection) :
    (s.canonicalize o).m_affinity = s.m_affinity := by
  unfold Selection.canonicalize
  dsimp only
  split_ifs <;> rfl

theorem repair_affinity {o : VisiblePositionOracle} {tm : TreeModel} {ob : Position}
    {s s1 : Selection} (h : s.repair o tm ob = some s1) : s1.m_affinity = s.m_affinity := by
  unfold Selection.repair at h
  split_ifs at h
  · cases hn : ob.m_node with
    | none => simp [hn] at h
    | some n => simp only [hn, Option.some.injEq] at h; subst h; rfl
  · cases h; rfl
  · cases h; rfl
  · cases h; rfl
  · simp only [Option.map_eq_some'] at h
    obtain ⟨c, _, rfl⟩ := h
    rfl

theorem order_affinity (s : Selection) : s.order.m_affinity = s.m_affinity := by
  unfold Selection.order
  split_ifs <;> rfl

theorem expand_affinity (o : VisiblePositionOracle) (g : ETextGranularity) (s : Selection) :
    (s.expand o g).m_affinity = s.m_affinity := by
  cases g <;> rfl

theorem correctExtent_affinity {o : VisiblePositionOracle} {br : Ptr} {s s1 : Selection}
    (h : s.correctExtent o br = some s1) : s1.m_affinity = s.m_affinity := by
  unfold Selection.correctExtent at h
  cases hx : s.m_extent.m_node with
  | none => simp [hx] at h
  | some x =>
    simp only [hx] at h
    split_ifs at h <;> cases h <;> rfl

theorem clampToRoot_affinity (o : VisiblePositionOracle) (root : NodeImpl) (sr er : Ptr)
    (s : Selection) : (s.clampToRoot o root sr er).m_affinity = s.m_affinity := by
  unfold Selection.clampToRoot
  dsimp only
  split_ifs <;> rfl

theorem leaveEditable_some {fuel : Nat} {o : VisiblePositionOracle} {sr er : Ptr}
    {s s1 : Selection} (h : s.leaveEditable fuel o sr er = some s1) :
    (∀ r, er = some r →
      ∃ v, retreatFromEditable o fuel r = some v ∧ s1.m_end = v.deepEquivalent) ∧
    (er = none → s1.m_end = s.m_end) ∧
    (∀ r, sr = some r →
      ∃ v, advanceFromEditable o fuel r = some v ∧ s1.m_start = v.deepEquivalent) ∧
    (sr = none → s1.m_start = s.m_start) ∧
    s1.m_base = s.m_base ∧ s1.m_extent = s.m_extent ∧ s1.m_affinity = s.m_affinity ∧
    s1.m_state = s.m_state ∧ s1.m_baseIsFirst = s.m_baseIsFirst := by
  unfold Selection.leaveEditable at h
  simp only [Option.bind_eq_some] at h
  obtain ⟨x1, hx1, hx2⟩ := h
  have e1 : (∀ r, er = some r →
        ∃ v, retreatFromEditable o fuel r = some v ∧ x1.m_end = v.deepEquivalent) ∧
      (er = none → x1.m_end = s.m_end) ∧ x1.m_start = s.m_start ∧
      x1.m_base = s.m_base ∧ x1.m_extent = s.m_extent ∧ x1.m_affinity = s.m_affinity ∧
      x1.m_state = s.m_state ∧ x1.m_baseIsFirst = s.m_baseIsFirst := by
    cases er with
    | none => simp only [Option.some.injEq] at hx1; subst hx1; simp
    | some r =>
      simp only [Option.map_eq_some'] at hx1
      obtain ⟨v, hv, rfl⟩ := hx1
      refine ⟨fun r1 hr1 => ?_, (fun hn => by cases hn), rfl, rfl, rfl, rfl, rfl, rfl⟩
      cases hr1
      exact ⟨v, hv, rfl⟩
  obtain ⟨q1, q1n, q2, q3, q4, q5, q6, q7⟩ := e1
  cases sr with
  | none =>
    simp only [Option.some.injEq] at hx2; subst hx2
    exact ⟨q1, q1n, (fun r hr => by cases hr), fun _ => q2, q3, q4, q5, q6, q7⟩
  | some r =>
    simp only [Option.map_eq_some'] at hx2
    obtain ⟨v, hv, rfl⟩ := hx2
    refine ⟨q1, q1n, fun r1 hr1 => ?_, (fun hn => by cases hn), q3, q4, q5, q6, q7⟩
    cases hr1
    exact ⟨v, hv, rfl⟩

theorem adjust_some {fuel : Nat} {o : VisiblePositionOracle} {s s1 : Selection}
    (h : s.adjustForEditableContent fuel o = some s1) :
    (s.m_base.m_node = none ∧ s1 = s) ∨
    ∃ b st en, s.m_base.m_node = some b ∧ s.m_start.m_node = some st ∧
      s.m_end.m_node = some en ∧
      ((o.rootEditableElement b = o.rootEditableElement st ∧
          o.rootEditableElement b = o.rootEditableElement en ∧ s1 = s) ∨
        (¬ (o.rootEditableElement b = o.rootEditableElement st ∧
            o.rootEditableElement b = o.rootEditableElement en) ∧
          ∃ x, ((∃ root, o.rootEditableElement b = some root ∧
                x = s.clampToRoot o root (o.rootEditableElement st) (o.rootEditableElement en)) ∨
              (o.rootEditableElement b = none ∧
                s.leaveEditable fuel o (o.rootEditableElement st) (o.rootEditableElement en)
                  = some x)) ∧
            x.correctExtent o (o.rootEditableElement b) = some s1)) := by
  unfold Selection.adjustForEditableContent at h
  cases hb : s.m_base.m_node with
  | none => simp only [hb, Option.some.injEq] at h; exact Or.inl ⟨rfl, h.symm⟩
  | some b =>
    right
    cases hst : s.m_start.m_node with
    | none => simp [hb, hst] at h
    | some st =>
      cases hen : s.m_end.m_node with
      | none => simp [hb, hst, hen] at h
      | some en =>
        simp only [hb, hst, hen] at h
        refine ⟨b, st, en, rfl, rfl, rfl, ?_⟩
        by_cases h1 : o.rootEditableElement b = o.rootEditableElement st ∧
            o.rootEditableElement b = o.rootEditableElement en
        · rw [if_pos h1] at h
          exact Or.inl ⟨h1.1, h1.2, (Option.some.inj h).symm⟩
        · rw [if_neg h1] at h
          right
          refine ⟨h1, ?_⟩
          simp only [Option.bind_eq_some] at h
          obtain ⟨x, hx, hx2⟩ := h
          refine ⟨x, ?_, hx2⟩
          cases hbr : o.rootEditableElement b with
          | some root =>
            simp only [hbr, Option.some.injEq] at hx
            exact Or.inl ⟨root, rfl, hx.symm⟩
          | none =>
            simp only [hbr] at hx
            exact Or.inr ⟨rfl, hx⟩

theorem adjust_affinity {fuel : Nat} {o : VisiblePositionOracle} {s s1 : Selection}
    (h : s.adjustForEditableContent fuel o = some s1) : s1.m_affinity = s.m_affinity := by
  rcases adjust_some h with ⟨_, rfl⟩ | ⟨b, st, en, _, _, _, h2⟩
  · rfl
  · rcases h2 with ⟨_, _, rfl⟩ | ⟨_, x, hx, hc⟩
    · rfl
    · rw [correctExtent_affinity hc]
      rcases hx with ⟨root, _, rfl⟩ | ⟨_, hl⟩
      · exact clampToRoot_affinity _ _ _ _ _
      · exact (leaveEditable_some hl).2.2.2.2.2.2.1

theorem validate_some {fuel : Nat} {o : VisiblePositionOracle} {tm : TreeModel}
    {s s1 : Selection} {g : ETextGranularity} (h : s.validate fuel o tm g = some s1) :
    ∃ x y, (s.canonicalize o).repair o tm s.m_base = some x ∧
      (x.order.expand o g).adjustForEditableContent fuel o = some y ∧
      s1 = y.assignState o ∧ y.m_affinity = s.m_affinity := by
  unfold Selection.validate at h
  simp only [Option.bind_eq_some, Option.map_eq_some'] at h
  obtain ⟨x, hx, y, hy, rfl⟩ := h
  refine ⟨x, y, hx, hy, rfl, ?_⟩
  rw [adjust_affinity hy, expand_affinity, order_affinity, repair_affinity hx,
    canonicalize_affinity]

theorem assignState_cases (o : VisiblePositionOracle) (y : Selection) :
    (y.m_start.isNull = true ∧
      y.assignState o = ⟨y.m_base, y.m_extent, y.m_start, y.m_end, .DOWNSTREAM, .NONE,
        y.m_baseIsFirst⟩) ∨
    (y.m_start.isNull = false ∧ o.upstream y.m_start = o.upstream y.m_end ∧
      y.assignState o = ⟨y.m_base, y.m_extent, y.m_start, y.m_end, y.m_affinity, .CARET,
        y.m_baseIsFirst⟩) ∨
    (y.m_start.isNull = false ∧ o.upstream y.m_start ≠ o.upstream y.m_end ∧
      y.assignState o = ⟨y.m_base, y.m_extent, o.downstream y.m_start, o.upstream y.m_end,
        .DOWNSTREAM, .RANGE, y.m_baseIsFirst⟩) := by
  unfold Selection.assignState
  by_cases h1 : y.m_start.isNull = true
  · left; simp [h1]
  · have h1f : y.m_start.isNull = false := by simpa using h1
    by_cases h2 : o.upstream y.m_start = o.upstream y.m_end
    · right; left
      refine ⟨h1f, h2, ?_⟩
      simp [h1f, h2]
    · right; right
      refine ⟨h1f, h2, ?_⟩
      have h3 : y.m_start ≠ y.m_end := fun e => h2 (by rw [e])
      simp [h1f, h2, h3]

theorem retreatFromEditable_some {o : VisiblePositionOracle} :
    ∀ {fuel : Nat} {r : NodeImpl} {v : VisiblePosition}, retreatFromEditable o fuel r = some v →
      ∃ n, v.deepEquivalent.m_node = some n ∧ o.rootEditableElement n = none
  | 0, _, _, h => by simp [retreatFromEditable] at h
  | fuel + 1, r, v, h => by
    unfold retreatFromEditable at h
    dsimp only at h
    cases hn : (o.previous (o.create ⟨some r, 0⟩ VP_DEFAULT_AFFINITY)).deepEquivalent.m_node with
    | none => simp [hn] at h
    | some n =>
      simp only [hn] at h
      cases hr : o.rootEditableElement n with
      | some root =>
        simp only [hr] at h
        exact retreatFromEditable_some h
      | none =>
        simp only [hr, Option.some.injEq] at h
        subst h
        exact ⟨n, hn, hr⟩

theorem advanceFromEditable_some {o : VisiblePositionOracle} :
    ∀ {fuel : Nat} {r : NodeImpl} {v : VisiblePosition}, advanceFromEditable o fuel r = some v →
      ∃ n, v.deepEquivalent.m_node = some n ∧ o.rootEditableElement n = none
  | 0, _, _, h => by simp [advanceFromEditable] at h
  | fuel + 1, r, v, h => by
    unfold advanceFromEditable at h
    dsimp only at h
    cases hn : (o.next (o.create ⟨some r, o.maxDeepOffset r⟩
        VP_DEFAULT_AFFINITY)).deepEquivalent.m_node with
    | none => simp [hn] at h
    | some n =>
      simp only [hn] at h
      cases hr : o.rootEditableElement n with
      | some root =>
        simp only [hr] at h
        exact advanceFromEditable_some h
      | none =>
        simp only [hr, Option.some.injEq] at h
        subst h
        exact ⟨n, hn, hr⟩

/-- The selection with another affinity and state. -/
theorem adjust_congr (fuel : Nat) (o : VisiblePositionOracle) (b e st en : Position)
    (a a1 : EAffinity) (q q1 : EState) (f : Bool) (y : Selection)
    (h : Selection.adjustForEditableContent fuel o ⟨b, e, st, en, a, q, f⟩ = some y) :
    Selection.adjustForEditableContent fuel o ⟨b, e, st, en, a1, q1, f⟩
      = some ⟨y.m_base, y.m_extent, y.m_start, y.m_end, a1, q1, y.m_baseIsFirst⟩ := by
  unfold Selection.adjustForEditableContent at h ⊢
  dsimp only at h ⊢
  cases hb : b.m_node with
  | none => simp only [hb, Option.some.injEq] at h ⊢; subst h; rfl
  | some bn =>
    cases hst : st.m_node with
    | none => simp [hb, hst] at h
    | some sn =>
      cases hen : en.m_node with
      | none => simp [hb, hst, hen] at h
      | some enn =>
        simp only [hb, hst, hen] at h ⊢
        by_cases h1 : o.rootEditableElement bn = o.rootEditableElement sn ∧
            o.rootEditableElement bn = o.rootEditableElement enn
        · rw [if_pos h1] at h ⊢
          cases h; rfl
        · rw [if_neg h1] at h ⊢
          simp only [Option.bind_eq_some] at h ⊢
          obtain ⟨x, hx, hx2⟩ := h
          refine ⟨⟨x.m_base, x.m_extent, x.m_start, x.m_end, a1, q1, x.m_baseIsFirst⟩, ?_, ?_⟩
          · cases hbr : o.rootEditableElement bn with
            | some root =>
              simp only [hbr, Option.some.injEq] at hx ⊢
              subst hx
              unfold Selection.clampToRoot
              dsimp only
              split_ifs <;> rfl
            | none =>
              simp only [hbr] at hx ⊢
              unfold Selection.leaveEditable at hx ⊢
              simp only [Option.bind_eq_some] at hx ⊢
              obtain ⟨x1, hx1, hx3⟩ := hx
              refine ⟨⟨x1.m_base, x1.m_extent, x1.m_start, x1.m_end, a1, q1,
                x1.m_baseIsFirst⟩, ?_, ?_⟩
              · cases her : o.rootEditableElement enn with
                | none => simp only [her, Option.some.injEq] at hx1 ⊢; subst hx1; rfl
                | some er =>
                  simp only [her, Option.map_eq_some'] at hx1 ⊢
                  obtain ⟨v, hv, rfl⟩ := hx1
                  exact ⟨v, hv, rfl⟩
              · cases hsr : o.rootEditableElement sn with
                | none => simp only [hsr, Option.some.injEq] at hx3 ⊢; subst hx3; rfl
                | some sr =>
                  simp only [hsr, Option.map_eq_some'] at hx3 ⊢
                  obtain ⟨v, hv, rfl⟩ := hx3
                  exact ⟨v, hv, rfl⟩
          · unfold Selection.correctExtent at hx2 ⊢
            dsimp only at hx2 ⊢
            cases hxe : x.m_extent.m_node with
            | none => simp [hxe] at hx2
            | some xn =>
              simp only [hxe] at hx2 ⊢
              split_ifs at hx2 ⊢ <;> cases hx2 <;> rfl

theorem adjust_base_first {fuel : Nat} {o : VisiblePositionOracle} {b e : Position}
    {a : EAffinity} {q : EState} {y : Selection}
    (h : Selection.adjustForEditableContent fuel o ⟨b, e, b, e, a, q, true⟩ = some y) :
    ∃ e1, y = ⟨b, e1, b, e1, a, q, true⟩ ∧
      ∀ fuel1, (b.isNotNull = true → e1.isNotNull = true) →
        Selection.adjustForEditableContent fuel1 o ⟨b, e1, b, e1, a, q, true⟩
          = some ⟨b, e1, b, e1, a, q, true⟩ := by
  unfold Selection.adjustForEditableContent at h
  dsimp only at h
  cases hb : b.m_node with
  | none =>
    simp only [hb, Option.some.injEq] at h
    subst h
    refine ⟨e, rfl, fun fuel1 _ => ?_⟩
    unfold Selection.adjustForEditableContent
    simp only [hb]
  | some bn =>
    cases hen : e.m_node with
    | none => simp [hb, hen] at h
    | some enn =>
      simp only [hb, hen, true_and] at h
      by_cases h1 : o.rootEditableElement bn = o.rootEditableElement enn
      · rw [if_pos h1] at h
        cases h
        refine ⟨e, rfl, fun fuel1 _ => ?_⟩
        unfold Selection.adjustForEditableContent
        simp only [hb, hen, true_and, if_pos h1]
      · rw [if_neg h1] at h
        cases hbr : o.rootEditableElement bn with
        | some root =>
          rw [hbr] at h1
          simp only [hbr, Selection.clampToRoot, ne_eq, not_true_eq_false, if_false,
            h1, not_false_eq_true, if_true, Option.some_bind, Selection.correctExtent, hen]
            at h
          cases h
          refine ⟨_, rfl, fun fuel1 hnn => ?_⟩
          have hnn1 := hnn (by simp [Position.isNotNull, hb])
          unfold Selection.adjustForEditableContent
          dsimp only
          cases hl : (o.create ⟨some root, o.maxDeepOffset root⟩
              VP_DEFAULT_AFFINITY).deepEquivalent.m_node with
          | none => simp [Position.isNotNull, hl] at hnn1
          | some ln =>
            simp only [hb, hl, true_and, hbr]
            by_cases h2 : some root = o.rootEditableElement ln
            · rw [if_pos h2]
            · rw [if_neg h2]
              simp [Selection.clampToRoot, h2, Selection.correctExtent, hl]
        | none =>
          rw [hbr] at h1
          cases her : o.rootEditableElement enn with
          | none => exact absurd her.symm h1
          | some er =>
            simp only [hbr, Selection.leaveEditable, her, Option.bind_eq_some,
              Option.map_eq_some', Option.some.injEq] at h
            obtain ⟨x, ⟨x1, ⟨v, hv, rfl⟩, rfl⟩, hx⟩ := h
            simp only [Selection.correctExtent, hen, her, ne_eq, not_false_eq_true, if_true,
              Option.some.injEq, reduceCtorEq] at hx
            subst hx
            refine ⟨_, rfl, fun fuel1 _ => ?_⟩
            obtain ⟨n, hn1, hn2⟩ := retreatFromEditable_some hv
            unfold Selection.adjustForEditableContent
            simp [hb, hn1, hbr, hn2]

theorem adjust_extent_first {fuel : Nat} {o : VisiblePositionOracle} {b e : Position}
    {a : EAffinity} {q : EState} {y : Selection}
    (h : Selection.adjustForEditableContent fuel o ⟨b, e, e, b, a, q, false⟩ = some y) :
    ∃ e1, y = ⟨b, e1, e1, b, a, q, false⟩ ∧
      ∀ fuel1, (b.isNotNull = true → e1.isNotNull = true) →
        Selection.adjustForEditableContent fuel1 o ⟨b, e1, e1, b, a, q, false⟩
          = some ⟨b, e1, e1, b, a, q, false⟩ := by
  unfold Selection.adjustForEditableContent at h
  dsimp only at h
  cases hb : b.m_node with
  | none =>
    simp only [hb, Option.some.injEq] at h
    subst h
    refine ⟨e, rfl, fun fuel1 _ => ?_⟩
    unfold Selection.adjustForEditableContent
    simp only [hb]
  | some bn =>
    cases hen : e.m_node with
    | none => simp [hb, hen] at h
    | some enn =>
      simp only [hb, hen, and_true] at h
      by_cases h1 : o.rootEditableElement bn = o.rootEditableElement enn
      · rw [if_pos h1] at h
        cases h
        refine ⟨e, rfl, fun fuel1 _ => ?_⟩
        unfold Selection.adjustForEditableContent
        simp only [hb, hen, and_true, if_pos h1]
      · rw [if_neg h1] at h
        cases hbr : o.rootEditableElement bn with
        | some root =>
          rw [hbr] at h1
          simp only [hbr, Selection.clampToRoot, ne_eq, not_true_eq_false, if_false,
            h1, not_false_eq_true, if_true, Option.some_bind, Selection.correctExtent, hen,
            Bool.false_eq_true]
            at h
          cases h
          refine ⟨_, rfl, fun fuel1 hnn => ?_⟩
          have hnn1 := hnn (by simp [Position.isNotNull, hb])
          unfold Selection.adjustForEditableContent
          dsimp only
          cases hl : (o.create ⟨some root, 0⟩ VP_DEFAULT_AFFINITY).deepEquivalent.m_node with
          | none => simp [Position.isNotNull, hl] at hnn1
          | some ln =>
            simp only [hb, hl, and_true, hbr]
            by_cases h2 : some root = o.rootEditableElement ln
            · rw [if_pos h2]
            · rw [if_neg h2]
              simp [Selection.clampToRoot, h2, Selection.correctExtent, hl]
        | none =>
          rw [hbr] at h1
          cases her : o.rootEditableElement enn with
          | none => exact absurd her.symm h1
          | some er =>
            simp only [hbr, Selection.leaveEditable, her, Option.bind_eq_some,
              Option.map_eq_some', Option.some.injEq] at h
            obtain ⟨x, ⟨x1, rfl, ⟨v, hv, rfl⟩⟩, hx⟩ := h
            simp only [Selection.correctExtent, hen, her, ne_eq, not_false_eq_true, if_true,
              Option.some.injEq, reduceCtorEq, Bool.false_eq_true, if_false] at hx
            subst hx
            refine ⟨_, rfl, fun fuel1 _ => ?_⟩
            obtain ⟨n, hn1, hn2⟩ := advanceFromEditable_some hv
            unfold Selection.adjustForEditableContent
            simp [hb, hn1, hbr, hn2]

theorem isNull_eq_false_iff (p : Position) : p.isNull = false ↔ p.isNotNull = true := by
  cases p with
  | mk n k => cases n <;> simp [Position.isNull, Position.isNotNull]

theorem canonicalize_fields (o : VisiblePositionOracle) (s : Selection) :
    (s.canonicalize o).m_affinity = s.m_affinity ∧ (s.canonicalize o).m_state = s.m_state := by
  unfold Selection.canonicalize
  dsimp only
  split_ifs <;> exact ⟨rfl, rfl⟩

/-- What `repair` leaves: base and extent are both null or both not null, and
`m_baseIsFirst` is the comparison of the two positions it was given. -/
theorem repair_some {o : VisiblePositionOracle} {tm : TreeModel} {ob : Position}
    {c x : Selection} (h : c.repair o tm ob = some x) :
    x.m_affinity = c.m_affinity ∧ x.m_state = c.m_state ∧
    (x.m_base.isNull = true → x.m_extent.isNull = true ∧ x.m_baseIsFirst = true) ∧
    (x.m_extent.isNull = true → x.m_base.isNull = true) ∧
    (x.m_baseIsFirst = true ↔
      (c.m_base.isNull = true ∨ c.m_extent.isNull = true ∨
        ∃ r, compareBoundaryPoints tm c.m_base.m_node c.m_base.m_offset
          c.m_extent.m_node c.m_extent.m_offset = some r ∧ r ≤ 0)) := by
  unfold Selection.repair at h
  cases hb : c.m_base.isNull <;> cases he : c.m_extent.isNull <;>
    simp only [hb, he, Bool.and_self, Bool.and_false, Bool.and_true, Bool.false_and,
      Bool.true_and, Bool.false_eq_true, if_false, if_true] at h
  · simp only [Option.map_eq_some'] at h
    obtain ⟨r, hr, rfl⟩ := h
    simp [hb, he, hr]
  · cases h
    simp [hb, he]
  · cases h
    simp [hb, he]
  · by_cases h3 : ob.isNotNull = true
    · rw [if_pos h3] at h
      cases hn : ob.m_node with
      | none => simp [hn] at h
      | some n =>
        simp only [hn, Option.some.injEq] at h
        subst h
        simp [hb]
    · rw [if_neg h3] at h
      cases h
      simp [hb, he]

theorem adjust_null_base (fuel : Nat) (o : VisiblePositionOracle) (s : Selection)
    (h : s.m_base.isNull = true) : s.adjustForEditableContent fuel o = some s := by
  unfold Selection.adjustForEditableContent
  cases hb : s.m_base.m_node with
  | none => rfl
  | some b => simp [Position.isNull, hb] at h

/-- What `validate(CHARACTER)` computes: after `adjustForEditableContent`, start
and end are base and extent in the order given by `m_baseIsFirst`, and a second
run of `adjustForEditableContent` changes nothing. -/
theorem validate_character_some {fuel : Nat} {o : VisiblePositionOracle} {tm : TreeModel}
    {s s1 : Selection} (h : s.validate fuel o tm .CHARACTER = some s1) :
    ∃ (x : Selection) (e1 : Position),
      (s.canonicalize o).repair o tm s.m_base = some x ∧
      s1 = Selection.assignState o ⟨x.m_base, e1, if x.m_baseIsFirst then x.m_base else e1,
        if x.m_baseIsFirst then e1 else x.m_base, s.m_affinity, s.m_state, x.m_baseIsFirst⟩ ∧
      (x.m_base.isNull = true → e1.isNull = true ∧ x.m_baseIsFirst = true) ∧
      ∀ (fuel1 : Nat) (a : EAffinity) (q : EState),
        (x.m_base.isNotNull = true → e1.isNotNull = true) →
        Selection.adjustForEditableContent fuel1 o ⟨x.m_base, e1,
            if x.m_baseIsFirst then x.m_base else e1,
            if x.m_baseIsFirst then e1 else x.m_base, a, q, x.m_baseIsFirst⟩
          = some ⟨x.m_base, e1, if x.m_baseIsFirst then x.m_base else e1,
            if x.m_baseIsFirst then e1 else x.m_base, a, q, x.m_baseIsFirst⟩ := by
  unfold Selection.validate at h
  simp only [Option.bind_eq_some, Option.map_eq_some'] at h
  obtain ⟨x, hx, y, hy, rfl⟩ := h
  obtain ⟨ra, rs, rn, _, _⟩ := repair_some hx
  rw [(canonicalize_fields o s).1] at ra
  rw [(canonicalize_fields o s).2] at rs
  obtain ⟨b, e, st, en, a0, q0, f⟩ := x
  dsimp only at ra rs rn hy ⊢
  subst ra rs
  cases f with
  | true =>
    simp only [Selection.order, if_true, Selection.expand] at hy
    obtain ⟨e1, rfl, hst⟩ := adjust_base_first hy
    refine ⟨_, e1, hx, by simp, ?_, ?_⟩
    · intro hb
      refine ⟨?_, rfl⟩
      have := adjust_null_base fuel o ⟨b, e, b, e, s.m_affinity, s.m_state, true⟩ hb
      rw [this] at hy
      simp only [Option.some.injEq, Selection.mk.injEq, true_and, and_true] at hy
      obtain ⟨h1, _⟩ := hy
      rw [← h1]
      exact (rn hb).1
    · intro fuel1 a q hnn
      have := adjust_congr fuel1 o b e1 b e1 s.m_affinity a s.m_state q true _ (hst fuel1 hnn)
      simpa using this
  | false =>
    simp only [Selection.order, Bool.false_eq_true, if_false, Selection.expand] at hy
    obtain ⟨e1, rfl, hst⟩ := adjust_extent_first hy
    refine ⟨_, e1, hx, by simp, ?_, ?_⟩
    · intro hb
      exact absurd (rn hb).2 (by simp)
    · intro fuel1 a q hnn
      have := adjust_congr fuel1 o b e1 e1 b s.m_affinity a s.m_state q false _ (hst fuel1 hnn)
      simpa using this

theorem correctExtent_fields {o : VisiblePositionOracle} {br : Ptr} {s s1 : Selection}
    (h : s.correctExtent o br = some s1) :
    s1.m_base = s.m_base ∧ s1.m_start = s.m_start ∧ s1.m_end = s.m_end := by
  unfold Selection.correctExtent at h
  cases hx : s.m_extent.m_node with
  | none => simp [hx] at h
  | some x =>
    simp only [hx] at h
    split_ifs at h <;> cases h <;> exact ⟨rfl, rfl, rfl⟩

theorem clampToRoot_fields (o : VisiblePositionOracle) (root : NodeImpl) (sr er : Ptr)
    (s : Selection) :
    (s.clampToRoot o root sr er).m_base = s.m_base ∧
    (s.clampToRoot o root sr er).m_start
      = (if some root ≠ sr then (o.create ⟨some root, 0⟩ VP_DEFAULT_AFFINITY).deepEquivalent
          else s.m_start) ∧
    (s.clampToRoot o root sr er).m_end
      = (if some root ≠ er then
          (o.create ⟨some root, o.maxDeepOffset root⟩ VP_DEFAULT_AFFINITY).deepEquivalent
          else s.m_end) := by
  unfold Selection.clampToRoot
  dsimp only
  split_ifs <;> exact ⟨rfl, rfl, rfl⟩

/-- After `adjustForEditableContent`, start and end have the root editable
element of the base, when the oracle keeps the two ends of an editable root
inside that root. -/
theorem adjust_roots {fuel : Nat} {o : VisiblePositionOracle} {s y : Selection}
    (h : s.adjustForEditableContent fuel o = some y)
    (hfirst : ∀ n root, o.rootEditableElement n = some root →
      (o.create ⟨some root, 0⟩ VP_DEFAULT_AFFINITY).deepEquivalent.m_node.map
        o.rootEditableElement = some (some root))
    (hlast : ∀ n root, o.rootEditableElement n = some root →
      (o.create ⟨some root, o.maxDeepOffset root⟩ VP_DEFAULT_AFFINITY).deepEquivalent.m_node.map
        o.rootEditableElement = some (some root))
    (b : NodeImpl) (hb : y.m_base.m_node = some b) :
    y.m_start.m_node.map o.rootEditableElement = some (o.rootEditableElement b) ∧
    y.m_end.m_node.map o.rootEditableElement = some (o.rootEditableElement b) := by
  rcases adjust_some h with ⟨h0, rfl⟩ | ⟨b1, st, en, h1, h2, h3, h4⟩
  · rw [h0] at hb; cases hb
  · rcases h4 with ⟨r1, r2, rfl⟩ | ⟨hne, x, hx, hc⟩
    · rw [h1] at hb; cases hb
      rw [h2, h3]
      exact ⟨by rw [r1]; rfl, by rw [r2]; rfl⟩
    · obtain ⟨c1, c2, c3⟩ := correctExtent_fields hc
      rw [c1] at hb
      rw [c2, c3]
      rcases hx with ⟨root, hr, rfl⟩ | ⟨hr, hl⟩
      · obtain ⟨f1, f2, f3⟩ := clampToRoot_fields o root (o.rootEditableElement st)
          (o.rootEditableElement en) s
        rw [f1, h1] at hb; cases hb
        rw [f2, f3, hr]
        constructor
        · by_cases q1 : some root = o.rootEditableElement st
          · rw [if_neg (not_not.2 q1), h2, q1]; rfl
          · rw [if_pos q1]; exact hfirst b root hr
        · by_cases q2 : some root = o.rootEditableElement en
          · rw [if_neg (not_not.2 q2), h3, q2]; rfl
          · rw [if_pos q2]; exact hlast b root hr
      · obtain ⟨l1, l2, l3, l4, l5, _⟩ := leaveEditable_some hl
        rw [l5, h1] at hb; cases hb
        rw [hr]
        constructor
        · cases hsr : o.rootEditableElement st with
          | none => rw [l4 hsr, h2]; simp [hsr]
          | some sr =>
            obtain ⟨v, hv, e⟩ := l3 sr hsr
            obtain ⟨n, hn1, hn2⟩ := advanceFromEditable_some hv
            rw [e, hn1]; simp [hn2]
        · cases her : o.rootEditableElement en with
          | none => rw [l2 her, h3]; simp [her]
          | some er =>
            obtain ⟨v, hv, e⟩ := l1 er her
            obtain ⟨n, hn1, hn2⟩ := retreatFromEditable_some hv
            rw [e, hn1]; simp [hn2]

/-! ## Selection: the claims -/

/-- C29. Editable clamp.  Let the oracle keep positions inside their editable
root: the visible positions made from `(root, 0)` and `(root, maxDeepOffset(root))`
lie in `root`, for every root editable element `root`, and `upstream()` and
`downstream()` do not change the root editable element of the node of a
position.  Then, when `validate(granularity)` returns with a base that is not
null, the nodes of start and end have the same `rootEditableElement()` as the node
of the base. -/
theorem selection_editable_clamp (fuel : Nat) (o : VisiblePositionOracle) (tm : TreeModel)
    (s s1 : Selection) (granularity : ETextGranularity)
    (h : s.validate fuel o tm granularity = some s1)
    (hfirst : ∀ n root, o.rootEditableElement n = some root →
      (o.create ⟨some root, 0⟩ VP_DEFAULT_AFFINITY).deepEquivalent.m_node.map
        o.rootEditableElement = some (some root))
    (hlast : ∀ n root, o.rootEditableElement n = some root →
      (o.create ⟨some root, o.maxDeepOffset root⟩ VP_DEFAULT_AFFINITY).deepEquivalent.m_node.map
        o.rootEditableElement = some (some root))
    (hdown : ∀ p, (o.downstream p).m_node.map o.rootEditableElement
      = p.m_node.map o.rootEditableElement)
    (hup : ∀ p, (o.upstream p).m_node.map o.rootEditableElement
      = p.m_node.map o.rootEditableElement)
    (b : NodeImpl) (hb : s1.m_base.m_node = some b) :
    s1.m_start.m_node.map o.rootEditableElement = some (o.rootEditableElement b) ∧
    s1.m_end.m_node.map o.rootEditableElement = some (o.rootEditableElement b) := by
  obtain ⟨x, y, _, hy, rfl, _⟩ := validate_some h
  have hby : y.m_base.m_node = some b := by
    rcases assignState_cases o y with ⟨_, e⟩ | ⟨_, _, e⟩ | ⟨_, _, e⟩ <;>
      (rw [e] at hb; exact hb)
  obtain ⟨r1, r2⟩ := adjust_roots hy hfirst hlast b hby
  rcases assignState_cases o y with ⟨_, e⟩ | ⟨_, _, e⟩ | ⟨_, _, e⟩
  · rw [e]; exact ⟨r1, r2⟩
  · rw [e]; exact ⟨r1, r2⟩
  · rw [e]
    dsimp only
    rw [hdown, hup]
    exact ⟨r1, r2⟩

/-- C28. Order of the derived endpoints.  When `validate()` (granularity
`CHARACTER`) returns: in the states `NONE` and `CARET`, `(start, end)` is
`(base, extent)` if `m_baseIsFirst` and `(extent, base)` otherwise; in state `RANGE`,
start is `downstream()` of the first of the two and end is `upstream()` of the
second.  `m_baseIsFirst` is true exactly when the canonicalized base or extent is
null or `compareBoundaryPoints` of the canonicalized base and extent is at most 0. -/
theorem selection_endpoint_order (fuel : Nat) (o : VisiblePositionOracle) (tm : TreeModel)
    (s s1 : Selection) (h : s.validate fuel o tm .CHARACTER = some s1) :
    (s1.m_state ≠ .RANGE →
      s1.m_start = (if s1.m_baseIsFirst then s1.m_base else s1.m_extent) ∧
      s1.m_end = (if s1.m_baseIsFirst then s1.m_extent else s1.m_base)) ∧
    (s1.m_state = .RANGE →
      s1.m_start = o.downstream (if s1.m_baseIsFirst then s1.m_base else s1.m_extent) ∧
      s1.m_end = o.upstream (if s1.m_baseIsFirst then s1.m_extent else s1.m_base)) ∧
    (s1.m_baseIsFirst = true ↔
      ((s.canonicalize o).m_base.isNull = true ∨ (s.canonicalize o).m_extent.isNull = true ∨
        ∃ r, compareBoundaryPoints tm (s.canonicalize o).m_base.m_node
          (s.canonicalize o).m_base.m_offset (s.canonicalize o).m_extent.m_node
          (s.canonicalize o).m_extent.m_offset = some r ∧ r ≤ 0)) := by
  obtain ⟨x, e1, hx, rfl, _, _⟩ := validate_character_some h
  have hf := (repair_some hx).2.2.2.2
  rcases assignState_cases o ⟨x.m_base, e1, if x.m_baseIsFirst then x.m_base else e1,
      if x.m_baseIsFirst then e1 else x.m_base, s.m_affinity, s.m_state, x.m_baseIsFirst⟩
    with ⟨_, e⟩ | ⟨_, _, e⟩ | ⟨_, _, e⟩ <;> rw [e] <;> simp [hf]

/-- C30. Idempotence of `validate(CHARACTER)` on canonical results.  Let `s1` be
the selection `validate(CHARACTER)` leaves.  If the oracle's canonicalization,
under the affinity of `s1`, leaves the base and the extent of `s1` unchanged,
the extent of `s1` is null only if its base is, and `m_baseIsFirst` of `s1`
agrees with `compareBoundaryPoints(base, extent) <= 0` when both are not null,
then `validate(CHARACTER)` applied to `s1` returns `s1`: every field keeps its
value. -/
theorem validate_idempotent (fuel : Nat) (o : VisiblePositionOracle) (tm : TreeModel)
    (s s1 : Selection) (h : s.validate fuel o tm .CHARACTER = some s1)
    (hbase : s1.m_base.isNotNull = true →
      (o.create s1.m_base s1.m_affinity).deepEquivalent = s1.m_base)
    (hextent : s1.m_extent.isNotNull = true →
      (o.create s1.m_extent s1.m_affinity).deepEquivalent = s1.m_extent)
    (hnull : s1.m_extent.isNull = true → s1.m_base.isNull = true)
    (hfirst : s1.m_base.isNotNull = true → s1.m_extent.isNotNull = true →
      ∃ r, compareBoundaryPoints tm s1.m_base.m_node s1.m_base.m_offset
          s1.m_extent.m_node s1.m_extent.m_offset = some r ∧
        (s1.m_baseIsFirst = true ↔ r ≤ 0)) :
    s1.validate fuel o tm .CHARACTER = some s1 := by
  obtain ⟨x, e1, hx, hs1, hn, hst⟩ := validate_character_some h
  obtain ⟨b, e, st, en, a0, q0, f⟩ := x
  obtain ⟨sb, se, sst, sen, sa, sq, sf⟩ := s1
  dsimp only at hs1 hn hst hbase hextent hnull hfirst
  -- the fields of `s1`
  have hb1 : sb = b := by
    have := congrArg Selection.m_base hs1
    dsimp only at this
    rw [this]; unfold Selection.assignState; dsimp only; split_ifs <;> rfl
  have he1 : se = e1 := by
    have := congrArg Selection.m_extent hs1
    dsimp only at this
    rw [this]; unfold Selection.assignState; dsimp only; split_ifs <;> rfl
  have hf1 : sf = f := by
    have := congrArg Selection.m_baseIsFirst hs1
    dsimp only at this
    rw [this]; unfold Selection.assignState; dsimp only; split_ifs <;> rfl
  subst hb1 he1 hf1
  have hnn : sb.isNotNull = true → se.isNotNull = true := by
    intro hbn
    cases hen : se.isNull with
    | true =>
      have := hnull hen
      rw [← isNull_eq_false_iff] at hbn
      rw [this] at hbn; cases hbn
    | false => exact (isNull_eq_false_iff se).1 hen
  -- canonicalization changes nothing
  have hcan : Selection.canonicalize o ⟨sb, se, sst, sen, sa, sq, sf⟩
      = ⟨sb, se, sst, sen, sa, sq, sf⟩ := by
    unfold Selection.canonicalize
    dsimp only
    cases hbn : sb.isNotNull with
    | true =>
      have hen := hnn hbn
      simp only [if_true, hbase hbn]
      by_cases heq : sb = se
      · subst heq
        simp
      · simp [heq, hen, hextent hen]
    | false =>
      have hbnull : sb.isNull = true := by
        cases hh : sb.isNull with
        | true => rfl
        | false => rw [isNull_eq_false_iff] at hh; rw [hh] at hbn; cases hbn
      have henull := (hn hbnull).1
      have : se.isNotNull = false := by
        cases hh : se.isNotNull with
        | false => rfl
        | true => rw [← isNull_eq_false_iff] at hh; rw [hh] at henull; cases henull
      simp [this]
  -- the repair and the order
  have hrep : ∃ y, Selection.repair o tm sb ⟨sb, se, sst, sen, sa, sq, sf⟩ = some y ∧
      y.order = ⟨sb, se, if sf = true then sb else se, if sf = true then se else sb,
        sa, sq, sf⟩ := by
    unfold Selection.repair
    dsimp only
    cases hbn : sb.isNull with
    | true =>
      obtain ⟨hen, hft⟩ := hn hbn
      have : sb.isNotNull = false := by
        cases hh : sb.isNotNull with
        | false => rfl
        | true => rw [← isNull_eq_false_iff] at hh; rw [hh] at hbn; cases hbn
      subst hft
      simp [hen, this, Selection.order]
    | false =>
      have hbnn := (isNull_eq_false_iff sb).1 hbn
      cases hen : se.isNull with
      | true => rw [hnull hen] at hbn; cases hbn
      | false =>
        have henn := (isNull_eq_false_iff se).1 hen
        obtain ⟨r, hr, hrf⟩ := hfirst hbnn henn
        simp only [Bool.and_self, Bool.false_eq_true, if_false, hr, Option.map_some']
        refine ⟨_, rfl, ?_⟩
        cases sf with
        | true =>
          have := hrf.1 rfl
          simp [Selection.order, this]
        | false =>
          have : ¬ r ≤ 0 := fun hh => by simpa using hrf.2 hh
          simp [Selection.order, this]
  obtain ⟨y, hy1, hy2⟩ := hrep
  have hadj := hst fuel sa sq hnn
  have hfin : Selection.assignState o ⟨sb, se, if sf = true then sb else se,
      if sf = true then se else sb, sa, sq, sf⟩ = ⟨sb, se, sst, sen, sa, sq, sf⟩ := by
    rcases assignState_cases o ⟨sb, se, if sf = true then sb else se,
        if sf = true then se else sb, s.m_affinity, s.m_state, sf⟩
      with ⟨c1, e⟩ | ⟨c1, c2, e⟩ | ⟨c1, c2, e⟩
    · rw [e] at hs1
      dsimp only at hs1 c1
      simp only [Selection.mk.injEq, true_and, and_true] at hs1
      obtain ⟨q3, q4, q5, q6⟩ := hs1
      subst q3 q4 q5 q6
      simp [Selection.assignState, c1]
    · rw [e] at hs1
      dsimp only at hs1 c1 c2
      simp only [Selection.mk.injEq, true_and, and_true] at hs1
      obtain ⟨q3, q4, q5, q6⟩ := hs1
      subst q3 q4 q5 q6
      simp [Selection.assignState, c1, c2]
    · rw [e] at hs1
      dsimp only at hs1 c1 c2
      simp only [Selection.mk.injEq, true_and, and_true] at hs1
      obtain ⟨q3, q4, q5, q6⟩ := hs1
      subst q3 q4 q5 q6
      have c3 : (if sf = true then sb else se) ≠ (if sf = true then se else sb) :=
        fun hh => c2 (by rw [hh])
      simp [Selection.assignState, c1, c2, c3]
  unfold Selection.validate
  dsimp only
  rw [hcan, hy1]
  simp only [Option.some_bind, hy2, Selection.expand, hadj, Option.map_some', hfin]

/-- C26. Selection affinity.  For every selection, granularity and
visible-position oracle: when `validate(granularity)` returns, the state
`RANGE` or `NONE` comes with affinity `DOWNSTREAM`, and in state `CARET` the
affinity is the one the selection had before the call. -/
theorem selection_affinity (fuel : Nat) (o : VisiblePositionOracle) (tm : TreeModel)
    (s s1 : Selection) (granularity : ETextGranularity)
    (h : s.validate fuel o tm granularity = some s1) :
    ((s1.m_state = .RANGE ∨ s1.m_state = .NONE) → s1.m_affinity = .DOWNSTREAM) ∧
    (s1.m_state = .CARET → s1.m_affinity = s.m_affinity) := by
  obtain ⟨x, y, _, _, rfl, haff⟩ := validate_some h
  rcases assignState_cases o y with ⟨_, e⟩ | ⟨_, _, e⟩ | ⟨_, _, e⟩ <;> rw [e] <;> simp [haff]

/-- C27. Selection state classification.  Let `y` be the selection at the
assignment of the state (line 234 of `Selection::validate`, after
`adjustForEditableContent()`), on a run on which the assertion of line 236
holds: the end of `y` is null whenever its start is.  When `validate(granularity)`
returns, the state is `NONE` if and only if the start and the end of `y` are both
null; it is `CARET` if and only if the start of `y` is not null and
`upstream(start) = upstream(end)`; otherwise it is `RANGE`.  In the states `NONE`
and `CARET` the final start and end are those of `y`; in state `RANGE` they are
`downstream(start)` and `upstream(end)`. -/
theorem selection_state_classification (fuel : Nat) (o : VisiblePositionOracle)
    (tm : TreeModel) (s x y s1 : Selection) (granularity : ETextGranularity)
    (hx : (s.canonicalize o).repair o tm s.m_base = some x)
    (hy : (x.order.expand o granularity).adjustForEditableContent fuel o = some y)
    (hassert : y.m_start.isNull = true → y.m_end.isNull = true)
    (h : s.validate fuel o tm granularity = some s1) :
    (s1.m_state = .NONE ↔ y.m_start.isNull = true ∧ y.m_end.isNull = true) ∧
    (s1.m_state = .CARET ↔
      y.m_start.isNull = false ∧ o.upstream y.m_start = o.upstream y.m_end) ∧
    (s1.m_state = .RANGE ↔
      y.m_start.isNull = false ∧ o.upstream y.m_start ≠ o.upstream y.m_end) ∧
    (s1.m_state ≠ .RANGE → s1.m_start = y.m_start ∧ s1.m_end = y.m_end) ∧
    (s1.m_state = .RANGE →
      s1.m_start = o.downstream y.m_start ∧ s1.m_end = o.upstream y.m_end) := by
  obtain ⟨x1, y1, hx1, hy1, rfl, _⟩ := validate_some h
  rw [hx] at hx1
  cases Option.some.inj hx1
  rw [hy] at hy1
  cases Option.some.inj hy1
  rcases assignState_cases o y with ⟨h1, e⟩ | ⟨h1, h2, e⟩ | ⟨h1, h2, e⟩
  · rw [e]; simp [h1, hassert h1]
  · rw [e]; simp [h1, h2]
  · rw [e]; simp [h1, h2]

theorem selection_affinity_witness :
    sampleCaret.validate 1 plainOracle sampleModel .WORD
      = some ⟨⟨some sampleAbc, 1⟩, ⟨some sampleAbc, 1⟩, ⟨some sampleAbc, 1⟩, ⟨some sampleAbc, 1⟩,
          .UPSTREAM, .CARET, true⟩ ∧
    ((EState.CARET = .RANGE ∨ EState.CARET = .NONE) → EAffinity.UPSTREAM = .DOWNSTREAM) ∧
    (EState.CARET = .CARET → EAffinity.UPSTREAM = sampleCaret.m_affinity) :=
  ⟨by decide, selection_affinity 1 plainOracle sampleModel sampleCaret
    ⟨⟨some sampleAbc, 1⟩, ⟨some sampleAbc, 1⟩, ⟨some sampleAbc, 1⟩, ⟨some sampleAbc, 1⟩,
      .UPSTREAM, .CARET, true⟩ .WORD (by decide)⟩

theorem selection_state_classification_witness :
    sampleSelection.validate 1 editableOracle sampleModel .CHARACTER = some sampleValidated ∧
    (sampleValidated.m_state = .NONE ↔
      (⟨some sampleFgh, 1⟩ : Position).isNull = true ∧
        (⟨some sampleDiv, 2⟩ : Position).isNull = true) ∧
    (sampleValidated.m_state = .CARET ↔
      (⟨some sampleFgh, 1⟩ : Position).isNull = false ∧
        editableOracle.upstream ⟨some sampleFgh, 1⟩ = editableOracle.upstream ⟨some sampleDiv, 2⟩) ∧
    (sampleValidated.m_state = .RANGE ↔
      (⟨some sampleFgh, 1⟩ : Position).isNull = false ∧
        editableOracle.upstream ⟨some sampleFgh, 1⟩ ≠ editableOracle.upstream ⟨some sampleDiv, 2⟩) ∧
    (sampleValidated.m_state ≠ .RANGE →
      sampleValidated.m_start = ⟨some sampleFgh, 1⟩ ∧ sampleValidated.m_end = ⟨some sampleDiv, 2⟩) ∧
    (sampleValidated.m_state = .RANGE →
      sampleValidated.m_start = editableOracle.downstream ⟨some sampleFgh, 1⟩ ∧
      sampleValidated.m_end = editableOracle.upstream ⟨some sampleDiv, 2⟩) :=
  ⟨by decide,
    selection_state_classification 1 editableOracle sampleModel sampleSelection sampleSelection
      ⟨⟨some sampleFgh, 1⟩, ⟨some sampleDiv, 2⟩, ⟨some sampleFgh, 1⟩, ⟨some sampleDiv, 2⟩,
        .UPSTREAM, .NONE, true⟩
      sampleValidated .CHARACTER (by decide) (by decide) (by decide) (by decide)⟩

/-- The selection of the whole text `"abc"` of `sampleModel` under
`collapsingOracle` is validated to state `RANGE` with start and end both at
`("abc", 1)`: the final start and end are not null and equal, so that
`upstream(start) = upstream(end)`, and the state is not `CARET`. -/
theorem selection_state_classification_collapsing :
    Selection.validate 1 collapsingOracle sampleModel
        ⟨⟨some sampleAbc, 0⟩, ⟨some sampleAbc, 3⟩, Position.null, Position.null,
          .DOWNSTREAM, .NONE, true⟩ .CHARACTER
      = some ⟨⟨some sampleAbc, 0⟩, ⟨some sampleAbc, 3⟩, ⟨some sampleAbc, 1⟩,
          ⟨some sampleAbc, 1⟩, .DOWNSTREAM, .RANGE, true⟩ ∧
    (⟨some sampleAbc, 1⟩ : Position).isNull = false ∧
    collapsingOracle.upstream ⟨some sampleAbc, 1⟩ = collapsingOracle.upstream ⟨some sampleAbc, 1⟩ := by
  decide

/-- On the selection of `sampleModel` based at `("fgh", 1)` in the editable `div`
with its extent in `"abc"`, under `collapsingOracle`, the start is null and the end is
`("fgh", 1)` when the state is assigned: `ASSERT(m_end.isNull())` of line 236 does
not hold on this run.  The assertion is not part of `Selection.assignState`, which goes
on as a build without assertions does and assigns the state `NONE`. -/
theorem validate_null_start_with_end :
    Selection.validate 1 collapsingOracle sampleModel
        ⟨⟨some sampleFgh, 1⟩, ⟨some sampleAbc, 1⟩, Position.null, Position.null,
          .DOWNSTREAM, .NONE, true⟩ .CHARACTER
      = some ⟨⟨some sampleFgh, 1⟩, Position.null, Position.null, ⟨some sampleFgh, 1⟩,
          .DOWNSTREAM, .NONE, false⟩ := by
  decide

theorem selection_endpoint_order_witness :
    Selection.validate 1 plainOracle sampleModel
        ⟨⟨some sampleFgh, 2⟩, ⟨some sampleAbc, 1⟩, Position.null, Position.null,
          .DOWNSTREAM, .NONE, true⟩ .CHARACTER
      = some ⟨⟨some sampleFgh, 2⟩, ⟨some sampleAbc, 1⟩, ⟨some sampleAbc, 1⟩,
          ⟨some sampleFgh, 2⟩, .DOWNSTREAM, .RANGE, false⟩ ∧
    ((EState.RANGE ≠ .RANGE →
      (⟨some sampleAbc, 1⟩ : Position)
          = (if false then ⟨some sampleFgh, 2⟩ else ⟨some sampleAbc, 1⟩) ∧
        (⟨some sampleFgh, 2⟩ : Position)
          = (if false then ⟨some sampleAbc, 1⟩ else ⟨some sampleFgh, 2⟩)) ∧
    (EState.RANGE = .RANGE →
      (⟨some sampleAbc, 1⟩ : Position)
          = plainOracle.downstream (if false then ⟨some sampleFgh, 2⟩ else ⟨some sampleAbc, 1⟩) ∧
        (⟨some sampleFgh, 2⟩ : Position)
          = plainOracle.upstream (if false then ⟨some sampleAbc, 1⟩ else ⟨some sampleFgh, 2⟩)) ∧
    (false = true ↔
      ((⟨some sampleFgh, 2⟩ : Position).isNull = true ∨
        (⟨some sampleAbc, 1⟩ : Position).isNull = true ∨
        ∃ r, compareBoundaryPoints sampleModel (some sampleFgh) 2 (some sampleAbc) 1 = some r ∧
          r ≤ 0))) :=
  ⟨by decide, selection_endpoint_order 1 plainOracle sampleModel
    ⟨⟨some sampleFgh, 2⟩, ⟨some sampleAbc, 1⟩, Position.null, Position.null,
      .DOWNSTREAM, .NONE, true⟩
    ⟨⟨some sampleFgh, 2⟩, ⟨some sampleAbc, 1⟩, ⟨some sampleAbc, 1⟩,
      ⟨some sampleFgh, 2⟩, .DOWNSTREAM, .RANGE, false⟩ (by decide)⟩

/-- The selection of `sampleModel` from the end of `"abc"` to the end of the
paragraph, under `islandOracle`: `validate(CHARACTER)` returns state `RANGE` with
`m_baseIsFirst`, and the start `("de", 0)` differs from the base `("abc", 3)`, as the
end `("de", 2)` differs from the extent `(p, 2)`. -/
theorem selection_endpoint_order_island :
    Selection.validate 1 islandOracle sampleModel
        ⟨⟨some sampleAbc, 3⟩, ⟨some sampleP, 2⟩, Position.null, Position.null,
          .DOWNSTREAM, .NONE, true⟩ .CHARACTER
      = some ⟨⟨some sampleAbc, 3⟩, ⟨some sampleP, 2⟩, ⟨some sampleDeepText, 0⟩,
          ⟨some sampleDeepText, 2⟩, .DOWNSTREAM, .RANGE, true⟩ ∧
    (⟨some sampleDeepText, 0⟩ : Position) ≠ ⟨some sampleAbc, 3⟩ ∧
    (⟨some sampleDeepText, 2⟩ : Position) ≠ ⟨some sampleP, 2⟩ := by
  decide

/-- Under `editableOracle` the two ends of the editable root lie in that root. -/
theorem editableOracle_ends (n root : NodeImpl)
    (h : editableOracle.rootEditableElement n = some root) :
    (editableOracle.create ⟨some root, 0⟩ VP_DEFAULT_AFFINITY).deepEquivalent.m_node.map
        editableOracle.rootEditableElement = some (some root) ∧
    (editableOracle.create ⟨some root, editableOracle.maxDeepOffset root⟩
        VP_DEFAULT_AFFINITY).deepEquivalent.m_node.map
        editableOracle.rootEditableElement = some (some root) := by
  have hr : root = sampleDiv := by
    simp only [editableOracle] at h
    split_ifs at h
    exact (Option.some.inj h).symm
  subst hr
  exact ⟨by decide, by decide⟩

theorem selection_editable_clamp_witness :
    sampleSelection.validate 1 editableOracle sampleModel .CHARACTER = some sampleValidated ∧
    sampleValidated.m_base.m_node = some sampleFgh ∧
    sampleValidated.m_start.m_node.map editableOracle.rootEditableElement
      = some (editableOracle.rootEditableElement sampleFgh) ∧
    sampleValidated.m_end.m_node.map editableOracle.rootEditableElement
      = some (editableOracle.rootEditableElement sampleFgh) :=
  ⟨by decide, rfl, selection_editable_clamp 1 editableOracle sampleModel sampleSelection
    sampleValidated .CHARACTER (by decide) (fun n root h => (editableOracle_ends n root h).1)
    (fun n root h => (editableOracle_ends n root h).2) (fun _ => rfl) (fun _ => rfl)
    sampleFgh rfl⟩

/-- Two selections of `sampleModel`.  Under `islandOracle`, the selection from the
end of `"abc"` to the end of the editable paragraph is validated to a range
whose start and end lie in the child `b`, which is not editable, while the base
lies in the editable paragraph.  Under `collapsingOracle`, the selection based at
`("fgh", 1)` in the editable `div` with its extent in `"abc"` is validated to a
selection whose base is not null and whose start is null. -/
theorem selection_editable_clamp_island :
    Selection.validate 1 islandOracle sampleModel
        ⟨⟨some sampleAbc, 3⟩, ⟨some sampleP, 2⟩, Position.null, Position.null,
          .DOWNSTREAM, .NONE, true⟩ .CHARACTER
      = some ⟨⟨some sampleAbc, 3⟩, ⟨some sampleP, 2⟩, ⟨some sampleDeepText, 0⟩,
          ⟨some sampleDeepText, 2⟩, .DOWNSTREAM, .RANGE, true⟩ ∧
    islandOracle.rootEditableElement sampleAbc = some sampleP ∧
    islandOracle.rootEditableElement sampleDeepText = none ∧
    Selection.validate 1 collapsingOracle sampleModel
        ⟨⟨some sampleFgh, 1⟩, ⟨some sampleAbc, 1⟩, Position.null, Position.null,
          .DOWNSTREAM, .NONE, true⟩ .CHARACTER
      = some ⟨⟨some sampleFgh, 1⟩, Position.null, Position.null, ⟨some sampleFgh, 1⟩,
          .DOWNSTREAM, .NONE, false⟩ := by
  decide

theorem validate_idempotent_witness :
    sampleSelection.validate 1 editableOracle sampleModel .CHARACTER = some sampleValidated ∧
    sampleValidated.validate 1 editableOracle sampleModel .CHARACTER = some sampleValidated :=
  ⟨by decide, validate_idempotent 1 editableOracle sampleModel sampleSelection sampleValidated
    (by decide) (fun _ => rfl) (fun _ => rfl) (by decide)
    (fun _ _ => ⟨-1, by decide, by decide⟩)⟩

/-- The caret at `(comment, 0)` of `sampleModel` under `hiddenCommentOracle`: the first
`validate(CHARACTER)` finds no visible position and puts the caret at `(div, 0)`; a
second `validate(CHARACTER)` moves base, extent, start and end to `("fgh", 0)`. -/
theorem validate_idempotent_hidden :
    Selection.validate 1 hiddenCommentOracle sampleModel
        ⟨⟨some sampleComment, 0⟩, ⟨some sampleComment, 0⟩, Position.null, Position.null,
          .DOWNSTREAM, .NONE, true⟩ .CHARACTER
      = some ⟨⟨some sampleDiv, 0⟩, ⟨some sampleDiv, 0⟩, ⟨some sampleDiv, 0⟩,
          ⟨some sampleDiv, 0⟩, .DOWNSTREAM, .CARET, true⟩ ∧
    Selection.validate 1 hiddenCommentOracle sampleModel
        ⟨⟨some sampleDiv, 0⟩, ⟨some sampleDiv, 0⟩, ⟨some sampleDiv, 0⟩,
          ⟨some sampleDiv, 0⟩, .DOWNSTREAM, .CARET, true⟩ .CHARACTER
      = some ⟨⟨some sampleFgh, 0⟩, ⟨some sampleFgh, 0⟩, ⟨some sampleFgh, 0⟩,
          ⟨some sampleFgh, 0⟩, .DOWNSTREAM, .CARET, true⟩ ∧
    (⟨some sampleFgh, 0⟩ : Position) ≠ ⟨some sampleDiv, 0⟩ := by
  decide

/-! ## The pre-checks of `deleteContents` and `extractContents` -/

theorem walkFrom_cons_cons {tm : TreeModel} {n : Ptr} {a b : NodeImpl} {l : List NodeImpl} :
    walkFrom tm n (a :: b :: l) = true ↔
      n = some a ∧ traverseNextNode tm a = some (some b) ∧ walkFrom tm (some b) (b :: l) = true := by
  simp [walkFrom, and_assoc]

theorem walkFrom_head {tm : TreeModel} {n : Ptr} {a : NodeImpl} {l : List NodeImpl}
    (h : walkFrom tm n (a :: l) = true) : n = some a := by
  cases l with
  | nil => simpa [walkFrom] using h
  | cons b l => exact (walkFrom_cons_cons.1 h).1

theorem node_of_traverseNextNode {tm : TreeModel} {a : NodeImpl} {x : Ptr}
    (h : traverseNextNode tm a = some x) : ∃ t, tm.node a = some t := by
  unfold traverseNextNode at h
  cases hf : firstChild tm a with
  | none => simp [hf] at h
  | some c =>
    unfold firstChild at hf
    cases ht : tm.node a with
    | none => simp [ht] at hf
    | some t => exact ⟨t, rfl⟩

/-- The loop of `checkDeleteExtract` returns at the first node of the walk that
is read-only or a document type. -/
theorem checkDeleteExtractLoop_offender (isReadOnly : NodeImpl → Bool) (tm : TreeModel)
    (pastEnd : Ptr) (x : NodeImpl) (tx : Tree) (hx : tm.node x = some tx) :
    ∀ (pre : List NodeImpl) (n : Ptr) (fuel : Nat),
      walkFrom tm n (pre ++ [x]) = true →
      (∀ y, y ∈ pre ++ [x] → some y ≠ pastEnd) →
      (∀ y, y ∈ pre → isReadOnly y = false ∧ nodeType tm y ≠ some .DOCUMENT_TYPE_NODE) →
      (isReadOnly x = true ∨ tx.nodeType = .DOCUMENT_TYPE_NODE) →
      pre.length < fuel →
      checkDeleteExtractLoop isReadOnly tm pastEnd fuel n
        = some (some (if isReadOnly x then NO_MODIFICATION_ALLOWED_ERR
            else HIERARCHY_REQUEST_ERR))
  | [], n, fuel, hw, hnp, _, hoff, hlen => by
    have hn : n = some x := by simpa [walkFrom] using hw
    subst hn
    obtain ⟨f, rfl⟩ : ∃ f, fuel = f + 1 := ⟨fuel - 1, by simp at hlen; omega⟩
    have h1 := hnp x (by simp)
    unfold checkDeleteExtractLoop
    rw [if_neg h1]
    simp only [nodeType, hx, Option.map_some', Option.some_bind]
    rcases hoff with h | h
    · simp [h]
    · cases hr : isReadOnly x <;> simp [h]
  | a :: pre, n, fuel, hw, hnp, hpre, hoff, hlen => by
    obtain ⟨f, rfl⟩ : ∃ f, fuel = f + 1 := ⟨fuel - 1, by simp at hlen; omega⟩
    obtain ⟨b, l, hbl⟩ : ∃ b l, pre ++ [x] = b :: l := by
      cases pre with
      | nil => exact ⟨x, [], rfl⟩
      | cons b l => exact ⟨b, l ++ [x], rfl⟩
    have hw' : walkFrom tm n (a :: b :: l) = true := by
      rw [← hbl]; exact hw
    obtain ⟨hn, hnext, hw2⟩ := walkFrom_cons_cons.1 hw'
    subst hn
    obtain ⟨ta, hta⟩ := node_of_traverseNextNode hnext
    have h1 := hnp a (by simp)
    obtain ⟨hra, hka⟩ := hpre a (by simp)
    have hka' : ta.nodeType ≠ .DOCUMENT_TYPE_NODE := by
      intro hh; apply hka; simp [nodeType, hta, hh]
    unfold checkDeleteExtractLoop
    rw [if_neg h1]
    simp only [nodeType, hta, Option.map_some', Option.some_bind, hra, Bool.false_eq_true,
      if_false, hka', hnext]
    rw [← hbl] at hw2
    exact checkDeleteExtractLoop_offender isReadOnly tm pastEnd x tx hx pre (some b) f hw2
      (fun y hy => hnp y (by simp at hy ⊢; tauto))
      (fun y hy => hpre y (by simp [hy])) hoff (by simp at hlen; omega)

/-- The loop of `checkDeleteExtract` runs to its end when no node of the walk up to
`pastEnd` is read-only or a document type. -/
theorem checkDeleteExtractLoop_complete (isReadOnly : NodeImpl → Bool) (tm : TreeModel)
    (pastEnd : Ptr) :
    ∀ (l : List NodeImpl) (n : Ptr) (fuel : Nat),
      walkFrom tm n l = true →
      (l = [] → n = pastEnd) →
      (∀ z, l.getLast? = some z → traverseNextNode tm z = some pastEnd) →
      (∀ y, y ∈ l → some y ≠ pastEnd ∧ isReadOnly y = false ∧
        nodeType tm y ≠ some .DOCUMENT_TYPE_NODE) →
      l.length ≤ fuel →
      checkDeleteExtractLoop isReadOnly tm pastEnd fuel n = some none
  | [], n, fuel, _, he, _, _, _ => by
    rw [he rfl]
    unfold checkDeleteExtractLoop
    simp
  | a :: l, n, fuel, hw, _, hlast, hall, hlen => by
    obtain ⟨f, rfl⟩ : ∃ f, fuel = f + 1 := ⟨fuel - 1, by simp at hlen; omega⟩
    have hn := walkFrom_head hw
    subst hn
    obtain ⟨h1, hra, hka⟩ := hall a (by simp)
    cases l with
    | nil =>
      have hnext := hlast a (by simp)
      obtain ⟨ta, hta⟩ := node_of_traverseNextNode hnext
      have hka' : ta.nodeType ≠ .DOCUMENT_TYPE_NODE := by
        intro hh; apply hka; simp [nodeType, hta, hh]
      unfold checkDeleteExtractLoop
      rw [if_neg h1]
      simp only [nodeType, hta, Option.map_some', Option.some_bind, hra, Bool.false_eq_true,
        if_false, hka', hnext]
      unfold checkDeleteExtractLoop
      simp
    | cons b l =>
      obtain ⟨_, hnext, hw2⟩ := walkFrom_cons_cons.1 hw
      obtain ⟨ta, hta⟩ := node_of_traverseNextNode hnext
      have hka' : ta.nodeType ≠ .DOCUMENT_TYPE_NODE := by
        intro hh; apply hka; simp [nodeType, hta, hh]
      unfold checkDeleteExtractLoop
      rw [if_neg h1]
      simp only [nodeType, hta, Option.map_some', Option.some_bind, hra, Bool.false_eq_true,
        if_false, hka', hnext]
      exact checkDeleteExtractLoop_complete isReadOnly tm pastEnd (b :: l) (some b) f hw2
        (fun h => by cases h)
        (fun z hz => hlast z (by simpa [List.getLast?_cons_cons] using hz))
        (fun y hy => hall y (by simp at hy ⊢; tauto)) (by simp at hlen ⊢; omega)

theorem prechecks_fail {isReadOnly : NodeImpl → Bool} {tm : TreeModel} {r : RangeImpl}
    {e : ExceptionCode} (hd : r.m_detached = false)
    (h : checkDeleteExtract isReadOnly tm r 0 = some e) (he : e ≠ 0) :
    r.deleteContents (deleteContentsRest isReadOnly) tm 0 = some (tm, r, e) ∧
    r.extractContents (extractContentsRest isReadOnly) tm 0 = some (tm, r, e, none) := by
  simp [RangeImpl.deleteContents, RangeImpl.extractContents, hd, deleteContentsRest,
    extractContentsRest, h, he]

/-- C22. The pre-checks of `deleteContents` and `extractContents` are atomic.
For a range that is not detached, let the loop of `checkDeleteExtract` walk from
`startNode()` towards `pastEndNode()`.  If `x` is the first node of the walk that
is read-only or a document type (the nodes `pre` before it are neither, and
none of them is `pastEndNode()`), both operations fail, with
`NO_MODIFICATION_ALLOWED_ERR` when `x` is read-only and with `HIERARCHY_REQUEST_ERR`
when `x` is a document type that is not read-only.  If the walk `l` reaches
`pastEndNode()` and none of its nodes is read-only or a document type, and an
ancestor-or-self of one of the containers is read-only, both operations fail
with `NO_MODIFICATION_ALLOWED_ERR`.  In every such failure the forest and the
range are returned as they were, and `extractContents` returns the null
fragment.  The walk is within the bound of the model, the number of nodes of
the forest. -/
theorem prechecks_are_atomic (isReadOnly : NodeImpl → Bool) (tm : TreeModel) (r : RangeImpl)
    (start pastEnd : Ptr) (hd : r.m_detached = false)
    (hs : r.startNode tm = some start) (hp : r.pastEndNode tm = some pastEnd) :
    (∀ (pre : List NodeImpl) (x : NodeImpl) (tx : Tree),
      tm.node x = some tx → walkFrom tm start (pre ++ [x]) = true →
      (∀ y, y ∈ pre ++ [x] → some y ≠ pastEnd) →
      (∀ y, y ∈ pre → isReadOnly y = false ∧ nodeType tm y ≠ some .DOCUMENT_TYPE_NODE) →
      (isReadOnly x = true ∨ tx.nodeType = .DOCUMENT_TYPE_NODE) →
      pre.length < tm.size →
      r.deleteContents (deleteContentsRest isReadOnly) tm 0
        = some (tm, r, if isReadOnly x then NO_MODIFICATION_ALLOWED_ERR
            else HIERARCHY_REQUEST_ERR) ∧
      r.extractContents (extractContentsRest isReadOnly) tm 0
        = some (tm, r, if isReadOnly x then NO_MODIFICATION_ALLOWED_ERR
            else HIERARCHY_REQUEST_ERR, none)) ∧
    (∀ (l : List NodeImpl),
      walkFrom tm start l = true → (l = [] → start = pastEnd) →
      (∀ z, l.getLast? = some z → traverseNextNode tm z = some pastEnd) →
      (∀ y, y ∈ l → some y ≠ pastEnd ∧ isReadOnly y = false ∧
        nodeType tm y ≠ some .DOCUMENT_TYPE_NODE) →
      l.length ≤ tm.size →
      r.containedByReadOnly isReadOnly = true →
      r.deleteContents (deleteContentsRest isReadOnly) tm 0
        = some (tm, r, NO_MODIFICATION_ALLOWED_ERR) ∧
      r.extractContents (extractContentsRest isReadOnly) tm 0
        = some (tm, r, NO_MODIFICATION_ALLOWED_ERR, none)) := by
  constructor
  · intro pre x tx hx hw hnp hpre hoff hlen
    have hl := checkDeleteExtractLoop_offender isReadOnly tm pastEnd x tx hx pre start tm.size
      hw hnp hpre hoff hlen
    apply prechecks_fail hd
    · simp [checkDeleteExtract, hs, hp, hl]
    · split_ifs <;> decide
  · intro l hw he hlast hall hlen hro
    have hl := checkDeleteExtractLoop_complete isReadOnly tm pastEnd l start tm.size
      hw he hlast hall hlen
    apply prechecks_fail hd
    · simp [checkDeleteExtract, hs, hp, hl, hro]
    · decide

theorem prechecks_are_atomic_witness :
    RangeImpl.deleteContents (deleteContentsRest divReadOnly) sampleModel
        ⟨some (.root 0), some sampleAbc, 1, some sampleFgh, 1, false⟩ 0
      = some (sampleModel, ⟨some (.root 0), some sampleAbc, 1, some sampleFgh, 1, false⟩,
          if divReadOnly sampleDiv then NO_MODIFICATION_ALLOWED_ERR
          else HIERARCHY_REQUEST_ERR) ∧
    RangeImpl.extractContents (extractContentsRest divReadOnly) sampleModel
        ⟨some (.root 0), some sampleAbc, 1, some sampleFgh, 1, false⟩ 0
      = some (sampleModel, ⟨some (.root 0), some sampleAbc, 1, some sampleFgh, 1, false⟩,
          if divReadOnly sampleDiv then NO_MODIFICATION_ALLOWED_ERR
          else HIERARCHY_REQUEST_ERR, none) :=
  (prechecks_are_atomic divReadOnly sampleModel
    ⟨some (.root 0), some sampleAbc, 1, some sampleFgh, 1, false⟩
    (some sampleAbc) (some sampleComment) rfl (by decide) (by decide)).1
    [sampleAbc, .child sampleP 1, sampleDeepText] sampleDiv
    (.mk .ELEMENT_NODE [] [.mk .TEXT_NODE [102, 103, 104] [], .mk .COMMENT_NODE [105] []])
    rfl (by decide) (by decide) (by decide) (by decide) (by decide)

/-- The range of `sampleModel` from `(document, 0)` to `("fgh", 1)`, with the `div`
and the nodes below it read-only: the end container has a read-only ancestor,
the scan starts at the document type, which is not read-only, and both
operations fail with `HIERARCHY_REQUEST_ERR`, not with `NO_MODIFICATION_ALLOWED_ERR`. -/
theorem prechecks_are_atomic_doctype_first :
    RangeImpl.containedByReadOnly divReadOnly
        ⟨some (.root 0), some (.root 0), 0, some sampleFgh, 1, false⟩ = true ∧
    RangeImpl.deleteContents (deleteContentsRest divReadOnly) sampleModel
        ⟨some (.root 0), some (.root 0), 0, some sampleFgh, 1, false⟩ 0
      = some (sampleModel, ⟨some (.root 0), some (.root 0), 0, some sampleFgh, 1, false⟩,
          HIERARCHY_REQUEST_ERR) ∧
    RangeImpl.extractContents (extractContentsRest divReadOnly) sampleModel
        ⟨some (.root 0), some (.root 0), 0, some sampleFgh, 1, false⟩ 0
      = some (sampleModel, ⟨some (.root 0), some (.root 0), 0, some sampleFgh, 1, false⟩,
          HIERARCHY_REQUEST_ERR, none) ∧
    HIERARCHY_REQUEST_ERR ≠ NO_MODIFICATION_ALLOWED_ERR :=
  ⟨by decide, rfl, rfl, by decide⟩

/-! ## The complex case between two character nodes with the same parent -/

theorem deleteData_from (t : Tree) {s : Int} (hs : 0 ≤ s) (hse : s ≤ t.data.length)
    (hlen : (t.data.length : Int) < 2 ^ 31) (ec : ExceptionCode) :
    t.deleteData (toUnsigned s) (toUnsigned ((t.data.length : Int) - s)) ec
      = (t.withData (t.data.take s.toNat), ec) := by
  have h1 : toUnsigned s = s.toNat := toUnsigned_of_nonneg hs (by omega)
  have h2 : toUnsigned ((t.data.length : Int) - s) = ((t.data.length : Int) - s).toNat :=
    toUnsigned_of_nonneg (by omega) (by omega)
  rw [h1, h2]
  unfold Tree.deleteData
  have h3 : ¬ s.toNat > t.data.length := by omega
  have h4 : s.toNat + ((t.data.length : Int) - s).toNat = t.data.length := by omega
  rw [if_neg h3, h4, List.drop_length, List.append_nil]

theorem deleteData_upto (t : Tree) {s : Int} (hs : 0 ≤ s) (hlen : s < 2 ^ 31)
    (ec : ExceptionCode) :
    t.deleteData 0 (toUnsigned s) ec = (t.withData (t.data.drop s.toNat), ec) := by
  rw [toUnsigned_of_nonneg hs hlen]
  unfold Tree.deleteData
  simp

/-- The left-hand side of the complex case when the start container is a
character node and a child of the common root: the node keeps its data before
the start offset, and `leftContents` is a copy with the data from the start
offset on. -/
theorem processLeft_character {tm : TreeModel} {fr : Frame} {R : NodeImpl} {a : Nat}
    {TR Ts : Tree} (hR : fr.cmnRoot = some R)
    (hsc : fr.range.m_startContainer = some (.child R a))
    (hTR : tm.node R = some TR) (hTs : TR.children[a]? = some Ts)
    (hk : isTextCDataOrComment Ts.nodeType = true)
    (hso0 : 0 ≤ fr.range.m_startOffset) (hso : fr.range.m_startOffset ≤ Ts.data.length)
    (hb : (Ts.data.length : Int) < 2 ^ 31) (ec : ExceptionCode) :
    ∃ tm1, tm.replace R (TR.withChildren
          (TR.children.set a (Ts.withData (Ts.data.take fr.range.m_startOffset.toNat))))
        = some tm1 ∧
      processLeft .EXTRACT_CONTENTS tm fr ec
        = some (tm1, fr, some (Ts.withData (Ts.data.drop fr.range.m_startOffset.toNat)), ec) := by
  have ha : a < TR.children.length := by
    rcases Nat.lt_or_ge a TR.children.length with h | h
    · exact h
    · rw [List.getElem?_eq_none h] at hTs; cases hTs
  have hsn : tm.node (.child R a) = some Ts := by
    simp [TreeModel.node, hTR, hTs]
  obtain ⟨tm1, htm1⟩ := replace_total hTR (TR.withChildren
    (TR.children.set a (Ts.withData (Ts.data.take fr.range.m_startOffset.toNat))))
  have hrep : tm.replace (.child R a)
      (Ts.withData (Ts.data.take fr.range.m_startOffset.toNat)) = some tm1 := by
    rw [replace_child hTR ha, htm1]
  have hR1 : tm1.node R = some (TR.withChildren
      (TR.children.set a (Ts.withData (Ts.data.take fr.range.m_startOffset.toNat)))) :=
    replace_node_self htm1
  refine ⟨tm1, htm1, ?_⟩
  have hstart : processLeftStart .EXTRACT_CONTENTS tm fr ec
      = some (tm1, fr, some (Ts.withData (Ts.data.drop fr.range.m_startOffset.toNat)), ec) := by
    unfold processLeftStart
    simp only [hsc, nodeType, hsn, Option.map_some', Option.some_bind, hk, if_true,
      ActionType.copies, ActionType.removes, cloneNode, length, deleteData, decide_True,
      Bool.true_or, Bool.or_true, deleteData_upto Ts hso0 (by omega),
      deleteData_from Ts hso0 hso hb, hrep]
  unfold processLeft
  rw [hstart]
  simp only [Option.some_bind, hsc]
  have hns : nextSibling tm1 (.child R a) = some (childAt R TR.children.length (a + 1)) := by
    have := nextSibling_eq_childAt (k := a) hR1
      (by rw [Tree.withChildren_children, List.length_set]; exact ha)
    rw [Tree.withChildren_children, List.length_set] at this
    exact this
  rw [hns]
  simp only [Option.some_bind, NodeImpl.parentNode]
  unfold leftLevels
  simp [hR]

/-- The right-hand side of the complex case when the end container is a
character node and a child of the common root: the node keeps its data from the
end offset on, and `rightContents` is a copy with the data before the end offset. -/
theorem processRight_character {tm : TreeModel} {fr : Frame} {R : NodeImpl} {b : Nat}
    {TR Te : Tree} (hR : fr.cmnRoot = some R)
    (he : fr.range.m_endContainer = some (.child R b))
    (hTR : tm.node R = some TR) (hTe : TR.children[b]? = some Te)
    (hk : isTextCDataOrComment Te.nodeType = true)
    (heo0 : 0 ≤ fr.range.m_endOffset) (heo : fr.range.m_endOffset ≤ Te.data.length)
    (hb : (Te.data.length : Int) < 2 ^ 31) (ec : ExceptionCode) :
    ∃ tm1, tm.replace R (TR.withChildren
          (TR.children.set b (Te.withData (Te.data.drop fr.range.m_endOffset.toNat))))
        = some tm1 ∧
      processRight .EXTRACT_CONTENTS tm fr ec
        = some (tm1, fr, some (Te.withData (Te.data.take fr.range.m_endOffset.toNat)), ec) := by
  have hbl : b < TR.children.length := by
    rcases Nat.lt_or_ge b TR.children.length with h | h
    · exact h
    · rw [List.getElem?_eq_none h] at hTe; cases hTe
  have hen : tm.node (.child R b) = some Te := by
    simp [TreeModel.node, hTR, hTe]
  obtain ⟨tm1, htm1⟩ := replace_total hTR (TR.withChildren
    (TR.children.set b (Te.withData (Te.data.drop fr.range.m_endOffset.toNat))))
  have hrep : tm.replace (.child R b)
      (Te.withData (Te.data.drop fr.range.m_endOffset.toNat)) = some tm1 := by
    rw [replace_child hTR hbl, htm1]
  have hR1 : tm1.node R = some (TR.withChildren
      (TR.children.set b (Te.withData (Te.data.drop fr.range.m_endOffset.toNat)))) :=
    replace_node_self htm1
  refine ⟨tm1, htm1, ?_⟩
  have hstart : processRightStart .EXTRACT_CONTENTS tm fr ec
      = some (tm1, fr, some (Te.withData (Te.data.take fr.range.m_endOffset.toNat)), ec) := by
    unfold processRightStart
    simp [he, nodeType, hen, hk,
      ActionType.copies, ActionType.removes, cloneNode, length, deleteData,
      deleteData_upto Te heo0 (by omega),
      deleteData_from Te heo0 heo hb, hrep]
  unfold processRight
  rw [hstart]
  simp only [Option.some_bind, he]
  have hps : previousSibling tm1 (.child R b)
      = some (if b = 0 then none else some (.child R (b - 1))) :=
    previousSibling_child (k := b) hR1
      (by rw [Tree.withChildren_children, List.length_set]; exact hbl)
  rw [hps]
  simp only [Option.some_bind, NodeImpl.parentNode]
  unfold rightLevels
  simp [hR]

theorem take_set_of_le {α : Type} (l : List α) {n m : Nat} (x : α) (h : m ≤ n) :
    (l.set n x).take m = l.take m := by
  apply List.ext_getElem?
  intro i
  rw [List.getElem?_take, List.getElem?_take]
  split
  · rw [List.getElem?_set_ne (by omega)]
  · rfl

theorem take_drop_set_set {α : Type} (l : List α) {a b : Nat} (hab : a < b) (hb : b < l.length)
    (x y : α) :
    ((l.set a x).set b y).take (a + 1) ++ ((l.set a x).set b y).drop b
      = l.take a ++ x :: y :: l.drop (b + 1) := by
  have h1 : ((l.set a x).set b y).take (a + 1) = l.take a ++ [x] := by
    rw [take_set_of_le _ y (by omega), List.take_succ, take_set_of_le _ x (le_refl a)]
    simp [List.getElem?_set, show a < l.length by omega]
  have h2 : ((l.set a x).set b y).drop b = y :: l.drop (b + 1) := by
    rw [List.drop_eq_getElem_cons (by simp; omega)]
    simp [List.drop_set_of_lt y (l.set a x) (show b < b + 1 by omega),
      List.drop_set_of_lt x l (show a < b + 1 by omega)]
  rw [h1, h2]; simp

theorem between_set_set {α : Type} (l : List α) {a b : Nat} (x y : α) :
    (((l.set a x).set b y).drop (a + 1)).take (b - (a + 1))
      = (l.drop (a + 1)).take (b - (a + 1)) := by
  apply List.ext_getElem?
  intro i
  simp only [List.getElem?_take, List.getElem?_drop]
  split
  · rw [List.getElem?_set_ne (by omega), List.getElem?_set_ne (by omega)]
  · rfl

/-- The complex case of `processContents(EXTRACT_CONTENTS)` between two character
nodes that are children `a < b` of one node `R`. -/
theorem processContents_character_siblings {tm : TreeModel} {doc : Ptr} {R : NodeImpl}
    {a b : Nat} {TR Ts Te : Tree} {s e : Int}
    (hTR : tm.node R = some TR) (hab : a < b)
    (hTs : TR.children[a]? = some Ts) (hTe : TR.children[b]? = some Te)
    (hks : isTextCDataOrComment Ts.nodeType = true)
    (hke : isTextCDataOrComment Te.nodeType = true)
    (hs0 : 0 ≤ s) (hs : s ≤ Ts.data.length) (hls : (Ts.data.length : Int) < 2 ^ 31)
    (he0 : 0 ≤ e) (he : e ≤ Te.data.length) (hle : (Te.data.length : Int) < 2 ^ 31) :
    ∃ tm1, tm1.node R = some (TR.withChildren (TR.children.take a ++
          Ts.withData (Ts.data.take s.toNat) :: Te.withData (Te.data.drop e.toNat) ::
            TR.children.drop (b + 1))) ∧
      processContents .EXTRACT_CONTENTS tm
          ⟨doc, some (.child R a), s, some (.child R b), e, false⟩ 0
        = some (tm1, ⟨doc, some R, (a : Int) + 1, some R, (a : Int) + 1, false⟩, 0,
            some (.mk NodeType.DOCUMENT_FRAGMENT_NODE []
              (Ts.withData (Ts.data.drop s.toNat) ::
                ((TR.children.drop (a + 1)).take (b - (a + 1)) ++
                  [Te.withData (Te.data.take e.toNat)])))) := by
  have hbl : b < TR.children.length := by
    rcases Nat.lt_or_ge b TR.children.length with h | h
    · exact h
    · rw [List.getElem?_eq_none h] at hTe; cases hTe
  have hne : NodeImpl.child R a ≠ NodeImpl.child R b := by
    intro h; injection h with _ h2; omega
  rw [processContents_complex_eq .EXTRACT_CONTENTS tm (r := ⟨doc, some (.child R a), s,
      some (.child R b), e, false⟩) rfl rfl rfl hne
    (commonAncestorLoop_of_siblings (by omega) (mem_ancestors_self _) (mem_ancestors_self _))
    (partialContainer_of_mem (mem_ancestors_self _))
    (partialContainer_of_mem (mem_ancestors_self _))]
  obtain ⟨tm1, htm1, hleft⟩ := @processLeft_character _
    ⟨⟨doc, some (.child R a), s, some (.child R b), e, false⟩, some R,
      some (.child R a), some (.child R b)⟩ _ _ _ _ rfl rfl hTR hTs hks hs0 hs hls 0
  have hR1 := replace_node_self htm1
  have hTe1 : (TR.withChildren (TR.children.set a
      (Ts.withData (Ts.data.take s.toNat)))).children[b]? = some Te := by
    rw [Tree.withChildren_children, List.getElem?_set_ne (by omega)]
    exact hTe
  obtain ⟨tm2, htm2, hright⟩ := @processRight_character _
    ⟨⟨doc, some (.child R a), s, some (.child R b), e, false⟩, some R,
      some (.child R a), some (.child R b)⟩ _ _ _ _ rfl rfl hR1 hTe1 hke he0 he hle 0
  have hR2 := replace_node_self htm2
  rw [Tree.withChildren_withChildren, Tree.withChildren_children] at hR2
  dsimp only at htm1 htm2 hleft hright hR2
  have hlen2 : ((TR.children.set a (Ts.withData (Ts.data.take s.toNat))).set b
      (Te.withData (Te.data.drop e.toNat))).length = TR.children.length := by
    simp
  obtain ⟨tm3, htm3, hmid⟩ := @processMiddle_removes .EXTRACT_CONTENTS
    (by decide) _
    ⟨⟨doc, some (.child R a), s, some (.child R b), e, false⟩, some R,
      some (.child R a), some (.child R b)⟩ _ _ (a + 1) b rfl hR2
    (processStart_spec rfl rfl hR2 (Or.inr ⟨a, mem_ancestors_self _, rfl, by
      rw [Tree.withChildren_children, hlen2]; omega⟩))
    (processEnd_spec rfl rfl hR2 (Or.inr ⟨mem_ancestors_self _, by
      rw [Tree.withChildren_children, hlen2]; exact hbl⟩))
    (by omega) (by rw [Tree.withChildren_children, hlen2]; omega)
    (some (Ts.withData (Ts.data.drop s.toNat))) (some (Te.withData (Te.data.take e.toNat))) 0
  rw [Tree.withChildren_withChildren, Tree.withChildren_children,
    take_drop_set_set _ hab hbl] at htm3
  refine ⟨tm3, replace_node_self htm3, ?_⟩
  unfold processComplex
  have hc1 : (some (NodeImpl.child R a) : Ptr) ≠ some R := by
    intro h
    have := congrArg (Option.map NodeImpl.depth) h
    simp [NodeImpl.depth] at this
  have hc2 : (some (NodeImpl.child R b) : Ptr) ≠ some R := by
    intro h
    have := congrArg (Option.map NodeImpl.depth) h
    simp [NodeImpl.depth] at this
  simp only [ne_eq, hc1, not_false_eq_true, if_true, hleft, Option.some_bind, hc2, hright]
  simp only [ActionType.copies, decide_True, Bool.true_or, Bool.or_true, if_true,
    Tree.withChildren_children, between_set_set] at hmid
  rw [hmid]
  have hg : ((relocate R (a + 1))^[b - (a + 1)]) (.child R a) = .child R a := by
    apply iterate_relocate_of_not_after
    intro i hi
    have := mem_ancestors_child_same hi
    omega
  have hcol := @collapseAfter_spec
    ⟨⟨doc, some (.child R a), s, some (.child R b), e, false⟩, some R,
      some (.child R a), some (.child R b)⟩ R
    ((relocate R (a + 1))^[b - (a + 1)]) (a + 1) (.child R b) 0
    (Or.inl ⟨a, rfl, rfl, hg⟩)
  rw [withEnd_self rfl] at hcol
  rw [hcol]
  simp

/-- C21. Complex-case assembly across two character nodes.  Let `ts` and `te` be
character nodes (text, CDATA section or comment), the children with index
`a < b` of one node `R` with child list `L`, and let the range run from `(ts, s)` to
`(te, e)` with offsets within the data of the two nodes, on a forest that passes
the pre-checks of `checkDeleteExtract`.  Then `extractContents` returns a fragment
whose children are, in order, a copy of `ts` with data `ts[s..]`, the children of `R`
strictly between `ts` and `te`, and a copy of `te` with data `te[..e)`.  Afterwards the
children of `R` are `L[..a)`, `ts` with data `ts[..s)`, `te` with data `te[e..]` and `L(b..]`,
so the nodes between the two are no longer children of `R`, and the range is
collapsed at `(R, a + 1)`. -/
theorem character_siblings_assembly (isReadOnly : NodeImpl → Bool) (tm : TreeModel) (doc : Ptr)
    (R : NodeImpl) (a b : Nat) (TR Ts Te : Tree) (s e : Int)
    (hTR : tm.node R = some TR) (hab : a < b)
    (hTs : TR.children[a]? = some Ts) (hTe : TR.children[b]? = some Te)
    (hks : isTextCDataOrComment Ts.nodeType = true)
    (hke : isTextCDataOrComment Te.nodeType = true)
    (hs0 : 0 ≤ s) (hs : s ≤ Ts.data.length) (hls : (Ts.data.length : Int) < 2 ^ 31)
    (he0 : 0 ≤ e) (he : e ≤ Te.data.length) (hle : (Te.data.length : Int) < 2 ^ 31)
    (hpre : checkDeleteExtract isReadOnly tm
      ⟨doc, some (.child R a), s, some (.child R b), e, false⟩ 0 = some 0) :
    ∃ tm1, tm1.node R = some (TR.withChildren (TR.children.take a ++
          Ts.withData (Ts.data.take s.toNat) :: Te.withData (Te.data.drop e.toNat) ::
            TR.children.drop (b + 1))) ∧
      RangeImpl.extractContents (extractContentsRest isReadOnly) tm
          ⟨doc, some (.child R a), s, some (.child R b), e, false⟩ 0
        = some (tm1, ⟨doc, some R, (a : Int) + 1, some R, (a : Int) + 1, false⟩, 0,
            some (.mk NodeType.DOCUMENT_FRAGMENT_NODE []
              (Ts.withData (Ts.data.drop s.toNat) ::
                ((TR.children.drop (a + 1)).take (b - (a + 1)) ++
                  [Te.withData (Te.data.take e.toNat)])))) := by
  obtain ⟨tm1, h1, h2⟩ := @processContents_character_siblings tm doc R a b TR Ts Te s e hTR hab hTs hTe
    hks hke hs0 hs hls he0 he hle
  refine ⟨tm1, h1, ?_⟩
  simp [RangeImpl.extractContents, extractContentsRest, hpre, h2]

theorem character_siblings_assembly_witness :
    ∃ tm1, tm1.node helloP = some (.mk .ELEMENT_NODE [] [
          .mk .TEXT_NODE [72, 101, 108, 108, 111, 32] [],
          .mk .TEXT_NODE [119, 111, 114, 108, 100] []]) ∧
      RangeImpl.extractContents (extractContentsRest noneReadOnly) helloModel
          ⟨some (.root 0), some (.child helloP 0), 6, some (.child helloP 2), 1, false⟩ 0
        = some (tm1, ⟨some (.root 0), some helloP, 1, some helloP, 1, false⟩, 0,
            some (.mk NodeType.DOCUMENT_FRAGMENT_NODE [] [
              .mk .TEXT_NODE [] [],
              .mk .ELEMENT_NODE [] [.mk .TEXT_NODE [98, 111, 108, 100] []],
              .mk .TEXT_NODE [32] []])) :=
  character_siblings_assembly noneReadOnly helloModel (some (.root 0)) helloP 0 2
    (.mk .ELEMENT_NODE [] [
      .mk .TEXT_NODE [72, 101, 108, 108, 111, 32] [],
      .mk .ELEMENT_NODE [] [.mk .TEXT_NODE [98, 111, 108, 100] []],
      .mk .TEXT_NODE [32, 119, 111, 114, 108, 100] []])
    (.mk .TEXT_NODE [72, 101, 108, 108, 111, 32] [])
    (.mk .TEXT_NODE [32, 119, 111, 114, 108, 100] [])
    6 1 rfl (by decide) rfl rfl rfl rfl (by decide) (by decide) (by decide) (by decide)
    (by decide) (by decide) (by decide)

/-- The range of scenario 1 on `helloModel`, with the element `b` read-only:
`extractContents` fails with `NO_MODIFICATION_ALLOWED_ERR`, returns no fragment and
leaves the forest and the range as they were, so the nodes between the two
text nodes are still children of the paragraph and the range is not collapsed. -/
theorem character_siblings_assembly_read_only :
    RangeImpl.extractContents (extractContentsRest boldReadOnly) helloModel
        ⟨some (.root 0), some (.child helloP 0), 6, some (.child helloP 2), 1, false⟩ 0
      = some (helloModel,
          ⟨some (.root 0), some (.child helloP 0), 6, some (.child helloP 2), 1, false⟩,
          NO_MODIFICATION_ALLOWED_ERR, none) :=
  rfl

/-! ## Exception codes of the operations that change the tree -/

theorem indexSize_ne_bad : INDEX_SIZE_ERR ≠ BAD_BOUNDARYPOINTS_ERR := by decide

theorem notFound_ne_bad : NOT_FOUND_ERR ≠ BAD_BOUNDARYPOINTS_ERR := by decide

theorem hierarchy_ne_bad : HIERARCHY_REQUEST_ERR ≠ BAD_BOUNDARYPOINTS_ERR := by decide

theorem noModification_ne_bad : NO_MODIFICATION_ALLOWED_ERR ≠ BAD_BOUNDARYPOINTS_ERR := by decide

theorem wrongDocument_ne_bad : WRONG_DOCUMENT_ERR ≠ BAD_BOUNDARYPOINTS_ERR := by decide

theorem invalidState_ne_bad : INVALID_STATE_ERR ≠ BAD_BOUNDARYPOINTS_ERR := by decide

theorem invalidNodeType_ne_bad : INVALID_NODE_TYPE_ERR ≠ BAD_BOUNDARYPOINTS_ERR := by decide

theorem Tree.deleteData_value_noBad (t : Tree) (o c : Nat) {ec : ExceptionCode}
    (hec : ec ≠ BAD_BOUNDARYPOINTS_ERR) : (t.deleteData o c ec).2 ≠ BAD_BOUNDARYPOINTS_ERR := by
  unfold Tree.deleteData
  split
  · exact indexSize_ne_bad
  · exact hec

theorem deleteData_noBad {tm : TreeModel} {n : NodeImpl} {o c : Nat} {ec : ExceptionCode}
    {res : TreeModel × ExceptionCode} (h : deleteData tm n o c ec = some res)
    (hec : ec ≠ BAD_BOUNDARYPOINTS_ERR) : res.2 ≠ BAD_BOUNDARYPOINTS_ERR := by
  simp only [deleteData, Option.bind_eq_some, Option.map_eq_some'] at h
  obtain ⟨t, _, tm1, _, rfl⟩ := h
  exact Tree.deleteData_value_noBad t o c hec

theorem appendChild_noBad {p c : Option Tree} {ec : ExceptionCode}
    {res : Option Tree × ExceptionCode} (h : appendChild p c ec = some res)
    (hec : ec ≠ BAD_BOUNDARYPOINTS_ERR) : res.2 ≠ BAD_BOUNDARYPOINTS_ERR := by
  unfold appendChild at h
  cases p with
  | none => simp at h
  | some t =>
    cases c with
    | none =>
      simp only [Option.some.injEq] at h
      subst h
      exact notFound_ne_bad
    | some c =>
      simp only [Option.some.injEq] at h
      subst h
      exact hec

theorem insertBeforeFirstChild_noBad {p c : Option Tree} {ec : ExceptionCode}
    {res : Option Tree × ExceptionCode} (h : insertBeforeFirstChild p c ec = some res)
    (hec : ec ≠ BAD_BOUNDARYPOINTS_ERR) : res.2 ≠ BAD_BOUNDARYPOINTS_ERR := by
  unfold insertBeforeFirstChild at h
  cases p with
  | none => simp at h
  | some t =>
    cases c with
    | none =>
      simp only [Option.some.injEq] at h
      subst h
      exact notFound_ne_bad
    | some c =>
      simp only [Option.some.injEq] at h
      subst h
      exact hec

theorem removeChild_noBad {tm : TreeModel} {parent : Ptr} {m : NodeImpl} {ec : ExceptionCode}
    {res : TreeModel × ExceptionCode × (NodeImpl → NodeImpl)}
    (h : removeChild tm parent m ec = some res)
    (hec : ec ≠ BAD_BOUNDARYPOINTS_ERR) : res.2.1 ≠ BAD_BOUNDARYPOINTS_ERR := by
  unfold removeChild at h
  cases parent with
  | none => simp at h
  | some p =>
    simp only at h
    split at h
    · simp only [Option.map_eq_some'] at h
      obtain ⟨x, _, rfl⟩ := h
      exact hec
    · simp only [Option.some.injEq] at h
      subst h
      exact notFound_ne_bad

theorem appendContents_noBad {action : ActionType} {f c : Option Tree} {ec : ExceptionCode}
    {res : Option Tree × ExceptionCode} (h : appendContents action f c ec = some res)
    (hec : ec ≠ BAD_BOUNDARYPOINTS_ERR) : res.2 ≠ BAD_BOUNDARYPOINTS_ERR := by
  unfold appendContents at h
  split at h
  · exact appendChild_noBad h hec
  · simp only [Option.some.injEq] at h
    subst h
    exact hec

theorem forwardLoop_noBad (action : ActionType) (limit : Option Nat) :
    ∀ (fuel : Nat) (tm : TreeModel) (fr : Frame) (parent stop : Ptr) (acc : Option Tree)
      (n : Ptr) (i : Nat) (ec : ExceptionCode) (res : LoopResult),
      forwardLoop action limit fuel tm fr parent stop acc n i ec = some res →
      ec ≠ BAD_BOUNDARYPOINTS_ERR → res.2.2.2.2 ≠ BAD_BOUNDARYPOINTS_ERR := by
  intro fuel
  induction fuel with
  | zero =>
    intro tm fr parent stop acc n i ec res h hec
    unfold forwardLoop at h
    cases n with
    | none =>
      simp only [Option.some.injEq] at h
      subst h
      exact hec
    | some m =>
      simp only at h
      split at h
      · simp only [Option.some.injEq] at h
        subst h
        exact hec
      · simp at h
  | succ fuel ih =>
    intro tm fr parent stop acc n i ec res h hec
    unfold forwardLoop at h
    cases n with
    | none =>
      simp only [Option.some.injEq] at h
      subst h
      exact hec
    | some m =>
      simp only at h
      split at h
      · simp only [Option.some.injEq] at h
        subst h
        exact hec
      · simp only [Option.bind_eq_some] at h
        obtain ⟨next, _, h⟩ := h
        cases action with
        | EXTRACT_CONTENTS =>
          simp only [Option.bind_eq_some] at h
          obtain ⟨d, _, a, ha, h⟩ := h
          exact ih _ _ _ _ _ _ _ _ _ h (appendChild_noBad ha hec)
        | CLONE_CONTENTS =>
          simp only [Option.bind_eq_some] at h
          obtain ⟨c, _, a, ha, h⟩ := h
          exact ih _ _ _ _ _ _ _ _ _ h (appendChild_noBad ha hec)
        | DELETE_CONTENTS =>
          simp only [Option.bind_eq_some] at h
          obtain ⟨d, hd, h⟩ := h
          exact ih _ _ _ _ _ _ _ _ _ h (removeChild_noBad hd hec)

theorem backwardLoop_noBad (action : ActionType) :
    ∀ (fuel : Nat) (tm : TreeModel) (fr : Frame) (parent : Ptr) (acc : Option Tree)
      (n : Ptr) (ec : ExceptionCode) (res : LoopResult),
      backwardLoop action fuel tm fr parent acc n ec = some res →
      ec ≠ BAD_BOUNDARYPOINTS_ERR → res.2.2.2.2 ≠ BAD_BOUNDARYPOINTS_ERR := by
  intro fuel
  induction fuel with
  | zero =>
    intro tm fr parent acc n ec res h hec
    unfold backwardLoop at h
    cases n with
    | none =>
      simp only [Option.some.injEq] at h
      subst h
      exact hec
    | some m => simp at h
  | succ fuel ih =>
    intro tm fr parent acc n ec res h hec
    unfold backwardLoop at h
    cases n with
    | none =>
      simp only [Option.some.injEq] at h
      subst h
      exact hec
    | some m =>
      simp only [Option.bind_eq_some] at h
      obtain ⟨prev, _, h⟩ := h
      cases action with
      | EXTRACT_CONTENTS =>
        simp only [Option.bind_eq_some] at h
        obtain ⟨d, _, a, ha, h⟩ := h
        exact ih _ _ _ _ _ _ _ h (insertBeforeFirstChild_noBad ha hec)
      | CLONE_CONTENTS =>
        simp only [Option.bind_eq_some] at h
        obtain ⟨c, _, a, ha, h⟩ := h
        exact ih _ _ _ _ _ _ _ h (insertBeforeFirstChild_noBad ha hec)
      | DELETE_CONTENTS =>
        simp only [Option.bind_eq_some] at h
        obtain ⟨d, hd, h⟩ := h
        exact ih _ _ _ _ _ _ _ h (removeChild_noBad hd hec)

theorem leftLevel_noBad {action : ActionType} {tm : TreeModel} {fr : Frame} {lp : NodeImpl}
    {n : Ptr} {lc : Option Tree} {ec : ExceptionCode} {res : LoopResult}
    (h : leftLevel action tm fr lp n lc ec = some res) (hec : ec ≠ BAD_BOUNDARYPOINTS_ERR) :
    res.2.2.2.2 ≠ BAD_BOUNDARYPOINTS_ERR := by
  simp only [leftLevel, Option.bind_eq_some] at h
  obtain ⟨a, ha, h⟩ := h
  refine forwardLoop_noBad _ _ _ _ _ _ _ _ _ _ _ _ h ?_
  split at ha
  · simp only [Option.bind_eq_some] at ha
    obtain ⟨c, _, ha⟩ := ha
    exact appendChild_noBad ha hec
  · simp only [Option.some.injEq] at ha
    subst ha
    exact hec

theorem rightLevel_noBad {action : ActionType} {tm : TreeModel} {fr : Frame} {rp : NodeImpl}
    {n : Ptr} {rc : Option Tree} {ec : ExceptionCode} {res : LoopResult}
    (h : rightLevel action tm fr rp n rc ec = some res) (hec : ec ≠ BAD_BOUNDARYPOINTS_ERR) :
    res.2.2.2.2 ≠ BAD_BOUNDARYPOINTS_ERR := by
  simp only [rightLevel, Option.bind_eq_some] at h
  obtain ⟨a, ha, h⟩ := h
  refine backwardLoop_noBad _ _ _ _ _ _ _ _ _ h ?_
  split at ha
  · simp only [Option.bind_eq_some] at ha
    obtain ⟨c, _, ha⟩ := ha
    exact appendChild_noBad ha hec
  · simp only [Option.some.injEq] at ha
    subst ha
    exact hec

theorem leftLevels_noBad (action : ActionType) :
    ∀ (fuel : Nat) (tm : TreeModel) (fr : Frame) (lp n : Ptr) (lc : Option Tree)
      (ec : ExceptionCode) (res : TreeModel × Frame × Option Tree × ExceptionCode),
      leftLevels action fuel tm fr lp n lc ec = some res →
      ec ≠ BAD_BOUNDARYPOINTS_ERR → res.2.2.2 ≠ BAD_BOUNDARYPOINTS_ERR := by
  intro fuel
  induction fuel with
  | zero =>
    intro tm fr lp n lc ec res h hec
    unfold leftLevels at h
    split at h
    · simp only [Option.some.injEq] at h
      subst h
      exact hec
    · cases lp <;> simp at h
  | succ fuel ih =>
    intro tm fr lp n lc ec res h hec
    unfold leftLevels at h
    split at h
    · simp only [Option.some.injEq] at h
      subst h
      exact hec
    · cases lp with
      | none => simp at h
      | some p =>
        simp only [Option.bind_eq_some] at h
        obtain ⟨l, hl, h⟩ := h
        split at h
        · simp at h
        · simp only [Option.bind_eq_some] at h
          obtain ⟨n1, _, h⟩ := h
          exact ih _ _ _ _ _ _ _ h (leftLevel_noBad hl hec)

theorem rightLevels_noBad (action : ActionType) :
    ∀ (fuel : Nat) (tm : TreeModel) (fr : Frame) (rp n : Ptr) (rc : Option Tree)
      (ec : ExceptionCode) (res : TreeModel × Frame × Option Tree × ExceptionCode),
      rightLevels action fuel tm fr rp n rc ec = some res →
      ec ≠ BAD_BOUNDARYPOINTS_ERR → res.2.2.2 ≠ BAD_BOUNDARYPOINTS_ERR := by
  intro fuel
  induction fuel with
  | zero =>
    intro tm fr rp n rc ec res h hec
    unfold rightLevels at h
    split at h
    · simp only [Option.some.injEq] at h
      subst h
      exact hec
    · cases rp <;> simp at h
  | succ fuel ih =>
    intro tm fr rp n rc ec res h hec
    unfold rightLevels at h
    split at h
    · simp only [Option.some.injEq] at h
      subst h
      exact hec
    · cases rp with
      | none => simp at h
      | some p =>
        simp only [Option.bind_eq_some] at h
        obtain ⟨l, hl, h⟩ := h
        split at h
        · simp at h
        · simp only [Option.bind_eq_some] at h
          obtain ⟨n1, _, h⟩ := h
          exact ih _ _ _ _ _ _ _ h (rightLevel_noBad hl hec)

theorem processSimple_noBad {action : ActionType} {tm : TreeModel} {fr : Frame}
    {f : Option Tree} {ec : ExceptionCode} {res : PartResult}
    (h : processSimple action tm fr f ec = some res) (hec : ec ≠ BAD_BOUNDARYPOINTS_ERR) :
    res.2.2.2 ≠ BAD_BOUNDARYPOINTS_ERR := by
  unfold processSimple at h
  split at h
  · simp at h
  · simp only [Option.bind_eq_some] at h
    obtain ⟨k, _, h⟩ := h
    split at h
    · simp only [Option.bind_eq_some] at h
      obtain ⟨a, ha, h⟩ := h
      have ha2 : a.2 ≠ BAD_BOUNDARYPOINTS_ERR := by
        split at ha
        · simp only [Option.bind_eq_some] at ha
          obtain ⟨c, _, ha⟩ := ha
          exact appendChild_noBad ha
            (Tree.deleteData_value_noBad _ _ _ (Tree.deleteData_value_noBad _ _ _ hec))
        · simp only [Option.some.injEq] at ha
          subst ha
          exact hec
      split at h
      · simp only [Option.map_eq_some'] at h
        obtain ⟨d, hd, rfl⟩ := h
        exact deleteData_noBad hd ha2
      · simp only [Option.some.injEq] at h
        subst h
        exact ha2
    · split at h
      · simp only [Option.some.injEq] at h
        subst h
        exact hec
      · simp only [Option.bind_eq_some, Option.map_eq_some'] at h
        obtain ⟨n0, _, sk, _, l, hl, rfl⟩ := h
        exact forwardLoop_noBad _ _ _ _ _ _ _ _ _ _ _ _ hl hec

theorem processLeftStart_noBad {action : ActionType} {tm : TreeModel} {fr : Frame}
    {ec : ExceptionCode} {res : PartResult}
    (h : processLeftStart action tm fr ec = some res) (hec : ec ≠ BAD_BOUNDARYPOINTS_ERR) :
    res.2.2.2 ≠ BAD_BOUNDARYPOINTS_ERR := by
  unfold processLeftStart at h
  split at h
  · simp at h
  · simp only [Option.bind_eq_some] at h
    obtain ⟨k, _, h⟩ := h
    split at h
    · simp only [Option.bind_eq_some] at h
      obtain ⟨a, ha, h⟩ := h
      have ha2 : a.2 ≠ BAD_BOUNDARYPOINTS_ERR := by
        split at ha
        · simp only [Option.map_eq_some'] at ha
          obtain ⟨c, _, rfl⟩ := ha
          exact Tree.deleteData_value_noBad _ _ _ hec
        · simp only [Option.some.injEq] at ha
          subst ha
          exact hec
      split at h
      · simp only [Option.bind_eq_some, Option.map_eq_some'] at h
        obtain ⟨len, _, d, hd, rfl⟩ := h
        exact deleteData_noBad hd ha2
      · simp only [Option.some.injEq] at h
        subst h
        exact ha2
    · split at h
      · simp only [Option.some.injEq] at h
        subst h
        exact hec
      · simp only [Option.bind_eq_some, Option.map_eq_some'] at h
        obtain ⟨lc, _, n0, _, sk, _, l, hl, rfl⟩ := h
        exact forwardLoop_noBad _ _ _ _ _ _ _ _ _ _ _ _ hl hec

theorem processLeft_noBad {action : ActionType} {tm : TreeModel} {fr : Frame}
    {ec : ExceptionCode} {res : PartResult}
    (h : processLeft action tm fr ec = some res) (hec : ec ≠ BAD_BOUNDARYPOINTS_ERR) :
    res.2.2.2 ≠ BAD_BOUNDARYPOINTS_ERR := by
  simp only [processLeft, Option.bind_eq_some] at h
  obtain ⟨x, hx, h⟩ := h
  split at h
  · simp at h
  · simp only [Option.bind_eq_some] at h
    obtain ⟨n, _, h⟩ := h
    exact leftLevels_noBad _ _ _ _ _ _ _ _ _ h (processLeftStart_noBad hx hec)

theorem processRightChildren_noBad {action : ActionType} {tm : TreeModel} {fr : Frame}
    {e : NodeImpl} {rc : Option Tree} {ec : ExceptionCode} {res : PartResult}
    (h : processRightChildren action tm fr e rc ec = some res)
    (hec : ec ≠ BAD_BOUNDARYPOINTS_ERR) : res.2.2.2 ≠ BAD_BOUNDARYPOINTS_ERR := by
  simp only [processRightChildren, Option.bind_eq_some] at h
  obtain ⟨n0, _, h⟩ := h
  split at h
  · simp only [Option.some.injEq] at h
    subst h
    exact hec
  · split at h
    · simp only [Option.bind_eq_some, Option.map_eq_some'] at h
      obtain ⟨nl, _, l, hl, rfl⟩ := h
      exact backwardLoop_noBad _ _ _ _ _ _ _ _ _ hl hec
    · simp only [Option.some.injEq] at h
      subst h
      exact hec

theorem processRightStart_noBad {action : ActionType} {tm : TreeModel} {fr : Frame}
    {ec : ExceptionCode} {res : PartResult}
    (h : processRightStart action tm fr ec = some res) (hec : ec ≠ BAD_BOUNDARYPOINTS_ERR) :
    res.2.2.2 ≠ BAD_BOUNDARYPOINTS_ERR := by
  unfold processRightStart at h
  split at h
  · simp at h
  · simp only [Option.bind_eq_some] at h
    obtain ⟨k, _, h⟩ := h
    split at h
    · simp only [Option.bind_eq_some] at h
      obtain ⟨a, ha, h⟩ := h
      have ha2 : a.2 ≠ BAD_BOUNDARYPOINTS_ERR := by
        split at ha
        · simp only [Option.bind_eq_some, Option.map_eq_some'] at ha
          obtain ⟨c, _, len, _, rfl⟩ := ha
          exact Tree.deleteData_value_noBad _ _ _ hec
        · simp only [Option.some.injEq] at ha
          subst ha
          exact hec
      split at h
      · simp only [Option.map_eq_some'] at h
        obtain ⟨d, hd, rfl⟩ := h
        exact deleteData_noBad hd ha2
      · simp only [Option.some.injEq] at h
        subst h
        exact ha2
    · split at h
      · simp at h
      · simp only [Option.bind_eq_some] at h
        obtain ⟨ks, _, h⟩ := h
        split at h
        · simp only [Option.some.injEq] at h
          subst h
          exact hec
        · simp only [Option.bind_eq_some] at h
          obtain ⟨rc, _, h⟩ := h
          exact processRightChildren_noBad h hec

theorem processRight_noBad {action : ActionType} {tm : TreeModel} {fr : Frame}
    {ec : ExceptionCode} {res : PartResult}
    (h : processRight action tm fr ec = some res) (hec : ec ≠ BAD_BOUNDARYPOINTS_ERR) :
    res.2.2.2 ≠ BAD_BOUNDARYPOINTS_ERR := by
  simp only [processRight, Option.bind_eq_some] at h
  obtain ⟨x, hx, h⟩ := h
  split at h
  · simp at h
  · simp only [Option.bind_eq_some] at h
    obtain ⟨n, _, h⟩ := h
    exact rightLevels_noBad _ _ _ _ _ _ _ _ _ h (processRightStart_noBad hx hec)

theorem collapse_noBad (r : RangeImpl) (b : Bool) {ec : ExceptionCode}
    (hec : ec ≠ BAD_BOUNDARYPOINTS_ERR) : (r.collapse b ec).2 ≠ BAD_BOUNDARYPOINTS_ERR := by
  unfold RangeImpl.collapse
  split
  · exact invalidState_ne_bad
  · split <;> exact hec

theorem collapseAfter_noBad (fr : Frame) {ec : ExceptionCode}
    (hec : ec ≠ BAD_BOUNDARYPOINTS_ERR) : (collapseAfter fr ec).2 ≠ BAD_BOUNDARYPOINTS_ERR := by
  unfold collapseAfter
  split
  · exact collapse_noBad _ _ hec
  · split
    · exact hec
    · split <;> exact hec

theorem processMiddle_noBad {action : ActionType} {tm : TreeModel} {fr : Frame}
    {f lc rc : Option Tree} {ec : ExceptionCode} {res : ContentsResult}
    (h : processMiddle action tm fr f lc rc ec = some res) (hec : ec ≠ BAD_BOUNDARYPOINTS_ERR) :
    res.2.2.1 ≠ BAD_BOUNDARYPOINTS_ERR := by
  simp only [processMiddle, Option.bind_eq_some, Option.map_eq_some'] at h
  obtain ⟨ps, _, pe, _, f1, hf1, m, hm, f2, hf2, rfl⟩ := h
  have h1 := appendContents_noBad hf1 hec
  have h2 := forwardLoop_noBad _ _ _ _ _ _ _ _ _ _ _ _ hm h1
  have h3 := appendContents_noBad hf2 h2
  split
  · exact collapseAfter_noBad _ h3
  · exact h3

theorem processComplex_noBad {action : ActionType} {tm : TreeModel} {fr : Frame}
    {f : Option Tree} {ec : ExceptionCode} {res : ContentsResult}
    (h : processComplex action tm fr f ec = some res) (hec : ec ≠ BAD_BOUNDARYPOINTS_ERR) :
    res.2.2.1 ≠ BAD_BOUNDARYPOINTS_ERR := by
  simp only [processComplex, Option.bind_eq_some] at h
  obtain ⟨l, hl, r, hr, h⟩ := h
  have h1 : l.2.2.2 ≠ BAD_BOUNDARYPOINTS_ERR := by
    split at hl
    · exact processLeft_noBad hl hec
    · simp only [Option.some.injEq] at hl
      subst hl
      exact hec
  have h2 : r.2.2.2 ≠ BAD_BOUNDARYPOINTS_ERR := by
    split at hr
    · exact processRight_noBad hr h1
    · simp only [Option.some.injEq] at hr
      subst hr
      exact h1
  exact processMiddle_noBad h h2

theorem processContents_noBad {action : ActionType} {tm : TreeModel} {r : RangeImpl}
    {ec : ExceptionCode} {res : ContentsResult}
    (h : processContents action tm r ec = some res) (hec : ec ≠ BAD_BOUNDARYPOINTS_ERR) :
    res.2.2.1 ≠ BAD_BOUNDARYPOINTS_ERR := by
  have hc : (r.collapsed ec).2 ≠ BAD_BOUNDARYPOINTS_ERR := by
    unfold RangeImpl.collapsed
    split
    · exact invalidState_ne_bad
    · exact hec
  unfold processContents at h
  simp only at h
  split at h
  · simp only [Option.some.injEq] at h
    subst h
    exact hc
  · split at h
    · simp only [Option.some.injEq] at h
      subst h
      exact hc
    · simp only [Option.bind_eq_some] at h
      obtain ⟨ca, hca, h⟩ := h
      have hca2 : ca.2 ≠ BAD_BOUNDARYPOINTS_ERR := by
        unfold RangeImpl.commonAncestorContainer at hca
        split at hca
        · simp only [Option.some.injEq] at hca
          subst hca
          exact invalidState_ne_bad
        · simp only [Option.map_eq_some'] at hca
          obtain ⟨com, _, rfl⟩ := hca
          simp only
          split
          · exact wrongDocument_ne_bad
          · exact hc
      split at h
      · simp only [Option.some.injEq] at h
        subst h
        exact hca2
      · simp only [Option.bind_eq_some] at h
        obtain ⟨ps, _, pe, _, h⟩ := h
        split at h
        · simp only [Option.map_eq_some'] at h
          obtain ⟨x, hx, rfl⟩ := h
          have := processSimple_noBad hx hca2
          split
          · exact collapse_noBad _ _ this
          · exact this
        · exact processComplex_noBad h hca2

theorem checkDeleteExtractLoop_noBad (isReadOnly : NodeImpl → Bool) (tm : TreeModel)
    (pastEnd : Ptr) :
    ∀ (fuel : Nat) (n : Ptr) (e : ExceptionCode),
      checkDeleteExtractLoop isReadOnly tm pastEnd fuel n = some (some e) →
      e ≠ BAD_BOUNDARYPOINTS_ERR := by
  intro fuel
  induction fuel with
  | zero =>
    intro n e h
    unfold checkDeleteExtractLoop at h
    split at h
    · simp at h
    · cases n <;> simp at h
  | succ fuel ih =>
    intro n e h
    unfold checkDeleteExtractLoop at h
    split at h
    · simp at h
    · cases n with
      | none => simp at h
      | some m =>
        simp only [Option.bind_eq_some] at h
        obtain ⟨k, _, h⟩ := h
        split at h
        · simp only [Option.some.injEq] at h
          subst h
          exact noModification_ne_bad
        · split at h
          · simp only [Option.some.injEq] at h
            subst h
            exact hierarchy_ne_bad
          · simp only [Option.bind_eq_some] at h
            obtain ⟨n1, _, h⟩ := h
            exact ih _ _ h

theorem checkDeleteExtract_noBad {isReadOnly : NodeImpl → Bool} {tm : TreeModel}
    {r : RangeImpl} {ec e : ExceptionCode} (h : checkDeleteExtract isReadOnly tm r ec = some e)
    (hec : ec ≠ BAD_BOUNDARYPOINTS_ERR) : e ≠ BAD_BOUNDARYPOINTS_ERR := by
  simp only [checkDeleteExtract, Option.bind_eq_some] at h
  obtain ⟨pe, _, st, _, ret, hret, h⟩ := h
  cases ret with
  | some e1 =>
    simp only [Option.some.injEq] at h
    subst h
    exact checkDeleteExtractLoop_noBad _ _ _ _ _ _ hret
  | none =>
    simp only at h
    split at h
    · simp only [Option.some.injEq] at h
      subst h
      exact noModification_ne_bad
    · simp only [Option.some.injEq] at h
      subst h
      exact hec

theorem extractContents_noBad {isReadOnly : NodeImpl → Bool} {tm : TreeModel}
    {r : RangeImpl} {ec : ExceptionCode} {res : ContentsResult}
    (h : r.extractContents (extractContentsRest isReadOnly) tm ec = some res)
    (hec : ec ≠ BAD_BOUNDARYPOINTS_ERR) : res.2.2.1 ≠ BAD_BOUNDARYPOINTS_ERR := by
  unfold RangeImpl.extractContents at h
  split at h
  · simp only [Option.some.injEq] at h
    subst h
    exact invalidState_ne_bad
  · simp only [extractContentsRest, Option.bind_eq_some] at h
    obtain ⟨ec1, h1, h⟩ := h
    have := checkDeleteExtract_noBad h1 hec
    split at h
    · simp only [Option.some.injEq] at h
      subst h
      exact this
    · exact processContents_noBad h this

theorem checkNodeWOffset_noBad {tm : TreeModel} {n : Ptr} {o : Int} {ec e : ExceptionCode}
    (h : checkNodeWOffset tm n o ec = some e) (hec : ec ≠ BAD_BOUNDARYPOINTS_ERR) :
    e ≠ BAD_BOUNDARYPOINTS_ERR := by
  have h1 : (if o < 0 then INDEX_SIZE_ERR else ec) ≠ BAD_BOUNDARYPOINTS_ERR := by
    split
    · exact indexSize_ne_bad
    · exact hec
  unfold checkNodeWOffset at h
  cases n with
  | none => simp at h
  | some m =>
    simp only [Option.bind_eq_some] at h
    obtain ⟨k, _, h⟩ := h
    split at h
    all_goals first
      | (simp only [Option.some.injEq] at h
         subst h
         exact invalidNodeType_ne_bad)
      | (simp only [Option.map_eq_some'] at h
         obtain ⟨len, _, rfl⟩ := h
         split
         · exact indexSize_ne_bad
         · exact h1)

theorem checkNodeBA_noBad {tm : TreeModel} {n : Ptr} {ec e : ExceptionCode}
    (h : checkNodeBA tm n ec = some e) (hec : ec ≠ BAD_BOUNDARYPOINTS_ERR) :
    e ≠ BAD_BOUNDARYPOINTS_ERR := by
  unfold checkNodeBA at h
  cases n with
  | none => simp at h
  | some m =>
    simp only [Option.bind_eq_some] at h
    obtain ⟨k, _, h⟩ := h
    split at h
    · simp only [Option.some.injEq] at h
      subst h
      exact invalidNodeType_ne_bad
    · simp only [Option.map_eq_some'] at h
      obtain ⟨k2, _, rfl⟩ := h
      split
      · exact invalidNodeType_ne_bad
      · exact hec

theorem setStart_noBad {tm : TreeModel} {r : RangeImpl} {n : Ptr} {o : Int}
    {ec : ExceptionCode} {res : RangeImpl × ExceptionCode}
    (h : r.setStart tm n o ec = some res) (hec : ec ≠ BAD_BOUNDARYPOINTS_ERR) :
    res.2 ≠ BAD_BOUNDARYPOINTS_ERR := by
  unfold RangeImpl.setStart at h
  split at h
  · simp only [Option.some.injEq] at h
    subst h
    exact invalidState_ne_bad
  · cases n with
    | none =>
      simp only [Option.some.injEq] at h
      subst h
      exact notFound_ne_bad
    | some m =>
      simp only [Option.bind_eq_some] at h
      obtain ⟨d, _, h⟩ := h
      split at h
      · simp only [Option.some.injEq] at h
        subst h
        exact wrongDocument_ne_bad
      · simp only [Option.bind_eq_some] at h
        obtain ⟨ec1, h1, h⟩ := h
        have h2 := checkNodeWOffset_noBad h1 hec
        split at h
        · simp only [Option.some.injEq] at h
          subst h
          exact h2
        · simp only [Option.bind_eq_some] at h
          obtain ⟨a, _, b, _, h⟩ := h
          split at h
          · simp only [Option.some.injEq] at h
            subst h
            exact collapse_noBad _ _ h2
          · simp only [Option.bind_eq_some] at h
            obtain ⟨c, _, h⟩ := h
            split at h
            · simp only [Option.some.injEq] at h
              subst h
              exact collapse_noBad _ _ h2
            · simp only [Option.some.injEq] at h
              subst h
              exact h2

theorem setEnd_noBad {tm : TreeModel} {r : RangeImpl} {n : Ptr} {o : Int}
    {ec : ExceptionCode} {res : RangeImpl × ExceptionCode}
    (h : r.setEnd tm n o ec = some res) (hec : ec ≠ BAD_BOUNDARYPOINTS_ERR) :
    res.2 ≠ BAD_BOUNDARYPOINTS_ERR := by
  unfold RangeImpl.setEnd at h
  split at h
  · simp only [Option.some.injEq] at h
    subst h
    exact invalidState_ne_bad
  · cases n with
    | none =>
      simp only [Option.some.injEq] at h
      subst h
      exact notFound_ne_bad
    | some m =>
      simp only [Option.bind_eq_some] at h
      obtain ⟨d, _, h⟩ := h
      split at h
      · simp only [Option.some.injEq] at h
        subst h
        exact wrongDocument_ne_bad
      · simp only [Option.bind_eq_some] at h
        obtain ⟨ec1, h1, h⟩ := h
        have h2 := checkNodeWOffset_noBad h1 hec
        split at h
        · simp only [Option.some.injEq] at h
          subst h
          exact h2
        · simp only [Option.bind_eq_some] at h
          obtain ⟨a, _, b, _, c, _, h⟩ := h
          have h3 : ∀ (x : RangeImpl × ExceptionCode),
              x = (if b ≠ a then
                  ({ r with m_endContainer := some m, m_endOffset := o } : RangeImpl).collapse
                    false ec1
                else (({ r with m_endContainer := some m, m_endOffset := o } : RangeImpl), ec1)) →
              x.2 ≠ BAD_BOUNDARYPOINTS_ERR := by
            intro x hx
            subst hx
            split
            · exact collapse_noBad _ _ h2
            · exact h2
          split at h
          · simp only [Option.some.injEq] at h
            subst h
            exact collapse_noBad _ _ (h3 _ rfl)
          · simp only [Option.some.injEq] at h
            subst h
            exact h3 _ rfl

theorem selectNode_noBad {tm : TreeModel} {r : RangeImpl} {n : Ptr}
    {ec : ExceptionCode} {res : RangeImpl × ExceptionCode}
    (h : r.selectNode tm n ec = some res) (hec : ec ≠ BAD_BOUNDARYPOINTS_ERR) :
    res.2 ≠ BAD_BOUNDARYPOINTS_ERR := by
  unfold RangeImpl.selectNode at h
  split at h
  · simp only [Option.some.injEq] at h
    subst h
    exact invalidState_ne_bad
  · cases n with
    | none =>
      simp only [Option.some.injEq] at h
      subst h
      exact notFound_ne_bad
    | some m =>
      simp only [Option.bind_eq_some] at h
      obtain ⟨bad, _, h⟩ := h
      split at h
      · simp only [Option.some.injEq] at h
        subst h
        exact invalidNodeType_ne_bad
      · simp only [Option.bind_eq_some] at h
        obtain ⟨k, _, h⟩ := h
        split at h
        · simp only [Option.some.injEq] at h
          subst h
          exact invalidNodeType_ne_bad
        · simp only [Option.bind_eq_some] at h
          obtain ⟨s1, hs1, h⟩ := h
          have h1 : s1.2 ≠ BAD_BOUNDARYPOINTS_ERR := by
            unfold RangeImpl.setStartBefore at hs1
            split at hs1
            · simp only [Option.some.injEq] at hs1
              subst hs1
              exact invalidState_ne_bad
            · simp only [Option.bind_eq_some] at hs1
              obtain ⟨d, _, hs1⟩ := hs1
              split at hs1
              · simp only [Option.some.injEq] at hs1
                subst hs1
                exact wrongDocument_ne_bad
              · simp only [Option.bind_eq_some] at hs1
                obtain ⟨e1, he1, hs1⟩ := hs1
                have := checkNodeBA_noBad he1 hec
                split at hs1
                · simp only [Option.some.injEq] at hs1
                  subst hs1
                  exact this
                · exact setStart_noBad hs1 this
          split at h
          · simp only [Option.some.injEq] at h
            subst h
            exact h1
          · unfold RangeImpl.setEndAfter at h
            split at h
            · simp only [Option.some.injEq] at h
              subst h
              exact invalidState_ne_bad
            · simp only [Option.bind_eq_some] at h
              obtain ⟨d, _, h⟩ := h
              split at h
              · simp only [Option.some.injEq] at h
                subst h
                exact wrongDocument_ne_bad
              · simp only [Option.bind_eq_some] at h
                obtain ⟨e1, he1, h⟩ := h
                have := checkNodeBA_noBad he1 h1
                split at h
                · simp only [Option.some.injEq] at h
                  subst h
                  exact this
                · exact setEnd_noBad h this

theorem insertBefore_noBad {cta : Tree → NodeType → Bool} {tm : TreeModel} {parent : NodeImpl}
    {newChild refChild : Ptr} {ec : ExceptionCode}
    {res : TreeModel × ExceptionCode × (NodeImpl → NodeImpl)}
    (h : insertBefore cta tm parent newChild refChild ec = some res)
    (hec : ec ≠ BAD_BOUNDARYPOINTS_ERR) : res.2.1 ≠ BAD_BOUNDARYPOINTS_ERR := by
  unfold insertBefore at h
  cases newChild with
  | none =>
    simp only [Option.some.injEq] at h
    subst h
    exact notFound_ne_bad
  | some n =>
    simp only [Option.bind_eq_some] at h
    obtain ⟨tp, _, tn, _, h⟩ := h
    split at h
    · simp only [Option.some.injEq] at h
      subst h
      exact hierarchy_ne_bad
    · split at h
      · simp only [Option.some.injEq] at h
        subst h
        exact hierarchy_ne_bad
      · split at h
        · simp only [Option.some.injEq] at h
          subst h
          exact notFound_ne_bad
        · split at h
          · simp only [Option.some.injEq] at h
            subst h
            exact hec
          · split at h
            · simp only [Option.bind_eq_some, Option.map_eq_some'] at h
              obtain ⟨tm1, _, tp1, _, tm2, _, rfl⟩ := h
              exact hec
            · simp only [Option.bind_eq_some, Option.map_eq_some'] at h
              obtain ⟨d, _, tp1, _, tm2, _, rfl⟩ := h
              exact hec

theorem splitText_noBad {tm : TreeModel} {n : NodeImpl} {o : Nat} {ec : ExceptionCode}
    {res : TreeModel × Ptr × ExceptionCode × (NodeImpl → NodeImpl)}
    (h : splitText tm n o ec = some res)
    (hec : ec ≠ BAD_BOUNDARYPOINTS_ERR) : res.2.2.1 ≠ BAD_BOUNDARYPOINTS_ERR := by
  unfold splitText at h
  simp only [Option.bind_eq_some] at h
  obtain ⟨t, _, h⟩ := h
  split at h
  · simp only [Option.some.injEq] at h
    subst h
    exact indexSize_ne_bad
  · cases n with
    | root k =>
      simp only [Option.bind_eq_some, Option.map_eq_some'] at h
      obtain ⟨doc, _, tm1, _, rfl⟩ := h
      exact hec
    | child p j =>
      simp only [Option.bind_eq_some, Option.map_eq_some'] at h
      obtain ⟨tp, _, tm1, _, rfl⟩ := h
      exact hec

theorem insertNodeChecks_noBad {cta : Tree → NodeType → Bool} {tm : TreeModel}
    {n sc : NodeImpl} {e : ExceptionCode}
    (h : insertNodeChecks cta tm n sc = some (some e)) : e ≠ BAD_BOUNDARYPOINTS_ERR := by
  unfold insertNodeChecks at h
  simp only [Option.bind_eq_some] at h
  obtain ⟨dn, _, ds, _, h⟩ := h
  split at h
  · simp only [Option.some.injEq] at h
    subst h
    exact wrongDocument_ne_bad
  · simp only [Option.bind_eq_some] at h
    obtain ⟨ts, _, h⟩ := h
    split at h
    · simp only [Option.some.injEq] at h
      subst h
      exact hierarchy_ne_bad
    · simp only [Option.bind_eq_some, Option.map_eq_some'] at h
      obtain ⟨ca, _, tn, _, h⟩ := h
      split at h
      · simp only [Option.some.injEq] at h
        subst h
        exact hierarchy_ne_bad
      · split at h
        · simp only [Option.some.injEq] at h
          subst h
          exact hierarchy_ne_bad
        · split at h
          · simp only [Option.some.injEq] at h
            subst h
            exact invalidNodeType_ne_bad
          · simp at h

theorem insertNodePlace_noBad {cta : Tree → NodeType → Bool}
    {tm : TreeModel} {r : RangeImpl} {n sc : NodeImpl} {ec : ExceptionCode}
    {res : TreeModel × RangeImpl × ExceptionCode × (NodeImpl → NodeImpl)}
    (h : insertNodePlace cta tm r n sc ec = some res)
    (hec : ec ≠ BAD_BOUNDARYPOINTS_ERR) : res.2.2.1 ≠ BAD_BOUNDARYPOINTS_ERR := by
  unfold insertNodePlace at h
  simp only [Option.bind_eq_some] at h
  obtain ⟨ts, _, h⟩ := h
  split at h
  · simp only [Option.bind_eq_some] at h
    obtain ⟨sp, hsp, h⟩ := h
    have h1 := splitText_noBad hsp hec
    split at h
    · simp only [Option.some.injEq] at h
      subst h
      exact h1
    · split at h
      · simp at h
      · simp only [Option.map_eq_some'] at h
        obtain ⟨ib, hib, rfl⟩ := h
        exact insertBefore_noBad hib h1
  · simp only [Option.bind_eq_some, Option.map_eq_some'] at h
    obtain ⟨ref, _, ib, hib, rfl⟩ := h
    exact insertBefore_noBad hib hec

theorem insertNodeCore_noBad {iro : NodeImpl → Bool} {cta : Tree → NodeType → Bool}
    {tm : TreeModel} {r : RangeImpl} {newNode : Ptr} {ec : ExceptionCode}
    {res : TreeModel × RangeImpl × ExceptionCode × (NodeImpl → NodeImpl)}
    (h : insertNodeCore iro cta tm r newNode ec = some res)
    (hec : ec ≠ BAD_BOUNDARYPOINTS_ERR) : res.2.2.1 ≠ BAD_BOUNDARYPOINTS_ERR := by
  unfold insertNodeCore at h
  split at h
  · simp only [Option.some.injEq] at h
    subst h
    exact noModification_ne_bad
  · cases newNode with
    | none => simp at h
    | some n =>
      cases hs : r.m_startContainer with
      | none => simp [hs] at h
      | some sc =>
        simp only [hs, Option.bind_eq_some] at h
        obtain ⟨c, hc, h⟩ := h
        cases c with
        | some e =>
          simp only [Option.some.injEq] at h
          subst h
          exact insertNodeChecks_noBad hc
        | none => exact insertNodePlace_noBad h hec

theorem insertNodeMoved_noBad {iro : NodeImpl → Bool} {cta : Tree → NodeType → Bool}
    {tm : TreeModel} {r : RangeImpl} {newNode : Ptr} {ec : ExceptionCode}
    {res : TreeModel × RangeImpl × ExceptionCode × (NodeImpl → NodeImpl)}
    (h : insertNodeMoved iro cta tm r newNode ec = some res)
    (hec : ec ≠ BAD_BOUNDARYPOINTS_ERR) : res.2.2.1 ≠ BAD_BOUNDARYPOINTS_ERR := by
  unfold insertNodeMoved at h
  split at h
  · simp only [Option.some.injEq] at h
    subst h
    exact invalidState_ne_bad
  · exact insertNodeCore_noBad h hec

theorem surroundContentsMove_noBad {iro : NodeImpl → Bool} {cta : Tree → NodeType → Bool}
    {pae : TreeModel → RangeImpl → Nat → NodeImpl → Option NodeImpl}
    {tm : TreeModel} {r : RangeImpl} {np : NodeImpl} {ec : ExceptionCode}
    {res : TreeModel × RangeImpl × ExceptionCode}
    (h : surroundContentsMove iro cta pae tm r np ec = some res)
    (hec : ec ≠ BAD_BOUNDARYPOINTS_ERR) : res.2.2 ≠ BAD_BOUNDARYPOINTS_ERR := by
  unfold surroundContentsMove at h
  obtain ⟨cnt, _, h⟩ := Option.bind_eq_some.mp h
  obtain ⟨rc, _, h⟩ := Option.bind_eq_some.mp h
  split at h
  · simp only [Option.some.injEq] at h
    subst h
    exact hec
  · obtain ⟨ex, hex, h⟩ := Option.bind_eq_some.mp h
    have h1 := extractContents_noBad hex hec
    split at h
    · simp only [Option.some.injEq] at h
      subst h
      exact h1
    · obtain ⟨np2, _, h⟩ := Option.bind_eq_some.mp h
      obtain ⟨ins, hins, h⟩ := Option.bind_eq_some.mp h
      have h2 := insertNodeMoved_noBad hins h1
      split at h
      · simp only [Option.some.injEq] at h
        subst h
        exact h2
      · obtain ⟨ap, hap, h⟩ := Option.bind_eq_some.mp h
        have h3 := insertBefore_noBad hap h2
        split at h
        · simp only [Option.some.injEq] at h
          subst h
          exact h3
        · obtain ⟨s1, hs1, h⟩ := Option.map_eq_some'.mp h
          subst h
          exact selectNode_noBad hs1 h3

theorem partiallySelectsNonText_eq {tm : TreeModel} {r : RangeImpl} {sc e : NodeImpl}
    {ts te : Tree} (hsc : r.m_startContainer = some sc) (he : r.m_endContainer = some e)
    (hts : tm.node sc = some ts) (hte : tm.node e = some te) :
    partiallySelectsNonText tm r = some (decide
      ((isCharacterLike ts.nodeType = false ∧ 0 < r.m_startOffset ∧
          r.m_startOffset < (ts.children.length : Int)) ∨
        (isCharacterLike te.nodeType = false ∧ 0 < r.m_endOffset ∧
          r.m_endOffset < (te.children.length : Int)))) := by
  simp only [partiallySelectsNonText, hsc, he, offsetInCharacters, nodeType, hts, hte,
    childNodeCount, Option.map_some', Option.some_bind, gt_iff_lt]
  by_cases h1 : isCharacterLike ts.nodeType = false ∧ 0 < r.m_startOffset ∧
      r.m_startOffset < (ts.children.length : Int)
  · simp [h1]
  · simp [h1]

/-- C24. The boundary check of `surroundContents`.  For a range that is not
detached and a `newParent` that passes the checks on its kind, on read-only
containers, on the owner document and on the hierarchy, `surroundContents` ends
with `BAD_BOUNDARYPOINTS_ERR` exactly when the start container is not character-like
and the start offset lies strictly between 0 and its number of children, or the
same holds for the end container and the end offset; and then the forest (the
tree and the children of `newParent`) and the range are as they were.  `ec` is
the code that the variable of the caller holds on entry; `placeAfterExtract` is
the parameter of `extractRelocate`, and the statement holds for each value of it. -/
theorem surroundContents_boundary_check (isReadOnly : NodeImpl → Bool)
    (childTypeAllowed : Tree → NodeType → Bool)
    (placeAfterExtract : TreeModel → RangeImpl → Nat → NodeImpl → Option NodeImpl)
    (tm : TreeModel) (r : RangeImpl)
    (np sc e : NodeImpl) (tnp ts te : Tree) (ec : ExceptionCode)
    (hdet : r.m_detached = false) (hec : ec ≠ BAD_BOUNDARYPOINTS_ERR)
    (hsc : r.m_startContainer = some sc) (he : r.m_endContainer = some e)
    (hts : tm.node sc = some ts) (hte : tm.node e = some te) (hnp : tm.node np = some tnp)
    (hkind : ¬ (tnp.nodeType = .ATTRIBUTE_NODE ∨ tnp.nodeType = .ENTITY_NODE ∨
      tnp.nodeType = .NOTATION_NODE ∨ tnp.nodeType = .DOCUMENT_TYPE_NODE ∨
      tnp.nodeType = .DOCUMENT_NODE ∨ tnp.nodeType = .DOCUMENT_FRAGMENT_NODE))
    (hro : r.containedByReadOnly isReadOnly = false)
    (hdoc : getDocument tm np = getDocument tm sc)
    (hallowed : childTypeAllowed ts tnp.nodeType = true) (hanc : np ∉ sc.ancestors) :
    ((∃ tm1 r1, r.surroundContents
          (surroundContentsRest isReadOnly childTypeAllowed placeAfterExtract) tm
          (some np) ec = some (tm1, r1, BAD_BOUNDARYPOINTS_ERR)) ↔
      ((isCharacterLike ts.nodeType = false ∧ 0 < r.m_startOffset ∧
          r.m_startOffset < (ts.children.length : Int)) ∨
        (isCharacterLike te.nodeType = false ∧ 0 < r.m_endOffset ∧
          r.m_endOffset < (te.children.length : Int)))) ∧
    (((isCharacterLike ts.nodeType = false ∧ 0 < r.m_startOffset ∧
          r.m_startOffset < (ts.children.length : Int)) ∨
        (isCharacterLike te.nodeType = false ∧ 0 < r.m_endOffset ∧
          r.m_endOffset < (te.children.length : Int))) →
      r.surroundContents (surroundContentsRest isReadOnly childTypeAllowed placeAfterExtract)
        tm (some np) ec = some (tm, r, BAD_BOUNDARYPOINTS_ERR)) := by
  obtain ⟨ds, hds⟩ := getDocument_some_of_valid (valid_iff.mpr ⟨ts, hts⟩)
  have hdn : getDocument tm np = some ds := hdoc.trans hds
  have hrun : r.surroundContents
      (surroundContentsRest isReadOnly childTypeAllowed placeAfterExtract) tm (some np) ec =
      if ((isCharacterLike ts.nodeType = false ∧ 0 < r.m_startOffset ∧
          r.m_startOffset < (ts.children.length : Int)) ∨
        (isCharacterLike te.nodeType = false ∧ 0 < r.m_endOffset ∧
          r.m_endOffset < (te.children.length : Int))) then
        some (tm, r, BAD_BOUNDARYPOINTS_ERR)
      else surroundContentsMove isReadOnly childTypeAllowed placeAfterExtract tm r np ec := by
    simp only [RangeImpl.surroundContents, hdet, Bool.false_eq_true, if_false,
      surroundContentsRest, hnp, Option.some_bind, hkind, hro, hsc, hdn, hds, ne_eq,
      not_true_eq_false, hts, hallowed, hanc, Bool.true_eq_false, partiallySelectsNonText_eq hsc he hts hte,
      decide_eq_true_eq]
  refine ⟨⟨?_, ?_⟩, ?_⟩
  · rintro ⟨tm1, r1, h⟩
    by_contra hc
    rw [hrun, if_neg hc] at h
    exact surroundContentsMove_noBad h hec rfl
  · intro hc
    exact ⟨tm, r, by rw [hrun, if_pos hc]⟩
  · intro hc
    rw [hrun, if_pos hc]

theorem surroundContents_boundary_check_witness :
    surroundPartialRange.surroundContents
      (surroundContentsRest noneReadOnly domChildTypeAllowed placeNotConsulted)
      surroundModel (some (.root 1)) 0
        = some (surroundModel, surroundPartialRange, BAD_BOUNDARYPOINTS_ERR) :=
  (surroundContents_boundary_check noneReadOnly domChildTypeAllowed placeNotConsulted
    surroundModel
    surroundPartialRange (.root 1) surroundDiv surroundDiv
    (.mk .ELEMENT_NODE [115] [ .mk .COMMENT_NODE [111] [] ])
    (.mk .ELEMENT_NODE [100]
      [ .mk .ELEMENT_NODE [98] [ .mk .TEXT_NODE [120] [] ],
        .mk .ELEMENT_NODE [105] [ .mk .TEXT_NODE [121] [] ] ])
    (.mk .ELEMENT_NODE [100]
      [ .mk .ELEMENT_NODE [98] [ .mk .TEXT_NODE [120] [] ],
        .mk .ELEMENT_NODE [105] [ .mk .TEXT_NODE [121] [] ] ])
    0 rfl (by decide) rfl rfl rfl rfl rfl (by decide) rfl rfl rfl (by decide)).2
    (Or.inl ⟨rfl, by decide, by decide⟩)

/-! ## The relocation of an insertion -/

theorem relocateInsert_child_same (p : NodeImpl) (a c i : Nat) :
    relocateInsert p a c (.child p i) = .child p (if a ≤ i then i + c else i) := by
  simp [relocateInsert]

theorem relocateInsert_child_ne (p : NodeImpl) (a c : Nat) {q : NodeImpl} (i : Nat)
    (h : q ≠ p) : relocateInsert p a c (.child q i) = .child (relocateInsert p a c q) i := by
  simp [relocateInsert, h]

theorem relocateInsert_of_depth_le (p : NodeImpl) (a c : Nat) {q : NodeImpl}
    (h : q.depth ≤ p.depth) : relocateInsert p a c q = q := by
  induction q with
  | root k => rfl
  | child x i ih =>
    simp only [NodeImpl.depth] at h
    have hne : x ≠ p := by
      intro hap
      subst hap
      omega
    simp [relocateInsert, hne, ih (by omega)]

theorem relocateInsert_self (p : NodeImpl) (a c : Nat) : relocateInsert p a c p = p :=
  relocateInsert_of_depth_le p a c (le_refl _)

theorem depth_relocateInsert (p : NodeImpl) (a c : Nat) (q : NodeImpl) :
    (relocateInsert p a c q).depth = q.depth := by
  induction q with
  | root k => rfl
  | child x i ih =>
    by_cases hx : x = p
    · subst hx
      simp [relocateInsert, NodeImpl.depth]
    · simp [relocateInsert, hx, NodeImpl.depth, ih]

theorem relocateInsert_eq_self {p : NodeImpl} {a c : Nat} {q : NodeImpl}
    (h : relocateInsert p a c q = p) : q = p := by
  have hd := depth_relocateInsert p a c q
  rw [h] at hd
  rw [relocateInsert_of_depth_le p a c (le_of_eq hd.symm)] at h
  exact h

theorem relocateInsert_injective (p : NodeImpl) (a c : Nat) :
    ∀ (x y : NodeImpl), relocateInsert p a c x = relocateInsert p a c y → x = y := by
  intro x
  induction x with
  | root t =>
    intro y h
    cases y with
    | root u => simpa [relocateInsert] using h
    | child q i =>
      by_cases hq : q = p
      · subst hq
        simp [relocateInsert] at h
      · simp [relocateInsert, hq] at h
  | child x0 i ih =>
    intro y h
    cases y with
    | root u =>
      by_cases hx : x0 = p
      · subst hx
        simp [relocateInsert] at h
      · simp [relocateInsert, hx] at h
    | child q k =>
      by_cases hx : x0 = p
      · subst hx
        by_cases hq : q = x0
        · subst hq
          simp only [relocateInsert_child_same, NodeImpl.child.injEq, true_and] at h
          congr 1
          split_ifs at h <;> omega
        · rw [relocateInsert_child_same, relocateInsert_child_ne _ _ _ _ hq] at h
          simp only [NodeImpl.child.injEq] at h
          exact absurd (relocateInsert_eq_self h.1.symm) hq
      · by_cases hq : q = p
        · subst hq
          rw [relocateInsert_child_same, relocateInsert_child_ne _ _ _ _ hx] at h
          simp only [NodeImpl.child.injEq] at h
          exact absurd (relocateInsert_eq_self h.1) hx
        · rw [relocateInsert_child_ne _ _ _ _ hx, relocateInsert_child_ne _ _ _ _ hq] at h
          simp only [NodeImpl.child.injEq] at h
          rw [ih q h.1, h.2]

/-- No node is moved to the place of the first of the nodes that are put in. -/
theorem relocateInsert_ne_slot (p : NodeImpl) (a c : Nat) (hc : 0 < c) (x : NodeImpl) :
    relocateInsert p a c x ≠ .child p a := by
  intro h
  cases x with
  | root t => simp [relocateInsert] at h
  | child q i =>
    by_cases hq : q = p
    · subst hq
      simp only [relocateInsert_child_same, NodeImpl.child.injEq, true_and] at h
      split_ifs at h <;> omega
    · rw [relocateInsert_child_ne _ _ _ _ hq] at h
      simp only [NodeImpl.child.injEq] at h
      exact hq (relocateInsert_eq_self h.1)

/-- A place below a node without children holds no node. -/
theorem node_below_leaf {tm : TreeModel} {y : NodeImpl} {Y : Tree} (hy : tm.node y = some Y)
    (hleaf : Y.children = []) {x : NodeImpl} (hx : y ∈ x.ancestors) (hne : x ≠ y) :
    tm.node x = none := by
  induction x with
  | root t =>
    simp only [NodeImpl.ancestors, List.mem_singleton] at hx
    exact absurd hx.symm hne
  | child a i ih =>
    rcases mem_ancestors_child.mp hx with h | h
    · exact absurd h.symm hne
    · by_cases ha : a = y
      · subst ha
        simp [TreeModel.node, hy, hleaf]
      · simp [TreeModel.node, ih h ha]

theorem relocate_child_same (p : NodeImpl) (j i : Nat) :
    relocate p j (.child p i) = .child p (if j < i then i - 1 else i) := by
  simp [relocate]

theorem relocate_child_ne (p : NodeImpl) (j : Nat) {q : NodeImpl} (i : Nat) (h : q ≠ p) :
    relocate p j (.child q i) = .child (relocate p j q) i := by
  simp [relocate, h]

theorem getElem?_insert_lt {α : Type} (L X : List α) {a i : Nat} (hi : i < a)
    (ha : a ≤ L.length) : (L.take a ++ X ++ L.drop a)[i]? = L[i]? := by
  rw [List.append_assoc, List.getElem?_append_left (by simp; omega)]
  exact List.getElem?_take_of_lt hi

theorem getElem?_insert_mid {α : Type} (L X : List α) {a : Nat} (i : Nat) (ha : a ≤ L.length)
    (hi : i < X.length) : (L.take a ++ X ++ L.drop a)[a + i]? = X[i]? := by
  rw [List.append_assoc, List.getElem?_append_right (by simp)]
  simp only [List.length_take, Nat.min_eq_left ha, Nat.add_sub_cancel_left]
  rw [List.getElem?_append_left hi]

theorem getElem?_insert_ge {α : Type} (L X : List α) {a i : Nat} (hi : a ≤ i)
    (ha : a ≤ L.length) : (L.take a ++ X ++ L.drop a)[i + X.length]? = L[i]? := by
  rw [List.append_assoc, List.getElem?_append_right (by simp; omega)]
  simp only [List.length_take, Nat.min_eq_left ha]
  rw [List.getElem?_append_right (by omega), List.getElem?_drop]
  congr 1
  omega

theorem getElem?_eraseIdx_other {α : Type} (L : List α) {j i : Nat} (h : i ≠ j) :
    (L.eraseIdx j)[if j < i then i - 1 else i]? = L[i]? := by
  rw [List.getElem?_eraseIdx]
  split_ifs <;> first | rfl | (congr 1; omega)

/-- The child list after `splitText`: the two halves stand where the node stood. -/
theorem getElem?_split {α : Type} (L : List α) {j : Nat} (hj : j < L.length) (x y : α) :
    (L.take j ++ [x, y] ++ L.drop (j + 1))[j]? = some x ∧
    (L.take j ++ [x, y] ++ L.drop (j + 1))[j + 1]? = some y ∧
    ∀ i, i ≠ j → (L.take j ++ [x, y] ++ L.drop (j + 1))[if j + 1 ≤ i then i + 1 else i]?
      = L[i]? := by
  have hlen : (L.take j).length = j := by simp; omega
  refine ⟨?_, ?_, ?_⟩
  · rw [List.append_assoc, List.getElem?_append_right (by omega)]
    simp [hlen]
  · rw [List.append_assoc, List.getElem?_append_right (by omega)]
    simp [hlen]
  · intro i hi
    by_cases h : j + 1 ≤ i
    · simp only [h, if_true]
      rw [List.getElem?_append_right (by simp; omega), List.getElem?_drop]
      congr 1
      simp
      omega
    · simp only [h, if_false]
      rw [List.append_assoc, List.getElem?_append_left (by omega)]
      exact List.getElem?_take_of_lt (by omega)

theorem splitText_child {tm : TreeModel} {p : NodeImpl} {j : Nat} {P T : Tree}
    (hp : tm.node p = some P) (hT : P.children[j]? = some T) (k : Nat) (ec : ExceptionCode) :
    splitText tm (.child p j) k ec =
      if k > T.data.length then some (tm, none, INDEX_SIZE_ERR, id)
      else
        (tm.replace p (P.withChildren (P.children.take j ++
            [T.withData (T.data.take k), .mk T.nodeType (T.data.drop k) []] ++
            P.children.drop (j + 1)))).map fun tm1 =>
          (tm1, some (.child p (j + 1)), ec, relocateInsert p (j + 1) 1) := by
  simp [splitText, TreeModel.node, hp, hT]

/-! ## `insertNode` at a text container -/

theorem insertNodeChecks_none {cta : Tree → NodeType → Bool} {tm : TreeModel} {n sc : NodeImpl}
    (h : insertNodeChecks cta tm n sc = some none) : n ∉ sc.ancestors := by
  unfold insertNodeChecks at h
  simp only [Option.bind_eq_some] at h
  obtain ⟨dn, _, ds, _, h⟩ := h
  split at h
  · simp at h
  · simp only [Option.bind_eq_some] at h
    obtain ⟨ts, _, h⟩ := h
    split at h
    · simp at h
    · simp only [Option.bind_eq_some, Option.map_eq_some'] at h
      obtain ⟨ca, _, tn, _, h⟩ := h
      split at h
      · simp at h
      · split at h
        · simp at h
        · assumption

theorem insertNodeChecks_code {cta : Tree → NodeType → Bool} {tm : TreeModel} {n sc : NodeImpl}
    {e : ExceptionCode} (h : insertNodeChecks cta tm n sc = some (some e)) : e ≠ 0 := by
  unfold insertNodeChecks at h
  simp only [Option.bind_eq_some] at h
  obtain ⟨dn, _, ds, _, h⟩ := h
  split at h
  · simp only [Option.some.injEq] at h
    subst h
    decide
  · simp only [Option.bind_eq_some] at h
    obtain ⟨ts, _, h⟩ := h
    split at h
    · simp only [Option.some.injEq] at h
      subst h
      decide
    · simp only [Option.bind_eq_some, Option.map_eq_some'] at h
      obtain ⟨ca, _, tn, _, h⟩ := h
      split at h
      · simp only [Option.some.injEq] at h
        subst h
        decide
      · split at h
        · simp only [Option.some.injEq] at h
          subst h
          decide
        · split at h
          · simp only [Option.some.injEq] at h
            subst h
            decide
          · simp at h

/-- What a run of `insertNode` without error at a text container consists of. -/
theorem insertNode_text_inv {iro : NodeImpl → Bool} {cta : Tree → NodeType → Bool}
    {tm tm1 : TreeModel} {r r1 : RangeImpl} {n p : NodeImpl} {j : Nat} {P T : Tree}
    {ec : ExceptionCode}
    (hsc : r.m_startContainer = some (.child p j)) (hp : tm.node p = some P)
    (hT : P.children[j]? = some T)
    (hk : T.nodeType = .TEXT_NODE ∨ T.nodeType = .CDATA_SECTION_NODE)
    (hrun : r.insertNode (insertNodeRest iro cta) tm (some n) ec = some (tm1, r1, 0)) :
    n ∉ (NodeImpl.child p j).ancestors ∧ toUnsigned r.m_startOffset ≤ T.data.length ∧
    ∃ tmS ρ, tm.replace p (P.withChildren (P.children.take j ++
        [T.withData (T.data.take (toUnsigned r.m_startOffset)),
          .mk T.nodeType (T.data.drop (toUnsigned r.m_startOffset)) []] ++
        P.children.drop (j + 1))) = some tmS ∧
      insertBefore cta tmS p (some (relocateInsert p (j + 1) 1 n)) (some (.child p (j + 1))) 0
        = some (tm1, 0, ρ) ∧
      r1 = r.relocate (ρ ∘ relocateInsert p (j + 1) 1) ∧
      insertNodeMoved iro cta tm r (some n) ec
        = some (tm1, r1, 0, ρ ∘ relocateInsert p (j + 1) 1) := by
  have ht : tm.node (.child p j) = some T := by simp [TreeModel.node, hp, hT]
  unfold RangeImpl.insertNode at hrun
  split at hrun
  · simp only [Option.some.injEq, Prod.mk.injEq] at hrun
    exact absurd hrun.2.2 (by decide)
  · rename_i hdet
    simp only [insertNodeRest, Option.map_eq_some'] at hrun
    obtain ⟨x, hx, hxe⟩ := hrun
    have hmoved : insertNodeMoved iro cta tm r (some n) ec = some x := by
      simp [insertNodeMoved, hdet, hx]
    unfold insertNodeCore at hx
    split at hx
    · simp only [Option.some.injEq] at hx
      subst hx
      simp only [Prod.mk.injEq] at hxe
      exact absurd hxe.2.2 (by decide)
    · simp only [hsc, Option.bind_eq_some] at hx
      obtain ⟨c, hc, hx⟩ := hx
      cases c with
      | some e =>
        simp only [Option.some.injEq] at hx
        subst hx
        simp only [Prod.mk.injEq] at hxe
        exact absurd hxe.2.2 (insertNodeChecks_code hc)
      | none =>
        refine ⟨insertNodeChecks_none hc, ?_⟩
        simp only [insertNodePlace, ht, Option.some_bind, hk, if_true,
          splitText_child hp hT] at hx
        split at hx
        · simp only [Option.some_bind, ne_eq] at hx
          rw [if_pos (by decide)] at hx
          simp only [Option.some.injEq] at hx
          subst hx
          simp only [Prod.mk.injEq] at hxe
          exact absurd hxe.2.2 (by decide)
        · rename_i hle
          refine ⟨by omega, ?_⟩
          simp only [Option.bind_eq_some, Option.map_eq_some'] at hx
          obtain ⟨sp, ⟨tmS, hS, rfl⟩, hx⟩ := hx
          simp only at hx
          split at hx
          · simp only [Option.some.injEq] at hx
            subst hx
            simp only [Prod.mk.injEq] at hxe
            rename_i hne
            exact absurd hxe.2.2 hne
          · rename_i hec0
            have hec : ec = 0 := by simpa using hec0
            subst hec
            simp only [relocateInsert_child_same, NodeImpl.parentNode,
              Option.map_eq_some'] at hx
            obtain ⟨ib, hib, rfl⟩ := hx
            simp only [Prod.mk.injEq] at hxe
            obtain ⟨h1, h2, h3⟩ := hxe
            subst h1
            refine ⟨tmS, ib.2.2, hS, ?_, h2.symm, ?_⟩
            · rw [hib]
              obtain ⟨a, b, c⟩ := ib
              simp only at h3
              subst h3
              rfl
            · rw [hmoved]
              simp only [Option.some.injEq, Prod.mk.injEq, true_and]
              exact ⟨h2, h3, trivial⟩

/-- What a run of `insertBefore` without error consists of, for a reference child
other than the new child. -/
theorem insertBefore_inv {cta : Tree → NodeType → Bool} {tm tm1 : TreeModel}
    {p n : NodeImpl} {a : Nat} {ρ : NodeImpl → NodeImpl}
    (h : insertBefore cta tm p (some n) (some (.child p a)) 0 = some (tm1, 0, ρ))
    (hne : n ≠ .child p a) :
    n ∉ p.ancestors ∧ ∃ N, tm.node n = some N ∧
      ((N.nodeType = .DOCUMENT_FRAGMENT_NODE ∧ ∃ tmE PE,
          tm.replace n (N.withChildren []) = some tmE ∧ tmE.node p = some PE ∧
          tmE.replace p (PE.withChildren
            (PE.children.take a ++ N.children ++ PE.children.drop a)) = some tm1 ∧
          ρ = fun x =>
            if n ∈ x.ancestors ∧ x ≠ n then rebaseChildren n p a x
            else relocateInsert p a N.children.length x) ∨
       (N.nodeType ≠ .DOCUMENT_FRAGMENT_NODE ∧ ∃ d PE,
          takeOut tm n = some d ∧ d.1.node (d.2.2 p) = some PE ∧
          d.1.replace (d.2.2 p) (PE.withChildren
            (PE.children.take (d.2.2 (.child p a)).nodeIndex ++ [d.2.1] ++
              PE.children.drop (d.2.2 (.child p a)).nodeIndex)) = some tm1 ∧
          ρ = fun x =>
            if n ∈ x.ancestors then
              rebase n (.child (d.2.2 p) (d.2.2 (.child p a)).nodeIndex) x
            else relocateInsert (d.2.2 p) (d.2.2 (.child p a)).nodeIndex 1 (d.2.2 x))) := by
  unfold insertBefore at h
  simp only [Option.bind_eq_some] at h
  obtain ⟨tp, htp, tn, htn, h⟩ := h
  split at h
  · simp only [Option.some.injEq, Prod.mk.injEq] at h
    exact absurd h.2.1 (by decide)
  · rename_i hanc
    refine ⟨hanc, tn, htn, ?_⟩
    split at h
    · simp only [Option.some.injEq, Prod.mk.injEq] at h
      exact absurd h.2.1 (by decide)
    · split at h
      · simp only [Option.some.injEq, Prod.mk.injEq] at h
        exact absurd h.2.1 (by decide)
      · split at h
        · rename_i heq
          simp only [Option.some.injEq] at heq
          exact absurd heq.symm hne
        · split at h
          · rename_i hfrag
            left
            simp only [NodeImpl.nodeIndex, Option.bind_eq_some, Option.map_eq_some'] at h
            obtain ⟨tmE, hE, PE, hPE, tm2, h2, h⟩ := h
            simp only [Prod.mk.injEq, true_and] at h
            obtain ⟨h3, h4⟩ := h
            subst h3
            exact ⟨hfrag, tmE, PE, hE, hPE, h2, h4.symm⟩
          · rename_i hfrag
            right
            simp only [Option.bind_eq_some, Option.map_eq_some'] at h
            obtain ⟨d, hd, PE, hPE, tm2, h2, h⟩ := h
            simp only [Prod.mk.injEq, true_and] at h
            obtain ⟨h3, h4⟩ := h
            subst h3
            exact ⟨hfrag, d, PE, hd, hPE, h2, h4.symm⟩

/-- What `takeOut` leaves of the children of a node `p` that is not below the node
taken out: they keep their order, and the ones without children keep their
value. -/
theorem takeOut_spec {tm : TreeModel} {n p : NodeImpl}
    {d : TreeModel × Tree × (NodeImpl → NodeImpl)} (hd : takeOut tm n = some d)
    {P N PE : Tree} (hp : tm.node p = some P) (hn : tm.node n = some N)
    (hnp : n ∉ p.ancestors) (hPE : d.1.node (d.2.2 p) = some PE) :
    d.2.1 = N ∧ ∃ g : Nat → Nat,
      (∀ x, .child p x ≠ n → d.2.2 (.child p x) = .child (d.2.2 p) (g x)) ∧
      (∀ x y, .child p x ≠ n → .child p y ≠ n → x < y → g x < g y) ∧
      (∀ x, .child p x ≠ n → .child p (x + 1) ≠ n → g (x + 1) = g x + 1) ∧
      (∀ x X, P.children[x]? = some X → X.children = [] → .child p x ≠ n →
        PE.children[g x]? = some X) := by
  cases n with
  | root t0 =>
    simp only [takeOut, hn, Option.some_bind, Option.map_eq_some'] at hd
    obtain ⟨tmE, hE, rfl⟩ := hd
    simp only [id] at hPE
    have hpe : tmE.node p = tm.node p :=
      replace_node_disjoint hE hnp (by
        intro h
        simp only [NodeImpl.ancestors, List.mem_singleton] at h
        exact hnp (h ▸ mem_ancestors_self _))
    rw [hpe, hp] at hPE
    cases Option.some.inj hPE
    exact ⟨rfl, id, fun x _ => rfl, fun x y _ _ h => h, fun x _ _ => rfl,
      fun x X hX _ _ => hX⟩
  | child q j1 =>
    simp only [takeOut, detachNode, Option.bind_eq_some, Option.map_eq_some'] at hd
    obtain ⟨Q, hQ, sub, hsub, tmE, hE, rfl⟩ := hd
    simp only at hPE ⊢
    have hsubN : sub = N := by
      have : tm.node (.child q j1) = some sub := by simp [TreeModel.node, hQ, hsub]
      rw [hn] at this
      exact (Option.some.inj this).symm
    refine ⟨hsubN, fun x => if q = p ∧ j1 < x then x - 1 else x, ?_, ?_, ?_, ?_⟩
    · intro x hx
      by_cases hqp : q = p
      · subst hqp
        rw [relocate_child_same, relocate_self]
        by_cases h : j1 < x <;> simp [h]
      · rw [relocate_child_ne _ _ _ (Ne.symm hqp)]
        simp [hqp]
    · intro x y hx hy hxy
      by_cases hqp : q = p
      · subst hqp
        have h1 : x ≠ j1 := fun h => hx (h ▸ rfl)
        have h2 : y ≠ j1 := fun h => hy (h ▸ rfl)
        simp only [true_and]
        split_ifs <;> omega
      · simpa [hqp] using hxy
    · intro x hx hx1
      by_cases hqp : q = p
      · subst hqp
        have h1 : x ≠ j1 := fun h => hx (h ▸ rfl)
        have h2 : x + 1 ≠ j1 := fun h => hx1 (h ▸ rfl)
        simp only [true_and]
        split_ifs <;> omega
      · simp [hqp]
    · intro x X hX hleaf hx
      have hy : tm.node (.child p x) = some X := by simp [TreeModel.node, hp, hX]
      have h1 : NodeImpl.child p x ∉ q.ancestors := by
        intro h
        have h2 : NodeImpl.child p x ∈ (NodeImpl.child q j1).ancestors :=
          mem_ancestors_child.mpr (Or.inr h)
        rw [node_below_leaf hy hleaf h2 (Ne.symm hx)] at hn
        exact absurd hn (by simp)
      have h3 := node_reindex hQ hE (relocate q j1) (fun i => if j1 < i then i - 1 else i)
        (fun i => relocate_child_same q j1 i) (fun a i ha => relocate_child_ne q j1 i ha)
        (fun t => rfl) (.child p x) h1 (by
          intro i hi
          have hij : i ≠ j1 := by
            intro he
            subst he
            rcases mem_ancestors_child.mp hi with h | h
            · exact hx h.symm
            · exact hnp h
          exact getElem?_eraseIdx_other _ hij)
      rw [hy] at h3
      by_cases hqp : q = p
      · subst hqp
        rw [relocate_child_same] at h3
        rw [relocate_self] at hPE
        simp only [TreeModel.node, hPE, Option.some_bind] at h3
        simpa using h3
      · rw [relocate_child_ne _ _ _ (Ne.symm hqp)] at h3
        simp only [TreeModel.node, hPE, Option.some_bind] at h3
        simpa [hqp] using h3

theorem insertedNodes_fragment {N : Tree} (h : N.nodeType = .DOCUMENT_FRAGMENT_NODE) :
    insertedNodes N = N.children := by
  simp [insertedNodes, h]

theorem insertedNodes_node {N : Tree} (h : N.nodeType ≠ .DOCUMENT_FRAGMENT_NODE) :
    insertedNodes N = [N] := by
  simp [insertedNodes, h]

theorem node_child_eq {tm : TreeModel} {p : NodeImpl} {P : Tree} (hp : tm.node p = some P)
    (i : Nat) : tm.node (.child p i) = P.children[i]? := by
  simp [TreeModel.node, hp]

/-- C23. `insertNode` into a text container.  For a range whose start container is a
text or CDATA node `t` with data `d`, child `j` of `p`, a run of `insertNode(n)` that
reports no error leaves `t` a child of `p` with the data `d` before the start offset;
the nodes put in, `n` itself or the children of the fragment `n` in their order,
are the next children of `p`; the child after them is a new node of the kind of
`t` with the rest of `d`; and the other children of `p` keep their relative
order, those before `t` before it and those after `t` after the new node.  `ρ` is
the relocation of the nodes, `f` gives the new indices of the other children of
`p`, and the start offset is read as `unsigned`, which is the offset itself for
every offset of a valid range. -/
theorem insertNode_into_text (isReadOnly : NodeImpl → Bool)
    (childTypeAllowed : Tree → NodeType → Bool) (tm tm1 : TreeModel) (r r1 : RangeImpl)
    (n p : NodeImpl) (j : Nat) (T N : Tree) (ec : ExceptionCode)
    (hwf : tm.wellFormed = true) (hsc : r.m_startContainer = some (.child p j))
    (ht : tm.node (.child p j) = some T)
    (hk : T.nodeType = .TEXT_NODE ∨ T.nodeType = .CDATA_SECTION_NODE)
    (hn : tm.node n = some N)
    (hrun : r.insertNode (insertNodeRest isReadOnly childTypeAllowed) tm (some n) ec
      = some (tm1, r1, 0)) :
    ∃ (ρ : NodeImpl → NodeImpl) (p1 : NodeImpl) (k1 : Nat) (f : Nat → Nat),
      insertNodeMoved isReadOnly childTypeAllowed tm r (some n) ec = some (tm1, r1, 0, ρ) ∧
      ρ p = p1 ∧ ρ (.child p j) = .child p1 k1 ∧
      r1.m_startContainer = some (.child p1 k1) ∧
      tm1.node (.child p1 k1)
        = some (T.withData (T.data.take (toUnsigned r.m_startOffset))) ∧
      (∀ i, i < (insertedNodes N).length →
        tm1.node (.child p1 (k1 + 1 + i)) = (insertedNodes N)[i]?) ∧
      tm1.node (.child p1 (k1 + 1 + (insertedNodes N).length))
        = some (.mk T.nodeType (T.data.drop (toUnsigned r.m_startOffset)) []) ∧
      (N.nodeType ≠ .DOCUMENT_FRAGMENT_NODE → ρ n = .child p1 (k1 + 1)) ∧
      (N.nodeType = .DOCUMENT_FRAGMENT_NODE → ∀ i, ρ (.child n i) = .child p1 (k1 + 1 + i)) ∧
      (∀ i, i ≠ j → .child p i ≠ n →
        ρ (.child p i) = .child p1 (f i) ∧ (i < j → f i < k1) ∧
          (j < i → k1 + 1 + (insertedNodes N).length < f i)) ∧
      (∀ i₁ i₂, i₁ ≠ j → i₂ ≠ j → .child p i₁ ≠ n → .child p i₂ ≠ n → i₁ < i₂ →
        f i₁ < f i₂) := by
  obtain ⟨P, hp, hT⟩ := node_child_some ht
  have hchar : isCharacterLike T.nodeType = true := by
    rcases hk with h | h <;> simp [h, isCharacterLike]
  have hleafT : T.children = [] := (Tree.wellFormed_children (wellFormed_node hwf ht)).2 hchar
  obtain ⟨hnt, hle, tmS, ρib, hS, hib, hr1, hmoved⟩ := insertNode_text_inv hsc hp hT hk hrun
  have hnne : n ≠ .child p j := fun h => hnt (h ▸ mem_ancestors_self _)
  have hnp : n ∉ p.ancestors := fun h => hnt (mem_ancestors_child.mpr (Or.inr h))
  have hnp2 : n ≠ p := fun h => hnp (h ▸ mem_ancestors_self _)
  have hslot := relocateInsert_ne_slot p (j + 1) 1 (by omega) n
  obtain ⟨hn1p, N1, hN1, hcases⟩ := insertBefore_inv hib hslot
  have hjlt : j < P.children.length := by
    by_contra hc
    rw [List.getElem?_eq_none (by omega)] at hT
    exact absurd hT (by simp)
  obtain ⟨hL0, hL1, hLo⟩ := getElem?_split P.children hjlt
    (T.withData (T.data.take (toUnsigned r.m_startOffset)))
    (.mk T.nodeType (T.data.drop (toUnsigned r.m_startOffset)) [])
  have hPS := replace_node_self hS
  -- the new node is the one given
  have hN1N : N1 = N := by
    have h := node_reindex hp hS (relocateInsert p (j + 1) 1)
      (fun i => if j + 1 ≤ i then i + 1 else i)
      (fun i => relocateInsert_child_same p (j + 1) 1 i)
      (fun q i hq => relocateInsert_child_ne p (j + 1) 1 i hq) (fun t => rfl) n hnp (by
        intro i hi
        have hij : i ≠ j := by
          intro he
          subst he
          rw [node_below_leaf ht hleafT hi hnne] at hn
          exact absurd hn (by simp)
        exact hLo i hij)
    rw [hN1, hn] at h
    exact Option.some.inj h
  subst hN1N
  have hσt : relocateInsert p (j + 1) 1 (.child p j) = .child p j := by
    rw [relocateInsert_child_same]
    simp
  have hσp : relocateInsert p (j + 1) 1 p = p := relocateInsert_self _ _ _
  have hn1t : relocateInsert p (j + 1) 1 n ≠ .child p j := by
    intro h
    rw [← hσt] at h
    exact hnne (relocateInsert_injective _ _ _ _ _ h)
  have hn1c : ∀ i, .child p i ≠ n →
      relocateInsert p (j + 1) 1 n ≠ .child p (if j + 1 ≤ i then i + 1 else i) := by
    intro i hi h
    rw [← relocateInsert_child_same] at h
    exact hi (relocateInsert_injective _ _ _ _ _ h).symm
  have hnotin : ∀ x, relocateInsert p (j + 1) 1 n ≠ .child p x →
      relocateInsert p (j + 1) 1 n ∉ (NodeImpl.child p x).ancestors := by
    intro x hx h
    rcases mem_ancestors_child.mp h with h | h
    · exact hx h
    · exact hn1p h
  have hr1s : r1.m_startContainer
      = some ((ρib ∘ relocateInsert p (j + 1) 1) (.child p j)) := by
    rw [hr1]
    simp [RangeImpl.relocate, hsc]
  have hT0leaf : (T.withData (T.data.take (toUnsigned r.m_startOffset))).children = [] := hleafT
  rcases hcases with ⟨hfrag, tmE, PE, hE, hPE, h2, hρ⟩ | ⟨hfrag, d, PE, hd, hPE, h2, hρ⟩
  · -- the children of a fragment are put in
    have hkeep : ∀ x X, (P.children.take j ++
          [T.withData (T.data.take (toUnsigned r.m_startOffset)),
            .mk T.nodeType (T.data.drop (toUnsigned r.m_startOffset)) []] ++
          P.children.drop (j + 1))[x]? = some X → X.children = [] →
        relocateInsert p (j + 1) 1 n ≠ .child p x → PE.children[x]? = some X := by
      intro x X hX hleaf hx
      have hxS : tmS.node (.child p x) = some X := by
        rw [node_child_eq hPS]
        exact hX
      have := replace_node_disjoint hE (hnotin x hx) (by
        intro h
        rw [node_below_leaf hxS hleaf h hx] at hN1
        exact absurd hN1 (by simp))
      rw [node_child_eq hPE, hxS] at this
      exact this
    have hE0 := hkeep j _ hL0 hT0leaf hn1t
    have hE1 := hkeep (j + 1) _ hL1 rfl hslot
    have ha : j + 1 ≤ PE.children.length := by
      by_contra hc
      rw [List.getElem?_eq_none (by omega)] at hE1
      exact absurd hE1 (by simp)
    have hP2 := replace_node_self h2
    rw [insertedNodes_fragment hfrag]
    subst hρ
    refine ⟨_, p, j, fun i => if j + 1 ≤ (if j + 1 ≤ i then i + 1 else i) then
        (if j + 1 ≤ i then i + 1 else i) + N1.children.length
      else (if j + 1 ≤ i then i + 1 else i), hmoved, ?_, ?_, ?_, ?_, ?_, ?_, ?_, ?_, ?_, ?_⟩
    · simp only [Function.comp, hσp]
      rw [if_neg (fun h => hn1p h.1), relocateInsert_self]
    · simp only [Function.comp, hσt]
      rw [if_neg (fun h => hnotin j hn1t h.1), relocateInsert_child_same]
      simp
    · rw [hr1s]
      simp only [Function.comp, hσt]
      rw [if_neg (fun h => hnotin j hn1t h.1), relocateInsert_child_same]
      simp
    · rw [node_child_eq hP2, Tree.withChildren_children,
        getElem?_insert_lt _ _ (by omega) ha]
      exact hE0
    · intro i hi
      rw [node_child_eq hP2, Tree.withChildren_children, Nat.add_assoc j 1 i,
        show j + (1 + i) = (j + 1) + i by omega, getElem?_insert_mid _ _ i ha hi]
    · rw [node_child_eq hP2, Tree.withChildren_children,
        getElem?_insert_ge _ _ (le_refl _) ha]
      exact hE1
    · intro h
      exact absurd hfrag h
    · intro _ i
      simp only [Function.comp]
      rw [relocateInsert_child_ne _ _ _ _ hnp2,
        if_pos ⟨mem_ancestors_child.mpr (Or.inr (mem_ancestors_self _)), by
          intro h
          have := congrArg NodeImpl.depth h
          simp [NodeImpl.depth] at this⟩]
      simp [rebaseChildren]
    · intro i hij hin
      refine ⟨?_, ?_, ?_⟩
      · simp only [Function.comp]
        rw [relocateInsert_child_same, if_neg (fun h => hnotin _ (hn1c i hin) h.1),
          relocateInsert_child_same]
      · intro h
        simp only
        split_ifs <;> omega
      · intro h
        simp only
        split_ifs <;> omega
    · intro i₁ i₂ _ _ _ _ h
      simp only
      split_ifs <;> omega
  · -- the node itself is put in
    obtain ⟨hsub, g, hg1, hg2, hg3, hg4⟩ := takeOut_spec hd hPS hN1 hn1p hPE
    have hE0 := hg4 j _ hL0 hT0leaf (Ne.symm hn1t)
    have hE1 := hg4 (j + 1) _ hL1 rfl (Ne.symm hslot)
    have hgj := hg3 j (Ne.symm hn1t) (Ne.symm hslot)
    have hidx : (d.2.2 (.child p (j + 1))).nodeIndex = g j + 1 := by
      rw [hg1 (j + 1) (Ne.symm hslot), hgj]
      rfl
    rw [hidx] at h2 hρ
    have ha : g j + 1 ≤ PE.children.length := by
      by_contra hc
      rw [hgj, List.getElem?_eq_none (by omega)] at hE1
      exact absurd hE1 (by simp)
    have hP2 := replace_node_self h2
    rw [insertedNodes_node hfrag]
    subst hρ
    refine ⟨_, d.2.2 p, g j, fun i => if g j + 1 ≤ g (if j + 1 ≤ i then i + 1 else i) then
        g (if j + 1 ≤ i then i + 1 else i) + 1
      else g (if j + 1 ≤ i then i + 1 else i), hmoved, ?_, ?_, ?_, ?_, ?_, ?_, ?_, ?_, ?_, ?_⟩
    · simp only [Function.comp, hσp]
      rw [if_neg hn1p, relocateInsert_self]
    · simp only [Function.comp, hσt]
      rw [if_neg (hnotin j hn1t), hg1 j (Ne.symm hn1t), relocateInsert_child_same]
      simp
    · rw [hr1s]
      simp only [Function.comp, hσt]
      rw [if_neg (hnotin j hn1t), hg1 j (Ne.symm hn1t), relocateInsert_child_same]
      simp
    · rw [node_child_eq hP2, Tree.withChildren_children,
        getElem?_insert_lt _ _ (by omega) ha]
      exact hE0
    · intro i hi
      simp only [List.length_singleton] at hi
      have hi0 : i = 0 := by omega
      subst hi0
      rw [node_child_eq hP2, Tree.withChildren_children]
      have := getElem?_insert_mid PE.children [d.2.1] 0 ha (by simp)
      simp only [Nat.add_zero] at this ⊢
      rw [this, hsub]
    · rw [node_child_eq hP2, Tree.withChildren_children]
      have := @getElem?_insert_ge _ PE.children [d.2.1] (g j + 1) (g j + 1) (le_refl _) ha
      simp only [List.length_singleton] at this ⊢
      rw [this, ← hgj]
      exact hE1
    · intro _
      simp only [Function.comp]
      rw [if_pos (mem_ancestors_self _)]
      cases hcase : relocateInsert p (j + 1) 1 n <;> simp [rebase]
    · intro h
      exact absurd h hfrag
    · intro i hij hin
      have hne := hn1c i hin
      refine ⟨?_, ?_, ?_⟩
      · simp only [Function.comp]
        rw [relocateInsert_child_same, if_neg (hnotin _ hne), hg1 _ (Ne.symm hne),
          relocateInsert_child_same]
      · intro h
        have h1 : (if j + 1 ≤ i then i + 1 else i) = i := by
          rw [if_neg (by omega)]
        have h2 := hg2 i j (by rw [← h1]; exact Ne.symm hne) (Ne.symm hn1t) h
        simp only [h1]
        split_ifs <;> omega
      · intro h
        have h1 : (if j + 1 ≤ i then i + 1 else i) = i + 1 := by
          rw [if_pos (by omega)]
        have h2 := hg2 (j + 1) (i + 1) (Ne.symm hslot) (by rw [← h1]; exact Ne.symm hne)
          (by omega)
        simp only [h1, List.length_singleton]
        split_ifs <;> omega
    · intro i₁ i₂ h1 h2 h3 h4 h
      have hlt : (if j + 1 ≤ i₁ then i₁ + 1 else i₁) < (if j + 1 ≤ i₂ then i₂ + 1 else i₂) := by
        split_ifs <;> omega
      have := hg2 _ _ (Ne.symm (hn1c i₁ h3)) (Ne.symm (hn1c i₂ h4)) hlt
      by_cases c1 : j + 1 ≤ i₁ <;> by_cases c2 : j + 1 ≤ i₂ <;>
        simp only [c1, c2, if_true, if_false] at this ⊢ <;> split_ifs <;> omega

theorem insertNode_into_text_witness :
    ∃ (ρ : NodeImpl → NodeImpl) (p1 : NodeImpl) (k1 : Nat) (f : Nat → Nat),
      insertNodeMoved noneReadOnly domChildTypeAllowed insertModel insertRange
        (some (.root 1)) 0 = some (insertedModel, insertRange, 0, ρ) ∧
      ρ insertDiv = p1 ∧ ρ (.child insertDiv 0) = .child p1 k1 ∧
      insertRange.m_startContainer = some (.child p1 k1) ∧
      insertedModel.node (.child p1 k1)
        = some (insertTextNode.withData
            (insertTextNode.data.take (toUnsigned insertRange.m_startOffset))) ∧
      (∀ i, i < (insertedNodes insertFragment).length →
        insertedModel.node (.child p1 (k1 + 1 + i)) = (insertedNodes insertFragment)[i]?) ∧
      insertedModel.node (.child p1 (k1 + 1 + (insertedNodes insertFragment).length))
        = some (.mk insertTextNode.nodeType
            (insertTextNode.data.drop (toUnsigned insertRange.m_startOffset)) []) ∧
      (insertFragment.nodeType ≠ .DOCUMENT_FRAGMENT_NODE →
        ρ (.root 1) = .child p1 (k1 + 1)) ∧
      (insertFragment.nodeType = .DOCUMENT_FRAGMENT_NODE →
        ∀ i, ρ (.child (.root 1) i) = .child p1 (k1 + 1 + i)) ∧
      (∀ i, i ≠ 0 → NodeImpl.child insertDiv i ≠ NodeImpl.root 1 →
        ρ (.child insertDiv i) = .child p1 (f i) ∧ (i < 0 → f i < k1) ∧
          (0 < i → k1 + 1 + (insertedNodes insertFragment).length < f i)) ∧
      (∀ i₁ i₂, i₁ ≠ 0 → i₂ ≠ 0 → NodeImpl.child insertDiv i₁ ≠ NodeImpl.root 1 →
        NodeImpl.child insertDiv i₂ ≠ NodeImpl.root 1 → i₁ < i₂ → f i₁ < f i₂) :=
  insertNode_into_text noneReadOnly domChildTypeAllowed insertModel insertedModel insertRange
    insertRange (.root 1) insertDiv 0 insertTextNode insertFragment 0
    (by decide) rfl rfl (Or.inl rfl) rfl rfl

/-! ## `extractContents` on a valid range: where the range collapses -/

/-! ## The content that a range selects -/

theorem childIndexUnder_of_mem {P x : NodeImpl} {c : Nat} (h : .child P c ∈ x.ancestors) :
    childIndexUnder P x = some c := by
  induction x with
  | root t => simp [NodeImpl.ancestors] at h
  | child q i ih =>
    rcases mem_ancestors_child.mp h with e | e
    · injection e with e1 e2
      subst e1; subst e2
      simp [childIndexUnder]
    · have hq : q ≠ P := by
        intro e1
        subst e1
        exact child_not_mem_ancestors _ _ e
      simp [childIndexUnder, hq, ih e]

theorem childIndexUnder_of_not_below {P x : NodeImpl} (h : ∀ i, .child P i ∉ x.ancestors) :
    childIndexUnder P x = none := by
  induction x with
  | root t => rfl
  | child q i ih =>
    have hq : q ≠ P := by
      intro e1
      subst e1
      exact h i (mem_ancestors_self _)
    simp only [childIndexUnder, hq, if_false]
    exact ih fun j hj => h j (mem_ancestors_child.mpr (Or.inr hj))

theorem childIndexUnder_self (P : NodeImpl) : childIndexUnder P P = none :=
  childIndexUnder_of_not_below fun i => child_not_mem_ancestors P i

theorem inSelectedContent_false {R sc e : NodeImpl} {so eo : Int} {y : NodeImpl}
    (h : inSelectedContent R sc e so eo y = false) :
    ∀ (q : NodeImpl) (i : Nat), .child q i ∈ y.ancestors → selectsChild R sc e so eo q i = false := by
  induction y with
  | root t =>
    intro q i hq
    simp [NodeImpl.ancestors] at hq
  | child p j ih =>
    intro q i hq
    simp only [inSelectedContent, Bool.or_eq_false_iff] at h
    rcases mem_ancestors_child.mp hq with e1 | e1
    · injection e1 with e2 e3
      subst e2; subst e3
      exact h.1
    · exact ih h.2 q i e1

theorem selects_eq {r : RangeImpl} {sc e R : NodeImpl} (hsc : r.m_startContainer = some sc)
    (he : r.m_endContainer = some e) (hloop : commonAncestorLoop (some e) sc = some R)
    (y : NodeImpl) :
    r.selects y = inSelectedContent R sc e r.m_startOffset r.m_endOffset y := by
  simp [RangeImpl.selects, hsc, he, hloop]

/-- A node that the range does not select, under the common root. -/
theorem kept_at_root {R sc e : NodeImpl} {so eo : Int} {y : NodeImpl}
    (h : inSelectedContent R sc e so eo y = false) :
    ∀ i, .child R i ∈ y.ancestors →
      i < firstAfterStart R sc so ∨ firstNotBeforeEnd R e eo ≤ i := by
  intro i hi
  have := inSelectedContent_false h R i hi
  simp only [selectsChild, if_true, decide_eq_false_iff_not, not_and, not_lt] at this
  by_cases hlo : i < firstAfterStart R sc so
  · exact Or.inl hlo
  · exact Or.inr (this (by omega))

theorem keptLeft_of_not_selected {R sc e : NodeImpl} {so eo : Int} {y : NodeImpl}
    (hy : y ∉ sc.ancestors) (h : inSelectedContent R sc e so eo y = false) :
    ∀ a, .child R a ∈ sc.ancestors → KeptLeft (.child R a) sc so y := by
  intro a ha
  have hRs : R ∈ sc.ancestors := parent_mem_ancestors ha
  have hscR : sc ≠ R := by
    intro e1
    subst e1
    exact child_not_mem_ancestors _ _ ha
  refine ⟨hy, ?_, ?_⟩
  · intro i hi
    have := inSelectedContent_false h sc i hi
    simp only [selectsChild, hscR, if_false, hRs, mem_ancestors_self, and_self, if_true,
      decide_eq_false_iff_not, not_le] at this
    exact this
  · intro P c i hP hRP hi
    have hPR : P ≠ R := by
      intro e1
      subst e1
      exact child_not_mem_ancestors _ _ hRP
    have hPsc : P ≠ sc := by
      intro e1
      subst e1
      exact child_not_mem_ancestors _ _ hP
    have := inSelectedContent_false h P i hi
    simp only [selectsChild, hPR, if_false, parent_mem_ancestors hRP, parent_mem_ancestors hP,
      and_self, if_true, hPsc, childIndexUnder_of_mem hP, decide_eq_false_iff_not, not_lt]
      at this
    exact this

theorem keptRight_of_not_selected {R sc e : NodeImpl} {so eo : Int} {y : NodeImpl}
    (hcommon : ∀ z, z ∈ sc.ancestors → z ∈ e.ancestors → z ∈ R.ancestors)
    (hy : y ∉ e.ancestors ∨ (y = e ∧ eo = 0)) (h : inSelectedContent R sc e so eo y = false) :
    ∀ b, .child R b ∈ e.ancestors → KeptRight (.child R b) e eo y := by
  intro b hb
  have hRe : R ∈ e.ancestors := parent_mem_ancestors hb
  have hnot : ∀ q, q ≠ R → R ∈ q.ancestors → q ∈ e.ancestors → q ∉ sc.ancestors := by
    intro q hq hRq hqe hc
    exact hq (eq_of_mem_ancestors_of_depth_eq (hcommon q hc hqe)
      (le_antisymm (depth_le_of_mem_ancestors (hcommon q hc hqe))
        (depth_le_of_mem_ancestors hRq)))
  have heR : e ≠ R := by
    intro e1
    subst e1
    exact child_not_mem_ancestors _ _ hb
  refine ⟨hy, ?_, ?_⟩
  · intro i hi
    have := inSelectedContent_false h e i hi
    simp only [selectsChild, heR, if_false, hnot e heR hRe (mem_ancestors_self _), hRe,
      mem_ancestors_self, and_self, and_false, if_true, decide_eq_false_iff_not, not_lt]
      at this
    exact this
  · intro P c i hP hRP hi
    have hPR : P ≠ R := by
      intro e1
      subst e1
      exact child_not_mem_ancestors _ _ hRP
    have hPe : P ≠ e := by
      intro e1
      subst e1
      exact child_not_mem_ancestors _ _ hP
    have := inSelectedContent_false h P i hi
    simp only [selectsChild, hPR, if_false,
      hnot P hPR (parent_mem_ancestors hRP) (parent_mem_ancestors hP),
      parent_mem_ancestors hRP, parent_mem_ancestors hP, and_self, and_false, if_true, hPe,
      childIndexUnder_of_mem hP, decide_eq_false_iff_not, not_lt] at this
    exact this


/-- A place below a child of `p` before the children taken out stays. -/
theorem cut_of_before (p : NodeImpl) (lo hi : Nat) {i : Nat} {x : NodeImpl}
    (h : .child p i ∈ x.ancestors) (hi1 : i < lo) (hlohi : lo ≤ hi) : cut p lo hi x = x := by
  induction x with
  | root t => rfl
  | child q j ih =>
    rcases mem_ancestors_child.mp h with e | e
    · injection e with e1 e2
      subst e1; subst e2
      rw [cut_child_same, if_neg (by omega)]
    · have hq : q ≠ p := by
        intro e1
        subst e1
        exact child_not_mem_ancestors _ _ e
      rw [cut_child_ne _ _ _ _ hq, ih e]

/-- A place below a child of `p` behind the children taken out moves with that child. -/
theorem cut_eq_rebase (p : NodeImpl) (lo hi : Nat) {i : Nat} {x : NodeImpl}
    (h : .child p i ∈ x.ancestors) (hi1 : hi ≤ i) :
    cut p lo hi x = rebase (.child p i) (.child p (i - (hi - lo))) x := by
  induction x with
  | root t => simp [NodeImpl.ancestors] at h
  | child q j ih =>
    rcases mem_ancestors_child.mp h with e | e
    · injection e with e1 e2
      subst e1; subst e2
      rw [cut_child_same, if_pos hi1]
      simp [rebase]
    · have hq : q ≠ p := by
        intro e1
        subst e1
        exact child_not_mem_ancestors _ _ e
      have hne : NodeImpl.child q j ≠ NodeImpl.child p i := by
        intro e1
        injection e1 with e2 _
        exact hq e2
      rw [cut_child_ne _ _ _ _ hq, ih e]
      simp [rebase, hne]

theorem rightLevelsShift_treeIndex (R : NodeImpl) :
    ∀ (A y : NodeImpl), (rightLevelsShift R A y).treeIndex = y.treeIndex := by
  intro A
  induction A with
  | root t => intro y; rfl
  | child P c ih =>
    intro y
    simp only [rightLevelsShift]
    split
    · rfl
    · rw [ih, cut_treeIndex]

/-- The shape of what `processContents` leaves for `EXTRACT_CONTENTS` on a valid range
that is not collapsed and whose container, when it has only one, is not
character-like: the subtree of one node `C` has been replaced, the range is
collapsed at child index `k` of `C`, and the fragment `extractedFragment` is returned.  A
node that the range does not select and that is not above a container is at the place
`extractRelocate placeOfKept` afterwards, as it was; at the place of an end container
other than `C` is a node of the kind of the end container. -/
theorem extract_shape {tm : TreeModel} {r : RangeImpl} {sc e : NodeImpl}
    {ts te : Tree} (hwf : tm.wellFormed = true) (hd : r.m_detached = false)
    (hsc : r.m_startContainer = some sc) (he : r.m_endContainer = some e)
    (hts : tm.node sc = some ts) (hte : tm.node e = some te)
    (hroot : rootContainer sc = rootContainer e)
    (hvalid : r.boundaryPointsValid tm = some true)
    (hso0 : 0 ≤ r.m_startOffset) (hso : r.m_startOffset ≤ offsetBound ts)
    (hbs : (offsetBound ts : Int) < 2 ^ 31)
    (heo0 : 0 ≤ r.m_endOffset) (heo : r.m_endOffset ≤ offsetBound te)
    (hbe : (offsetBound te : Int) < 2 ^ 31)
    (hnc : ¬ (sc = e ∧ r.m_startOffset = r.m_endOffset))
    (hcl : sc = e → isCharacterLike ts.nodeType = false)
    (hsz : ∀ x X, rootContainer x = rootContainer sc → tm.node x = some X →
      (X.children.length : Int) < 2 ^ 31) :
    ∃ (tmE : TreeModel) (C : NodeImpl) (k : Nat) (TC0 TC F : Tree) (ec1 : ExceptionCode),
      processContents .EXTRACT_CONTENTS tm r 0 =
        some (tmE, ⟨r.m_ownerDocument, some C, (k : Int), some C, (k : Int), false⟩, ec1,
          some F) ∧
      tm.node C = some TC0 ∧ tm.replace C TC = some tmE ∧ TC.nodeType = TC0.nodeType ∧
      isCharacterLike TC0.nodeType = false ∧ k ≤ TC.children.length ∧ (k : Int) < 2 ^ 31 ∧
      F.nodeType = NodeType.DOCUMENT_FRAGMENT_NODE ∧ rootContainer C = rootContainer sc ∧
      extractedFragment tm r = some F ∧
      (isCharacterLike ts.nodeType = false → ∀ y, y ∉ sc.ancestors →
        (y ∉ e.ancestors ∨ (y = e ∧ r.m_endOffset = 0)) →
        r.selects y = false → ∀ n : Nat,
          ∃ y', extractRelocate placeOfKept tm r n y = some y' ∧ tmE.node y' = tm.node y ∧
            y'.treeIndex = y.treeIndex) ∧
      (e ≠ C → ∀ n : Nat, ∃ e1 K, extractRelocate placeOfKept tm r n e = some e1 ∧
        tmE.node e1 = some K ∧ K.nodeType = te.nodeType ∧ e1.treeIndex = e.treeIndex) := by
  by_cases hse : sc = e
  · subst hse
    rw [hts] at hte
    cases Option.some.inj hte
    have hcl := hcl rfl
    have hoff : r.m_startOffset ≠ r.m_endOffset := fun h => hnc ⟨rfl, h⟩
    have hle : r.m_startOffset ≤ r.m_endOffset := by
      simp only [RangeImpl.boundaryPointsValid, hsc, he, compare_same, Option.map_eq_some']
        at hvalid
      obtain ⟨x, hx, hx2⟩ := hvalid
      by_contra hc
      have h1 : ¬ r.m_startOffset = r.m_endOffset := hoff
      have h2 : ¬ r.m_startOffset < r.m_endOffset := by omega
      simp only [h1, h2, if_false, Option.some.injEq] at hx
      subst hx
      simp at hx2
    have hfix : ∀ m k : Nat, r.relocate ((relocate sc k)^[m]) = r := fun m k =>
      rangeRelocate_of_fixed
        (fun x hx => by
          rw [hsc] at hx
          cases Option.some.inj hx
          exact iterate_relocate_self _ _ m)
        (fun x hx => by
          rw [he] at hx
          cases Option.some.inj hx
          exact iterate_relocate_self _ _ m)
    rw [offsetBound_of_not_characterLike hcl] at heo hbe
    obtain ⟨tm1, h1, h2⟩ := @processSimple_children .EXTRACT_CONTENTS tm
      ⟨r, some sc, none, none⟩ sc ts hsc hts hcl hso0 hle heo hbe
    refine ⟨tm1, sc, r.m_startOffset.toNat, ts,
      ts.withChildren (ts.children.take r.m_startOffset.toNat ++
        ts.children.drop r.m_endOffset.toNat),
      .mk NodeType.DOCUMENT_FRAGMENT_NODE [] ((ts.children.drop r.m_startOffset.toNat).take
        (r.m_endOffset.toNat - r.m_startOffset.toNat)),
      0, ?_, hts, h1, rfl, hcl, ?_, ?_, rfl, rfl, ?_, ?_, fun h => absurd rfl h⟩
    · rw [processContents_same _ tm hd hsc he hoff, h2]
      simp only [ActionType.removes, ActionType.copies, decide_True, Bool.true_or, if_true,
        Option.map_some', Frame.relocate, hfix, RangeImpl.collapse, hd, Bool.false_eq_true,
        if_false, hsc, Int.toNat_of_nonneg hso0]
    · simp only [Tree.withChildren_children, List.length_append, List.length_take,
        List.length_drop]
      omega
    · omega
    · simp [extractedFragment, hsc, he, commonAncestorLoop_self, hts]
    · intro _ y hy _ hsel n
      rw [selects_eq hsc he (commonAncestorLoop_self sc)] at hsel
      have hkept := kept_at_root hsel
      simp only [firstAfterStart, firstNotBeforeEnd, childIndexUnder_self] at hkept
      have hle1 : r.m_startOffset.toNat ≤ r.m_endOffset.toNat := by omega
      have hle2 : r.m_endOffset.toNat ≤ ts.children.length := by omega
      have hlo : min r.m_startOffset.toNat ts.children.length = r.m_startOffset.toNat :=
        Nat.min_eq_left (le_trans hle1 hle2)
      have hhi : max r.m_startOffset.toNat (min r.m_endOffset.toNat ts.children.length)
          = r.m_endOffset.toNat := by
        rw [Nat.min_eq_left hle2, Nat.max_eq_right hle1]
      have hk1 : ¬ (ts.nodeType = .TEXT_NODE ∨ ts.nodeType = .CDATA_SECTION_NODE ∨
          ts.nodeType = .COMMENT_NODE ∨ ts.nodeType = .PROCESSING_INSTRUCTION_NODE) := by
        intro h
        rcases h with h | h | h | h <;> simp [h, isCharacterLike] at hcl
      by_cases hroot1 : rootContainer y = rootContainer sc
      · have hplace : extractRelocate placeOfKept tm r n y
            = some (cut sc r.m_startOffset.toNat r.m_endOffset.toNat y) := by
          simp only [extractRelocate, hsc, he, hroot1, ne_eq, not_true_eq_false, if_false,
            hts, Option.map_some', hk1, hlo, hhi, Option.some.injEq]
          by_cases hb : ∀ i, .child sc i ∉ y.ancestors
          · rw [childIndexUnder_of_not_below hb, cut_of_not_below _ _ _ hb]
          · simp only [not_forall, not_not] at hb
            obtain ⟨i, hi⟩ := hb
            rw [childIndexUnder_of_mem hi]
            simp only
            rcases hkept i hi with h | h
            · rw [if_pos h]
              exact (cut_of_before sc _ _ hi h (by omega)).symm
            · rw [if_neg (by omega), if_neg (by omega)]
              exact (cut_eq_rebase sc _ _ hi h).symm
        refine ⟨_, hplace, ?_, cut_treeIndex _ _ _ _⟩
        exact node_cut hts hle1 (le_trans hle1 hle2) h1 hy hkept
      · refine ⟨y, by simp [extractRelocate, hsc, hroot1], ?_, rfl⟩
        refine node_congr_tree y ((replace_roots h1).2.1 _ ?_)
        intro h
        apply hroot1
        rw [rootContainer_eq_root, rootContainer_eq_root, h]
  · obtain ⟨R, TR, lo, hi, tmD, TD, F, h1, h2, ⟨h3, hF, hk⟩, h4, h5, h6, h7a, h7, ⟨h8a, h8b⟩,
      h8f, h8k, hFx, h9⟩ :=
      processContents_complex hwf hd hsc he hse hts hte hroot hvalid hso0 hso hbs heo0 heo hbe
    obtain ⟨ec1, hx⟩ := h9 .EXTRACT_CONTENTS
    obtain ⟨hRs, hRe, hcommon⟩ := commonAncestorLoop_some h1
    have hchar : isCharacterLike TR.nodeType = false := by
      by_cases hsR : R = sc
      · have heR : R ≠ e := fun h => hse (hsR.symm.trans h)
        obtain ⟨a, ha⟩ := exists_child_mem_ancestors hRe heR
        exact not_characterLike_of_child hwf
          (valid_of_mem_ancestors (valid_iff.mpr ⟨te, hte⟩) ha) h2
      · obtain ⟨a, ha⟩ := exists_child_mem_ancestors hRs hsR
        exact not_characterLike_of_child hwf
          (valid_of_mem_ancestors (valid_iff.mpr ⟨ts, hts⟩) ha) h2
    have hlen := hsz R TR (rootContainer_eq_of_mem_ancestors hRs) h2
    have hlo : firstAfterStart R sc r.m_startOffset = lo := by
      by_cases hsR : sc = R
      · subst hsR
        have := (h7 rfl).1
        simp only [firstAfterStart, childIndexUnder_self]
        omega
      · obtain ⟨a, ha⟩ := exists_child_mem_ancestors hRs (Ne.symm hsR)
        simp only [firstAfterStart, childIndexUnder_of_mem ha]
        exact (h7a a ha).symm
    have hhi : firstNotBeforeEnd R e r.m_endOffset = hi := by
      by_cases heR : e = R
      · subst heR
        have := h8b rfl
        simp only [firstNotBeforeEnd, childIndexUnder_self]
        omega
      · obtain ⟨b, hb⟩ := exists_child_mem_ancestors hRe (Ne.symm heR)
        simp only [firstNotBeforeEnd, childIndexUnder_of_mem hb]
        exact (h8a b hb).symm
    refine ⟨tmD, R, lo, TR, TD, F, ec1, ?_, h2, h3, hk, hchar, by omega, by omega, hF,
      rootContainer_eq_of_mem_ancestors hRs, ?_, ?_, ?_⟩
    · simpa [ActionType.removes, ActionType.copies] using hx
    · simp only [extractedFragment, hsc, he, h1, h2, hts, hte, Option.some_bind,
        Option.map_some', hse, if_false, hlo, hhi, hFx]
    · intro hscl y hy1 hy2 hsel n
      rw [selects_eq hsc he h1] at hsel
      by_cases hroot1 : rootContainer y = rootContainer sc
      · have hks : ts.nodeType ≠ NodeType.PROCESSING_INSTRUCTION_NODE := by
          intro h
          simp [h, isCharacterLike] at hscl
        have hkR := kept_at_root hsel
        rw [hlo, hhi] at hkR
        have hyR : y ∉ R.ancestors := fun h => hy1 (ancestors_trans h hRs)
        have hframe := h8f hks y hyR hkR (keptLeft_of_not_selected hy1 hsel)
          (keptRight_of_not_selected hcommon hy2 hsel)
        refine ⟨_, ?_, hframe, ?_⟩
        · simp only [extractRelocate, hsc, he, hroot1, ne_eq, not_true_eq_false, if_false,
            Option.some.injEq, hse, not_false_eq_true, if_true, placeOfKept, h1,
            Option.map_some', hlo, hhi]
        · rw [cut_treeIndex]
          split
          · rfl
          · rw [rightLevelsShift_treeIndex, cut_treeIndex]
      · refine ⟨y, by simp [extractRelocate, hsc, hroot1], ?_, rfl⟩
        refine node_congr_tree y ((replace_roots h3).2.1 _ ?_)
        intro h
        apply hroot1
        rw [rootContainer_eq_root, rootContainer_eq_root, h,
          ← rootContainer_eq_root, ← rootContainer_eq_root,
          rootContainer_eq_of_mem_ancestors hRs]
    · intro heR n
      obtain ⟨K, hK1, hK2⟩ := h8k heR
      have hroot1 : rootContainer e = rootContainer sc := hroot.symm
      refine ⟨cut R lo hi (rightLevelsShift R e e), K, ?_, hK2, hK1, ?_⟩
      · simp only [extractRelocate, hsc, he, hroot1, ne_eq, not_true_eq_false, if_false,
          Option.some.injEq, hse, not_false_eq_true, if_true, placeOfKept, h1,
          Option.map_some', hlo, hhi, heR, cut_self]
      · rw [cut_treeIndex, rightLevelsShift_treeIndex]

/-! ## Trees of the forest that an operation does not touch -/

theorem treeIndex_eq_of_mem_ancestors {x y : NodeImpl} (h : x ∈ y.ancestors) :
    x.treeIndex = y.treeIndex := by
  have := rootContainer_eq_of_mem_ancestors h
  rw [rootContainer_eq_root, rootContainer_eq_root] at this
  injection this

theorem treeIndex_lt_of_node {tm : TreeModel} {y : NodeImpl} {Y : Tree}
    (h : tm.node y = some Y) : y.treeIndex < tm.roots.length := by
  induction y generalizing Y with
  | root t =>
    simp only [TreeModel.node, Option.map_eq_some'] at h
    obtain ⟨x, hx, _⟩ := h
    by_contra hc
    simp only [NodeImpl.treeIndex] at hc
    rw [List.getElem?_eq_none (by omega)] at hx
    exact absurd hx (by simp)
  | child p i ih =>
    obtain ⟨tp, hp, _⟩ := node_child_some h
    exact ih hp

theorem node_append_roots (tm : TreeModel) (extra : List (Ptr × Tree)) {y : NodeImpl}
    (h : y.treeIndex < tm.roots.length) :
    ({ tm with roots := tm.roots ++ extra } : TreeModel).node y = tm.node y :=
  node_congr_tree y (by simp [List.getElem?_append_left h])

theorem node_appended_root (tm : TreeModel) (d : Ptr) (F : Tree) :
    ({ tm with roots := tm.roots ++ [(d, F)] } : TreeModel).node (.root tm.roots.length)
      = some F := by
  simp [TreeModel.node]

theorem relocate_other_tree (q : NodeImpl) (j : Nat) {y : NodeImpl}
    (h : y.treeIndex ≠ q.treeIndex) : relocate q j y = y :=
  relocate_of_not_after q j fun _ hi =>
    absurd (treeIndex_eq_of_mem_ancestors (parent_mem_ancestors hi)).symm h

theorem relocateInsert_other_tree (q : NodeImpl) (a c : Nat) {y : NodeImpl}
    (h : y.treeIndex ≠ q.treeIndex) : relocateInsert q a c y = y := by
  induction y with
  | root t => rfl
  | child x i ih =>
    simp only [NodeImpl.treeIndex] at h
    have hne : x ≠ q := fun he => h (he ▸ rfl)
    rw [relocateInsert_child_ne _ _ _ _ hne, ih h]

theorem replace_node_other_tree {tm tm1 : TreeModel} {x : NodeImpl} {new : Tree}
    (h : tm.replace x new = some tm1) {y : NodeImpl} (hy : y.treeIndex ≠ x.treeIndex) :
    tm1.node y = tm.node y :=
  node_congr_tree y ((replace_roots h).2.1 _ hy)

theorem getDocument_congr {tm tm1 : TreeModel} {y : NodeImpl} (hn : tm1.node y = tm.node y)
    (hd : (tm1.roots[y.treeIndex]?).map Prod.fst = (tm.roots[y.treeIndex]?).map Prod.fst) :
    getDocument tm1 y = getDocument tm y := by
  simp only [getDocument, hn, hd]

/-- What `takeOut` leaves of the other trees of the forest. -/
theorem takeOut_other_tree {tm : TreeModel} {n : NodeImpl}
    {d : TreeModel × Tree × (NodeImpl → NodeImpl)} (hd : takeOut tm n = some d) :
    d.1.roots.length = tm.roots.length ∧
    (∀ t : Nat, (d.1.roots[t]?).map Prod.fst = (tm.roots[t]?).map Prod.fst) ∧
    (∀ N, tm.node n = some N → d.2.1 = N) ∧
    ∀ y, y.treeIndex ≠ n.treeIndex → d.2.2 y = y ∧ d.1.node y = tm.node y := by
  cases n with
  | root t0 =>
    simp only [takeOut, Option.bind_eq_some, Option.map_eq_some'] at hd
    obtain ⟨sub, hsub, tmE, hE, rfl⟩ := hd
    obtain ⟨h1, _, h3⟩ := replace_roots hE
    refine ⟨h1, h3, ?_, fun y hy => ⟨rfl, replace_node_other_tree hE hy⟩⟩
    intro N hN
    rw [hsub] at hN
    exact Option.some.inj hN
  | child q j1 =>
    simp only [takeOut, detachNode, Option.bind_eq_some, Option.map_eq_some'] at hd
    obtain ⟨Q, hQ, sub, hsub, tmE, hE, rfl⟩ := hd
    obtain ⟨h1, _, h3⟩ := replace_roots hE
    refine ⟨h1, h3, ?_, fun y hy => ⟨relocate_other_tree q j1 hy,
      replace_node_other_tree hE hy⟩⟩
    intro N hN
    simp only [TreeModel.node, hQ, Option.some_bind] at hN
    rw [hsub] at hN
    exact Option.some.inj hN

/-! ## The Tree Model invariant under changes of the forest -/

theorem wellFormedList_append (l1 l2 : List Tree) :
    wellFormedList (l1 ++ l2) = (wellFormedList l1 && wellFormedList l2) := by
  induction l1 with
  | nil => simp [wellFormedList]
  | cons t ts ih => simp [wellFormedList, ih, Bool.and_assoc]

theorem wellFormedList_set {l : List Tree} (h : wellFormedList l = true) (i : Nat) {t : Tree}
    (ht : t.wellFormed = true) : wellFormedList (l.set i t) = true := by
  induction l generalizing i with
  | nil => simp [wellFormedList]
  | cons x xs ih =>
    simp only [wellFormedList, Bool.and_eq_true] at h
    cases i with
    | zero => simp [List.set, wellFormedList, ht, h.2]
    | succ i => simp [List.set, wellFormedList, h.1, ih h.2 i]

theorem wellFormedList_eraseIdx {l : List Tree} (h : wellFormedList l = true) (i : Nat) :
    wellFormedList (l.eraseIdx i) = true := by
  induction l generalizing i with
  | nil => simp [wellFormedList]
  | cons x xs ih =>
    simp only [wellFormedList, Bool.and_eq_true] at h
    cases i with
    | zero => simpa [List.eraseIdx] using h.2
    | succ i => simp [List.eraseIdx, wellFormedList, h.1, ih h.2 i]

theorem Tree.wellFormed_withChildren {t : Tree} {cs : List Tree}
    (hk : isCharacterLike t.nodeType = true → cs = []) (hcs : wellFormedList cs = true) :
    (t.withChildren cs).wellFormed = true := by
  cases t with
  | mk k d cs0 =>
    simp only [Tree.withChildren, Tree.nodeType, Tree.wellFormed, Bool.and_eq_true,
      Bool.or_eq_true, Bool.not_eq_true']
    refine ⟨?_, hcs⟩
    cases hc : isCharacterLike k with
    | false => exact Or.inl rfl
    | true =>
      right
      rw [hk (by simpa [Tree.nodeType] using hc)]
      rfl

theorem wellFormed_replace {tm tm1 : TreeModel} (hwf : tm.wellFormed = true) {x : NodeImpl}
    {new : Tree} (h : tm.replace x new = some tm1) (hnew : new.wellFormed = true) :
    tm1.wellFormed = true := by
  induction x generalizing new with
  | root k =>
    simp only [TreeModel.replace] at h
    split at h
    · simp only [Option.some.injEq] at h
      subst h
      simp only [TreeModel.wellFormed, List.map_set]
      exact wellFormedList_set hwf _ hnew
    · exact absurd h (by simp)
  | child x0 k ih =>
    simp only [TreeModel.replace] at h
    split at h
    · rename_i X0 hX0
      split at h
      · rename_i hk
        refine ih h (Tree.wellFormed_withChildren ?_ ?_)
        · intro hc
          have := (Tree.wellFormed_children (wellFormed_node hwf hX0)).2 hc
          rw [this] at hk
          simp at hk
        · exact wellFormedList_set (Tree.wellFormed_children (wellFormed_node hwf hX0)).1 _ hnew
      · exact absurd h (by simp)
    · exact absurd h (by simp)

theorem wellFormed_append_root {tm : TreeModel} (hwf : tm.wellFormed = true) (d : Ptr)
    {F : Tree} (hF : F.wellFormed = true) :
    ({ tm with roots := tm.roots ++ [(d, F)] } : TreeModel).wellFormed = true := by
  simp only [TreeModel.wellFormed, List.map_append, List.map_cons, List.map_nil,
    wellFormedList_append, wellFormedList, Bool.and_true, Bool.and_eq_true]
  exact ⟨hwf, hF⟩

/-! ## The steps of `surroundContents` after the checks -/

/-- A run of `appendChild` without error that moves the children of a fragment, a tree
of its own, behind the children of `p`. -/
theorem insertBefore_append_fragment {cta : Tree → NodeType → Bool} {tm tm1 : TreeModel}
    {p fr : NodeImpl} {ρ : NodeImpl → NodeImpl} {P F : Tree}
    (hp : tm.node p = some P) (hF : tm.node fr = some F)
    (hkind : F.nodeType = .DOCUMENT_FRAGMENT_NODE) (htree : p.treeIndex ≠ fr.treeIndex)
    (h : insertBefore cta tm p (some fr) none 0 = some (tm1, 0, ρ)) :
    ∃ tmF, tm.replace fr (F.withChildren []) = some tmF ∧
      tmF.replace p (P.withChildren (P.children ++ F.children)) = some tm1 ∧
      ρ = fun x =>
        if fr ∈ x.ancestors ∧ x ≠ fr then rebaseChildren fr p P.children.length x
        else relocateInsert p P.children.length F.children.length x := by
  unfold insertBefore at h
  simp only [hp, hF, Option.some_bind] at h
  split at h
  · simp only [Option.some.injEq, Prod.mk.injEq] at h
    exact absurd h.2.1 (by decide)
  · split at h
    · simp only [Option.some.injEq, Prod.mk.injEq] at h
      exact absurd h.2.1 (by decide)
    · simp only [Bool.false_eq_true, if_false, hkind, if_true] at h
      rw [if_neg (by simp)] at h
      simp only [Option.bind_eq_some, Option.map_eq_some'] at h
      obtain ⟨tmF, hE, PE, hPE, tm2, h2, h⟩ := h
      rw [replace_node_other_tree hE htree, hp] at hPE
      cases Option.some.inj hPE
      simp only [List.take_length, List.drop_length, List.append_nil] at h2
      simp only [Prod.mk.injEq, true_and] at h
      obtain ⟨h3, h4⟩ := h
      subst h3
      exact ⟨tmF, hE, h2, h4.symm⟩

/-- A run of `insertNode` without error on a range whose start container is neither a
text nor a CDATA node. -/
theorem insertNode_element_inv {iro : NodeImpl → Bool} {cta : Tree → NodeType → Bool}
    {tm tm1 : TreeModel} {r r1 : RangeImpl} {n C : NodeImpl} {TC : Tree}
    {ρ : NodeImpl → NodeImpl}
    (hsc : r.m_startContainer = some C) (hC : tm.node C = some TC)
    (hkind : ¬ (TC.nodeType = .TEXT_NODE ∨ TC.nodeType = .CDATA_SECTION_NODE))
    (h : insertNodeMoved iro cta tm r (some n) 0 = some (tm1, r1, 0, ρ)) :
    n ∉ C.ancestors ∧
    insertBefore cta tm C (some n)
      (if toUnsigned r.m_startOffset < TC.children.length then
        some (.child C (toUnsigned r.m_startOffset)) else none) 0 = some (tm1, 0, ρ) ∧
    r1 = r.relocate ρ := by
  unfold insertNodeMoved at h
  split at h
  · simp only [Option.some.injEq, Prod.mk.injEq] at h
    exact absurd h.2.2.1 (by decide)
  · unfold insertNodeCore at h
    split at h
    · simp only [Option.some.injEq, Prod.mk.injEq] at h
      exact absurd h.2.2.1 (by decide)
    · simp only [hsc, Option.bind_eq_some] at h
      obtain ⟨c, hc, h⟩ := h
      cases c with
      | some e =>
        simp only [Option.some.injEq, Prod.mk.injEq] at h
        exact absurd h.2.2.1 (insertNodeChecks_code hc)
      | none =>
        refine ⟨insertNodeChecks_none hc, ?_⟩
        simp only [insertNodePlace, hC, Option.some_bind, hkind, if_false, childNode,
          Option.map_some', Option.map_eq_some'] at h
        obtain ⟨ib, hib, h⟩ := h
        obtain ⟨a, b, c⟩ := ib
        simp only [Prod.mk.injEq] at h
        obtain ⟨h1, h2, h3, h4⟩ := h
        subst h1 h3 h4
        exact ⟨hib, h2.symm⟩

/-! ## `surroundContents`: the children of `newParent` are removed -/

theorem Tree.withChildren_nil_of_leaf {t : Tree} (h : t.children.length = 0) :
    t.withChildren [] = t := by
  cases t with
  | mk k d cs =>
    simp only [Tree.children, List.length_eq_zero] at h
    subst h
    rfl

theorem boundaryPointsValid_congr {tm tm0 : TreeModel} {r : RangeImpl} {sc e : NodeImpl}
    (hsc : r.m_startContainer = some sc) (he : r.m_endContainer = some e)
    (hroot : rootContainer sc = rootContainer e)
    (hs : tm.valid sc) (hev : tm.valid e) (hs0 : tm0.valid sc) (he0 : tm0.valid e)
    (h : r.boundaryPointsValid tm = some true) : r.boundaryPointsValid tm0 = some true := by
  obtain ⟨x, hx, _, hxk, _⟩ := compare_key r.m_startOffset r.m_endOffset hs hev hroot
  obtain ⟨y, hy, _, hyk, _⟩ := compare_key r.m_startOffset r.m_endOffset hs0 he0 hroot
  simp only [RangeImpl.boundaryPointsValid, hsc, he, hx, hy, Option.map_some',
    Option.some.injEq, decide_eq_true_eq] at h ⊢
  exact hyk.mpr (hxk.mp h)

theorem rebase_self (n new : NodeImpl) : rebase n new n = new := by
  cases n <;> simp [rebase]

theorem set_insert_mid {α : Type} (L : List α) (k : Nat) (hk : k ≤ L.length) (x y : α) :
    (L.take k ++ [x] ++ L.drop k).set k y = L.take k ++ [y] ++ L.drop k := by
  have hlen : (L.take k).length = k := by simp [hk]
  rw [List.append_assoc, List.append_assoc, List.set_append_right _ _ (by omega), hlen]
  simp

/-- What a run of `surroundContents` without error consists of: the checks pass
and lines 1151-1165 run. -/
theorem surroundContents_inv {iro : NodeImpl → Bool} {cta : Tree → NodeType → Bool}
    {pae : TreeModel → RangeImpl → Nat → NodeImpl → Option NodeImpl}
    {tm tm1 : TreeModel} {r r1 : RangeImpl} {np sc : NodeImpl} {NP ts : Tree}
    (hnp : tm.node np = some NP) (hsc : r.m_startContainer = some sc)
    (hts : tm.node sc = some ts)
    (h : r.surroundContents (surroundContentsRest iro cta pae) tm (some np) 0
      = some (tm1, r1, 0)) :
    r.m_detached = false ∧ NP.nodeType ≠ .DOCUMENT_FRAGMENT_NODE ∧
    cta ts NP.nodeType = true ∧ np ∉ sc.ancestors ∧
    surroundContentsMove iro cta pae tm r np 0 = some (tm1, r1, 0) := by
  unfold RangeImpl.surroundContents at h
  simp only at h
  split at h
  · simp only [Option.some.injEq, Prod.mk.injEq] at h
    exact absurd h.2.2 (by decide)
  · rename_i hd
    simp only [surroundContentsRest, hnp, Option.some_bind] at h
    split at h
    · simp only [Option.some.injEq, Prod.mk.injEq] at h
      exact absurd h.2.2 (by decide)
    · rename_i hkind
      split at h
      · simp only [Option.some.injEq, Prod.mk.injEq] at h
        exact absurd h.2.2 (by decide)
      · simp only [hsc, Option.bind_eq_some] at h
        obtain ⟨dn, _, ds, _, h⟩ := h
        split at h
        · simp only [Option.some.injEq, Prod.mk.injEq] at h
          exact absurd h.2.2 (by decide)
        · simp only [hts, Option.some_bind] at h
          split at h
          · simp only [Option.some.injEq, Prod.mk.injEq] at h
            exact absurd h.2.2 (by decide)
          · rename_i hall
            split at h
            · simp only [Option.some.injEq, Prod.mk.injEq] at h
              exact absurd h.2.2 (by decide)
            · rename_i hanc
              simp only [Option.bind_eq_some] at h
              obtain ⟨bad, _, h⟩ := h
              split at h
              · simp only [Option.some.injEq, Prod.mk.injEq] at h
                exact absurd h.2.2 (by decide)
              · exact ⟨by simpa using hd, fun hf => hkind (by simp [hf]),
                  by simpa using hall, hanc, h⟩

/-! ## The number of nodes bounds the number of children -/

theorem Tree.size_pos (t : Tree) : 0 < t.size := by
  cases t
  simp [Tree.size]

theorem length_le_sizeList (l : List Tree) : l.length ≤ sizeList l := by
  induction l with
  | nil => simp [sizeList]
  | cons t ts ih =>
    have := Tree.size_pos t
    simp only [List.length_cons, sizeList]
    omega

theorem size_le_sizeList {l : List Tree} {i : Nat} {t : Tree} (h : l[i]? = some t) :
    t.size ≤ sizeList l := by
  induction l generalizing i with
  | nil => simp at h
  | cons x xs ih =>
    cases i with
    | zero =>
      simp only [List.getElem?_cons_zero, Option.some.injEq] at h
      subst h
      simp [sizeList]
    | succ i =>
      simp only [List.getElem?_cons_succ] at h
      have := ih h
      simp only [sizeList]
      omega

theorem Tree.size_eq (t : Tree) : t.size = 1 + sizeList t.children := by
  cases t
  rfl

theorem node_size_le {tm : TreeModel} {x : NodeImpl} {X : Tree} (h : tm.node x = some X) :
    X.size ≤ tm.size := by
  induction x generalizing X with
  | root t =>
    simp only [TreeModel.node, Option.map_eq_some'] at h
    obtain ⟨a, ha, rfl⟩ := h
    exact size_le_sizeList (i := t) (by simp [ha])
  | child p i ih =>
    obtain ⟨P, hP, hi⟩ := node_child_some h
    have h1 := ih hP
    have h2 := size_le_sizeList hi
    rw [Tree.size_eq P] at h1
    omega

theorem children_length_lt_size {tm : TreeModel} {x : NodeImpl} {X : Tree}
    (h : tm.node x = some X) : X.children.length < tm.size := by
  have h1 := node_size_le h
  have h2 := length_le_sizeList X.children
  rw [Tree.size_eq X] at h1
  omega

theorem domChildTypeAllowed_characterLike (t : Tree) (k : NodeType)
    (h : isCharacterLike t.nodeType = true) : domChildTypeAllowed t k = false := by
  unfold domChildTypeAllowed
  cases hk : t.nodeType <;> simp_all [isCharacterLike]

/-! ## The comparison: zero and the swap of the arguments -/

/-- C32. Comparison is zero only on identical points.  For boundary points whose
containers are nodes of the same tree, whatever the offsets, the comparison
returns 0 exactly when the containers and the offsets are equal; with distinct
containers it returns -1 or 1, so neither the `childA == childB` branch of case 4
(line 349) nor the `assert(0); return 0;` behind the loop (lines 361-362), which
both return 0 on distinct containers, is taken. -/
theorem compareBoundaryPoints_zero_iff (tm : TreeModel) (a b : NodeImpl) (oA oB : Int)
    (ha : tm.valid a) (hb : tm.valid b) (h : rootContainer a = rootContainer b) :
    (compareBoundaryPoints tm (some a) oA (some b) oB = some 0 ↔ a = b ∧ oA = oB) ∧
    (a ≠ b → compareBoundaryPoints tm (some a) oA (some b) oB = some (-1) ∨
      compareBoundaryPoints tm (some a) oA (some b) oB = some 1) := by
  rcases same_root_cases h with e | ⟨k, hk⟩ | ⟨k, hk⟩ | ⟨r, i, j, hij, hi, hj⟩
  · subst e
    rw [compare_same]
    refine ⟨?_, fun hne => absurd rfl hne⟩
    constructor
    · intro h0
      refine ⟨rfl, ?_⟩
      by_contra hne
      rw [if_neg hne] at h0
      split_ifs at h0 <;> simp at h0
    · rintro ⟨_, h0⟩
      rw [if_pos h0]
  · have hne : a ≠ b := by
      intro e
      subst e
      exact child_not_mem_ancestors _ _ hk
    rw [compare_ancestor oA oB hb hk]
    refine ⟨⟨?_, fun h0 => absurd h0.1 hne⟩, fun _ => ?_⟩
    · intro h0
      split_ifs at h0 <;> simp at h0
    · split_ifs <;> simp
  · have hne : a ≠ b := by
      intro e
      subst e
      exact child_not_mem_ancestors _ _ hk
    rw [compare_descendant oA oB ha hk]
    refine ⟨⟨?_, fun h0 => absurd h0.1 hne⟩, fun _ => ?_⟩
    · intro h0
      split_ifs at h0 <;> simp at h0
    · split_ifs <;> simp
  · have hne : a ≠ b := by
      intro e
      subst e
      exact siblings_ne hij hi hj (mem_ancestors_self _)
    rw [compare_siblings oA oB ha hb hij hi hj]
    refine ⟨⟨?_, fun h0 => absurd h0.1 hne⟩, fun _ => ?_⟩
    · intro h0
      split_ifs at h0 <;> simp at h0
    · split_ifs <;> simp

theorem compareBoundaryPoints_zero_iff_witness :
    compareBoundaryPoints sampleModel (some sampleP) 1 (some sampleDeepText) 0 = some (-1) ∨
      compareBoundaryPoints sampleModel (some sampleP) 1 (some sampleDeepText) 0 = some 1 :=
  (compareBoundaryPoints_zero_iff sampleModel sampleP sampleDeepText 1 0 (by decide) (by decide)
    (by decide)).2 (by decide)

/-- C35. Comparison is antisymmetric.  For boundary points whose containers are
nodes of the same tree, whatever the offsets, both comparisons return, and the
comparison of `B` with `A` is the negation of the comparison of `A` with `B`. -/
theorem compareBoundaryPoints_antisymmetric (tm : TreeModel) (a b : NodeImpl) (oA oB : Int)
    (ha : tm.valid a) (hb : tm.valid b) (h : rootContainer a = rootContainer b) :
    ∃ x : Int, compareBoundaryPoints tm (some a) oA (some b) oB = some x ∧
      compareBoundaryPoints tm (some b) oB (some a) oA = some (-x) := by
  obtain ⟨x, hx, hx3, hx1, hx2⟩ := compare_key oA oB ha hb h
  obtain ⟨y, hy, hy3, hy1, hy2⟩ := compare_key oB oA hb ha h.symm
  refine ⟨x, hx, ?_⟩
  rw [hy]
  have h1 : x ≤ 0 ↔ 0 ≤ y := hx1.trans hy2.symm
  have h2 : 0 ≤ x ↔ y ≤ 0 := hx2.trans hy1.symm
  congr 1
  rcases hx3 with e | e | e <;> rcases hy3 with f | f | f <;> subst e <;> subst f <;>
    simp at h1 h2 ⊢

theorem compareBoundaryPoints_antisymmetric_witness :
    ∃ x : Int, compareBoundaryPoints sampleModel (some sampleP) 1 (some sampleDeepText) 0 = some x ∧
      compareBoundaryPoints sampleModel (some sampleDeepText) 0 (some sampleP) 1 = some (-x) :=
  compareBoundaryPoints_antisymmetric sampleModel sampleP sampleDeepText 1 0 (by decide)
    (by decide) (by decide)

/-! ## Document ownership of the containers -/

theorem setStart_containers {tm : TreeModel} {r r1 : RangeImpl} {n : Ptr} {k : Int}
    (hown : r.containersInOwnerDocument tm = true)
    (h : r.setStart tm n k 0 = some (r1, 0)) :
    r1.m_ownerDocument = r.m_ownerDocument ∧ r1.containersInOwnerDocument tm = true := by
  rcases setStart_inv h with ⟨_, h0⟩ | ⟨_, hd, m, e, hn, hdoc, hchk, he⟩
  · exact absurd rfl h0
  · subst hn
    simp only [RangeImpl.containersInOwnerDocument, Bool.and_eq_true, decide_eq_true_eq, he,
      Option.some_bind] at hown
    rw [setStart_checked hd hdoc hchk he] at h
    split_ifs at h with h1
    · simp only [Option.some.injEq, Prod.mk.injEq, and_true] at h
      subst h
      simp [RangeImpl.containersInOwnerDocument, hdoc]
    · obtain ⟨c, _, h⟩ := Option.bind_eq_some.mp h
      split_ifs at h
      · simp only [Option.some.injEq, Prod.mk.injEq, and_true] at h
        subst h
        simp [RangeImpl.containersInOwnerDocument, hdoc]
      · simp only [Option.some.injEq, Prod.mk.injEq, and_true] at h
        subst h
        simp [RangeImpl.containersInOwnerDocument, hdoc, he, hown.2]

theorem setEnd_containers {tm : TreeModel} {r r1 : RangeImpl} {n : Ptr} {k : Int}
    (hown : r.containersInOwnerDocument tm = true)
    (h : r.setEnd tm n k 0 = some (r1, 0)) :
    r1.m_ownerDocument = r.m_ownerDocument ∧ r1.containersInOwnerDocument tm = true := by
  rcases setEnd_inv h with ⟨_, h0⟩ | ⟨_, hd, m, s, hn, hdoc, hchk, hs⟩
  · exact absurd rfl h0
  · subst hn
    simp only [RangeImpl.containersInOwnerDocument, Bool.and_eq_true, decide_eq_true_eq, hs,
      Option.some_bind] at hown
    rw [setEnd_checked hd hdoc hchk hs] at h
    split_ifs at h with h1
    · simp only [Option.some.injEq, Prod.mk.injEq, and_true] at h
      subst h
      simp [RangeImpl.containersInOwnerDocument, hdoc]
    · obtain ⟨c, _, h⟩ := Option.bind_eq_some.mp h
      split_ifs at h
      · simp only [Option.some.injEq, Prod.mk.injEq, and_true] at h
        subst h
        simp [RangeImpl.containersInOwnerDocument, hdoc]
      · simp only [Option.some.injEq, Prod.mk.injEq, and_true] at h
        subst h
        simp [RangeImpl.containersInOwnerDocument, hdoc, hs, hown.1]


theorem positional_containers {tm : TreeModel} {r r1 : RangeImpl} {n : Ptr}
    (hown : r.containersInOwnerDocument tm = true) :
    (r.setStartBefore tm n 0 = some (r1, 0) ∨ r.setStartAfter tm n 0 = some (r1, 0) ∨
      r.setEndBefore tm n 0 = some (r1, 0) ∨ r.setEndAfter tm n 0 = some (r1, 0)) →
    r1.m_ownerDocument = r.m_ownerDocument ∧ r1.containersInOwnerDocument tm = true := by
  rintro (h | h | h | h)
  · rcases setStartBefore_inv h with ⟨_, h0⟩ | ⟨m, _, _, _, _, h1⟩
    · exact absurd rfl h0
    · exact setStart_containers hown h1
  · rcases setStartAfter_inv h with ⟨_, h0⟩ | ⟨m, _, _, _, _, h1⟩
    · exact absurd rfl h0
    · exact setStart_containers hown h1
  · rcases setEndBefore_inv h with ⟨_, h0⟩ | ⟨m, _, _, _, _, h1⟩
    · exact absurd rfl h0
    · exact setEnd_containers hown h1
  · rcases setEndAfter_inv h with ⟨_, h0⟩ | ⟨m, _, _, _, _, h1⟩
    · exact absurd rfl h0
    · exact setEnd_containers hown h1

theorem selectNode_containers {tm : TreeModel} {r r1 : RangeImpl} {n : Ptr}
    (hown : r.containersInOwnerDocument tm = true)
    (h : r.selectNode tm n 0 = some (r1, 0)) :
    r1.m_ownerDocument = r.m_ownerDocument ∧ r1.containersInOwnerDocument tm = true := by
  rcases selectNode_inv h with ⟨_, h0⟩ | ⟨⟨r2, ec2⟩, hs, ⟨hne, he⟩ | ⟨hz, he⟩⟩
  · exact absurd rfl h0
  · simp only [Prod.mk.injEq] at he
    exact absurd he.2 hne
  · simp only at hz
    subst hz
    have h2 := positional_containers hown (Or.inl hs)
    have h3 := positional_containers h2.2 (Or.inr (Or.inr (Or.inr he)))
    exact ⟨h3.1.trans h2.1, h3.2⟩

/-- C39. Document ownership of the containers.  For a range whose two containers
are nodes of its owner document, after a successful call of `setStart`, `setEnd`,
`setStartBefore`, `setStartAfter`, `setEndBefore`, `setEndAfter` or `selectNode`
the owner document is the same and both containers are nodes of it.
`selectNodeContents` makes no test on the document: after a successful call both
containers are the node it was given, so they are nodes of the owner document
exactly when that node is. -/
theorem document_ownership (tm : TreeModel) (r r1 : RangeImpl)
    (hown : r.containersInOwnerDocument tm = true) :
    (((∃ n k, r.setStart tm n k 0 = some (r1, 0)) ∨
        (∃ n k, r.setEnd tm n k 0 = some (r1, 0)) ∨
        (∃ n, r.setStartBefore tm n 0 = some (r1, 0)) ∨
        (∃ n, r.setStartAfter tm n 0 = some (r1, 0)) ∨
        (∃ n, r.setEndBefore tm n 0 = some (r1, 0)) ∨
        (∃ n, r.setEndAfter tm n 0 = some (r1, 0)) ∨
        (∃ n, r.selectNode tm n 0 = some (r1, 0))) →
      r1.m_ownerDocument = r.m_ownerDocument ∧ r1.containersInOwnerDocument tm = true) ∧
    (∀ n, r.selectNodeContents tm n 0 = some (r1, 0) →
      r1.m_ownerDocument = r.m_ownerDocument ∧ r1.m_startContainer = n ∧
      r1.m_endContainer = n ∧
      (r1.containersInOwnerDocument tm = true ↔
        n.bind (getDocument tm) = some r.m_ownerDocument)) := by
  constructor
  · rintro (⟨n, k, h⟩ | ⟨n, k, h⟩ | ⟨n, h⟩ | ⟨n, h⟩ | ⟨n, h⟩ | ⟨n, h⟩ | ⟨n, h⟩)
    · exact setStart_containers hown h
    · exact setEnd_containers hown h
    · exact positional_containers hown (Or.inl h)
    · exact positional_containers hown (Or.inr (Or.inl h))
    · exact positional_containers hown (Or.inr (Or.inr (Or.inl h)))
    · exact positional_containers hown (Or.inr (Or.inr (Or.inr h)))
    · exact selectNode_containers hown h
  · intro n h
    rcases selectNodeContents_inv h with ⟨_, h0⟩ | ⟨_, cnt, h1⟩
    · exact absurd rfl h0
    · subst h1
      simp [RangeImpl.containersInOwnerDocument]

theorem document_ownership_witness :
    (RangeImpl.mk (some (.root 0)) (some sampleP) 1 (some sampleP) 1 false).m_ownerDocument
        = sampleRange.m_ownerDocument ∧
      (RangeImpl.mk (some (.root 0)) (some sampleP) 1 (some sampleP) 1
        false).containersInOwnerDocument sampleModel = true :=
  (document_ownership sampleModel sampleRange ⟨some (.root 0), some sampleP, 1, some sampleP, 1,
    false⟩ (by decide)).1 (Or.inl ⟨some sampleP, 1, by decide⟩)

/-- C39, counterexample.  The fresh range of the sample document has both containers
in its owner document, tree 0.  `selectNodeContents` on the element of the second
document, tree 2, reports no error and makes that element both containers, a
node whose document is not the owner document of the range. -/
theorem selectNodeContents_other_document :
    sampleRange.containersInOwnerDocument sampleModel = true ∧
    getDocument sampleModel (.child (.root 2) 0) = some (some (.root 2)) ∧
    sampleRange.m_ownerDocument = some (.root 0) ∧
    sampleRange.selectNodeContents sampleModel (some (.child (.root 2) 0)) 0
      = some (⟨some (.root 0), some (.child (.root 2) 0), 0, some (.child (.root 2) 0), 0,
          false⟩, 0) ∧
    (RangeImpl.mk (some (.root 0)) (some (.child (.root 2) 0)) 0 (some (.child (.root 2) 0)) 0
      false).containersInOwnerDocument sampleModel = false := by
  decide

/-! ## The selection after `clear` -/

/-- What `clear` does to a selection: the affinity is the default affinity, base and
extent are null, and state, start, end and `m_baseIsFirst` are left as they were. -/
theorem clear_fields (a : EAffinity) (s : Selection) :
    (s.clear a).m_affinity = a ∧ (s.clear a).m_base = Position.null ∧
    (s.clear a).m_extent = Position.null ∧ (s.clear a).m_state = s.m_state ∧
    (s.clear a).m_start = s.m_start ∧ (s.clear a).m_end = s.m_end ∧
    (s.clear a).m_baseIsFirst = s.m_baseIsFirst :=
  ⟨rfl, rfl, rfl, rfl, rfl, rfl, rfl⟩

/-- C40, the failing input.  The validated selection of the sample document is a
range from `"fgh"` to the end of the `div`; after `clear` its base and extent are
null, but its state is still `RANGE` and its start and end are the positions
they were: it is not the empty selection that the default constructor makes,
which `clear` leaves as it is. -/
theorem clear_keeps_state :
    (sampleValidated.clear .DOWNSTREAM).m_base.isNull = true ∧
    (sampleValidated.clear .DOWNSTREAM).m_extent.isNull = true ∧
    (sampleValidated.clear .DOWNSTREAM).m_state = .RANGE ∧
    (sampleValidated.clear .DOWNSTREAM).m_start = ⟨some sampleFgh, 1⟩ ∧
    (sampleValidated.clear .DOWNSTREAM).m_end = ⟨some sampleDiv, 2⟩ ∧
    sampleValidated.clear .DOWNSTREAM ≠ Selection.create ∧
    Selection.create.clear .DOWNSTREAM = Selection.create := by
  decide

/-! ## `Selection::toRange` -/

theorem checkNodeWOffset_total {tm : TreeModel} {n : NodeImpl} (k : Int) (ec : ExceptionCode)
    (h : tm.valid n) : ∃ ec1, checkNodeWOffset tm (some n) k ec = some ec1 := by
  obtain ⟨t, ht⟩ := valid_iff.mp h
  unfold checkNodeWOffset
  simp only [nodeType, ht, Option.map_some', Option.some_bind, length, childNodeCount]
  cases t.nodeType <;> simp

theorem toRange_some_inv {o : VisiblePositionOracle} {erc : Position → Position}
    {tm : TreeModel} {sel : Selection} {r : RangeImpl}
    (h : sel.toRange o erc tm = some (some r)) :
    ∃ (r1 : RangeImpl) (n : Ptr) (k : Int), r1.setEnd tm n k 0 = some (r, 0) := by
  unfold Selection.toRange at h
  by_cases hn : sel.m_state = .NONE
  · simp [hn] at h
  · rw [if_neg hn] at h
    obtain ⟨d0, _, h⟩ := Option.bind_eq_some.mp h
    cases d0 with
    | none => simp at h
    | some d =>
      simp only at h
      obtain ⟨se, _, h⟩ := Option.bind_eq_some.mp h
      obtain ⟨doc, _, h⟩ := Option.bind_eq_some.mp h
      obtain ⟨⟨r1, e1⟩, _, h⟩ := Option.bind_eq_some.mp h
      by_cases h1 : e1 = 0
      · subst h1
        simp only [ne_eq, not_true_eq_false, if_false] at h
        obtain ⟨⟨r2, e2⟩, h2, h⟩ := Option.bind_eq_some.mp h
        by_cases h3 : e2 = 0
        · subst h3
          simp only [ne_eq, not_true_eq_false, if_false, Option.some.injEq] at h
          subst h
          exact ⟨r1, _, _, h2⟩
        · simp [h3] at h
      · simp [h1] at h

theorem toRange_caret {o : VisiblePositionOracle} {erc : Position → Position}
    {tm : TreeModel} {sel : Selection} {n0 : NodeImpl} {d0 : NodeImpl} {sn doc : NodeImpl}
    (hst : sel.m_state = .CARET) (hn0 : sel.m_start.m_node = some n0)
    (hd0 : getDocument tm n0 = some (some d0))
    (hsn : (erc (o.upstream sel.m_start)).m_node = some sn)
    (hdoc : getDocument tm sn = some (some doc)) (hv : tm.valid doc) :
    ∃ ec, checkNodeWOffset tm (some sn) (erc (o.upstream sel.m_start)).m_offset 0 = some ec ∧
      sel.toRange o erc tm =
        some (if ec = 0 then
          some ⟨some doc, some sn, (erc (o.upstream sel.m_start)).m_offset, some sn,
            (erc (o.upstream sel.m_start)).m_offset, false⟩
          else none) := by
  have hvs : tm.valid sn := by
    rw [valid_iff]
    unfold getDocument at hdoc
    cases hn : tm.node sn with
    | none => simp [hn] at hdoc
    | some t => exact ⟨t, rfl⟩
  obtain ⟨ec, hec⟩ := checkNodeWOffset_total (erc (o.upstream sel.m_start)).m_offset 0 hvs
  refine ⟨ec, hec, ?_⟩
  unfold Selection.toRange
  simp only [hst, reduceCtorEq, if_false, hn0, Option.some_bind, hd0, Selection.rangeEnds,
    if_true, hsn, hdoc]
  by_cases h0 : ec = 0
  · subst h0
    have hstart : ∃ r1, (RangeImpl.create (some doc)).setStart tm (some sn)
        (erc (o.upstream sel.m_start)).m_offset 0 = some (r1, 0) ∧
        r1.m_ownerDocument = some doc ∧ r1.m_startContainer = some sn ∧
        r1.m_startOffset = (erc (o.upstream sel.m_start)).m_offset ∧ r1.m_detached = false := by
      rw [@setStart_checked tm (RangeImpl.create (some doc)) sn doc _ 0 rfl hdoc hec rfl]
      split_ifs with hr
      · exact ⟨_, rfl, rfl, rfl, rfl, rfl⟩
      · simp only [ne_eq, not_not] at hr
        obtain ⟨x, hx, _⟩ := compare_key (erc (o.upstream sel.m_start)).m_offset
          (RangeImpl.create (some doc)).m_endOffset hvs hv hr
        rw [hx]
        simp only [Option.some_bind]
        split_ifs
        · exact ⟨_, rfl, rfl, rfl, rfl, rfl⟩
        · exact ⟨_, rfl, rfl, rfl, rfl, rfl⟩
    obtain ⟨r1, hr1, ho, hs, hso, hd⟩ := hstart
    rw [hr1]
    simp only [Option.some_bind, ne_eq, not_true_eq_false, if_false, if_true]
    rw [@setEnd_checked tm r1 sn sn _ 0 hd (by rw [ho]; exact hdoc) hec hs]
    simp only [ne_eq, not_true_eq_false, if_false, hso, compare_same, if_true,
      Option.some_bind, gt_iff_lt, lt_self_iff_false]
    cases r1
    simp_all
  · rw [setStart_check_failed rfl hdoc hec h0]
    simp [h0]


/-- C31. The bridge from a selection to a range.  In state `NONE`, `toRange` returns
the null range.  In state `CARET`, with `s` the position
`start.upstream().equivalentRangeCompliantPosition()`, when the nodes that the code
dereferences exist (the start node and the node of `s` have a document), `toRange`
returns: the null range when the check of `s` by the setters reports an error,
and otherwise the collapsed range of the document of `s` whose start and end
are both `s`.  In every state, a range that `toRange` returns has
`compareBoundaryPoints(start, end) ≤ 0`. -/
theorem toRange_bridge (o : VisiblePositionOracle)
    (equivalentRangeCompliantPosition : Position → Position) (tm : TreeModel)
    (sel : Selection) :
    (sel.m_state = .NONE → sel.toRange o equivalentRangeCompliantPosition tm = some none) ∧
    (∀ n0 d0 sn doc : NodeImpl, sel.m_state = .CARET → sel.m_start.m_node = some n0 →
      getDocument tm n0 = some (some d0) →
      (equivalentRangeCompliantPosition (o.upstream sel.m_start)).m_node = some sn →
      getDocument tm sn = some (some doc) → tm.valid doc →
      ∃ ec, checkNodeWOffset tm (some sn)
          (equivalentRangeCompliantPosition (o.upstream sel.m_start)).m_offset 0 = some ec ∧
        sel.toRange o equivalentRangeCompliantPosition tm =
          some (if ec = 0 then
            some ⟨some doc, some sn,
              (equivalentRangeCompliantPosition (o.upstream sel.m_start)).m_offset, some sn,
              (equivalentRangeCompliantPosition (o.upstream sel.m_start)).m_offset, false⟩
            else none)) ∧
    (∀ r, sel.toRange o equivalentRangeCompliantPosition tm = some (some r) →
      r.boundaryPointsValid tm = some true) := by
  refine ⟨?_, ?_, ?_⟩
  · intro h
    simp [Selection.toRange, h]
  · intro n0 d0 sn doc hst hn0 hd0 hsn hdoc hv
    exact toRange_caret hst hn0 hd0 hsn hdoc hv
  · intro r h
    obtain ⟨r1, n, k, h1⟩ := toRange_some_inv h
    exact setEnd_boundaryPointsValid h1

theorem toRange_bridge_witness :
    ∃ ec, checkNodeWOffset sampleModel (some sampleAbc) 1 0 = some ec ∧
      Selection.toRange plainOracle id sampleModel
          ⟨⟨some sampleAbc, 1⟩, ⟨some sampleAbc, 1⟩, ⟨some sampleAbc, 1⟩, ⟨some sampleAbc, 1⟩,
            .UPSTREAM, .CARET, true⟩ =
        some (if ec = 0 then
          some ⟨some (.root 0), some sampleAbc, 1, some sampleAbc, 1, false⟩
          else none) :=
  (toRange_bridge plainOracle id sampleModel
    ⟨⟨some sampleAbc, 1⟩, ⟨some sampleAbc, 1⟩, ⟨some sampleAbc, 1⟩, ⟨some sampleAbc, 1⟩,
      .UPSTREAM, .CARET, true⟩).2.1 sampleAbc (.root 0) sampleAbc (.root 0) rfl rfl rfl rfl rfl
    (by decide)

/-! ## `deleteContents` and `extractContents` leave the same state -/

/-- C36. Delete and extract agree on the live state.  For a valid non-detached range
(containers in one tree of a well-formed forest, start not after end, offsets
within the bounds of their containers), on a forest that passes the pre-checks
of `checkDeleteExtract`, `deleteContents` and `extractContents` both return, and
they leave the same forest and the same range (the same four boundary fields). -/
theorem delete_extract_same_state (isReadOnly : NodeImpl → Bool) (tm : TreeModel)
    (r : RangeImpl) (sc e : NodeImpl) (ts te : Tree) (hwf : tm.wellFormed = true)
    (hd : r.m_detached = false)
    (hsc : r.m_startContainer = some sc) (he : r.m_endContainer = some e)
    (hts : tm.node sc = some ts) (hte : tm.node e = some te)
    (hroot : rootContainer sc = rootContainer e)
    (hvalid : r.boundaryPointsValid tm = some true)
    (hso0 : 0 ≤ r.m_startOffset) (hso : r.m_startOffset ≤ offsetBound ts)
    (hbs : (offsetBound ts : Int) < 2 ^ 31)
    (heo0 : 0 ≤ r.m_endOffset) (heo : r.m_endOffset ≤ offsetBound te)
    (hbe : (offsetBound te : Int) < 2 ^ 31)
    (hpre : checkDeleteExtract isReadOnly tm r 0 = some 0) :
    ∃ tm1 r1 ecD ecE fragment,
      r.deleteContents (deleteContentsRest isReadOnly) tm 0 = some (tm1, r1, ecD) ∧
      r.extractContents (extractContentsRest isReadOnly) tm 0
        = some (tm1, r1, ecE, fragment) := by
  by_cases hc : sc = e ∧ r.m_startOffset = r.m_endOffset
  · have h1 : r.m_startContainer = r.m_endContainer := by rw [hsc, he, hc.1]
    refine ⟨tm, r, 0, 0, none, ?_, ?_⟩
    · simp [RangeImpl.deleteContents, hd, deleteContentsRest, hpre,
        processContents_collapsed _ tm hd h1 hc.2]
    · simp [RangeImpl.extractContents, hd, extractContentsRest, hpre,
        processContents_collapsed _ tm hd h1 hc.2]
  · obtain ⟨tmD, rD, F, _, _, h⟩ := processContents_valid hwf hd hsc he hts hte hroot hvalid
      hso0 hso hbs heo0 heo hbe hc
    obtain ⟨ec1, h1⟩ := h .DELETE_CONTENTS
    obtain ⟨ec2, h2⟩ := h .EXTRACT_CONTENTS
    refine ⟨tmD, rD, ec1, ec2, some F, ?_, ?_⟩
    · simp [RangeImpl.deleteContents, hd, deleteContentsRest, hpre, h1, ActionType.removes,
        ActionType.copies]
    · simp [RangeImpl.extractContents, hd, extractContentsRest, hpre, h2, ActionType.removes,
        ActionType.copies]

theorem delete_extract_same_state_witness :
    ∃ tm1 r1 ecD ecE fragment,
      RangeImpl.deleteContents (deleteContentsRest noneReadOnly) sampleModel
          ⟨some (.root 0), some (.child sampleP 0), 1, some (.child sampleDiv 0), 2, false⟩ 0
        = some (tm1, r1, ecD) ∧
      RangeImpl.extractContents (extractContentsRest noneReadOnly) sampleModel
          ⟨some (.root 0), some (.child sampleP 0), 1, some (.child sampleDiv 0), 2, false⟩ 0
        = some (tm1, r1, ecE, fragment) :=
  delete_extract_same_state noneReadOnly sampleModel
    ⟨some (.root 0), some (.child sampleP 0), 1, some (.child sampleDiv 0), 2, false⟩
    (.child sampleP 0) (.child sampleDiv 0) (.mk .TEXT_NODE [97, 98, 99] [])
    (.mk .TEXT_NODE [102, 103, 104] []) (by decide) rfl rfl rfl rfl rfl (by decide) (by decide)
    (by decide) (by decide) (by decide) (by decide) (by decide) (by decide) (by decide)

/-! ## The right contents when the start container is a processing instruction -/

/-- C33, the failing input.  In `<div><?pi?><p>ab cd</p></div>` the range runs from offset 0
of the processing instruction to offset 1 of the paragraph, an element below
the common ancestor `div`.  Line 560 tests the kind of the start container in
the part that builds the right contents, so that part is skipped: `cloneContents`
returns a fragment without children, and no copy of the paragraph with its
first child is its last child.  With a comment in the place of the processing
instruction, the same range gives a fragment whose last child is the copy
of the paragraph that holds its first child `ab`. -/
theorem right_contents_skipped :
    instructionRange.boundaryPointsValid (instructionModel false) = some true ∧
    instructionRange.cloneContents cloneContentsRest (instructionModel false) 0
      = some (instructionModel false, instructionRange, 0,
          some (.mk .DOCUMENT_FRAGMENT_NODE [] [])) ∧
    instructionRange.cloneContents cloneContentsRest (instructionModel true) 0
      = some (instructionModel true, instructionRange, 0,
          some (.mk .DOCUMENT_FRAGMENT_NODE []
            [ .mk .COMMENT_NODE [112, 105] [],
              .mk .ELEMENT_NODE [112] [ .mk .TEXT_NODE [97, 98] [] ] ])) :=
  ⟨by decide, rfl, rfl⟩

/-! ## `toString` and the cloned contents -/

/-- C37, the failing input.  In `<div><?pi?><p>ab cd</p></div>` with the range from offset 0
of the processing instruction to offset 1 of the paragraph, `toString` returns
`ab`, the text node that the range contains, but the fragment that
`cloneContents` returns has no children and so no text: the right contents
are skipped by the test of line 560 on the start container.  With a comment
in the place of the processing instruction both give `ab`. -/
theorem toString_differs_from_clone :
    instructionRange.boundaryPointsValid (instructionModel false) = some true ∧
    instructionRange.toString toStringRest (instructionModel false) 0
      = some (some [97, 98], 0) ∧
    (∃ F, instructionRange.cloneContents cloneContentsRest (instructionModel false) 0
        = some (instructionModel false, instructionRange, 0, some F) ∧ F.text = []) ∧
    instructionRange.toString toStringRest (instructionModel true) 0
      = some (some [97, 98], 0) ∧
    (∃ F, instructionRange.cloneContents cloneContentsRest (instructionModel true) 0
        = some (instructionModel true, instructionRange, 0, some F) ∧ F.text = [97, 98]) :=
  ⟨by decide, by decide, ⟨_, rfl, by decide⟩, by decide, ⟨_, rfl, by decide⟩⟩

/-! ## `insertNode`: the check of the kind of the new node -/

theorem insertNodeChecks_eq {cta : Tree → NodeType → Bool} {tm : TreeModel}
    {n sc : NodeImpl} {ts tn ca : Tree}
    (hts : tm.node sc = some ts) (hn : tm.node n = some tn)
    (hdoc : getDocument tm n = getDocument tm sc)
    (htext : ts.nodeType = .TEXT_NODE → ∃ p, sc.parentNode = some p ∧ tm.node p = some ca)
    (hother : ts.nodeType ≠ .TEXT_NODE → ca = ts) :
    insertNodeChecks cta tm n sc = some
      (if childAllowed cta ca tn = false then some HIERARCHY_REQUEST_ERR
        else if n ∈ sc.ancestors then some HIERARCHY_REQUEST_ERR
        else if tn.nodeType = .ATTRIBUTE_NODE ∨ tn.nodeType = .ENTITY_NODE ∨
            tn.nodeType = .NOTATION_NODE ∨ tn.nodeType = .DOCUMENT_NODE then
          some INVALID_NODE_TYPE_ERR
        else none) := by
  obtain ⟨ds, hds⟩ := getDocument_some_of_valid (valid_iff.mpr ⟨ts, hts⟩)
  have hdn : getDocument tm n = some ds := hdoc.trans hds
  unfold insertNodeChecks
  simp only [hdn, hds, Option.some_bind, ne_eq, not_true_eq_false, if_false, hts, hn]
  by_cases hk : ts.nodeType = .TEXT_NODE
  · obtain ⟨p, hp, hca⟩ := htext hk
    simp [hk, hp, hca]
  · simp [hk, hother hk]

/-- C34. The check of `insertNode` on the kind of the new node.  For a range that is
not detached and passes the checks before it (no read-only container, the new
node `n` belongs to the document of the start container, a text start container
has a parent), with a start container that is not a CDATA section: let `ca` be
the parent of the start container when the start container is a text node, and
the start container itself otherwise (also for a comment and a processing
instruction).  When `ca` does not allow the kind of `n`, or of one of the
children of the fragment `n`, `insertNode` ends with `HIERARCHY_REQUEST_ERR`, the forest
and the range as they were.  The checks of lines 721-776 end with
`HIERARCHY_REQUEST_ERR` exactly when `ca` rejects a kind or `n` is the start container or
one of its ancestors. -/
theorem insertNode_child_type_check (isReadOnly : NodeImpl → Bool)
    (childTypeAllowed : Tree → NodeType → Bool) (tm : TreeModel) (r : RangeImpl)
    (n sc : NodeImpl) (ts tn ca : Tree) (ec : ExceptionCode)
    (hd : r.m_detached = false) (hro : r.containedByReadOnly isReadOnly = false)
    (hsc : r.m_startContainer = some sc)
    (hts : tm.node sc = some ts) (hn : tm.node n = some tn)
    (hdoc : getDocument tm n = getDocument tm sc)
    (_ : ts.nodeType ≠ .CDATA_SECTION_NODE)
    (htext : ts.nodeType = .TEXT_NODE → ∃ p, sc.parentNode = some p ∧ tm.node p = some ca)
    (hother : ts.nodeType ≠ .TEXT_NODE → ca = ts) :
    (childAllowed childTypeAllowed ca tn = false →
      r.insertNode (insertNodeRest isReadOnly childTypeAllowed) tm (some n) ec
        = some (tm, r, HIERARCHY_REQUEST_ERR)) ∧
    (insertNodeChecks childTypeAllowed tm n sc = some (some HIERARCHY_REQUEST_ERR) ↔
      (childAllowed childTypeAllowed ca tn = false ∨ n ∈ sc.ancestors)) := by
  have hchk := @insertNodeChecks_eq childTypeAllowed tm n sc ts tn ca hts hn hdoc htext hother
  constructor
  · intro hrej
    simp [RangeImpl.insertNode, hd, insertNodeRest, insertNodeCore, hro, hsc, hchk, hrej]
  · rw [hchk]
    by_cases h1 : childAllowed childTypeAllowed ca tn = false
    · simp [h1]
    · by_cases h2 : n ∈ sc.ancestors
      · simp [h1, h2]
      · rw [if_neg h1, if_neg h2]
        constructor
        · intro h
          split_ifs at h with h3
          · exact absurd (Option.some.inj (Option.some.inj h)) (by decide)
          · simp at h
        · rintro (h | h)
          · exact absurd h h1
          · exact absurd h h2

theorem insertNode_child_type_check_witness :
    RangeImpl.insertNode (insertNodeRest noneReadOnly domChildTypeAllowed) sampleModel
        ⟨some (.root 0), some sampleAbc, 1, some sampleAbc, 1, false⟩
        (some (.child (.root 0) 0)) 0
      = some (sampleModel, ⟨some (.root 0), some sampleAbc, 1, some sampleAbc, 1, false⟩,
          HIERARCHY_REQUEST_ERR) :=
  (insertNode_child_type_check noneReadOnly domChildTypeAllowed sampleModel
    ⟨some (.root 0), some sampleAbc, 1, some sampleAbc, 1, false⟩ (.child (.root 0) 0) sampleAbc
    (.mk .TEXT_NODE [97, 98, 99] []) (.mk .DOCUMENT_TYPE_NODE [] [])
    (.mk .ELEMENT_NODE [] [
        .mk .TEXT_NODE [97, 98, 99] [],
        .mk .ELEMENT_NODE [] [.mk .TEXT_NODE [100, 101] []]])
    0 rfl rfl rfl rfl rfl rfl (by decide) (fun _ => ⟨sampleP, rfl, rfl⟩)
    (fun h => absurd rfl h)).1 (by decide)

/-- C34, counterexample.  In the sample document the start container is the comment in
the `div`, a character-like node, and the new node is the empty element after
the `div`.  The parent of the start container, the `div`, allows an element as
a child, and the new node is not an ancestor of the start container; but
`insertNode` tests the comment itself, which allows no child, and ends with
`HIERARCHY_REQUEST_ERR`.  And with the text `abc` as start container and the document
element, one of its ancestors, as the new node, the parent of the text allows
an element, yet `insertNode` ends with `HIERARCHY_REQUEST_ERR`, set by the loop over the
ancestors. -/
theorem insertNode_checks_comment_itself :
    sampleModel.node sampleComment = some (.mk .COMMENT_NODE [105] []) ∧
    sampleComment.parentNode = some sampleDiv ∧
    (∃ P N, sampleModel.node sampleDiv = some P ∧
      sampleModel.node (.child sampleHtml 2) = some N ∧
      childAllowed domChildTypeAllowed P N = true) ∧
    NodeImpl.child sampleHtml 2 ∉ sampleComment.ancestors ∧
    RangeImpl.insertNode (insertNodeRest noneReadOnly domChildTypeAllowed) sampleModel
        ⟨some (.root 0), some sampleComment, 0, some sampleComment, 0, false⟩
        (some (.child sampleHtml 2)) 0
      = some (sampleModel, ⟨some (.root 0), some sampleComment, 0, some sampleComment, 0, false⟩,
          HIERARCHY_REQUEST_ERR) ∧
    sampleAbc.parentNode = some sampleP ∧
    (∃ P N, sampleModel.node sampleP = some P ∧ sampleModel.node sampleHtml = some N ∧
      childAllowed domChildTypeAllowed P N = true) ∧
    RangeImpl.insertNode (insertNodeRest noneReadOnly domChildTypeAllowed) sampleModel
        ⟨some (.root 0), some sampleAbc, 1, some sampleAbc, 1, false⟩ (some sampleHtml) 0
      = some (sampleModel, ⟨some (.root 0), some sampleAbc, 1, some sampleAbc, 1, false⟩,
          HIERARCHY_REQUEST_ERR) :=
  ⟨rfl, rfl, ⟨_, _, rfl, rfl, by decide⟩, by decide, rfl, rfl, ⟨_, _, rfl, rfl, by decide⟩, rfl⟩

/-! ## The shape of the nodes after a change of the forest -/

theorem Tree.fits_refl (a : Tree) : a.fits a := ⟨rfl, rfl, le_refl _⟩

theorem Tree.fits_trans {a b c : Tree} (h1 : a.fits b) (h2 : b.fits c) : a.fits c :=
  ⟨h2.1.trans h1.1, h2.2.1.trans h1.2.1, le_trans h1.2.2 h2.2.2⟩

theorem offsetBound_fits {a b : Tree} (h : a.fits b) : offsetBound a ≤ offsetBound b := by
  unfold offsetBound
  rw [h.1, h.2.1]
  split_ifs
  · exact le_refl _
  · exact h.2.2

theorem replace_node_above {tm tm1 : TreeModel} :
    ∀ {p : NodeImpl} {new : Tree}, tm.replace p new = some tm1 →
      ∀ {y : NodeImpl}, y ∈ p.ancestors → y ≠ p → ∀ {Y : Tree}, tm.node y = some Y →
        ∃ Y', tm1.node y = some Y' ∧ Y'.nodeType = Y.nodeType ∧ Y'.data = Y.data ∧
          Y'.children.length = Y.children.length := by
  intro p
  induction p with
  | root t =>
    intro new _ y hy hne
    simp only [NodeImpl.ancestors, List.mem_singleton] at hy
    exact absurd hy hne
  | child q i ih =>
    intro new h y hy hne Y hY
    rcases mem_ancestors_child.mp hy with e | hq
    · exact absurd e hne
    · unfold TreeModel.replace at h
      cases hq1 : tm.node q with
      | none => simp [hq1] at h
      | some tq =>
        simp only [hq1] at h
        split_ifs at h with hi
        by_cases e : y = q
        · subst e
          rw [hq1] at hY
          cases Option.some.inj hY
          exact ⟨_, replace_node_self h, rfl, rfl, by simp [Tree.withChildren_children]⟩
        · exact ih h hq e hY

theorem insert_shape {tm tm1 : TreeModel} {p : NodeImpl} {P : Tree} {M : List Tree} {j : Nat}
    (hp : tm.node p = some P) (hj : j ≤ P.children.length)
    (hr : tm.replace p (P.withChildren (P.children.take j ++ M ++ P.children.drop j))
      = some tm1) :
    ∀ (y : NodeImpl) (Y : Tree), tm.node y = some Y →
      ∃ Y', tm1.node (relocateInsert p j M.length y) = some Y' ∧ Y'.nodeType = Y.nodeType ∧
        Y'.data = Y.data ∧
        Y'.children.length = Y.children.length + (if y = p then M.length else 0) := by
  intro y Y hY
  by_cases hy : y ∈ p.ancestors
  · by_cases e : y = p
    · subst e
      rw [hp] at hY
      cases Option.some.inj hY
      refine ⟨P.withChildren (P.children.take j ++ M ++ P.children.drop j),
        by rw [relocateInsert_self]; exact replace_node_self hr, rfl, rfl, ?_⟩
      simp only [Tree.withChildren_children, List.length_append, List.length_take,
        List.length_drop, if_true]
      omega
    · rw [relocateInsert_of_depth_le _ _ _ (depth_le_of_mem_ancestors hy)]
      obtain ⟨Y', h1, h2, h3, h4⟩ := replace_node_above hr hy e hY
      exact ⟨Y', h1, h2, h3, by simp [e, h4]⟩
  · have hne : y ≠ p := fun e => hy (e ▸ mem_ancestors_self _)
    have := node_reindex hp hr (relocateInsert p j M.length)
      (fun i => if j ≤ i then i + M.length else i)
      (fun i => relocateInsert_child_same p j M.length i)
      (fun q i hq => relocateInsert_child_ne p j M.length i hq)
      (fun t => rfl) y hy (fun i hi => by
        by_cases hji : j ≤ i
        · simp only [hji, if_true]
          exact getElem?_insert_ge _ _ hji hj
        · simp only [hji, if_false]
          exact getElem?_insert_lt _ _ (by omega) hj)
    exact ⟨Y, by rw [this, hY], rfl, rfl, by simp [hne]⟩

theorem erase_shape {tm tm1 : TreeModel} {q : NodeImpl} {Q : Tree} {j1 : Nat}
    (hq : tm.node q = some Q)
    (hr : tm.replace q (Q.withChildren (Q.children.eraseIdx j1)) = some tm1) :
    ∀ (y : NodeImpl) (Y : Tree), tm.node y = some Y → .child q j1 ∉ y.ancestors →
      ∃ Y', tm1.node (relocate q j1 y) = some Y' ∧ Y'.nodeType = Y.nodeType ∧
        Y'.data = Y.data ∧
        Y'.children.length = Y.children.length -
          (if y = q ∧ j1 < Q.children.length then 1 else 0) := by
  intro y Y hY hnb
  by_cases hy : y ∈ q.ancestors
  · by_cases e : y = q
    · subst e
      rw [hq] at hY
      cases Option.some.inj hY
      refine ⟨Q.withChildren (Q.children.eraseIdx j1),
        by rw [relocate_self]; exact replace_node_self hr, rfl, rfl, ?_⟩
      simp only [Tree.withChildren_children, List.length_eraseIdx, true_and]
      split_ifs <;> rfl
    · rw [relocate_of_depth_le _ _ (depth_le_of_mem_ancestors hy)]
      obtain ⟨Y', h1, h2, h3, h4⟩ := replace_node_above hr hy e hY
      exact ⟨Y', h1, h2, h3, by simp [e, h4]⟩
  · have hne : y ≠ q := fun e => hy (e ▸ mem_ancestors_self _)
    have := node_reindex hq hr (relocate q j1)
      (fun i => if j1 < i then i - 1 else i)
      (fun i => relocate_child_same q j1 i)
      (fun q1 i hq1 => relocate_child_ne q j1 i hq1)
      (fun t => rfl) y hy (fun i hi => by
        have hij : i ≠ j1 := fun e => hnb (e ▸ hi)
        exact getElem?_eraseIdx_other _ hij)
    exact ⟨Y, by rw [this, hY], rfl, rfl, by simp [hne]⟩

theorem node_rebase {tm tm1 : TreeModel} {n new : NodeImpl}
    (h : tm1.node new = tm.node n) :
    ∀ (y : NodeImpl), n ∈ y.ancestors → tm1.node (rebase n new y) = tm.node y := by
  intro y
  induction y with
  | root t =>
    intro hy
    simp only [NodeImpl.ancestors, List.mem_singleton] at hy
    subst hy
    simp [rebase, h]
  | child q i ih =>
    intro hy
    by_cases e : NodeImpl.child q i = n
    · subst e
      simp [rebase, h]
    · rcases mem_ancestors_child.mp hy with e1 | hq
      · exact absurd e1.symm e
      · simp only [rebase, e, if_false, TreeModel.node, ih hq]

theorem node_rebaseChildren {tm tm1 : TreeModel} {old new : NodeImpl} {j : Nat}
    (h : ∀ i X, tm.node (.child old i) = some X → tm1.node (.child new (j + i)) = some X) :
    ∀ (y : NodeImpl) (Y : Tree), tm.node y = some Y → old ∈ y.ancestors → y ≠ old →
      tm1.node (rebaseChildren old new j y) = some Y := by
  intro y
  induction y with
  | root t =>
    intro Y _ hy hne
    simp only [NodeImpl.ancestors, List.mem_singleton] at hy
    exact absurd hy.symm hne
  | child q i ih =>
    intro Y hY hy hne
    by_cases e : q = old
    · subst e
      simp only [rebaseChildren, if_true]
      exact h i Y hY
    · rcases mem_ancestors_child.mp hy with e1 | hq
      · exact absurd e1.symm hne
      · simp only [rebaseChildren, e, if_false]
        simp only [TreeModel.node, Option.bind_eq_some] at hY ⊢
        obtain ⟨Q, hQ, hi⟩ := hY
        exact ⟨Q, ih Q hQ hq e, hi⟩

theorem split_shape {tm tmS : TreeModel} {p : NodeImpl} {j : Nat} {P T T2 : Tree}
    {d1 : List Nat} (hp : tm.node p = some P) (hT : P.children[j]? = some T)
    (hleaf : T.children = [])
    (hr : tm.replace p (P.withChildren (P.children.take j ++ [T.withData d1, T2] ++
      P.children.drop (j + 1))) = some tmS) :
    tmS.node (.child p j) = some (T.withData d1) ∧
    ∀ (y : NodeImpl) (Y : Tree), tm.node y = some Y → y ≠ .child p j →
      ∃ Y', tmS.node (relocateInsert p (j + 1) 1 y) = some Y' ∧ Y.fits Y' := by
  have hj : j < P.children.length := by
    rw [List.getElem?_eq_some_iff] at hT
    exact hT.1
  have hsp := getElem?_split P.children hj (T.withData d1) T2
  have hPS := replace_node_self hr
  have htj : tm.node (.child p j) = some T := by rw [node_child_eq hp, hT]
  refine ⟨by rw [node_child_eq hPS, Tree.withChildren_children]; exact hsp.1, ?_⟩
  intro y Y hY hne
  by_cases hy : y ∈ p.ancestors
  · by_cases e : y = p
    · subst e
      rw [hp] at hY
      cases Option.some.inj hY
      refine ⟨P.withChildren (P.children.take j ++ [T.withData d1, T2] ++
        P.children.drop (j + 1)), by rw [relocateInsert_self]; exact hPS, rfl, rfl, ?_⟩
      simp only [Tree.withChildren_children, List.length_append, List.length_take,
        List.length_drop, List.length_cons, List.length_nil]
      omega
    · rw [relocateInsert_of_depth_le _ _ _ (depth_le_of_mem_ancestors hy)]
      obtain ⟨Y', h1, h2, h3, h4⟩ := replace_node_above hr hy e hY
      exact ⟨Y', h1, h2, h3, le_of_eq h4.symm⟩
  · have := node_reindex hp hr (relocateInsert p (j + 1) 1)
      (fun i => if j + 1 ≤ i then i + 1 else i)
      (fun i => relocateInsert_child_same p (j + 1) 1 i)
      (fun q i hq => relocateInsert_child_ne p (j + 1) 1 i hq)
      (fun t => rfl) y hy (fun i hi => by
        by_cases hij : i = j
        · subst hij
          rw [node_below_leaf htj hleaf hi hne] at hY
          cases hY
        · exact hsp.2.2 i hij)
    exact ⟨Y, by rw [this, hY], Tree.fits_refl Y⟩

theorem takeOut_shape {tm : TreeModel} {n : NodeImpl}
    {d : TreeModel × Tree × (NodeImpl → NodeImpl)} (hd : takeOut tm n = some d) :
    ∀ (y : NodeImpl) (Y : Tree), tm.node y = some Y → n ∉ y.ancestors →
      ∃ Y', d.1.node (d.2.2 y) = some Y' ∧ Y'.nodeType = Y.nodeType ∧ Y'.data = Y.data ∧
        Y'.children.length = Y.children.length - (if n.parentNode = some y then 1 else 0) := by
  intro y Y hY hny
  cases n with
  | root t =>
    simp only [takeOut, Option.bind_eq_some, Option.map_eq_some'] at hd
    obtain ⟨sub, _, tmE, hE, rfl⟩ := hd
    have hti : y.treeIndex ≠ (NodeImpl.root t).treeIndex := treeIndex_ne_of_root_not_mem hny
    refine ⟨Y, ?_, rfl, rfl, by simp [NodeImpl.parentNode]⟩
    simp only [id]
    rw [replace_node_other_tree hE hti, hY]
  | child q j1 =>
    simp only [takeOut, detachNode, Option.bind_eq_some, Option.map_eq_some'] at hd
    obtain ⟨Q, hQ, sub, hsub, tmE, hE, rfl⟩ := hd
    have hj : j1 < Q.children.length := by
      rw [List.getElem?_eq_some_iff] at hsub
      exact hsub.1
    obtain ⟨Y', h1, h2, h3, h4⟩ := erase_shape hQ hE y Y hY hny
    refine ⟨Y', h1, h2, h3, ?_⟩
    rw [h4]
    simp only [NodeImpl.parentNode, Option.some.injEq, hj, and_true]
    by_cases e : y = q
    · simp [e]
    · have e2 : ¬ q = y := fun h => e h.symm
      simp [e, e2]

theorem relocate_child_parent (q : NodeImpl) (j : Nat) (p : NodeImpl) (a : Nat) :
    ∃ a', relocate q j (.child p a) = .child (relocate q j p) a' := by
  by_cases e : p = q
  · subst e
    exact ⟨_, by rw [relocate_child_same, relocate_self]⟩
  · exact ⟨a, relocate_child_ne q j a e⟩

theorem takeOut_child_parent {tm : TreeModel} {n : NodeImpl}
    {d : TreeModel × Tree × (NodeImpl → NodeImpl)} (hd : takeOut tm n = some d)
    (p : NodeImpl) (a : Nat) : ∃ a', d.2.2 (.child p a) = .child (d.2.2 p) a' := by
  cases n with
  | root t =>
    simp only [takeOut, Option.bind_eq_some, Option.map_eq_some'] at hd
    obtain ⟨sub, _, tmE, hE, rfl⟩ := hd
    exact ⟨a, rfl⟩
  | child q j1 =>
    simp only [takeOut, detachNode, Option.bind_eq_some, Option.map_eq_some'] at hd
    obtain ⟨Q, hQ, sub, hsub, tmE, hE, rfl⟩ := hd
    exact relocate_child_parent q j1 p a


theorem insert_fragment_shape {tm tmE tm1 : TreeModel} {p : NodeImpl} {t j : Nat}
    {N tp : Tree} (hn : tm.node (.root t) = some N) (htp : tm.node p = some tp)
    (hanc : NodeImpl.root t ∉ p.ancestors) (hj : j ≤ tp.children.length)
    (hE : tm.replace (.root t) (N.withChildren []) = some tmE)
    (h2 : tmE.replace p (tp.withChildren
      (tp.children.take j ++ N.children ++ tp.children.drop j)) = some tm1) :
    ∀ (y : NodeImpl) (Y : Tree), tm.node y = some Y → y ≠ .root t →
      ∃ Y', tm1.node (if NodeImpl.root t ∈ y.ancestors ∧ y ≠ .root t then
          rebaseChildren (.root t) p j y
          else relocateInsert p j N.children.length y) = some Y' ∧ Y.fits Y' := by
  intro y Y hY hne
  have hpt : p.treeIndex ≠ (NodeImpl.root t).treeIndex := treeIndex_ne_of_root_not_mem hanc
  have hpe : tmE.node p = some tp := by rw [replace_node_other_tree hE hpt, htp]
  by_cases hb : NodeImpl.root t ∈ y.ancestors
  · simp only [hb, hne, ne_eq, not_false_eq_true, and_self, if_true]
    refine ⟨Y, ?_, Tree.fits_refl Y⟩
    refine node_rebaseChildren (fun i X hX => ?_) y Y hY hb hne
    rw [node_child_eq (replace_node_self h2), Tree.withChildren_children]
    rw [node_child_eq hn] at hX
    have hi : i < N.children.length := by
      rw [List.getElem?_eq_some_iff] at hX
      exact hX.1
    rw [getElem?_insert_mid _ _ i hj hi, hX]
  · simp only [hb, false_and, if_false]
    have hyt : y.treeIndex ≠ (NodeImpl.root t).treeIndex := treeIndex_ne_of_root_not_mem hb
    have hyE : tmE.node y = some Y := by rw [replace_node_other_tree hE hyt, hY]
    obtain ⟨Y', h5, h6, h7, h8⟩ := insert_shape hpe hj h2 y Y hyE
    exact ⟨Y', h5, h6, h7, by omega⟩

theorem insert_node_shape {tm tm1 : TreeModel} {p n : NodeImpl} {j : Nat} {N PE : Tree}
    {d : TreeModel × Tree × (NodeImpl → NodeImpl)}
    (hn : tm.node n = some N) (hd : takeOut tm n = some d)
    (hPE : d.1.node (d.2.2 p) = some PE) (hj : j ≤ PE.children.length)
    (h2 : d.1.replace (d.2.2 p) (PE.withChildren
      (PE.children.take j ++ [d.2.1] ++ PE.children.drop j)) = some tm1) :
    ∀ (y : NodeImpl) (Y : Tree), tm.node y = some Y → (n.parentNode = some y → y = p) →
      ∃ Y', tm1.node (if n ∈ y.ancestors then rebase n (.child (d.2.2 p) j) y
          else relocateInsert (d.2.2 p) j 1 (d.2.2 y)) = some Y' ∧ Y.fits Y' := by
  intro y Y hY hpar
  obtain ⟨_, _, hsub, _⟩ := takeOut_other_tree hd
  have hdN : d.2.1 = N := hsub N hn
  by_cases hb : n ∈ y.ancestors
  · simp only [hb, if_true]
    refine ⟨Y, ?_, Tree.fits_refl Y⟩
    rw [← hY]
    refine node_rebase ?_ y hb
    rw [node_child_eq (replace_node_self h2), Tree.withChildren_children, hn, hdN]
    have := getElem?_insert_mid PE.children [N] 0 hj (by simp)
    simpa using this
  · simp only [hb, if_false]
    obtain ⟨Y1, hY1, h6, h7, h8⟩ := takeOut_shape hd y Y hY hb
    obtain ⟨Y', h9, h10, h11, h12⟩ := insert_shape hPE hj h2 (d.2.2 y) Y1 hY1
    refine ⟨Y', h9, h10.trans h6, h11.trans h7, ?_⟩
    rw [h12, h8]
    by_cases hp1 : n.parentNode = some y
    · have hyp := hpar hp1
      subst hyp
      simp only [hp1, if_true, List.length_cons, List.length_nil]
      omega
    · simp only [hp1, if_false]
      omega

/-- The nodes after `insertBefore` has put the node at `n` into the children of
`p`: each node of the forest, at its new place, is of the kind it was, holds
the data it held and has at least as many children, except a fragment that
has given its children away and the former parent of the node that has been
moved. -/
theorem insertBefore_shape {cta : Tree → NodeType → Bool} {tm tm1 : TreeModel}
    {p n : NodeImpl} {ref : Ptr} {ρ : NodeImpl → NodeImpl} {N : Tree}
    (hn : tm.node n = some N)
    (hfr : N.nodeType = .DOCUMENT_FRAGMENT_NODE → n.parentNode = none)
    (h : insertBefore cta tm p (some n) ref 0 = some (tm1, 0, ρ)) :
    ∀ (y : NodeImpl) (Y : Tree), tm.node y = some Y →
      (N.nodeType = .DOCUMENT_FRAGMENT_NODE → y ≠ n) →
      (n.parentNode = some y → y = p) →
      ∃ Y', tm1.node (ρ y) = some Y' ∧ Y.fits Y' := by
  intro y Y hY hyn hpar
  unfold insertBefore at h
  simp only [Option.bind_eq_some] at h
  obtain ⟨tp, htp, tn, htn, h⟩ := h
  rw [hn] at htn
  cases Option.some.inj htn
  split at h
  · simp only [Option.some.injEq, Prod.mk.injEq] at h
    exact absurd h.2.1 (by decide)
  · rename_i hanc
    split at h
    · simp only [Option.some.injEq, Prod.mk.injEq] at h
      exact absurd h.2.1 (by decide)
    · split at h
      · simp only [Option.some.injEq, Prod.mk.injEq] at h
        exact absurd h.2.1 (by decide)
      · rename_i hrefok
        split at h
        · simp only [Option.some.injEq, Prod.mk.injEq] at h
          obtain ⟨h1, _, h3⟩ := h
          subst h1
          subst h3
          exact ⟨Y, hY, Tree.fits_refl Y⟩
        · rename_i hrefn
          split at h
          · rename_i hfrag
            have hroot := hfr hfrag
            simp only [Option.bind_eq_some, Option.map_eq_some'] at h
            obtain ⟨tmE, hE, PE, hPE, tm2, h2, h⟩ := h
            simp only [Prod.mk.injEq, true_and] at h
            obtain ⟨h3, h4⟩ := h
            subst h3
            subst h4
            cases n with
            | child q i => simp [NodeImpl.parentNode] at hroot
            | root t =>
              have hpt : p.treeIndex ≠ (NodeImpl.root t).treeIndex :=
                treeIndex_ne_of_root_not_mem hanc
              have hpe : tmE.node p = some tp := by
                rw [replace_node_other_tree hE hpt, htp]
              rw [hpe] at hPE
              cases Option.some.inj hPE
              cases ref with
              | none =>
                exact insert_fragment_shape hn htp hanc (le_refl _) hE h2 y Y hY (hyn hfrag)
              | some rc =>
                simp only [Bool.or_eq_true, decide_eq_true_eq, not_or, ne_eq, not_not,
                  Option.isNone_iff_eq_none] at hrefok
                cases rc with
                | root t1 => simp [NodeImpl.parentNode] at hrefok
                | child q a =>
                  simp only [NodeImpl.parentNode, Option.some.injEq] at hrefok
                  obtain ⟨hq, hv⟩ := hrefok
                  subst hq
                  have hva : tm.valid (.child q a) := by
                    rw [TreeModel.valid]
                    cases hc : tm.node (.child q a) with
                    | none => exact absurd hc hv
                    | some _ => rfl
                  exact insert_fragment_shape hn htp hanc
                    (le_of_lt (valid_child_lt htp hva)) hE h2 y Y hY (hyn hfrag)
          · rename_i hfrag
            simp only [Option.bind_eq_some, Option.map_eq_some'] at h
            obtain ⟨d, hd, PE, hPE, tm2, h2, h⟩ := h
            simp only [Prod.mk.injEq, true_and] at h
            obtain ⟨h3, h4⟩ := h
            subst h3
            subst h4
            cases ref with
            | none => exact insert_node_shape hn hd hPE (le_refl _) h2 y Y hY hpar
            | some rc =>
              simp only [Bool.or_eq_true, decide_eq_true_eq, not_or, ne_eq, not_not,
                Option.isNone_iff_eq_none] at hrefok
              cases rc with
              | root t1 => simp [NodeImpl.parentNode] at hrefok
              | child q a =>
                simp only [NodeImpl.parentNode, Option.some.injEq] at hrefok
                obtain ⟨hq, hv⟩ := hrefok
                subst hq
                cases hc : tm.node (.child q a) with
                | none => exact absurd hc hv
                | some RC =>
                  have hnrc : n ∉ (NodeImpl.child q a).ancestors := by
                    intro hm
                    rcases mem_ancestors_child.mp hm with e | e
                    · exact hrefn (by rw [e])
                    · exact hanc e
                  obtain ⟨RC', hRC', _⟩ := takeOut_shape hd _ RC hc hnrc
                  obtain ⟨a', ha'⟩ := takeOut_child_parent hd q a
                  have hja : (d.2.2 (.child q a)).nodeIndex ≤ PE.children.length := by
                    rw [ha'] at hRC' ⊢
                    simp only [NodeImpl.nodeIndex]
                    exact le_of_lt (valid_child_lt hPE (valid_iff.mpr ⟨RC', hRC'⟩))
                  exact insert_node_shape hn hd hPE hja h2 y Y hY hpar

/-! ## `insertNode`: the offsets of the range afterwards -/

theorem relocateInsert_parentNode (p : NodeImpl) (a c : Nat) (x : NodeImpl) :
    (relocateInsert p a c x).parentNode = x.parentNode.map (relocateInsert p a c) := by
  cases x with
  | root t => rfl
  | child q i =>
    by_cases e : q = p
    · subst e
      simp [relocateInsert_child_same, NodeImpl.parentNode, relocateInsert_self]
    · simp [relocateInsert_child_ne _ _ _ _ e, NodeImpl.parentNode]

theorem children_nil_of_characterLike {t : Tree} (hwf : t.wellFormed = true)
    (hk : isCharacterLike t.nodeType = true) : t.children = [] := by
  cases t with
  | mk k d cs =>
    simp only [Tree.wellFormed, Bool.and_eq_true, Bool.or_eq_true, Bool.not_eq_true',
      List.isEmpty_iff] at hwf
    simp only [Tree.nodeType] at hk
    rcases hwf.1 with h | h
    · rw [h] at hk
      cases hk
    · exact h

theorem insertNode_moved_of_run {iro : NodeImpl → Bool} {cta : Tree → NodeType → Bool}
    {tm tm1 : TreeModel} {r r1 : RangeImpl} {n : Ptr} {ec ec1 : ExceptionCode}
    (hrun : r.insertNode (insertNodeRest iro cta) tm n ec = some (tm1, r1, ec1)) :
    ∃ ρ, insertNodeMoved iro cta tm r n ec = some (tm1, r1, ec1, ρ) := by
  unfold RangeImpl.insertNode at hrun
  unfold insertNodeMoved
  split at hrun
  · rename_i hd
    simp only [Option.some.injEq, Prod.mk.injEq] at hrun
    obtain ⟨h1, h2, h3⟩ := hrun
    subst h1 h2 h3
    exact ⟨id, by simp [hd]⟩
  · rename_i hd
    simp only [insertNodeRest, Option.map_eq_some'] at hrun
    obtain ⟨x, hx, hxe⟩ := hrun
    obtain ⟨a, b, c, ρ⟩ := x
    simp only [Prod.mk.injEq] at hxe
    obtain ⟨h1, h2, h3⟩ := hxe
    subst h1 h2 h3
    exact ⟨ρ, by simp [hd, hx]⟩

theorem insertNode_text_has_parent {iro : NodeImpl → Bool} {cta : Tree → NodeType → Bool}
    {tm tm1 : TreeModel} {r r1 : RangeImpl} {n sc : NodeImpl} {ts : Tree} {ec : ExceptionCode}
    (hsc : r.m_startContainer = some sc) (hts : tm.node sc = some ts)
    (hk : ts.nodeType = .TEXT_NODE ∨ ts.nodeType = .CDATA_SECTION_NODE)
    (hrun : r.insertNode (insertNodeRest iro cta) tm (some n) ec = some (tm1, r1, 0)) :
    ∃ p j, sc = .child p j := by
  cases sc with
  | child p j => exact ⟨p, j, rfl⟩
  | root t =>
    exfalso
    unfold RangeImpl.insertNode at hrun
    split at hrun
    · simp only [Option.some.injEq, Prod.mk.injEq] at hrun
      exact absurd hrun.2.2 (by decide)
    · simp only [insertNodeRest, Option.map_eq_some'] at hrun
      obtain ⟨x, hx, hxe⟩ := hrun
      unfold insertNodeCore at hx
      split at hx
      · simp only [Option.some.injEq] at hx
        subst hx
        simp only [Prod.mk.injEq] at hxe
        exact absurd hxe.2.2 (by decide)
      · simp only [hsc, Option.bind_eq_some] at hx
        obtain ⟨c, hc, hx⟩ := hx
        cases c with
        | some e =>
          simp only [Option.some.injEq] at hx
          subst hx
          simp only [Prod.mk.injEq] at hxe
          exact absurd hxe.2.2 (insertNodeChecks_code hc)
        | none =>
          simp only [insertNodePlace, hts, Option.some_bind, hk, if_true, splitText,
            Option.bind_eq_some, Option.map_eq_some'] at hx
          obtain ⟨sp, hsp, hx⟩ := hx
          split at hsp
          · simp only [Option.some.injEq] at hsp
            subst hsp
            simp only [ne_eq] at hx
            rw [if_pos (by decide)] at hx
            simp only [Option.some.injEq] at hx
            subst hx
            simp only [Prod.mk.injEq] at hxe
            exact absurd hxe.2.2 (by decide)
          · simp only [Option.bind_eq_some, Option.map_eq_some'] at hsp
            obtain ⟨doc, _, tmS, _, rfl⟩ := hsp
            simp only [id, NodeImpl.parentNode] at hx
            split at hx
            · simp only [Option.some.injEq] at hx
              subst hx
              simp only [Prod.mk.injEq] at hxe
              rename_i hne
              exact absurd hxe.2.2 hne
            · simp at hx


theorem offsetValid_of_fits {tm : TreeModel} {x : NodeImpl} {Y Y' : Tree} {o : Int}
    (h : tm.node x = some Y') (hf : Y.fits Y') (h0 : 0 ≤ o) (hb : o ≤ (offsetBound Y : Int)) :
    offsetValid tm (some x) o = true := by
  have := offsetBound_fits hf
  simp only [offsetValid, Option.some_bind, h, decide_eq_true_eq]
  omega

theorem ne_of_other_tree {n sc e : NodeImpl} (hroot : rootContainer sc = rootContainer e)
    (hn : n.parentNode = none) (hanc : n ∉ sc.ancestors) : e ≠ n := by
  intro h
  subst h
  cases e with
  | child q i => simp [NodeImpl.parentNode] at hn
  | root t =>
    have h1 := treeIndex_ne_of_root_not_mem hanc
    rw [rootContainer_eq_root, rootContainer_eq_root] at hroot
    simp only [NodeImpl.root.injEq] at hroot
    exact h1 hroot


/-- C38. The boundary points after `insertNode`.  For a range with both containers
in one tree of a well-formed forest and offsets within the bounds of their
containers, and a new node `n` (a document fragment has no parent), after
`insertNode(n)` has returned without error: the start offset lies within the
bounds of the start container; and so does the end offset for the end
container, unless the end container is the text or CDATA node that
`insertNode` has split and the end offset is greater than the start offset, or
`n` was a child of the end container and has been put into another node. -/
theorem insertNode_keeps_offsets (isReadOnly : NodeImpl → Bool)
    (childTypeAllowed : Tree → NodeType → Bool) (tm tm1 : TreeModel) (r r1 : RangeImpl)
    (n sc e : NodeImpl) (ts te tn : Tree)
    (hwf : tm.wellFormed = true)
    (hsc : r.m_startContainer = some sc) (he : r.m_endContainer = some e)
    (hts : tm.node sc = some ts) (hte : tm.node e = some te) (hn : tm.node n = some tn)
    (hroot : rootContainer sc = rootContainer e)
    (hfrag : tn.nodeType = .DOCUMENT_FRAGMENT_NODE → n.parentNode = none)
    (hso0 : 0 ≤ r.m_startOffset) (hso : r.m_startOffset ≤ offsetBound ts)
    (hbs : (offsetBound ts : Int) < 2 ^ 31)
    (heo0 : 0 ≤ r.m_endOffset) (heo : r.m_endOffset ≤ offsetBound te)
    (hrun : r.insertNode (insertNodeRest isReadOnly childTypeAllowed) tm (some n) 0
      = some (tm1, r1, 0)) :
    offsetValid tm1 r1.m_startContainer r1.m_startOffset = true ∧
    (¬ (e = sc ∧ (ts.nodeType = .TEXT_NODE ∨ ts.nodeType = .CDATA_SECTION_NODE) ∧
        r.m_startOffset < r.m_endOffset) →
      (n.parentNode = some e →
        some e = (if ts.nodeType = .TEXT_NODE ∨ ts.nodeType = .CDATA_SECTION_NODE then
          sc.parentNode else some sc)) →
      offsetValid tm1 r1.m_endContainer r1.m_endOffset = true) := by
  by_cases hk : ts.nodeType = .TEXT_NODE ∨ ts.nodeType = .CDATA_SECTION_NODE
  · obtain ⟨p, j, rfl⟩ := insertNode_text_has_parent hsc hts hk hrun
    have hts' := hts
    simp only [TreeModel.node, Option.bind_eq_some] at hts'
    obtain ⟨P, hP, hT⟩ := hts'
    obtain ⟨hnanc, hle, tmS, ρ, hS, hib, hr1, _⟩ := insertNode_text_inv hsc hP hT hk hrun
    have hchar : isCharacterLike ts.nodeType = true := by
      rcases hk with h | h <;> rw [h] <;> rfl
    have hleaf : ts.children = [] :=
      children_nil_of_characterLike (wellFormed_node hwf hts) hchar
    obtain ⟨hscS, hshape⟩ := split_shape hP hT hleaf hS
    have hnsc : n ≠ .child p j := fun h => hnanc (h ▸ mem_ancestors_self _)
    obtain ⟨N1, hN1, hfN1⟩ := hshape n tn hn hnsc
    have hfr1 : N1.nodeType = .DOCUMENT_FRAGMENT_NODE →
        (relocateInsert p (j + 1) 1 n).parentNode = none := by
      intro h
      rw [relocateInsert_parentNode]
      rw [hfrag (hfN1.1 ▸ h)]
      rfl
    have hsh := insertBefore_shape hN1 hfr1 hib
    have hρsc : relocateInsert p (j + 1) 1 (.child p j) = .child p j := by
      rw [relocateInsert_child_same]
      simp
    have hinj := relocateInsert_injective p (j + 1) 1
    -- the start container and every container at the same node
    have hsame : ∀ o : Int, 0 ≤ o → o ≤ r.m_startOffset →
        offsetValid tm1 (some (ρ (.child p j))) o = true := by
      intro o ho0 ho
      obtain ⟨Y', hY', hf⟩ := hsh (.child p j) _ hscS
        (fun _ h2 => hnsc (hinj _ _ (hρsc.trans h2)).symm)
        (fun h => by
          exfalso
          cases hx : relocateInsert p (j + 1) 1 n with
          | root t => rw [hx] at h; simp [NodeImpl.parentNode] at h
          | child q i =>
            rw [hx] at h hN1
            simp only [NodeImpl.parentNode, Option.some.injEq] at h
            subst h
            rw [node_child_eq hscS, Tree.withData_children, hleaf] at hN1
            simp at hN1)
      simp only [offsetValid, Option.some_bind, hY', decide_eq_true_eq]
      refine ⟨ho0, ?_⟩
      have hb : offsetBound Y' = (ts.data.take (toUnsigned r.m_startOffset)).length := by
        unfold offsetBound
        rw [hf.1, hf.2.1, Tree.withData_nodeType, Tree.withData_data, if_pos hchar]
      have hu : (toUnsigned r.m_startOffset : Int) = r.m_startOffset := by
        unfold toUnsigned
        have : r.m_startOffset % 2 ^ 32 = r.m_startOffset := Int.emod_eq_of_lt hso0 (by omega)
        rw [this]
        omega
      rw [hb, List.length_take]
      omega
    have hr1s : r1.m_startContainer = some (ρ (.child p j)) := by
      rw [hr1]
      simp [RangeImpl.relocate, hsc, hρsc]
    have hr1e : r1.m_endContainer = some (ρ (relocateInsert p (j + 1) 1 e)) := by
      rw [hr1]
      simp [RangeImpl.relocate, he]
    have hr1so : r1.m_startOffset = r.m_startOffset := by rw [hr1]; rfl
    have hr1eo : r1.m_endOffset = r.m_endOffset := by rw [hr1]; rfl
    refine ⟨by rw [hr1s, hr1so]; exact hsame _ hso0 (le_refl _), ?_⟩
    intro hsplit hpar
    rw [hr1e, hr1eo]
    by_cases hes : e = .child p j
    · subst hes
      rw [hρsc]
      refine hsame _ heo0 ?_
      by_contra hc
      exact hsplit ⟨rfl, hk, by omega⟩
    · obtain ⟨E1, hE1, hfE1⟩ := hshape e te hte hes
      obtain ⟨E2, hE2, hfE2⟩ := hsh _ E1 hE1
        (fun h1 h2 => by
          have hen : e = n := hinj _ _ h2
          exact ne_of_other_tree hroot (hfrag (hfN1.1 ▸ h1)) hnanc hen)
        (fun h => by
          rw [relocateInsert_parentNode] at h
          cases hq : n.parentNode with
          | none => rw [hq] at h; cases h
          | some q =>
            rw [hq] at h
            simp only [Option.map_some', Option.some.injEq] at h
            have hqe : q = e := hinj _ _ h
            subst hqe
            have := hpar hq
            rw [if_pos hk] at this
            simp only [NodeImpl.parentNode, Option.some.injEq] at this
            subst this
            exact relocateInsert_self _ _ _)
      exact offsetValid_of_fits hE2 (Tree.fits_trans hfE1 hfE2) heo0 heo
  · obtain ⟨ρ, hmoved⟩ := insertNode_moved_of_run hrun
    obtain ⟨hnanc, hib, hr1⟩ := insertNode_element_inv hsc hts hk hmoved
    have hsh := insertBefore_shape hn hfrag hib
    have hnsc : n ≠ sc := fun h => hnanc (h ▸ mem_ancestors_self _)
    have hr1s : r1.m_startContainer = some (ρ sc) := by
      rw [hr1]
      simp [RangeImpl.relocate, hsc]
    have hr1e : r1.m_endContainer = some (ρ e) := by
      rw [hr1]
      simp [RangeImpl.relocate, he]
    have hr1so : r1.m_startOffset = r.m_startOffset := by rw [hr1]; rfl
    have hr1eo : r1.m_endOffset = r.m_endOffset := by rw [hr1]; rfl
    constructor
    · obtain ⟨Y', hY', hf⟩ := hsh sc ts hts (fun _ h => hnsc h.symm) (fun _ => rfl)
      rw [hr1s, hr1so]
      exact offsetValid_of_fits hY' hf hso0 hso
    · intro _ hpar
      obtain ⟨Y', hY', hf⟩ := hsh e te hte
        (fun h1 h2 => ne_of_other_tree hroot (hfrag h1) hnanc h2)
        (fun h => by
          have := hpar h
          rw [if_neg hk] at this
          exact Option.some.inj this)
      rw [hr1e, hr1eo]
      exact offsetValid_of_fits hY' hf heo0 heo


theorem insertNode_keeps_offsets_witness :
    offsetValid insertedModel insertRange.m_startContainer insertRange.m_startOffset = true ∧
    offsetValid insertedModel insertRange.m_endContainer insertRange.m_endOffset = true :=
  ⟨(insertNode_keeps_offsets noneReadOnly domChildTypeAllowed insertModel insertedModel
      insertRange insertRange (.root 1) insertText insertText insertTextNode insertTextNode
      insertFragment (by decide) rfl rfl rfl rfl rfl rfl (fun _ => rfl) (by decide) (by decide)
      (by decide) (by decide) (by decide) rfl).1,
    (insertNode_keeps_offsets noneReadOnly domChildTypeAllowed insertModel insertedModel
      insertRange insertRange (.root 1) insertText insertText insertTextNode insertTextNode
      insertFragment (by decide) rfl rfl rfl rfl rfl rfl (fun _ => rfl) (by decide) (by decide)
      (by decide) (by decide) (by decide) rfl).2 (by decide) (by decide)⟩

/-- C38, counterexample.  In `<div>abcdef</div>` the range runs from offset 2 to offset 5 of
the text, both within its six code units.  `insertNode` of the fragment reports
no error and splits the text at offset 2: the start container, which is also
the end container, is left with `ab`, and the end offset 5 lies beyond its
length.  And in `<div><b>x</b><i>y</i></div>` with the range from `(b, 0)` to `(div, 2)`,
`insertNode` of the `i` moves it into the `b`: the `div` is left with one child, and
the end offset 2 lies beyond its number of children. -/
theorem insertNode_end_beyond_bounds :
    (∃ tm1 r1, RangeImpl.insertNode (insertNodeRest noneReadOnly domChildTypeAllowed) insertModel
        ⟨some (.root 0), some insertText, 2, some insertText, 5, false⟩ (some (.root 1)) 0
        = some (tm1, r1, 0) ∧
      offsetValid insertModel (some insertText) 2 = true ∧
      offsetValid insertModel (some insertText) 5 = true ∧
      r1 = ⟨some (.root 0), some insertText, 2, some insertText, 5, false⟩ ∧
      tm1.node insertText = some (.mk .TEXT_NODE [97, 98] []) ∧
      offsetValid tm1 r1.m_startContainer r1.m_startOffset = true ∧
      offsetValid tm1 r1.m_endContainer r1.m_endOffset = false) ∧
    (∃ tm1 r1, RangeImpl.insertNode (insertNodeRest noneReadOnly domChildTypeAllowed) surroundModel
        ⟨some (.root 0), some (.child surroundDiv 0), 0, some surroundDiv, 2, false⟩
        (some surroundI) 0 = some (tm1, r1, 0) ∧
      offsetValid surroundModel (some (.child surroundDiv 0)) 0 = true ∧
      offsetValid surroundModel (some surroundDiv) 2 = true ∧
      r1 = ⟨some (.root 0), some (.child surroundDiv 0), 0, some surroundDiv, 2, false⟩ ∧
      tm1.node surroundDiv = some (.mk .ELEMENT_NODE [100]
        [ .mk .ELEMENT_NODE [98]
            [ .mk .ELEMENT_NODE [105] [ .mk .TEXT_NODE [121] [] ], .mk .TEXT_NODE [120] [] ] ]) ∧
      offsetValid tm1 r1.m_startContainer r1.m_startOffset = true ∧
      offsetValid tm1 r1.m_endContainer r1.m_endOffset = false) :=
  ⟨⟨_, _, rfl, by decide, by decide, rfl, rfl, by decide, by decide⟩,
    ⟨_, _, rfl, by decide, by decide, rfl, rfl, by decide, by decide⟩⟩

/-! ## The loop that empties `newParent` -/

theorem replace_append_roots {tm tm1 : TreeModel} {p : NodeImpl} {new : Tree}
    (h : tm.replace p new = some tm1) (extra : List (Ptr × Tree)) :
    ({ tm with roots := tm.roots ++ extra } : TreeModel).replace p new
      = some { tm1 with roots := tm1.roots ++ extra } := by
  induction p generalizing new with
  | root k =>
    simp only [TreeModel.replace] at h ⊢
    split at h
    · rename_i x hx
      have hlt : k < tm.roots.length := by
        by_contra hc
        rw [List.getElem?_eq_none (by omega)] at hx
        exact absurd hx (by simp)
      simp only [Option.some.injEq] at h
      subst h
      rw [List.getElem?_append_left hlt, hx]
      simp only [List.set_append_left _ _ hlt]
    · exact absurd h (by simp)
  | child q i ih =>
    simp only [TreeModel.replace] at h ⊢
    split at h
    · rename_i tp htp
      have hlt := treeIndex_lt_of_node htp
      rw [node_append_roots tm extra hlt, htp]
      simp only
      split at h
      · rename_i hi
        rw [if_pos hi]
        exact ih h
      · exact absurd h (by simp)
    · exact absurd h (by simp)

/-- The first pass of the loop that empties `newParent`. -/
theorem removeToRoot_first {tm : TreeModel} {np : NodeImpl} {NP : Tree}
    (hnp : tm.node np = some NP) (hpos : 0 < NP.children.length)
    (hwf : tm.wellFormed = true) :
    ∃ d tm1 x, removeToRoot tm (.child np 0) = some d ∧
      tm.replace np (NP.withChildren (NP.children.eraseIdx 0)) = some tm1 ∧
      d.1 = { tm1 with roots := tm1.roots ++ [x] } ∧
      d.1.node np = some (NP.withChildren (NP.children.eraseIdx 0)) ∧
      d.1.wellFormed = true ∧
      d.2 np = np ∧ ∀ y : NodeImpl, (∀ i, .child np i ∉ y.ancestors) → d.2 y = y := by
  have hc : tm.node (.child np 0) = some NP.children[0] := node_child_of_lt hnp hpos
  obtain ⟨doc, hdoc⟩ := getDocument_some_of_valid (valid_iff.mpr ⟨_, hc⟩)
  obtain ⟨tm1, h1⟩ := replace_total hnp (NP.withChildren (NP.children.eraseIdx 0))
  have hn1 := replace_node_self h1
  have hwf1 : tm1.wellFormed = true := by
    refine wellFormed_replace hwf h1 (Tree.wellFormed_withChildren ?_ ?_)
    · intro hk
      rw [(Tree.wellFormed_children (wellFormed_node hwf hnp)).2 hk]
      rfl
    · exact wellFormedList_eraseIdx (Tree.wellFormed_children (wellFormed_node hwf hnp)).1 _
  refine ⟨({ tm1 with roots := tm1.roots ++ [(doc, NP.children[0])] },
      fun x => if NodeImpl.child np 0 ∈ x.ancestors then
          rebase (.child np 0) (.root tm1.roots.length) x
        else relocate np 0 x), tm1, (doc, NP.children[0]), by
    simp only [removeToRoot, hdoc, Option.some_bind, detachNode, hnp,
      List.getElem?_eq_getElem hpos, h1, Option.map_some'], h1, rfl, ?_, ?_, ?_, ?_⟩
  · simp only
    rw [node_append_roots _ _ (treeIndex_lt_of_node hn1)]
    exact hn1
  · exact wellFormed_append_root hwf1 _ (wellFormed_node hwf hc)
  · simp only
    rw [if_neg (child_not_mem_ancestors _ _), relocate_self]
  · intro y hy
    simp only
    rw [if_neg (hy 0), relocate_of_not_after np 0 fun i hi => absurd hi (hy i)]

theorem append_roots_nil (tm : TreeModel) :
    ({ tm with roots := tm.roots ++ [] } : TreeModel) = tm := by
  cases tm
  simp

/-- The loop that empties `newParent`, for a range whose containers are not below
`newParent`: `newParent` is left without children, its former children are trees of
their own at the end of the forest, and the range stays as it is. -/
theorem removeChildrenLoop_spec (r : RangeImpl) (np : NodeImpl)
    (hs : ∀ x, r.m_startContainer = some x → ∀ i, .child np i ∉ x.ancestors)
    (he : ∀ x, r.m_endContainer = some x → ∀ i, .child np i ∉ x.ancestors) :
    ∀ (cnt : Nat) (tm : TreeModel) (NP : Tree), tm.node np = some NP →
      NP.children.length = cnt → tm.wellFormed = true →
      ∃ tm0 tmR extra, removeChildrenLoop cnt tm r np 0 = some (tm0, r, np, false) ∧
        tm.replace np (NP.withChildren []) = some tmR ∧
        tm0 = { tmR with roots := tmR.roots ++ extra } ∧
        tm0.node np = some (NP.withChildren []) ∧ tm0.wellFormed = true ∧
        (cnt = 0 → tm0 = tm) := by
  intro cnt
  induction cnt with
  | zero =>
    intro tm NP hnp hlen hwf
    have hleaf : NP.withChildren [] = NP := Tree.withChildren_nil_of_leaf hlen
    refine ⟨tm, tm, [], by simp [removeChildrenLoop, firstChild, hnp, hlen], ?_,
      (append_roots_nil tm).symm, ?_, hwf, fun _ => rfl⟩
    · rw [hleaf]
      exact replace_same hnp
    · rw [hleaf]
      exact hnp
  | succ cnt ih =>
    intro tm NP hnp hlen hwf
    obtain ⟨d, tm1, x, hd, h1, hd1, h2, h3, h4, h5⟩ := removeToRoot_first hnp (by omega) hwf
    have hrel : r.relocate d.2 = r :=
      rangeRelocate_of_fixed (fun y hy => h5 y (hs y hy)) (fun y hy => h5 y (he y hy))
    obtain ⟨tm0, tmR1, extra1, i1, i2, i3, i4, i5, _⟩ := ih d.1 _ h2
      (by simp [Tree.withChildren_children, List.length_eraseIdx, hlen]) h3
    obtain ⟨tmR, hR⟩ := replace_total hnp (NP.withChildren [])
    have hR1 : tm1.replace np (NP.withChildren []) = some tmR := by
      rw [replace_replace h1]
      exact hR
    have hR2 := replace_append_roots hR1 [x]
    rw [← hd1] at hR2
    rw [Tree.withChildren_withChildren, hR2] at i2
    cases Option.some.inj i2
    refine ⟨tm0, tmR, [x] ++ extra1, ?_, hR, ?_, ?_, i5, fun h => absurd h (by omega)⟩
    · simp only [removeChildrenLoop, firstChild, hnp, hlen, Option.map_some',
        Option.some_bind, Nat.zero_lt_succ, if_true, hd, ne_eq, not_true_eq_false,
        if_false, hrel, h4]
      exact i1
    · rw [i3]
      simp [List.append_assoc]
    · rw [i4]
      rfl

/-- The forest after the loop that empties `newParent`: a node that is neither
`newParent` nor below it keeps its kind, its data and the number of its children. -/
theorem emptied_shape {tm tmR : TreeModel} {np : NodeImpl} {NP : Tree}
    (hR : tm.replace np (NP.withChildren []) = some tmR)
    (extra : List (Ptr × Tree)) {y : NodeImpl} {Y : Tree} (hy : tm.node y = some Y)
    (hny : np ∉ y.ancestors) :
    ∃ Y', ({ tmR with roots := tmR.roots ++ extra } : TreeModel).node y = some Y' ∧
      Y'.nodeType = Y.nodeType ∧ Y'.data = Y.data ∧
      Y'.children.length = Y.children.length := by
  have hlt : y.treeIndex < tmR.roots.length := by
    rw [(replace_roots hR).1]
    exact treeIndex_lt_of_node hy
  rw [node_append_roots _ _ hlt]
  by_cases hyn : y ∈ np.ancestors
  · have hne : y ≠ np := fun h => hny (h ▸ mem_ancestors_self _)
    exact replace_node_above hR hyn hne hy
  · exact ⟨Y, by rw [replace_node_disjoint hR hny hyn, hy], rfl, rfl, rfl⟩

/-- The forest after the loop that empties `newParent`: no node of a tree that was
there before has more children than the node that was at its place. -/
theorem emptied_bound {tm tmR : TreeModel} {np : NodeImpl} {NP : Tree}
    (hnp : tm.node np = some NP) (hR : tm.replace np (NP.withChildren []) = some tmR)
    (extra : List (Ptr × Tree)) {y : NodeImpl} {Y' : Tree}
    (hy : ({ tmR with roots := tmR.roots ++ extra } : TreeModel).node y = some Y')
    (hlt : y.treeIndex < tm.roots.length) :
    ∃ Y, tm.node y = some Y ∧ Y'.children.length ≤ Y.children.length := by
  have hlt1 : y.treeIndex < tmR.roots.length := by
    rw [(replace_roots hR).1]
    exact hlt
  rw [node_append_roots _ _ hlt1] at hy
  by_cases hny : np ∈ y.ancestors
  · by_cases hne : y = np
    · subst hne
      rw [replace_node_self hR] at hy
      cases Option.some.inj hy
      exact ⟨NP, hnp, by simp [Tree.withChildren_children]⟩
    · rw [node_below_leaf (replace_node_self hR) rfl hny hne] at hy
      exact absurd hy (by simp)
  · by_cases hyn : y ∈ np.ancestors
    · have hne : y ≠ np := fun h => hny (h ▸ mem_ancestors_self _)
      obtain ⟨Y, hY⟩ := valid_iff.mp (valid_of_mem_ancestors (valid_iff.mpr ⟨NP, hnp⟩) hyn)
      obtain ⟨Y1, h1, _, _, h4⟩ := replace_node_above hR hyn hne hY
      rw [hy] at h1
      cases Option.some.inj h1
      exact ⟨Y, hY, by omega⟩
    · rw [replace_node_disjoint hR hny hyn] at hy
      exact ⟨Y', hy, le_refl _⟩


/-! ## `surroundContents`: `newParent` is put where the range has collapsed -/

theorem relocate_treeIndex (p : NodeImpl) (j : Nat) (x : NodeImpl) :
    (relocate p j x).treeIndex = x.treeIndex := by
  induction x with
  | root t => rfl
  | child q i ih =>
    simp only [relocate]
    split
    · rename_i h
      subst h
      rfl
    · simpa [NodeImpl.treeIndex] using ih

theorem takeOut_total {tm : TreeModel} {n : NodeImpl} {N : Tree} (hn : tm.node n = some N) :
    ∃ d, takeOut tm n = some d ∧ d.2.1 = N := by
  cases n with
  | root t =>
    obtain ⟨tm1, h1⟩ := replace_total hn emptySlot
    exact ⟨(tm1, N, id), by simp [takeOut, hn, h1], rfl⟩
  | child p j =>
    obtain ⟨P, hP, hj⟩ := node_child_some hn
    obtain ⟨tm1, h1⟩ := replace_total hP (P.withChildren (P.children.eraseIdx j))
    exact ⟨(tm1, N, relocate p j), by simp [takeOut, detachNode, hP, hj, h1], rfl⟩

theorem takeOut_append_roots {tm : TreeModel} {n : NodeImpl}
    {d : TreeModel × Tree × (NodeImpl → NodeImpl)} (h : takeOut tm n = some d)
    (extra : List (Ptr × Tree)) :
    takeOut ({ tm with roots := tm.roots ++ extra } : TreeModel) n
      = some ({ d.1 with roots := d.1.roots ++ extra }, d.2.1, d.2.2) := by
  cases n with
  | root t =>
    simp only [takeOut, Option.bind_eq_some, Option.map_eq_some'] at h
    obtain ⟨sub, hsub, tm1, h1, rfl⟩ := h
    have hlt := treeIndex_lt_of_node hsub
    simp only [takeOut]
    rw [node_append_roots tm extra hlt, hsub]
    simp only [Option.some_bind, replace_append_roots h1 extra, Option.map_some']
  | child p j =>
    simp only [takeOut, detachNode, Option.bind_eq_some, Option.map_eq_some'] at h
    obtain ⟨P, hP, sub, hsub, tm1, h1, rfl⟩ := h
    have hlt := treeIndex_lt_of_node hP
    simp only [takeOut, detachNode]
    rw [node_append_roots tm extra hlt, hP]
    simp only [Option.some_bind, hsub, replace_append_roots h1 extra, Option.map_some']

theorem takeOut_treeIndex {tm : TreeModel} {n : NodeImpl}
    {d : TreeModel × Tree × (NodeImpl → NodeImpl)} (hd : takeOut tm n = some d)
    (x : NodeImpl) : (d.2.2 x).treeIndex = x.treeIndex := by
  cases n with
  | root t =>
    simp only [takeOut, Option.bind_eq_some, Option.map_eq_some'] at hd
    obtain ⟨sub, _, tmE, _, rfl⟩ := hd
    rfl
  | child q j1 =>
    simp only [takeOut, detachNode, Option.bind_eq_some, Option.map_eq_some'] at hd
    obtain ⟨Q, _, sub, _, tmE, _, rfl⟩ := hd
    exact relocate_treeIndex q j1 x

/-- Where `takeOut` of the node at `n` leaves child `k` of `C`: it is child `k - 1` of `C` when
`n` is a child of `C` before it, child `k` otherwise. -/
theorem takeOut_child_index {tm : TreeModel} {n : NodeImpl}
    {d : TreeModel × Tree × (NodeImpl → NodeImpl)} (hd : takeOut tm n = some d)
    (C : NodeImpl) (k : Nat) :
    d.2.2 (.child C k)
      = .child (d.2.2 C) (if n.parentNode = some C ∧ n.nodeIndex < k then k - 1 else k) := by
  cases n with
  | root t =>
    simp only [takeOut, Option.bind_eq_some, Option.map_eq_some'] at hd
    obtain ⟨sub, _, tmE, _, rfl⟩ := hd
    simp [NodeImpl.parentNode]
  | child q j1 =>
    simp only [takeOut, detachNode, Option.bind_eq_some, Option.map_eq_some'] at hd
    obtain ⟨Q, _, sub, _, tmE, _, rfl⟩ := hd
    simp only [NodeImpl.parentNode, NodeImpl.nodeIndex, Option.some.injEq]
    by_cases e : C = q
    · subst e
      rw [relocate_child_same, relocate_self]
      simp
    · rw [relocate_child_ne q j1 k e]
      have e2 : ¬ q = C := fun h => e h.symm
      simp [e2]

theorem eraseIdx_insert_eq_set {α : Type} (L : List α) (k : Nat) (x : α)
    (hk : k < L.length) :
    (L.eraseIdx k).take k ++ [x] ++ (L.eraseIdx k).drop k = L.set k x := by
  induction L generalizing k with
  | nil => simp at hk
  | cons a L ih =>
    cases k with
    | zero => simp
    | succ k =>
      simp only [List.length_cons, Nat.add_lt_add_iff_right] at hk
      have := ih k hk
      simp only [List.eraseIdx_cons_succ, List.take_succ_cons, List.drop_succ_cons,
        List.set_cons_succ, List.cons_append, List.cons.injEq, true_and]
      exact this

/-- A run of `insertBefore` without error that puts a node `n`, not a fragment, before
child `k` of `C`, or behind the last child of `C`: nothing happens when `n` is that
child; otherwise `n` is taken out of where it is and put in. -/
theorem insertBefore_move {cta : Tree → NodeType → Bool} {tm tm1 : TreeModel}
    {C n : NodeImpl} {ρ : NodeImpl → NodeImpl} {TC N : Tree} {k : Nat}
    (hC : tm.node C = some TC) (hN : tm.node n = some N)
    (hkind : N.nodeType ≠ .DOCUMENT_FRAGMENT_NODE) (hk : k ≤ TC.children.length)
    (h : insertBefore cta tm C (some n)
      (if k < TC.children.length then some (.child C k) else none) 0 = some (tm1, 0, ρ)) :
    (n = .child C k ∧ tm1 = tm ∧ ρ = id) ∨
    (n ≠ .child C k ∧ n ∉ C.ancestors ∧ ∃ d PE j, takeOut tm n = some d ∧
      d.1.node (d.2.2 C) = some PE ∧
      j = (if n.parentNode = some C ∧ n.nodeIndex < k then k - 1 else k) ∧
      j ≤ PE.children.length ∧
      d.1.replace (d.2.2 C) (PE.withChildren
        (PE.children.take j ++ [N] ++ PE.children.drop j)) = some tm1 ∧
      ρ = fun x =>
        if n ∈ x.ancestors then rebase n (.child (d.2.2 C) j) x
        else relocateInsert (d.2.2 C) j 1 (d.2.2 x)) := by
  by_cases hsame : n = .child C k
  · left
    refine ⟨hsame, ?_⟩
    have hlt : k < TC.children.length := by
      rw [hsame, node_child_eq hC k] at hN
      rw [List.getElem?_eq_some_iff] at hN
      exact hN.1
    rw [if_pos hlt] at h
    have hN' : tm.node (.child C k) = some N := hsame ▸ hN
    subst hsame
    unfold insertBefore at h
    simp only [hC, hN', Option.some_bind] at h
    split at h
    · simp only [Option.some.injEq, Prod.mk.injEq] at h
      exact absurd h.2.1 (by decide)
    · split at h
      · simp only [Option.some.injEq, Prod.mk.injEq] at h
        exact absurd h.2.1 (by decide)
      · split at h
        · simp only [Option.some.injEq, Prod.mk.injEq] at h
          exact absurd h.2.1 (by decide)
        · simp only [if_true, Option.some.injEq, Prod.mk.injEq] at h
          exact ⟨h.1.symm, h.2.2.symm⟩
  · right
    refine ⟨hsame, ?_⟩
    have key : ∀ d PE, n ∉ C.ancestors → takeOut tm n = some d →
        d.1.node (d.2.2 C) = some PE →
        d.2.1 = N ∧
        PE.children.length = TC.children.length - (if n.parentNode = some C then 1 else 0) ∧
        (n.parentNode = some C → n.nodeIndex < TC.children.length) := by
      intro d PE hanc hd hPE
      obtain ⟨_, _, hsub, _⟩ := takeOut_other_tree hd
      obtain ⟨Y, hY, _, _, hlen⟩ := takeOut_shape hd C TC hC hanc
      rw [hPE] at hY
      cases Option.some.inj hY
      refine ⟨hsub N hN, hlen, ?_⟩
      intro hpar
      cases n with
      | root t => simp [NodeImpl.parentNode] at hpar
      | child q i =>
        simp only [NodeImpl.parentNode, Option.some.injEq] at hpar
        subst hpar
        rw [node_child_eq hC i, List.getElem?_eq_some_iff] at hN
        exact hN.1
    by_cases hlt : k < TC.children.length
    · rw [if_pos hlt] at h
      obtain ⟨hanc, N1, hN1, hcases⟩ := insertBefore_inv h hsame
      rw [hN] at hN1
      cases Option.some.inj hN1
      refine ⟨hanc, ?_⟩
      rcases hcases with ⟨hfrag, _⟩ | ⟨_, d, PE, hd, hPE, h2, hρ⟩
      · exact absurd hfrag hkind
      · obtain ⟨hs, hlen, hidx⟩ := key d PE hanc hd hPE
        rw [takeOut_child_index hd C k] at h2 hρ
        simp only [NodeImpl.nodeIndex] at h2 hρ
        rw [hs] at h2
        refine ⟨d, PE, _, hd, hPE, rfl, ?_, h2, hρ⟩
        rw [hlen]
        by_cases hp : n.parentNode = some C
        · have := hidx hp
          by_cases hi : n.nodeIndex < k
          · simp only [hp, hi, and_self, if_true]
            omega
          · simp only [hp, hi, and_false, if_false, if_true]
            omega
        · simp only [hp, false_and, if_false]
          omega
    · rw [if_neg hlt] at h
      have hkl : TC.children.length = k := by omega
      unfold insertBefore at h
      simp only [hC, hN, Option.some_bind] at h
      split at h
      · simp only [Option.some.injEq, Prod.mk.injEq] at h
        exact absurd h.2.1 (by decide)
      · rename_i hanc
        refine ⟨hanc, ?_⟩
        split at h
        · simp only [Option.some.injEq, Prod.mk.injEq] at h
          exact absurd h.2.1 (by decide)
        · simp only [Bool.false_eq_true, if_false, hkind, reduceCtorEq] at h
          simp only [Option.bind_eq_some, Option.map_eq_some'] at h
          obtain ⟨d, hd, PE, hPE, tm2, h2, h⟩ := h
          obtain ⟨hs, hlen, hidx⟩ := key d PE hanc hd hPE
          simp only [Prod.mk.injEq, true_and] at h
          obtain ⟨h3, h4⟩ := h
          subst h3
          have hj : PE.children.length
              = (if n.parentNode = some C ∧ n.nodeIndex < k then k - 1 else k) := by
            rw [hlen]
            by_cases hp : n.parentNode = some C
            · have := hidx hp
              have hi : n.nodeIndex < k := by omega
              simp only [hp, hi, and_self, if_true]
              omega
            · simp only [hp, false_and, if_false]
              omega
          rw [hs] at h2
          refine ⟨d, PE, _, hd, hPE, rfl, by rw [← hj], ?_, ?_⟩
          · rw [← hj]
            exact h2
          · rw [← h4, ← hj]

/-! ## The fragment of a range and the nodes that the range does not select -/

theorem ancestors_antisymm {x y : NodeImpl} (h1 : x ∈ y.ancestors) (h2 : y ∈ x.ancestors) :
    x = y :=
  eq_of_mem_ancestors_of_depth_eq h1
    (le_antisymm (depth_le_of_mem_ancestors h1) (depth_le_of_mem_ancestors h2))

theorem drop_congr {α : Type} {l1 l2 : List α} {lo : Nat}
    (h : ∀ j, lo ≤ j → l1[j]? = l2[j]?) : l1.drop lo = l2.drop lo := by
  apply List.ext_getElem?
  intro n
  rw [List.getElem?_drop, List.getElem?_drop]
  exact h _ (by omega)

theorem take_congr {α : Type} {l1 l2 : List α} {hi : Nat}
    (h : ∀ j, j < hi → l1[j]? = l2[j]?) : l1.take hi = l2.take hi := by
  apply List.ext_getElem?
  intro n
  by_cases hn : n < hi
  · rw [List.getElem?_take_of_lt hn, List.getElem?_take_of_lt hn]
    exact h _ hn
  · rw [List.getElem?_eq_none, List.getElem?_eq_none]
    · simp; omega
    · simp; omega

theorem Tree.withChildren_congr {X X' : Tree} (ht : X'.nodeType = X.nodeType)
    (hd : X'.data = X.data) (L : List Tree) : X'.withChildren L = X.withChildren L := by
  simp [Tree.withChildren, ht, hd]

/-- The contents of the left-hand side are the same on two forests whose nodes on the
way down to the start container have the same kind and data, and the same children
that the range selects. -/
theorem leftSpine_congr {tm tm' : TreeModel} {R sc e : NodeImpl} {so eo : Int}
    (hshape : ∀ x X, x ∈ sc.ancestors → tm.node x = some X →
      ∃ X', tm'.node x = some X' ∧ X'.nodeType = X.nodeType ∧ X'.data = X.data)
    (hsel : ∀ q i, q ∈ sc.ancestors ∨ q ∈ e.ancestors →
      selectsChild R sc e so eo q i = true →
      tm'.node (.child q i) = tm.node (.child q i)) :
    ∀ (A : NodeImpl) (F : Option Tree), A ∈ sc.ancestors → R ∈ A.ancestors → A ≠ R →
      (∃ TA, tm.node A = some TA) → leftSpine tm' R A F = leftSpine tm R A F := by
  intro A
  induction A with
  | root t =>
    intro F _ _ _ _
    rfl
  | child P c ih =>
    intro F hA hR hne hTA
    obtain ⟨TA, hTA⟩ := hTA
    obtain ⟨TP, hTP, _⟩ := node_child_some hTA
    have hPs := parent_mem_ancestors hA
    by_cases hPR : P = R
    · simp [leftSpine, hPR]
    · have hRP : R ∈ P.ancestors := by
        rcases mem_ancestors_child.mp hR with h | h
        · exact absurd h.symm hne
        · exact h
      obtain ⟨TP', hTP', ht, hd⟩ := hshape P TP hPs hTP
      have hPsc : P ≠ sc := by
        intro h
        subst h
        exact child_not_mem_ancestors _ _ hA
      have hdrop : TP'.children.drop (c + 1) = TP.children.drop (c + 1) := by
        apply drop_congr
        intro j hj
        rw [← node_child_eq hTP' j, ← node_child_eq hTP j]
        apply hsel P j (Or.inl hPs)
        simp only [selectsChild, if_neg hPR, hRP, hPs, and_self, if_true, if_neg hPsc,
          childIndexUnder_of_mem hA, decide_eq_true_eq]
        omega
      simp only [leftSpine, if_neg hPR, hTP, hTP', hdrop, Tree.withChildren_congr ht hd]
      exact ih _ hPs hRP hPR ⟨TP, hTP⟩

/-- The contents of the right-hand side are the same on two forests whose nodes on the
way down to the end container have the same kind and data, and the same children
that the range selects. -/
theorem rightSpine_congr {tm tm' : TreeModel} {R sc e : NodeImpl} {so eo : Int}
    (hR3 : ∀ z, z ∈ sc.ancestors → z ∈ e.ancestors → z ∈ R.ancestors)
    (hshape : ∀ x X, x ∈ e.ancestors → tm.node x = some X →
      ∃ X', tm'.node x = some X' ∧ X'.nodeType = X.nodeType ∧ X'.data = X.data)
    (hsel : ∀ q i, q ∈ sc.ancestors ∨ q ∈ e.ancestors →
      selectsChild R sc e so eo q i = true →
      tm'.node (.child q i) = tm.node (.child q i)) :
    ∀ (A : NodeImpl) (F : Option Tree), A ∈ e.ancestors → R ∈ A.ancestors → A ≠ R →
      (∃ TA, tm.node A = some TA) → rightSpine tm' R A F = rightSpine tm R A F := by
  intro A
  induction A with
  | root t =>
    intro F _ _ _ _
    rfl
  | child P c ih =>
    intro F hA hR hne hTA
    obtain ⟨TA, hTA⟩ := hTA
    obtain ⟨TP, hTP, _⟩ := node_child_some hTA
    have hPe := parent_mem_ancestors hA
    by_cases hPR : P = R
    · simp [rightSpine, hPR]
    · have hRP : R ∈ P.ancestors := by
        rcases mem_ancestors_child.mp hR with h | h
        · exact absurd h.symm hne
        · exact h
      obtain ⟨TP', hTP', ht, hd⟩ := hshape P TP hPe hTP
      have hPe1 : P ≠ e := by
        intro h
        subst h
        exact child_not_mem_ancestors _ _ hA
      have hPs : P ∉ sc.ancestors := fun h => hPR (ancestors_antisymm (hR3 P h hPe) hRP)
      have htake : TP'.children.take c = TP.children.take c := by
        apply take_congr
        intro j hj
        rw [← node_child_eq hTP' j, ← node_child_eq hTP j]
        apply hsel P j (Or.inr hPe)
        simp only [selectsChild, if_neg hPR, hRP, hPs, hPe, and_false, and_self, if_true,
          if_false, if_neg hPe1, childIndexUnder_of_mem hA, decide_eq_true_eq]
        exact hj
      simp only [rightSpine, if_neg hPR, hTP, hTP', htake, Tree.withChildren_congr ht hd]
      exact ih _ hPe hRP hPR ⟨TP, hTP⟩

/-- The fragment of a range is the same on two forests whose nodes above the
containers have the same kind and data, and the same children that the range selects. -/
theorem extractedFragment_congr {tm tm' : TreeModel} {r : RangeImpl} {sc e R : NodeImpl}
    {ts te : Tree} (hsc : r.m_startContainer = some sc) (he : r.m_endContainer = some e)
    (hR : commonAncestorLoop (some e) sc = some R)
    (hts : tm.node sc = some ts) (hte : tm.node e = some te)
    (hshapeS : ∀ x X, x ∈ sc.ancestors → tm.node x = some X →
      ∃ X', tm'.node x = some X' ∧ X'.nodeType = X.nodeType ∧ X'.data = X.data ∧
        (isCharacterLike X.nodeType = true → X' = X))
    (hshapeE : ∀ x X, x ∈ e.ancestors → tm.node x = some X →
      ∃ X', tm'.node x = some X' ∧ X'.nodeType = X.nodeType ∧ X'.data = X.data ∧
        (isCharacterLike X.nodeType = true → X' = X))
    (hsel : ∀ q i, q ∈ sc.ancestors ∨ q ∈ e.ancestors →
      selectsChild R sc e r.m_startOffset r.m_endOffset q i = true →
      tm'.node (.child q i) = tm.node (.child q i)) :
    extractedFragment tm' r = extractedFragment tm r := by
  obtain ⟨hRs, hRe, hR3⟩ := commonAncestorLoop_some hR
  obtain ⟨TR, hTR⟩ := valid_iff.mp (valid_of_mem_ancestors (valid_iff.mpr ⟨ts, hts⟩) hRs)
  obtain ⟨TR', hTR', _, _, _⟩ := hshapeS R TR hRs hTR
  obtain ⟨ts', hts', hts1, hts2, hts3⟩ := hshapeS sc ts (mem_ancestors_self _) hts
  obtain ⟨te', hte', hte1, hte2, hte3⟩ := hshapeE e te (mem_ancestors_self _) hte
  have hS : ∀ x X, x ∈ sc.ancestors → tm.node x = some X →
      ∃ X', tm'.node x = some X' ∧ X'.nodeType = X.nodeType ∧ X'.data = X.data := by
    intro x X hx hX
    obtain ⟨X', h1, h2, h3, _⟩ := hshapeS x X hx hX
    exact ⟨X', h1, h2, h3⟩
  have hE : ∀ x X, x ∈ e.ancestors → tm.node x = some X →
      ∃ X', tm'.node x = some X' ∧ X'.nodeType = X.nodeType ∧ X'.data = X.data := by
    intro x X hx hX
    obtain ⟨X', h1, h2, h3, _⟩ := hshapeE x X hx hX
    exact ⟨X', h1, h2, h3⟩
  simp only [extractedFragment, hsc, he, hR, Option.some_bind, hTR, hTR', hts, hts', hte,
    hte', Option.map_some', Option.some.injEq]
  by_cases hse : sc = e
  · subst hse
    have hscR : sc = R := ancestors_antisymm (hR3 sc (mem_ancestors_self _) (mem_ancestors_self _)) hRs
    subst hscR
    simp only [if_true]
    congr 1
    apply take_drop_congr
    intro j hj1 hj2
    rw [← node_child_eq hts' j, ← node_child_eq hts j]
    apply hsel sc j (Or.inl hRs)
    simp only [selectsChild, if_true, firstAfterStart, firstNotBeforeEnd, childIndexUnder_self,
      decide_eq_true_eq]
    exact ⟨hj1, hj2⟩
  · simp only [if_neg hse, complexFragment]
    congr 1
    have hleft : (if sc = R then none else leftSpine tm' R sc
          (leftStartContents ts' r.m_startOffset.toNat))
        = (if sc = R then none else leftSpine tm R sc
          (leftStartContents ts r.m_startOffset.toNat)) := by
      by_cases hscR : sc = R
      · simp [hscR]
      · rw [if_neg hscR, if_neg hscR]
        have hstart : leftStartContents ts' r.m_startOffset.toNat
            = leftStartContents ts r.m_startOffset.toNat := by
          by_cases hch : isCharacterLike ts.nodeType = true
          · rw [hts3 hch]
          · have hdrop : ts'.children.drop r.m_startOffset.toNat
                = ts.children.drop r.m_startOffset.toNat := by
              apply drop_congr
              intro j hj
              rw [← node_child_eq hts' j, ← node_child_eq hts j]
              apply hsel sc j (Or.inl (mem_ancestors_self _))
              simp only [selectsChild, if_neg hscR, hRs, mem_ancestors_self, and_self, if_true,
                decide_eq_true_eq]
              omega
            simp only [leftStartContents, hts1,
              not_textLike_of_not_characterLike (by simpa using hch), Bool.false_eq_true,
              if_false, hdrop, Tree.withChildren_congr hts1 hts2]
        rw [hstart]
        exact leftSpine_congr hS hsel sc _ (mem_ancestors_self _) hRs hscR ⟨ts, hts⟩
    have hmid : (TR'.children.drop (firstAfterStart R sc r.m_startOffset)).take
          (firstNotBeforeEnd R e r.m_endOffset - firstAfterStart R sc r.m_startOffset)
        = (TR.children.drop (firstAfterStart R sc r.m_startOffset)).take
          (firstNotBeforeEnd R e r.m_endOffset - firstAfterStart R sc r.m_startOffset) := by
      apply take_drop_congr
      intro j hj1 hj2
      rw [← node_child_eq hTR' j, ← node_child_eq hTR j]
      apply hsel R j (Or.inl hRs)
      simp only [selectsChild, if_true, decide_eq_true_eq]
      exact ⟨hj1, hj2⟩
    have hright : (if e = R then none else rightSpine tm' R e
          (rightStartContents ts'.nodeType te' r.m_endOffset.toNat))
        = (if e = R then none else rightSpine tm R e
          (rightStartContents ts.nodeType te r.m_endOffset.toNat)) := by
      by_cases heR : e = R
      · simp [heR]
      · rw [if_neg heR, if_neg heR]
        have hes : e ∉ sc.ancestors :=
          fun h => heR (ancestors_antisymm (hR3 e h (mem_ancestors_self _)) hRe)
        have hstart : rightStartContents ts'.nodeType te' r.m_endOffset.toNat
            = rightStartContents ts.nodeType te r.m_endOffset.toNat := by
          rw [hts1]
          by_cases hch : isCharacterLike te.nodeType = true
          · rw [hte3 hch]
          · have htake : te'.children.take r.m_endOffset.toNat
                = te.children.take r.m_endOffset.toNat := by
              apply take_congr
              intro j hj
              rw [← node_child_eq hte' j, ← node_child_eq hte j]
              apply hsel e j (Or.inr (mem_ancestors_self _))
              simp only [selectsChild, if_neg heR, hRe, hes, mem_ancestors_self, and_false,
                and_self, if_true, if_false, decide_eq_true_eq]
              omega
            simp only [rightStartContents, hte1,
              not_textLike_of_not_characterLike (by simpa using hch), Bool.false_eq_true,
              if_false, htake, Tree.withChildren_congr hte1 hte2]
        rw [hstart]
        exact rightSpine_congr hR3 hE hsel e _ (mem_ancestors_self _) hRe heR ⟨te, hte⟩
    rw [hleft, hmid, hright]

/-- The forest after the loop that empties `newParent`, for a `newParent` that the range
selects neither wholly nor in part: the children that the range selects are as before. -/
theorem emptied_selected {tm tmR : TreeModel} {np : NodeImpl} {NP : Tree}
    (hR : tm.replace np (NP.withChildren []) = some tmR) (extra : List (Ptr × Tree))
    {R sc e : NodeImpl} {so eo : Int} (hRs : R ∈ sc.ancestors)
    (hnsc : np ∉ sc.ancestors) (hend : np ∉ e.ancestors ∨ (np = e ∧ eo = 0))
    (hsel : inSelectedContent R sc e so eo np = false)
    {q : NodeImpl} {i : Nat} {Q : Tree} (hq : tm.node q = some Q)
    (hqs : q ∈ sc.ancestors ∨ q ∈ e.ancestors) (h : selectsChild R sc e so eo q i = true) :
    ({ tmR with roots := tmR.roots ++ extra } : TreeModel).node (.child q i)
      = tm.node (.child q i) := by
  have hlt : (NodeImpl.child q i).treeIndex < tmR.roots.length := by
    rw [(replace_roots hR).1]
    exact (treeIndex_lt_of_node hq : q.treeIndex < tm.roots.length)
  rw [node_append_roots _ _ hlt]
  have h1 : NodeImpl.child q i ∉ np.ancestors := by
    intro hm
    rw [inSelectedContent_false hsel q i hm] at h
    exact absurd h (by simp)
  have h2 : np ∉ (NodeImpl.child q i).ancestors := by
    intro hm
    rcases mem_ancestors_child.mp hm with hm | hm
    · exact h1 (by rw [← hm]; exact mem_ancestors_self _)
    · rcases hqs with hqs | hqs
      · exact hnsc (ancestors_trans hm hqs)
      · rcases hend with hend | ⟨hend, h0⟩
        · exact hend (ancestors_trans hm hqs)
        · subst hend
          have hqe : q = np := ancestors_antisymm hqs hm
          subst hqe
          have hqR : q ≠ R := by
            intro h
            subst h
            exact hnsc hRs
          simp [selectsChild, hqR, hnsc] at h
          omega
  exact replace_node_disjoint hR h2 h1

theorem tree_eq_of_leaf {X X' : Tree} (ht : X'.nodeType = X.nodeType) (hd : X'.data = X.data)
    (hl : X'.children.length = X.children.length) (hX : X.children = []) : X' = X := by
  cases X with
  | mk k d cs =>
    cases X' with
    | mk k1 d1 cs1 =>
      simp only [Tree.nodeType, Tree.data, Tree.children] at ht hd hl hX
      subst ht hd hX
      simp only [List.length_nil, List.length_eq_zero] at hl
      subst hl
      rfl

/-- The forest after the loop that empties `newParent`, for a `newParent` that the range
selects neither wholly nor in part: the fragment of the range is the one of the forest
before the loop. -/
theorem emptied_fragment {tm tmR : TreeModel} {np : NodeImpl} {NP : Tree}
    (hwf : tm.wellFormed = true) (hnp : tm.node np = some NP)
    (hR : tm.replace np (NP.withChildren []) = some tmR) (extra : List (Ptr × Tree))
    {r : RangeImpl} {sc e : NodeImpl} {ts te : Tree}
    (hsc : r.m_startContainer = some sc) (he : r.m_endContainer = some e)
    (hts : tm.node sc = some ts) (hte : tm.node e = some te)
    (hroot : rootContainer sc = rootContainer e)
    (hnsc : np ∉ sc.ancestors) (hend : np ∉ e.ancestors ∨ (np = e ∧ r.m_endOffset = 0))
    (hsel : r.selects np = false) :
    extractedFragment ({ tmR with roots := tmR.roots ++ extra } : TreeModel) r
      = extractedFragment tm r := by
  obtain ⟨R, hloop⟩ := commonAncestorLoop_of_same_root hroot
  obtain ⟨hRs, hRe, hR3⟩ := commonAncestorLoop_some hloop
  rw [selects_eq hsc he hloop np] at hsel
  have hkeep : ∀ x X, np ∉ x.ancestors → tm.node x = some X →
      ∃ X', ({ tmR with roots := tmR.roots ++ extra } : TreeModel).node x = some X' ∧
        X'.nodeType = X.nodeType ∧ X'.data = X.data ∧
        (isCharacterLike X.nodeType = true → X' = X) := by
    intro x X hx hX
    obtain ⟨X', h1, h2, h3, h4⟩ := emptied_shape hR extra hX hx
    exact ⟨X', h1, h2, h3, fun hc =>
      tree_eq_of_leaf h2 h3 h4 (children_nil_of_characterLike (wellFormed_node hwf hX) hc)⟩
  apply extractedFragment_congr hsc he hloop hts hte
  · intro x X hx hX
    exact hkeep x X (fun h => hnsc (ancestors_trans h hx)) hX
  · intro x X hx hX
    by_cases hn : np ∈ x.ancestors
    · rcases hend with h | ⟨h, _⟩
      · exact absurd (ancestors_trans hn hx) h
      · subst h
        have hxe : x = np := ancestors_antisymm hx hn
        subst hxe
        rw [hnp] at hX
        cases Option.some.inj hX
        have hlt : x.treeIndex < tmR.roots.length := by
          rw [(replace_roots hR).1]
          exact treeIndex_lt_of_node hnp
        refine ⟨NP.withChildren [], ?_, rfl, rfl, fun hc => ?_⟩
        · rw [node_append_roots _ _ hlt]
          exact replace_node_self hR
        · apply Tree.withChildren_nil_of_leaf
          rw [children_nil_of_characterLike (wellFormed_node hwf hnp) hc]
          rfl
    · exact hkeep x X hn hX
  · intro q i hq hs
    have hv : tm.valid q := by
      rcases hq with hq | hq
      · exact valid_of_mem_ancestors (valid_iff.mpr ⟨ts, hts⟩) hq
      · exact valid_of_mem_ancestors (valid_iff.mpr ⟨te, hte⟩) hq
    obtain ⟨Q, hQ⟩ := valid_iff.mp hv
    exact emptied_selected hR extra hRs hnsc hend hsel hQ hq hs

/-! ## `surroundContents` with a `newParent` above the end container -/

theorem rebase_child_treeIndex (p : NodeImpl) (j n : Nat) {y : NodeImpl}
    (h : .child p j ∈ y.ancestors) : (rebase (.child p j) (.root n) y).treeIndex = n := by
  induction y with
  | root t => simp [NodeImpl.ancestors] at h
  | child q i ih =>
    by_cases hq : NodeImpl.child q i = .child p j
    · simp [rebase, hq, NodeImpl.treeIndex]
    · rcases mem_ancestors_child.mp h with h | h
      · exact absurd h.symm hq
      · simp only [rebase, if_neg hq, NodeImpl.treeIndex]
        exact ih h

theorem climbToChildOf_mem {D x y : NodeImpl} (h : climbToChildOf (some D) x = some y) :
    D ∈ x.ancestors := by
  induction x with
  | root t => simp [climbToChildOf] at h
  | child p i ih =>
    by_cases hp : p = D
    · subst hp
      exact mem_ancestors_child.mpr (Or.inr (mem_ancestors_self _))
    · simp only [climbToChildOf, ne_eq, Option.some.injEq, hp, not_false_eq_true, if_true] at h
      exact mem_ancestors_child.mpr (Or.inr (ih h))

theorem partialContainer_treeIndex {D x : NodeImpl} {p : Ptr}
    (h : partialContainer (some D) (some x) = some p) : D.treeIndex = x.treeIndex := by
  by_cases hx : x = D
  · rw [hx]
  · simp only [partialContainer, ne_eq, Option.some.injEq, hx, not_false_eq_true, if_true,
      Option.map_eq_some'] at h
    obtain ⟨y, hy, _⟩ := h
    exact treeIndex_eq_of_mem_ancestors (climbToChildOf_mem hy)

/-- On a range whose containers are nodes of two trees, `extractContents` reports an error
whenever it returns. -/
theorem extractContents_other_tree {iro : NodeImpl → Bool} {tm : TreeModel} {r : RangeImpl}
    {sc e : NodeImpl} (hsc : r.m_startContainer = some sc) (he : r.m_endContainer = some e)
    (hti : sc.treeIndex ≠ e.treeIndex)
    {res : TreeModel × RangeImpl × ExceptionCode × Option Tree}
    (h : r.extractContents (extractContentsRest iro) tm 0 = some res) : res.2.2.1 ≠ 0 := by
  have hne : sc ≠ e := fun h => hti (by rw [h])
  unfold RangeImpl.extractContents at h
  split at h
  · cases Option.some.inj h
    show (INVALID_STATE_ERR : Int) ≠ 0
    decide
  · rename_i hdet
    simp only [extractContentsRest, Option.bind_eq_some] at h
    obtain ⟨ec0, _, h⟩ := h
    split at h
    · rename_i hne0
      cases Option.some.inj h
      exact hne0
    · rename_i hz
      have hz0 : ec0 = 0 := by simpa using hz
      subst hz0
      have hloop : commonAncestorLoop (some e) sc = none := by
        cases hl : commonAncestorLoop (some e) sc with
        | none => rfl
        | some R =>
          obtain ⟨h1, h2, _⟩ := commonAncestorLoop_some hl
          exact absurd ((treeIndex_eq_of_mem_ancestors h1).symm.trans
            (treeIndex_eq_of_mem_ancestors h2)) hti
      simp only [processContents, RangeImpl.collapsed, hdet, Bool.false_eq_true, if_false, hsc,
        he, Option.some.injEq, hne, decide_False, Bool.false_and, ne_eq, not_true_eq_false,
        RangeImpl.commonAncestorContainer, Option.bind_eq_some, Option.map_eq_some'] at h
      obtain ⟨ca, ⟨com, _, hca⟩, h⟩ := h
      subst hca
      simp only at h
      cases com with
      | none =>
        simp only [if_true] at h
        rw [if_pos (by decide)] at h
        cases Option.some.inj h
        show (WRONG_DOCUMENT_ERR : Int) ≠ 0
        decide
      | some D =>
        simp only [reduceCtorEq, if_false, ne_eq, not_true_eq_false, Option.bind_eq_some] at h
        obtain ⟨ps, hps, pe, hpe, _⟩ := h
        exact absurd ((partialContainer_treeIndex hps).symm.trans
          (partialContainer_treeIndex hpe)) hti

theorem removeToRoot_first_map {tm : TreeModel} {np : NodeImpl}
    {d : TreeModel × (NodeImpl → NodeImpl)} (hd : removeToRoot tm (.child np 0) = some d) :
    (∀ y, .child np 0 ∈ y.ancestors → (d.2 y).treeIndex = tm.roots.length) ∧
      ∀ y c, .child np (c + 1) ∈ y.ancestors → .child np c ∈ (d.2 y).ancestors := by
  simp only [removeToRoot, detachNode, Option.bind_eq_some, Option.map_eq_some'] at hd
  obtain ⟨doc, _, dd, ⟨tp, _, sub, _, tm1, h1, hdd⟩, hd⟩ := hd
  subst hdd
  subst hd
  simp only
  refine ⟨fun y hy => ?_, fun y c hy => ?_⟩
  · rw [if_pos hy, rebase_child_treeIndex np 0 _ hy]
    exact (replace_roots h1).1
  · have hn : NodeImpl.child np 0 ∉ y.ancestors := by
      intro h0
      have := eq_of_mem_ancestors_same_depth hy h0 rfl
      injection this with _ h2
      omega
    rw [if_neg hn]
    have := relocate_mem_ancestors np 0 hy
    rw [relocate_child_after np (by omega)] at this
    simpa using this

/-- The loop that empties `newParent`, for a range whose end container is below
`newParent` and whose start container is not: when the loop ends, the end container
is a node of a tree that was not there before. -/
theorem removeChildrenLoop_end_below (np sc : NodeImpl)
    (hs : ∀ i, .child np i ∉ sc.ancestors) :
    ∀ (cnt : Nat) (tm : TreeModel) (NP : Tree) (r : RangeImpl) (e : NodeImpl) (c : Nat),
      tm.node np = some NP → NP.children.length = cnt → tm.wellFormed = true →
      r.m_startContainer = some sc → r.m_endContainer = some e →
      .child np c ∈ e.ancestors → c < cnt →
      ∀ res, removeChildrenLoop cnt tm r np 0 = some res →
        res.2.2.2 = false ∧ res.2.1.m_detached = r.m_detached ∧
          res.2.1.m_startContainer = some sc ∧
          ∃ e', res.2.1.m_endContainer = some e' ∧ tm.roots.length ≤ e'.treeIndex := by
  intro cnt
  induction cnt with
  | zero =>
    intro tm NP r e c _ _ _ _ _ _ hc
    omega
  | succ cnt ih =>
    intro tm NP r e c hnp hlen hwf hsc he hce hc res hres
    obtain ⟨d, tm1, x, hd, h1, hd1, h2, h3, h4, h5⟩ := removeToRoot_first hnp (by omega) hwf
    obtain ⟨hm1, hm2⟩ := removeToRoot_first_map hd
    have hlen1 : d.1.roots.length = tm.roots.length + 1 := by
      rw [hd1]
      simp [(replace_roots h1).1]
    have hscd : (r.relocate d.2).m_startContainer = some sc := by
      simp [RangeImpl.relocate, hsc, h5 sc hs]
    have hed : (r.relocate d.2).m_endContainer = some (d.2 e) := by
      simp [RangeImpl.relocate, he]
    simp only [removeChildrenLoop, firstChild, hnp, hlen, Option.map_some',
      Option.some_bind, Nat.zero_lt_succ, if_true, hd, ne_eq, not_true_eq_false,
      if_false, h4] at hres
    cases c with
    | zero =>
      have hti : (d.2 e).treeIndex = tm.roots.length := hm1 e hce
      have hnpti : np.treeIndex < tm.roots.length := treeIndex_lt_of_node hnp
      obtain ⟨tm0, tmR, extra, hloop, _⟩ := removeChildrenLoop_spec (r.relocate d.2) np
        (fun y hy i hi => by
          rw [hscd] at hy
          cases Option.some.inj hy
          exact hs i hi)
        (fun y hy i hi => by
          rw [hed] at hy
          cases Option.some.inj hy
          have := treeIndex_eq_of_mem_ancestors hi
          simp only [NodeImpl.treeIndex] at this
          omega)
        cnt d.1 _ h2 (by simp [Tree.withChildren_children, List.length_eraseIdx, hlen]) h3
      rw [hloop] at hres
      cases Option.some.inj hres
      exact ⟨rfl, rfl, hscd, d.2 e, hed, by omega⟩
    | succ c =>
      obtain ⟨hr0, hrd, hr1, e', hr2, hr3⟩ := ih d.1 _ (r.relocate d.2) (d.2 e) c h2
        (by simp [Tree.withChildren_children, List.length_eraseIdx, hlen]) h3 hscd hed
        (hm2 e c hce) (by omega) res hres
      exact ⟨hr0, hrd, hr1, e', hr2, by omega⟩

/-! ## `surroundContents` with a character-like `newParent` -/

theorem rightSpine_some (tm : TreeModel) (R : NodeImpl) :
    ∀ (A : NodeImpl) (X : Tree), tm.valid A → ∃ Y, rightSpine tm R A (some X) = some Y := by
  intro A
  induction A with
  | root t => exact fun X _ => ⟨X, rfl⟩
  | child P c ih =>
    intro X hA
    obtain ⟨TA, hTA⟩ := valid_iff.mp hA
    obtain ⟨TP, hTP, _⟩ := node_child_some hTA
    by_cases hPR : P = R
    · exact ⟨X, by simp [rightSpine, hPR]⟩
    · simp only [rightSpine, if_neg hPR, hTP]
      exact ih _ (valid_iff.mpr ⟨TP, hTP⟩)

/-- The `appendChild` of a fragment that is not empty to a character-like node reports an
error, by the rule of the Tree Model that character-like nodes allow no children. -/
theorem insertBefore_characterLike_parent {cta : Tree → NodeType → Bool}
    (hchar : ∀ (t : Tree) (k : NodeType), isCharacterLike t.nodeType = true → cta t k = false)
    {tm tm1 : TreeModel} {p fr : NodeImpl} {ρ : NodeImpl → NodeImpl} {P F : Tree}
    (hp : tm.node p = some P) (hP : isCharacterLike P.nodeType = true)
    (hF : tm.node fr = some F) (hkind : F.nodeType = .DOCUMENT_FRAGMENT_NODE)
    (hne : F.children ≠ [])
    (h : insertBefore cta tm p (some fr) none 0 = some (tm1, 0, ρ)) : False := by
  have hall : childAllowed cta P F = false := by
    simp only [childAllowed, hkind, if_true]
    cases hc : F.children with
    | nil => exact absurd hc hne
    | cons c cs => simp [hchar P c.nodeType hP]
  simp only [insertBefore, hp, hF, Option.some_bind, hall, if_true] at h
  split at h
  · simp only [Option.some.injEq, Prod.mk.injEq] at h
    exact absurd h.2.1 (by decide)
  · simp only [Option.some.injEq, Prod.mk.injEq] at h
    exact absurd h.2.1 (by decide)

/-- The steps of `surroundContents` up to `appendChild`, after a loop that has left the
range as it was: when `surroundContents` reports no error, `appendChild` has put the
fragment that `extractContents` returned into the node that `insertNode` has put into
the tree, and has reported no error. -/
theorem surroundContentsMove_append {iro : NodeImpl → Bool} {cta : Tree → NodeType → Bool}
    {tm tm0 tmE tm1 : TreeModel} {r r1 : RangeImpl} {np np1 C : NodeImpl}
    {NP N1 TCE F : Tree} {k : Nat} {ec1 : ExceptionCode}
    (hnp : tm.node np = some NP) (hd : r.m_detached = false)
    (hloop : removeChildrenLoop NP.children.length tm r np 0 = some (tm0, r, np, false))
    (hproc : processContents .EXTRACT_CONTENTS tm0 r 0 =
      some (tmE, ⟨r.m_ownerDocument, some C, (k : Int), some C, (k : Int), false⟩, ec1,
        some F))
    (hCE : tmE.node C = some TCE) (hcharC : isCharacterLike TCE.nodeType = false)
    (hkle : k ≤ TCE.children.length) (hk31 : (k : Int) < 2 ^ 31)
    (hrel : extractRelocate placeOfKept tm0 r tmE.roots.length np = some np1)
    (hN1 : tmE.node np1 = some N1) (hkind : N1.nodeType ≠ .DOCUMENT_FRAGMENT_NODE)
    (hmove : surroundContentsMove iro cta placeOfKept tm r np 0 = some (tm1, r1, 0)) :
    ∃ (tm4 tm5 : TreeModel) (p : NodeImpl) (ρ5 : NodeImpl → NodeImpl),
      tm4.node p = some N1 ∧ tm4.node (.root tmE.roots.length) = some F ∧
      insertBefore cta tm4 p (some (.root tmE.roots.length)) none 0 = some (tm5, 0, ρ5) := by
  unfold surroundContentsMove at hmove
  simp only [childNodeCount, hnp, Option.map_some', Option.some_bind, hloop,
    Bool.false_eq_true, if_false] at hmove
  obtain ⟨ex, hex, hmove⟩ := Option.bind_eq_some.mp hmove
  have hexeq : ex = (tmE, ⟨r.m_ownerDocument, some C, (k : Int), some C, (k : Int), false⟩,
      0, some F) := by
    unfold RangeImpl.extractContents at hex
    rw [if_neg (by simp [hd])] at hex
    simp only [extractContentsRest, Option.bind_eq_some] at hex
    obtain ⟨ec0, hchk, hex⟩ := hex
    split at hex
    · rename_i hne
      simp only [Option.some.injEq] at hex
      subst hex
      simp only [ne_eq, hne, not_false_eq_true, if_true, Option.some.injEq,
        Prod.mk.injEq] at hmove
      exact hmove.2.2.elim
    · rename_i hz
      have hz0 : ec0 = 0 := by simpa using hz
      subst hz0
      rw [hproc] at hex
      simp only [Option.some.injEq] at hex
      subst hex
      by_cases h1 : ec1 = 0
      · subst h1
        rfl
      · simp only [ne_eq, h1, not_false_eq_true, if_true, Option.some.injEq,
          Prod.mk.injEq] at hmove
        exact hmove.2.2.elim
  subst hexeq
  simp only [ne_eq, not_true_eq_false, if_false, hrel, Option.some_bind,
    Option.map_some'] at hmove
  obtain ⟨ins, hins, hmove⟩ := Option.bind_eq_some.mp hmove
  obtain ⟨tm4, r4, ec4, ρ4⟩ := ins
  simp only at hmove
  split at hmove
  · rename_i hne
    simp only [Option.some.injEq, Prod.mk.injEq] at hmove
    exact absurd hmove.2.2 hne
  · rename_i hz
    have hz0 : ec4 = 0 := by simpa using hz
    subst hz0
    obtain ⟨ap, hap, hmove⟩ := Option.bind_eq_some.mp hmove
    obtain ⟨tm5, ec5, ρ5⟩ := ap
    simp only at hmove
    split at hmove
    · rename_i hne
      simp only [Option.some.injEq, Prod.mk.injEq] at hmove
      exact absurd hmove.2.2 hne
    · rename_i hz
      have hz0 : ec5 = 0 := by simpa using hz
      subst hz0
      have hnp1lt : np1.treeIndex < tmE.roots.length := treeIndex_lt_of_node hN1
      have hClt : C.treeIndex < tmE.roots.length := treeIndex_lt_of_node hCE
      have hfrnp : (NodeImpl.root tmE.roots.length).treeIndex ≠ np1.treeIndex := by
        simp only [NodeImpl.treeIndex]
        omega
      have hfrC : (NodeImpl.root tmE.roots.length).treeIndex ≠ C.treeIndex := by
        simp only [NodeImpl.treeIndex]
        omega
      have hC3 : ({ tmE with roots := tmE.roots ++ [(r.m_ownerDocument, F)] } : TreeModel).node C
          = some TCE := by
        rw [node_append_roots _ _ hClt]
        exact hCE
      have hnp3 : ({ tmE with roots := tmE.roots ++ [(r.m_ownerDocument, F)] } : TreeModel).node
          np1 = some N1 := by
        rw [node_append_roots _ _ hnp1lt]
        exact hN1
      have hF3 := node_appended_root tmE r.m_ownerDocument F
      have hkindC : ¬ (TCE.nodeType = .TEXT_NODE ∨ TCE.nodeType = .CDATA_SECTION_NODE) := by
        intro h
        rcases h with h | h <;> simp [h, isCharacterLike] at hcharC
      have hku : toUnsigned (k : Int) = k := by
        rw [toUnsigned_of_nonneg (by omega) hk31]
        simp
      obtain ⟨hnanc, hib, hr4⟩ := insertNode_element_inv rfl hC3 hkindC hins
      simp only [hku] at hib
      obtain ⟨dE, hdE, hdEN⟩ := takeOut_total hN1
      obtain ⟨tmT, N2, ρ⟩ := dE
      simp only at hdEN
      rw [hdEN] at hdE
      have hd3 := takeOut_append_roots hdE [(r.m_ownerDocument, F)]
      simp only at hd3
      obtain ⟨TC, hTC, _, _, hlenTC⟩ := takeOut_shape hdE C TCE hCE hnanc
      simp only at hTC hlenTC
      obtain ⟨hlenT, _, _, hdother⟩ := takeOut_other_tree hdE
      simp only at hlenT hdother
      have hρti : (ρ C).treeIndex = C.treeIndex := takeOut_treeIndex hdE C
      have hfrC1 : (NodeImpl.root tmE.roots.length).treeIndex ≠ (ρ C).treeIndex := by
        rw [hρti]
        exact hfrC
      rcases insertBefore_move hC3 hnp3 hkind hkle hib with
        ⟨hsame, h4, hρ4⟩ | ⟨hsame, _, d, PE, j, hd4, hPE, hj, hjle, h4, hρ4⟩
      · subst h4 hρ4
        exact ⟨_, tm5, np1, ρ5, hnp3, hF3, hap⟩
      · rw [hd3] at hd4
        cases Option.some.inj hd4
        simp only at hPE h4 hρ4
        have hρClt : (ρ C).treeIndex < tmT.roots.length := by
          rw [hρti, hlenT]
          exact hClt
        rw [node_append_roots _ _ hρClt, hTC] at hPE
        cases Option.some.inj hPE
        have hρ4np : ρ4 np1 = .child (ρ C) j := by
          rw [hρ4]
          simp only
          rw [if_pos (mem_ancestors_self _), rebase_self]
        have hρ4fr : ρ4 (.root tmE.roots.length) = .root tmE.roots.length := by
          rw [hρ4]
          simp only
          rw [if_neg (fun h => hfrnp (treeIndex_eq_of_mem_ancestors h).symm),
            (hdother _ hfrnp).1]
          rfl
        rw [hρ4np, hρ4fr] at hap
        have hC4 := replace_node_self h4
        have hnp4 : tm4.node (.child (ρ C) j) = some N1 := by
          rw [node_child_eq hC4, Tree.withChildren_children]
          have := getElem?_insert_mid TC.children [N1] 0 hjle (by simp)
          simpa using this
        have hF4 : tm4.node (.root tmE.roots.length) = some F := by
          rw [replace_node_other_tree h4 hfrC1, ← hlenT]
          exact node_appended_root tmT r.m_ownerDocument F
        exact ⟨tm4, tm5, _, ρ5, hnp4, hF4, hap⟩

/-! ## `surroundContents`: the result -/

/-- C25. The result of `surroundContents`, for a `newParent` such that the range selects
neither `newParent` (`hsel`) nor a child of `newParent` (`hch`).  `newParent` is a node of the
tree of the range or of another tree.  No run with a `newParent` that is the start
container, a node above the start container or a node above the end container ends
without error, nor does one with a character-like end container as `newParent` and an end
offset above 0.  The range is valid and not collapsed (containers are
nodes of one tree of a well-formed forest with fewer than `2 ^ 31` nodes, offsets within
the bounds of their containers, start not after end); `hchar` is the rule of the Tree
Model that character-like nodes allow no children.  When `surroundContents` reports no
error: the loop of lines 1151-1155 has emptied `newParent` and left the forest `tm0`, which
is `tm` when `newParent` had no children; `extractContents` on `tm0` has returned a fragment
`F` and collapsed the range at child index `k` of a node `C`, and has left the forest `tmE`,
in which `newParent`, still without children, is at `np1`; when `newParent` is taken out of
`tmE`, which leaves the node `TC` at the place `ρ C` of `C`, the collapsed range is at child
index `j` of that node: `j` is `k`, or `k - 1` when `newParent` was a child of `C` before
index `k`; in the final forest `newParent`, with the children of `F` in their order as its
children, is child `j` of that node, between the children of `TC` before and after
the collapsed range; the range selects it: it runs from `(ρ C, j)` to
`(ρ C, j + 1)`; and `F` is the content of the initial state of the range: on the initial
forest `tm`, `processContents` builds the fragment `F`, and `extractContents` returns `F`
whenever it reports no error.  The parameter `placeAfterExtract` of `extractRelocate` is
`placeOfKept`. -/
theorem surroundContents_result (isReadOnly : NodeImpl → Bool)
    (childTypeAllowed : Tree → NodeType → Bool)
    (tm tm1 : TreeModel) (r r1 : RangeImpl)
    (np sc e : NodeImpl) (ts te NP : Tree)
    (hwf : tm.wellFormed = true)
    (hsize : (tm.size : Int) < 2 ^ 31)
    (hchar : ∀ (t : Tree) (k : NodeType), isCharacterLike t.nodeType = true →
      childTypeAllowed t k = false)
    (hsc : r.m_startContainer = some sc) (he : r.m_endContainer = some e)
    (hts : tm.node sc = some ts) (hte : tm.node e = some te)
    (hroot : rootContainer sc = rootContainer e)
    (hvalid : r.boundaryPointsValid tm = some true)
    (hso0 : 0 ≤ r.m_startOffset) (hso : r.m_startOffset ≤ offsetBound ts)
    (hbs : (offsetBound ts : Int) < 2 ^ 31)
    (heo0 : 0 ≤ r.m_endOffset) (heo : r.m_endOffset ≤ offsetBound te)
    (hbe : (offsetBound te : Int) < 2 ^ 31)
    (hnc : ¬ (sc = e ∧ r.m_startOffset = r.m_endOffset))
    (hnp : tm.node np = some NP)
    (hsel : r.selects np = false)
    (hch : ∀ i, i < NP.children.length → r.selects (.child np i) = false)
    (hrun : r.surroundContents
      (surroundContentsRest isReadOnly childTypeAllowed placeOfKept) tm (some np) 0
      = some (tm1, r1, 0)) :
    ∃ (tm0 tmE tmT : TreeModel) (C np1 : NodeImpl) (k j : Nat) (F TC : Tree)
      (ρ : NodeImpl → NodeImpl),
      removeChildrenLoop NP.children.length tm r np 0 = some (tm0, r, np, false) ∧
      tm0.node np = some (NP.withChildren []) ∧ (NP.children.length = 0 → tm0 = tm) ∧
      r.extractContents (extractContentsRest isReadOnly) tm0 0
        = some (tmE, ⟨r.m_ownerDocument, some C, (k : Int), some C, (k : Int), false⟩, 0,
            some F) ∧
      extractRelocate placeOfKept tm0 r tmE.roots.length np = some np1 ∧
      tmE.node np1 = some (NP.withChildren []) ∧
      takeOut tmE np1 = some (tmT, NP.withChildren [], ρ) ∧
      tmT.node (ρ C) = some TC ∧
      j = (if np1.parentNode = some C ∧ np1.nodeIndex < k then k - 1 else k) ∧
      j ≤ TC.children.length ∧
      tm1.node (ρ C) = some (TC.withChildren
        (TC.children.take j ++ [NP.withChildren F.children] ++ TC.children.drop j)) ∧
      tm1.node (.child (ρ C) j) = some (NP.withChildren F.children) ∧
      r1 = ⟨r.m_ownerDocument, some (ρ C), (j : Int), some (ρ C), (j : Int) + 1, false⟩ ∧
      (∃ tmD rD ecD, processContents .EXTRACT_CONTENTS tm r 0 = some (tmD, rD, ecD, some F)) ∧
      ∀ tmD rD FD, r.extractContents (extractContentsRest isReadOnly) tm 0
        = some (tmD, rD, 0, FD) → FD = some F := by
  obtain ⟨hd, hkindNP, hall, hnsc, hmove⟩ := surroundContents_inv hnp hsc hts hrun
  have hsz : ∀ x X, tm.node x = some X → (X.children.length : Int) < 2 ^ 31 := by
    intro x X h
    have := children_length_lt_size h
    omega
  have hcl : isCharacterLike ts.nodeType = false := by
    cases hc : isCharacterLike ts.nodeType with
    | false => rfl
    | true =>
      rw [hchar ts NP.nodeType hc] at hall
      exact absurd hall (by decide)
  have hend0 : np = e → r.m_endOffset ≠ 0 → isCharacterLike NP.nodeType = true := by
    intro heq h0
    by_contra hc
    have hc1 : isCharacterLike NP.nodeType = false := by simpa using hc
    subst heq
    rw [hnp] at hte
    have hte1 : NP = te := Option.some.inj hte
    rw [← hte1, offsetBound_of_not_characterLike hc1] at heo
    obtain ⟨R, hloopR⟩ := commonAncestorLoop_of_same_root hroot
    obtain ⟨hRs, hRe, _⟩ := commonAncestorLoop_some hloopR
    have hneR : np ≠ R := fun h => hnsc (by rw [h]; exact hRs)
    have := hch 0 (by omega)
    rw [selects_eq hsc he hloopR] at this
    simp only [inSelectedContent, selectsChild, if_neg hneR, hnsc, and_false, if_false, hRe,
      mem_ancestors_self, and_self, if_true, Bool.or_eq_false_iff, decide_eq_false_iff_not]
      at this
    omega
  by_cases h3 : np = e ∧ r.m_endOffset ≠ 0
  · exfalso
    obtain ⟨heq, h0⟩ := h3
    have hNPc := hend0 heq h0
    subst heq
    rw [hnp] at hte
    have hte1 : NP = te := Option.some.inj hte
    subst hte1
    have hlen0 : NP.children.length = 0 := by
      rw [children_nil_of_characterLike (wellFormed_node hwf hnp) hNPc]
      rfl
    obtain ⟨tm0, tmR, extra, hloop, _, _, _, _, hzero⟩ :=
      removeChildrenLoop_spec r np
        (fun x hx i hi => by
          rw [hsc] at hx
          cases Option.some.inj hx
          exact hnsc (parent_mem_ancestors hi))
        (fun x hx i hi => by
          rw [he] at hx
          cases Option.some.inj hx
          exact child_not_mem_ancestors _ _ hi)
        NP.children.length tm NP hnp rfl hwf
    rw [hzero hlen0] at hloop
    obtain ⟨tmE, C, k, TC0, TCE, F, ec1, hproc, hC0, hrepl, hkTC, hcharC, hkle, hk31, hF, _,
        hfrag, _, hendE⟩ :=
      extract_shape hwf hd hsc he hts hnp hroot hvalid hso0 hso hbs heo0 heo hbe hnc
        (fun _ => hcl) (fun x X _ hX => hsz x X hX)
    have hneC : np ≠ C := by
      intro h
      rw [← h, hnp] at hC0
      cases Option.some.inj hC0
      rw [hNPc] at hcharC
      exact absurd hcharC (by decide)
    obtain ⟨np1, K, hrel, hK, hKk, _⟩ := hendE hneC tmE.roots.length
    have hFne : F.children ≠ [] := by
      obtain ⟨R, hloopR⟩ := commonAncestorLoop_of_same_root hroot
      obtain ⟨hRs, hRe, _⟩ := commonAncestorLoop_some hloopR
      obtain ⟨TR, hTR⟩ := valid_iff.mp (valid_of_mem_ancestors (valid_iff.mpr ⟨ts, hts⟩) hRs)
      have hneR : np ≠ R := fun h => hnsc (by rw [h]; exact hRs)
      have hsne : sc ≠ np := fun h => hnsc (by rw [h]; exact mem_ancestors_self _)
      have hks : ts.nodeType ≠ .PROCESSING_INSTRUCTION_NODE := by
        intro h
        simp [h, isCharacterLike] at hcl
      obtain ⟨X, hX⟩ : ∃ X, rightStartContents ts.nodeType NP r.m_endOffset.toNat = some X := by
        simp only [rightStartContents, hks, if_false]
        split <;> exact ⟨_, rfl⟩
      obtain ⟨Y, hY⟩ := rightSpine_some tm R np X (valid_iff.mpr ⟨NP, hnp⟩)
      simp only [extractedFragment, hsc, he, hloopR, hTR, hts, hnp, Option.some_bind,
        Option.map_some', hsne, if_false, Option.some.injEq] at hfrag
      rw [← hfrag]
      simp [complexFragment, Tree.children, hneR, hX, hY]
    obtain ⟨tm4, tm5, p, ρ5, h4, h5, h6⟩ := surroundContentsMove_append hnp hd hloop hproc
      (replace_node_self hrepl) (by rw [hkTC]; exact hcharC) hkle hk31 hrel hK
      (by rw [hKk]; exact hkindNP) hmove
    exact insertBefore_characterLike_parent hchar h4 (by rw [hKk]; exact hNPc) h5 hF hFne h6
  have hend : np = e → r.m_endOffset = 0 := by
    intro h
    by_contra h0
    exact h3 ⟨h, h0⟩
  have hend1 : np ∉ e.ancestors ∨ (np = e ∧ r.m_endOffset = 0) := by
    by_cases hnpe : np ∈ e.ancestors
    · by_cases heq : np = e
      · exact Or.inr ⟨heq, hend heq⟩
      · exfalso
        obtain ⟨c, hc⟩ := exists_child_mem_ancestors hnpe heq
        obtain ⟨Tc, hTc⟩ :=
          valid_iff.mp (valid_of_mem_ancestors (valid_iff.mpr ⟨te, hte⟩) hc)
        have hclt : c < NP.children.length := by
          rw [node_child_eq hnp c, List.getElem?_eq_some_iff] at hTc
          exact hTc.1
        have hmv := hmove
        unfold surroundContentsMove at hmv
        simp only [childNodeCount, hnp, Option.map_some', Option.some_bind] at hmv
        obtain ⟨rc, hrc, hmv⟩ := Option.bind_eq_some.mp hmv
        obtain ⟨hflag, _, hs1, e1, he1, hti⟩ := removeChildrenLoop_end_below np sc
          (fun i hi => hnsc (parent_mem_ancestors hi)) _ tm NP r e c hnp rfl hwf hsc he hc hclt
          rc hrc
        rw [hflag] at hmv
        simp only [Bool.false_eq_true, if_false] at hmv
        obtain ⟨ex, hex, hmv⟩ := Option.bind_eq_some.mp hmv
        have hne := extractContents_other_tree hs1 he1
          (by have := treeIndex_lt_of_node hts; omega) hex
        rw [if_pos hne] at hmv
        simp only [Option.some.injEq, Prod.mk.injEq] at hmv
        exact hne hmv.2.2
    · exact Or.inl hnpe
  obtain ⟨tm0, tmR, extra, hloop, hR, htm0, hnp0, hwf0, hzero⟩ :=
    removeChildrenLoop_spec r np
      (fun x hx i hi => by
        rw [hsc] at hx
        cases Option.some.inj hx
        exact hnsc (parent_mem_ancestors hi))
      (fun x hx i hi => by
        rw [he] at hx
        cases Option.some.inj hx
        rcases hend1 with h | ⟨h, _⟩
        · exact h (parent_mem_ancestors hi)
        · rw [h] at hi
          exact child_not_mem_ancestors _ _ hi)
      NP.children.length tm NP hnp rfl hwf
  obtain ⟨ts0, hts0, hk0, hd0, hl0⟩ := emptied_shape hR extra hts hnsc
  rw [← htm0] at hts0
  obtain ⟨te0, hte0, heo1, hbe1⟩ : ∃ te0, tm0.node e = some te0 ∧
      r.m_endOffset ≤ offsetBound te0 ∧ (offsetBound te0 : Int) < 2 ^ 31 := by
    rcases hend1 with h | ⟨h, h0⟩
    · obtain ⟨te0, hte0, hke0, hde0, hle0⟩ := emptied_shape hR extra hte h
      rw [← htm0] at hte0
      have hobe : offsetBound te0 = offsetBound te := by
        unfold offsetBound
        rw [hke0, hde0, hle0]
      exact ⟨te0, hte0, by rw [hobe]; exact heo, by rw [hobe]; exact hbe⟩
    · rw [← h, hnp] at hte
      have hte1 : NP = te := Option.some.inj hte
      refine ⟨NP.withChildren [], by rw [← h]; exact hnp0, by rw [h0]; omega, ?_⟩
      have hle : offsetBound (NP.withChildren []) ≤ offsetBound NP := by
        unfold offsetBound
        simp only [Tree.withChildren_nodeType, Tree.withChildren_data,
          Tree.withChildren_children, List.length_nil]
        split <;> omega
      rw [← hte1] at hbe
      omega
  have hobs : offsetBound ts0 = offsetBound ts := by
    unfold offsetBound
    rw [hk0, hd0, hl0]
  have hcl0 : isCharacterLike ts0.nodeType = false := by
    rw [hk0]
    exact hcl
  have hvalid0 := boundaryPointsValid_congr hsc he hroot (valid_iff.mpr ⟨ts, hts⟩)
    (valid_iff.mpr ⟨te, hte⟩) (valid_iff.mpr ⟨ts0, hts0⟩) (valid_iff.mpr ⟨te0, hte0⟩) hvalid
  obtain ⟨tmE, C, k, TC0, TCE, F, ec1, hproc, hC0, hrepl, hkTC, hcharC, hkle, hk31, hF, hrootC,
      hfrag, hframe, _⟩ :=
    extract_shape hwf0 hd hsc he hts0 hte0 hroot hvalid0 hso0 (by rw [hobs]; exact hso)
      (by rw [hobs]; exact hbs) heo0 heo1 hbe1 hnc
      (fun _ => hcl0) (fun x X hx hX => by
        have hlt : x.treeIndex < tm.roots.length := by
          rw [rootContainer_eq_root, rootContainer_eq_root] at hx
          injection hx with hx
          rw [hx]
          exact treeIndex_lt_of_node hts
        rw [htm0] at hX
        obtain ⟨Y, hY, hle⟩ := emptied_bound hnp hR extra hX hlt
        have := hsz x Y hY
        omega)
  obtain ⟨np1, hrel, hnp1, hti1⟩ := hframe hcl0 np hnsc hend1 hsel tmE.roots.length
  obtain ⟨tmD, CD, kD, _, _, FD, ecD, hprocD, _, _, _, _, _, _, _, _, hfragD, _, _⟩ :=
    extract_shape hwf hd hsc he hts hte hroot hvalid hso0 hso hbs heo0 heo hbe hnc
      (fun _ => hcl) (fun x X _ hX => hsz x X hX)
  have hFD : FD = F := by
    have h1 := emptied_fragment hwf hnp hR extra hsc he hts hte hroot hnsc hend1 hsel
    rw [← htm0, hfrag, hfragD] at h1
    exact (Option.some.inj h1).symm
  rw [hFD] at hprocD
  have hinit : (∃ tmD rD ecD, processContents .EXTRACT_CONTENTS tm r 0
        = some (tmD, rD, ecD, some F)) ∧
      ∀ tmD rD F1, r.extractContents (extractContentsRest isReadOnly) tm 0
        = some (tmD, rD, 0, F1) → F1 = some F := by
    refine ⟨⟨_, _, _, hprocD⟩, ?_⟩
    intro tmD1 rD1 F1 h
    unfold RangeImpl.extractContents at h
    rw [if_neg (by simp [hd])] at h
    simp only [extractContentsRest, Option.bind_eq_some] at h
    obtain ⟨ec0, _, h⟩ := h
    split at h
    · rename_i hne
      simp only [Option.some.injEq, Prod.mk.injEq] at h
      exact absurd h.2.2.1 hne
    · rename_i hz
      have hz0 : ec0 = 0 := by simpa using hz
      subst hz0
      rw [hprocD] at h
      simp only [Option.some.injEq, Prod.mk.injEq] at h
      exact h.2.2.2.symm
  rw [hnp0] at hnp1
  have hCE : tmE.node C = some TCE := replace_node_self hrepl
  unfold surroundContentsMove at hmove
  simp only [childNodeCount, hnp, Option.map_some', Option.some_bind, hloop,
    Bool.false_eq_true, if_false] at hmove
  obtain ⟨ex, hex, hmove⟩ := Option.bind_eq_some.mp hmove
  have hexeq : ex = (tmE, ⟨r.m_ownerDocument, some C, (k : Int), some C, (k : Int), false⟩,
      0, some F) := by
    unfold RangeImpl.extractContents at hex
    rw [if_neg (by simp [hd])] at hex
    simp only [extractContentsRest, Option.bind_eq_some] at hex
    obtain ⟨ec0, hchk, hex⟩ := hex
    split at hex
    · rename_i hne
      simp only [Option.some.injEq] at hex
      subst hex
      simp only [ne_eq, hne, not_false_eq_true, if_true, Option.some.injEq,
        Prod.mk.injEq] at hmove
      exact hmove.2.2.elim
    · rename_i hz
      have hz0 : ec0 = 0 := by simpa using hz
      subst hz0
      rw [hproc] at hex
      simp only [Option.some.injEq] at hex
      subst hex
      by_cases h1 : ec1 = 0
      · subst h1
        rfl
      · simp only [ne_eq, h1, not_false_eq_true, if_true, Option.some.injEq,
          Prod.mk.injEq] at hmove
        exact hmove.2.2.elim
  subst hexeq
  simp only [ne_eq, not_true_eq_false, if_false, hrel, Option.some_bind,
    Option.map_some'] at hmove
  obtain ⟨ins, hins, hmove⟩ := Option.bind_eq_some.mp hmove
  obtain ⟨tm4, r4, ec4, ρ4⟩ := ins
  simp only at hmove
  split at hmove
  · rename_i hne
    simp only [Option.some.injEq, Prod.mk.injEq] at hmove
    exact absurd hmove.2.2 hne
  · rename_i hz
    have hz0 : ec4 = 0 := by simpa using hz
    subst hz0
    obtain ⟨ap, hap, hmove⟩ := Option.bind_eq_some.mp hmove
    obtain ⟨tm5, ec5, ρ5⟩ := ap
    simp only at hmove
    split at hmove
    · rename_i hne
      simp only [Option.some.injEq, Prod.mk.injEq] at hmove
      exact absurd hmove.2.2 hne
    · rename_i hz
      have hz0 : ec5 = 0 := by simpa using hz
      subst hz0
      obtain ⟨sel, hsel6, hmove⟩ := Option.map_eq_some'.mp hmove
      obtain ⟨r6, ec6⟩ := sel
      simp only [Prod.mk.injEq] at hmove
      obtain ⟨h1, h2, h3⟩ := hmove
      subst h1 h2 h3
      -- the forest that holds the fragment
      have hnp1lt : np1.treeIndex < tmE.roots.length := treeIndex_lt_of_node hnp1
      have hClt : C.treeIndex < tmE.roots.length := treeIndex_lt_of_node hCE
      have hfrnp : (NodeImpl.root tmE.roots.length).treeIndex ≠ np1.treeIndex := by
        simp only [NodeImpl.treeIndex]
        omega
      have hfrC : (NodeImpl.root tmE.roots.length).treeIndex ≠ C.treeIndex := by
        simp only [NodeImpl.treeIndex]
        omega
      have hC3 : ({ tmE with roots := tmE.roots ++ [(r.m_ownerDocument, F)] } : TreeModel).node C
          = some TCE := by
        rw [node_append_roots _ _ hClt]
        exact hCE
      have hnp3 : ({ tmE with roots := tmE.roots ++ [(r.m_ownerDocument, F)] } : TreeModel).node
          np1 = some (NP.withChildren []) := by
        rw [node_append_roots _ _ hnp1lt]
        exact hnp1
      have hF3 := node_appended_root tmE r.m_ownerDocument F
      have hkindC : ¬ (TCE.nodeType = .TEXT_NODE ∨ TCE.nodeType = .CDATA_SECTION_NODE) := by
        rw [hkTC]
        intro h
        rcases h with h | h <;> simp [h, isCharacterLike] at hcharC
      have hku : toUnsigned (k : Int) = k := by
        rw [toUnsigned_of_nonneg (by omega) hk31]
        simp
      obtain ⟨hnanc, hib, hr4⟩ := insertNode_element_inv rfl hC3 hkindC hins
      simp only [hku] at hib
      obtain ⟨dE, hdE, hdEN⟩ := takeOut_total hnp1
      obtain ⟨tmT, N1, ρ⟩ := dE
      simp only at hdEN
      subst hdEN
      have hd3 := takeOut_append_roots hdE [(r.m_ownerDocument, F)]
      simp only at hd3
      obtain ⟨TC, hTC, _, _, hlenTC⟩ := takeOut_shape hdE C TCE hCE hnanc
      simp only at hTC hlenTC
      obtain ⟨hlenT, _, _, hdother⟩ := takeOut_other_tree hdE
      simp only at hlenT hdother
      have hρti : (ρ C).treeIndex = C.treeIndex := takeOut_treeIndex hdE C
      have hfrC1 : (NodeImpl.root tmE.roots.length).treeIndex ≠ (ρ C).treeIndex := by
        rw [hρti]
        exact hfrC
      rcases insertBefore_move hC3 hnp3 hkindNP hkle hib with
        ⟨hsame, h4, hρ4⟩ | ⟨hsame, _, d, PE, j, hd4, hPE, hj, hjle, h4, hρ4⟩
      · -- `newParent` is where the range has collapsed
        subst h4 hρ4
        have hklt : k < TCE.children.length := by
          rw [hsame, node_child_eq hCE k, List.getElem?_eq_some_iff] at hnp1
          exact hnp1.1
        have hnp3k : ({ tmE with roots := tmE.roots ++ [(r.m_ownerDocument, F)] } :
            TreeModel).node (.child C k) = some (NP.withChildren []) := hsame ▸ hnp3
        have hap1 : insertBefore childTypeAllowed
            ({ tmE with roots := tmE.roots ++ [(r.m_ownerDocument, F)] } : TreeModel)
            (.child C k) (some (.root tmE.roots.length)) none 0 = some (tm5, 0, ρ5) := by
          rw [← hsame]
          exact hap
        obtain ⟨tmF, hEF, h5, hρ5⟩ := insertBefore_append_fragment hnp3k hF3 hF
          (by simp only [NodeImpl.treeIndex]; omega) hap1
        have hρ5np : ρ5 (.child C k) = .child C k := by
          rw [hρ5]
          simp only
          rw [if_neg (fun h => hfrC (@treeIndex_eq_of_mem_ancestors _ (.child C k) h.1)),
            relocateInsert_self]
        have hsel1 := hsel6
        rw [hsame] at hsel1
        simp only [id_eq] at hsel1
        rw [hρ5np] at hsel1
        obtain ⟨p, hp, hr6⟩ := selectNode_shape hsel1
        simp only [NodeImpl.parentNode, Option.some.injEq] at hp
        rw [← hp] at hr6
        have hnp5 := replace_node_self h5
        have hCF : tmF.node C = some TCE := by
          rw [replace_node_other_tree hEF (Ne.symm hfrC)]
          exact hC3
        have hnpF : tmF.node (.child C k) = some (NP.withChildren []) := by
          rw [replace_node_other_tree hEF (y := .child C k) (Ne.symm hfrC)]
          exact hnp3k
        have hC5 := replace_node_parent hCF hnpF h5
        -- what `takeOut` does here
        have hdE1 := hdE
        rw [hsame] at hdE1
        simp only [takeOut, detachNode, hCE, Option.some_bind, Option.bind_eq_some,
          Option.map_eq_some', Prod.mk.injEq] at hdE1
        obtain ⟨sub, _, tmT1, hT1, hT2, _, hT3⟩ := hdE1
        subst hT2 hT3
        rw [relocate_self] at hTC
        rw [replace_node_self hT1] at hTC
        cases Option.some.inj hTC
        refine ⟨tm0, tmE, tmT1, C, np1, k, k, F, _, relocate C k, hloop, hnp0, hzero, hex, hrel,
          hnp1, hdE, (by rw [relocate_self]; exact replace_node_self hT1), ?_, ?_, ?_, ?_, ?_, hinit⟩
        · rw [hsame]
          simp [NodeImpl.parentNode, NodeImpl.nodeIndex]
        · simp only [Tree.withChildren_children, List.length_eraseIdx, hklt, if_true]
          omega
        · rw [relocate_self, hC5]
          simp only [Tree.withChildren_children, Tree.withChildren_withChildren,
            eraseIdx_insert_eq_set _ _ _ hklt, List.nil_append]
        · rw [relocate_self, hnp5]
          rfl
        · rw [relocate_self, hr6, hr4]
          simp [RangeImpl.relocate, NodeImpl.nodeIndex]
      · -- `newParent` is taken out of where it is and put in
        rw [hd3] at hd4
        cases Option.some.inj hd4
        simp only at hPE h4 hρ4
        have hρClt : (ρ C).treeIndex < tmT.roots.length := by
          rw [hρti, hlenT]
          exact hClt
        rw [node_append_roots _ _ hρClt, hTC] at hPE
        cases Option.some.inj hPE
        have hρ4np : ρ4 np1 = .child (ρ C) j := by
          rw [hρ4]
          simp only
          rw [if_pos (mem_ancestors_self _), rebase_self]
        have hρ4fr : ρ4 (.root tmE.roots.length) = .root tmE.roots.length := by
          rw [hρ4]
          simp only
          rw [if_neg (fun h => hfrnp (treeIndex_eq_of_mem_ancestors h).symm),
            (hdother _ hfrnp).1]
          rfl
        rw [hρ4np, hρ4fr] at hap
        have hC4 := replace_node_self h4
        have hnp4 : tm4.node (.child (ρ C) j) = some (NP.withChildren []) := by
          rw [node_child_eq hC4, Tree.withChildren_children]
          have := getElem?_insert_mid TC.children [NP.withChildren []] 0 hjle (by simp)
          simpa using this
        have hF4 : tm4.node (.root tmE.roots.length) = some F := by
          rw [replace_node_other_tree h4 hfrC1, ← hlenT]
          exact node_appended_root tmT r.m_ownerDocument F
        obtain ⟨tmF, hEF, h5, hρ5⟩ := insertBefore_append_fragment hnp4 hF4 hF
          (by simp only [NodeImpl.treeIndex]; omega) hap
        have hρ5np : ρ5 (.child (ρ C) j) = .child (ρ C) j := by
          rw [hρ5]
          simp only
          rw [if_neg (fun h => hfrC1 (@treeIndex_eq_of_mem_ancestors _ (.child (ρ C) j) h.1)),
            relocateInsert_self]
        rw [hρ4np, hρ5np] at hsel6
        obtain ⟨p, hp, hr6⟩ := selectNode_shape hsel6
        simp only [NodeImpl.parentNode, Option.some.injEq] at hp
        rw [← hp] at hr6
        have hnp5 := replace_node_self h5
        have hCF : tmF.node (ρ C) = some (TC.withChildren
            (TC.children.take j ++ [NP.withChildren []] ++ TC.children.drop j)) := by
          rw [replace_node_other_tree hEF (Ne.symm hfrC1)]
          exact hC4
        have hnpF : tmF.node (.child (ρ C) j) = some (NP.withChildren []) := by
          rw [replace_node_other_tree hEF (y := .child (ρ C) j) (Ne.symm hfrC1)]
          exact hnp4
        have hC5 := replace_node_parent hCF hnpF h5
        refine ⟨tm0, tmE, tmT, C, np1, k, j, F, TC, ρ, hloop, hnp0, hzero, hex, hrel,
          hnp1, hdE, hTC, hj, hjle, ?_, ?_, ?_, hinit⟩
        · rw [hC5]
          simp only [Tree.withChildren_children, set_insert_mid _ _ hjle, List.nil_append]
          rfl
        · rw [hnp5]
          rfl
        · rw [hr6, hr4]
          simp [RangeImpl.relocate, NodeImpl.nodeIndex]


theorem result_of_map {α γ : Type} {o : Option α} {g : α → γ} {c : γ}
    (h : o.map g = some c) : ∃ x, o = some x ∧ g x = c := by
  cases o with
  | none => simp at h
  | some x => exact ⟨x, rfl, by simpa using h⟩

theorem surroundContents_result_witness :
    ∃ tm1 : TreeModel,
      tm1.roots =
        [ (some (.root 0), .mk .DOCUMENT_NODE []
            [ .mk .ELEMENT_NODE [100]
                [ .mk .ELEMENT_NODE [98] [],
                  .mk .ELEMENT_NODE [117]
                    [ .mk .ELEMENT_NODE [98] [ .mk .TEXT_NODE [120] [] ],
                      .mk .ELEMENT_NODE [105] [ .mk .TEXT_NODE [121] [] ] ],
                  .mk .ELEMENT_NODE [105] [] ] ]),
          (some (.root 0), .mk .TEXT_NODE [122] []),
          (some (.root 0), .mk .DOCUMENT_FRAGMENT_NODE [] []) ] ∧
      ∃ (tm0 tmE tmT : TreeModel) (C np1 : NodeImpl) (k j : Nat) (F TC : Tree)
        (ρ : NodeImpl → NodeImpl),
        removeChildrenLoop surroundInnerUNode.children.length surroundInnerModel
          surroundInnerRange surroundInnerU 0
          = some (tm0, surroundInnerRange, surroundInnerU, false) ∧
        tm0.node surroundInnerU = some (surroundInnerUNode.withChildren []) ∧
        (surroundInnerUNode.children.length = 0 → tm0 = surroundInnerModel) ∧
        surroundInnerRange.extractContents (extractContentsRest noneReadOnly) tm0 0
          = some (tmE, ⟨surroundInnerRange.m_ownerDocument, some C, (k : Int), some C, (k : Int),
              false⟩, 0, some F) ∧
        extractRelocate placeOfKept tm0 surroundInnerRange tmE.roots.length surroundInnerU
          = some np1 ∧
        tmE.node np1 = some (surroundInnerUNode.withChildren []) ∧
        takeOut tmE np1 = some (tmT, surroundInnerUNode.withChildren [], ρ) ∧
        tmT.node (ρ C) = some TC ∧
        j = (if np1.parentNode = some C ∧ np1.nodeIndex < k then k - 1 else k) ∧
        j ≤ TC.children.length ∧
        tm1.node (ρ C) = some (TC.withChildren
          (TC.children.take j ++ [surroundInnerUNode.withChildren F.children] ++
            TC.children.drop j)) ∧
        tm1.node (.child (ρ C) j) = some (surroundInnerUNode.withChildren F.children) ∧
        (⟨some (.root 0), some surroundDiv, 1, some surroundDiv, 2, false⟩ : RangeImpl)
          = ⟨surroundInnerRange.m_ownerDocument, some (ρ C), (j : Int), some (ρ C), (j : Int) + 1,
              false⟩ ∧
        (∃ tmD rD ecD, processContents .EXTRACT_CONTENTS surroundInnerModel surroundInnerRange 0
          = some (tmD, rD, ecD, some F)) ∧
        ∀ tmD rD FD, surroundInnerRange.extractContents (extractContentsRest noneReadOnly)
          surroundInnerModel 0 = some (tmD, rD, 0, FD) → FD = some F := by
  have h : (surroundInnerRange.surroundContents
      (surroundContentsRest noneReadOnly domChildTypeAllowed placeOfKept)
      surroundInnerModel (some surroundInnerU) 0).map (fun x => (x.1.roots, x.2))
      = some ([ (some (.root 0), .mk .DOCUMENT_NODE []
            [ .mk .ELEMENT_NODE [100]
                [ .mk .ELEMENT_NODE [98] [],
                  .mk .ELEMENT_NODE [117]
                    [ .mk .ELEMENT_NODE [98] [ .mk .TEXT_NODE [120] [] ],
                      .mk .ELEMENT_NODE [105] [ .mk .TEXT_NODE [121] [] ] ],
                  .mk .ELEMENT_NODE [105] [] ] ]),
          (some (.root 0), .mk .TEXT_NODE [122] []),
          (some (.root 0), .mk .DOCUMENT_FRAGMENT_NODE [] []) ],
        ⟨some (.root 0), some surroundDiv, 1, some surroundDiv, 2, false⟩, 0) := by decide!
  obtain ⟨x, hx, hg⟩ := result_of_map h
  obtain ⟨tm1, r1, ec⟩ := x
  simp only [Prod.mk.injEq] at hg
  obtain ⟨h1, h2, h3⟩ := hg
  subst h2 h3
  exact ⟨tm1, h1, surroundContents_result noneReadOnly domChildTypeAllowed
    surroundInnerModel tm1 surroundInnerRange _
    surroundInnerU (.child surroundDiv 1) (.child surroundDiv 2)
    (.mk .ELEMENT_NODE [98] [ .mk .TEXT_NODE [120] [] ])
    (.mk .ELEMENT_NODE [105] [ .mk .TEXT_NODE [121] [] ])
    surroundInnerUNode
    (by decide) (by decide) domChildTypeAllowed_characterLike rfl rfl rfl rfl rfl
    (by decide) (by decide) (by decide) (by decide) (by decide) (by decide) (by decide)
    (by decide) rfl (by decide) (by decide) hx⟩

/-- C25, counterexample, on `<div><b>x</b><i>y</i></div>` with `newParent` the `i`; both runs of
`surroundContents` report no error and leave the range around `newParent`, child 0 of the
`div`.  First the range from `(div, 0)` to `(div, 2)`, which selects `newParent`: the only
child of `newParent` afterwards is the `b`, while `extractContents` on the same range and
forest returns the `b` and the `i`.  Then the range from `(div, 0)` to `(i, 1)`, of which
`newParent` is the end container and which selects the child `y` of `newParent`, not
`newParent` itself: the children of `newParent` afterwards are the `b` and an `i` without
children, while `extractContents` on the same range and forest returns the `b` and an `i`
with the child `y`. -/
theorem surroundContents_result_inside :
    (∃ (tm1 tmE : TreeModel) (rE : RangeImpl) (N F : Tree),
      surroundRange.boundaryPointsValid surroundModel = some true ∧
      surroundRange.selects surroundI = true ∧
      surroundRange.surroundContents
        (surroundContentsRest noneReadOnly domChildTypeAllowed placeOfKept)
        surroundModel (some surroundI) 0 = some (tm1, surroundedRange, 0) ∧
      tm1.node (.child surroundDiv 0) = some N ∧
      N = .mk .ELEMENT_NODE [105] [ .mk .ELEMENT_NODE [98] [ .mk .TEXT_NODE [120] [] ] ] ∧
      surroundRange.extractContents (extractContentsRest noneReadOnly) surroundModel 0
        = some (tmE, rE, 0, some F) ∧
      F = .mk .DOCUMENT_FRAGMENT_NODE []
        [ .mk .ELEMENT_NODE [98] [ .mk .TEXT_NODE [120] [] ],
          .mk .ELEMENT_NODE [105] [ .mk .TEXT_NODE [121] [] ] ] ∧
      N.children.length = 1 ∧ F.children.length = 2) ∧
    (∃ (tm1 tmE : TreeModel) (rE : RangeImpl) (N F : Tree),
      surroundEndRange.boundaryPointsValid surroundModel = some true ∧
      surroundEndRange.m_endContainer = some surroundI ∧
      surroundEndRange.m_endOffset = 1 ∧
      surroundEndRange.selects surroundI = false ∧
      surroundEndRange.selects (.child surroundI 0) = true ∧
      surroundEndRange.surroundContents
        (surroundContentsRest noneReadOnly domChildTypeAllowed placeOfKept)
        surroundModel (some surroundI) 0 = some (tm1, surroundedRange, 0) ∧
      tm1.node (.child surroundDiv 0) = some N ∧
      N = .mk .ELEMENT_NODE [105]
        [ .mk .ELEMENT_NODE [98] [ .mk .TEXT_NODE [120] [] ], .mk .ELEMENT_NODE [105] [] ] ∧
      surroundEndRange.extractContents (extractContentsRest noneReadOnly) surroundModel 0
        = some (tmE, rE, 0, some F) ∧
      F = .mk .DOCUMENT_FRAGMENT_NODE []
        [ .mk .ELEMENT_NODE [98] [ .mk .TEXT_NODE [120] [] ],
          .mk .ELEMENT_NODE [105] [ .mk .TEXT_NODE [121] [] ] ] ∧
      N.children ≠ F.children) := by
  refine ⟨⟨_, _, _, _, _, by decide, by decide, rfl, rfl, rfl, rfl, rfl, rfl, rfl⟩, ?_⟩
  have h1 : (surroundEndRange.surroundContents
      (surroundContentsRest noneReadOnly domChildTypeAllowed placeOfKept)
      surroundModel (some surroundI) 0).map
        (fun x => (x.1.node (.child surroundDiv 0), x.2))
      = some (some (.mk .ELEMENT_NODE [105]
          [ .mk .ELEMENT_NODE [98] [ .mk .TEXT_NODE [120] [] ], .mk .ELEMENT_NODE [105] [] ]),
        surroundedRange, 0) := by decide!
  have h2 : (surroundEndRange.extractContents (extractContentsRest noneReadOnly)
      surroundModel 0).map (fun x => (x.2.2.1, x.2.2.2))
      = some (0, some (.mk .DOCUMENT_FRAGMENT_NODE []
        [ .mk .ELEMENT_NODE [98] [ .mk .TEXT_NODE [120] [] ],
          .mk .ELEMENT_NODE [105] [ .mk .TEXT_NODE [121] [] ] ])) := by decide!
  obtain ⟨x, hx, hg⟩ := result_of_map h1
  obtain ⟨tm1, r1, ec⟩ := x
  simp only [Prod.mk.injEq] at hg
  obtain ⟨g1, g2, g3⟩ := hg
  subst g2 g3
  obtain ⟨y, hy, hf⟩ := result_of_map h2
  obtain ⟨tmE, rE, ecE, fr⟩ := y
  simp only [Prod.mk.injEq] at hf
  obtain ⟨f1, f2⟩ := hf
  subst f1 f2
  exact ⟨tm1, tmE, rE, _, _, by decide, rfl, rfl, by decide, by decide, hx, g1, rfl, hy, rfl,
    by decide⟩

end WebCore
